import Mathlib

/-!
# ThisBot: bitboards, precomputed tables and magic lookups (`src/bitboard.cpp`)

Shallow embedding conventions.

* A `Bitboard` (`std::uint64_t`) is a natural number below `2^64`; every operation that can
  leave that range in C++ (`~`, `<<`, `*`) is reduced modulo `2^64` explicitly.
* A C array is a function from its index; an index outside the array is undefined behaviour
  in the source and is modelled by the value `0` together with an explicit definedness guard
  in the callers (`Board.generateLegalMoves` returns `none` where the source would index
  outside an array).
* A `while (bb) { sq = popLSB(bb); ... }` loop is the combinator `forBits` with fuel `64`
  (a 64-bit word has at most 64 set bits).
-/

namespace chess

/-- A `std::uint64_t` bitboard. -/
abbrev Bitboard := Nat

/-- The modulus of `std::uint64_t` arithmetic, `2^64`. -/
def U64 : Nat := 18446744073709551616

/-- The all-ones word `~0ULL`. -/
def ALL : Bitboard := 18446744073709551615

/-- The C++ `~bb` on a 64-bit word. -/
def bnot (bb : Bitboard) : Bitboard := ALL ^^^ (bb % U64)

/-- The squares `0..63` in ascending order. -/
def sq64 : List Nat :=
  [0,1,2,3,4,5,6,7,8,9,10,11,12,13,14,15,16,17,18,19,20,21,22,23,24,25,26,27,28,29,30,31,
   32,33,34,35,36,37,38,39,40,41,42,43,44,45,46,47,48,49,50,51,52,53,54,55,56,57,58,59,60,
   61,62,63]

/-- The intrinsic `__builtin_ctzll`: index of the lowest set bit (`64` on the zero word, where
the intrinsic is undefined; no caller passes zero). -/
def lsb (bb : Bitboard) : Nat := (sq64.find? (fun i => bb.testBit i)).getD 64

/-- The function `popLSB`: the index of the lowest set bit and the word with that bit cleared
(`bb &= bb - 1`). -/
def popLSB (bb : Bitboard) : Nat × Bitboard := (lsb bb, bb &&& (bb - 1))

/-- The intrinsic `__builtin_popcountll`: number of set bits of a 64-bit word. -/
def popCount (bb : Bitboard) : Nat := sq64.countP (fun i => bb.testBit i)

def rankOf (sq : Nat) : Nat := sq >>> 3
def fileOf (sq : Nat) : Nat := sq &&& 7
def squareBB (sq : Nat) : Bitboard := 1 <<< sq

/-- The loop `while (bb) { int sq = popLSB(bb); s = f sq s; }`. -/
def forBits {σ : Type} : Nat → Bitboard → (Nat → σ → σ) → σ → σ
  | 0, _, _, s => s
  | fuel + 1, bb, f, s =>
    if bb = 0 then s else forBits fuel (popLSB bb).2 f (f (popLSB bb).1 s)

/-! ## Colours, piece types, castling rights (all `std::uint8_t` enums) -/

abbrev Color := Nat
def WHITE : Color := 0
def BLACK : Color := 1
/-- The operator `~` on `Color`: `Color(c ^ 1)`. -/
def Color.flip (c : Color) : Color := c ^^^ 1

abbrev PieceType := Nat
def PAWN : PieceType := 0
def KNIGHT : PieceType := 1
def BISHOP : PieceType := 2
def ROOK : PieceType := 3
def QUEEN : PieceType := 4
def KING : PieceType := 5
def NO_PIECE : PieceType := 7

abbrev CastlingRights := Nat
def NO_CASTLING : CastlingRights := 0
def WHITE_OO : CastlingRights := 1
def WHITE_OOO : CastlingRights := 2
def BLACK_OO : CastlingRights := 4
def BLACK_OOO : CastlingRights := 8
def WHITE_CASTLE : CastlingRights := 3
def BLACK_CASTLE : CastlingRights := 12
def ALL_CASTLING : CastlingRights := 15

/-! ## Tables -/

namespace Tables

def ROOK_MAGIC_NUMBERS : List Nat := [
  0x80001020804000, 0x640001008200040, 0x680100080200088, 0x480080080b0004c,
  0x42800a1400800800, 0x100010002040008, 0x8080020001000080, 0x8100014c29000482,
  0x4800480400020, 0x2040401000200048, 0x2411001041002000, 0x800801000800804,
  0x2004808004000800, 0x600800400800200, 0x200a200090c48, 0x32000102004084,
  0x440808000304004, 0x810024020004000, 0x4010002000280400, 0x4000808010000802,
  0x108818004001800, 0x20808004000200, 0x4120010100040200, 0x2201a000080c304,
  0x8810810200220040, 0x4800400180200080, 0x180802200420010, 0x100080080080,
  0xa01028500080010, 0x84000202000810, 0x2006004200014428, 0x2142030200008474,
  0x6400804003800120, 0x1a0400080802000, 0xa000841004802001, 0x1002009001002,
  0x40080800800, 0x3000209000400, 0x10028104001008, 0x5100005896000504,
  0x800308040008000, 0x4020002040008080, 0x41002000410010, 0x30001008008080,
  0x4000040008008080, 0x1000204010008, 0x800810022c0019, 0x1000080410002,
  0x80002000400040, 0x500804002201280, 0x212430020001100, 0x4200841120200,
  0x3001008040201002, 0x2204000200410040, 0x808090210082c00, 0x48c800100004080,
  0x160410020108001, 0xa0400024110481, 0x108429102a001, 0x480090004201001,
  0x2000410200802, 0x200100080400862d, 0x80c10004020010a1, 0x204812402508502]

def BISHOP_MAGIC_NUMBERS : List Nat := [
  0x240018105020881, 0x80410a2820a8408, 0x11000a200400000, 0x832411d202014c80,
  0x20202108100480a, 0x1102230080008, 0x40d6010960b01081, 0x203808288200204,
  0x200a1121a0e0400, 0x820002100c030548, 0x810040802104080, 0x4001040410900061,
  0x1282040420080008, 0x4340020202225000, 0x8020090080800, 0x1004048080800,
  0x8004008412426, 0x20008c8080884, 0x1208084480210200, 0x24a0200202004001,
  0x201c0108220800c8, 0x242006420901800, 0x141000401011020, 0x665420084240900,
  0x10084400a02002a0, 0x1a103008412800, 0x40880210002827, 0x245180a0080200a0,
  0x201001031004001, 0x490010020241100, 0x820804094400, 0x2000728022008400,
  0x850041010051002, 0x8022024200101028, 0x1444210100102401, 0x880400820060200,
  0x4040400001100, 0x800a009100020440, 0x401044900040100, 0x808008100148060,
  0x34490802c0025000, 0x8080b008003002, 0x100420044401010, 0xd000084010404200,
  0x1440404101001210, 0x4040080081000020, 0x100801c400800400, 0x1010051052801906,
  0x4820841042100804, 0x100208828080420, 0x1010030251100400, 0x8404000104880010,
  0x2809202020000, 0xc00801444025, 0x8022221401040800, 0x8202584301220008,
  0x1041101011000, 0x4000230061100801, 0x8094200042080400, 0x600040140840400,
  0x4010088208841, 0x805280200410a080, 0x10082001241108, 0x4840101200404184]

/-- The array `CASTLING_ROOK_FROM`, indexed by `color * 2 + side`. -/
def CASTLING_ROOK_FROM (idx : Nat) : Nat := [7, 0, 63, 56].getD idx 0
/-- The array `CASTLING_ROOK_TO`, indexed by `color * 2 + side`. -/
def CASTLING_ROOK_TO (idx : Nat) : Nat := [5, 3, 61, 59].getD idx 0

/-- The array `CASTLING_RIGHTS_MASK`: `CastlingRights(~WHITE_OOO)` and the like are 8-bit
values, of which only the low four bits ever meet a rights value. -/
def CASTLING_RIGHTS_MASK (sq : Nat) : CastlingRights :=
  if sq = 0 then 255 - WHITE_OOO
  else if sq = 4 then 255 - WHITE_CASTLE
  else if sq = 7 then 255 - WHITE_OO
  else if sq = 56 then 255 - BLACK_OOO
  else if sq = 60 then 255 - BLACK_CASTLE
  else if sq = 63 then 255 - BLACK_OO
  else ALL_CASTLING

/-- Whether rank `r` and file `f` (as C `int`s) lie on the board. -/
def onBoard (r f : Int) : Bool := decide (0 ≤ r) && decide (r < 8) && decide (0 ≤ f) && decide (f < 8)

/-- The square `r * 8 + f` of an on-board rank and file. -/
def sqAt (r f : Int) : Nat := (r * 8 + f).toNat

/-- One ray of `slowRookAttacks` / `slowBishopAttacks`: the inner loop
`for (i = 1; i < 8; ++i)` from step `i`, with `fuel` iterations left. -/
def slowRay (r f dr df : Int) (occ : Bitboard) : Nat → Int → Bitboard → Bitboard
  | 0, _, attacks => attacks
  | fuel + 1, i, attacks =>
    let nr := r + dr * i
    let nf := f + df * i
    if !onBoard nr nf then attacks
    else
      let nsq := sqAt nr nf
      let attacks := attacks ||| squareBB nsq
      if occ &&& squareBB nsq ≠ 0 then attacks
      else slowRay r f dr df occ fuel (i + 1) attacks

/-- The outer loop over the four directions `(dr[d], df[d])`. -/
def slowAttacks (dirs : List (Int × Int)) (sq : Nat) (occ : Bitboard) : Bitboard :=
  dirs.foldl (fun attacks d => slowRay (rankOf sq) (fileOf sq) d.1 d.2 occ 7 1 attacks) 0

def rookDirs : List (Int × Int) := [(1, 0), (-1, 0), (0, 1), (0, -1)]
def bishopDirs : List (Int × Int) := [(1, 1), (1, -1), (-1, 1), (-1, -1)]

def slowRookAttacks (sq : Nat) (occ : Bitboard) : Bitboard := slowAttacks rookDirs sq occ
def slowBishopAttacks (sq : Nat) (occ : Bitboard) : Bitboard := slowAttacks bishopDirs sq occ

/-- A loop `for (i = start; cond i; i += step) mask |= squareBB(sqf i)` with `fuel`
iterations left. -/
def maskLoop (cond : Int → Bool) (sqf : Int → Nat) (step : Int) : Nat → Int → Bitboard → Bitboard
  | 0, _, mask => mask
  | fuel + 1, i, mask =>
    if cond i then maskLoop cond sqf step fuel (i + step) (mask ||| squareBB (sqf i)) else mask

def rookMask (sq : Nat) : Bitboard :=
  let r : Int := rankOf sq
  let f : Int := fileOf sq
  let mask := maskLoop (fun i => decide (i < 7)) (fun i => sqAt i f) 1 8 (r + 1) 0
  let mask := maskLoop (fun i => decide (i > 0)) (fun i => sqAt i f) (-1) 8 (r - 1) mask
  let mask := maskLoop (fun i => decide (i < 7)) (fun i => sqAt r i) 1 8 (f + 1) mask
  maskLoop (fun i => decide (i > 0)) (fun i => sqAt r i) (-1) 8 (f - 1) mask

def bishopMask (sq : Nat) : Bitboard :=
  let r : Int := rankOf sq
  let f : Int := fileOf sq
  let mask := maskLoop (fun i => decide (r + i < 7) && decide (f + i < 7))
    (fun i => sqAt (r + i) (f + i)) 1 8 1 0
  let mask := maskLoop (fun i => decide (r + i < 7) && decide (f - i > 0))
    (fun i => sqAt (r + i) (f - i)) 1 8 1 mask
  let mask := maskLoop (fun i => decide (r - i > 0) && decide (f + i < 7))
    (fun i => sqAt (r - i) (f + i)) 1 8 1 mask
  maskLoop (fun i => decide (r - i > 0) && decide (f - i > 0))
    (fun i => sqAt (r - i) (f - i)) 1 8 1 mask

/-- The function `indexToOccupancy`: spread the low bits of `index` over the set bits of
`mask`, lowest first. The state of the loop is `(occ, index)`. -/
def indexToOccupancy (index : Nat) (mask : Bitboard) : Bitboard :=
  (forBits 64 mask
    (fun sq (s : Bitboard × Nat) =>
      ((if s.2 &&& 1 ≠ 0 then s.1 ||| squareBB sq else s.1), s.2 >>> 1))
    (0, index)).1

/-- The magic index `(occ * magic) >> shift` in 64-bit arithmetic. -/
def magicIndex (occ magic : Bitboard) (shift : Nat) : Nat := ((occ * magic) % U64) >>> shift

/-- The segment of `ROOK_TABLE` / `BISHOP_TABLE` that `init` fills for one square, as the
function from an index to the entry stored there: the loop
`for (i = 0; i < size; ++i) attacks[idx(i)] = slow(sq, occ(i))` run for `n` iterations over a
zero-initialised table (a later write to the same index wins). -/
def fillTable (slow : Nat → Bitboard → Bitboard) (sq : Nat) (mask magic : Bitboard)
    (shift : Nat) : Nat → Nat → Bitboard
  | 0 => fun _ => 0
  | n + 1 => fun j =>
    let occ := indexToOccupancy n mask
    if magicIndex occ magic shift = j then slow sq occ
    else fillTable slow sq mask magic shift n j

/-- The struct `MagicEntry`; `attacks` is the table segment the pointer refers to. -/
structure MagicEntry where
  mask : Bitboard
  magic : Bitboard
  attacks : Nat → Bitboard
  shift : Nat

/-- The entry `ROOK_MAGICS[sq]` after `init()`. -/
def ROOK_MAGICS (sq : Nat) : MagicEntry :=
  let mask := rookMask sq
  let magic := ROOK_MAGIC_NUMBERS.getD sq 0
  let shift := 64 - popCount mask
  { mask := mask, magic := magic, shift := shift,
    attacks := fillTable slowRookAttacks sq mask magic shift (1 <<< popCount mask) }

/-- The entry `BISHOP_MAGICS[sq]` after `init()`. -/
def BISHOP_MAGICS (sq : Nat) : MagicEntry :=
  let mask := bishopMask sq
  let magic := BISHOP_MAGIC_NUMBERS.getD sq 0
  let shift := 64 - popCount mask
  { mask := mask, magic := magic, shift := shift,
    attacks := fillTable slowBishopAttacks sq mask magic shift (1 <<< popCount mask) }

/-- The entry `KING_ATTACKS[sq]` after `init()`. -/
def kingAttacksInit (sq : Nat) : Bitboard :=
  let r : Int := rankOf sq
  let f : Int := fileOf sq
  ([-1, 0, 1] : List Int).foldl (fun k dr =>
    ([-1, 0, 1] : List Int).foldl (fun k df =>
      if (dr ≠ 0 ∨ df ≠ 0) ∧ onBoard (r + dr) (f + df) = true
      then k ||| squareBB (sqAt (r + dr) (f + df)) else k) k) 0

def knightDeltas : List (Int × Int) :=
  [(-2, -1), (-2, 1), (-1, -2), (-1, 2), (1, -2), (1, 2), (2, -1), (2, 1)]

/-- The entry `KNIGHT_ATTACKS[sq]` after `init()`. -/
def knightAttacksInit (sq : Nat) : Bitboard :=
  let r : Int := rankOf sq
  let f : Int := fileOf sq
  knightDeltas.foldl (fun n d =>
    if onBoard (r + d.1) (f + d.2) = true then n ||| squareBB (sqAt (r + d.1) (f + d.2)) else n) 0

/-- The entry `PAWN_ATTACKS[c][sq]` after `init()`. -/
def pawnAttacksInit (c : Color) (sq : Nat) : Bitboard :=
  let r := rankOf sq
  let f := fileOf sq
  if c = WHITE then
    if r < 7 then
      (if f > 0 then squareBB (sq + 7) else 0) ||| (if f < 7 then squareBB (sq + 9) else 0)
    else 0
  else
    if r > 0 then
      (if f > 0 then squareBB (sq - 9) else 0) ||| (if f < 7 then squareBB (sq - 7) else 0)
    else 0

/-- The sign `(a > b) - (a < b)`. -/
def sgn (a b : Int) : Int := (if a > b then 1 else 0) - (if a < b then 1 else 0)

/-- The loop `for (r, f = start; r != r2 || f != f2; r += dr, f += df) bb |= squareBB(r*8+f)`
of `BETWEEN_BB`, with `fuel` iterations left. -/
def betweenLoop (r2 f2 dr df : Int) : Nat → Int → Int → Bitboard → Bitboard
  | 0, _, _, bb => bb
  | fuel + 1, r, f, bb =>
    if r ≠ r2 ∨ f ≠ f2 then betweenLoop r2 f2 dr df fuel (r + dr) (f + df) (bb ||| squareBB (sqAt r f))
    else bb

/-- The loops `for (r, f = start; on board; r += dr, f += df) bb |= squareBB(r*8+f)` of
`LINE_BB`, with `fuel` iterations left. -/
def lineLoop (dr df : Int) : Nat → Int → Int → Bitboard → Bitboard
  | 0, _, _, bb => bb
  | fuel + 1, r, f, bb =>
    if onBoard r f = true then lineLoop dr df fuel (r + dr) (f + df) (bb ||| squareBB (sqAt r f))
    else bb

/-- Whether `s1` and `s2` share a rank, a file or a diagonal (`onLine` in `init`). -/
def onLine (s1 s2 : Nat) : Bool :=
  let r1 : Int := rankOf s1
  let f1 : Int := fileOf s1
  let r2 : Int := rankOf s2
  let f2 : Int := fileOf s2
  decide (r1 = r2) || decide (f1 = f2) || decide ((r2 - r1).natAbs = (f2 - f1).natAbs)

/-- The entry `BETWEEN_BB[s1][s2]` after `init()`. -/
def betweenInit (s1 s2 : Nat) : Bitboard :=
  if s1 = s2 then 0
  else
    let r1 : Int := rankOf s1
    let f1 : Int := fileOf s1
    let r2 : Int := rankOf s2
    let f2 : Int := fileOf s2
    let dr := sgn r2 r1
    let df := sgn f2 f1
    if onLine s1 s2 = true then betweenLoop r2 f2 dr df 8 (r1 + dr) (f1 + df) 0 else 0

/-- The entry `LINE_BB[s1][s2]` after `init()`. -/
def lineInit (s1 s2 : Nat) : Bitboard :=
  if s1 = s2 then 0
  else
    let r1 : Int := rankOf s1
    let f1 : Int := fileOf s1
    let r2 : Int := rankOf s2
    let f2 : Int := fileOf s2
    let dr := sgn r2 r1
    let df := sgn f2 f1
    if onLine s1 s2 = true then
      lineLoop dr df 8 (r1 + dr) (f1 + df) (lineLoop (-dr) (-df) 8 r1 f1 0)
    else 0

end Tables

/-- The function `rookAttacks`: the magic lookup
`e.attacks[((occ & e.mask) * e.magic) >> e.shift]`. -/
def rookAttacks (sq : Nat) (occ : Bitboard) : Bitboard :=
  let e := Tables.ROOK_MAGICS sq
  e.attacks (Tables.magicIndex (occ &&& e.mask) e.magic e.shift)

/-- The function `bishopAttacks`: the magic lookup
`e.attacks[((occ & e.mask) * e.magic) >> e.shift]`. -/
def bishopAttacks (sq : Nat) (occ : Bitboard) : Bitboard :=
  let e := Tables.BISHOP_MAGICS sq
  e.attacks (Tables.magicIndex (occ &&& e.mask) e.magic e.shift)

/-- The attack lookups that `Tables::init()` makes available to the board code: the five
plain arrays and the two magic lookups. The board functions take the initialised tables as
an explicit argument; an index outside `0..63` reads `0` (see the file header). -/
structure Lookups where
  KING_ATTACKS : Nat → Bitboard
  KNIGHT_ATTACKS : Nat → Bitboard
  PAWN_ATTACKS : Color → Nat → Bitboard
  BETWEEN_BB : Nat → Nat → Bitboard
  LINE_BB : Nat → Nat → Bitboard
  rookAttacks : Nat → Bitboard → Bitboard
  bishopAttacks : Nat → Bitboard → Bitboard

/-- The function `queenAttacks`. -/
def Lookups.queenAttacks (T : Lookups) (sq : Nat) (occ : Bitboard) : Bitboard :=
  T.rookAttacks sq occ ||| T.bishopAttacks sq occ

/-- The state of the global tables after `Tables::init()`. -/
def Tables.init : Lookups where
  KING_ATTACKS := fun sq => if sq < 64 then Tables.kingAttacksInit sq else 0
  KNIGHT_ATTACKS := fun sq => if sq < 64 then Tables.knightAttacksInit sq else 0
  PAWN_ATTACKS := fun c sq => if sq < 64 then Tables.pawnAttacksInit c sq else 0
  BETWEEN_BB := fun s1 s2 => if s1 < 64 ∧ s2 < 64 then Tables.betweenInit s1 s2 else 0
  LINE_BB := fun s1 s2 => if s1 < 64 ∧ s2 < 64 then Tables.lineInit s1 s2 else 0
  rookAttacks := fun sq occ => if sq < 64 then rookAttacks sq occ else 0
  bishopAttacks := fun sq occ => if sq < 64 then bishopAttacks sq occ else 0

end chess

/-!
# ThisBot: moves, Zobrist keys and the board (`src/move.cpp`, `src/bitboard.cpp`, `src/board.cpp`)
-/

namespace chess

/-! ## Moves (`src/move.cpp`) -/

abbrev MoveType := Nat
def MT_NORMAL : MoveType := 0
def MT_PROMOTION : MoveType := 1
def MT_EN_PASSANT : MoveType := 2
def MT_CASTLING : MoveType := 3

/-- The class `Move`: a packed `std::uint32_t`. -/
structure Move where
  data_ : Nat
deriving DecidableEq, Repr

namespace Move

/-- The constructor `Move(from, to, mt, promo)`:
`from | (to << 6) | (mt << 12) | ((promo - KNIGHT) << 14)`. -/
def make (src dst : Nat) (mt : MoveType) (promo : PieceType) : Move :=
  ⟨src ||| (dst <<< 6) ||| (mt <<< 12) ||| ((promo - KNIGHT) <<< 14)⟩

/-- The constructor with its default arguments `mt = MT_NORMAL`, `promo = KNIGHT`. -/
def normal (src dst : Nat) : Move := make src dst MT_NORMAL KNIGHT

/-- The default constructor `Move()`. -/
def null : Move := ⟨0⟩

/-- The accessor `from()`. -/
def src (m : Move) : Nat := m.data_ &&& 0x3F
/-- The accessor `to()`. -/
def dst (m : Move) : Nat := (m.data_ >>> 6) &&& 0x3F
/-- The accessor `type()`. -/
def type (m : Move) : MoveType := (m.data_ >>> 12) &&& 0x3
def promo (m : Move) : PieceType := ((m.data_ >>> 14) &&& 0x3) + KNIGHT
def isNull (m : Move) : Bool := m.data_ == 0

end Move

/-! ## Zobrist keys (`namespace Zobrist` in `src/bitboard.cpp`) -/

namespace Zobrist

/-- The seed `x` of `splitmix64` after `n` calls (each call does `x += 0x9e3779b97f4a7c15`). -/
def seedAfter : Nat → Nat
  | 0 => 0x123456789abcdef
  | n + 1 => (seedAfter n + 0x9e3779b97f4a7c15) % U64

/-- The value `splitmix64` returns when it leaves the seed at `x`. -/
def mix (x : Nat) : Nat :=
  let z := x
  let z := ((z ^^^ (z >>> 30)) * 0xbf58476d1ce4e5b9) % U64
  let z := ((z ^^^ (z >>> 27)) * 0x94d049bb133111eb) % U64
  z ^^^ (z >>> 31)

/-- The value returned by the `n`-th call of `splitmix64` (counting from `0`). -/
def draw (n : Nat) : Nat := mix (seedAfter (n + 1))

end Zobrist

/-- The key tables `Zobrist::PIECE`, `CASTLING`, `EP`, `SIDE`. -/
structure ZobristKeys where
  PIECE : Color → PieceType → Nat → Nat
  CASTLING : Nat → Nat
  EP : Nat → Nat
  SIDE : Nat

/-- The state of the key tables after `Zobrist::init()`: the loops draw the keys in the order
`PIECE[c][pt][sq]` (768 keys), `CASTLING[i]` (16), `EP[i]` (8), `SIDE`. -/
def Zobrist.init : ZobristKeys where
  PIECE := fun c pt sq => if c < 2 ∧ pt < 6 ∧ sq < 64 then Zobrist.draw ((c * 6 + pt) * 64 + sq) else 0
  CASTLING := fun i => if i < 16 then Zobrist.draw (768 + i) else 0
  EP := fun i => if i < 8 then Zobrist.draw (784 + i) else 0
  SIDE := Zobrist.draw 792

/-! ## The board (`src/board.cpp`) -/

/-- The function `f` with the entry at `i` replaced by `v` (an array store `f[i] = v`). -/
def setAt {α : Type} (f : Nat → α) (i : Nat) (v : α) : Nat → α := fun j => if j = i then v else f j

/-- The function `f` with the entry at `[i][j]` replaced by `v`. -/
def setAt2 {α : Type} (f : Nat → Nat → α) (i j : Nat) (v : α) : Nat → Nat → α :=
  fun a b => if a = i ∧ b = j then v else f a b

/-- The struct `UndoInfo`: a packed `std::uint32_t`. -/
structure UndoInfo where
  data : Nat
deriving DecidableEq, Repr

namespace UndoInfo

def castling (u : UndoInfo) : CastlingRights := u.data &&& 0xF
def ep (u : UndoInfo) : Int := (((u.data >>> 4) &&& 0x7F : Nat) : Int) - 1
def halfmove (u : UndoInfo) : Nat := (u.data >>> 11) &&& 0xFF
def captured (u : UndoInfo) : PieceType := (u.data >>> 19) &&& 0x7
def isInvalid (u : UndoInfo) : Bool := u.data &&& 0x80000000 != 0

/-- The function `UndoInfo::make`; `std::uint32_t(ep + 1)` is the conversion of an `int`. -/
def make (c : CastlingRights) (ep : Int) (hm : Nat) (cap : PieceType) : UndoInfo :=
  ⟨(c ||| ((((ep + 1) % 4294967296).toNat <<< 4) % 4294967296) ||| ((hm <<< 11) % 4294967296)
    ||| ((cap <<< 19) % 4294967296))⟩

def makeInvalid : UndoInfo := ⟨0x80000000⟩

end UndoInfo

/-- The struct `NullUndo`. -/
structure NullUndo where
  ep : Int
  halfmove : Nat
  castling : CastlingRights

/-- The class `Board`. Integer fields carry their C++ width in the comments; the functions
below reduce modulo that width where the source can overflow. -/
structure Board where
  /-- The array `Bitboard pieces_[2][6]`. -/
  pieces_ : Color → PieceType → Bitboard
  /-- The array `Bitboard byColor_[2]`. -/
  byColor_ : Color → Bitboard
  occupied_ : Bitboard
  /-- The array `std::uint8_t mailbox_[64]`: piece type in the low 3 bits, colour in bit 3,
  empty = `0xFF`. -/
  mailbox_ : Nat → Nat
  sideToMove_ : Color
  castling_ : CastlingRights
  /-- The field `std::int8_t epSquare_`. -/
  epSquare_ : Int
  /-- The field `std::uint8_t halfmove_`. -/
  halfmove_ : Nat
  /-- The field `std::uint16_t fullmove_`. -/
  fullmove_ : Nat
  /-- The array `std::uint8_t kingSquare_[2]`. -/
  kingSquare_ : Color → Nat
  /-- The vector `history_`, oldest entry first. -/
  history_ : List Nat
  hash_ : Nat

namespace Board

/-- The function `clear()`; the mailbox is modelled on the indices `0..63`, every other index
reads as the empty marker. -/
def clear : Board where
  pieces_ := fun _ _ => 0
  byColor_ := fun _ => 0
  occupied_ := 0
  mailbox_ := fun _ => 0xFF
  sideToMove_ := WHITE
  castling_ := NO_CASTLING
  epSquare_ := -1
  halfmove_ := 0
  fullmove_ := 1
  kingSquare_ := fun _ => 255
  history_ := []
  hash_ := 0

/-- The loop body of `computeHash` for one square. -/
def hashSquare (Z : ZobristKeys) (b : Board) (h : Nat) (sq : Nat) : Nat :=
  if b.mailbox_ sq ≠ 0xFF then
    let pt := b.mailbox_ sq &&& 7
    let c := (b.mailbox_ sq >>> 3) &&& 1
    h ^^^ Z.PIECE c pt sq
  else h

def computeHash (Z : ZobristKeys) (b : Board) : Nat :=
  let h := sq64.foldl (hashSquare Z b) 0
  let h := h ^^^ Z.CASTLING b.castling_
  let h := if b.epSquare_ ≥ 0 then h ^^^ Z.EP (b.epSquare_.toNat &&& 7) else h
  if b.sideToMove_ = BLACK then h ^^^ Z.SIDE else h

def putPiece (b : Board) (c : Color) (pt : PieceType) (sq : Nat) : Board :=
  let bb := squareBB sq
  { b with
    pieces_ := setAt2 b.pieces_ c pt (b.pieces_ c pt ||| bb)
    byColor_ := setAt b.byColor_ c (b.byColor_ c ||| bb)
    occupied_ := b.occupied_ ||| bb
    mailbox_ := setAt b.mailbox_ sq (pt ||| (c <<< 3))
    kingSquare_ := if pt = KING then setAt b.kingSquare_ c sq else b.kingSquare_ }

def removePiece (b : Board) (c : Color) (pt : PieceType) (sq : Nat) : Board :=
  let bb := squareBB sq
  { b with
    pieces_ := setAt2 b.pieces_ c pt (b.pieces_ c pt &&& bnot bb)
    byColor_ := setAt b.byColor_ c (b.byColor_ c &&& bnot bb)
    occupied_ := b.occupied_ &&& bnot bb
    mailbox_ := setAt b.mailbox_ sq 0xFF }

def movePiece (b : Board) (c : Color) (pt : PieceType) (src dst : Nat) : Board :=
  let fromTo := squareBB src ||| squareBB dst
  { b with
    pieces_ := setAt2 b.pieces_ c pt (b.pieces_ c pt ^^^ fromTo)
    byColor_ := setAt b.byColor_ c (b.byColor_ c ^^^ fromTo)
    occupied_ := b.occupied_ ^^^ fromTo
    mailbox_ := setAt (setAt b.mailbox_ src 0xFF) dst (pt ||| (c <<< 3))
    kingSquare_ := if pt = KING then setAt b.kingSquare_ c dst else b.kingSquare_ }

def pieceAt (b : Board) (sq : Nat) : PieceType := b.mailbox_ sq &&& 7
def colorAt (b : Board) (sq : Nat) : Color := (b.mailbox_ sq >>> 3) &&& 1
def isEmpty (b : Board) (sq : Nat) : Bool := b.mailbox_ sq == 0xFF
def kingSq (b : Board) (c : Color) : Nat := b.kingSquare_ c

/-- The function `rebuildMailboxAndHash`. -/
def rebuildMailboxAndHash (Z : ZobristKeys) (b : Board) : Board :=
  let b := { b with mailbox_ := fun _ => 0xFF, byColor_ := fun _ => 0, occupied_ := 0,
                    kingSquare_ := fun _ => 255 }
  let b := [0, 1].foldl (fun b c =>
    [0, 1, 2, 3, 4, 5].foldl (fun b pt =>
      forBits 64 (b.pieces_ c pt) (fun sq b => b.putPiece c pt sq) b) b) b
  { b with hash_ := b.computeHash Z }

/-- The function `isRepetition(searchPly)`. The loop `for (i = 2; i <= limit; i += 2)` is run
with `fuel` iterations left. -/
def isRepetitionLoop (b : Board) (searchPly : Int) (limit : Nat) : Nat → Nat → Nat → Bool
  | 0, _, _ => false
  | fuel + 1, i, count =>
    if i ≤ limit then
      if b.history_.getD (b.history_.length - i) 0 = b.hash_ then
        if count + 1 ≥ 2 then true
        else if searchPly > 0 ∧ count + 1 ≥ 1 then true
        else isRepetitionLoop b searchPly limit fuel (i + 2) (count + 1)
      else isRepetitionLoop b searchPly limit fuel (i + 2) count
    else false

def isRepetition (b : Board) (searchPly : Int) : Bool :=
  if b.history_.length < 4 then false
  else
    let limit := min b.history_.length b.halfmove_
    isRepetitionLoop b searchPly limit (limit / 2 + 1) 2 0

def isDraw (b : Board) (searchPly : Int) : Bool :=
  decide (b.halfmove_ ≥ 100) || b.isRepetition searchPly

/-! ### Attack detection -/

/-- The three-argument `attackersTo(sq, occ, attacker)`. -/
def attackersTo (T : Lookups) (b : Board) (sq : Nat) (occ : Bitboard) (attacker : Color) : Bitboard :=
  (T.PAWN_ATTACKS attacker.flip sq &&& b.pieces_ attacker PAWN)
  ||| (T.KNIGHT_ATTACKS sq &&& b.pieces_ attacker KNIGHT)
  ||| (T.KING_ATTACKS sq &&& b.pieces_ attacker KING)
  ||| (T.rookAttacks sq occ &&& (b.pieces_ attacker ROOK ||| b.pieces_ attacker QUEEN))
  ||| (T.bishopAttacks sq occ &&& (b.pieces_ attacker BISHOP ||| b.pieces_ attacker QUEEN))

def isAttacked (T : Lookups) (b : Board) (sq : Nat) (attacker : Color) : Bool :=
  if T.KNIGHT_ATTACKS sq &&& b.pieces_ attacker KNIGHT ≠ 0 then true
  else if T.PAWN_ATTACKS attacker.flip sq &&& b.pieces_ attacker PAWN ≠ 0 then true
  else if T.KING_ATTACKS sq &&& b.pieces_ attacker KING ≠ 0 then true
  else
    let rq := b.pieces_ attacker ROOK ||| b.pieces_ attacker QUEEN
    if rq ≠ 0 ∧ T.rookAttacks sq b.occupied_ &&& rq ≠ 0 then true
    else
      let bq := b.pieces_ attacker BISHOP ||| b.pieces_ attacker QUEEN
      if bq ≠ 0 ∧ T.bishopAttacks sq b.occupied_ &&& bq ≠ 0 then true
      else false

def checkers (T : Lookups) (b : Board) : Bitboard :=
  b.attackersTo T (b.kingSq b.sideToMove_) b.occupied_ b.sideToMove_.flip

def inCheck (T : Lookups) (b : Board) : Bool :=
  b.isAttacked T (b.kingSq b.sideToMove_) b.sideToMove_.flip

/-! ### Make / unmake -/

/-- The function `makeMove`: the board after the move and the undo record. The arithmetic on
`halfmove_` (`std::uint8_t`) and `fullmove_` (`std::uint16_t`) wraps. -/
def makeMove (Z : ZobristKeys) (b : Board) (m : Move) : Board × UndoInfo :=
  let b := { b with history_ := b.history_ ++ [b.hash_] }
  let us := b.sideToMove_
  let them := us.flip
  let src := m.src
  let dst := m.dst
  let mt := m.type
  let b : Board :=
    if b.pieceAt src = NO_PIECE then
      let b := b.rebuildMailboxAndHash Z
      if b.history_ ≠ [] then { b with history_ := b.history_.dropLast ++ [b.hash_] } else b
    else b
  let moving := b.pieceAt src
  if moving = NO_PIECE then (b, UndoInfo.makeInvalid)
  else
    let captured := if b.isEmpty dst then NO_PIECE else b.pieceAt dst
    let undo := UndoInfo.make b.castling_ b.epSquare_ b.halfmove_ captured
    let hash := b.hash_ ^^^ Z.CASTLING b.castling_
    let hash := if b.epSquare_ ≥ 0 then hash ^^^ Z.EP (b.epSquare_.toNat &&& 7) else hash
    let b := { b with
      hash_ := hash
      halfmove_ := if moving = PAWN ∨ captured ≠ NO_PIECE then 0 else (b.halfmove_ + 1) % 256
      epSquare_ := -1 }
    let b : Board :=
      if mt = MT_CASTLING then
        let side := if fileOf dst = 6 then 0 else 1
        let idx := us * 2 + side
        let b := { b with hash_ := b.hash_ ^^^ Z.PIECE us KING src ^^^ Z.PIECE us KING dst
                            ^^^ Z.PIECE us ROOK (Tables.CASTLING_ROOK_FROM idx)
                            ^^^ Z.PIECE us ROOK (Tables.CASTLING_ROOK_TO idx) }
        let b := b.movePiece us KING src dst
        b.movePiece us ROOK (Tables.CASTLING_ROOK_FROM idx) (Tables.CASTLING_ROOK_TO idx)
      else
        let b : Board :=
          if captured ≠ NO_PIECE then
            ({ b with hash_ := b.hash_ ^^^ Z.PIECE them captured dst }).removePiece them captured dst
          else b
        let b : Board :=
          if mt = MT_EN_PASSANT then
            let capSq := ((dst : Int) + (if us = WHITE then -8 else 8)).toNat
            ({ b with hash_ := b.hash_ ^^^ Z.PIECE them PAWN capSq }).removePiece them PAWN capSq
          else b
        if mt = MT_PROMOTION then
          let b := { b with hash_ := b.hash_ ^^^ Z.PIECE us PAWN src ^^^ Z.PIECE us m.promo dst }
          (b.removePiece us PAWN src).putPiece us m.promo dst
        else
          let b := { b with hash_ := b.hash_ ^^^ Z.PIECE us moving src ^^^ Z.PIECE us moving dst }
          let b := b.movePiece us moving src dst
          if moving = PAWN ∧ ((dst : Int) - (src : Int)).natAbs = 16 then
            { b with epSquare_ := (((src + dst) / 2 : Nat) : Int) }
          else b
    let castling := (b.castling_ &&& Tables.CASTLING_RIGHTS_MASK src) &&& Tables.CASTLING_RIGHTS_MASK dst
    let hash := b.hash_ ^^^ Z.CASTLING castling
    let hash := if b.epSquare_ ≥ 0 then hash ^^^ Z.EP (b.epSquare_.toNat &&& 7) else hash
    let hash := hash ^^^ Z.SIDE
    ({ b with
        castling_ := castling
        hash_ := hash
        sideToMove_ := them
        fullmove_ := (b.fullmove_ + (if us = BLACK then 1 else 0)) % 65536 }, undo)

/-- The function `unmakeMove`. `history_.back()` of an empty vector is undefined behaviour in
the source and reads `0` here. -/
def unmakeMove (b : Board) (m : Move) (undo : UndoInfo) : Board :=
  if undo.isInvalid then
    if b.history_ ≠ [] then { b with history_ := b.history_.dropLast } else b
  else
    let b := { b with hash_ := b.history_.getLastD 0, history_ := b.history_.dropLast }
    let b := { b with sideToMove_ := b.sideToMove_.flip }
    let us := b.sideToMove_
    let them := us.flip
    let src := m.src
    let dst := m.dst
    let mt := m.type
    let b := { b with
      fullmove_ := (b.fullmove_ + 65536 - (if us = BLACK then 1 else 0)) % 65536
      castling_ := undo.castling
      epSquare_ := undo.ep
      halfmove_ := undo.halfmove }
    if mt = MT_CASTLING then
      let side := if fileOf dst = 6 then 0 else 1
      let idx := us * 2 + side
      let b := b.movePiece us KING dst src
      b.movePiece us ROOK (Tables.CASTLING_ROOK_TO idx) (Tables.CASTLING_ROOK_FROM idx)
    else
      let b : Board :=
        if mt = MT_PROMOTION then (b.removePiece us m.promo dst).putPiece us PAWN src
        else b.movePiece us (b.pieceAt dst) dst src
      if mt = MT_EN_PASSANT then
        let capSq := ((dst : Int) + (if us = WHITE then -8 else 8)).toNat
        b.putPiece them PAWN capSq
      else if undo.captured ≠ NO_PIECE then b.putPiece them undo.captured dst
      else b

def makeNullMove (Z : ZobristKeys) (b : Board) : Board × NullUndo :=
  let u : NullUndo := ⟨b.epSquare_, b.halfmove_, b.castling_⟩
  let hash := if b.epSquare_ ≥ 0 then b.hash_ ^^^ Z.EP (b.epSquare_.toNat &&& 7) else b.hash_
  let hash := hash ^^^ Z.SIDE
  ({ b with hash_ := hash, epSquare_ := -1, halfmove_ := 0, sideToMove_ := b.sideToMove_.flip }, u)

def unmakeNullMove (Z : ZobristKeys) (b : Board) (u : NullUndo) : Board :=
  let hash := b.hash_ ^^^ Z.SIDE
  let hash := if u.ep ≥ 0 then hash ^^^ Z.EP (u.ep.toNat &&& 7) else hash
  { b with hash_ := hash, sideToMove_ := b.sideToMove_.flip, epSquare_ := u.ep,
           halfmove_ := u.halfmove, castling_ := u.castling }

/-! ### Legal move generation

`MoveList::push` appends to a list; the capacity of 256 entries is checked once, at the end of
`generateLegalMoves`. -/

/-- The four pushes `Move(from, to, MT_PROMOTION, QUEEN/ROOK/BISHOP/KNIGHT)`. -/
def pushPromotions (moves : List Move) (src dst : Nat) : List Move :=
  moves ++ [Move.make src dst MT_PROMOTION QUEEN, Move.make src dst MT_PROMOTION ROOK,
            Move.make src dst MT_PROMOTION BISHOP, Move.make src dst MT_PROMOTION KNIGHT]

/-- The function `generatePawnMoves`. The caller guarantees that `from + forward` is a square
(see `generateLegalMoves`). -/
def generatePawnMoves (T : Lookups) (b : Board) (moves : List Move) (src : Nat) (us them : Color)
    (ksq : Nat) (isPinned : Bool) (targetMask : Bitboard) : List Move :=
  let forward : Int := if us = WHITE then 8 else -8
  let startRank := if us = WHITE then 1 else 6
  let promoRank := if us = WHITE then 6 else 1
  let rank := rankOf src
  let pinRay := if isPinned then T.LINE_BB ksq src else ALL
  let dst := ((src : Int) + forward).toNat
  let moves :=
    if b.isEmpty dst ∧ squareBB dst &&& pinRay ≠ 0 then
      let moves :=
        if squareBB dst &&& targetMask ≠ 0 then
          if rank = promoRank then pushPromotions moves src dst
          else moves ++ [Move.normal src dst]
        else moves
      if rank = startRank then
        let to2 := ((dst : Int) + forward).toNat
        if b.isEmpty to2 ∧ squareBB to2 &&& targetMask ≠ 0 ∧ squareBB to2 &&& pinRay ≠ 0 then
          moves ++ [Move.normal src to2]
        else moves
      else moves
    else moves
  let attacks := T.PAWN_ATTACKS us src &&& b.byColor_ them &&& targetMask &&& pinRay
  forBits 64 attacks (fun capSq moves =>
    if rank = promoRank then pushPromotions moves src capSq
    else moves ++ [Move.normal src capSq]) moves

/-- The function template `generatePieceMoves<PT>`, with `PT` as an argument. -/
def generatePieceMoves (T : Lookups) (b : Board) (PT : PieceType) (moves : List Move)
    (us them : Color) (ksq : Nat) (pinned targetMask : Bitboard) : List Move :=
  forBits 64 (b.pieces_ us PT) (fun src moves =>
    let isPinned : Bool := pinned &&& squareBB src != 0
    if PT = PAWN then generatePawnMoves T b moves src us them ksq isPinned targetMask
    else if PT = KNIGHT ∧ isPinned = true then moves
    else
      let attacks :=
        if PT = KNIGHT then T.KNIGHT_ATTACKS src
        else if PT = BISHOP then T.bishopAttacks src b.occupied_
        else if PT = ROOK then T.rookAttacks src b.occupied_
        else if PT = QUEEN then T.queenAttacks src b.occupied_
        else 0
      let attacks := attacks &&& (bnot (b.byColor_ us) &&& targetMask)
      let attacks := if isPinned then attacks &&& T.LINE_BB ksq src else attacks
      forBits 64 attacks (fun dst moves => moves ++ [Move.normal src dst]) moves) moves

/-- The function `generateEnPassant`: every candidate is made on the board, tested and unmade;
the state of the loop is the move list and the board. -/
def generateEnPassant (T : Lookups) (Z : ZobristKeys) (b : Board) (moves : List Move)
    (us them : Color) : List Move × Board :=
  if b.epSquare_ < 0 then (moves, b)
  else
    let pawns := b.pieces_ us PAWN &&& T.PAWN_ATTACKS them b.epSquare_.toNat
    forBits 64 pawns (fun src (s : List Move × Board) =>
      let m := Move.make src s.2.epSquare_.toNat MT_EN_PASSANT KNIGHT
      let r := s.2.makeMove Z m
      let legal := !(r.1.isAttacked T (r.1.kingSq us) them)
      let b := r.1.unmakeMove m r.2
      if legal then (s.1 ++ [m], b) else (s.1, b)) (moves, b)

def generateCastling (T : Lookups) (b : Board) (moves : List Move) (us them : Color) : List Move :=
  let ksq := if us = WHITE then 4 else 60
  let oo := if us = WHITE then WHITE_OO else BLACK_OO
  let moves :=
    if b.castling_ &&& oo ≠ 0 then
      let f1 := ksq + 1
      let g1 := ksq + 2
      if b.isEmpty f1 ∧ b.isEmpty g1 ∧ ¬ b.isAttacked T f1 them ∧ ¬ b.isAttacked T g1 them then
        moves ++ [Move.make ksq g1 MT_CASTLING KNIGHT]
      else moves
    else moves
  let ooo := if us = WHITE then WHITE_OOO else BLACK_OOO
  if b.castling_ &&& ooo ≠ 0 then
    let d1 := ksq - 1
    let c1 := ksq - 2
    let b1 := ksq - 3
    if b.isEmpty d1 ∧ b.isEmpty c1 ∧ b.isEmpty b1 ∧ ¬ b.isAttacked T d1 them ∧ ¬ b.isAttacked T c1 them then
      moves ++ [Move.make ksq c1 MT_CASTLING KNIGHT]
    else moves
  else moves

/-- The pinned pieces computed at the start of `generateLegalMoves`. -/
def pinnedPieces (T : Lookups) (b : Board) (us them : Color) (ksq : Nat) : Bitboard :=
  let occNoUs := b.occupied_ ^^^ b.byColor_ us
  let pinners :=
    (T.rookAttacks ksq occNoUs &&& (b.pieces_ them ROOK ||| b.pieces_ them QUEEN))
    ||| (T.bishopAttacks ksq occNoUs &&& (b.pieces_ them BISHOP ||| b.pieces_ them QUEEN))
  forBits 64 pinners (fun pinner pinned =>
    let between := T.BETWEEN_BB ksq pinner &&& b.occupied_
    if popCount between = 1 then pinned ||| (between &&& b.byColor_ us) else pinned) 0

/-- The king moves generated by `generateLegalMoves`. -/
def generateKingMoves (T : Lookups) (b : Board) (us them : Color) (ksq : Nat) : List Move :=
  let kingMoves := T.KING_ATTACKS ksq &&& bnot (b.byColor_ us)
  forBits 64 kingMoves (fun dst moves =>
    let newOcc := (b.occupied_ ^^^ squareBB ksq) ||| squareBB dst
    if b.attackersTo T dst newOcc them = 0 then moves ++ [Move.normal ksq dst] else moves) []

/-- The last rank of a pawn of colour `us`: a pawn standing there makes `generatePawnMoves`
index the mailbox at `from + forward`, outside the board. -/
def lastRankBB (us : Color) : Bitboard :=
  if us = WHITE then 0xFF00000000000000 else 0xFF

/-- The body of `generateLegalMoves` with the move list as a list without bound: the generated
list and the board it leaves behind. The result is `none` where the source indexes an array
outside its bounds: when the cached king square of the side to move is not a square (no king
on the board), and when a pawn of the side to move stands on its last rank and pawn moves
are generated. -/
def generateMoves (T : Lookups) (Z : ZobristKeys) (b : Board) : Option (List Move × Board) :=
  let us := b.sideToMove_
  let them := us.flip
  let ksq := b.kingSq us
  if 64 ≤ ksq then none
  else
    let checkersBB := b.checkers T
    let numCheckers := popCount checkersBB
    let pinned := b.pinnedPieces T us them ksq
    let moves := b.generateKingMoves T us them ksq
    if numCheckers > 1 then some (moves, b)
    else if b.pieces_ us PAWN &&& lastRankBB us ≠ 0 then none
    else
      let targetMask :=
        if numCheckers = 1 then T.BETWEEN_BB ksq (lsb checkersBB) ||| checkersBB else ALL
      let moves := b.generatePieceMoves T PAWN moves us them ksq pinned targetMask
      let moves := b.generatePieceMoves T KNIGHT moves us them ksq pinned targetMask
      let moves := b.generatePieceMoves T BISHOP moves us them ksq pinned targetMask
      let moves := b.generatePieceMoves T ROOK moves us them ksq pinned targetMask
      let moves := b.generatePieceMoves T QUEEN moves us them ksq pinned targetMask
      let moves := if numCheckers = 0 then b.generateCastling T moves us them else moves
      if b.epSquare_ ≥ 0 then some (b.generateEnPassant T Z moves us them) else some (moves, b)

/-- The number of entries of `MoveList` (`std::array<Move, 256>`). -/
def MOVELIST_CAPACITY : Nat := 256

/-- The function `generateLegalMoves`. `MoveList::push` does not check its index, and the
list only grows during generation: some push writes behind the array exactly when the
finished list has more than 256 moves, and the result is `none` then. -/
def generateLegalMoves (T : Lookups) (Z : ZobristKeys) (b : Board) : Option (List Move × Board) :=
  match b.generateMoves T Z with
  | none => none
  | some r => if r.1.length ≤ MOVELIST_CAPACITY then some r else none

/-! ### FEN input -/

/-- The character codes of a string literal (`std::string` is a sequence of `char`). -/
def codes (s : String) : List Nat := s.toList.map Char.toNat

/-- The function `charToPT` on a character code. -/
def charToPT (c : Nat) : PieceType :=
  let u := if 97 ≤ c ∧ c ≤ 122 then c - 32 else c
  if u = 80 then PAWN else if u = 78 then KNIGHT else if u = 66 then BISHOP
  else if u = 82 then ROOK else if u = 81 then QUEEN else if u = 75 then KING else NO_PIECE

/-- The function `strToSq` on a list of character codes. -/
def strToSq (s : List Nat) : Int :=
  match s with
  | c0 :: c1 :: _ =>
    let f : Int := (c0 : Int) - 97
    let r : Int := (c1 : Int) - 49
    if 0 ≤ f ∧ f < 8 ∧ 0 ≤ r ∧ r < 8 then r * 8 + f else -1
  | _ => -1

/-- Whether a character code is white space for `operator>>` (`std::isspace` in the C locale). -/
def isSpace (c : Nat) : Bool := c == 32 || (9 ≤ c && c ≤ 13)

/-- Skip leading white space. -/
def skipSpace : List Nat → List Nat
  | [] => []
  | c :: cs => if isSpace c then skipSpace cs else c :: cs

/-- Read the characters up to the next white space: the token and the rest of the stream. -/
def takeToken : List Nat → List Nat × List Nat
  | [] => ([], [])
  | c :: cs => if isSpace c then ([], c :: cs) else ((takeToken cs).1.cons c, (takeToken cs).2)

/-- The extraction `ss >> str` of a `std::string`: the token, the rest of the stream and
whether the extraction succeeded (it fails when only white space is left). -/
def readString (s : List Nat) : List Nat × List Nat × Bool :=
  let t := takeToken (skipSpace s)
  (t.1, t.2, !t.1.isEmpty)

/-- The digits at the head of a stream, accumulated into a number. -/
def takeDigits : List Nat → Nat → Nat × List Nat × Nat
  | [], acc => (acc, [], 0)
  | c :: cs, acc =>
    if 48 ≤ c ∧ c ≤ 57 then
      let r := takeDigits cs (acc * 10 + (c - 48))
      (r.1, r.2.1, r.2.2 + 1)
    else (acc, c :: cs, 0)

/-- The extraction `ss >> n` of an `int` (C++11 rules): the value stored, the rest of the
stream and whether the extraction succeeded. When only white space is left nothing is stored
(`dflt` is the old value); on a failed parse zero is stored; a value out of the range of
`int` stores the nearest limit and fails. -/
def readInt (dflt : Int) (s : List Nat) : Int × List Nat × Bool :=
  let s := skipSpace s
  if s.isEmpty then (dflt, s, false)
  else
    let neg := s.head? == some 45
    let s1 := if s.head? == some 45 ∨ s.head? == some 43 then s.tail else s
    let r := takeDigits s1 0
    if r.2.2 = 0 then (0, s, false)
    else
      let v : Int := if neg then -(r.1 : Int) else (r.1 : Int)
      if v > 2147483647 then (2147483647, r.2.1, false)
      else if v < -2147483648 then (-2147483648, r.2.1, false)
      else (v, r.2.1, true)

/-- The loop over the piece field of `setFEN`; the state is the board and the `int sq`. -/
def setFENPieces : List Nat → Board → Int → Board
  | [], b, _ => b
  | c :: cs, b, sq =>
    if c = 47 then setFENPieces cs b (sq - 16)
    else if 49 ≤ c ∧ c ≤ 56 then setFENPieces cs b (sq + ((c : Int) - 48))
    else
      let col := if 65 ≤ c ∧ c ≤ 90 then WHITE else BLACK
      let pt := charToPT c
      if pt ≠ NO_PIECE ∧ 0 ≤ sq ∧ sq < 64 then setFENPieces cs (b.putPiece col pt sq.toNat) (sq + 1)
      else setFENPieces cs b sq

/-- The function `setFEN` on a string given by its character codes; it returns `true` on
every input. The call starts with `clear()`, so the board it leaves behind does not depend
on the board before the call. A failed extraction leaves the stream failed, so that later
extractions store nothing. -/
def setFEN (Z : ZobristKeys) (fen : List Nat) : Bool × Board :=
  let b := Board.clear
  let p := readString fen
  let ok := p.2.2
  let sd := if ok then readString p.2.1 else ([], p.2.1, false)
  let ok := ok && sd.2.2
  let cs := if ok then readString sd.2.1 else ([], sd.2.1, false)
  let ok := ok && cs.2.2
  let ep := if ok then readString cs.2.1 else ([], cs.2.1, false)
  let ok := ok && ep.2.2
  let hm := if ok then readInt 0 ep.2.1 else (0, ep.2.1, false)
  let ok := ok && hm.2.2
  let fm := if ok then readInt 1 hm.2.1 else (1, hm.2.1, false)
  let b := setFENPieces p.1 b 56
  let b := { b with sideToMove_ := if sd.1 = [98] then BLACK else WHITE }
  let castling := cs.1.foldl (fun (cr : CastlingRights) c =>
    let cr := if c = 75 then cr ||| WHITE_OO else cr
    let cr := if c = 81 then cr ||| WHITE_OOO else cr
    let cr := if c = 107 then cr ||| BLACK_OO else cr
    if c = 113 then cr ||| BLACK_OOO else cr) NO_CASTLING
  let b := { b with
    castling_ := castling
    epSquare_ := if ep.1 = [45] then -1 else strToSq ep.1
    halfmove_ := (hm.1 % 256).toNat
    fullmove_ := (fm.1 % 65536).toNat }
  (true, { b with hash_ := b.computeHash Z, history_ := [] })

end Board

end chess

/-!
# Evaluation forms of the lookups
-/

namespace chess

/-- The lookups with the two magic lookups replaced by the ray walks they tabulate; equal to
`Tables.init` (theorem `Tables.init_eq_walk`) and cheap to evaluate. -/
def Tables.walk : Lookups where
  KING_ATTACKS := fun sq => if sq < 64 then Tables.kingAttacksInit sq else 0
  KNIGHT_ATTACKS := fun sq => if sq < 64 then Tables.knightAttacksInit sq else 0
  PAWN_ATTACKS := fun c sq => if sq < 64 then Tables.pawnAttacksInit c sq else 0
  BETWEEN_BB := fun s1 s2 => if s1 < 64 ∧ s2 < 64 then Tables.betweenInit s1 s2 else 0
  LINE_BB := fun s1 s2 => if s1 < 64 ∧ s2 < 64 then Tables.lineInit s1 s2 else 0
  rookAttacks := fun sq occ => if sq < 64 then Tables.slowRookAttacks sq occ else 0
  bishopAttacks := fun sq occ => if sq < 64 then Tables.slowBishopAttacks sq occ else 0

end chess

/-!
# Bit-level lemmas: bitboards as sets of squares
-/

namespace chess

/-- The set bits of a 64-bit word, in ascending order: the squares a `popLSB` loop visits. -/
def bitsOf (bb : Bitboard) : List Nat := sq64.filter (fun i => bb.testBit i)

theorem sq64_eq_range : sq64 = List.range 64 := by decide

theorem mem_sq64 {i : Nat} : i ∈ sq64 ↔ i < 64 := by
  rw [sq64_eq_range]; exact List.mem_range

/-- A property of the numbers below 32, from its 32 instances. -/
theorem forall_lt_32 {P : Nat → Prop}
    (h0 : P 0) (h1 : P 1) (h2 : P 2) (h3 : P 3) (h4 : P 4) (h5 : P 5) (h6 : P 6) (h7 : P 7)
    (h8 : P 8) (h9 : P 9) (h10 : P 10) (h11 : P 11) (h12 : P 12) (h13 : P 13) (h14 : P 14)
    (h15 : P 15) (h16 : P 16) (h17 : P 17) (h18 : P 18) (h19 : P 19) (h20 : P 20) (h21 : P 21)
    (h22 : P 22) (h23 : P 23) (h24 : P 24) (h25 : P 25) (h26 : P 26) (h27 : P 27) (h28 : P 28)
    (h29 : P 29) (h30 : P 30) (h31 : P 31) :
    ∀ q, q < 32 → P q := by
  intro q hq
  interval_cases q <;> assumption

/-- The check `F` holds on the squares `2 * q` and `2 * q + 1`. -/
def PairOk (F : Nat → Bool) (q : Nat) : Prop := F (2 * q) = true ∧ F (2 * q + 1) = true

instance (F : Nat → Bool) (q : Nat) : Decidable (PairOk F q) := instDecidableAnd

/-- A check of all squares, from the checks of the 32 pairs of neighbouring squares. -/
theorem sq64_all_pairs (F : Nat → Bool) (h : ∀ q, q < 32 → PairOk F q) : sq64.all F = true := by
  rw [List.all_eq_true]
  intro s hs
  have hs := mem_sq64.1 hs
  obtain ⟨h1, h2⟩ := h (s / 2) (by omega)
  rcases Nat.mod_two_eq_zero_or_one s with e | e
  · have e2 : 2 * (s / 2) = s := by omega
    rw [e2] at h1
    exact h1
  · have e2 : 2 * (s / 2) + 1 = s := by omega
    rw [e2] at h2
    exact h2

theorem U64_eq : U64 = 2 ^ 64 := by decide

theorem ALL_eq : ALL = 2 ^ 64 - 1 := by decide

theorem testBit_squareBB (s i : Nat) : (squareBB s).testBit i = decide (s = i) := by
  unfold squareBB
  rw [Nat.one_shiftLeft, Nat.testBit_two_pow]

theorem squareBB_lt {s : Nat} (h : s < 64) : squareBB s < 2 ^ 64 := by
  unfold squareBB
  rw [Nat.one_shiftLeft]
  exact Nat.pow_lt_pow_right (by decide) h

theorem testBit_ALL (i : Nat) : ALL.testBit i = decide (i < 64) := by
  rw [ALL_eq, Nat.testBit_two_pow_sub_one]

theorem testBit_bnot (bb i : Nat) : (bnot bb).testBit i = (decide (i < 64) && !bb.testBit i) := by
  unfold bnot
  rw [Nat.testBit_xor, testBit_ALL, U64_eq, Nat.testBit_mod_two_pow]
  by_cases h : i < 64 <;> simp [h]

theorem bnot_lt (bb : Nat) : bnot bb < 2 ^ 64 := by
  apply Nat.lt_pow_two_of_testBit
  intro i hi
  rw [testBit_bnot]
  simp; omega

theorem lt_of_testBit {bb i : Nat} (hbb : bb < 2 ^ 64) (h : bb.testBit i = true) : i < 64 := by
  by_contra hi
  have h2 : bb < 2 ^ i := lt_of_lt_of_le hbb (Nat.pow_le_pow_right (by decide) (by omega))
  rw [Nat.testBit_lt_two_pow h2] at h
  exact Bool.noConfusion h

theorem and_ne_zero_iff {x y : Nat} : x &&& y ≠ 0 ↔ ∃ i, x.testBit i = true ∧ y.testBit i = true := by
  constructor
  · intro h
    obtain ⟨i, hi⟩ := Nat.ne_zero_implies_bit_true h
    rw [Nat.testBit_and, Bool.and_eq_true] at hi
    exact ⟨i, hi⟩
  · rintro ⟨i, h1, h2⟩ h0
    have : (x &&& y).testBit i = true := by rw [Nat.testBit_and, h1, h2]; rfl
    rw [h0] at this
    simp at this

theorem and_eq_zero_iff {x y : Nat} : x &&& y = 0 ↔ ∀ i, ¬ (x.testBit i = true ∧ y.testBit i = true) := by
  rw [← not_iff_not, ← ne_eq, and_ne_zero_iff]
  push_neg
  rfl

theorem ne_zero_iff_exists {x : Nat} : x ≠ 0 ↔ ∃ i, x.testBit i = true := by
  constructor
  · exact Nat.ne_zero_implies_bit_true
  · rintro ⟨i, h⟩ h0
    rw [h0] at h
    simp at h

theorem and_squareBB_ne_zero {x s : Nat} : x &&& squareBB s ≠ 0 ↔ x.testBit s = true := by
  rw [and_ne_zero_iff]
  constructor
  · rintro ⟨i, h1, h2⟩
    rw [testBit_squareBB] at h2
    have := of_decide_eq_true h2
    subst this
    exact h1
  · intro h
    exact ⟨s, h, by rw [testBit_squareBB]; simp⟩

theorem squareBB_and_ne_zero {x s : Nat} : squareBB s &&& x ≠ 0 ↔ x.testBit s = true := by
  rw [Nat.land_comm]; exact and_squareBB_ne_zero

theorem mem_bitsOf {bb i : Nat} : i ∈ bitsOf bb ↔ i < 64 ∧ bb.testBit i = true := by
  unfold bitsOf
  rw [List.mem_filter, mem_sq64]

theorem mem_bitsOf_of_lt {bb i : Nat} (hbb : bb < 2 ^ 64) : i ∈ bitsOf bb ↔ bb.testBit i = true := by
  rw [mem_bitsOf]
  exact ⟨fun h => h.2, fun h => ⟨lt_of_testBit hbb h, h⟩⟩

theorem bitsOf_sorted (bb : Nat) : (bitsOf bb).Sorted (· < ·) := by
  unfold bitsOf
  apply List.Sorted.filter
  rw [sq64_eq_range]
  exact List.sorted_lt_range 64

theorem bitsOf_nodup (bb : Nat) : (bitsOf bb).Nodup := (bitsOf_sorted bb).nodup

theorem popCount_eq (bb : Nat) : popCount bb = (bitsOf bb).length := by
  unfold popCount bitsOf
  exact List.countP_eq_length_filter _ _

/-- Two strictly increasing lists with the same members are equal. -/
theorem sorted_ext {l1 l2 : List Nat} (h1 : l1.Sorted (· < ·)) (h2 : l2.Sorted (· < ·))
    (h : ∀ i, i ∈ l1 ↔ i ∈ l2) : l1 = l2 :=
  List.eq_of_perm_of_sorted ((List.perm_ext_iff_of_nodup h1.nodup h2.nodup).2 h) h1 h2

end chess

namespace chess

/-- Clearing the lowest set bit: `bb & (bb - 1)` keeps every bit except the lowest set one. -/
theorem testBit_clear_lowest {bb k : Nat} (hk : bb.testBit k = true)
    (hlow : ∀ j, j < k → bb.testBit j = false) (i : Nat) :
    (bb &&& (bb - 1)).testBit i = (bb.testBit i && decide (i ≠ k)) := by
  have hmod : bb % 2 ^ (k + 1) = 2 ^ k := by
    apply Nat.eq_of_testBit_eq
    intro j
    rw [Nat.testBit_mod_two_pow, Nat.testBit_two_pow]
    by_cases hj : j < k
    · rw [hlow j hj]; simp only [Bool.and_false, false_eq_decide_iff]; omega
    · by_cases hjk : j = k
      · subst hjk
        simp only [Nat.lt_succ_self, decide_True, hk, Bool.and_self]
      · have : ¬ j < k + 1 := by omega
        simp only [this, decide_False, Bool.false_and, false_eq_decide_iff, ne_eq]; omega
  have hdecomp : bb = 2 ^ (k + 1) * (bb / 2 ^ (k + 1)) + 2 ^ k := by
    have := Nat.div_add_mod bb (2 ^ (k + 1))
    rw [hmod] at this
    exact this.symm
  have hpos : 0 < 2 ^ k := Nat.pow_pos (by decide)
  have hsub : bb - 1 = 2 ^ (k + 1) * (bb / 2 ^ (k + 1)) + (2 ^ k - 1) := by omega
  have hlt1 : 2 ^ k < 2 ^ (k + 1) := Nat.pow_lt_pow_right (by decide) (by omega)
  have hlt2 : 2 ^ k - 1 < 2 ^ (k + 1) := by omega
  rw [Nat.testBit_and]
  have e1 : bb.testBit i = if i < k + 1 then (2 ^ k).testBit i else (bb / 2 ^ (k + 1)).testBit (i - (k + 1)) := by
    conv_lhs => rw [hdecomp]
    exact Nat.testBit_mul_pow_two_add _ hlt1 i
  have e2 : (bb - 1).testBit i = if i < k + 1 then (2 ^ k - 1).testBit i else (bb / 2 ^ (k + 1)).testBit (i - (k + 1)) := by
    rw [hsub]
    exact Nat.testBit_mul_pow_two_add _ hlt2 i
  rw [e2, e1]
  by_cases h : i < k + 1
  · simp only [h, if_true, Nat.testBit_two_pow, Nat.testBit_two_pow_sub_one]
    by_cases h2 : i = k
    · subst h2
      simp only [decide_True, Nat.lt_irrefl, decide_False, Bool.and_false, ne_eq, not_true_eq_false]
    · have : ¬ k = i := fun e => h2 e.symm
      simp only [this, decide_False, Bool.false_and, ne_eq, decide_not]
  · simp only [h, if_false]
    have : i ≠ k := by omega
    simp only [Bool.and_self, ne_eq, this, not_false_eq_true, decide_True, Bool.and_true]

theorem lsb_spec {bb : Nat} (h : ∃ i, i < 64 ∧ bb.testBit i = true) :
    lsb bb < 64 ∧ bb.testBit (lsb bb) = true ∧ ∀ j, j < lsb bb → bb.testBit j = false := by
  unfold lsb
  rw [sq64_eq_range]
  obtain ⟨i, hi, hb⟩ := h
  cases hf : (List.range 64).find? (fun i => bb.testBit i) with
  | none =>
    rw [List.find?_eq_none] at hf
    exact absurd hb (hf i (List.mem_range.2 hi))
  | some k =>
    simp only [Option.getD_some]
    have hk := List.find?_some hf
    have hmem := List.mem_of_find?_eq_some hf
    refine ⟨List.mem_range.1 hmem, hk, ?_⟩
    intro j hj
    by_contra hne
    have hjt : bb.testBit j = true := by simpa using hne
    obtain ⟨as, bs, hl, hno⟩ := List.find?_eq_some.1 hf |>.2
    have hsorted : (List.range 64).Sorted (· < ·) := List.sorted_lt_range 64
    rw [hl] at hsorted
    have hjmem : j ∈ as ++ k :: bs := by
      rw [← hl]; exact List.mem_range.2 (lt_trans hj (List.mem_range.1 hmem))
    rcases List.mem_append.1 hjmem with hja | hjb
    · exact absurd hjt (by simpa using hno j hja)
    · rcases List.mem_cons.1 hjb with rfl | hjb
      · exact lt_irrefl _ hj
      · have := (List.pairwise_cons.1 (List.Pairwise.sublist (List.sublist_append_right as (k :: bs)) hsorted)).1 j hjb
        exact lt_asymm hj this

theorem lsb_spec_of_ne_zero {bb : Nat} (hbb : bb < 2 ^ 64) (h0 : bb ≠ 0) :
    lsb bb < 64 ∧ bb.testBit (lsb bb) = true ∧ ∀ j, j < lsb bb → bb.testBit j = false := by
  obtain ⟨i, hi⟩ := Nat.ne_zero_implies_bit_true h0
  exact lsb_spec ⟨i, lt_of_testBit hbb hi, hi⟩

theorem bitsOf_zero : bitsOf 0 = [] := by decide

theorem bitsOf_eq_cons {bb : Nat} (hbb : bb < 2 ^ 64) (h0 : bb ≠ 0) :
    bitsOf bb = lsb bb :: bitsOf (bb &&& (bb - 1)) := by
  obtain ⟨hlt, hk, hlow⟩ := lsb_spec_of_ne_zero hbb h0
  apply sorted_ext (bitsOf_sorted bb)
  · apply List.sorted_cons.2
    refine ⟨?_, bitsOf_sorted _⟩
    intro i hi
    rw [mem_bitsOf, testBit_clear_lowest hk hlow] at hi
    simp only [Bool.and_eq_true, decide_eq_true_eq] at hi
    by_contra hle
    rcases Nat.lt_or_eq_of_le (Nat.le_of_not_lt hle) with h | h
    · rw [hlow i h] at hi; exact Bool.noConfusion hi.2.1
    · exact hi.2.2 h
  · intro i
    rw [List.mem_cons, mem_bitsOf, mem_bitsOf, testBit_clear_lowest hk hlow]
    simp only [Bool.and_eq_true, decide_eq_true_eq]
    constructor
    · rintro ⟨h1, h2⟩
      by_cases e : i = lsb bb
      · exact Or.inl e
      · exact Or.inr ⟨h1, h2, e⟩
    · rintro (rfl | ⟨h1, h2, _⟩)
      · exact ⟨hlt, hk⟩
      · exact ⟨h1, h2⟩

theorem bitsOf_length_le (bb : Nat) : (bitsOf bb).length ≤ 64 := by
  unfold bitsOf
  exact le_trans (List.length_filter_le _ _) (by decide)

theorem forBits_eq_aux {σ : Type} (f : Nat → σ → σ) :
    ∀ (fuel bb : Nat) (s : σ), bb < 2 ^ 64 → (bitsOf bb).length ≤ fuel →
      forBits fuel bb f s = (bitsOf bb).foldl (fun s i => f i s) s := by
  intro fuel
  induction fuel with
  | zero =>
    intro bb s _ hlen
    have : bitsOf bb = [] := List.length_eq_zero.1 (Nat.le_zero.1 hlen)
    rw [this]; rfl
  | succ n ih =>
    intro bb s hbb hlen
    unfold forBits
    by_cases h0 : bb = 0
    · subst h0; rw [bitsOf_zero]; simp
    · rw [if_neg h0]
      have hc := bitsOf_eq_cons hbb h0
      have hbb2 : bb &&& (bb - 1) < 2 ^ 64 := lt_of_le_of_lt Nat.and_le_left hbb
      have hlen2 : (bitsOf (bb &&& (bb - 1))).length ≤ n := by
        rw [hc] at hlen
        simpa using hlen
      show forBits n (bb &&& (bb - 1)) f (f (lsb bb) s) = _
      rw [ih _ _ hbb2 hlen2, hc]
      rfl

/-- A `popLSB` loop over a 64-bit word folds its body over the set bits in ascending order. -/
theorem forBits_eq {σ : Type} (f : Nat → σ → σ) (bb : Nat) (s : σ) (hbb : bb < 2 ^ 64) :
    forBits 64 bb f s = (bitsOf bb).foldl (fun s i => f i s) s :=
  forBits_eq_aux f 64 bb s hbb (bitsOf_length_le bb)

end chess

/-!
# The ray walks and the magic lookups
-/

namespace chess

open Tables

/-- The square `n` steps from `sq` in direction `d = (dr, df)`. -/
def stepSq (sq : Nat) (d : Int × Int) (n : Nat) : Nat :=
  sqAt ((rankOf sq : Int) + d.1 * (n : Int)) ((fileOf sq : Int) + d.2 * (n : Int))

/-- Whether the square `n` steps from `sq` in direction `d` is on the board. -/
def stepOn (sq : Nat) (d : Int × Int) (n : Nat) : Bool :=
  onBoard ((rankOf sq : Int) + d.1 * (n : Int)) ((fileOf sq : Int) + d.2 * (n : Int))

/-- What a ray walk reaches, in words: `t` is `n` steps from `sq` in one of the directions,
every step up to `t` is on the board and no step before `t` is occupied (the first blocker is
included, nothing behind it is). -/
def Reach (dirs : List (Int × Int)) (sq : Nat) (occ : Bitboard) (t : Nat) : Prop :=
  ∃ d ∈ dirs, ∃ n, 1 ≤ n ∧ n < 8 ∧ (∀ j, 1 ≤ j → j ≤ n → stepOn sq d j = true) ∧
    (∀ j, 1 ≤ j → j < n → occ.testBit (stepSq sq d j) = false) ∧ t = stepSq sq d n

theorem testBit_slowRay (sq : Nat) (d : Int × Int) (occ : Bitboard) (t : Nat) :
    ∀ (fuel i : Nat) (acc : Bitboard),
      (slowRay (rankOf sq) (fileOf sq) d.1 d.2 occ fuel (i : Int) acc).testBit t = true ↔
        (acc.testBit t = true ∨ ∃ n, i ≤ n ∧ n < i + fuel ∧
          (∀ j, i ≤ j → j ≤ n → stepOn sq d j = true) ∧
          (∀ j, i ≤ j → j < n → occ.testBit (stepSq sq d j) = false) ∧ t = stepSq sq d n) := by
  intro fuel
  induction fuel with
  | zero =>
    intro i acc
    unfold slowRay
    constructor
    · intro h; exact Or.inl h
    · rintro (h | ⟨n, h1, h2, _⟩)
      · exact h
      · omega
  | succ m ih =>
    intro i acc
    unfold slowRay
    simp only []
    by_cases hon : stepOn sq d i = true
    · have hon2 : (!onBoard ((rankOf sq : Int) + d.1 * (i : Int)) ((fileOf sq : Int) + d.2 * (i : Int))) = false := by
        unfold stepOn at hon; rw [hon]; rfl
      rw [hon2]
      simp only [Bool.false_eq_true, if_false]
      by_cases hocc : occ.testBit (stepSq sq d i) = true
      · have hne : occ &&& squareBB (sqAt ((rankOf sq : Int) + d.1 * (i : Int)) ((fileOf sq : Int) + d.2 * (i : Int))) ≠ 0 :=
          and_squareBB_ne_zero.2 hocc
        rw [if_pos hne, Nat.testBit_or, testBit_squareBB, Bool.or_eq_true, decide_eq_true_eq]
        constructor
        · rintro (h | h)
          · exact Or.inl h
          · exact Or.inr ⟨i, le_refl _, by omega, fun j h1 h2 => by
              have : j = i := by omega
              subst this; exact hon, fun j h1 h2 => by omega, h.symm⟩
        · rintro (h | ⟨n, h1, h2, h3, h4, h5⟩)
          · exact Or.inl h
          · right
            by_cases hn : n = i
            · subst hn; exact h5.symm
            · have := h4 i (le_refl _) (by omega)
              rw [hocc] at this
              exact Bool.noConfusion this
      · have hocc2 : occ.testBit (stepSq sq d i) = false := by simpa using hocc
        have hne : ¬ (occ &&& squareBB (sqAt ((rankOf sq : Int) + d.1 * (i : Int)) ((fileOf sq : Int) + d.2 * (i : Int))) ≠ 0) := by
          rw [and_squareBB_ne_zero]; exact hocc
        rw [if_neg hne]
        have hcast : ((i : Int) + 1) = ((i + 1 : Nat) : Int) := by push_cast; rfl
        rw [hcast, ih (i + 1), Nat.testBit_or, testBit_squareBB, Bool.or_eq_true, decide_eq_true_eq]
        constructor
        · rintro ((h | h) | ⟨n, h1, h2, h3, h4, h5⟩)
          · exact Or.inl h
          · exact Or.inr ⟨i, le_refl _, by omega, fun j h1 h2 => by
              have : j = i := by omega
              subst this; exact hon, fun j h1 h2 => by omega, h.symm⟩
          · refine Or.inr ⟨n, by omega, by omega, ?_, ?_, h5⟩
            · intro j hj1 hj2
              by_cases hji : j = i
              · subst hji; exact hon
              · exact h3 j (by omega) hj2
            · intro j hj1 hj2
              by_cases hji : j = i
              · subst hji; exact hocc2
              · exact h4 j (by omega) hj2
        · rintro (h | ⟨n, h1, h2, h3, h4, h5⟩)
          · exact Or.inl (Or.inl h)
          · by_cases hn : n = i
            · subst hn; exact Or.inl (Or.inr h5.symm)
            · exact Or.inr ⟨n, by omega, by omega, fun j hj1 hj2 => h3 j (by omega) hj2,
                fun j hj1 hj2 => h4 j (by omega) hj2, h5⟩
    · have hon2 : (!onBoard ((rankOf sq : Int) + d.1 * (i : Int)) ((fileOf sq : Int) + d.2 * (i : Int))) = true := by
        unfold stepOn at hon
        simpa using hon
      rw [hon2]
      simp only [if_true]
      constructor
      · intro h; exact Or.inl h
      · rintro (h | ⟨n, h1, h2, h3, h4, h5⟩)
        · exact h
        · exact absurd (h3 i (le_refl _) h1) hon

theorem testBit_slowAttacks_aux (sq : Nat) (occ : Bitboard) (t : Nat) :
    ∀ (dirs : List (Int × Int)) (acc : Bitboard),
      (dirs.foldl (fun attacks d => slowRay (rankOf sq) (fileOf sq) d.1 d.2 occ 7 1 attacks) acc).testBit t = true ↔
        (acc.testBit t = true ∨ Reach dirs sq occ t) := by
  intro dirs
  induction dirs with
  | nil =>
    intro acc
    simp [Reach]
  | cons d ds ih =>
    intro acc
    rw [List.foldl_cons, ih]
    have h1 := testBit_slowRay sq d occ t 7 1 acc
    simp only [Nat.cast_one] at h1
    rw [h1]
    unfold Reach
    constructor
    · rintro ((h | ⟨n, hn1, hn2, h3, h4, h5⟩) | ⟨e, he, n, hn⟩)
      · exact Or.inl h
      · exact Or.inr ⟨d, List.mem_cons_self _ _, n, hn1, by omega, h3, h4, h5⟩
      · exact Or.inr ⟨e, List.mem_cons_of_mem _ he, n, hn⟩
    · rintro (h | ⟨e, he, n, hn1, hn2, h3, h4, h5⟩)
      · exact Or.inl (Or.inl h)
      · rcases List.mem_cons.1 he with rfl | he
        · exact Or.inl (Or.inr ⟨n, hn1, by omega, h3, h4, h5⟩)
        · exact Or.inr ⟨e, he, n, hn1, hn2, h3, h4, h5⟩

/-- The ray walk computes exactly the squares reached. -/
theorem testBit_slowAttacks (dirs : List (Int × Int)) (sq : Nat) (occ : Bitboard) (t : Nat) :
    (slowAttacks dirs sq occ).testBit t = true ↔ Reach dirs sq occ t := by
  unfold slowAttacks
  rw [testBit_slowAttacks_aux]
  simp

end chess

namespace chess

open Tables

/-! ## The relevant-occupancy masks -/

/-- A mask covers the rays of a square when it holds every ray square that has a further
on-board square behind it. -/
def maskCovers (dirs : List (Int × Int)) (mask : Bitboard) (sq : Nat) : Bool :=
  dirs.all (fun d => [1, 2, 3, 4, 5, 6].all (fun j => !stepOn sq d (j + 1) || mask.testBit (stepSq sq d j)))

theorem reach_and_mask {dirs : List (Int × Int)} {mask : Bitboard} {sq : Nat}
    (hm : maskCovers dirs mask sq = true) (occ : Bitboard) (t : Nat) :
    Reach dirs sq (occ &&& mask) t ↔ Reach dirs sq occ t := by
  unfold Reach
  have key : ∀ d ∈ dirs, ∀ n, n < 8 → (∀ j, 1 ≤ j → j ≤ n → stepOn sq d j = true) →
      ∀ j, 1 ≤ j → j < n → (occ &&& mask).testBit (stepSq sq d j) = occ.testBit (stepSq sq d j) := by
    intro d hd n hn hon j hj1 hj2
    unfold maskCovers at hm
    rw [List.all_eq_true] at hm
    have h1 := hm d hd
    rw [List.all_eq_true] at h1
    have hjmem : j ∈ [1, 2, 3, 4, 5, 6] := by
      have : j = 1 ∨ j = 2 ∨ j = 3 ∨ j = 4 ∨ j = 5 ∨ j = 6 := by omega
      rcases this with h | h | h | h | h | h <;> subst h <;> simp
    have h2 := h1 j hjmem
    rw [hon (j + 1) (by omega) (by omega)] at h2
    simp only [Bool.not_true, Bool.false_or] at h2
    rw [Nat.testBit_and, h2, Bool.and_true]
  constructor
  · rintro ⟨d, hd, n, hn1, hn2, h3, h4, h5⟩
    exact ⟨d, hd, n, hn1, hn2, h3, fun j hj1 hj2 => by rw [← key d hd n hn2 h3 j hj1 hj2]; exact h4 j hj1 hj2, h5⟩
  · rintro ⟨d, hd, n, hn1, hn2, h3, h4, h5⟩
    exact ⟨d, hd, n, hn1, hn2, h3, fun j hj1 hj2 => by rw [key d hd n hn2 h3 j hj1 hj2]; exact h4 j hj1 hj2, h5⟩

theorem slowAttacks_and_mask {dirs : List (Int × Int)} {mask : Bitboard} {sq : Nat}
    (hm : maskCovers dirs mask sq = true) (occ : Bitboard) :
    slowAttacks dirs sq (occ &&& mask) = slowAttacks dirs sq occ := by
  apply Nat.eq_of_testBit_eq
  intro t
  have h1 := testBit_slowAttacks dirs sq (occ &&& mask) t
  have h2 := testBit_slowAttacks dirs sq occ t
  rw [reach_and_mask hm] at h1
  cases h : (slowAttacks dirs sq occ).testBit t
  · cases h3 : (slowAttacks dirs sq (occ &&& mask)).testBit t
    · rfl
    · rw [h2.2 (h1.1 h3)] at h; exact Bool.noConfusion h
  · exact h1.2 (h2.1 h)

theorem rookMask_covers : sq64.all (fun sq => maskCovers rookDirs (rookMask sq) sq) = true := by
  decide!

theorem bishopMask_covers : sq64.all (fun sq => maskCovers bishopDirs (bishopMask sq) sq) = true := by
  decide!

theorem rookMask_lt : sq64.all (fun sq => decide (rookMask sq < 2 ^ 64)) = true := by
  decide!

theorem bishopMask_lt : sq64.all (fun sq => decide (bishopMask sq < 2 ^ 64)) = true := by
  decide!

/-! ## `indexToOccupancy` enumerates the subsets of the mask -/

/-- The loop body of `indexToOccupancy`. -/
def pdepStep (sq : Nat) (s : Bitboard × Nat) : Bitboard × Nat :=
  ((if s.2 &&& 1 ≠ 0 then s.1 ||| squareBB sq else s.1), s.2 >>> 1)

/-- The part of `occ` on the squares of a list, added to `acc`. -/
def pickBits (occ : Bitboard) (L : List Nat) (acc : Bitboard) : Bitboard :=
  L.foldl (fun a b => if occ.testBit b = true then a ||| squareBB b else a) acc

theorem and_one_ne_zero (n : Nat) : n &&& 1 ≠ 0 ↔ n % 2 = 1 := by
  rw [Nat.and_one_is_mod]
  omega

theorem pdep_surj (occ : Bitboard) :
    ∀ (L : List Nat), ∃ n, n < 2 ^ L.length ∧
      ∀ acc, (L.foldl (fun s sq => pdepStep sq s) (acc, n)).1 = pickBits occ L acc := by
  intro L
  induction L with
  | nil => exact ⟨0, Nat.two_pow_pos _, fun acc => rfl⟩
  | cons b L ih =>
    obtain ⟨n, hn, hfold⟩ := ih
    by_cases hb : occ.testBit b = true
    · refine ⟨2 * n + 1, by rw [List.length_cons, Nat.pow_succ]; omega, ?_⟩
      intro acc
      rw [List.foldl_cons]
      have h1 : pdepStep b (acc, 2 * n + 1) = (acc ||| squareBB b, n) := by
        unfold pdepStep
        have : (2 * n + 1) &&& 1 ≠ 0 := (and_one_ne_zero _).2 (by omega)
        simp only [this, ne_eq, not_false_eq_true, if_true]
        congr 1
        rw [Nat.shiftRight_eq_div_pow]; omega
      rw [h1, hfold]
      unfold pickBits
      rw [List.foldl_cons, if_pos hb]
    · refine ⟨2 * n, by rw [List.length_cons, Nat.pow_succ]; omega, ?_⟩
      intro acc
      rw [List.foldl_cons]
      have h1 : pdepStep b (acc, 2 * n) = (acc, n) := by
        unfold pdepStep
        have : ¬ ((2 * n) &&& 1 ≠ 0) := by rw [and_one_ne_zero]; omega
        simp only [this, if_false]
        congr 1
        rw [Nat.shiftRight_eq_div_pow]; omega
      rw [h1, hfold]
      unfold pickBits
      rw [List.foldl_cons, if_neg hb]

theorem testBit_pickBits (occ : Bitboard) (t : Nat) :
    ∀ (L : List Nat) (acc : Bitboard),
      (pickBits occ L acc).testBit t = true ↔ (acc.testBit t = true ∨ (t ∈ L ∧ occ.testBit t = true)) := by
  intro L
  induction L with
  | nil => intro acc; simp [pickBits]
  | cons b L ih =>
    intro acc
    unfold pickBits
    rw [List.foldl_cons]
    have := ih (if occ.testBit b = true then acc ||| squareBB b else acc)
    unfold pickBits at this
    rw [this]
    by_cases hb : occ.testBit b = true
    · rw [if_pos hb, Nat.testBit_or, testBit_squareBB, Bool.or_eq_true, decide_eq_true_eq, List.mem_cons]
      constructor
      · rintro ((h | h) | ⟨h1, h2⟩)
        · exact Or.inl h
        · subst h; exact Or.inr ⟨Or.inl rfl, hb⟩
        · exact Or.inr ⟨Or.inr h1, h2⟩
      · rintro (h | ⟨h1 | h1, h2⟩)
        · exact Or.inl (Or.inl h)
        · exact Or.inl (Or.inr h1.symm)
        · exact Or.inr ⟨h1, h2⟩
    · rw [if_neg hb, List.mem_cons]
      constructor
      · rintro (h | ⟨h1, h2⟩)
        · exact Or.inl h
        · exact Or.inr ⟨Or.inr h1, h2⟩
      · rintro (h | ⟨h1 | h1, h2⟩)
        · exact Or.inl h
        · subst h1; exact absurd h2 hb
        · exact Or.inr ⟨h1, h2⟩

theorem pickBits_bitsOf {mask : Bitboard} (hm : mask < 2 ^ 64) (occ : Bitboard) :
    pickBits occ (bitsOf mask) 0 = occ &&& mask := by
  apply Nat.eq_of_testBit_eq
  intro t
  have h := testBit_pickBits occ t (bitsOf mask) 0
  rw [mem_bitsOf_of_lt hm] at h
  simp only [Nat.zero_testBit, Bool.false_eq_true, false_or] at h
  rw [Nat.testBit_and]
  cases h1 : (pickBits occ (bitsOf mask) 0).testBit t
  · cases h2 : occ.testBit t <;> cases h3 : mask.testBit t <;> simp
    have := h.2 ⟨h3, h2⟩
    rw [h1] at this; exact Bool.noConfusion this
  · have := h.1 h1
    rw [this.1, this.2]; rfl

theorem indexToOccupancy_eq {mask : Bitboard} (hm : mask < 2 ^ 64) (index : Nat) :
    indexToOccupancy index mask = ((bitsOf mask).foldl (fun s sq => pdepStep sq s) (0, index)).1 := by
  unfold indexToOccupancy
  rw [forBits_eq _ _ _ hm]
  rfl

/-- Every subset of the mask is the occupancy of some index below `2 ^ popCount mask`. -/
theorem indexToOccupancy_surj {mask : Bitboard} (hm : mask < 2 ^ 64) (occ : Bitboard) :
    ∃ n, n < 1 <<< popCount mask ∧ indexToOccupancy n mask = occ &&& mask := by
  obtain ⟨n, hn, h⟩ := pdep_surj occ (bitsOf mask)
  refine ⟨n, ?_, ?_⟩
  · rw [Nat.one_shiftLeft, popCount_eq]; exact hn
  · rw [indexToOccupancy_eq hm, h 0, pickBits_bitsOf hm]

theorem testBit_pdep_sub (t : Nat) :
    ∀ (L : List Nat) (acc n : Nat),
      (L.foldl (fun s sq => pdepStep sq s) (acc, n)).1.testBit t = true →
        (acc.testBit t = true ∨ t ∈ L) := by
  intro L
  induction L with
  | nil => intro acc n h; exact Or.inl h
  | cons b L ih =>
    intro acc n h
    rw [List.foldl_cons] at h
    have := ih _ _ h
    unfold pdepStep at this
    simp only at this
    rcases this with h1 | h1
    · by_cases hc : n &&& 1 ≠ 0
      · rw [if_pos hc, Nat.testBit_or, testBit_squareBB, Bool.or_eq_true, decide_eq_true_eq] at h1
        rcases h1 with h1 | h1
        · exact Or.inl h1
        · exact Or.inr (by rw [← h1]; exact List.mem_cons_self _ _)
      · rw [if_neg hc] at h1; exact Or.inl h1
    · exact Or.inr (List.mem_cons_of_mem _ h1)

/-- Every occupancy `indexToOccupancy` produces is a subset of the mask. -/
theorem indexToOccupancy_sub {mask : Bitboard} (hm : mask < 2 ^ 64) (n : Nat) :
    indexToOccupancy n mask &&& mask = indexToOccupancy n mask := by
  apply Nat.eq_of_testBit_eq
  intro t
  rw [Nat.testBit_and]
  cases h : (indexToOccupancy n mask).testBit t
  · rfl
  · rw [indexToOccupancy_eq hm] at h
    have := testBit_pdep_sub t _ _ _ h
    simp only [Nat.zero_testBit, Bool.false_eq_true, false_or] at this
    rw [(mem_bitsOf_of_lt hm).1 this]; rfl

end chess

namespace chess

open Tables

/-! ## The magic numbers send distinct subsets of the mask to distinct indices -/

/-- One step of the collision check: mark the index of `occ` in the bitmap `seen`, or fail when
it is marked already. -/
def markIndex (magic : Bitboard) (shift : Nat) (occ : Bitboard) (seen : Nat) : Option Nat :=
  if seen.testBit (magicIndex occ magic shift) = true then none
  else some (seen ||| 1 <<< magicIndex occ magic shift)

/-- Mark the indices of `occ ∪ S` for every subset `S` of the listed squares. -/
def markSubsets (magic : Bitboard) (shift : Nat) : List Nat → Bitboard → Nat → Option Nat
  | [], occ, seen => markIndex magic shift occ seen
  | b :: L, occ, seen =>
    match markSubsets magic shift L occ seen with
    | none => none
    | some seen1 => markSubsets magic shift L (occ ||| squareBB b) seen1

/-- The occupancies `markSubsets` visits. -/
def subsetsFrom : List Nat → Bitboard → List Bitboard
  | [], occ => [occ]
  | b :: L, occ => subsetsFrom L occ ++ subsetsFrom L (occ ||| squareBB b)

theorem markSubsets_sound (magic : Bitboard) (shift : Nat) :
    ∀ (L : List Nat) (occ : Bitboard) (seen seen2 : Nat),
      markSubsets magic shift L occ seen = some seen2 →
        (∀ j, seen2.testBit j = true ↔
          (seen.testBit j = true ∨ ∃ o ∈ subsetsFrom L occ, magicIndex o magic shift = j)) ∧
        (∀ o ∈ subsetsFrom L occ, seen.testBit (magicIndex o magic shift) = false) ∧
        (subsetsFrom L occ).Pairwise (fun o1 o2 => magicIndex o1 magic shift ≠ magicIndex o2 magic shift) := by
  intro L
  induction L with
  | nil =>
    intro occ seen seen2 h
    unfold markSubsets markIndex at h
    by_cases hs : seen.testBit (magicIndex occ magic shift) = true
    · rw [if_pos hs] at h; exact Option.noConfusion h
    · rw [if_neg hs] at h
      have h2 : seen ||| 1 <<< magicIndex occ magic shift = seen2 := Option.some.inj h
      subst h2
      refine ⟨?_, ?_, ?_⟩
      · intro j
        rw [Nat.testBit_or, Nat.one_shiftLeft, Nat.testBit_two_pow, Bool.or_eq_true, decide_eq_true_eq]
        simp [subsetsFrom]
      · intro o ho
        simp only [subsetsFrom, List.mem_singleton] at ho
        subst ho
        simpa using hs
      · simp [subsetsFrom]
  | cons b L ih =>
    intro occ seen seen2 h
    unfold markSubsets at h
    cases h1 : markSubsets magic shift L occ seen with
    | none => rw [h1] at h; exact Option.noConfusion h
    | some seen1 =>
      rw [h1] at h
      simp only at h
      obtain ⟨a1, a2, a3⟩ := ih occ seen seen1 h1
      obtain ⟨b1, b2, b3⟩ := ih (occ ||| squareBB b) seen1 seen2 h
      refine ⟨?_, ?_, ?_⟩
      · intro j
        rw [b1 j, a1 j]
        simp only [subsetsFrom, List.mem_append]
        constructor
        · rintro ((h | ⟨o, ho, e⟩) | ⟨o, ho, e⟩)
          · exact Or.inl h
          · exact Or.inr ⟨o, Or.inl ho, e⟩
          · exact Or.inr ⟨o, Or.inr ho, e⟩
        · rintro (h | ⟨o, ho | ho, e⟩)
          · exact Or.inl (Or.inl h)
          · exact Or.inl (Or.inr ⟨o, ho, e⟩)
          · exact Or.inr ⟨o, ho, e⟩
      · intro o ho
        simp only [subsetsFrom, List.mem_append] at ho
        rcases ho with ho | ho
        · exact a2 o ho
        · have := b2 o ho
          cases hh : seen.testBit (magicIndex o magic shift)
          · rfl
          · have h3 := (a1 (magicIndex o magic shift)).2 (Or.inl hh)
            rw [h3] at this; exact Bool.noConfusion this
      · simp only [subsetsFrom]
        rw [List.pairwise_append]
        refine ⟨a3, b3, ?_⟩
        intro o1 ho1 o2 ho2 e
        have h3 := (a1 (magicIndex o1 magic shift)).2 (Or.inr ⟨o1, ho1, rfl⟩)
        have h4 := b2 o2 ho2
        rw [← e, h3] at h4
        exact Bool.noConfusion h4

theorem pickBits_mem_subsetsFrom (occ : Bitboard) :
    ∀ (L : List Nat) (acc : Bitboard), pickBits occ L acc ∈ subsetsFrom L acc := by
  intro L
  induction L with
  | nil => intro acc; simp [pickBits, subsetsFrom]
  | cons b L ih =>
    intro acc
    unfold pickBits
    rw [List.foldl_cons]
    simp only [subsetsFrom, List.mem_append]
    by_cases hb : occ.testBit b = true
    · rw [if_pos hb]; exact Or.inr (ih _)
    · rw [if_neg hb]; exact Or.inl (ih _)

/-- The check that a magic number sends the subsets of its mask to distinct indices. -/
def magicInjective (mask magic : Bitboard) : Bool :=
  (markSubsets magic (64 - popCount mask) (bitsOf mask) 0 0).isSome

theorem magicInjective_sound {mask magic : Bitboard} (hm : mask < 2 ^ 64)
    (h : magicInjective mask magic = true) (o1 o2 : Bitboard)
    (e : magicIndex (o1 &&& mask) magic (64 - popCount mask) = magicIndex (o2 &&& mask) magic (64 - popCount mask)) :
    o1 &&& mask = o2 &&& mask := by
  unfold magicInjective at h
  obtain ⟨seen2, hs⟩ := Option.isSome_iff_exists.1 h
  obtain ⟨_, _, hp⟩ := markSubsets_sound magic _ _ _ _ _ hs
  have m1 := pickBits_mem_subsetsFrom o1 (bitsOf mask) 0
  have m2 := pickBits_mem_subsetsFrom o2 (bitsOf mask) 0
  rw [pickBits_bitsOf hm] at m1 m2
  by_contra hne
  exact List.Pairwise.forall (fun _ _ h => fun e => h e.symm) hp m1 m2 hne e

/-! ### The same check, written with the primitive operations

The kernel evaluates `quickMark` several times faster than `markSubsets`; the two agree. -/

/-- A copy of `markSubsets` whose arithmetic is the primitive operations on `Nat`. -/
def quickMark (magic shift : Nat) (L : List Nat) : Nat → Nat → Option Nat :=
  List.rec (motive := fun _ => Nat → Nat → Option Nat)
    (fun occ seen =>
      cond (Nat.beq (Nat.land (Nat.shiftRight seen (Nat.shiftRight (Nat.mod (Nat.mul occ magic) 18446744073709551616) shift)) 1) 1)
        none
        (some (Nat.lor seen (Nat.shiftLeft 1 (Nat.shiftRight (Nat.mod (Nat.mul occ magic) 18446744073709551616) shift)))))
    (fun b _ ih occ seen =>
      Option.rec (motive := fun _ => Option Nat) none
        (fun seen1 => ih (Nat.lor occ (Nat.shiftLeft 1 b)) seen1) (ih occ seen)) L

/-- A copy of `magicInjective` over `quickMark`. -/
def quickInjective (mask magic : Nat) : Bool :=
  (quickMark magic (Nat.sub 64 (popCount mask)) (bitsOf mask) 0 0).isSome

theorem beq_and_one (x : Nat) : Nat.beq (Nat.land x 1) 1 = Nat.testBit x 0 := by
  show Nat.beq (x &&& 1) 1 = (1 &&& (x >>> 0) != 0)
  rw [Nat.shiftRight_zero, Nat.and_comm 1 x, Nat.and_one_is_mod]
  rcases Nat.mod_two_eq_zero_or_one x with h | h <;> rw [h] <;> rfl

theorem quickMark_nil (magic shift occ seen : Nat) :
    quickMark magic shift [] occ seen = markIndex magic shift occ seen := by
  show cond (Nat.beq (Nat.land (seen >>> magicIndex occ magic shift) 1) 1) none
      (some (seen ||| 1 <<< magicIndex occ magic shift)) = markIndex magic shift occ seen
  unfold markIndex
  rw [beq_and_one, Nat.testBit_shiftRight, Nat.add_zero]
  cases seen.testBit (magicIndex occ magic shift) <;> rfl

theorem quickMark_cons (magic shift b : Nat) (L : List Nat) (occ seen : Nat) :
    quickMark magic shift (b :: L) occ seen =
      match quickMark magic shift L occ seen with
      | none => none
      | some seen1 => quickMark magic shift L (occ ||| squareBB b) seen1 := by
  show Option.rec (motive := fun _ => Option Nat) none
      (fun seen1 => quickMark magic shift L (occ ||| squareBB b) seen1)
      (quickMark magic shift L occ seen) = _
  cases quickMark magic shift L occ seen <;> rfl

theorem quickMark_eq (magic shift : Nat) (L : List Nat) :
    ∀ occ seen, quickMark magic shift L occ seen = markSubsets magic shift L occ seen := by
  induction L with
  | nil => intro occ seen; rw [quickMark_nil]; rfl
  | cons b L ih =>
    intro occ seen
    rw [quickMark_cons, ih]
    conv_rhs => unfold markSubsets
    cases markSubsets magic shift L occ seen with
    | none => rfl
    | some s => exact ih _ _

theorem quickInjective_eq (mask magic : Nat) : quickInjective mask magic = magicInjective mask magic := by
  unfold quickInjective magicInjective
  rw [quickMark_eq]; rfl

theorem quick_all {f g : Nat → Bitboard}
    (h : sq64.all (fun sq => quickInjective (f sq) (g sq)) = true) :
    sq64.all (fun sq => magicInjective (f sq) (g sq)) = true := by
  rw [← h]
  exact congrArg sq64.all (funext fun sq => (quickInjective_eq _ _).symm)

set_option maxHeartbeats 4000000 in
theorem rook_magics_injective :
    sq64.all (fun sq => magicInjective (rookMask sq) (ROOK_MAGIC_NUMBERS.getD sq 0)) = true :=
  quick_all (sq64_all_pairs _
    (forall_lt_32
      (P := PairOk (fun sq => quickInjective (rookMask sq) (ROOK_MAGIC_NUMBERS.getD sq 0)))
      (by decide!) (by decide!) (by decide!) (by decide!) (by decide!) (by decide!) (by decide!)
      (by decide!) (by decide!) (by decide!) (by decide!) (by decide!) (by decide!) (by decide!)
      (by decide!) (by decide!) (by decide!) (by decide!) (by decide!) (by decide!) (by decide!)
      (by decide!) (by decide!) (by decide!) (by decide!) (by decide!) (by decide!) (by decide!)
      (by decide!) (by decide!) (by decide!) (by decide!)))

theorem bishop_magics_injective :
    sq64.all (fun sq => magicInjective (bishopMask sq) (BISHOP_MAGIC_NUMBERS.getD sq 0)) = true :=
  quick_all (sq64_all_pairs _
    (forall_lt_32
      (P := PairOk (fun sq => quickInjective (bishopMask sq) (BISHOP_MAGIC_NUMBERS.getD sq 0)))
      (by decide!) (by decide!) (by decide!) (by decide!) (by decide!) (by decide!) (by decide!)
      (by decide!) (by decide!) (by decide!) (by decide!) (by decide!) (by decide!) (by decide!)
      (by decide!) (by decide!) (by decide!) (by decide!) (by decide!) (by decide!) (by decide!)
      (by decide!) (by decide!) (by decide!) (by decide!) (by decide!) (by decide!) (by decide!)
      (by decide!) (by decide!) (by decide!) (by decide!)))

end chess

/-!
# The magic lookups are the ray walks
-/

namespace chess

open Tables

theorem fillTable_hit (slow : Nat → Bitboard → Bitboard) (sq : Nat) (mask magic : Bitboard)
    (shift : Nat) (j : Nat) :
    ∀ N, (∃ n, n < N ∧ magicIndex (indexToOccupancy n mask) magic shift = j) →
      ∃ n, n < N ∧ magicIndex (indexToOccupancy n mask) magic shift = j ∧
        fillTable slow sq mask magic shift N j = slow sq (indexToOccupancy n mask) := by
  intro N
  induction N with
  | zero => rintro ⟨n, hn, _⟩; omega
  | succ N ih =>
    rintro ⟨n, hn, he⟩
    unfold fillTable
    simp only
    by_cases hN : magicIndex (indexToOccupancy N mask) magic shift = j
    · exact ⟨N, by omega, hN, by rw [if_pos hN]⟩
    · have hn2 : n < N := by
        rcases Nat.lt_or_eq_of_le (Nat.le_of_lt_succ hn) with h | h
        · exact h
        · subst h; exact absurd he hN
      obtain ⟨k, hk, hke, hkv⟩ := ih ⟨n, hn2, he⟩
      exact ⟨k, by omega, hke, by rw [if_neg hN]; exact hkv⟩

/-- A magic lookup whose magic number is collision-free on the subsets of a covering mask
returns the ray walk. -/
theorem magic_lookup_eq (dirs : List (Int × Int)) (sq : Nat) (mask magic : Bitboard)
    (hm : mask < 2 ^ 64) (hc : maskCovers dirs mask sq = true)
    (hi : magicInjective mask magic = true) (occ : Bitboard) :
    fillTable (slowAttacks dirs) sq mask magic (64 - popCount mask) (1 <<< popCount mask)
      (magicIndex (occ &&& mask) magic (64 - popCount mask)) = slowAttacks dirs sq occ := by
  obtain ⟨n, hn, hocc⟩ := indexToOccupancy_surj hm occ
  obtain ⟨k, _, hke, hkv⟩ := fillTable_hit (slowAttacks dirs) sq mask magic (64 - popCount mask)
    (magicIndex (occ &&& mask) magic (64 - popCount mask)) (1 <<< popCount mask) ⟨n, hn, by rw [hocc]⟩
  rw [hkv]
  have hsub := indexToOccupancy_sub hm k
  rw [← hsub] at hke
  have := magicInjective_sound hm hi _ _ hke
  rw [hsub] at this
  rw [this, slowAttacks_and_mask hc]

theorem rookAttacks_eq_slow {sq : Nat} (hsq : sq < 64) (occ : Bitboard) :
    rookAttacks sq occ = slowRookAttacks sq occ := by
  have hmem := mem_sq64.2 hsq
  have h1 := List.all_eq_true.1 rookMask_lt sq hmem
  have h2 := List.all_eq_true.1 rookMask_covers sq hmem
  have h3 := List.all_eq_true.1 rook_magics_injective sq hmem
  exact magic_lookup_eq rookDirs sq (rookMask sq) _ (of_decide_eq_true h1) h2 h3 occ

theorem bishopAttacks_eq_slow {sq : Nat} (hsq : sq < 64) (occ : Bitboard) :
    bishopAttacks sq occ = slowBishopAttacks sq occ := by
  have hmem := mem_sq64.2 hsq
  have h1 := List.all_eq_true.1 bishopMask_lt sq hmem
  have h2 := List.all_eq_true.1 bishopMask_covers sq hmem
  have h3 := List.all_eq_true.1 bishop_magics_injective sq hmem
  exact magic_lookup_eq bishopDirs sq (bishopMask sq) _ (of_decide_eq_true h1) h2 h3 occ

/-- The initialised tables are the ray-walk lookups. -/
theorem Tables.init_eq_walk : Tables.init = Tables.walk := by
  unfold Tables.init Tables.walk
  congr 1
  · funext sq occ
    by_cases h : sq < 64
    · rw [if_pos h, if_pos h, rookAttacks_eq_slow h]
    · rw [if_neg h, if_neg h]
  · funext sq occ
    by_cases h : sq < 64
    · rw [if_pos h, if_pos h, bishopAttacks_eq_slow h]
    · rw [if_neg h, if_neg h]

end chess

/-!
# The root of the search (`ThisBot::think`, `src/search.cpp`)
-/

namespace chess

def INF : Int := 30000
def MATE : Int := 20000

/-- The search state of `class ThisBot` that `think` and the entry of `search` read or write.
The transposition table, killer and counter-move tables and the evaluation parameters are
only touched past the draw check of `search`; they are the component `rest_`. -/
structure ThisBot (σ : Type) where
  history_ : Nat → Nat → Int
  bestRoot_ : Move
  prevRoot_ : Move
  prevScore_ : Int
  nodes_ : Int
  selDepth_ : Int
  timeUp_ : Bool
  stopFlag_ : Bool
  timeSoftMs_ : Int
  timeHardMs_ : Int
  maxNodes_ : Nat
  rest_ : σ

/-- What the model leaves open: `evaluate` (double-precision arithmetic), the part of `search`
after the draw check, and the readings of `std::chrono::steady_clock` (elapsed milliseconds,
as a function of the node count or of the depth at which the clock is read). -/
structure SearchEnv (σ : Type) where
  evaluate : ThisBot σ → Board → Int
  searchBody : ThisBot σ → Board → Int → Int → Int → Int → Move → Int × ThisBot σ × Board
  elapsedInSearch : Int → Int
  elapsedInThink : Int → Int

/-- The function `ThisBot::search` up to and including `if (board.isDraw()) return 0;`. -/
def ThisBot.search {σ : Type} (E : SearchEnv σ) (e : ThisBot σ) (board : Board)
    (depth alpha beta ply : Int) (prevMove : Move) : Int × ThisBot σ × Board :=
  if ply ≥ 100 then (E.evaluate e board, e, board)
  else
    let e := if ply > e.selDepth_ then { e with selDepth_ := ply } else e
    let e := { e with nodes_ := e.nodes_ + 1 }
    if e.nodes_.toNat &&& 2047 = 0 ∧ e.stopFlag_ = true then (0, { e with timeUp_ := true }, board)
    else if e.nodes_.toNat &&& 2047 = 0 ∧ e.timeHardMs_ > 0 ∧ E.elapsedInSearch e.nodes_ ≥ e.timeHardMs_ then
      (0, { e with timeUp_ := true }, board)
    else if e.nodes_.toNat &&& 2047 = 0 ∧ e.maxNodes_ > 0 ∧ e.nodes_.toNat ≥ e.maxNodes_ then
      (0, { e with timeUp_ := true }, board)
    else if board.isDraw 0 = true then (0, e, board)
    else E.searchBody e board depth alpha beta ply prevMove

/-- One iteration of the loop of `think` up to `if (timeUp_) break;`: the decay of the history
table, the aspiration window, the root search and the full-window re-search. -/
def ThisBot.rootSearch {σ : Type} (E : SearchEnv σ) (e : ThisBot σ) (board : Board) (depth : Int) :
    Int × ThisBot σ × Board :=
  let e := { e with history_ := fun i j => e.history_ i j >>> 1, selDepth_ := 0 }
  let alpha := if depth ≥ 5 then e.prevScore_ - 50 else -INF
  let beta := if depth ≥ 5 then e.prevScore_ + 50 else INF
  let r := ThisBot.search E e board depth alpha beta 0 Move.null
  if r.2.1.timeUp_ = false ∧ (r.1 ≤ alpha ∨ r.1 ≥ beta)
  then ThisBot.search E r.2.1 r.2.2 depth (-INF) INF 0 Move.null else r

/-- The iterative-deepening loop of `think`, from `depth` on, with `fuel` iterations left.
The `info` line written to `std::cout` is not modelled. -/
def ThisBot.thinkLoop {σ : Type} (E : SearchEnv σ) (maxDepth : Int) :
    Nat → Int → ThisBot σ → Board → ThisBot σ × Board
  | 0, _, e, board => (e, board)
  | fuel + 1, depth, e, board =>
    if depth ≤ maxDepth then
      let r := ThisBot.rootSearch E e board depth
      if r.2.1.timeUp_ = true then (r.2.1, r.2.2)
      else
        let e : ThisBot σ := { r.2.1 with prevRoot_ := r.2.1.bestRoot_, prevScore_ := r.1 }
        if e.timeSoftMs_ > 0 ∧ E.elapsedInThink depth ≥ e.timeSoftMs_ then (e, r.2.2)
        else if r.1.natAbs > 19000 then (e, r.2.2)
        else ThisBot.thinkLoop E maxDepth fuel (depth + 1) e r.2.2
    else (e, board)

/-- The function `ThisBot::think`: the move returned, with the engine and the board it leaves
behind; `none` where the root move generation is undefined. -/
def ThisBot.think {σ : Type} (T : Lookups) (Z : ZobristKeys) (E : SearchEnv σ) (e : ThisBot σ)
    (board : Board) (softMs hardMs maxDepth : Int) (maxNodes : Nat) :
    Option (Move × ThisBot σ × Board) :=
  let e := { e with timeSoftMs_ := softMs, timeHardMs_ := hardMs, maxNodes_ := maxNodes,
                    timeUp_ := false, stopFlag_ := false, nodes_ := 0, selDepth_ := 0,
                    bestRoot_ := Move.null }
  match board.generateLegalMoves T Z with
  | none => none
  | some (rootMoves, board) =>
    if rootMoves.length = 0 then some (Move.null, e, board)
    else
      let e := if e.prevRoot_.isNull = true then { e with prevRoot_ := rootMoves.getD 0 Move.null } else e
      let e := { e with bestRoot_ := e.prevRoot_ }
      let r := ThisBot.thinkLoop E maxDepth maxDepth.toNat 1 e board
      let result := if r.1.timeUp_ = true then r.1.prevRoot_ else r.1.bestRoot_
      let result := if result.isNull = true then rootMoves.getD 0 Move.null else result
      some (result, r.1, r.2)

end chess

/-!
# Concrete positions: the en-passant scenario, the promotion scenario, a stale root move
-/

namespace chess

/-- The position of the en-passant scenario of the specification. -/
def epScenario : Board := (Board.setFEN Zobrist.init (Board.codes "8/8/8/2k5/3Pp3/8/8/4K1R1 b - d3 0 1")).2

theorem epScenario_moves_walk :
    (Board.generateLegalMoves Tables.walk Zobrist.init epScenario).map (fun r => r.1) =
      some [Move.normal 34 25, Move.normal 34 26, Move.normal 34 27, Move.normal 34 33,
            Move.normal 34 35, Move.normal 34 41, Move.normal 34 42, Move.normal 34 43,
            Move.make 28 19 MT_EN_PASSANT KNIGHT] := by
  decide!

/-- C10, the claim as stated is false: in the position
`8/8/8/2k5/3Pp3/8/8/4K1R1 b - d3 0 1` the generated list does contain the en-passant capture
from e4 (square 28) to d3 (square 19). -/
theorem C10_counterexample :
    ¬ (∀ l b2, Board.generateLegalMoves Tables.init Zobrist.init epScenario = some (l, b2) →
        Move.make 28 19 MT_EN_PASSANT KNIGHT ∉ l) := by
  intro h
  have h1 := epScenario_moves_walk
  rw [← Tables.init_eq_walk] at h1
  cases h2 : Board.generateLegalMoves Tables.init Zobrist.init epScenario with
  | none => rw [h2] at h1; exact Option.noConfusion h1
  | some r =>
    rw [h2] at h1
    have h3 : r.1 = _ := Option.some.inj h1
    have h4 := h r.1 r.2 h2
    rw [h3] at h4
    exact h4 (by decide)

/-- C10, amended: in the position `8/8/8/2k5/3Pp3/8/8/4K1R1 b - d3 0 1` the generated list is
the eight moves of the king on c5 followed by the en-passant capture e4xd3; the capture is
legal because it removes the pawn on d4 that gives check, and the rook on g1 shares no line
with the king. -/
theorem C10_en_passant_scenario :
    (Board.generateLegalMoves Tables.init Zobrist.init epScenario).map (fun r => r.1) =
      some [Move.normal 34 25, Move.normal 34 26, Move.normal 34 27, Move.normal 34 33,
            Move.normal 34 35, Move.normal 34 41, Move.normal 34 42, Move.normal 34 43,
            Move.make 28 19 MT_EN_PASSANT KNIGHT] := by
  rw [Tables.init_eq_walk]
  exact epScenario_moves_walk

/-- The position of the promotion scenario of the specification; it has no white king. -/
def promoScenario : Board := (Board.setFEN Zobrist.init (Board.codes "8/P7/8/8/8/8/8/7k w - - 0 1")).2

/-- The board of a search root that is drawn by the fifty-move rule. -/
def drawnRoot : Board := (Board.setFEN Zobrist.init (Board.codes "7k/8/8/8/8/8/8/K7 w - - 100 80")).2

theorem drawnRoot_moves_walk :
    (Board.generateLegalMoves Tables.walk Zobrist.init drawnRoot).map (fun r => (r.1, r.2.isDraw 0)) =
      some ([Move.normal 0 1, Move.normal 0 8, Move.normal 0 9], true) := by
  decide!

theorem search_at_drawn_root {σ : Type} (E : SearchEnv σ) (e : ThisBot σ) (board : Board)
    (hd : board.isDraw 0 = true) (depth alpha beta : Int) (prevMove : Move) :
    (ThisBot.search E e board depth alpha beta 0 prevMove).2.1.bestRoot_ = e.bestRoot_ ∧
    (ThisBot.search E e board depth alpha beta 0 prevMove).2.1.prevRoot_ = e.prevRoot_ ∧
    (ThisBot.search E e board depth alpha beta 0 prevMove).2.2 = board := by
  unfold ThisBot.search
  simp only [hd, if_true]
  have h100 : ¬ ((0 : Int) ≥ 100) := by decide
  rw [if_neg h100]
  split_ifs <;> simp

theorem research_at_drawn_root {σ : Type} (E : SearchEnv σ) (e : ThisBot σ) (board : Board)
    (hd : board.isDraw 0 = true) (depth alpha beta : Int) (m1 m2 : Move)
    (h1 : e.bestRoot_ = m1) (h2 : e.prevRoot_ = m2)
    (c : Int × ThisBot σ × Board → Prop) [DecidablePred c] :
    (if c (ThisBot.search E e board depth alpha beta 0 Move.null)
      then ThisBot.search E (ThisBot.search E e board depth alpha beta 0 Move.null).2.1
        (ThisBot.search E e board depth alpha beta 0 Move.null).2.2 depth (-INF) INF 0 Move.null
      else ThisBot.search E e board depth alpha beta 0 Move.null).2.1.bestRoot_ = m1 ∧
    (if c (ThisBot.search E e board depth alpha beta 0 Move.null)
      then ThisBot.search E (ThisBot.search E e board depth alpha beta 0 Move.null).2.1
        (ThisBot.search E e board depth alpha beta 0 Move.null).2.2 depth (-INF) INF 0 Move.null
      else ThisBot.search E e board depth alpha beta 0 Move.null).2.1.prevRoot_ = m2 ∧
    (if c (ThisBot.search E e board depth alpha beta 0 Move.null)
      then ThisBot.search E (ThisBot.search E e board depth alpha beta 0 Move.null).2.1
        (ThisBot.search E e board depth alpha beta 0 Move.null).2.2 depth (-INF) INF 0 Move.null
      else ThisBot.search E e board depth alpha beta 0 Move.null).2.2 = board := by
  obtain ⟨s1, s2, s3⟩ := search_at_drawn_root E e board hd depth alpha beta Move.null
  generalize ThisBot.search E e board depth alpha beta 0 Move.null = r1 at s1 s2 s3
  obtain ⟨t1, t2, t3⟩ := search_at_drawn_root E r1.2.1 board hd depth (-INF) INF Move.null
  rw [s3]
  split_ifs
  · exact ⟨by rw [t1, s1, h1], by rw [t2, s2, h2], t3⟩
  · exact ⟨by rw [s1, h1], by rw [s2, h2], s3⟩

theorem rootSearch_at_drawn_root {σ : Type} (E : SearchEnv σ) (e : ThisBot σ) (board : Board)
    (hd : board.isDraw 0 = true) (depth : Int) :
    (ThisBot.rootSearch E e board depth).2.1.bestRoot_ = e.bestRoot_ ∧
    (ThisBot.rootSearch E e board depth).2.1.prevRoot_ = e.prevRoot_ ∧
    (ThisBot.rootSearch E e board depth).2.2 = board := by
  unfold ThisBot.rootSearch
  exact research_at_drawn_root E
    ({ e with history_ := fun i j => e.history_ i j >>> 1, selDepth_ := 0 } : ThisBot σ) board hd depth
    (if depth ≥ 5 then e.prevScore_ - 50 else -INF) (if depth ≥ 5 then e.prevScore_ + 50 else INF)
    e.bestRoot_ e.prevRoot_ rfl rfl
    (fun r => r.2.1.timeUp_ = false ∧ (r.1 ≤ (if depth ≥ 5 then e.prevScore_ - 50 else -INF) ∨
      r.1 ≥ (if depth ≥ 5 then e.prevScore_ + 50 else INF)))

theorem thinkLoop_at_drawn_root {σ : Type} (E : SearchEnv σ) (maxDepth : Int) (m : Move)
    (board : Board) (hd : board.isDraw 0 = true) :
    ∀ (fuel : Nat) (depth : Int) (e : ThisBot σ), e.bestRoot_ = m → e.prevRoot_ = m →
      (ThisBot.thinkLoop E maxDepth fuel depth e board).1.bestRoot_ = m ∧
      (ThisBot.thinkLoop E maxDepth fuel depth e board).1.prevRoot_ = m := by
  intro fuel
  induction fuel with
  | zero => intro depth e h1 h2; exact ⟨h1, h2⟩
  | succ n ih =>
    intro depth e h1 h2
    unfold ThisBot.thinkLoop
    by_cases hdep : depth ≤ maxDepth
    · rw [if_pos hdep]
      simp only
      obtain ⟨s1, s2, s3⟩ := rootSearch_at_drawn_root E e board hd depth
      generalize ThisBot.rootSearch E e board depth = r at s1 s2 s3
      rw [s3]
      have hb : r.2.1.bestRoot_ = m := by rw [s1, h1]
      have hp : r.2.1.prevRoot_ = m := by rw [s2, h2]
      have := ih (depth + 1) ({ r.2.1 with prevRoot_ := r.2.1.bestRoot_, prevScore_ := r.1 } : ThisBot σ) hb hb
      split_ifs <;> first | exact ⟨hb, hp⟩ | exact ⟨hb, hb⟩ | exact this
    · rw [if_neg hdep]; exact ⟨h1, h2⟩

/-- On a root that is drawn, `think` returns the move that `prevRoot_` holds when it is not
the null move: no iteration of the search sets `bestRoot_`. -/
theorem think_at_drawn_root {σ : Type} (T : Lookups) (Z : ZobristKeys) (E : SearchEnv σ)
    (e : ThisBot σ) (board : Board) (m : Move) (g : List Move × Board)
    (h2 : board.generateLegalMoves T Z = some g) (hlen : ¬ (g.1.length = 0))
    (hd : g.2.isDraw 0 = true) (he : e.prevRoot_ = m) (hnn : m.isNull = false)
    (softMs hardMs maxDepth : Int) (maxNodes : Nat) :
    ∃ r, ThisBot.think T Z E e board softMs hardMs maxDepth maxNodes = some r ∧ r.1 = m := by
  unfold ThisBot.think
  simp only [h2]
  rw [if_neg hlen]
  simp only [he, hnn, Bool.false_eq_true, if_false]
  obtain ⟨k1, k2⟩ := thinkLoop_at_drawn_root E maxDepth m g.2 hd maxDepth.toNat 1
    ({ e with timeSoftMs_ := softMs, timeHardMs_ := hardMs, maxNodes_ := maxNodes,
              timeUp_ := false, stopFlag_ := false, nodes_ := 0, selDepth_ := 0,
              bestRoot_ := m } : ThisBot σ) rfl he
  refine ⟨_, rfl, ?_⟩
  simp only
  split_ifs <;> simp_all

/-- On a root drawn by the fifty-move rule, an engine whose `prevRoot_` holds the move e2e4
returns e2e4, whatever the limits, the evaluation, the clock and the rest of the search. -/
theorem stale_root_move {σ : Type} (E : SearchEnv σ) (e : ThisBot σ)
    (he : e.prevRoot_ = Move.normal 12 28) (softMs hardMs maxDepth : Int) (maxNodes : Nat) :
    ∃ r, ThisBot.think Tables.init Zobrist.init E e drawnRoot softMs hardMs maxDepth maxNodes = some r ∧
      r.1 = Move.normal 12 28 ∧
      ∃ l b2, Board.generateLegalMoves Tables.init Zobrist.init drawnRoot = some (l, b2) ∧
        l = [Move.normal 0 1, Move.normal 0 8, Move.normal 0 9] ∧ r.1 ∉ l := by
  have h1 := drawnRoot_moves_walk
  rw [← Tables.init_eq_walk] at h1
  cases h2 : Board.generateLegalMoves Tables.init Zobrist.init drawnRoot with
  | none => rw [h2] at h1; exact Option.noConfusion h1
  | some g =>
    rw [h2] at h1
    have h3 : (g.1, g.2.isDraw 0) = _ := Option.some.inj h1
    have hl : g.1 = [Move.normal 0 1, Move.normal 0 8, Move.normal 0 9] := congrArg Prod.fst h3
    have hd : g.2.isDraw 0 = true := congrArg Prod.snd h3
    have hlen : ¬ (g.1.length = 0) := by rw [hl]; decide
    obtain ⟨r, hr, hm⟩ := think_at_drawn_root Tables.init Zobrist.init E e drawnRoot
      (Move.normal 12 28) g h2 hlen hd he (by decide) softMs hardMs maxDepth maxNodes
    refine ⟨r, hr, hm, g.1, g.2, rfl, hl, ?_⟩
    rw [hm, hl]
    decide

end chess

/-!
# Consistent positions and the reference description of the legal moves
-/

namespace chess

namespace Board

/-- The mailbox code `pt | (c << 3)` of a piece. -/
def code (c : Color) (pt : PieceType) : Nat := pt ||| (c <<< 3)

/-- The twelve `(colour, piece type)` pairs. -/
def allPieces : List (Color × PieceType) :=
  [(0, 0), (0, 1), (0, 2), (0, 3), (0, 4), (0, 5), (1, 0), (1, 1), (1, 2), (1, 3), (1, 4), (1, 5)]

/-- Every bitboard of the board is a 64-bit word. -/
def okWords (b : Board) : Bool :=
  allPieces.all (fun p => decide (b.pieces_ p.1 p.2 < 2 ^ 64)) &&
  decide (b.byColor_ 0 < 2 ^ 64) && decide (b.byColor_ 1 < 2 ^ 64) && decide (b.occupied_ < 2 ^ 64)

/-- Condition (a): `byColor[c]` is the union of `pieces[c][*]`. -/
def okByColor (b : Board) : Bool :=
  [0, 1].all (fun c => b.byColor_ c ==
    (b.pieces_ c PAWN ||| b.pieces_ c KNIGHT ||| b.pieces_ c BISHOP ||| b.pieces_ c ROOK
      ||| b.pieces_ c QUEEN ||| b.pieces_ c KING))

/-- Condition (b): `occupied` is the union of both `byColor`. -/
def okOccupied (b : Board) : Bool := b.occupied_ == (b.byColor_ WHITE ||| b.byColor_ BLACK)

/-- Condition (c): the twelve piece bitboards are pairwise disjoint. -/
def okDisjoint (b : Board) : Bool :=
  allPieces.all (fun p => allPieces.all (fun q =>
    p == q || b.pieces_ p.1 p.2 &&& b.pieces_ q.1 q.2 == 0))

/-- Condition (d): `mailbox[s]` is empty iff `s` is unoccupied, and otherwise it names the
bitboard that contains `s`. -/
def okMailbox (b : Board) : Bool :=
  sq64.all (fun s =>
    if b.occupied_.testBit s then
      allPieces.any (fun p => b.mailbox_ s == code p.1 p.2 && (b.pieces_ p.1 p.2).testBit s)
    else b.mailbox_ s == 0xFF)

/-- Condition (e): `pieces[c][King]` has exactly one bit and it is `kingSquare[c]`. -/
def okKings (b : Board) : Bool :=
  [0, 1].all (fun c => decide (b.kingSquare_ c < 64) && b.pieces_ c KING == squareBB (b.kingSquare_ c))

/-- The structural invariant of the board: the five conditions (a) to (e) on 64-bit words. -/
def structural (b : Board) : Bool :=
  b.okWords && b.okByColor && b.okOccupied && b.okDisjoint && b.okMailbox && b.okKings

/-- The scalar fields are in the range of their C++ types and of the values the program
stores in them. -/
def okRanges (b : Board) : Bool :=
  decide (b.sideToMove_ < 2) && decide (b.castling_ < 16) && decide (b.halfmove_ < 256) &&
  decide (b.fullmove_ < 65536) && decide (-1 ≤ b.epSquare_) && decide (b.epSquare_ < 64)

/-- Every held castling right has its king and its rook on their home squares. -/
def okCastling (b : Board) : Bool :=
  (b.castling_ &&& WHITE_OO == 0 || (b.mailbox_ 4 == code WHITE KING && b.mailbox_ 7 == code WHITE ROOK)) &&
  (b.castling_ &&& WHITE_OOO == 0 || (b.mailbox_ 4 == code WHITE KING && b.mailbox_ 0 == code WHITE ROOK)) &&
  (b.castling_ &&& BLACK_OO == 0 || (b.mailbox_ 60 == code BLACK KING && b.mailbox_ 63 == code BLACK ROOK)) &&
  (b.castling_ &&& BLACK_OOO == 0 || (b.mailbox_ 60 == code BLACK KING && b.mailbox_ 56 == code BLACK ROOK))

/-- The en-passant square is `-1`, or an empty square on the sixth rank of the side to move
with a pawn of the other side directly in front of it. -/
def okEnPassant (b : Board) : Bool :=
  b.epSquare_ == -1 ||
  (if b.sideToMove_ = WHITE then
    decide (40 ≤ b.epSquare_) && decide (b.epSquare_ < 48) &&
      b.mailbox_ b.epSquare_.toNat == 0xFF && b.mailbox_ (b.epSquare_.toNat - 8) == code BLACK PAWN
   else
    decide (16 ≤ b.epSquare_) && decide (b.epSquare_ < 24) &&
      b.mailbox_ b.epSquare_.toNat == 0xFF && b.mailbox_ (b.epSquare_.toNat + 8) == code WHITE PAWN)

/-- A consistent position: bitboards, mailbox and king squares agree with one king per side,
the scalar fields hold values of their types, the side not to move is not in check, every
held castling right has its king and rook at home, and the en-passant square is `-1` or
genuine. -/
def consistent (T : Lookups) (b : Board) : Bool :=
  b.structural && b.okRanges &&
  !(b.isAttacked T (b.kingSq b.sideToMove_.flip) b.sideToMove_) &&
  b.okCastling && b.okEnPassant

/-- No pawn of the side to move stands on its last rank (`generatePawnMoves` would index the
mailbox at `from + forward`, outside the board). -/
def okPawns (b : Board) : Bool := b.pieces_ b.sideToMove_ PAWN &&& lastRankBB b.sideToMove_ == 0

end Board

/-! ## The reference description of the moves -/

namespace Spec

/-- The square holds no piece. -/
def emptyAt (b : Board) (s : Nat) : Bool := b.mailbox_ s == 0xFF

/-- The square holds exactly the piece `pt` of colour `c`. -/
def pieceIs (b : Board) (s : Nat) (c : Color) (pt : PieceType) : Bool := b.mailbox_ s == Board.code c pt

/-- The square holds some piece of colour `c`. -/
def colorIs (b : Board) (s : Nat) (c : Color) : Bool :=
  [PAWN, KNIGHT, BISHOP, ROOK, QUEEN, KING].any (fun pt => pieceIs b s c pt)

/-- Rank difference from `s` to `t`. -/
def dRank (s t : Nat) : Int := (rankOf t : Int) - (rankOf s : Int)
/-- File difference from `s` to `t`. -/
def dFile (s t : Nat) : Int := (fileOf t : Int) - (fileOf s : Int)

def knightJump (s t : Nat) : Bool :=
  ((dRank s t).natAbs == 1 && (dFile s t).natAbs == 2) || ((dRank s t).natAbs == 2 && (dFile s t).natAbs == 1)

def kingStep (s t : Nat) : Bool :=
  s != t && decide ((dRank s t).natAbs ≤ 1) && decide ((dFile s t).natAbs ≤ 1)

/-- The eight directions of a queen. -/
def queenDirs : List (Int × Int) := Tables.rookDirs ++ Tables.bishopDirs

/-- A slide from `s` to `t`: `t` is `n` steps from `s` in one of the directions and every
square passed on the way is empty. -/
def slides (b : Board) (dirs : List (Int × Int)) (s t : Nat) : Bool :=
  dirs.any (fun d => [1, 2, 3, 4, 5, 6, 7].any (fun n =>
    stepOn s d n && stepSq s d n == t &&
      [1, 2, 3, 4, 5, 6].all (fun j => decide (n ≤ j) || emptyAt b (stepSq s d j))))

/-- The direction in which the pawns of a colour advance, in ranks. -/
def forward (us : Color) : Int := if us = WHITE then 1 else -1
/-- The rank on which the pawns of a colour start. -/
def startRank (us : Color) : Nat := if us = WHITE then 1 else 6
/-- The rank on which the pawns of a colour promote. -/
def lastRank (us : Color) : Nat := if us = WHITE then 7 else 0

/-- A pawn advance by one square onto an empty square. -/
def pawnPush (b : Board) (us : Color) (s t : Nat) : Bool :=
  dFile s t == 0 && dRank s t == forward us && emptyAt b t

/-- A pawn advance by two squares from the starting rank over an empty square onto an empty
square. -/
def pawnDoublePush (b : Board) (us : Color) (s t : Nat) : Bool :=
  rankOf s == startRank us && dFile s t == 0 && dRank s t == 2 * forward us &&
    emptyAt b ((s + t) / 2) && emptyAt b t

/-- The squares a pawn on `s` attacks: one rank forward, one file to either side. -/
def pawnTakes (us : Color) (s t : Nat) : Bool :=
  (dFile s t).natAbs == 1 && dRank s t == forward us

/-- The kingside (`side = 0`) or queenside (`side = 1`) castling move of the side to move is
available: the right is held, the squares between king and rook are empty, the king is not
in check and neither the square it crosses nor the square it lands on is attacked. -/
def canCastle (T : Lookups) (b : Board) (side : Nat) : Bool :=
  let us := b.sideToMove_
  let them := us.flip
  let ksq := if us = WHITE then 4 else 60
  if side = 0 then
    (b.castling_ &&& (if us = WHITE then WHITE_OO else BLACK_OO) != 0) &&
    emptyAt b (ksq + 1) && emptyAt b (ksq + 2) &&
    !b.isAttacked T ksq them && !b.isAttacked T (ksq + 1) them && !b.isAttacked T (ksq + 2) them
  else
    (b.castling_ &&& (if us = WHITE then WHITE_OOO else BLACK_OOO) != 0) &&
    emptyAt b (ksq - 1) && emptyAt b (ksq - 2) && emptyAt b (ksq - 3) &&
    !b.isAttacked T ksq them && !b.isAttacked T (ksq - 1) them && !b.isAttacked T (ksq - 2) them

/-- The pseudo-legal moves of the side to move: piece moves, pawn pushes and double pushes,
captures, the four promotions, en passant and castling. -/
def pseudoLegal (T : Lookups) (b : Board) (m : Move) : Bool :=
  let us := b.sideToMove_
  let them := us.flip
  let s := m.src
  let t := m.dst
  if m.type = MT_NORMAL then
    m == Move.normal s t && !colorIs b t us &&
    ((pieceIs b s us KNIGHT && knightJump s t) ||
     (pieceIs b s us KING && kingStep s t) ||
     (pieceIs b s us BISHOP && slides b Tables.bishopDirs s t) ||
     (pieceIs b s us ROOK && slides b Tables.rookDirs s t) ||
     (pieceIs b s us QUEEN && slides b queenDirs s t) ||
     (pieceIs b s us PAWN && rankOf t != lastRank us &&
       (pawnPush b us s t || pawnDoublePush b us s t || (pawnTakes us s t && colorIs b t them))))
  else if m.type = MT_PROMOTION then
    [QUEEN, ROOK, BISHOP, KNIGHT].any (fun p => m == Move.make s t MT_PROMOTION p) &&
    pieceIs b s us PAWN && rankOf t == lastRank us &&
      (pawnPush b us s t || (pawnTakes us s t && colorIs b t them))
  else if m.type = MT_EN_PASSANT then
    m == Move.make s t MT_EN_PASSANT KNIGHT && pieceIs b s us PAWN &&
      decide (b.epSquare_ = (t : Int)) && pawnTakes us s t
  else
    let ksq := if us = WHITE then 4 else 60
    (m == Move.make ksq (ksq + 2) MT_CASTLING KNIGHT && canCastle T b 0) ||
    (m == Move.make ksq (ksq - 2) MT_CASTLING KNIGHT && canCastle T b 1)

/-- The move leaves the king of the side that made it unattacked. -/
def kingSafeAfter (T : Lookups) (Z : ZobristKeys) (b : Board) (m : Move) : Bool :=
  let b2 := (b.makeMove Z m).1
  !b2.isAttacked T (b2.kingSq b.sideToMove_) b.sideToMove_.flip

/-- The legal moves: the pseudo-legal moves whose execution leaves the own king unattacked. -/
def legal (T : Lookups) (Z : ZobristKeys) (b : Board) (m : Move) : Bool :=
  pseudoLegal T b m && kingSafeAfter T Z b m

end Spec

end chess

/-!
# The structural invariant, as statements about single squares
-/

namespace chess

namespace Board

theorem code_eq (c pt : Nat) (hpt : pt < 8) : code c pt = pt + 8 * c := by
  unfold code
  have h1 : c <<< 3 = 2 ^ 3 * c := by rw [Nat.shiftLeft_eq, Nat.mul_comm]
  rw [h1, Nat.lor_comm]
  have := Nat.mul_add_lt_is_or (b := pt) (i := 3) (by simpa using hpt) c
  rw [← this]
  omega

theorem mem_allPieces {c pt : Nat} : (c, pt) ∈ allPieces ↔ c < 2 ∧ pt < 6 := by
  constructor
  · intro h
    simp only [allPieces, List.mem_cons, Prod.mk.injEq, List.mem_singleton, List.not_mem_nil, or_false] at h
    omega
  · rintro ⟨hc, hp⟩
    have hc2 : c = 0 ∨ c = 1 := by omega
    have hp2 : pt = 0 ∨ pt = 1 ∨ pt = 2 ∨ pt = 3 ∨ pt = 4 ∨ pt = 5 := by omega
    rcases hc2 with rfl | rfl <;> rcases hp2 with rfl | rfl | rfl | rfl | rfl | rfl <;> decide

theorem code_inj {c1 c2 p1 p2 : Nat} (h1 : c1 < 2 ∧ p1 < 6) (h2 : c2 < 2 ∧ p2 < 6)
    (h : code c1 p1 = code c2 p2) : c1 = c2 ∧ p1 = p2 := by
  rw [code_eq _ _ (by omega), code_eq _ _ (by omega)] at h
  omega

theorem code_ne_empty {c pt : Nat} (h : c < 2 ∧ pt < 6) : code c pt ≠ 0xFF := by
  rw [code_eq _ _ (by omega)]
  omega

theorem code_lt {c pt : Nat} (h : c < 2 ∧ pt < 6) : code c pt < 16 := by
  rw [code_eq _ _ (by omega)]
  omega

/-- The structural invariant in terms of single squares: every square of the mailbox is
empty or names a piece, and the bitboards and king squares are what the mailbox says. -/
structure Inv (b : Board) : Prop where
  mailbox : ∀ s, s < 64 → b.mailbox_ s = 0xFF ∨ ∃ c pt : Nat, (c < 2 ∧ pt < 6) ∧ b.mailbox_ s = code c pt
  pieces : ∀ c pt : Nat, c < 2 ∧ pt < 6 → ∀ s, (b.pieces_ c pt).testBit s = decide (s < 64 ∧ b.mailbox_ s = code c pt)
  byColor : ∀ c : Nat, c < 2 → ∀ s, (b.byColor_ c).testBit s = decide (s < 64 ∧ ∃ pt : Nat, pt < 6 ∧ b.mailbox_ s = code c pt)
  occupied : ∀ s, b.occupied_.testBit s = decide (s < 64 ∧ b.mailbox_ s ≠ 0xFF)
  kingLt : ∀ c : Nat, c < 2 → b.kingSquare_ c < 64
  king : ∀ c : Nat, c < 2 → ∀ s, s < 64 → (b.mailbox_ s = code c KING ↔ s = b.kingSquare_ c)

end Board

end chess

namespace chess

namespace Board

theorem lt_two_pow_of_testBit_lt {x : Nat} (h : ∀ s, x.testBit s = true → s < 64) : x < 2 ^ 64 := by
  apply Nat.lt_pow_two_of_testBit
  intro i hi
  cases hx : x.testBit i
  · rfl
  · have := h i hx; omega

theorem pt_cases {pt : Nat} (h : pt < 6) : pt = PAWN ∨ pt = KNIGHT ∨ pt = BISHOP ∨ pt = ROOK ∨ pt = QUEEN ∨ pt = KING := by
  unfold PAWN KNIGHT BISHOP ROOK QUEEN KING
  omega

theorem testBit_or6 (b : Board) (c s : Nat) :
    (b.pieces_ c PAWN ||| b.pieces_ c KNIGHT ||| b.pieces_ c BISHOP ||| b.pieces_ c ROOK
      ||| b.pieces_ c QUEEN ||| b.pieces_ c KING).testBit s = true ↔
      ∃ pt : Nat, pt < 6 ∧ (b.pieces_ c pt).testBit s = true := by
  simp only [Nat.testBit_or, Bool.or_eq_true]
  constructor
  · rintro (((((h | h) | h) | h) | h) | h)
    · exact ⟨PAWN, by decide, h⟩
    · exact ⟨KNIGHT, by decide, h⟩
    · exact ⟨BISHOP, by decide, h⟩
    · exact ⟨ROOK, by decide, h⟩
    · exact ⟨QUEEN, by decide, h⟩
    · exact ⟨KING, by decide, h⟩
  · rintro ⟨pt, hpt, h⟩
    rcases pt_cases hpt with rfl | rfl | rfl | rfl | rfl | rfl
    · exact Or.inl (Or.inl (Or.inl (Or.inl (Or.inl h))))
    · exact Or.inl (Or.inl (Or.inl (Or.inl (Or.inr h))))
    · exact Or.inl (Or.inl (Or.inl (Or.inr h)))
    · exact Or.inl (Or.inl (Or.inr h))
    · exact Or.inl (Or.inr h)
    · exact Or.inr h

theorem bool_eq_decide {x : Bool} {p : Prop} [Decidable p] (h : x = true ↔ p) : x = decide p := by
  cases x
  · symm; rw [decide_eq_false_iff_not]; intro hp; exact Bool.noConfusion (h.2 hp)
  · symm; rw [decide_eq_true_eq]; exact h.1 rfl

theorem Inv.of_structural {b : Board} (h : b.structural = true) : b.Inv := by
  unfold structural at h
  simp only [Bool.and_eq_true] at h
  obtain ⟨⟨⟨⟨⟨hw, hbc⟩, hocc⟩, hdis⟩, hmb⟩, hk⟩ := h
  unfold okWords at hw
  simp only [Bool.and_eq_true, List.all_eq_true, decide_eq_true_eq] at hw
  obtain ⟨⟨⟨hw1, _⟩, _⟩, _⟩ := hw
  have hwp : ∀ c pt : Nat, c < 2 ∧ pt < 6 → b.pieces_ c pt < 2 ^ 64 := fun c pt hcp =>
    hw1 (c, pt) (mem_allPieces.2 hcp)
  unfold okByColor at hbc
  simp only [List.all_eq_true, beq_iff_eq] at hbc
  have hbc2 : ∀ c : Nat, c < 2 → ∀ s, (b.byColor_ c).testBit s = true ↔
      ∃ pt : Nat, pt < 6 ∧ (b.pieces_ c pt).testBit s = true := by
    intro c hc s
    have : c ∈ [0, 1] := by
      have : c = 0 ∨ c = 1 := by omega
      rcases this with rfl | rfl <;> simp
    rw [hbc c this]
    exact testBit_or6 b c s
  unfold okOccupied at hocc
  have hocc2 := of_decide_eq_true (by simpa using hocc : decide (b.occupied_ = (b.byColor_ WHITE ||| b.byColor_ BLACK)) = true)
  unfold okDisjoint at hdis
  simp only [List.all_eq_true, Bool.or_eq_true, beq_iff_eq] at hdis
  unfold okMailbox at hmb
  simp only [List.all_eq_true] at hmb
  unfold okKings at hk
  simp only [List.all_eq_true, Bool.and_eq_true, decide_eq_true_eq, beq_iff_eq] at hk
  have hocc3 : ∀ s, b.occupied_.testBit s = true ↔ ∃ c pt : Nat, (c < 2 ∧ pt < 6) ∧ (b.pieces_ c pt).testBit s = true := by
    intro s
    rw [hocc2, Nat.testBit_or, Bool.or_eq_true, hbc2 WHITE (by decide), hbc2 BLACK (by decide)]
    constructor
    · rintro (⟨pt, h1, h2⟩ | ⟨pt, h1, h2⟩)
      · exact ⟨0, pt, ⟨by decide, h1⟩, h2⟩
      · exact ⟨1, pt, ⟨by decide, h1⟩, h2⟩
    · rintro ⟨c, pt, ⟨hc, hpt⟩, h2⟩
      have : c = 0 ∨ c = 1 := by omega
      rcases this with rfl | rfl
      · exact Or.inl ⟨pt, hpt, h2⟩
      · exact Or.inr ⟨pt, hpt, h2⟩
  have hmb2 : ∀ s, s < 64 → b.occupied_.testBit s = true →
      ∃ c pt : Nat, (c < 2 ∧ pt < 6) ∧ b.mailbox_ s = code c pt ∧ (b.pieces_ c pt).testBit s = true := by
    intro s hs ho
    have := hmb s (mem_sq64.2 hs)
    rw [if_pos ho, List.any_eq_true] at this
    obtain ⟨⟨c, pt⟩, hmem, h2⟩ := this
    simp only [Bool.and_eq_true, beq_iff_eq] at h2
    exact ⟨c, pt, mem_allPieces.1 hmem, h2.1, h2.2⟩
  have hmb3 : ∀ s, s < 64 → b.occupied_.testBit s = false → b.mailbox_ s = 0xFF := by
    intro s hs ho
    have := hmb s (mem_sq64.2 hs)
    rw [ho] at this
    simpa using this
  have hpieces : ∀ c pt : Nat, c < 2 ∧ pt < 6 → ∀ s, (b.pieces_ c pt).testBit s = true ↔
      (s < 64 ∧ b.mailbox_ s = code c pt) := by
    intro c pt hcp s
    constructor
    · intro hbit
      have hs : s < 64 := lt_of_testBit (hwp c pt hcp) hbit
      refine ⟨hs, ?_⟩
      obtain ⟨c2, pt2, hcp2, hm, hbit2⟩ := hmb2 s hs ((hocc3 s).2 ⟨c, pt, hcp, hbit⟩)
      by_cases heq : (c, pt) = (c2, pt2)
      · rw [Prod.mk.injEq] at heq; rw [heq.1, heq.2]; exact hm
      · have hd := hdis (c, pt) (mem_allPieces.2 hcp) (c2, pt2) (mem_allPieces.2 hcp2)
        rcases hd with hd | hd
        · exact absurd hd heq
        · have : (b.pieces_ c pt &&& b.pieces_ c2 pt2).testBit s = true := by
            rw [Nat.testBit_and, hbit, hbit2]; rfl
          simp only at hd
          rw [hd] at this
          simp at this
    · rintro ⟨hs, hm⟩
      cases ho : b.occupied_.testBit s
      · have := hmb3 s hs ho
        rw [hm] at this
        exact absurd this (code_ne_empty hcp)
      · obtain ⟨c2, pt2, hcp2, hm2, hbit2⟩ := hmb2 s hs ho
        rw [hm] at hm2
        obtain ⟨e1, e2⟩ := code_inj hcp hcp2 hm2
        rw [e1, e2]; exact hbit2
  have hmail : ∀ s, s < 64 → b.mailbox_ s = 0xFF ∨ ∃ c pt : Nat, (c < 2 ∧ pt < 6) ∧ b.mailbox_ s = code c pt := by
    intro s hs
    cases ho : b.occupied_.testBit s
    · exact Or.inl (hmb3 s hs ho)
    · obtain ⟨c, pt, hcp, hm, _⟩ := hmb2 s hs ho
      exact Or.inr ⟨c, pt, hcp, hm⟩
  refine ⟨hmail, ?_, ?_, ?_, ?_, ?_⟩
  · intro c pt hcp s
    exact bool_eq_decide (hpieces c pt hcp s)
  · intro c hc s
    apply bool_eq_decide
    rw [hbc2 c hc]
    constructor
    · rintro ⟨pt, hpt, hbit⟩
      have := (hpieces c pt ⟨hc, hpt⟩ s).1 hbit
      exact ⟨this.1, pt, hpt, this.2⟩
    · rintro ⟨hs, pt, hpt, hm⟩
      exact ⟨pt, hpt, (hpieces c pt ⟨hc, hpt⟩ s).2 ⟨hs, hm⟩⟩
  · intro s
    apply bool_eq_decide
    rw [hocc3]
    constructor
    · rintro ⟨c, pt, hcp, hbit⟩
      have := (hpieces c pt hcp s).1 hbit
      exact ⟨this.1, by rw [this.2]; exact code_ne_empty hcp⟩
    · rintro ⟨hs, hne⟩
      rcases hmail s hs with h | ⟨c, pt, hcp, hm⟩
      · exact absurd h hne
      · exact ⟨c, pt, hcp, (hpieces c pt hcp s).2 ⟨hs, hm⟩⟩
  · intro c hc
    have : c ∈ [0, 1] := by
      have : c = 0 ∨ c = 1 := by omega
      rcases this with rfl | rfl <;> simp
    exact (hk c this).1
  · intro c hc s hs
    have hmem : c ∈ [0, 1] := by
      have : c = 0 ∨ c = 1 := by omega
      rcases this with rfl | rfl <;> simp
    have h1 := hpieces c KING ⟨hc, by decide⟩ s
    rw [(hk c hmem).2, testBit_squareBB, decide_eq_true_eq] at h1
    constructor
    · intro hm; exact (h1.2 ⟨hs, hm⟩).symm
    · intro he; exact (h1.1 he.symm).2

end Board

end chess

namespace chess

namespace Board

theorem Inv.pieces_lt {b : Board} (h : b.Inv) {c pt : Nat} (hcp : c < 2 ∧ pt < 6) :
    b.pieces_ c pt < 2 ^ 64 := by
  apply lt_two_pow_of_testBit_lt
  intro s hs
  rw [h.pieces c pt hcp, decide_eq_true_eq] at hs
  exact hs.1

theorem Inv.byColor_lt {b : Board} (h : b.Inv) {c : Nat} (hc : c < 2) : b.byColor_ c < 2 ^ 64 := by
  apply lt_two_pow_of_testBit_lt
  intro s hs
  rw [h.byColor c hc, decide_eq_true_eq] at hs
  exact hs.1

theorem Inv.occupied_lt {b : Board} (h : b.Inv) : b.occupied_ < 2 ^ 64 := by
  apply lt_two_pow_of_testBit_lt
  intro s hs
  rw [h.occupied, decide_eq_true_eq] at hs
  exact hs.1

theorem Inv.structural {b : Board} (h : b.Inv) : b.structural = true := by
  unfold Board.structural
  simp only [Bool.and_eq_true]
  refine ⟨⟨⟨⟨⟨?_, ?_⟩, ?_⟩, ?_⟩, ?_⟩, ?_⟩
  · unfold okWords
    simp only [Bool.and_eq_true, List.all_eq_true, decide_eq_true_eq]
    refine ⟨⟨⟨?_, h.byColor_lt (by decide)⟩, h.byColor_lt (by decide)⟩, h.occupied_lt⟩
    rintro ⟨c, pt⟩ hmem
    exact h.pieces_lt (mem_allPieces.1 hmem)
  · unfold okByColor
    simp only [List.all_eq_true, beq_iff_eq]
    intro c hc
    have hc2 : c < 2 := by
      simp only [List.mem_cons, List.mem_singleton, List.not_mem_nil, or_false] at hc
      rcases hc with rfl | rfl <;> decide
    apply Nat.eq_of_testBit_eq
    intro s
    rw [h.byColor c hc2]
    symm
    apply bool_eq_decide
    rw [testBit_or6]
    constructor
    · rintro ⟨pt, hpt, hbit⟩
      rw [h.pieces c pt ⟨hc2, hpt⟩, decide_eq_true_eq] at hbit
      exact ⟨hbit.1, pt, hpt, hbit.2⟩
    · rintro ⟨hs, pt, hpt, hm⟩
      refine ⟨pt, hpt, ?_⟩
      rw [h.pieces c pt ⟨hc2, hpt⟩, decide_eq_true_eq]
      exact ⟨hs, hm⟩
  · unfold okOccupied
    rw [beq_iff_eq]
    apply Nat.eq_of_testBit_eq
    intro s
    rw [h.occupied, Nat.testBit_or, h.byColor WHITE (by decide), h.byColor BLACK (by decide)]
    apply Eq.symm
    apply bool_eq_decide
    rw [Bool.or_eq_true, decide_eq_true_eq, decide_eq_true_eq]
    constructor
    · rintro (⟨hs, pt, hpt, hm⟩ | ⟨hs, pt, hpt, hm⟩)
      · exact ⟨hs, by rw [hm]; exact code_ne_empty ⟨by decide, hpt⟩⟩
      · exact ⟨hs, by rw [hm]; exact code_ne_empty ⟨by decide, hpt⟩⟩
    · rintro ⟨hs, hne⟩
      rcases h.mailbox s hs with h1 | ⟨c, pt, ⟨hc, hpt⟩, hm⟩
      · exact absurd h1 hne
      · have : c = 0 ∨ c = 1 := by omega
        rcases this with rfl | rfl
        · exact Or.inl ⟨hs, pt, hpt, hm⟩
        · exact Or.inr ⟨hs, pt, hpt, hm⟩
  · unfold okDisjoint
    simp only [List.all_eq_true, Bool.or_eq_true, beq_iff_eq]
    rintro ⟨c1, p1⟩ hm1 ⟨c2, p2⟩ hm2
    by_cases heq : (c1, p1) = (c2, p2)
    · exact Or.inl heq
    · right
      rw [and_eq_zero_iff]
      rintro s ⟨h1, h2⟩
      rw [h.pieces c1 p1 (mem_allPieces.1 hm1), decide_eq_true_eq] at h1
      rw [h.pieces c2 p2 (mem_allPieces.1 hm2), decide_eq_true_eq] at h2
      have := code_inj (mem_allPieces.1 hm1) (mem_allPieces.1 hm2) (h1.2.symm.trans h2.2)
      exact heq (by rw [this.1, this.2])
  · unfold okMailbox
    simp only [List.all_eq_true]
    intro s hs
    have hs2 := mem_sq64.1 hs
    rw [h.occupied]
    by_cases hm : b.mailbox_ s = 0xFF
    · have : decide (s < 64 ∧ b.mailbox_ s ≠ 0xFF) = false := by
        rw [decide_eq_false_iff_not]; rintro ⟨_, h2⟩; exact h2 hm
      rw [this]
      simp [hm]
    · have : decide (s < 64 ∧ b.mailbox_ s ≠ 0xFF) = true := by
        rw [decide_eq_true_eq]; exact ⟨hs2, hm⟩
      rw [this]
      simp only [if_true, List.any_eq_true, Bool.and_eq_true, beq_iff_eq]
      rcases h.mailbox s hs2 with h1 | ⟨c, pt, hcp, hmc⟩
      · exact absurd h1 hm
      · refine ⟨(c, pt), mem_allPieces.2 hcp, hmc, ?_⟩
        rw [h.pieces c pt hcp, decide_eq_true_eq]
        exact ⟨hs2, hmc⟩
  · unfold okKings
    simp only [List.all_eq_true, Bool.and_eq_true, decide_eq_true_eq, beq_iff_eq]
    intro c hc
    have hc2 : c < 2 := by
      simp only [List.mem_cons, List.mem_singleton, List.not_mem_nil, or_false] at hc
      rcases hc with rfl | rfl <;> decide
    refine ⟨h.kingLt c hc2, ?_⟩
    apply Nat.eq_of_testBit_eq
    intro s
    rw [h.pieces c KING ⟨hc2, by decide⟩, testBit_squareBB, decide_eq_decide]
    constructor
    · rintro ⟨hs, hm⟩
      exact ((h.king c hc2 s hs).1 hm).symm
    · intro e
      have hs : s < 64 := by rw [← e]; exact h.kingLt c hc2
      exact ⟨hs, (h.king c hc2 s hs).2 e.symm⟩

theorem structural_iff_inv {b : Board} : b.structural = true ↔ b.Inv :=
  ⟨Inv.of_structural, Inv.structural⟩

end Board

end chess

/-!
# `putPiece`, `removePiece`, `movePiece` on a board that satisfies the invariant
-/

namespace chess

theorem setAt_same {α : Type} (f : Nat → α) (i : Nat) (v : α) : setAt f i v i = v := by
  unfold setAt; simp

theorem setAt_other {α : Type} (f : Nat → α) {i j : Nat} (v : α) (h : j ≠ i) : setAt f i v j = f j := by
  unfold setAt; simp [h]

theorem setAt_eq_self {α : Type} (f : Nat → α) (i : Nat) : setAt f i (f i) = f := by
  funext j
  unfold setAt
  by_cases h : j = i
  · rw [if_pos h, h]
  · rw [if_neg h]

theorem setAt_setAt {α : Type} (f : Nat → α) (i : Nat) (v w : α) : setAt (setAt f i v) i w = setAt f i w := by
  funext j
  unfold setAt
  by_cases h : j = i <;> simp [h]

theorem setAt2_same {α : Type} (f : Nat → Nat → α) (i j : Nat) (v : α) : setAt2 f i j v i j = v := by
  unfold setAt2; simp

theorem setAt2_other {α : Type} (f : Nat → Nat → α) {i j a c : Nat} (v : α) (h : ¬ (a = i ∧ c = j)) :
    setAt2 f i j v a c = f a c := by
  unfold setAt2; simp [h]

theorem setAt2_eq_self {α : Type} (f : Nat → Nat → α) (i j : Nat) : setAt2 f i j (f i j) = f := by
  funext a c
  unfold setAt2
  by_cases h : a = i ∧ c = j
  · rw [if_pos h, h.1, h.2]
  · rw [if_neg h]

theorem setAt2_setAt2 {α : Type} (f : Nat → Nat → α) (i j : Nat) (v w : α) :
    setAt2 (setAt2 f i j v) i j w = setAt2 f i j w := by
  funext a c
  unfold setAt2
  by_cases h : a = i ∧ c = j <;> simp [h]

theorem setAt_comm {α : Type} (f : Nat → α) {i j : Nat} (v w : α) (h : i ≠ j) :
    setAt (setAt f i v) j w = setAt (setAt f j w) i v := by
  funext k
  unfold setAt
  by_cases h1 : k = i
  · subst h1
    rw [if_neg h, if_pos rfl, if_pos rfl]
  · by_cases h2 : k = j
    · subst h2
      rw [if_pos rfl, if_neg h1, if_pos rfl]
    · rw [if_neg h2, if_neg h1, if_neg h1, if_neg h2]

namespace Board

theorem ext_fields {a b : Board} (h1 : a.pieces_ = b.pieces_) (h2 : a.byColor_ = b.byColor_)
    (h3 : a.occupied_ = b.occupied_) (h4 : a.mailbox_ = b.mailbox_)
    (h5 : a.sideToMove_ = b.sideToMove_) (h6 : a.castling_ = b.castling_)
    (h7 : a.epSquare_ = b.epSquare_) (h8 : a.halfmove_ = b.halfmove_)
    (h9 : a.fullmove_ = b.fullmove_) (h10 : a.kingSquare_ = b.kingSquare_)
    (h11 : a.history_ = b.history_) (h12 : a.hash_ = b.hash_) : a = b := by
  cases a; cases b
  simp only at h1 h2 h3 h4 h5 h6 h7 h8 h9 h10 h11 h12
  subst h1 h2 h3 h4 h5 h6 h7 h8 h9 h10 h11 h12
  rfl

/-- Changing the mailbox at one square, with the bitboards and king squares following, keeps
the invariant. This is the shape every piece operation is brought into. -/
theorem Inv.update {b b2 : Board} (h : b.Inv) (sq : Nat) (hsq : sq < 64) (v : Nat)
    (hv : v = 0xFF ∨ ∃ c pt : Nat, (c < 2 ∧ pt < 6) ∧ v = code c pt)
    (hmb : b2.mailbox_ = setAt b.mailbox_ sq v)
    (hp : ∀ c pt : Nat, c < 2 ∧ pt < 6 → ∀ s,
      (b2.pieces_ c pt).testBit s = if s = sq then decide (v = code c pt) else (b.pieces_ c pt).testBit s)
    (hbc : ∀ c : Nat, c < 2 → ∀ s,
      (b2.byColor_ c).testBit s = if s = sq then decide (∃ pt : Nat, pt < 6 ∧ v = code c pt) else (b.byColor_ c).testBit s)
    (hocc : ∀ s, b2.occupied_.testBit s = if s = sq then decide (v ≠ 0xFF) else b.occupied_.testBit s)
    (hkl : ∀ c : Nat, c < 2 → b2.kingSquare_ c < 64)
    (hk : ∀ c : Nat, c < 2 → ∀ s, s < 64 → (b2.mailbox_ s = code c KING ↔ s = b2.kingSquare_ c)) :
    b2.Inv := by
  refine ⟨?_, ?_, ?_, ?_, hkl, hk⟩
  · intro s hs
    rw [hmb]
    by_cases e : s = sq
    · subst e; rw [setAt_same]; exact hv
    · rw [setAt_other _ _ e]; exact h.mailbox s hs
  · intro c pt hcp s
    rw [hp c pt hcp s, hmb]
    by_cases e : s = sq
    · subst e; rw [if_pos rfl, setAt_same]
      rw [decide_eq_decide]
      exact ⟨fun h1 => ⟨hsq, h1⟩, fun h1 => h1.2⟩
    · rw [if_neg e, setAt_other _ _ e]; exact h.pieces c pt hcp s
  · intro c hc s
    rw [hbc c hc s, hmb]
    by_cases e : s = sq
    · subst e; rw [if_pos rfl, setAt_same]
      rw [decide_eq_decide]
      exact ⟨fun h1 => ⟨hsq, h1⟩, fun h1 => h1.2⟩
    · rw [if_neg e, setAt_other _ _ e]; exact h.byColor c hc s
  · intro s
    rw [hocc s, hmb]
    by_cases e : s = sq
    · subst e; rw [if_pos rfl, setAt_same]
      rw [decide_eq_decide]
      exact ⟨fun h1 => ⟨hsq, h1⟩, fun h1 => h1.2⟩
    · rw [if_neg e, setAt_other _ _ e]; exact h.occupied s

end Board

end chess

namespace chess

namespace Board

theorem Inv.not_king_of_ne {b : Board} (h : b.Inv) {c pt sq : Nat} (hcp : c < 2 ∧ pt < 6)
    (hpt : pt ≠ KING) (hsq : sq < 64) (hm : b.mailbox_ sq = code c pt) (c2 : Nat) (hc2 : c2 < 2) :
    sq ≠ b.kingSquare_ c2 := by
  intro e
  have := (h.king c2 hc2 sq hsq).2 e
  rw [hm] at this
  exact hpt (code_inj hcp ⟨hc2, by decide⟩ this).2

theorem Inv.removePiece {b : Board} (h : b.Inv) {c pt sq : Nat} (hcp : c < 2 ∧ pt < 6)
    (hpt : pt ≠ KING) (hsq : sq < 64) (hm : b.mailbox_ sq = code c pt) :
    (b.removePiece c pt sq).Inv := by
  apply Inv.update h sq hsq 0xFF (Or.inl rfl) rfl
  · intro c2 pt2 hcp2 s
    show (setAt2 b.pieces_ c pt (b.pieces_ c pt &&& bnot (squareBB sq)) c2 pt2).testBit s = _
    have hne : ¬ ((255 : Nat) = code c2 pt2) := fun e => code_ne_empty hcp2 e.symm
    by_cases e : c2 = c ∧ pt2 = pt
    · obtain ⟨e1, e2⟩ := e
      subst e1 e2
      rw [setAt2_same, Nat.testBit_and, testBit_bnot, testBit_squareBB, h.pieces _ _ hcp]
      by_cases es : s = sq
      · subst es; simp [hne]
      · rw [if_neg es]
        have : ¬ sq = s := fun e => es e.symm
        by_cases hs : s < 64 <;> simp [this, hs]
    · rw [setAt2_other _ _ e]
      by_cases es : s = sq
      · subst es
        rw [if_pos rfl, h.pieces _ _ hcp2, hm, decide_eq_decide]
        constructor
        · rintro ⟨_, h2⟩
          exact absurd (code_inj hcp hcp2 h2) (fun h3 => e ⟨h3.1.symm, h3.2.symm⟩)
        · intro h2; exact absurd h2 hne
      · rw [if_neg es]
  · intro c2 hc2 s
    show (setAt b.byColor_ c (b.byColor_ c &&& bnot (squareBB sq)) c2).testBit s = _
    have hne : ¬ ∃ pt : Nat, pt < 6 ∧ (255 : Nat) = code c2 pt := by
      rintro ⟨p, hp, e⟩; exact code_ne_empty ⟨hc2, hp⟩ e.symm
    by_cases e : c2 = c
    · subst e
      rw [setAt_same, Nat.testBit_and, testBit_bnot, testBit_squareBB, h.byColor _ hc2]
      by_cases es : s = sq
      · subst es; simp [hne]
      · rw [if_neg es]
        have : ¬ sq = s := fun e => es e.symm
        by_cases hs : s < 64 <;> simp [this, hs]
    · rw [setAt_other _ _ e]
      by_cases es : s = sq
      · subst es
        rw [if_pos rfl, h.byColor _ hc2, hm, decide_eq_decide]
        constructor
        · rintro ⟨_, p, hp, h2⟩
          exact absurd (code_inj hcp ⟨hc2, hp⟩ h2).1.symm e
        · intro h2; exact absurd h2 hne
      · rw [if_neg es]
  · intro s
    show (b.occupied_ &&& bnot (squareBB sq)).testBit s = _
    rw [Nat.testBit_and, testBit_bnot, testBit_squareBB, h.occupied]
    by_cases es : s = sq
    · subst es; simp
    · rw [if_neg es]
      have : ¬ sq = s := fun e => es e.symm
      by_cases hs : s < 64 <;> simp [this, hs]
  · exact h.kingLt
  · intro c2 hc2 s hs
    show setAt b.mailbox_ sq 0xFF s = code c2 KING ↔ s = b.kingSquare_ c2
    by_cases es : s = sq
    · subst es
      rw [setAt_same]
      constructor
      · intro e; exact absurd e.symm (code_ne_empty ⟨hc2, by decide⟩)
      · intro e; exact absurd e (h.not_king_of_ne hcp hpt hsq hm c2 hc2)
    · rw [setAt_other _ _ es]
      exact h.king c2 hc2 s hs

theorem Inv.putPiece {b : Board} (h : b.Inv) {c pt sq : Nat} (hcp : c < 2 ∧ pt < 6)
    (hpt : pt ≠ KING) (hsq : sq < 64) (hm : b.mailbox_ sq = 0xFF) :
    (b.putPiece c pt sq).Inv := by
  have hcode : (b.putPiece c pt sq).mailbox_ = setAt b.mailbox_ sq (code c pt) := rfl
  have hks : (b.putPiece c pt sq).kingSquare_ = b.kingSquare_ := by
    show (if pt = KING then setAt b.kingSquare_ c sq else b.kingSquare_) = _
    rw [if_neg hpt]
  apply Inv.update h sq hsq (code c pt) (Or.inr ⟨c, pt, hcp, rfl⟩) hcode
  · intro c2 pt2 hcp2 s
    show (setAt2 b.pieces_ c pt (b.pieces_ c pt ||| squareBB sq) c2 pt2).testBit s = _
    by_cases e : c2 = c ∧ pt2 = pt
    · obtain ⟨e1, e2⟩ := e
      subst e1 e2
      rw [setAt2_same, Nat.testBit_or, testBit_squareBB]
      by_cases es : s = sq
      · subst es; simp
      · rw [if_neg es]
        have : ¬ sq = s := fun e => es e.symm
        simp [this]
    · rw [setAt2_other _ _ e]
      by_cases es : s = sq
      · subst es
        rw [if_pos rfl, h.pieces _ _ hcp2, hm, decide_eq_decide]
        constructor
        · rintro ⟨_, h2⟩
          exact absurd h2.symm (code_ne_empty hcp2)
        · intro h2
          exact absurd (code_inj hcp hcp2 h2) (fun h3 => e ⟨h3.1.symm, h3.2.symm⟩)
      · rw [if_neg es]
  · intro c2 hc2 s
    show (setAt b.byColor_ c (b.byColor_ c ||| squareBB sq) c2).testBit s = _
    by_cases e : c2 = c
    · subst e
      rw [setAt_same, Nat.testBit_or, testBit_squareBB]
      by_cases es : s = sq
      · subst es
        have : ∃ p : Nat, p < 6 ∧ code c2 pt = code c2 p := ⟨pt, hcp.2, rfl⟩
        simp [this]
      · rw [if_neg es]
        have : ¬ sq = s := fun e => es e.symm
        simp [this]
    · rw [setAt_other _ _ e]
      by_cases es : s = sq
      · subst es
        rw [if_pos rfl, h.byColor _ hc2, hm, decide_eq_decide]
        constructor
        · rintro ⟨_, p, hp, h2⟩
          exact absurd h2.symm (code_ne_empty ⟨hc2, hp⟩)
        · rintro ⟨p, hp, h2⟩
          exact absurd (code_inj hcp ⟨hc2, hp⟩ h2).1.symm e
      · rw [if_neg es]
  · intro s
    show (b.occupied_ ||| squareBB sq).testBit s = _
    rw [Nat.testBit_or, testBit_squareBB, h.occupied]
    by_cases es : s = sq
    · subst es
      have := code_ne_empty hcp
      simp [this]
    · rw [if_neg es]
      have : ¬ sq = s := fun e => es e.symm
      simp [this]
  · rw [hks]; exact h.kingLt
  · intro c2 hc2 s hs
    rw [hks, hcode]
    by_cases es : s = sq
    · subst es
      rw [setAt_same]
      constructor
      · intro e; exact absurd (code_inj hcp ⟨hc2, by decide⟩ e).2 hpt
      · intro e
        have := (h.king c2 hc2 s hs).2 e
        rw [hm] at this
        exact absurd this.symm (code_ne_empty ⟨hc2, by decide⟩)
    · rw [setAt_other _ _ es]
      exact h.king c2 hc2 s hs

end Board

end chess

/-!
# Piece operations: the invariant and the inverses
-/

namespace chess

namespace Board

theorem Inv.ne_of_mailbox_ne {b : Board} {s t : Nat} (h : b.mailbox_ s ≠ b.mailbox_ t) : s ≠ t :=
  fun e => h (e ▸ rfl)

/-- Moving a piece onto an empty square keeps the invariant. -/
theorem Inv.movePiece {b : Board} (h : b.Inv) {c pt src dst : Nat} (hcp : c < 2 ∧ pt < 6)
    (hsrc : src < 64) (hdst : dst < 64) (hm : b.mailbox_ src = code c pt)
    (hd : b.mailbox_ dst = 0xFF) : (b.movePiece c pt src dst).Inv := by
  have hne : src ≠ dst := by
    intro e; rw [e, hd] at hm; exact code_ne_empty hcp hm.symm
  have hne2 : dst ≠ src := fun e => hne e.symm
  have hmb : (b.movePiece c pt src dst).mailbox_ = setAt (setAt b.mailbox_ src 0xFF) dst (code c pt) := rfl
  have key : ∀ s (x : Bool), (x ^^ ((squareBB src ||| squareBB dst).testBit s)) =
      if s = dst then !x else if s = src then !x else x := by
    intro s x
    rw [Nat.testBit_or, testBit_squareBB, testBit_squareBB]
    by_cases e1 : s = dst
    · subst e1; cases x <;> simp
    · by_cases e2 : s = src
      · subst e2; cases x <;> simp
      · have e3 : ¬ dst = s := fun e => e1 e.symm
        have e4 : ¬ src = s := fun e => e2 e.symm
        cases x <;> simp [e1, e2, e3, e4]
  have hmd : ∀ s, setAt (setAt b.mailbox_ src 0xFF) dst (code c pt) s =
      if s = dst then code c pt else if s = src then 0xFF else b.mailbox_ s := by
    intro s; unfold setAt; rfl
  refine ⟨?_, ?_, ?_, ?_, ?_, ?_⟩
  · intro s hs
    rw [hmb, hmd]
    split
    · exact Or.inr ⟨c, pt, hcp, rfl⟩
    · split
      · exact Or.inl rfl
      · exact h.mailbox s hs
  · intro c2 pt2 hcp2 s
    rw [hmb, hmd]
    show (setAt2 b.pieces_ c pt (b.pieces_ c pt ^^^ (squareBB src ||| squareBB dst)) c2 pt2).testBit s = _
    by_cases e : c2 = c ∧ pt2 = pt
    · obtain ⟨e1, e2⟩ := e
      subst e1 e2
      rw [setAt2_same, Nat.testBit_xor, key, h.pieces _ _ hcp]
      by_cases e1 : s = dst
      · subst e1; simp [hd, hdst]
        exact fun e => code_ne_empty hcp e.symm
      · rw [if_neg e1, if_neg e1]
        by_cases e2 : s = src
        · subst e2; simp [hm, hsrc]
          exact fun e => code_ne_empty hcp e.symm
        · rw [if_neg e2, if_neg e2]
    · rw [setAt2_other _ _ e, h.pieces _ _ hcp2, decide_eq_decide]
      have hcne : code c pt ≠ code c2 pt2 := fun e3 =>
        e ⟨(code_inj hcp hcp2 e3).1.symm, (code_inj hcp hcp2 e3).2.symm⟩
      by_cases e1 : s = dst
      · subst e1; rw [if_pos rfl, hd]
        constructor
        · rintro ⟨_, h2⟩; exact absurd h2.symm (code_ne_empty hcp2)
        · rintro ⟨_, h2⟩; exact absurd h2 hcne
      · rw [if_neg e1]
        by_cases e2 : s = src
        · subst e2; rw [if_pos rfl, hm]
          constructor
          · rintro ⟨_, h2⟩; exact absurd h2 hcne
          · rintro ⟨_, h2⟩; exact absurd h2.symm (code_ne_empty hcp2)
        · rw [if_neg e2]
  · intro c2 hc2 s
    rw [hmb, hmd]
    show (setAt b.byColor_ c (b.byColor_ c ^^^ (squareBB src ||| squareBB dst)) c2).testBit s = _
    by_cases e : c2 = c
    · subst e
      rw [setAt_same, Nat.testBit_xor, key, h.byColor _ hc2]
      by_cases e1 : s = dst
      · subst e1
        have h1 : ¬ ∃ p : Nat, p < 6 ∧ b.mailbox_ s = code c2 p := by
          rintro ⟨p, hp, e⟩; rw [hd] at e; exact code_ne_empty ⟨hc2, hp⟩ e.symm
        have h2 : ∃ p : Nat, p < 6 ∧ code c2 pt = code c2 p := ⟨pt, hcp.2, rfl⟩
        simp [h1, h2, hdst]
      · rw [if_neg e1]
        by_cases e2 : s = src
        · subst e2
          have h1 : ∃ p : Nat, p < 6 ∧ b.mailbox_ s = code c2 p := ⟨pt, hcp.2, hm⟩
          have h2 : ¬ ∃ p : Nat, p < 6 ∧ (255 : Nat) = code c2 p := by
            rintro ⟨p, hp, e⟩; exact code_ne_empty ⟨hc2, hp⟩ e.symm
          simp [h1, h2, hsrc, e1]
        · simp [e1, e2]
    · rw [setAt_other _ _ e, h.byColor _ hc2, decide_eq_decide]
      by_cases e1 : s = dst
      · subst e1; rw [if_pos rfl, hd]
        constructor
        · rintro ⟨_, p, hp, h2⟩; exact absurd h2.symm (code_ne_empty ⟨hc2, hp⟩)
        · rintro ⟨_, p, hp, h2⟩; exact absurd (code_inj hcp ⟨hc2, hp⟩ h2).1.symm e
      · rw [if_neg e1]
        by_cases e2 : s = src
        · subst e2; rw [if_pos rfl, hm]
          constructor
          · rintro ⟨_, p, hp, h2⟩; exact absurd (code_inj hcp ⟨hc2, hp⟩ h2).1.symm e
          · rintro ⟨_, p, hp, h2⟩; exact absurd h2.symm (code_ne_empty ⟨hc2, hp⟩)
        · rw [if_neg e2]
  · intro s
    rw [hmb, hmd]
    show (b.occupied_ ^^^ (squareBB src ||| squareBB dst)).testBit s = _
    rw [Nat.testBit_xor, key, h.occupied]
    by_cases e1 : s = dst
    · subst e1
      have := code_ne_empty hcp
      simp [hd, hdst, this]
    · rw [if_neg e1]
      by_cases e2 : s = src
      · subst e2
        have := code_ne_empty hcp
        simp [hm, e1, this, hsrc]
      · simp [e1, e2]
  · intro c2 hc2
    show (if pt = KING then setAt b.kingSquare_ c dst else b.kingSquare_) c2 < 64
    split
    · by_cases e : c2 = c
      · subst e; rw [setAt_same]; exact hdst
      · rw [setAt_other _ _ e]; exact h.kingLt c2 hc2
    · exact h.kingLt c2 hc2
  · intro c2 hc2 s hs
    rw [hmb, hmd]
    show _ ↔ s = (if pt = KING then setAt b.kingSquare_ c dst else b.kingSquare_) c2
    by_cases ek : pt = KING ∧ c2 = c
    · obtain ⟨ek1, ek2⟩ := ek
      subst ek1 ek2
      rw [if_pos rfl, setAt_same]
      by_cases e1 : s = dst
      · subst e1; simp
      · rw [if_neg e1]
        by_cases e2 : s = src
        · subst e2; rw [if_pos rfl]
          constructor
          · intro e; exact absurd e.symm (code_ne_empty hcp)
          · intro e; exact absurd e e1
        · rw [if_neg e2]
          constructor
          · intro e
            have h1 := (h.king c2 hc2 s hs).1 e
            have h2 := (h.king c2 hc2 src hsrc).1 hm
            exact absurd (h1.trans h2.symm) e2
          · intro e; exact absurd e e1
    · have hks : (if pt = KING then setAt b.kingSquare_ c dst else b.kingSquare_) c2 = b.kingSquare_ c2 := by
        split
        · rename_i hk
          have : c2 ≠ c := fun e => ek ⟨hk, e⟩
          rw [setAt_other _ _ this]
        · rfl
      rw [hks]
      have hcne : code c pt ≠ code c2 KING := fun e3 =>
        ek ⟨(code_inj hcp ⟨hc2, by decide⟩ e3).2, (code_inj hcp ⟨hc2, by decide⟩ e3).1.symm⟩
      by_cases e1 : s = dst
      · subst e1; rw [if_pos rfl]
        constructor
        · intro e; exact absurd e hcne
        · intro e
          have := (h.king c2 hc2 s hs).2 e
          rw [hd] at this
          exact absurd this.symm (code_ne_empty ⟨hc2, by decide⟩)
      · rw [if_neg e1]
        by_cases e2 : s = src
        · subst e2; rw [if_pos rfl]
          constructor
          · intro e; exact absurd e.symm (code_ne_empty ⟨hc2, by decide⟩)
          · intro e
            have := (h.king c2 hc2 s hs).2 e
            rw [hm] at this
            exact absurd this hcne
        · rw [if_neg e2]; exact h.king c2 hc2 s hs

end Board

end chess

/-!
# The move in closed form
-/

namespace chess
namespace Board

/-- The piece operations of `makeMove` on their own. -/
def applyPieces (b : Board) (m : Move) : Board :=
  let us := b.sideToMove_
  let them := us.flip
  let src := m.src
  let dst := m.dst
  let moving := b.pieceAt src
  let captured := if b.isEmpty dst then NO_PIECE else b.pieceAt dst
  if m.type = MT_CASTLING then
    let idx := us * 2 + (if fileOf dst = 6 then 0 else 1)
    (b.movePiece us KING src dst).movePiece us ROOK (Tables.CASTLING_ROOK_FROM idx) (Tables.CASTLING_ROOK_TO idx)
  else
    let b : Board := if captured ≠ NO_PIECE then b.removePiece them captured dst else b
    let b : Board :=
      if m.type = MT_EN_PASSANT then
        b.removePiece them PAWN ((dst : Int) + (if us = WHITE then -8 else 8)).toNat
      else b
    if m.type = MT_PROMOTION then (b.removePiece us PAWN src).putPiece us m.promo dst
    else b.movePiece us moving src dst

/-- The piece keys that `makeMove` folds into the hash. -/
def moveKeys (Z : ZobristKeys) (b : Board) (m : Move) (h : Nat) : Nat :=
  let us := b.sideToMove_
  let them := us.flip
  let src := m.src
  let dst := m.dst
  let moving := b.pieceAt src
  let captured := if b.isEmpty dst then NO_PIECE else b.pieceAt dst
  if m.type = MT_CASTLING then
    let idx := us * 2 + (if fileOf dst = 6 then 0 else 1)
    h ^^^ Z.PIECE us KING src ^^^ Z.PIECE us KING dst
      ^^^ Z.PIECE us ROOK (Tables.CASTLING_ROOK_FROM idx) ^^^ Z.PIECE us ROOK (Tables.CASTLING_ROOK_TO idx)
  else
    let h := if captured ≠ NO_PIECE then h ^^^ Z.PIECE them captured dst else h
    let h :=
      if m.type = MT_EN_PASSANT then
        h ^^^ Z.PIECE them PAWN ((dst : Int) + (if us = WHITE then -8 else 8)).toNat
      else h
    if m.type = MT_PROMOTION then h ^^^ Z.PIECE us PAWN src ^^^ Z.PIECE us m.promo dst
    else h ^^^ Z.PIECE us moving src ^^^ Z.PIECE us moving dst

/-- The en-passant square after the move. -/
def epAfter (b : Board) (m : Move) : Int :=
  if (m.type ≠ MT_CASTLING ∧ m.type ≠ MT_PROMOTION) ∧ b.pieceAt m.src = PAWN ∧ ((m.dst : Int) - (m.src : Int)).natAbs = 16
  then (((m.src + m.dst) / 2 : Nat) : Int) else -1

/-- The move in closed form. -/
def moved (Z : ZobristKeys) (b : Board) (m : Move) : Board :=
  let captured := if b.isEmpty m.dst then NO_PIECE else b.pieceAt m.dst
  let castling := (b.castling_ &&& Tables.CASTLING_RIGHTS_MASK m.src) &&& Tables.CASTLING_RIGHTS_MASK m.dst
  let h := b.hash_ ^^^ Z.CASTLING b.castling_
  let h := if b.epSquare_ ≥ 0 then h ^^^ Z.EP (b.epSquare_.toNat &&& 7) else h
  let h := moveKeys Z b m h
  let h := h ^^^ Z.CASTLING castling
  let h := if epAfter b m ≥ 0 then h ^^^ Z.EP ((epAfter b m).toNat &&& 7) else h
  { applyPieces b m with
    sideToMove_ := b.sideToMove_.flip
    castling_ := castling
    epSquare_ := epAfter b m
    halfmove_ := if b.pieceAt m.src = PAWN ∨ captured ≠ NO_PIECE then 0 else (b.halfmove_ + 1) % 256
    fullmove_ := (b.fullmove_ + (if b.sideToMove_ = BLACK then 1 else 0)) % 65536
    history_ := b.history_ ++ [b.hash_]
    hash_ := h ^^^ Z.SIDE }

theorem movePiece_epSquare (b : Board) (c pt s d : Nat) : (b.movePiece c pt s d).epSquare_ = b.epSquare_ := rfl
theorem removePiece_epSquare (b : Board) (c pt s : Nat) : (b.removePiece c pt s).epSquare_ = b.epSquare_ := rfl
theorem putPiece_epSquare (b : Board) (c pt s : Nat) : (b.putPiece c pt s).epSquare_ = b.epSquare_ := rfl
theorem movePiece_castling (b : Board) (c pt s d : Nat) : (b.movePiece c pt s d).castling_ = b.castling_ := rfl
theorem removePiece_castling (b : Board) (c pt s : Nat) : (b.removePiece c pt s).castling_ = b.castling_ := rfl
theorem putPiece_castling (b : Board) (c pt s : Nat) : (b.putPiece c pt s).castling_ = b.castling_ := rfl

set_option maxHeartbeats 4000000 in
theorem makeMove_fst (Z : ZobristKeys) (b : Board) (m : Move) (hmt : m.type < 4)
    (hp : b.mailbox_ m.src &&& 7 ≠ NO_PIECE) :
    (b.makeMove Z m).1 = b.moved Z m := by
  have h4 : m.type = MT_NORMAL ∨ m.type = MT_PROMOTION ∨ m.type = MT_EN_PASSANT ∨ m.type = MT_CASTLING := by
    have : ∀ t : Nat, t < 4 → t = 0 ∨ t = 1 ∨ t = 2 ∨ t = 3 := by omega
    exact this _ hmt
  have e0 : MT_NORMAL ≠ MT_CASTLING := by decide
  have e1 : MT_NORMAL ≠ MT_EN_PASSANT := by decide
  have e2 : MT_NORMAL ≠ MT_PROMOTION := by decide
  have e3 : MT_PROMOTION ≠ MT_CASTLING := by decide
  have e4 : MT_PROMOTION ≠ MT_EN_PASSANT := by decide
  have e5 : MT_PROMOTION ≠ MT_NORMAL := by decide
  have e6 : MT_EN_PASSANT ≠ MT_CASTLING := by decide
  have e7 : MT_EN_PASSANT ≠ MT_PROMOTION := by decide
  have e8 : MT_EN_PASSANT ≠ MT_NORMAL := by decide
  have hpn : ¬ (PAWN = NO_PIECE) := by decide
  by_cases he : (b.mailbox_ m.dst == 255) = true <;>
  by_cases hc : b.mailbox_ m.dst &&& 7 = NO_PIECE <;>
  by_cases hd : b.mailbox_ m.src &&& 7 = PAWN ∧ ((m.dst : Int) - (m.src : Int)).natAbs = 16 <;>
  rcases h4 with h | h | h | h <;>
  simp only [makeMove, moved, applyPieces, moveKeys, epAfter, pieceAt, isEmpty, hp, if_false, ne_eq, h,
        e0, e1, e2, e3, e4, e5, e6, e7, e8, if_true, true_and, not_false_eq_true, and_self, he, hc, hd, hpn, Bool.false_eq_true, or_true, true_or, or_false, false_or,
        false_and, and_false, not_true_eq_false, and_true,
        movePiece_epSquare, removePiece_epSquare, putPiece_epSquare] <;>
  rfl


theorem makeMove_snd (Z : ZobristKeys) (b : Board) (m : Move)
    (hp : b.mailbox_ m.src &&& 7 ≠ NO_PIECE) :
    (b.makeMove Z m).2 = UndoInfo.make b.castling_ b.epSquare_ b.halfmove_
      (if b.isEmpty m.dst then NO_PIECE else b.pieceAt m.dst) := by
  simp only [makeMove, pieceAt, isEmpty, hp, if_false]

end Board
end chess

/-!
# The board after a move, by the kind of move
-/

namespace chess

theorem Move.src_lt (m : Move) : m.src < 64 := by
  unfold Move.src
  have := @Nat.and_le_right m.data_ 0x3F
  omega

theorem Move.dst_lt (m : Move) : m.dst < 64 := by
  unfold Move.dst
  have := @Nat.and_le_right (m.data_ >>> 6) 0x3F
  omega

theorem Move.type_lt (m : Move) : m.type < 4 := by
  have h := @Nat.and_le_right (m.data_ >>> 12) 0x3
  exact Nat.lt_succ_of_le h

theorem Move.promo_range (m : Move) : 1 ≤ m.promo ∧ m.promo ≤ 4 := by
  have h := @Nat.and_le_right (m.data_ >>> 14) 0x3
  exact ⟨Nat.le_add_left 1 _, Nat.add_le_add_right h 1⟩

theorem flip_lt {c : Nat} (h : c < 2) : Color.flip c < 2 := by
  have : c = 0 ∨ c = 1 := by omega
  rcases this with rfl | rfl <;> decide

theorem flip_ne {c : Nat} (h : c < 2) : Color.flip c ≠ c := by
  have : c = 0 ∨ c = 1 := by omega
  rcases this with rfl | rfl <;> decide

theorem flip_flip {c : Nat} (h : c < 2) : Color.flip (Color.flip c) = c := by
  have : c = 0 ∨ c = 1 := by omega
  rcases this with rfl | rfl <;> decide

namespace Board

theorem code_and7 {c pt : Nat} (h : c < 2 ∧ pt < 6) : code c pt &&& 7 = pt := by
  have hc : c = 0 ∨ c = 1 := by omega
  have hp : pt = 0 ∨ pt = 1 ∨ pt = 2 ∨ pt = 3 ∨ pt = 4 ∨ pt = 5 := by omega
  rcases hc with rfl | rfl <;> rcases hp with rfl | rfl | rfl | rfl | rfl | rfl <;> decide

theorem code_color {c pt : Nat} (h : c < 2 ∧ pt < 6) : (code c pt >>> 3) &&& 1 = c := by
  have hc : c = 0 ∨ c = 1 := by omega
  have hp : pt = 0 ∨ pt = 1 ∨ pt = 2 ∨ pt = 3 ∨ pt = 4 ∨ pt = 5 := by omega
  rcases hc with rfl | rfl <;> rcases hp with rfl | rfl | rfl | rfl | rfl | rfl <;> decide

theorem empty_and7 : (0xFF : Nat) &&& 7 = NO_PIECE := by decide

theorem pt_ne_no_piece {pt : Nat} (h : pt < 6) : pt ≠ NO_PIECE := by
  unfold NO_PIECE; omega

/-- The invariant only reads the bitboards, the mailbox and the king squares. -/
theorem Inv.congr {a b : Board} (h : a.Inv) (h1 : b.pieces_ = a.pieces_) (h2 : b.byColor_ = a.byColor_)
    (h3 : b.occupied_ = a.occupied_) (h4 : b.mailbox_ = a.mailbox_)
    (h5 : b.kingSquare_ = a.kingSquare_) : b.Inv := by
  refine ⟨?_, ?_, ?_, ?_, ?_, ?_⟩
  · rw [h4]; exact h.mailbox
  · rw [h1, h4]; exact h.pieces
  · rw [h2, h4]; exact h.byColor
  · rw [h3, h4]; exact h.occupied
  · rw [h5]; exact h.kingLt
  · rw [h4, h5]; exact h.king

/-- The square a move lands on is empty or holds a piece of the other side that is not the
king. -/
def TargetOk (b : Board) (them : Nat) (dst : Nat) : Prop :=
  b.mailbox_ dst = 0xFF ∨ ∃ cpt : Nat, cpt < 5 ∧ b.mailbox_ dst = code them cpt

theorem isEmpty_iff (b : Board) (s : Nat) : b.isEmpty s = true ↔ b.mailbox_ s = 0xFF := by
  unfold isEmpty; exact beq_iff_eq

/-- The board after taking whatever stands on the target square. -/
theorem Inv.capture {b : Board} (h : b.Inv) {them dst : Nat} (hthem : them < 2) (hdst : dst < 64)
    (hd : TargetOk b them dst) :
    let b2 : Board := if (if b.isEmpty dst then NO_PIECE else b.pieceAt dst) ≠ NO_PIECE
      then b.removePiece them (if b.isEmpty dst then NO_PIECE else b.pieceAt dst) dst else b
    b2.Inv ∧ b2.mailbox_ = setAt b.mailbox_ dst 0xFF ∧ b2.kingSquare_ = b.kingSquare_ := by
  intro b2
  rcases hd with hd | ⟨cpt, hcpt, hd⟩
  · have he : b.isEmpty dst = true := (isEmpty_iff b dst).2 hd
    have : b2 = b := by
      show (if (if b.isEmpty dst then NO_PIECE else b.pieceAt dst) ≠ NO_PIECE then _ else b) = b
      rw [he]; simp
    rw [this]
    refine ⟨h, ?_, rfl⟩
    rw [← hd, setAt_eq_self]
  · have hcp : them < 2 ∧ cpt < 6 := ⟨hthem, by omega⟩
    have he : b.isEmpty dst = false := by
      cases hh : b.isEmpty dst
      · rfl
      · have := (isEmpty_iff b dst).1 hh
        rw [hd] at this
        exact absurd this (code_ne_empty hcp)
    have hpa : b.pieceAt dst = cpt := by
      unfold pieceAt; rw [hd]; exact code_and7 hcp
    have : b2 = b.removePiece them cpt dst := by
      show (if (if b.isEmpty dst then NO_PIECE else b.pieceAt dst) ≠ NO_PIECE then _ else b) = _
      rw [he, hpa]
      simp only [Bool.false_eq_true, if_false]
      rw [if_pos (pt_ne_no_piece hcp.2)]
    rw [this]
    refine ⟨h.removePiece hcp (by unfold KING; omega) hdst hd, rfl, rfl⟩

end Board

end chess

namespace chess

namespace Board

theorem setAt_shadow {α : Type} (f : Nat → α) (d s : Nat) (x y z : α) :
    setAt (setAt (setAt f d x) s y) d z = setAt (setAt f s y) d z := by
  funext j
  unfold setAt
  split
  · rfl
  · split
    · rfl
    · rfl

/-- The square of the pawn that an en-passant capture landing on `dst` removes. -/
def capSqOf (us : Color) (dst : Nat) : Nat := ((dst : Int) + (if us = WHITE then -8 else 8)).toNat

/-- What the piece operations of a move leave behind: the invariant, the mailbox and the
king squares. -/
structure After (b : Board) (m : Move) (mb : Nat → Nat) (ks : Nat → Nat) : Prop where
  inv : (b.applyPieces m).Inv
  mailbox : (b.applyPieces m).mailbox_ = mb
  king : (b.applyPieces m).kingSquare_ = ks

theorem after_normal {b : Board} {m : Move} (h : b.Inv) {us pt : Nat} (hus : b.sideToMove_ = us)
    (hcp : us < 2 ∧ pt < 6) (ht : m.type = MT_NORMAL) (hs : b.mailbox_ m.src = code us pt)
    (hd : TargetOk b (Color.flip us) m.dst) :
    After b m (setAt (setAt b.mailbox_ m.src 0xFF) m.dst (code us pt))
      (if pt = KING then setAt b.kingSquare_ us m.dst else b.kingSquare_) := by
  have hthem := flip_lt hcp.1
  obtain ⟨h1, h2, h3⟩ := h.capture hthem m.dst_lt hd
  have hne : m.src ≠ m.dst := by
    intro e
    rcases hd with hd | ⟨cpt, hcpt, hd⟩
    · rw [← e, hs] at hd; exact code_ne_empty hcp hd
    · rw [← e, hs] at hd
      exact flip_ne hcp.1 (code_inj hcp ⟨hthem, by omega⟩ hd).1.symm
  have hpa : b.pieceAt m.src = pt := by unfold pieceAt; rw [hs]; exact code_and7 hcp
  have e : b.applyPieces m = Board.movePiece
      (if (if b.isEmpty m.dst then NO_PIECE else b.pieceAt m.dst) ≠ NO_PIECE
        then b.removePiece (Color.flip us) (if b.isEmpty m.dst then NO_PIECE else b.pieceAt m.dst) m.dst else b)
      us pt m.src m.dst := by
    have e0 : MT_NORMAL ≠ MT_CASTLING := by decide
    have e1 : MT_NORMAL ≠ MT_EN_PASSANT := by decide
    have e2 : MT_NORMAL ≠ MT_PROMOTION := by decide
    simp only [applyPieces, ht, e0, e1, e2, if_false, hpa, hus]
  have hs2 : (if (if b.isEmpty m.dst then NO_PIECE else b.pieceAt m.dst) ≠ NO_PIECE
        then b.removePiece (Color.flip us) (if b.isEmpty m.dst then NO_PIECE else b.pieceAt m.dst) m.dst else b).mailbox_ m.src
      = code us pt := by
    rw [h2, setAt_other _ _ hne]; exact hs
  have hd2 : (if (if b.isEmpty m.dst then NO_PIECE else b.pieceAt m.dst) ≠ NO_PIECE
        then b.removePiece (Color.flip us) (if b.isEmpty m.dst then NO_PIECE else b.pieceAt m.dst) m.dst else b).mailbox_ m.dst
      = 0xFF := by
    rw [h2, setAt_same]
  refine ⟨?_, ?_, ?_⟩
  · rw [e]; exact h1.movePiece hcp m.src_lt m.dst_lt hs2 hd2
  · rw [e]
    show setAt (setAt _ m.src 0xFF) m.dst (code us pt) = _
    rw [h2, setAt_shadow]
  · rw [e]
    show (if pt = KING then setAt _ us m.dst else _) = _
    rw [h3]

theorem after_promotion {b : Board} {m : Move} (h : b.Inv) {us : Nat} (hus : b.sideToMove_ = us)
    (hc : us < 2) (ht : m.type = MT_PROMOTION) (hs : b.mailbox_ m.src = code us PAWN)
    (hd : TargetOk b (Color.flip us) m.dst) :
    After b m (setAt (setAt b.mailbox_ m.src 0xFF) m.dst (code us m.promo)) b.kingSquare_ := by
  have hcp : us < 2 ∧ PAWN < 6 := ⟨hc, by decide⟩
  have hpr := m.promo_range
  have hcq : us < 2 ∧ m.promo < 6 := ⟨hc, Nat.lt_of_le_of_lt hpr.2 (by decide)⟩
  have hqk : m.promo ≠ KING := fun e => by
    have h5 := hpr.2; rw [e] at h5; exact absurd h5 (by decide)
  have hthem := flip_lt hc
  obtain ⟨h1, h2, h3⟩ := h.capture hthem m.dst_lt hd
  have hne : m.src ≠ m.dst := by
    intro e
    rcases hd with hd | ⟨cpt, hcpt, hd⟩
    · rw [← e, hs] at hd; exact code_ne_empty hcp hd
    · rw [← e, hs] at hd
      exact flip_ne hc (code_inj hcp ⟨hthem, Nat.lt_succ_of_lt hcpt⟩ hd).1.symm
  have e : b.applyPieces m = Board.putPiece (Board.removePiece
      (if (if b.isEmpty m.dst then NO_PIECE else b.pieceAt m.dst) ≠ NO_PIECE
        then b.removePiece (Color.flip us) (if b.isEmpty m.dst then NO_PIECE else b.pieceAt m.dst) m.dst else b)
      us PAWN m.src) us m.promo m.dst := by
    have e0 : MT_PROMOTION ≠ MT_CASTLING := by decide
    have e1 : MT_PROMOTION ≠ MT_EN_PASSANT := by decide
    simp only [applyPieces, ht, e0, e1, if_false, if_true, hus]
  have hs2 : (if (if b.isEmpty m.dst then NO_PIECE else b.pieceAt m.dst) ≠ NO_PIECE
        then b.removePiece (Color.flip us) (if b.isEmpty m.dst then NO_PIECE else b.pieceAt m.dst) m.dst else b).mailbox_ m.src
      = code us PAWN := by
    rw [h2, setAt_other _ _ hne]; exact hs
  have h4 := h1.removePiece hcp (by decide) m.src_lt hs2
  refine ⟨?_, ?_, ?_⟩
  · rw [e]
    apply h4.putPiece hcq hqk m.dst_lt
    show setAt _ m.src 0xFF m.dst = 0xFF
    rw [h2, setAt_other _ _ (fun e => hne e.symm), setAt_same]
  · rw [e]
    show setAt (setAt _ m.src 0xFF) m.dst (code us m.promo) = _
    rw [h2, setAt_shadow]
  · rw [e]
    show (if m.promo = KING then _ else _) = _
    rw [if_neg hqk]
    exact h3

theorem after_en_passant {b : Board} {m : Move} (h : b.Inv) {us : Nat} (hus : b.sideToMove_ = us)
    (hc : us < 2) (ht : m.type = MT_EN_PASSANT) (hs : b.mailbox_ m.src = code us PAWN)
    (hd : b.mailbox_ m.dst = 0xFF) (hcap : capSqOf us m.dst < 64)
    (hcm : b.mailbox_ (capSqOf us m.dst) = code (Color.flip us) PAWN) :
    After b m (setAt (setAt (setAt b.mailbox_ (capSqOf us m.dst) 0xFF) m.src 0xFF) m.dst (code us PAWN))
      b.kingSquare_ := by
  have hcp : us < 2 ∧ PAWN < 6 := ⟨hc, by decide⟩
  have hthem := flip_lt hc
  have hcq : (Color.flip us) < 2 ∧ PAWN < 6 := ⟨hthem, by decide⟩
  have hpa : b.pieceAt m.src = PAWN := by unfold pieceAt; rw [hs]; exact code_and7 hcp
  have he : b.isEmpty m.dst = true := (isEmpty_iff b m.dst).2 hd
  have e : b.applyPieces m = Board.movePiece (b.removePiece (Color.flip us) PAWN (capSqOf us m.dst)) us PAWN m.src m.dst := by
    have e0 : MT_EN_PASSANT ≠ MT_CASTLING := by decide
    have e1 : MT_EN_PASSANT ≠ MT_PROMOTION := by decide
    simp only [applyPieces, ht, e0, e1, if_false, if_true, hus, he, hpa, ne_eq, not_true_eq_false, capSqOf]
  have hne1 : m.src ≠ capSqOf us m.dst := by
    intro e1; rw [← e1, hs] at hcm
    exact flip_ne hc (code_inj hcp hcq hcm).1.symm
  have hne2 : m.dst ≠ capSqOf us m.dst := by
    intro e1; rw [← e1, hd] at hcm
    exact code_ne_empty hcq hcm.symm
  have h4 := h.removePiece hcq (by decide) hcap hcm
  refine ⟨?_, ?_, ?_⟩
  · rw [e]
    apply h4.movePiece hcp m.src_lt m.dst_lt
    · show setAt _ _ 0xFF m.src = _
      rw [setAt_other _ _ hne1]; exact hs
    · show setAt _ _ 0xFF m.dst = _
      rw [setAt_other _ _ hne2]; exact hd
  · rw [e]; rfl
  · rw [e]
    rfl

theorem after_castling {b : Board} {m : Move} (h : b.Inv) {us : Nat} (hus : b.sideToMove_ = us)
    (hc : us < 2) (ht : m.type = MT_CASTLING) (hs : b.mailbox_ m.src = code us KING)
    (hd : b.mailbox_ m.dst = 0xFF) {rf rt : Nat}
    (hrf : rf = Tables.CASTLING_ROOK_FROM (us * 2 + (if fileOf m.dst = 6 then 0 else 1)))
    (hrt : rt = Tables.CASTLING_ROOK_TO (us * 2 + (if fileOf m.dst = 6 then 0 else 1)))
    (hrfl : rf < 64) (hrtl : rt < 64)
    (hrm : b.mailbox_ rf = code us ROOK) (hre : b.mailbox_ rt = 0xFF) (hne : rt ≠ m.dst) :
    After b m (setAt (setAt (setAt (setAt b.mailbox_ m.src 0xFF) m.dst (code us KING)) rf 0xFF) rt (code us ROOK))
      (setAt b.kingSquare_ us m.dst) := by
  have hck : us < 2 ∧ KING < 6 := ⟨hc, by decide⟩
  have hcr : us < 2 ∧ ROOK < 6 := ⟨hc, by decide⟩
  have e : b.applyPieces m = Board.movePiece (b.movePiece us KING m.src m.dst) us ROOK rf rt := by
    simp only [applyPieces, ht, if_true, hus, hrf, hrt]
  have hne1 : rf ≠ m.src := by
    intro e1; rw [e1, hs] at hrm
    exact absurd (code_inj hck hcr hrm).2 (by decide)
  have hne2 : rf ≠ m.dst := by
    intro e1; rw [e1, hd] at hrm
    exact code_ne_empty hcr hrm.symm
  have hne3 : rt ≠ m.src := by
    intro e1; rw [e1, hs] at hre
    exact code_ne_empty hck hre
  have h4 := h.movePiece hck m.src_lt m.dst_lt hs hd
  refine ⟨?_, ?_, ?_⟩
  · rw [e]
    apply h4.movePiece hcr hrfl hrtl
    · show setAt (setAt b.mailbox_ m.src 0xFF) m.dst (code us KING) rf = _
      rw [setAt_other _ _ hne2, setAt_other _ _ hne1]; exact hrm
    · show setAt (setAt b.mailbox_ m.src 0xFF) m.dst (code us KING) rt = _
      rw [setAt_other _ _ hne, setAt_other _ _ hne3]; exact hre
  · rw [e]; rfl
  · rw [e]
    rfl

end Board

end chess

/-!
# Geometry of the board: steps along the eight directions
-/

namespace chess

open Tables

theorem rankOf_eq (s : Nat) : rankOf s = s / 8 := by
  unfold rankOf; exact Nat.shiftRight_eq_div_pow s 3

theorem fileOf_eq (s : Nat) : fileOf s = s % 8 := by
  unfold fileOf; exact Nat.and_pow_two_sub_one_eq_mod s 3

theorem stepSq_eq (sq : Nat) (d : Int × Int) (n : Nat) :
    stepSq sq d n = (((((sq / 8 : Nat) : Int) + d.1 * (n : Int)) * 8 + (((sq % 8 : Nat) : Int) + d.2 * (n : Int)))).toNat := by
  unfold stepSq sqAt
  rw [rankOf_eq, fileOf_eq]

theorem stepOn_iff (sq : Nat) (d : Int × Int) (n : Nat) :
    stepOn sq d n = true ↔
      (0 ≤ ((sq / 8 : Nat) : Int) + d.1 * (n : Int) ∧ ((sq / 8 : Nat) : Int) + d.1 * (n : Int) < 8) ∧
      (0 ≤ ((sq % 8 : Nat) : Int) + d.2 * (n : Int) ∧ ((sq % 8 : Nat) : Int) + d.2 * (n : Int) < 8) := by
  unfold stepOn onBoard
  rw [rankOf_eq, fileOf_eq]
  simp only [Bool.and_eq_true, decide_eq_true_eq]
  tauto

/-- The square reached by a step that stays on the board, as an integer. -/
theorem stepSq_cast {sq : Nat} {d : Int × Int} {n : Nat} (ho : stepOn sq d n = true) :
    ((stepSq sq d n : Nat) : Int) =
      (((sq / 8 : Nat) : Int) + d.1 * (n : Int)) * 8 + (((sq % 8 : Nat) : Int) + d.2 * (n : Int)) := by
  rw [stepOn_iff] at ho
  rw [stepSq_eq]
  apply Int.toNat_of_nonneg
  omega

/-- The eight directions, as a case distinction. -/
def IsDir (d : Int × Int) : Prop :=
  d = (1, 0) ∨ d = (-1, 0) ∨ d = (0, 1) ∨ d = (0, -1) ∨ d = (1, 1) ∨ d = (1, -1) ∨ d = (-1, 1) ∨ d = (-1, -1)

theorem isDir_of_rook {d : Int × Int} (h : d ∈ rookDirs) : IsDir d := by
  simp only [rookDirs, List.mem_cons, List.mem_singleton, List.not_mem_nil, or_false] at h
  unfold IsDir; tauto

theorem isDir_of_bishop {d : Int × Int} (h : d ∈ bishopDirs) : IsDir d := by
  simp only [bishopDirs, List.mem_cons, List.mem_singleton, List.not_mem_nil, or_false] at h
  unfold IsDir; tauto

theorem isDir_iff {d : Int × Int} : IsDir d ↔ d ∈ rookDirs ∨ d ∈ bishopDirs := by
  simp only [rookDirs, bishopDirs, List.mem_cons, List.mem_singleton, List.not_mem_nil, or_false]
  unfold IsDir; tauto

/-- The direction opposite to `d`. -/
def negDir (d : Int × Int) : Int × Int := (-d.1, -d.2)

theorem isDir_neg {d : Int × Int} (h : IsDir d) : IsDir (negDir d) := by
  unfold IsDir at h ⊢
  rcases h with rfl | rfl | rfl | rfl | rfl | rfl | rfl | rfl <;> decide

/-- Two steps from the same square that land on the same square are the same step. -/
theorem step_unique {k : Nat} {d1 d2 : Int × Int} {j1 j2 : Nat} (h1 : IsDir d1) (h2 : IsDir d2)
    (hj1 : 1 ≤ j1) (hj2 : 1 ≤ j2) (ho1 : stepOn k d1 j1 = true) (ho2 : stepOn k d2 j2 = true)
    (e : stepSq k d1 j1 = stepSq k d2 j2) : d1 = d2 ∧ j1 = j2 := by
  have e1 := stepSq_cast ho1
  have e2 := stepSq_cast ho2
  rw [e] at e1
  rw [e1] at e2
  rw [stepOn_iff] at ho1 ho2
  clear e e1
  unfold IsDir at h1 h2
  rcases h1 with rfl | rfl | rfl | rfl | rfl | rfl | rfl | rfl <;>
  rcases h2 with rfl | rfl | rfl | rfl | rfl | rfl | rfl | rfl <;>
  simp only [Prod.mk.injEq, true_and, and_true, false_and, and_false] at ho1 ho2 e2 ⊢ <;> omega

theorem stepOn_mono {k : Nat} {d : Int × Int} {n j : Nat} (hk : k < 64) (hd : IsDir d) (ho : stepOn k d n = true)
    (hj : j ≤ n) : stepOn k d j = true := by
  rw [stepOn_iff] at ho ⊢
  unfold IsDir at hd
  rcases hd with rfl | rfl | rfl | rfl | rfl | rfl | rfl | rfl <;>
  simp only at ho ⊢ <;> omega

theorem stepSq_lt {k : Nat} {d : Int × Int} {n : Nat} (ho : stepOn k d n = true) : stepSq k d n < 64 := by
  have e := stepSq_cast ho
  rw [stepOn_iff] at ho
  omega

theorem stepSq_ne {k : Nat} {d : Int × Int} {n : Nat} (hd : IsDir d) (hn : 1 ≤ n)
    (ho : stepOn k d n = true) : stepSq k d n ≠ k := by
  have e := stepSq_cast ho
  rw [stepOn_iff] at ho
  unfold IsDir at hd
  rcases hd with rfl | rfl | rfl | rfl | rfl | rfl | rfl | rfl <;>
  simp only at ho e ⊢ <;> omega

theorem stepOn_lt8 {k : Nat} {d : Int × Int} {n : Nat} (hk : k < 64) (hd : IsDir d)
    (ho : stepOn k d n = true) : n < 8 := by
  rw [stepOn_iff] at ho
  unfold IsDir at hd
  rcases hd with rfl | rfl | rfl | rfl | rfl | rfl | rfl | rfl <;>
  simp only at ho ⊢ <;> omega

/-- The rank and file of a step that stays on the board. -/
theorem stepSq_coords {k : Nat} {d : Int × Int} {n : Nat} (ho : stepOn k d n = true) :
    ((stepSq k d n / 8 : Nat) : Int) = ((k / 8 : Nat) : Int) + d.1 * (n : Int) ∧
    ((stepSq k d n % 8 : Nat) : Int) = ((k % 8 : Nat) : Int) + d.2 * (n : Int) := by
  have e := stepSq_cast ho
  rw [stepOn_iff] at ho
  omega

/-- Steps in one direction add up. -/
theorem step_add {k : Nat} {d : Int × Int} {i j : Nat} (hk : k < 64) (hd : IsDir d)
    (ho : stepOn k d (i + j) = true) :
    stepOn (stepSq k d i) d j = true ∧ stepSq (stepSq k d i) d j = stepSq k d (i + j) := by
  have hi := stepOn_mono hk hd ho (Nat.le_add_right i j)
  have ci := stepSq_coords hi
  have hj : stepOn (stepSq k d i) d j = true := by
    rw [stepOn_iff] at ho hi ⊢
    unfold IsDir at hd
    rcases hd with rfl | rfl | rfl | rfl | rfl | rfl | rfl | rfl <;>
    simp only at ho hi ci ⊢ <;> (push_cast at ho; omega)
  refine ⟨hj, ?_⟩
  have e1 := stepSq_cast hj
  have e2 := stepSq_cast ho
  rw [stepOn_iff] at ho hi
  unfold IsDir at hd
  rcases hd with rfl | rfl | rfl | rfl | rfl | rfl | rfl | rfl <;>
  simp only at ho hi ci e1 e2 ⊢ <;> (push_cast at ho e2; omega)

/-- Stepping back: from `i` steps out, `j ≤ i` steps in the opposite direction. -/
theorem step_back {k : Nat} {d : Int × Int} {i j : Nat} (hk : k < 64) (hd : IsDir d)
    (ho : stepOn k d i = true) (hj : j ≤ i) :
    stepOn (stepSq k d i) (negDir d) j = true ∧ stepSq (stepSq k d i) (negDir d) j = stepSq k d (i - j) := by
  have ci := stepSq_coords ho
  have hij := stepOn_mono hk hd ho (Nat.sub_le i j)
  have hb : stepOn (stepSq k d i) (negDir d) j = true := by
    rw [stepOn_iff] at ho hij ⊢
    unfold IsDir at hd
    rcases hd with rfl | rfl | rfl | rfl | rfl | rfl | rfl | rfl <;>
    simp only [negDir, Int.neg_neg, Int.neg_zero] at ho hij ci ⊢ <;> omega
  refine ⟨hb, ?_⟩
  have e1 := stepSq_cast hb
  have e2 := stepSq_cast hij
  rw [stepOn_iff] at ho
  unfold IsDir at hd
  rcases hd with rfl | rfl | rfl | rfl | rfl | rfl | rfl | rfl <;>
  simp only [negDir, Int.neg_neg, Int.neg_zero] at ho ci e1 e2 ⊢ <;> omega

/-- Stepping through: from `i` steps out, `i + j` steps in the opposite direction. -/
theorem step_through {k : Nat} {d : Int × Int} {i j : Nat} (hd : IsDir d)
    (ho : stepOn k d i = true) (ho2 : stepOn k (negDir d) j = true) :
    stepOn (stepSq k d i) (negDir d) (i + j) = true ∧
      stepSq (stepSq k d i) (negDir d) (i + j) = stepSq k (negDir d) j := by
  have ci := stepSq_coords ho
  have hb : stepOn (stepSq k d i) (negDir d) (i + j) = true := by
    rw [stepOn_iff] at ho ho2 ⊢
    unfold IsDir at hd
    rcases hd with rfl | rfl | rfl | rfl | rfl | rfl | rfl | rfl <;>
    simp only [negDir, Int.neg_neg, Int.neg_zero] at ho ho2 ci ⊢ <;> (push_cast; omega)
  refine ⟨hb, ?_⟩
  have e1 := stepSq_cast hb
  have e2 := stepSq_cast ho2
  rw [stepOn_iff] at ho ho2
  unfold IsDir at hd
  rcases hd with rfl | rfl | rfl | rfl | rfl | rfl | rfl | rfl <;>
  simp only [negDir, Int.neg_neg, Int.neg_zero] at ho ho2 ci e1 e2 ⊢ <;> (push_cast at e1; omega)

theorem stepSq_zero {k : Nat} (d : Int × Int) (hk : k < 64) : stepSq k d 0 = k := by
  rw [stepSq_eq]
  omega

theorem negDir_negDir (d : Int × Int) : negDir (negDir d) = d := by
  show (- -d.1, - -d.2) = d
  rw [Int.neg_neg, Int.neg_neg]

end chess

/-!
# The tables `BETWEEN_BB` and `LINE_BB`, and the sliders, in terms of steps
-/

namespace chess

open Tables

theorem add_zero_mul (r d : Int) : r + ((0 : Nat) : Int) * d = r := by omega

/-- The loop of `BETWEEN_BB` collects the squares strictly before its target. -/
theorem testBit_betweenLoop (r2 f2 dr df : Int) (hd : dr ≠ 0 ∨ df ≠ 0) (x : Nat) :
    ∀ (fuel n : Nat) (r f : Int) (bb : Bitboard), n ≤ fuel → r2 = r + n * dr → f2 = f + n * df →
      ((betweenLoop r2 f2 dr df fuel r f bb).testBit x = true ↔
        (bb.testBit x = true ∨ ∃ j, j < n ∧ x = sqAt (r + j * dr) (f + j * df))) := by
  intro fuel
  induction fuel with
  | zero =>
    intro n r f bb hn _ _
    unfold betweenLoop
    constructor
    · intro h; exact Or.inl h
    · rintro (h | ⟨j, hj, _⟩)
      · exact h
      · omega
  | succ m ih =>
    intro n r f bb hn h1 h2
    unfold betweenLoop
    cases n with
    | zero =>
      have e1 : r = r2 := by rw [h1]; omega
      have e2 : f = f2 := by rw [h2]; omega
      rw [if_neg (by rw [e1, e2]; simp)]
      constructor
      · intro h; exact Or.inl h
      · rintro (h | ⟨j, hj, _⟩)
        · exact h
        · omega
    | succ n =>
      have hne : r ≠ r2 ∨ f ≠ f2 := by
        rcases hd with hd | hd
        · left; intro e; rw [h1] at e
          have : ((n + 1 : Nat) : Int) * dr = 0 := by omega
          rcases Int.mul_eq_zero.1 this with h3 | h3
          · omega
          · exact hd h3
        · right; intro e; rw [h2] at e
          have : ((n + 1 : Nat) : Int) * df = 0 := by omega
          rcases Int.mul_eq_zero.1 this with h3 | h3
          · omega
          · exact hd h3
      rw [if_pos hne]
      rw [ih n (r + dr) (f + df) _ (by omega) (by rw [h1]; push_cast; ring) (by rw [h2]; push_cast; ring)]
      rw [Nat.testBit_or, testBit_squareBB, Bool.or_eq_true, decide_eq_true_eq]
      constructor
      · rintro ((h | h) | ⟨j, hj, h⟩)
        · exact Or.inl h
        · exact Or.inr ⟨0, by omega, by rw [add_zero_mul, add_zero_mul]; first | exact h | exact h.symm⟩
        · refine Or.inr ⟨j + 1, by omega, ?_⟩
          rw [h]; congr 1 <;> (push_cast; ring)
      · rintro (h | ⟨j, hj, h⟩)
        · exact Or.inl (Or.inl h)
        · cases j with
          | zero => left; right; rw [h, add_zero_mul, add_zero_mul]
          | succ j =>
            right
            refine ⟨j, by omega, ?_⟩
            rw [h]; congr 1 <;> (push_cast; ring)

/-- The loops of `LINE_BB` collect the squares of a direction up to the edge of the board. -/
theorem testBit_lineLoop (dr df : Int) (x : Nat) :
    ∀ (fuel : Nat) (r f : Int) (bb : Bitboard),
      ((lineLoop dr df fuel r f bb).testBit x = true ↔
        (bb.testBit x = true ∨ ∃ j, j < fuel ∧ (∀ i, i ≤ j → onBoard (r + i * dr) (f + i * df) = true) ∧
          x = sqAt (r + j * dr) (f + j * df))) := by
  intro fuel
  induction fuel with
  | zero =>
    intro r f bb
    unfold lineLoop
    constructor
    · intro h; exact Or.inl h
    · rintro (h | ⟨j, hj, _⟩)
      · exact h
      · omega
  | succ m ih =>
    intro r f bb
    unfold lineLoop
    by_cases hon : onBoard r f = true
    · rw [if_pos hon, ih, Nat.testBit_or, testBit_squareBB, Bool.or_eq_true, decide_eq_true_eq]
      constructor
      · rintro ((h | h) | ⟨j, hj, h3, h⟩)
        · exact Or.inl h
        · refine Or.inr ⟨0, by omega, ?_, by rw [add_zero_mul, add_zero_mul]; first | exact h | exact h.symm⟩
          intro i hi
          have : i = 0 := by omega
          subst this; rw [add_zero_mul, add_zero_mul]; exact hon
        · refine Or.inr ⟨j + 1, by omega, ?_, ?_⟩
          · intro i hi
            cases i with
            | zero => rw [add_zero_mul, add_zero_mul]; exact hon
            | succ i =>
              have := h3 i (by omega)
              have e1 : r + ((i + 1 : Nat) : Int) * dr = r + dr + (i : Int) * dr := by push_cast; ring
              have e2 : f + ((i + 1 : Nat) : Int) * df = f + df + (i : Int) * df := by push_cast; ring
              rw [e1, e2]; exact this
          · rw [h]; congr 1 <;> (push_cast; ring)
      · rintro (h | ⟨j, hj, h3, h⟩)
        · exact Or.inl (Or.inl h)
        · cases j with
          | zero => left; right; rw [h, add_zero_mul, add_zero_mul]
          | succ j =>
            right
            refine ⟨j, by omega, ?_, ?_⟩
            · intro i hi
              have := h3 (i + 1) (by omega)
              have e1 : r + ((i + 1 : Nat) : Int) * dr = r + dr + (i : Int) * dr := by push_cast; ring
              have e2 : f + ((i + 1 : Nat) : Int) * df = f + df + (i : Int) * df := by push_cast; ring
              rw [e1, e2] at this; exact this
            · rw [h]; congr 1 <;> (push_cast; ring)
    · rw [if_neg hon]
      constructor
      · intro h; exact Or.inl h
      · rintro (h | ⟨j, hj, h3, h⟩)
        · exact h
        · have := h3 0 (by omega)
          rw [add_zero_mul, add_zero_mul] at this
          exact absurd this hon

end chess

namespace chess

open Tables

theorem onLine_iff (s1 s2 : Nat) : onLine s1 s2 = true ↔
    (((s1 / 8 : Nat) : Int) = ((s2 / 8 : Nat) : Int) ∨ ((s1 % 8 : Nat) : Int) = ((s2 % 8 : Nat) : Int)) ∨
      (((s2 / 8 : Nat) : Int) - ((s1 / 8 : Nat) : Int)).natAbs =
        (((s2 % 8 : Nat) : Int) - ((s1 % 8 : Nat) : Int)).natAbs := by
  unfold onLine
  rw [rankOf_eq, fileOf_eq, rankOf_eq, fileOf_eq]
  simp only [Bool.or_eq_true, decide_eq_true_eq]

theorem sgn_eq (a b : Int) : (a > b → sgn a b = 1) ∧ (a < b → sgn a b = -1) ∧ (a = b → sgn a b = 0) := by
  unfold sgn
  refine ⟨fun h => ?_, fun h => ?_, fun h => ?_⟩
  · rw [if_pos h, if_neg (by omega)]; rfl
  · rw [if_neg (by omega), if_pos h]; rfl
  · rw [if_neg (by omega), if_neg (by omega)]; rfl

/-- Two different squares on a common line: the second is some steps from the first in the
direction of the signs of the coordinate differences. -/
theorem line_dir {s1 s2 : Nat} (h2 : s2 < 64) (hne : s1 ≠ s2)
    (hl : onLine s1 s2 = true) :
    IsDir (sgn (rankOf s2 : Int) (rankOf s1 : Int), sgn (fileOf s2 : Int) (fileOf s1 : Int)) ∧
    ∃ N, 1 ≤ N ∧
      stepOn s1 (sgn (rankOf s2 : Int) (rankOf s1 : Int), sgn (fileOf s2 : Int) (fileOf s1 : Int)) N = true ∧
      s2 = stepSq s1 (sgn (rankOf s2 : Int) (rankOf s1 : Int), sgn (fileOf s2 : Int) (fileOf s1 : Int)) N := by
  rw [onLine_iff] at hl
  rw [rankOf_eq, fileOf_eq, rankOf_eq, fileOf_eq]
  have key : ∀ (d : Int × Int) (N : Nat), IsDir d → 1 ≤ N →
      ((s2 / 8 : Nat) : Int) = ((s1 / 8 : Nat) : Int) + d.1 * (N : Int) →
      ((s2 % 8 : Nat) : Int) = ((s1 % 8 : Nat) : Int) + d.2 * (N : Int) →
      IsDir d ∧ ∃ N, 1 ≤ N ∧ stepOn s1 d N = true ∧ s2 = stepSq s1 d N := by
    intro d N hd hN e1 e2
    have ho : stepOn s1 d N = true := by
      rw [stepOn_iff]; omega
    refine ⟨hd, N, hN, ho, ?_⟩
    have := stepSq_cast ho
    omega
  have main : ∃ (d : Int × Int) (N : Nat), IsDir d ∧ 1 ≤ N ∧
      sgn ((s2 / 8 : Nat) : Int) ((s1 / 8 : Nat) : Int) = d.1 ∧
      sgn ((s2 % 8 : Nat) : Int) ((s1 % 8 : Nat) : Int) = d.2 ∧
      ((s2 / 8 : Nat) : Int) = ((s1 / 8 : Nat) : Int) + d.1 * (N : Int) ∧
      ((s2 % 8 : Nat) : Int) = ((s1 % 8 : Nat) : Int) + d.2 * (N : Int) := by
    clear key
    have hne2 : ((s2 / 8 : Nat) : Int) ≠ ((s1 / 8 : Nat) : Int) ∨ ((s2 % 8 : Nat) : Int) ≠ ((s1 % 8 : Nat) : Int) := by
      omega
    clear hne h2
    generalize ((s2 / 8 : Nat) : Int) = r2 at hl hne2 ⊢
    generalize ((s1 / 8 : Nat) : Int) = r1 at hl hne2 ⊢
    generalize ((s2 % 8 : Nat) : Int) = f2 at hl hne2 ⊢
    generalize ((s1 % 8 : Nat) : Int) = f1 at hl hne2 ⊢
    rcases lt_trichotomy r2 r1 with hr | hr | hr <;>
    rcases lt_trichotomy f2 f1 with hf | hf | hf
    · exact ⟨(-1, -1), (r1 - r2).toNat, by unfold IsDir; tauto,
        by omega, (sgn_eq _ _).2.1 hr, (sgn_eq _ _).2.1 hf, by simp only; omega, by simp only; omega⟩
    · exact ⟨(-1, 0), (r1 - r2).toNat, by unfold IsDir; tauto,
        by omega, (sgn_eq _ _).2.1 hr, (sgn_eq _ _).2.2 hf, by simp only; omega, by simp only; omega⟩
    · exact ⟨(-1, 1), (r1 - r2).toNat, by unfold IsDir; tauto,
        by omega, (sgn_eq _ _).2.1 hr, (sgn_eq _ _).1 hf, by simp only; omega, by simp only; omega⟩
    · exact ⟨(0, -1), (f1 - f2).toNat, by unfold IsDir; tauto,
        by omega, (sgn_eq _ _).2.2 hr, (sgn_eq _ _).2.1 hf, by simp only; omega, by simp only; omega⟩
    · exfalso; omega
    · exact ⟨(0, 1), (f2 - f1).toNat, by unfold IsDir; tauto,
        by omega, (sgn_eq _ _).2.2 hr, (sgn_eq _ _).1 hf, by simp only; omega, by simp only; omega⟩
    · exact ⟨(1, -1), (r2 - r1).toNat, by unfold IsDir; tauto,
        by omega, (sgn_eq _ _).1 hr, (sgn_eq _ _).2.1 hf, by simp only; omega, by simp only; omega⟩
    · exact ⟨(1, 0), (r2 - r1).toNat, by unfold IsDir; tauto,
        by omega, (sgn_eq _ _).1 hr, (sgn_eq _ _).2.2 hf, by simp only; omega, by simp only; omega⟩
    · exact ⟨(1, 1), (r2 - r1).toNat, by unfold IsDir; tauto,
        by omega, (sgn_eq _ _).1 hr, (sgn_eq _ _).1 hf, by simp only; omega, by simp only; omega⟩
  obtain ⟨d, N, hd, hN, e1, e2, e3, e4⟩ := main
  rw [e1, e2]
  exact key d N hd hN e3 e4

/-- A square some steps away in one of the eight directions is on a common line, and the
signs of the coordinate differences give the direction back. -/
theorem dir_line {s1 : Nat} {d : Int × Int} {N : Nat} (hd : IsDir d) (hN : 1 ≤ N)
    (ho : stepOn s1 d N = true) :
    s1 ≠ stepSq s1 d N ∧ onLine s1 (stepSq s1 d N) = true ∧
      sgn (rankOf (stepSq s1 d N) : Int) (rankOf s1 : Int) = d.1 ∧
      sgn (fileOf (stepSq s1 d N) : Int) (fileOf s1 : Int) = d.2 := by
  have c := stepSq_coords ho
  refine ⟨fun e => stepSq_ne hd hN ho e.symm, ?_, ?_, ?_⟩
  · rw [onLine_iff]
    unfold IsDir at hd
    rcases hd with rfl | rfl | rfl | rfl | rfl | rfl | rfl | rfl <;> simp only at c <;> omega
  · rw [rankOf_eq, rankOf_eq]
    have sr := sgn_eq ((stepSq s1 d N / 8 : Nat) : Int) ((s1 / 8 : Nat) : Int)
    unfold IsDir at hd
    rcases hd with rfl | rfl | rfl | rfl | rfl | rfl | rfl | rfl <;> simp only at c ⊢
    · exact sr.1 (by omega)
    · exact sr.2.1 (by omega)
    · exact sr.2.2 (by omega)
    · exact sr.2.2 (by omega)
    · exact sr.1 (by omega)
    · exact sr.1 (by omega)
    · exact sr.2.1 (by omega)
    · exact sr.2.1 (by omega)
  · rw [fileOf_eq, fileOf_eq]
    have sf := sgn_eq ((stepSq s1 d N % 8 : Nat) : Int) ((s1 % 8 : Nat) : Int)
    unfold IsDir at hd
    rcases hd with rfl | rfl | rfl | rfl | rfl | rfl | rfl | rfl <;> simp only at c ⊢
    · exact sf.2.2 (by omega)
    · exact sf.2.2 (by omega)
    · exact sf.1 (by omega)
    · exact sf.2.1 (by omega)
    · exact sf.1 (by omega)
    · exact sf.2.1 (by omega)
    · exact sf.1 (by omega)
    · exact sf.2.1 (by omega)

end chess

namespace chess

open Tables

/-- The square `x` lies strictly between `a` and `b` on a common line. -/
def Between (a b x : Nat) : Prop :=
  ∃ d, IsDir d ∧ ∃ n j, 1 ≤ j ∧ j < n ∧ stepOn a d n = true ∧ b = stepSq a d n ∧ x = stepSq a d j

/-- The square `x` lies on the line through the two different squares `a` and `b`. -/
def OnLineOf (a b x : Nat) : Prop :=
  ∃ d, IsDir d ∧ ∃ n, 1 ≤ n ∧ stepOn a d n = true ∧ b = stepSq a d n ∧
    (x = a ∨ (∃ j, 1 ≤ j ∧ stepOn a d j = true ∧ x = stepSq a d j) ∨
      (∃ j, 1 ≤ j ∧ stepOn a (negDir d) j = true ∧ x = stepSq a (negDir d) j))

theorem stepSq_succ (a : Nat) (d : Int × Int) (j : Nat) :
    sqAt ((rankOf a : Int) + d.1 + (j : Int) * d.1) ((fileOf a : Int) + d.2 + (j : Int) * d.2) =
      stepSq a d (j + 1) := by
  unfold stepSq
  congr 1 <;> (push_cast; ring)

theorem testBit_betweenInit {a b : Nat} (ha : a < 64) (hb : b < 64) (x : Nat) :
    (betweenInit a b).testBit x = true ↔ Between a b x := by
  unfold betweenInit
  by_cases e : a = b
  · rw [if_pos e]
    simp only [Nat.zero_testBit, Bool.false_eq_true, false_iff]
    rintro ⟨d, hd, n, j, hj, hjn, ho, hb2, _⟩
    exact stepSq_ne hd (by omega) ho (by rw [← hb2, e])
  · rw [if_neg e]
    simp only []
    by_cases hl : onLine a b = true
    · rw [if_pos hl]
      obtain ⟨hd, N, hN, ho, hb2⟩ := line_dir hb e hl
      have c := stepSq_coords ho
      rw [← hb2, ← rankOf_eq, ← fileOf_eq, ← rankOf_eq, ← fileOf_eq] at c
      have hN8 := stepOn_lt8 ha hd ho
      generalize sgn (rankOf b : Int) (rankOf a : Int) = dr at hd ho hb2 c ⊢
      generalize sgn (fileOf b : Int) (fileOf a : Int) = df at hd ho hb2 c ⊢
      have hd0 : dr ≠ 0 ∨ df ≠ 0 := by
        unfold IsDir at hd
        rcases hd with h | h | h | h | h | h | h | h <;>
          simp only [Prod.mk.injEq] at h <;> omega
      rw [testBit_betweenLoop _ _ _ _ hd0 x 8 (N - 1) _ _ 0 (by omega)
          (by rw [c.1]; simp only; push_cast [Nat.cast_sub hN]; ring)
          (by rw [c.2]; simp only; push_cast [Nat.cast_sub hN]; ring)]
      simp only [Nat.zero_testBit, Bool.false_eq_true, false_or]
      constructor
      · rintro ⟨j, hj, hx⟩
        refine ⟨_, hd, N, j + 1, by omega, by omega, ho, hb2, ?_⟩
        rw [hx]; exact stepSq_succ a (dr, df) j
      · rintro ⟨d, hd2, n, j, hj, hjn, ho2, hb3, hx⟩
        have hu := step_unique hd hd2 hN (by omega) ho ho2 (hb2.symm.trans hb3)
        obtain ⟨hu1, hu2⟩ := hu
        subst hu1 hu2
        refine ⟨j - 1, by omega, ?_⟩
        rw [hx, stepSq_succ a (dr, df) (j - 1)]
        congr 1; omega
    · rw [if_neg hl]
      simp only [Nat.zero_testBit, Bool.false_eq_true, false_iff]
      rintro ⟨d, hd, n, j, hj, hjn, ho, hb2, _⟩
      have := (dir_line hd (by omega : 1 ≤ n) ho).2.1
      rw [← hb2] at this
      exact hl this

end chess

namespace chess

open Tables

theorem onBoard_step (a : Nat) (d : Int × Int) (i : Nat) :
    onBoard ((rankOf a : Int) + (i : Int) * d.1) ((fileOf a : Int) + (i : Int) * d.2) = stepOn a d i := by
  unfold stepOn
  congr 1 <;> ring

theorem sqAt_step (a : Nat) (d : Int × Int) (i : Nat) :
    sqAt ((rankOf a : Int) + (i : Int) * d.1) ((fileOf a : Int) + (i : Int) * d.2) = stepSq a d i := by
  unfold stepSq
  congr 1 <;> ring

theorem onBoard_step_succ (a : Nat) (d : Int × Int) (i : Nat) :
    onBoard ((rankOf a : Int) + d.1 + (i : Int) * d.1) ((fileOf a : Int) + d.2 + (i : Int) * d.2) =
      stepOn a d (i + 1) := by
  unfold stepOn
  congr 1 <;> (push_cast; ring)

theorem testBit_lineInit {a b : Nat} (ha : a < 64) (hb : b < 64) (x : Nat) :
    (lineInit a b).testBit x = true ↔ OnLineOf a b x := by
  unfold lineInit
  by_cases e : a = b
  · rw [if_pos e]
    simp only [Nat.zero_testBit, Bool.false_eq_true, false_iff]
    rintro ⟨d, hd, n, hn, ho, hb2, _⟩
    exact stepSq_ne hd hn ho (by rw [← hb2, e])
  · rw [if_neg e]
    simp only []
    by_cases hl : onLine a b = true
    · rw [if_pos hl]
      obtain ⟨hd, N, hN, ho, hb2⟩ := line_dir hb e hl
      generalize sgn (rankOf b : Int) (rankOf a : Int) = dr at hd ho hb2 ⊢
      generalize sgn (fileOf b : Int) (fileOf a : Int) = df at hd ho hb2 ⊢
      rw [testBit_lineLoop, testBit_lineLoop]
      simp only [Nat.zero_testBit, Bool.false_eq_true, false_or]
      have hnd := isDir_neg hd
      have e1 : ∀ i : Nat, onBoard ((rankOf a : Int) + (i : Int) * -dr) ((fileOf a : Int) + (i : Int) * -df)
          = stepOn a (negDir (dr, df)) i := fun i => onBoard_step a (negDir (dr, df)) i
      have e2 : ∀ i : Nat, sqAt ((rankOf a : Int) + (i : Int) * -dr) ((fileOf a : Int) + (i : Int) * -df)
          = stepSq a (negDir (dr, df)) i := fun i => sqAt_step a (negDir (dr, df)) i
      have e3 : ∀ i : Nat, onBoard ((rankOf a : Int) + dr + (i : Int) * dr) ((fileOf a : Int) + df + (i : Int) * df)
          = stepOn a (dr, df) (i + 1) := fun i => onBoard_step_succ a (dr, df) i
      have e4 : ∀ i : Nat, sqAt ((rankOf a : Int) + dr + (i : Int) * dr) ((fileOf a : Int) + df + (i : Int) * df)
          = stepSq a (dr, df) (i + 1) := fun i => stepSq_succ a (dr, df) i
      simp only [e1, e2, e3, e4]
      constructor
      · rintro (⟨j, hj, h1, hx⟩ | ⟨j, hj, h1, hx⟩)
        · refine ⟨_, hd, N, hN, ho, hb2, ?_⟩
          cases j with
          | zero => left; rw [hx]; exact stepSq_zero _ ha
          | succ j => right; right; exact ⟨j + 1, by omega, h1 _ (le_refl _), hx⟩
        · exact ⟨_, hd, N, hN, ho, hb2, Or.inr (Or.inl ⟨j + 1, by omega, h1 _ (le_refl _), hx⟩)⟩
      · rintro ⟨d, hd2, n, hn, ho2, hb3, hx⟩
        have hu := step_unique hd hd2 hN hn ho ho2 (hb2.symm.trans hb3)
        obtain ⟨hu1, hu2⟩ := hu
        subst hu1 hu2
        rcases hx with hx | ⟨j, hj, hjo, hx⟩ | ⟨j, hj, hjo, hx⟩
        · left
          refine ⟨0, by omega, ?_, by rw [hx]; exact (stepSq_zero _ ha).symm⟩
          intro i hi
          have : i = 0 := by omega
          subst this
          rw [stepOn_iff]; omega
        · right
          refine ⟨j - 1, ?_, ?_, ?_⟩
          · have := stepOn_lt8 ha hd hjo; omega
          · intro i hi
            exact stepOn_mono ha hd hjo (by omega)
          · rw [hx]; congr 1; omega
        · left
          refine ⟨j, stepOn_lt8 ha hnd hjo, ?_, hx⟩
          intro i hi
          exact stepOn_mono ha hnd hjo hi
    · rw [if_neg hl]
      simp only [Nat.zero_testBit, Bool.false_eq_true, false_iff]
      rintro ⟨d, hd, n, hn, ho, hb2, _⟩
      have := (dir_line hd hn ho).2.1
      rw [← hb2] at this
      exact hl this

end chess

/-!
# The tables after `init()`, as relations between squares
-/

namespace chess

open Tables

/-- What the board code uses of the tables: each entry holds the squares that the geometry
says. -/
structure Lookups.Good (T : Lookups) : Prop where
  king : ∀ s t : Nat, s < 64 → ((T.KING_ATTACKS s).testBit t = true ↔ t < 64 ∧ Spec.kingStep s t = true)
  knight : ∀ s t : Nat, s < 64 → ((T.KNIGHT_ATTACKS s).testBit t = true ↔ t < 64 ∧ Spec.knightJump s t = true)
  pawn : ∀ c s t : Nat, c < 2 → s < 64 →
    ((T.PAWN_ATTACKS c s).testBit t = true ↔ t < 64 ∧ Spec.pawnTakes c s t = true)
  between : ∀ a b x : Nat, a < 64 → b < 64 → ((T.BETWEEN_BB a b).testBit x = true ↔ Between a b x)
  line : ∀ a b x : Nat, a < 64 → b < 64 → ((T.LINE_BB a b).testBit x = true ↔ OnLineOf a b x)
  rook : ∀ s occ t : Nat, s < 64 → ((T.rookAttacks s occ).testBit t = true ↔ Reach rookDirs s occ t)
  bishop : ∀ s occ t : Nat, s < 64 → ((T.bishopAttacks s occ).testBit t = true ↔ Reach bishopDirs s occ t)

/-! ## The attack tables of king, knight and pawn, checked row by row -/

/-- The bitboard of the squares `t < n` with `f t`, built with the primitive operations. -/
def quickBits (f : Nat → Bool) (n : Nat) : Nat :=
  Nat.rec (motive := fun _ => Nat) 0 (fun t acc => cond (f t) (Nat.lor acc (Nat.shiftLeft 1 t)) acc) n

/-- The distance of two numbers, with the primitive operations. -/
def quickDist (a b : Nat) : Nat := Nat.add (Nat.sub a b) (Nat.sub b a)

/-- A copy of `Spec.kingStep` over the primitive operations. -/
def quickKingStep (s t : Nat) : Bool :=
  cond (Nat.beq s t) false
    (cond (Nat.ble (quickDist (Nat.shiftRight s 3) (Nat.shiftRight t 3)) 1)
      (Nat.ble (quickDist (Nat.land s 7) (Nat.land t 7)) 1) false)

/-- A copy of `Spec.knightJump` over the primitive operations. -/
def quickKnightJump (s t : Nat) : Bool :=
  cond (Nat.beq (quickDist (Nat.shiftRight s 3) (Nat.shiftRight t 3)) 1)
    (Nat.beq (quickDist (Nat.land s 7) (Nat.land t 7)) 2)
    (cond (Nat.beq (quickDist (Nat.shiftRight s 3) (Nat.shiftRight t 3)) 2)
      (Nat.beq (quickDist (Nat.land s 7) (Nat.land t 7)) 1) false)

/-- A copy of `Spec.pawnTakes` over the primitive operations. -/
def quickPawnTakes (c s t : Nat) : Bool :=
  cond (Nat.beq (quickDist (Nat.land s 7) (Nat.land t 7)) 1)
    (cond (Nat.beq c 0) (Nat.beq (Nat.shiftRight t 3) (Nat.succ (Nat.shiftRight s 3)))
      (Nat.beq (Nat.shiftRight s 3) (Nat.succ (Nat.shiftRight t 3))))
    false

theorem quickBits_succ (f : Nat → Bool) (n : Nat) :
    quickBits f (n + 1) = cond (f n) (quickBits f n ||| squareBB n) (quickBits f n) := rfl

theorem testBit_quickBits (f : Nat → Bool) (n t : Nat) :
    (quickBits f n).testBit t = (decide (t < n) && f t) := by
  induction n with
  | zero =>
    show (0 : Nat).testBit t = _
    rw [Nat.zero_testBit, decide_eq_false (Nat.not_lt_zero t)]; rfl
  | succ n ih =>
    rw [quickBits_succ]
    by_cases e : n = t
    · subst e
      have h1 : ¬ n < n := Nat.lt_irrefl n
      have h2 : n < n + 1 := Nat.lt_succ_self n
      rw [decide_eq_true h2, Bool.true_and]
      cases hf : f n
      · show (quickBits f n).testBit n = _
        rw [ih, decide_eq_false h1]; rfl
      · show (quickBits f n ||| squareBB n).testBit n = _
        rw [Nat.testBit_or, testBit_squareBB, decide_eq_true rfl, Bool.or_true]
    · have h3 : decide (t < n + 1) = decide (t < n) := by
        by_cases h : t < n
        · rw [decide_eq_true h, decide_eq_true (by omega : t < n + 1)]
        · rw [decide_eq_false h, decide_eq_false (by omega : ¬ t < n + 1)]
      rw [h3]
      cases hf : f n
      · exact ih
      · show (quickBits f n ||| squareBB n).testBit t = _
        rw [Nat.testBit_or, testBit_squareBB, ih, decide_eq_false e, Bool.or_false]

theorem quickDist_eq (a b : Nat) : quickDist a b = ((b : Int) - (a : Int)).natAbs := by
  show (a - b) + (b - a) = _
  omega

theorem natBeq_eq_decide (a b : Nat) : Nat.beq a b = decide (a = b) := by
  by_cases h : a = b
  · rw [decide_eq_true h, h]; exact Nat.beq_refl b
  · rw [decide_eq_false h]
    cases e : Nat.beq a b
    · rfl
    · exact absurd (Nat.eq_of_beq_eq_true e) h

theorem natBle_eq_decide (a b : Nat) : Nat.ble a b = decide (a ≤ b) := by
  by_cases h : a ≤ b
  · rw [decide_eq_true h]; exact Nat.ble_eq_true_of_le h
  · rw [decide_eq_false h]
    cases e : Nat.ble a b
    · rfl
    · exact absurd (Nat.le_of_ble_eq_true e) h

theorem quickKingStep_eq (s t : Nat) : quickKingStep s t = Spec.kingStep s t := by
  unfold Spec.kingStep Spec.dRank Spec.dFile
  rw [← quickDist_eq, ← quickDist_eq]
  show (cond (Nat.beq s t) false
    (cond (Nat.ble (quickDist (rankOf s) (rankOf t)) 1)
      (Nat.ble (quickDist (fileOf s) (fileOf t)) 1) false)) = _
  rw [natBeq_eq_decide, natBle_eq_decide, natBle_eq_decide]
  by_cases e : s = t
  · rw [decide_eq_true e, (bne_eq_false_iff_eq).2 e]; rfl
  · rw [decide_eq_false e, (bne_iff_ne).2 e, Bool.true_and]
    cases decide (quickDist (rankOf s) (rankOf t) ≤ 1) <;> rfl

theorem quickKnightJump_eq (s t : Nat) : quickKnightJump s t = Spec.knightJump s t := by
  unfold Spec.knightJump Spec.dRank Spec.dFile
  rw [← quickDist_eq, ← quickDist_eq]
  show (cond (Nat.beq (quickDist (rankOf s) (rankOf t)) 1)
    (Nat.beq (quickDist (fileOf s) (fileOf t)) 2)
    (cond (Nat.beq (quickDist (rankOf s) (rankOf t)) 2)
      (Nat.beq (quickDist (fileOf s) (fileOf t)) 1) false)) = _
  rw [Bool.eq_iff_iff]
  simp only [natBeq_eq_decide, Bool.cond_eq_ite, Bool.and_eq_true, Bool.or_eq_true, beq_iff_eq,
    decide_eq_true_eq]
  by_cases h1 : quickDist (rankOf s) (rankOf t) = 1
  · rw [if_pos h1, decide_eq_true_eq]; omega
  · rw [if_neg h1]
    by_cases h2 : quickDist (rankOf s) (rankOf t) = 2
    · rw [if_pos h2, decide_eq_true_eq]; omega
    · rw [if_neg h2]
      exact ⟨fun h => Bool.noConfusion h, fun h => by omega⟩

theorem quickPawnTakes_eq (c s t : Nat) : quickPawnTakes c s t = Spec.pawnTakes c s t := by
  unfold Spec.pawnTakes Spec.dRank Spec.dFile Spec.forward
  rw [← quickDist_eq]
  show (cond (Nat.beq (quickDist (fileOf s) (fileOf t)) 1)
    (cond (Nat.beq c 0) (Nat.beq (rankOf t) (rankOf s + 1)) (Nat.beq (rankOf s) (rankOf t + 1)))
    false) = _
  have hw : WHITE = 0 := rfl
  rw [Bool.eq_iff_iff, hw]
  simp only [natBeq_eq_decide, Bool.cond_eq_ite, Bool.and_eq_true, beq_iff_eq, decide_eq_true_eq]
  by_cases h1 : quickDist (fileOf s) (fileOf t) = 1
  · rw [if_pos h1]
    by_cases hc : c = 0
    · rw [if_pos hc, if_pos hc, decide_eq_true_eq]; omega
    · rw [if_neg hc, if_neg hc, decide_eq_true_eq]; omega
  · rw [if_neg h1]
    exact ⟨fun h => Bool.noConfusion h, fun h => absurd h.1 h1⟩

theorem king_rows : sq64.all (fun s => Nat.beq (kingAttacksInit s) (quickBits (quickKingStep s) 64)) = true := by
  decide!
theorem knight_rows : sq64.all (fun s => Nat.beq (knightAttacksInit s) (quickBits (quickKnightJump s) 64)) = true := by
  decide!
theorem pawn_rows : sq64.all (fun s => Nat.beq (pawnAttacksInit 0 s) (quickBits (quickPawnTakes 0 s) 64) &&
    Nat.beq (pawnAttacksInit 1 s) (quickBits (quickPawnTakes 1 s) 64)) = true := by
  decide!

theorem rows_extract {f : Nat → Bitboard} {q r : Nat → Nat → Bool} (hq : ∀ s t, q s t = r s t)
    (h : sq64.all (fun s => Nat.beq (f s) (quickBits (q s) 64)) = true)
    {s : Nat} (hs : s < 64) (t : Nat) : (f s).testBit t = true ↔ t < 64 ∧ r s t = true := by
  rw [List.all_eq_true] at h
  rw [Nat.eq_of_beq_eq_true (h s (mem_sq64.2 hs)), testBit_quickBits, Bool.and_eq_true,
    decide_eq_true_eq, hq]

theorem Tables.init_good : Tables.init.Good := by
  refine ⟨?_, ?_, ?_, ?_, ?_, ?_, ?_⟩
  · intro s t hs
    show (if s < 64 then kingAttacksInit s else 0).testBit t = true ↔ _
    rw [if_pos hs]
    exact rows_extract quickKingStep_eq king_rows hs t
  · intro s t hs
    show (if s < 64 then knightAttacksInit s else 0).testBit t = true ↔ _
    rw [if_pos hs]
    exact rows_extract quickKnightJump_eq knight_rows hs t
  · intro c s t hc hs
    show (if s < 64 then pawnAttacksInit c s else 0).testBit t = true ↔ _
    rw [if_pos hs]
    have h := List.all_eq_true.1 pawn_rows s (mem_sq64.2 hs)
    rw [Bool.and_eq_true] at h
    have hc2 : c = 0 ∨ c = 1 := by omega
    rcases hc2 with rfl | rfl
    · rw [Nat.eq_of_beq_eq_true h.1, testBit_quickBits, Bool.and_eq_true, decide_eq_true_eq,
        quickPawnTakes_eq]
    · rw [Nat.eq_of_beq_eq_true h.2, testBit_quickBits, Bool.and_eq_true, decide_eq_true_eq,
        quickPawnTakes_eq]
  · intro a b x ha hb
    show (if a < 64 ∧ b < 64 then betweenInit a b else 0).testBit x = true ↔ _
    rw [if_pos ⟨ha, hb⟩]
    exact testBit_betweenInit ha hb x
  · intro a b x ha hb
    show (if a < 64 ∧ b < 64 then lineInit a b else 0).testBit x = true ↔ _
    rw [if_pos ⟨ha, hb⟩]
    exact testBit_lineInit ha hb x
  · intro s occ t hs
    show (if s < 64 then rookAttacks s occ else 0).testBit t = true ↔ _
    rw [if_pos hs, rookAttacks_eq_slow hs]
    exact testBit_slowAttacks _ _ _ _
  · intro s occ t hs
    show (if s < 64 then bishopAttacks s occ else 0).testBit t = true ↔ _
    rw [if_pos hs, bishopAttacks_eq_slow hs]
    exact testBit_slowAttacks _ _ _ _

end chess

/-!
# Attacks, in terms of the mailbox
-/

namespace chess

open Tables

namespace Board

/-- The piece of colour `c` on `q` attacks `sq` when the occupied squares are `occ`. -/
def Attacker (mb : Nat → Nat) (occ : Bitboard) (c : Nat) (sq q : Nat) : Prop :=
  (mb q = code c PAWN ∧ Spec.pawnTakes c q sq = true) ∨
  (mb q = code c KNIGHT ∧ Spec.knightJump sq q = true) ∨
  (mb q = code c KING ∧ Spec.kingStep sq q = true) ∨
  ((mb q = code c ROOK ∨ mb q = code c QUEEN) ∧ Reach rookDirs sq occ q) ∨
  ((mb q = code c BISHOP ∨ mb q = code c QUEEN) ∧ Reach bishopDirs sq occ q)

theorem dRank_swap (s t : Nat) : Spec.dRank s t = - Spec.dRank t s := by
  unfold Spec.dRank; ring

theorem dFile_swap (s t : Nat) : Spec.dFile s t = - Spec.dFile t s := by
  unfold Spec.dFile; ring

theorem pawnTakes_flip {c : Nat} (hc : c < 2) (s t : Nat) :
    Spec.pawnTakes (Color.flip c) s t = Spec.pawnTakes c t s := by
  have hc2 : c = 0 ∨ c = 1 := by omega
  unfold Spec.pawnTakes
  rw [dRank_swap s t, dFile_swap s t, Int.natAbs_neg]
  congr 1
  rcases hc2 with rfl | rfl
  · have e1 : Spec.forward (Color.flip 0) = -1 := by decide
    have e2 : Spec.forward 0 = 1 := by decide
    rw [e1, e2, Bool.eq_iff_iff, beq_iff_eq, beq_iff_eq]
    omega
  · have e1 : Spec.forward (Color.flip 1) = 1 := by decide
    have e2 : Spec.forward 1 = -1 := by decide
    rw [e1, e2, Bool.eq_iff_iff, beq_iff_eq, beq_iff_eq]
    omega

theorem testBit_attackersTo {T : Lookups} (hT : T.Good) {b : Board} (h : b.Inv) {c : Nat}
    (hc : c < 2) {sq : Nat} (hsq : sq < 64) (occ : Bitboard) (q : Nat) :
    (b.attackersTo T sq occ c).testBit q = true ↔ q < 64 ∧ Attacker b.mailbox_ occ c sq q := by
  unfold attackersTo Attacker
  simp only [Nat.testBit_or, Nat.testBit_and, Bool.or_eq_true, Bool.and_eq_true]
  rw [hT.pawn _ _ _ (flip_lt hc) hsq, hT.knight _ _ hsq, hT.king _ _ hsq, hT.rook _ _ _ hsq,
    hT.bishop _ _ _ hsq, pawnTakes_flip hc]
  rw [h.pieces c PAWN ⟨hc, by decide⟩, h.pieces c KNIGHT ⟨hc, by decide⟩, h.pieces c KING ⟨hc, by decide⟩,
    h.pieces c ROOK ⟨hc, by decide⟩, h.pieces c QUEEN ⟨hc, by decide⟩, h.pieces c BISHOP ⟨hc, by decide⟩]
  simp only [decide_eq_true_eq]
  constructor
  · rintro ((((⟨⟨h1, h2⟩, h3, h4⟩ | ⟨⟨h1, h2⟩, h3, h4⟩) | ⟨⟨h1, h2⟩, h3, h4⟩) | ⟨h1, h2⟩) | ⟨h1, h2⟩)
    · exact ⟨h1, Or.inl ⟨h4, h2⟩⟩
    · exact ⟨h1, Or.inr (Or.inl ⟨h4, h2⟩)⟩
    · exact ⟨h1, Or.inr (Or.inr (Or.inl ⟨h4, h2⟩))⟩
    · rcases h2 with ⟨h3, h4⟩ | ⟨h3, h4⟩
      · exact ⟨h3, Or.inr (Or.inr (Or.inr (Or.inl ⟨Or.inl h4, h1⟩)))⟩
      · exact ⟨h3, Or.inr (Or.inr (Or.inr (Or.inl ⟨Or.inr h4, h1⟩)))⟩
    · rcases h2 with ⟨h3, h4⟩ | ⟨h3, h4⟩
      · exact ⟨h3, Or.inr (Or.inr (Or.inr (Or.inr ⟨Or.inl h4, h1⟩)))⟩
      · exact ⟨h3, Or.inr (Or.inr (Or.inr (Or.inr ⟨Or.inr h4, h1⟩)))⟩
  · rintro ⟨hq, ⟨h1, h2⟩ | ⟨h1, h2⟩ | ⟨h1, h2⟩ | ⟨h1, h2⟩ | ⟨h1, h2⟩⟩
    · exact Or.inl (Or.inl (Or.inl (Or.inl ⟨⟨hq, h2⟩, hq, h1⟩)))
    · exact Or.inl (Or.inl (Or.inl (Or.inr ⟨⟨hq, h2⟩, hq, h1⟩)))
    · exact Or.inl (Or.inl (Or.inr ⟨⟨hq, h2⟩, hq, h1⟩))
    · rcases h1 with h1 | h1
      · exact Or.inl (Or.inr ⟨h2, Or.inl ⟨hq, h1⟩⟩)
      · exact Or.inl (Or.inr ⟨h2, Or.inr ⟨hq, h1⟩⟩)
    · rcases h1 with h1 | h1
      · exact Or.inr ⟨h2, Or.inl ⟨hq, h1⟩⟩
      · exact Or.inr ⟨h2, Or.inr ⟨hq, h1⟩⟩

theorem or_ne_zero {x y : Nat} : x ||| y ≠ 0 ↔ x ≠ 0 ∨ y ≠ 0 := by
  constructor
  · intro h
    by_contra hh
    push_neg at hh
    rw [hh.1, hh.2] at h
    exact h rfl
  · rintro (h | h) e
    · apply h
      apply Nat.eq_of_testBit_eq
      intro i
      have := congrArg (fun z => Nat.testBit z i) e
      simp only [Nat.testBit_or, Nat.zero_testBit, Bool.or_eq_false_iff] at this
      rw [this.1, Nat.zero_testBit]
    · apply h
      apply Nat.eq_of_testBit_eq
      intro i
      have := congrArg (fun z => Nat.testBit z i) e
      simp only [Nat.testBit_or, Nat.zero_testBit, Bool.or_eq_false_iff] at this
      rw [this.2, Nat.zero_testBit]

theorem isAttacked_iff_ne_zero (T : Lookups) (b : Board) (sq : Nat) (c : Color) :
    b.isAttacked T sq c = true ↔ b.attackersTo T sq b.occupied_ c ≠ 0 := by
  unfold isAttacked attackersTo
  simp only [or_ne_zero]
  by_cases h1 : T.KNIGHT_ATTACKS sq &&& b.pieces_ c KNIGHT ≠ 0
  · rw [if_pos h1]; simp only [true_iff]; tauto
  rw [if_neg h1]
  by_cases h2 : T.PAWN_ATTACKS c.flip sq &&& b.pieces_ c PAWN ≠ 0
  · rw [if_pos h2]; simp only [true_iff]; tauto
  rw [if_neg h2]
  by_cases h3 : T.KING_ATTACKS sq &&& b.pieces_ c KING ≠ 0
  · rw [if_pos h3]; simp only [true_iff]; tauto
  rw [if_neg h3]
  by_cases h4 : T.rookAttacks sq b.occupied_ &&& (b.pieces_ c ROOK ||| b.pieces_ c QUEEN) ≠ 0
  · have h5 : b.pieces_ c ROOK ||| b.pieces_ c QUEEN ≠ 0 := by
      intro e; rw [e, Nat.and_zero] at h4; exact h4 rfl
    rw [if_pos ⟨or_ne_zero.1 h5, h4⟩]; simp only [true_iff]; tauto
  rw [if_neg (fun hh => h4 hh.2)]
  by_cases h6 : T.bishopAttacks sq b.occupied_ &&& (b.pieces_ c BISHOP ||| b.pieces_ c QUEEN) ≠ 0
  · have h5 : b.pieces_ c BISHOP ||| b.pieces_ c QUEEN ≠ 0 := by
      intro e; rw [e, Nat.and_zero] at h6; exact h6 rfl
    rw [if_pos ⟨or_ne_zero.1 h5, h6⟩]; simp only [true_iff]; tauto
  rw [if_neg (fun hh => h6 hh.2)]
  simp only [Bool.false_eq_true, false_iff]
  tauto

theorem isAttacked_iff {T : Lookups} (hT : T.Good) {b : Board} (h : b.Inv) {c : Nat}
    (hc : c < 2) {sq : Nat} (hsq : sq < 64) :
    b.isAttacked T sq c = true ↔ ∃ q, q < 64 ∧ Attacker b.mailbox_ b.occupied_ c sq q := by
  rw [isAttacked_iff_ne_zero, ne_zero_iff_exists]
  constructor
  · rintro ⟨q, hq⟩; exact ⟨q, (testBit_attackersTo hT h hc hsq _ q).1 hq⟩
  · rintro ⟨q, hq⟩; exact ⟨q, (testBit_attackersTo hT h hc hsq _ q).2 hq⟩

end Board

end chess

/-!
# Checks and pins: the geometry behind the generator's filters
-/

namespace chess

open Tables

theorem reach_iff {dirs : List (Int × Int)} (hdirs : ∀ d ∈ dirs, IsDir d) {sq : Nat} (hsq : sq < 64)
    (occ : Bitboard) (t : Nat) :
    Reach dirs sq occ t ↔ ∃ d ∈ dirs, ∃ n, 1 ≤ n ∧ stepOn sq d n = true ∧ t = stepSq sq d n ∧
      ∀ j, 1 ≤ j → j < n → occ.testBit (stepSq sq d j) = false := by
  unfold Reach
  constructor
  · rintro ⟨d, hd, n, h1, _, h3, h4, h5⟩
    exact ⟨d, hd, n, h1, h3 n h1 (le_refl _), h5, h4⟩
  · rintro ⟨d, hd, n, h1, h2, h3, h4⟩
    exact ⟨d, hd, n, h1, stepOn_lt8 hsq (hdirs d hd) h2,
      fun j _ hj => stepOn_mono hsq (hdirs d hd) h2 hj, h4, h3⟩

namespace Board

/-- The piece on `q` may move along `d`: a rook or queen along a rank or file, a bishop or
queen along a diagonal. -/
def DirOk (mb : Nat → Nat) (c : Nat) (q : Nat) (d : Int × Int) : Prop :=
  (d ∈ rookDirs ∧ (mb q = code c ROOK ∨ mb q = code c QUEEN)) ∨
  (d ∈ bishopDirs ∧ (mb q = code c BISHOP ∨ mb q = code c QUEEN))

/-- An attack that does not depend on the occupied squares. -/
def NonSlide (mb : Nat → Nat) (c : Nat) (sq q : Nat) : Prop :=
  (mb q = code c PAWN ∧ Spec.pawnTakes c q sq = true) ∨
  (mb q = code c KNIGHT ∧ Spec.knightJump sq q = true) ∨
  (mb q = code c KING ∧ Spec.kingStep sq q = true)

/-- An attack along a line: the slider on `q` is `n` steps from `sq` in direction `d`. -/
def SlideVia (mb : Nat → Nat) (c : Nat) (sq q : Nat) (d : Int × Int) (n : Nat) : Prop :=
  DirOk mb c q d ∧ 1 ≤ n ∧ stepOn sq d n = true ∧ q = stepSq sq d n

/-- No square strictly before the `n`-th step from `sq` along `d` is occupied. -/
def ClearTo (occ : Bitboard) (sq : Nat) (d : Int × Int) (n : Nat) : Prop :=
  ∀ j, 1 ≤ j → j < n → occ.testBit (stepSq sq d j) = false

theorem DirOk.isDir {mb : Nat → Nat} {c q : Nat} {d : Int × Int} (h : DirOk mb c q d) : IsDir d := by
  rcases h with ⟨h, _⟩ | ⟨h, _⟩
  · exact isDir_of_rook h
  · exact isDir_of_bishop h

theorem attacker_iff {mb : Nat → Nat} {occ : Bitboard} {c sq q : Nat} (hsq : sq < 64) :
    Attacker mb occ c sq q ↔
      NonSlide mb c sq q ∨ ∃ d n, SlideVia mb c sq q d n ∧ ClearTo occ sq d n := by
  unfold Attacker NonSlide SlideVia DirOk ClearTo
  rw [reach_iff (fun d hd => isDir_of_rook hd) hsq, reach_iff (fun d hd => isDir_of_bishop hd) hsq]
  constructor
  · rintro (h | h | h | ⟨h1, d, hd, n, h2, h3, h4, h5⟩ | ⟨h1, d, hd, n, h2, h3, h4, h5⟩)
    · exact Or.inl (Or.inl h)
    · exact Or.inl (Or.inr (Or.inl h))
    · exact Or.inl (Or.inr (Or.inr h))
    · exact Or.inr ⟨d, n, ⟨Or.inl ⟨hd, h1⟩, h2, h3, h4⟩, h5⟩
    · exact Or.inr ⟨d, n, ⟨Or.inr ⟨hd, h1⟩, h2, h3, h4⟩, h5⟩
  · rintro ((h | h | h) | ⟨d, n, ⟨⟨hd, h1⟩ | ⟨hd, h1⟩, h2, h3, h4⟩, h5⟩)
    · exact Or.inl h
    · exact Or.inr (Or.inl h)
    · exact Or.inr (Or.inr (Or.inl h))
    · exact Or.inr (Or.inr (Or.inr (Or.inl ⟨h1, d, hd, n, h2, h3, h4, h5⟩)))
    · exact Or.inr (Or.inr (Or.inr (Or.inr ⟨h1, d, hd, n, h2, h3, h4, h5⟩)))

/-- The attacks of pawns, knights and kings reach squares with nothing in between. -/
theorem nonSlide_not_between {mb : Nat → Nat} {c sq q x : Nat} (h : NonSlide mb c sq q)
    (hb : Between sq q x) : False := by
  obtain ⟨d, hd, n, j, hj, hjn, ho, hq, _⟩ := hb
  have co := stepSq_coords ho
  rw [← hq] at co
  rw [stepOn_iff] at ho
  have hn : 2 ≤ n := by omega
  unfold NonSlide at h
  rcases h with ⟨_, h⟩ | ⟨_, h⟩ | ⟨_, h⟩
  · unfold Spec.pawnTakes Spec.dFile Spec.dRank Spec.forward at h
    rw [rankOf_eq, rankOf_eq, fileOf_eq, fileOf_eq, Bool.and_eq_true, beq_iff_eq, beq_iff_eq] at h
    obtain ⟨h1, h2⟩ := h
    have h3 : ((sq / 8 : Nat) : Int) - ((q / 8 : Nat) : Int) = 1 ∨
        ((sq / 8 : Nat) : Int) - ((q / 8 : Nat) : Int) = -1 := by
      split at h2
      · exact Or.inl h2
      · exact Or.inr h2
    clear h2
    unfold IsDir at hd
    rcases hd with rfl | rfl | rfl | rfl | rfl | rfl | rfl | rfl <;> simp only at co ho <;> omega
  · unfold Spec.knightJump Spec.dFile Spec.dRank at h
    rw [rankOf_eq, rankOf_eq, fileOf_eq, fileOf_eq] at h
    simp only [Bool.or_eq_true, Bool.and_eq_true, beq_iff_eq] at h
    unfold IsDir at hd
    rcases hd with rfl | rfl | rfl | rfl | rfl | rfl | rfl | rfl <;> simp only at co ho <;> omega
  · unfold Spec.kingStep Spec.dFile Spec.dRank at h
    rw [rankOf_eq, rankOf_eq, fileOf_eq, fileOf_eq] at h
    simp only [Bool.and_eq_true, decide_eq_true_eq, bne_iff_ne] at h
    unfold IsDir at hd
    rcases hd with rfl | rfl | rfl | rfl | rfl | rfl | rfl | rfl <;> simp only at co ho <;> omega

end Board

end chess

namespace chess

open Tables

namespace Board

/-- The position as the filters see it: the side to move, its king, and the occupied
squares. -/
structure Scene (mb : Nat → Nat) (occ : Bitboard) (us k : Nat) : Prop where
  us_lt : us < 2
  k_lt : k < 64
  king : mb k = code us KING
  occ_iff : ∀ x, occ.testBit x = true ↔ x < 64 ∧ mb x ≠ 0xFF

/-- A move of a piece other than the king from `f` to `t`, leaving the mailbox `mb2`. -/
structure Step (mb mb2 : Nat → Nat) (occ2 : Bitboard) (us f t : Nat) : Prop where
  f_lt : f < 64
  t_lt : t < 64
  own : ∃ pt : Nat, pt < 6 ∧ pt ≠ KING ∧ mb f = code us pt
  target : mb t = 0xFF ∨ ∃ cpt : Nat, cpt < 6 ∧ mb t = code (Color.flip us) cpt
  clear : ∀ x, Between f t x → mb x = 0xFF
  mb2_eq : ∃ pt2 : Nat, pt2 < 6 ∧ mb2 = setAt (setAt mb f 0xFF) t (code us pt2)
  occ2_iff : ∀ x, occ2.testBit x = true ↔ x < 64 ∧ mb2 x ≠ 0xFF

/-- The piece on `f` is the only piece between the king and an enemy slider on its line. -/
def Pinned (mb : Nat → Nat) (occ : Bitboard) (us k f : Nat) : Prop :=
  ∃ q d n i, SlideVia mb (Color.flip us) k q d n ∧ 1 ≤ i ∧ i < n ∧ f = stepSq k d i ∧
    (∃ pt : Nat, pt < 6 ∧ mb f = code us pt) ∧
    ∀ j, 1 ≤ j → j < n → j ≠ i → occ.testBit (stepSq k d j) = false

section
variable {mb mb2 : Nat → Nat} {occ occ2 : Bitboard} {us k f t : Nat}

theorem Step.mb2_at (M : Step mb mb2 occ2 us f t) :
    ∃ pt2 : Nat, pt2 < 6 ∧ ∀ x, mb2 x = if x = t then code us pt2 else if x = f then 0xFF else mb x := by
  obtain ⟨pt2, h1, h2⟩ := M.mb2_eq
  exact ⟨pt2, h1, fun x => by rw [h2]; rfl⟩

theorem Step.enemy2 (S : Scene mb occ us k) (M : Step mb mb2 occ2 us f t) {X : Nat} (hX : X < 6) (q : Nat) :
    mb2 q = code (Color.flip us) X ↔ q ≠ t ∧ mb q = code (Color.flip us) X := by
  obtain ⟨pt2, h1, h2⟩ := M.mb2_at
  obtain ⟨pt, h3, _, h4⟩ := M.own
  have hthem := flip_lt S.us_lt
  rw [h2]
  constructor
  · intro h
    by_cases e1 : q = t
    · rw [if_pos e1] at h
      exact absurd (code_inj ⟨S.us_lt, h1⟩ ⟨hthem, hX⟩ h).1.symm (flip_ne S.us_lt)
    · rw [if_neg e1] at h
      by_cases e2 : q = f
      · rw [if_pos e2] at h
        exact absurd h.symm (code_ne_empty ⟨hthem, hX⟩)
      · rw [if_neg e2] at h
        exact ⟨e1, h⟩
  · rintro ⟨e1, h⟩
    rw [if_neg e1]
    have e2 : q ≠ f := by
      intro e; rw [e, h4] at h
      exact absurd (code_inj ⟨S.us_lt, h3⟩ ⟨hthem, hX⟩ h).1.symm (flip_ne S.us_lt)
    rw [if_neg e2]; exact h

theorem Step.occ2_at (S : Scene mb occ us k) (M : Step mb mb2 occ2 us f t) (x : Nat) :
    occ2.testBit x = true ↔ (x = t ∨ (x ≠ f ∧ occ.testBit x = true)) := by
  obtain ⟨pt2, h1, h2⟩ := M.mb2_at
  rw [M.occ2_iff, S.occ_iff, h2]
  by_cases e1 : x = t
  · rw [if_pos e1]
    constructor
    · intro _; exact Or.inl e1
    · intro _; exact ⟨e1 ▸ M.t_lt, code_ne_empty ⟨S.us_lt, h1⟩⟩
  · rw [if_neg e1]
    by_cases e2 : x = f
    · rw [if_pos e2]
      constructor
      · rintro ⟨_, h⟩; exact absurd rfl h
      · rintro (h | ⟨h, _⟩)
        · exact absurd h e1
        · exact absurd e2 h
    · rw [if_neg e2]
      constructor
      · intro h; exact Or.inr ⟨e2, h⟩
      · rintro (h | ⟨_, h⟩)
        · exact absurd h e1
        · exact h

theorem Step.dirOk2 (S : Scene mb occ us k) (M : Step mb mb2 occ2 us f t) (q : Nat) (d : Int × Int) :
    DirOk mb2 (Color.flip us) q d ↔ q ≠ t ∧ DirOk mb (Color.flip us) q d := by
  unfold DirOk
  rw [M.enemy2 S (by decide : ROOK < 6), M.enemy2 S (by decide : QUEEN < 6),
    M.enemy2 S (by decide : BISHOP < 6)]
  tauto

theorem Step.nonSlide2 (S : Scene mb occ us k) (M : Step mb mb2 occ2 us f t) (q : Nat) :
    NonSlide mb2 (Color.flip us) k q ↔ q ≠ t ∧ NonSlide mb (Color.flip us) k q := by
  unfold NonSlide
  rw [M.enemy2 S (by decide : PAWN < 6), M.enemy2 S (by decide : KNIGHT < 6),
    M.enemy2 S (by decide : KING < 6)]
  tauto

theorem Step.slide2 (S : Scene mb occ us k) (M : Step mb mb2 occ2 us f t) (q : Nat) (d : Int × Int)
    (n : Nat) : SlideVia mb2 (Color.flip us) k q d n ↔ q ≠ t ∧ SlideVia mb (Color.flip us) k q d n := by
  unfold SlideVia
  rw [M.dirOk2 S]
  tauto

/-- A checking piece has no occupied square between itself and the king. -/
theorem checker_not_blocked (S : Scene mb occ us k) {c q x : Nat} (h : Attacker mb occ c k q)
    (hb : Between k q x) (hx : occ.testBit x = true) : False := by
  rw [attacker_iff S.k_lt] at h
  rcases h with h | ⟨d, n, ⟨hd, hn, ho, hq⟩, hc⟩
  · exact nonSlide_not_between h hb
  · obtain ⟨d2, hd2, n2, j, hj, hjn, ho2, hq2, hx2⟩ := hb
    obtain ⟨e1, e2⟩ := step_unique hd.isDir hd2 hn (by omega) ho ho2 (hq.symm.trans hq2)
    subst e1 e2
    have := hc j hj hjn
    rw [← hx2, hx] at this
    exact Bool.noConfusion this

/-- Two checks that one move answers are the same check. -/
theorem checkers_unique (S : Scene mb occ us k) {c t : Nat}
    (hocc : ∀ q, q < 64 → Attacker mb occ c k q → occ.testBit q = true)
    (h : ∀ q, q < 64 → Attacker mb occ c k q → t = q ∨ Between k q t)
    {q1 q2 : Nat} (h1 : q1 < 64) (a1 : Attacker mb occ c k q1) (h2 : q2 < 64)
    (a2 : Attacker mb occ c k q2) : q1 = q2 := by
  by_contra hne
  rcases h q1 h1 a1 with e1 | b1 <;> rcases h q2 h2 a2 with e2 | b2
  · exact hne (e1.symm.trans e2)
  · rw [e1] at b2
    exact checker_not_blocked S a2 b2 (hocc q1 h1 a1)
  · rw [e2] at b1
    exact checker_not_blocked S a1 b1 (hocc q2 h2 a2)
  · obtain ⟨d1, hd1, n1, j1, hj1, hjn1, ho1, hq1, hx1⟩ := b1
    obtain ⟨d2, hd2, n2, j2, hj2, hjn2, ho2, hq2, hx2⟩ := b2
    have hoj1 := stepOn_mono S.k_lt hd1 ho1 (Nat.le_of_lt hjn1)
    have hoj2 := stepOn_mono S.k_lt hd2 ho2 (Nat.le_of_lt hjn2)
    obtain ⟨e1, e2⟩ := step_unique hd1 hd2 hj1 hj2 hoj1 hoj2 (hx1.symm.trans hx2)
    subst e1 e2
    rcases Nat.lt_trichotomy n1 n2 with hlt | heq | hgt
    · exact checker_not_blocked S a2 ⟨d1, hd1, n2, n1, by omega, hlt, ho2, hq2, hq1⟩ (hocc q1 h1 a1)
    · exact hne (by rw [hq1, hq2, heq])
    · exact checker_not_blocked S a1 ⟨d1, hd1, n1, n2, by omega, hgt, ho1, hq1, hq2⟩ (hocc q2 h2 a2)

end

end Board

end chess

namespace chess

open Tables

namespace Board

section
variable {mb mb2 : Nat → Nat} {occ occ2 : Bitboard} {us k f t : Nat}

theorem DirOk.ne_empty {c q : Nat} {d : Int × Int} (hc : c < 2) (h : DirOk mb c q d) : mb q ≠ 0xFF := by
  rcases h with ⟨_, h | h⟩ | ⟨_, h | h⟩ <;> rw [h] <;> exact code_ne_empty ⟨hc, by decide⟩

/-- A move of a piece other than the king leaves the king unattacked exactly when it answers
every check (by capturing the checking piece or by landing between it and the king) and, if
the piece is pinned, stays on the line of the pin. -/
theorem safe_iff (S : Scene mb occ us k) (M : Step mb mb2 occ2 us f t) :
    (¬ ∃ q, q < 64 ∧ Attacker mb2 occ2 (Color.flip us) k q) ↔
      ((∀ q, q < 64 → Attacker mb occ (Color.flip us) k q → t = q ∨ Between k q t) ∧
       (Pinned mb occ us k f → OnLineOf k f t)) := by
  have hthem := flip_lt S.us_lt
  constructor
  · intro hsafe
    constructor
    · intro q hq a
      by_contra hno
      have hqt : q ≠ t := fun e => hno (Or.inl e.symm)
      apply hsafe
      refine ⟨q, hq, ?_⟩
      rw [attacker_iff S.k_lt] at a ⊢
      rcases a with a | ⟨d, n, hs, hc⟩
      · exact Or.inl ((M.nonSlide2 S q).2 ⟨hqt, a⟩)
      · refine Or.inr ⟨d, n, (M.slide2 S q d n).2 ⟨hqt, hs⟩, ?_⟩
        intro j hj hjn
        by_contra ho2
        rw [Bool.not_eq_false] at ho2
        rcases (M.occ2_at S _).1 ho2 with e | ⟨_, e⟩
        · exact hno (Or.inr ⟨d, hs.1.isDir, n, j, hj, hjn, hs.2.2.1, hs.2.2.2, e.symm⟩)
        · rw [hc j hj hjn] at e; exact Bool.noConfusion e
    · rintro ⟨q, d, n, i, hs, hi, hin, hf, _, huniq⟩
      have hd := hs.1.isDir
      have hoi := stepOn_mono S.k_lt hd hs.2.2.1 (Nat.le_of_lt hin)
      by_cases e : t = q
      · exact ⟨d, hd, i, hi, hoi, hf, Or.inr (Or.inl ⟨n, hs.2.1, hs.2.2.1, e.trans hs.2.2.2⟩)⟩
      · by_contra hnl
        apply hsafe
        refine ⟨q, by rw [hs.2.2.2]; exact stepSq_lt hs.2.2.1, ?_⟩
        rw [attacker_iff S.k_lt]
        refine Or.inr ⟨d, n, (M.slide2 S q d n).2 ⟨fun e2 => e e2.symm, hs⟩, ?_⟩
        intro j hj hjn
        by_contra ho2
        rw [Bool.not_eq_false] at ho2
        rcases (M.occ2_at S _).1 ho2 with e2 | ⟨e2, e3⟩
        · exact hnl ⟨d, hd, i, hi, hoi, hf, Or.inr (Or.inl ⟨j, hj,
            stepOn_mono S.k_lt hd hs.2.2.1 (Nat.le_of_lt hjn), e2.symm⟩)⟩
        · by_cases eji : j = i
          · rw [eji] at e2; exact e2 hf.symm
          · rw [huniq j hj hjn eji] at e3; exact Bool.noConfusion e3
  · rintro ⟨hC2, hC3⟩ ⟨q, hq, a2⟩
    rw [attacker_iff S.k_lt] at a2
    rcases a2 with a2 | ⟨d, n, hs2, hc2⟩
    · obtain ⟨hqt, a⟩ := (M.nonSlide2 S q).1 a2
      rcases hC2 q hq ((attacker_iff S.k_lt).2 (Or.inl a)) with e | hb
      · exact hqt e.symm
      · exact nonSlide_not_between a hb
    · obtain ⟨hqt, hs⟩ := (M.slide2 S q d n).1 hs2
      have hd := hs.1.isDir
      have htocc : occ2.testBit t = true := (M.occ2_at S t).2 (Or.inl rfl)
      by_cases hclear : ClearTo occ k d n
      · rcases hC2 q hq ((attacker_iff S.k_lt).2 (Or.inr ⟨d, n, hs, hclear⟩)) with e | hb
        · exact hqt e.symm
        · obtain ⟨d2, hd2, n2, j, hj, hjn, ho2, hq2, hx2⟩ := hb
          obtain ⟨e1, e2⟩ := step_unique hd hd2 hs.2.1 (by omega) hs.2.2.1 ho2 (hs.2.2.2.symm.trans hq2)
          subst e1 e2
          have := hc2 j hj hjn
          rw [← hx2, htocc] at this
          exact Bool.noConfusion this
      · unfold ClearTo at hclear
        push_neg at hclear
        obtain ⟨i, hi, hin, hocci⟩ := hclear
        rw [ne_eq, Bool.not_eq_false] at hocci
        have hoi := stepOn_mono S.k_lt hd hs.2.2.1 (Nat.le_of_lt hin)
        have hf : f = stepSq k d i := by
          by_contra hne
          have := hc2 i hi hin
          rw [(M.occ2_at S _).2 (Or.inr ⟨fun e => hne e.symm, hocci⟩)] at this
          exact Bool.noConfusion this
        have hpin : Pinned mb occ us k f := by
          obtain ⟨pt, h1, _, h2⟩ := M.own
          refine ⟨q, d, n, i, hs, hi, hin, hf, ⟨pt, h1, h2⟩, ?_⟩
          intro j hj hjn hji
          by_contra ho
          rw [Bool.not_eq_false] at ho
          have hoj := stepOn_mono S.k_lt hd hs.2.2.1 (Nat.le_of_lt hjn)
          have hne : stepSq k d j ≠ f := by
            intro e
            exact hji (step_unique hd hd hj hi hoj hoi (e.trans hf)).2
          have := hc2 j hj hjn
          rw [(M.occ2_at S _).2 (Or.inr ⟨hne, ho⟩)] at this
          exact Bool.noConfusion this
        obtain ⟨d2, hd2, n2, hn2, ho2, hf2, hcases⟩ := hC3 hpin
        obtain ⟨e1, e2⟩ := step_unique hd hd2 hi hn2 hoi ho2 (hf.symm.trans hf2)
        subst e1 e2
        rcases hcases with e | ⟨j, hj, hoj, e⟩ | ⟨j, hj, hoj, e⟩
        · have hk := S.king
          rw [← e] at hk
          rcases M.target with h | ⟨cpt, h1, h⟩
          · rw [h] at hk; exact code_ne_empty ⟨S.us_lt, by decide⟩ hk.symm
          · rw [h] at hk
            exact flip_ne S.us_lt (code_inj ⟨hthem, h1⟩ ⟨S.us_lt, by decide⟩ hk).1
        · rcases Nat.lt_trichotomy j n with hlt | heq | hgt
          · have := hc2 j hj hlt
            rw [← e, htocc] at this
            exact Bool.noConfusion this
          · exact hqt (by rw [hs.2.2.2, e, heq])
          · have h1 := step_add S.k_lt hd (by rw [Nat.add_sub_cancel' (Nat.le_of_lt hin)]; exact hs.2.2.1 :
              stepOn k d (i + (n - i)) = true)
            have h2 := step_add S.k_lt hd (by
              rw [Nat.add_sub_cancel' (by omega : i ≤ j)]; exact hoj : stepOn k d (i + (j - i)) = true)
            rw [Nat.add_sub_cancel' (Nat.le_of_lt hin), ← hf, ← hs.2.2.2] at h1
            rw [Nat.add_sub_cancel' (by omega : i ≤ j), ← hf, ← e] at h2
            have := M.clear q ⟨d, hd, j - i, n - i, by omega, by omega, h2.1, h2.2.symm, h1.2.symm⟩
            exact hs.1.ne_empty hthem this
        · have h1 := step_back S.k_lt hd hoi (le_refl i)
          have h2 := step_through hd hoi hoj
          rw [Nat.sub_self, stepSq_zero _ S.k_lt, ← hf] at h1
          rw [← hf, ← e] at h2
          have := M.clear k ⟨negDir d, isDir_neg hd, i + j, i, hi, by omega, h2.1, h2.2.symm, h1.2.symm⟩
          rw [S.king] at this
          exact code_ne_empty ⟨S.us_lt, by decide⟩ this

end

end Board

end chess

/-!
# Packed moves, bit counts and the loops over set bits
-/

namespace chess

theorem Move.make_data {s d t p : Nat} (hs : s < 64) (hd : d < 64) (ht : t < 4) :
    s ||| (d <<< 6) ||| (t <<< 12) ||| (p <<< 14) = s + 64 * d + 4096 * t + 16384 * p := by
  have e1 : s ||| (d <<< 6) = 2 ^ 6 * d + s := by
    have := Nat.mul_add_lt_is_or (b := s) (i := 6) (by omega) d
    rw [Nat.shiftLeft_eq, Nat.lor_comm, Nat.mul_comm d, ← this]
  have e2 : (2 ^ 6 * d + s) ||| (t <<< 12) = 2 ^ 12 * t + (2 ^ 6 * d + s) := by
    have := Nat.mul_add_lt_is_or (b := 2 ^ 6 * d + s) (i := 12) (by omega) t
    rw [Nat.shiftLeft_eq, Nat.lor_comm, Nat.mul_comm t, ← this]
  have e3 : (2 ^ 12 * t + (2 ^ 6 * d + s)) ||| (p <<< 14) = 2 ^ 14 * p + (2 ^ 12 * t + (2 ^ 6 * d + s)) := by
    have := Nat.mul_add_lt_is_or (b := 2 ^ 12 * t + (2 ^ 6 * d + s)) (i := 14) (by omega) p
    rw [Nat.shiftLeft_eq, Nat.lor_comm, Nat.mul_comm p, ← this]
  rw [e1, e2, e3]
  omega

/-- The fields of a packed move, for arguments in range. -/
theorem Move.make_fields {s d t p : Nat} (hs : s < 64) (hd : d < 64) (ht : t < 4)
    (hp : 1 ≤ p ∧ p ≤ 4) :
    (Move.make s d t p).src = s ∧ (Move.make s d t p).dst = d ∧ (Move.make s d t p).type = t ∧
      (Move.make s d t p).promo = p := by
  have hk : KNIGHT = 1 := rfl
  have hd2 : (Move.make s d t p).data_ = s + 64 * d + 4096 * t + 16384 * (p - 1) := by
    show s ||| (d <<< 6) ||| (t <<< 12) ||| ((p - KNIGHT) <<< 14) = _
    rw [hk]
    exact Move.make_data hs hd ht
  have m1 : ∀ x : Nat, x &&& 0x3F = x % 64 := fun x => Nat.and_pow_two_sub_one_eq_mod x 6
  have m2 : ∀ x : Nat, x &&& 0x3 = x % 4 := fun x => Nat.and_pow_two_sub_one_eq_mod x 2
  refine ⟨?_, ?_, ?_, ?_⟩
  · show (Move.make s d t p).data_ &&& 0x3F = s
    rw [hd2, m1]; omega
  · show ((Move.make s d t p).data_ >>> 6) &&& 0x3F = d
    rw [hd2, m1, Nat.shiftRight_eq_div_pow]; omega
  · show ((Move.make s d t p).data_ >>> 12) &&& 0x3 = t
    rw [hd2, m2, Nat.shiftRight_eq_div_pow]; omega
  · show (((Move.make s d t p).data_ >>> 14) &&& 0x3) + KNIGHT = p
    rw [hd2, m2, Nat.shiftRight_eq_div_pow, hk]; omega

theorem Move.normal_fields {s d : Nat} (hs : s < 64) (hd : d < 64) :
    (Move.normal s d).src = s ∧ (Move.normal s d).dst = d ∧ (Move.normal s d).type = MT_NORMAL :=
  ⟨(Move.make_fields hs hd (by decide) (by decide)).1, (Move.make_fields hs hd (by decide) (by decide)).2.1,
    (Move.make_fields hs hd (by decide) (by decide)).2.2.1⟩

/-- A move is determined by its four fields. -/
theorem Move.eq_make (m : Move) (hm : m.data_ < 65536) :
    m = Move.make m.src m.dst m.type m.promo := by
  have hk : KNIGHT = 1 := rfl
  have m1 : ∀ x : Nat, x &&& 0x3F = x % 64 := fun x => Nat.and_pow_two_sub_one_eq_mod x 6
  have m2 : ∀ x : Nat, x &&& 0x3 = x % 4 := fun x => Nat.and_pow_two_sub_one_eq_mod x 2
  have e : (Move.make m.src m.dst m.type m.promo).data_ = m.data_ := by
    show m.src ||| (m.dst <<< 6) ||| (m.type <<< 12) ||| ((m.promo - KNIGHT) <<< 14) = _
    have h1 : m.promo - KNIGHT = (m.data_ >>> 14) &&& 0x3 := by
      show (((m.data_ >>> 14) &&& 0x3) + KNIGHT) - KNIGHT = _
      rw [hk]; omega
    rw [h1, Move.make_data m.src_lt m.dst_lt m.type_lt]
    show (m.data_ &&& 0x3F) + 64 * ((m.data_ >>> 6) &&& 0x3F) + 4096 * ((m.data_ >>> 12) &&& 0x3)
      + 16384 * ((m.data_ >>> 14) &&& 0x3) = m.data_
    rw [m1, m1, m2, m2, Nat.shiftRight_eq_div_pow, Nat.shiftRight_eq_div_pow, Nat.shiftRight_eq_div_pow]
    omega
  have ext : ∀ a b : Move, a.data_ = b.data_ → a = b := by
    intro a b h
    cases a; cases b
    simp only at h
    rw [h]
  exact ext _ _ e.symm

end chess

namespace chess

/-! ## Bit counts -/

theorem popCount_le_one_iff (bb : Nat) :
    popCount bb ≤ 1 ↔ ∀ i j, i < 64 → j < 64 → bb.testBit i = true → bb.testBit j = true → i = j := by
  rw [popCount_eq]
  have hnd := bitsOf_nodup bb
  constructor
  · intro h i j hi hj bi bj
    have mi : i ∈ bitsOf bb := mem_bitsOf.2 ⟨hi, bi⟩
    have mj : j ∈ bitsOf bb := mem_bitsOf.2 ⟨hj, bj⟩
    cases hl : bitsOf bb with
    | nil => rw [hl] at mi; exact absurd mi (List.not_mem_nil _)
    | cons a l =>
      rw [hl] at h mi mj
      cases l with
      | nil =>
        rw [List.mem_singleton] at mi mj
        rw [mi, mj]
      | cons c l2 => simp only [List.length_cons] at h; omega
  · intro h
    cases hl : bitsOf bb with
    | nil => simp
    | cons a l =>
      cases l with
      | nil => simp
      | cons c l2 =>
        exfalso
        rw [hl] at hnd
        have ma : a ∈ bitsOf bb := by rw [hl]; simp
        have mc : c ∈ bitsOf bb := by rw [hl]; simp
        have := h a c (mem_bitsOf.1 ma).1 (mem_bitsOf.1 mc).1 (mem_bitsOf.1 ma).2 (mem_bitsOf.1 mc).2
        rw [this] at hnd
        simp at hnd

theorem popCount_eq_zero_iff (bb : Nat) :
    popCount bb = 0 ↔ ∀ i, i < 64 → bb.testBit i = false := by
  rw [popCount_eq, List.length_eq_zero]
  constructor
  · intro h i hi
    by_contra hb
    rw [Bool.not_eq_false] at hb
    have : i ∈ bitsOf bb := mem_bitsOf.2 ⟨hi, hb⟩
    rw [h] at this
    exact List.not_mem_nil _ this
  · intro h
    apply List.eq_nil_iff_forall_not_mem.2
    intro i hi
    have := mem_bitsOf.1 hi
    rw [h i this.1] at this
    exact Bool.noConfusion this.2

theorem popCount_eq_one_iff (bb : Nat) :
    popCount bb = 1 ↔ ∃ i, i < 64 ∧ bb.testBit i = true ∧ ∀ j, j < 64 → bb.testBit j = true → j = i := by
  constructor
  · intro h
    have h0 : ¬ popCount bb = 0 := by omega
    rw [popCount_eq_zero_iff] at h0
    push_neg at h0
    obtain ⟨i, hi, hb⟩ := h0
    rw [ne_eq, Bool.not_eq_false] at hb
    refine ⟨i, hi, hb, fun j hj bj => ?_⟩
    exact (popCount_le_one_iff bb).1 (by omega) j i hj hi bj hb
  · rintro ⟨i, hi, hb, hu⟩
    have h1 : popCount bb ≤ 1 := (popCount_le_one_iff bb).2 (fun a c ha hc ba bc => by
      rw [hu a ha ba, hu c hc bc])
    have h0 : ¬ popCount bb = 0 := by
      rw [popCount_eq_zero_iff]
      intro h
      rw [h i hi] at hb
      exact Bool.noConfusion hb
    omega

theorem lsb_of_unique {bb i : Nat} (hi : i < 64) (hb : bb.testBit i = true)
    (hu : ∀ j, j < 64 → bb.testBit j = true → j = i) : lsb bb = i := by
  obtain ⟨h1, h2, _⟩ := lsb_spec ⟨i, hi, hb⟩
  exact hu _ h1 h2

/-! ## Loops over the set bits -/

theorem foldl_or_testBit {α : Type} (L : List α) (p : α → Prop) [DecidablePred p] (g : α → Nat)
    (x : Nat) : ∀ acc : Nat,
    (L.foldl (fun acc i => if p i then acc ||| g i else acc) acc).testBit x = true ↔
      (acc.testBit x = true ∨ ∃ i ∈ L, p i ∧ (g i).testBit x = true) := by
  induction L with
  | nil => intro acc; simp
  | cons a l ih =>
    intro acc
    rw [List.foldl_cons, ih]
    by_cases hp : p a
    · rw [if_pos hp, Nat.testBit_or, Bool.or_eq_true]
      constructor
      · rintro ((h | h) | ⟨i, hi, h⟩)
        · exact Or.inl h
        · exact Or.inr ⟨a, List.mem_cons_self _ _, hp, h⟩
        · exact Or.inr ⟨i, List.mem_cons_of_mem _ hi, h⟩
      · rintro (h | ⟨i, hi, h1, h2⟩)
        · exact Or.inl (Or.inl h)
        · rcases List.mem_cons.1 hi with rfl | hi
          · exact Or.inl (Or.inr h2)
          · exact Or.inr ⟨i, hi, h1, h2⟩
    · rw [if_neg hp]
      constructor
      · rintro (h | ⟨i, hi, h⟩)
        · exact Or.inl h
        · exact Or.inr ⟨i, List.mem_cons_of_mem _ hi, h⟩
      · rintro (h | ⟨i, hi, h1, h2⟩)
        · exact Or.inl h
        · rcases List.mem_cons.1 hi with rfl | hi
          · exact absurd h1 hp
          · exact Or.inr ⟨i, hi, h1, h2⟩

/-- A loop that appends what its body `g` produces for each element. -/
theorem foldl_append_eq {α β : Type} (F : α → List β → List β) (g : α → List β)
    (hF : ∀ i acc, F i acc = acc ++ g i) (L : List α) :
    ∀ init, L.foldl (fun acc i => F i acc) init = init ++ L.flatMap g := by
  induction L with
  | nil => intro init; simp
  | cons a l ih =>
    intro init
    rw [List.foldl_cons, ih, hF, List.flatMap_cons, List.append_assoc]

theorem forBits_append {β : Type} (F : Nat → List β → List β) (g : Nat → List β)
    (hF : ∀ i acc, F i acc = acc ++ g i) {bb : Nat} (hbb : bb < 2 ^ 64) (init : List β) :
    forBits 64 bb F init = init ++ (bitsOf bb).flatMap g := by
  rw [forBits_eq _ _ _ hbb]
  exact foldl_append_eq F g hF _ init

end chess

/-!
# Undoing the piece operations
-/

namespace chess

namespace UndoInfo

theorem undo_data {c e h p : Nat} (hc : c < 16) (he : e < 128) (hh : h < 256) (hp : p < 8) :
    (c ||| ((e <<< 4) % 4294967296) ||| ((h <<< 11) % 4294967296) ||| ((p <<< 19) % 4294967296))
      = c + 16 * e + 2048 * h + 524288 * p := by
  have s1 : (e <<< 4) % 4294967296 = 2 ^ 4 * e := by rw [Nat.shiftLeft_eq]; omega
  have s2 : (h <<< 11) % 4294967296 = 2 ^ 11 * h := by rw [Nat.shiftLeft_eq]; omega
  have s3 : (p <<< 19) % 4294967296 = 2 ^ 19 * p := by rw [Nat.shiftLeft_eq]; omega
  rw [s1, s2, s3]
  have e1 : c ||| 2 ^ 4 * e = 2 ^ 4 * e + c := by
    have := Nat.mul_add_lt_is_or (b := c) (i := 4) (by omega) e
    rw [Nat.lor_comm, ← this]
  have e2 : (2 ^ 4 * e + c) ||| 2 ^ 11 * h = 2 ^ 11 * h + (2 ^ 4 * e + c) := by
    have := Nat.mul_add_lt_is_or (b := 2 ^ 4 * e + c) (i := 11) (by omega) h
    rw [Nat.lor_comm, ← this]
  have e3 : (2 ^ 11 * h + (2 ^ 4 * e + c)) ||| 2 ^ 19 * p = 2 ^ 19 * p + (2 ^ 11 * h + (2 ^ 4 * e + c)) := by
    have := Nat.mul_add_lt_is_or (b := 2 ^ 11 * h + (2 ^ 4 * e + c)) (i := 19) (by omega) p
    rw [Nat.lor_comm, ← this]
  rw [e1, e2, e3]
  omega

/-- The fields of a packed undo record, for arguments in range. -/
theorem undo_fields {c : Nat} {ep : Int} {h p : Nat} (hc : c < 16) (he1 : -1 ≤ ep) (he2 : ep < 64)
    (hh : h < 256) (hp : p < 8) :
    (make c ep h p).castling = c ∧ (make c ep h p).ep = ep ∧ (make c ep h p).halfmove = h ∧
      (make c ep h p).captured = p ∧ (make c ep h p).isInvalid = false := by
  have ee : ((ep + 1) % 4294967296).toNat = (ep + 1).toNat := by
    congr 1; omega
  have hd : (make c ep h p).data = c + 16 * (ep + 1).toNat + 2048 * h + 524288 * p := by
    show (c ||| ((((ep + 1) % 4294967296).toNat <<< 4) % 4294967296) ||| ((h <<< 11) % 4294967296)
      ||| ((p <<< 19) % 4294967296)) = _
    rw [ee]
    exact undo_data hc (by omega) hh hp
  have m1 : ∀ x : Nat, x &&& 0xF = x % 16 := fun x => Nat.and_pow_two_sub_one_eq_mod x 4
  have m2 : ∀ x : Nat, x &&& 0x7F = x % 128 := fun x => Nat.and_pow_two_sub_one_eq_mod x 7
  have m3 : ∀ x : Nat, x &&& 0xFF = x % 256 := fun x => Nat.and_pow_two_sub_one_eq_mod x 8
  have m4 : ∀ x : Nat, x &&& 0x7 = x % 8 := fun x => Nat.and_pow_two_sub_one_eq_mod x 3
  refine ⟨?_, ?_, ?_, ?_, ?_⟩
  · show (make c ep h p).data &&& 0xF = c
    rw [hd, m1]; omega
  · show ((((make c ep h p).data >>> 4) &&& 0x7F : Nat) : Int) - 1 = ep
    rw [hd, m2, Nat.shiftRight_eq_div_pow]; omega
  · show ((make c ep h p).data >>> 11) &&& 0xFF = h
    rw [hd, m3, Nat.shiftRight_eq_div_pow]; omega
  · show ((make c ep h p).data >>> 19) &&& 0x7 = p
    rw [hd, m4, Nat.shiftRight_eq_div_pow]; omega
  · show ((make c ep h p).data &&& 0x80000000 != 0) = false
    have : (make c ep h p).data &&& 0x80000000 = 0 := by
      apply Nat.eq_of_testBit_eq
      intro i
      rw [Nat.testBit_and, Nat.zero_testBit]
      have h31 : (0x80000000 : Nat) = 2 ^ 31 := by norm_num
      rw [h31, Nat.testBit_two_pow]
      by_cases e : 31 = i
      · subst e
        have : (make c ep h p).data < 2 ^ 31 := by rw [hd]; omega
        rw [Nat.testBit_lt_two_pow this]; rfl
      · simp [e]
    rw [this]; rfl

end UndoInfo

namespace Board

theorem xor_cancel (x y : Nat) : (x ^^^ y) ^^^ y = x := by
  rw [Nat.xor_assoc, Nat.xor_self, Nat.xor_zero]

/-- Moving a piece back restores the board. -/
theorem movePiece_back {b : Board} {c pt s d : Nat} (hs : b.mailbox_ s = code c pt)
    (hd : b.mailbox_ d = 0xFF) (hk : pt = KING → b.kingSquare_ c = s) :
    (b.movePiece c pt s d).movePiece c pt d s = b := by
  apply ext_fields
  · show setAt2 (setAt2 b.pieces_ c pt _) c pt (setAt2 b.pieces_ c pt _ c pt ^^^ _) = _
    rw [setAt2_same, setAt2_setAt2, Nat.lor_comm (squareBB d), xor_cancel, setAt2_eq_self]
  · show setAt (setAt b.byColor_ c _) c (setAt b.byColor_ c _ c ^^^ _) = _
    rw [setAt_same, setAt_setAt, Nat.lor_comm (squareBB d), xor_cancel, setAt_eq_self]
  · show (b.occupied_ ^^^ _) ^^^ _ = _
    rw [Nat.lor_comm (squareBB d), xor_cancel]
  · show setAt (setAt (setAt (setAt b.mailbox_ s 0xFF) d (code c pt)) d 0xFF) s (code c pt) = _
    funext j
    unfold setAt
    by_cases e1 : j = s
    · rw [if_pos e1, e1, hs]
    · rw [if_neg e1]
      by_cases e2 : j = d
      · rw [if_pos e2, e2, hd]
      · rw [if_neg e2, if_neg e2, if_neg e1]
  · rfl
  · rfl
  · rfl
  · rfl
  · rfl
  · show (if pt = KING then setAt (if pt = KING then setAt b.kingSquare_ c d else b.kingSquare_) c s
        else (if pt = KING then setAt b.kingSquare_ c d else b.kingSquare_)) = _
    by_cases e : pt = KING
    · rw [if_pos e, if_pos e, setAt_setAt, ← hk e, setAt_eq_self]
    · rw [if_neg e, if_neg e]
  · rfl
  · rfl

theorem clear_set {x s : Nat} (hx : x < 2 ^ 64) (hb : x.testBit s = true) :
    (x &&& bnot (squareBB s)) ||| squareBB s = x := by
  apply Nat.eq_of_testBit_eq
  intro i
  rw [Nat.testBit_or, Nat.testBit_and, testBit_bnot, testBit_squareBB]
  by_cases e : s = i
  · subst e; simp [hb]
  · cases hi : x.testBit i
    · simp [e]
    · have := lt_of_testBit hx hi
      simp [e, this]

theorem set_clear {x s : Nat} (hx : x < 2 ^ 64) (hb : x.testBit s = false) :
    (x ||| squareBB s) &&& bnot (squareBB s) = x := by
  apply Nat.eq_of_testBit_eq
  intro i
  rw [Nat.testBit_and, Nat.testBit_or, testBit_bnot, testBit_squareBB]
  by_cases e : s = i
  · subst e; simp [hb]
  · cases hi : x.testBit i
    · simp [e]
    · have := lt_of_testBit hx hi
      simp [e, this]

/-- Putting a removed piece back restores the board. -/
theorem put_removed {b : Board} (h : b.Inv) {c pt s : Nat} (hcp : c < 2 ∧ pt < 6) (hpt : pt ≠ KING)
    (hs : s < 64) (hm : b.mailbox_ s = code c pt) :
    (b.removePiece c pt s).putPiece c pt s = b := by
  have b1 : (b.pieces_ c pt).testBit s = true := by
    rw [h.pieces c pt hcp]; simp [hs, hm]
  have b2 : (b.byColor_ c).testBit s = true := by
    rw [h.byColor c hcp.1, decide_eq_true_eq]; exact ⟨hs, pt, hcp.2, hm⟩
  have b3 : b.occupied_.testBit s = true := by
    rw [h.occupied, decide_eq_true_eq]; exact ⟨hs, by rw [hm]; exact code_ne_empty hcp⟩
  apply ext_fields
  · show setAt2 (setAt2 b.pieces_ c pt _) c pt (setAt2 b.pieces_ c pt _ c pt ||| _) = _
    rw [setAt2_same, setAt2_setAt2, clear_set (h.pieces_lt hcp) b1, setAt2_eq_self]
  · show setAt (setAt b.byColor_ c _) c (setAt b.byColor_ c _ c ||| _) = _
    rw [setAt_same, setAt_setAt, clear_set (h.byColor_lt hcp.1) b2, setAt_eq_self]
  · show (b.occupied_ &&& _) ||| _ = _
    exact clear_set h.occupied_lt b3
  · show setAt (setAt b.mailbox_ s 0xFF) s (code c pt) = _
    rw [setAt_setAt, ← hm, setAt_eq_self]
  · rfl
  · rfl
  · rfl
  · rfl
  · rfl
  · show (if pt = KING then _ else b.kingSquare_) = _
    rw [if_neg hpt]
  · rfl
  · rfl

/-- Removing a piece that was put restores the board. -/
theorem remove_put {b : Board} (h : b.Inv) {c pt s : Nat} (hcp : c < 2 ∧ pt < 6) (hpt : pt ≠ KING)
    (hm : b.mailbox_ s = 0xFF) :
    (b.putPiece c pt s).removePiece c pt s = b := by
  have b1 : (b.pieces_ c pt).testBit s = false := by
    rw [h.pieces c pt hcp, decide_eq_false_iff_not, hm]
    rintro ⟨_, e⟩; exact code_ne_empty hcp e.symm
  have b2 : (b.byColor_ c).testBit s = false := by
    rw [h.byColor c hcp.1, decide_eq_false_iff_not, hm]
    rintro ⟨_, p, hp, e⟩; exact code_ne_empty ⟨hcp.1, hp⟩ e.symm
  have b3 : b.occupied_.testBit s = false := by
    rw [h.occupied, decide_eq_false_iff_not, hm]
    rintro ⟨_, e⟩; exact e rfl
  apply ext_fields
  · show setAt2 (setAt2 b.pieces_ c pt _) c pt (setAt2 b.pieces_ c pt _ c pt &&& _) = _
    rw [setAt2_same, setAt2_setAt2, set_clear (h.pieces_lt hcp) b1, setAt2_eq_self]
  · show setAt (setAt b.byColor_ c _) c (setAt b.byColor_ c _ c &&& _) = _
    rw [setAt_same, setAt_setAt, set_clear (h.byColor_lt hcp.1) b2, setAt_eq_self]
  · show (b.occupied_ ||| _) &&& _ = _
    exact set_clear h.occupied_lt b3
  · show setAt (setAt b.mailbox_ s (code c pt)) s 0xFF = _
    rw [setAt_setAt, ← hm, setAt_eq_self]
  · rfl
  · rfl
  · rfl
  · rfl
  · rfl
  · show (if pt = KING then _ else b.kingSquare_) = _
    rw [if_neg hpt]
  · rfl
  · rfl

end Board

end chess

/-!
# Unmaking a move
-/

namespace chess
namespace Board

/-- The piece operations of `unmakeMove` on their own, for the side `us` that made the move. -/
def unPieces (b : Board) (m : Move) (us : Color) (captured : PieceType) : Board :=
  let them := us.flip
  let src := m.src
  let dst := m.dst
  if m.type = MT_CASTLING then
    let idx := us * 2 + (if fileOf dst = 6 then 0 else 1)
    (b.movePiece us KING dst src).movePiece us ROOK (Tables.CASTLING_ROOK_TO idx) (Tables.CASTLING_ROOK_FROM idx)
  else
    let b : Board :=
      if m.type = MT_PROMOTION then (b.removePiece us m.promo dst).putPiece us PAWN src
      else b.movePiece us (b.pieceAt dst) dst src
    if m.type = MT_EN_PASSANT then
      b.putPiece them PAWN ((dst : Int) + (if us = WHITE then -8 else 8)).toNat
    else if captured ≠ NO_PIECE then b.putPiece them captured dst
    else b

theorem applyPieces_scalars (b : Board) (m : Move) :
    (b.applyPieces m).sideToMove_ = b.sideToMove_ ∧ (b.applyPieces m).castling_ = b.castling_ ∧
    (b.applyPieces m).epSquare_ = b.epSquare_ ∧ (b.applyPieces m).halfmove_ = b.halfmove_ ∧
    (b.applyPieces m).fullmove_ = b.fullmove_ ∧ (b.applyPieces m).history_ = b.history_ ∧
    (b.applyPieces m).hash_ = b.hash_ := by
  unfold applyPieces
  simp only []
  split_ifs <;> exact ⟨rfl, rfl, rfl, rfl, rfl, rfl, rfl⟩

theorem unmakeMove_moved (Z : ZobristKeys) (b : Board) (m : Move) (hus : b.sideToMove_ < 2)
    (hc : b.castling_ < 16) (he1 : -1 ≤ b.epSquare_) (he2 : b.epSquare_ < 64) (hh : b.halfmove_ < 256)
    (hf : b.fullmove_ < 65536) (cap : Nat) (hcap : cap < 8) :
    (b.moved Z m).unmakeMove m (UndoInfo.make b.castling_ b.epSquare_ b.halfmove_ cap) =
      (b.applyPieces m).unPieces m b.sideToMove_ cap := by
  obtain ⟨u1, u2, u3, u4, u5⟩ := UndoInfo.undo_fields hc he1 he2 hh hcap
  have hff := flip_flip hus
  have key : ({ b.moved Z m with
      hash_ := b.hash_, history_ := b.history_, sideToMove_ := b.sideToMove_, fullmove_ := b.fullmove_,
      castling_ := b.castling_, epSquare_ := b.epSquare_, halfmove_ := b.halfmove_ } : Board) = b.applyPieces m := by
    obtain ⟨s1, s2, s3, s4, s5, s6, s7⟩ := applyPieces_scalars b m
    apply ext_fields
    · rfl
    · rfl
    · rfl
    · rfl
    · exact s1.symm
    · exact s2.symm
    · exact s3.symm
    · exact s4.symm
    · exact s5.symm
    · rfl
    · exact s6.symm
    · exact s7.symm
  simp only [] at key
  have f1 : (b.moved Z m).sideToMove_ = b.sideToMove_.flip := rfl
  have f2 : (b.moved Z m).fullmove_ = (b.fullmove_ + (if b.sideToMove_ = BLACK then 1 else 0)) % 65536 := rfl
  have f3 : (b.moved Z m).history_ = b.history_ ++ [b.hash_] := rfl
  have f4 : ((b.fullmove_ + (if b.sideToMove_ = BLACK then 1 else 0)) % 65536 + 65536 -
      (if b.sideToMove_ = BLACK then 1 else 0)) % 65536 = b.fullmove_ := by
    split <;> omega
  have f5 : (b.history_ ++ [b.hash_]).dropLast = b.history_ := List.dropLast_concat
  have f6 : (b.history_ ++ [b.hash_]).getLastD 0 = b.hash_ := by
    rw [List.getLastD_eq_getLast?, List.getLast?_append]; rfl
  unfold unmakeMove unPieces
  rw [u5]
  simp only [Bool.false_eq_true, if_false, f1, hff, f2, f3, f4, f5, f6, u1, u2, u3, u4, key]


/-- The kinds of moves that the generator emits, in terms of what stands on the squares
involved. -/
inductive MoveOk (b : Board) (m : Move) : Prop
  | normal (pt : Nat) (hpt : pt < 6) (ht : m.type = MT_NORMAL)
      (hs : b.mailbox_ m.src = code b.sideToMove_ pt)
      (hd : TargetOk b (Color.flip b.sideToMove_) m.dst) : MoveOk b m
  | promotion (ht : m.type = MT_PROMOTION) (hs : b.mailbox_ m.src = code b.sideToMove_ PAWN)
      (hd : TargetOk b (Color.flip b.sideToMove_) m.dst) : MoveOk b m
  | enPassant (ht : m.type = MT_EN_PASSANT) (hs : b.mailbox_ m.src = code b.sideToMove_ PAWN)
      (hd : b.mailbox_ m.dst = 0xFF) (hcap : capSqOf b.sideToMove_ m.dst < 64)
      (hcm : b.mailbox_ (capSqOf b.sideToMove_ m.dst) = code (Color.flip b.sideToMove_) PAWN) : MoveOk b m
  | castling (ht : m.type = MT_CASTLING) (hs : b.mailbox_ m.src = code b.sideToMove_ KING)
      (hd : b.mailbox_ m.dst = 0xFF)
      (hrf : Tables.CASTLING_ROOK_FROM (b.sideToMove_ * 2 + (if fileOf m.dst = 6 then 0 else 1)) < 64)
      (hrt : Tables.CASTLING_ROOK_TO (b.sideToMove_ * 2 + (if fileOf m.dst = 6 then 0 else 1)) < 64)
      (hrm : b.mailbox_ (Tables.CASTLING_ROOK_FROM (b.sideToMove_ * 2 + (if fileOf m.dst = 6 then 0 else 1)))
        = code b.sideToMove_ ROOK)
      (hre : b.mailbox_ (Tables.CASTLING_ROOK_TO (b.sideToMove_ * 2 + (if fileOf m.dst = 6 then 0 else 1)))
        = 0xFF)
      (hne : Tables.CASTLING_ROOK_TO (b.sideToMove_ * 2 + (if fileOf m.dst = 6 then 0 else 1)) ≠ m.dst) :
      MoveOk b m

theorem MoveOk.src_piece {b : Board} {m : Move} (hus : b.sideToMove_ < 2) (h : MoveOk b m) :
    ∃ pt : Nat, pt < 6 ∧ b.mailbox_ m.src = code b.sideToMove_ pt := by
  cases h with
  | normal pt hpt _ hs _ => exact ⟨pt, hpt, hs⟩
  | promotion _ hs _ => exact ⟨PAWN, by decide, hs⟩
  | enPassant _ hs _ _ _ => exact ⟨PAWN, by decide, hs⟩
  | castling _ hs _ _ _ _ _ _ => exact ⟨KING, by decide, hs⟩

theorem MoveOk.pieceAt_ne {b : Board} {m : Move} (hus : b.sideToMove_ < 2) (h : MoveOk b m) :
    b.mailbox_ m.src &&& 7 ≠ NO_PIECE := by
  obtain ⟨pt, hpt, hs⟩ := h.src_piece hus
  rw [hs, code_and7 ⟨hus, hpt⟩]
  exact pt_ne_no_piece hpt

/-- What stands on the squares involved after the move, by the kind of move. -/
theorem MoveOk.after {b : Board} {m : Move} (hi : b.Inv) (hus : b.sideToMove_ < 2) (h : MoveOk b m) :
    ∃ mb ks, After b m mb ks := by
  cases h with
  | normal pt hpt ht hs hd => exact ⟨_, _, after_normal hi rfl ⟨hus, hpt⟩ ht hs hd⟩
  | promotion ht hs hd => exact ⟨_, _, after_promotion hi rfl hus ht hs hd⟩
  | enPassant ht hs hd hcap hcm => exact ⟨_, _, after_en_passant hi rfl hus ht hs hd hcap hcm⟩
  | castling ht hs hd hrf hrt hrm hre hne =>
    exact ⟨_, _, after_castling hi rfl hus ht hs hd rfl rfl hrf hrt hrm hre hne⟩

end Board
end chess

/-!
# The round trip of the piece operations
-/

namespace chess

namespace Board

theorem isEmpty_false {b : Board} {s c pt : Nat} (hcp : c < 2 ∧ pt < 6) (h : b.mailbox_ s = code c pt) :
    b.isEmpty s = false := by
  cases hh : b.isEmpty s
  · rfl
  · have := (isEmpty_iff b s).1 hh
    rw [h] at this
    exact absurd this (code_ne_empty hcp)

theorem pieceAt_code {b : Board} {s c pt : Nat} (hcp : c < 2 ∧ pt < 6) (h : b.mailbox_ s = code c pt) :
    b.pieceAt s = pt := by
  unfold pieceAt; rw [h]; exact code_and7 hcp

theorem unPieces_normal {b : Board} {m : Move} (hi : b.Inv) {us pt : Nat} (hus : b.sideToMove_ = us)
    (hcp : us < 2 ∧ pt < 6) (ht : m.type = MT_NORMAL) (hs : b.mailbox_ m.src = code us pt)
    (hd : TargetOk b (Color.flip us) m.dst) :
    (b.applyPieces m).unPieces m us (if b.isEmpty m.dst then NO_PIECE else b.pieceAt m.dst) = b := by
  have hthem := flip_lt hcp.1
  have e0 : MT_NORMAL ≠ MT_CASTLING := by decide
  have e1 : MT_NORMAL ≠ MT_EN_PASSANT := by decide
  have e2 : MT_NORMAL ≠ MT_PROMOTION := by decide
  have hpa := pieceAt_code hcp hs
  have hk : pt = KING → b.kingSquare_ us = m.src := fun e =>
    ((hi.king us hcp.1 m.src m.src_lt).1 (e ▸ hs)).symm
  rcases hd with hd | ⟨cpt, hcpt, hd⟩
  · have he : b.isEmpty m.dst = true := (isEmpty_iff b m.dst).2 hd
    have ea : b.applyPieces m = b.movePiece us pt m.src m.dst := by
      simp only [applyPieces, ht, e0, e1, e2, if_false, hpa, hus, he, if_true, ne_eq, not_true_eq_false]
    have hp2 : (b.movePiece us pt m.src m.dst).pieceAt m.dst = pt := by
      apply pieceAt_code hcp
      show setAt (setAt b.mailbox_ m.src 0xFF) m.dst (code us pt) m.dst = _
      rw [setAt_same]
    rw [ea, he]
    simp only [unPieces, ht, e0, e1, e2, if_false, if_true, ne_eq, not_true_eq_false, hp2]
    exact movePiece_back hs hd hk
  · have hcq : Color.flip us < 2 ∧ cpt < 6 := ⟨hthem, Nat.lt_succ_of_lt hcpt⟩
    have he := isEmpty_false hcq hd
    have hpd := pieceAt_code hcq hd
    have hne : m.src ≠ m.dst := by
      intro e; rw [← e, hs] at hd
      exact flip_ne hcp.1 (code_inj hcp hcq hd).1.symm
    have hcn : cpt ≠ NO_PIECE := pt_ne_no_piece hcq.2
    have ea : b.applyPieces m = (b.removePiece (Color.flip us) cpt m.dst).movePiece us pt m.src m.dst := by
      simp only [applyPieces, ht, e0, e1, e2, if_false, hpa, hus, he, if_true, ne_eq, hpd, hcn,
        not_false_eq_true, Bool.false_eq_true]
    have hp2 : ((b.removePiece (Color.flip us) cpt m.dst).movePiece us pt m.src m.dst).pieceAt m.dst = pt := by
      apply pieceAt_code hcp
      show setAt (setAt _ m.src 0xFF) m.dst (code us pt) m.dst = _
      rw [setAt_same]
    rw [ea, he, hpd]
    simp only [unPieces, ht, e0, e1, e2, if_false, if_true, ne_eq, hp2, hcn, not_false_eq_true,
      Bool.false_eq_true]
    rw [movePiece_back (b := b.removePiece (Color.flip us) cpt m.dst)]
    · exact put_removed hi hcq (by unfold KING; omega) m.dst_lt hd
    · show setAt b.mailbox_ m.dst 0xFF m.src = _
      rw [setAt_other _ _ hne]; exact hs
    · show setAt b.mailbox_ m.dst 0xFF m.dst = _
      rw [setAt_same]
    · exact hk

theorem unPieces_promotion {b : Board} {m : Move} (hi : b.Inv) {us : Nat} (hus : b.sideToMove_ = us)
    (hc : us < 2) (ht : m.type = MT_PROMOTION) (hs : b.mailbox_ m.src = code us PAWN)
    (hd : TargetOk b (Color.flip us) m.dst) :
    (b.applyPieces m).unPieces m us (if b.isEmpty m.dst then NO_PIECE else b.pieceAt m.dst) = b := by
  have hcp : us < 2 ∧ PAWN < 6 := ⟨hc, by decide⟩
  have hthem := flip_lt hc
  have hpr := m.promo_range
  have hcq : us < 2 ∧ m.promo < 6 := ⟨hc, Nat.lt_of_le_of_lt hpr.2 (by decide)⟩
  have hqk : m.promo ≠ KING := fun e => by
    have h5 := hpr.2; rw [e] at h5; exact absurd h5 (by decide)
  have e0 : MT_PROMOTION ≠ MT_CASTLING := by decide
  have e1 : MT_PROMOTION ≠ MT_EN_PASSANT := by decide
  rcases hd with hd | ⟨cpt, hcpt, hd⟩
  · have he : b.isEmpty m.dst = true := (isEmpty_iff b m.dst).2 hd
    have hne : m.src ≠ m.dst := by
      intro e; rw [← e, hs] at hd; exact code_ne_empty hcp hd
    have ea : b.applyPieces m = (b.removePiece us PAWN m.src).putPiece us m.promo m.dst := by
      simp only [applyPieces, ht, e0, e1, if_false, hus, he, if_true, ne_eq, not_true_eq_false]
    rw [ea, he]
    simp only [unPieces, ht, e0, e1, if_false, if_true, ne_eq, not_true_eq_false]
    rw [remove_put (hi.removePiece hcp (by decide) m.src_lt hs) hcq hqk]
    · exact put_removed hi hcp (by decide) m.src_lt hs
    · show setAt b.mailbox_ m.src 0xFF m.dst = _
      rw [setAt_other _ _ (fun e => hne e.symm)]; exact hd
  · have hcr : Color.flip us < 2 ∧ cpt < 6 := ⟨hthem, Nat.lt_succ_of_lt hcpt⟩
    have he := isEmpty_false hcr hd
    have hpd := pieceAt_code hcr hd
    have hne : m.src ≠ m.dst := by
      intro e; rw [← e, hs] at hd
      exact flip_ne hc (code_inj hcp hcr hd).1.symm
    have hcn : cpt ≠ NO_PIECE := pt_ne_no_piece hcr.2
    have hi1 := hi.removePiece hcr (by unfold KING; omega) m.dst_lt hd
    have hs1 : (b.removePiece (Color.flip us) cpt m.dst).mailbox_ m.src = code us PAWN := by
      show setAt b.mailbox_ m.dst 0xFF m.src = _
      rw [setAt_other _ _ hne]; exact hs
    have ea : b.applyPieces m =
        ((b.removePiece (Color.flip us) cpt m.dst).removePiece us PAWN m.src).putPiece us m.promo m.dst := by
      simp only [applyPieces, ht, e0, e1, if_false, hus, he, if_true, ne_eq, hpd, hcn,
        not_false_eq_true, Bool.false_eq_true]
    rw [ea, he, hpd]
    simp only [unPieces, ht, e0, e1, if_false, if_true, ne_eq, hcn, not_false_eq_true, Bool.false_eq_true]
    rw [remove_put (hi1.removePiece hcp (by decide) m.src_lt hs1) hcq hqk]
    · rw [put_removed hi1 hcp (by decide) m.src_lt hs1]
      exact put_removed hi hcr (by unfold KING; omega) m.dst_lt hd
    · show setAt (setAt b.mailbox_ m.dst 0xFF) m.src 0xFF m.dst = _
      rw [setAt_other _ _ (fun e => hne e.symm), setAt_same]

theorem unPieces_en_passant {b : Board} {m : Move} (hi : b.Inv) {us : Nat} (hus : b.sideToMove_ = us)
    (hc : us < 2) (ht : m.type = MT_EN_PASSANT) (hs : b.mailbox_ m.src = code us PAWN)
    (hd : b.mailbox_ m.dst = 0xFF) (hcap : capSqOf us m.dst < 64)
    (hcm : b.mailbox_ (capSqOf us m.dst) = code (Color.flip us) PAWN) :
    (b.applyPieces m).unPieces m us (if b.isEmpty m.dst then NO_PIECE else b.pieceAt m.dst) = b := by
  have hcp : us < 2 ∧ PAWN < 6 := ⟨hc, by decide⟩
  have hthem := flip_lt hc
  have hcq : Color.flip us < 2 ∧ PAWN < 6 := ⟨hthem, by decide⟩
  have hpa := pieceAt_code hcp hs
  have he : b.isEmpty m.dst = true := (isEmpty_iff b m.dst).2 hd
  have e0 : MT_EN_PASSANT ≠ MT_CASTLING := by decide
  have e1 : MT_EN_PASSANT ≠ MT_PROMOTION := by decide
  have ea : b.applyPieces m =
      (b.removePiece (Color.flip us) PAWN (capSqOf us m.dst)).movePiece us PAWN m.src m.dst := by
    simp only [applyPieces, ht, e0, e1, if_false, if_true, hus, he, hpa, ne_eq, not_true_eq_false, capSqOf]
  have hne1 : m.src ≠ capSqOf us m.dst := by
    intro e1; rw [← e1, hs] at hcm
    exact flip_ne hc (code_inj hcp hcq hcm).1.symm
  have hne2 : m.dst ≠ capSqOf us m.dst := by
    intro e1; rw [← e1, hd] at hcm
    exact code_ne_empty hcq hcm.symm
  have hp2 : ((b.removePiece (Color.flip us) PAWN (capSqOf us m.dst)).movePiece us PAWN m.src m.dst).pieceAt m.dst
      = PAWN := by
    apply pieceAt_code hcp
    show setAt (setAt _ m.src 0xFF) m.dst (code us PAWN) m.dst = _
    rw [setAt_same]
  have hcs : ((m.dst : Int) + (if us = WHITE then -8 else 8)).toNat = capSqOf us m.dst := rfl
  rw [ea, he]
  simp only [unPieces, ht, e0, e1, if_false, if_true, hp2, hcs]
  rw [movePiece_back (b := b.removePiece (Color.flip us) PAWN (capSqOf us m.dst))]
  · exact put_removed hi hcq (by decide) hcap hcm
  · show setAt b.mailbox_ _ 0xFF m.src = _
    rw [setAt_other _ _ hne1]; exact hs
  · show setAt b.mailbox_ _ 0xFF m.dst = _
    rw [setAt_other _ _ hne2]; exact hd
  · intro e; exact absurd e (by decide)

end Board

end chess

namespace chess

namespace Board

theorem xor_swap (x a b : Nat) : (x ^^^ a) ^^^ b = (x ^^^ b) ^^^ a := by
  rw [Nat.xor_assoc, Nat.xor_comm a b, ← Nat.xor_assoc]

/-- Moves of two different pieces of one colour between four different squares commute. -/
theorem movePiece_comm (b : Board) {c p1 p2 s1 d1 s2 d2 : Nat} (hp : p1 ≠ p2) (hk : p2 ≠ KING)
    (h1 : s2 ≠ s1) (h2 : s2 ≠ d1) (h3 : d2 ≠ s1) (h4 : d2 ≠ d1) :
    (b.movePiece c p1 s1 d1).movePiece c p2 s2 d2 = (b.movePiece c p2 s2 d2).movePiece c p1 s1 d1 := by
  have hp2 : ¬ (c = c ∧ p2 = p1) := fun e => hp e.2.symm
  have hp1 : ¬ (c = c ∧ p1 = p2) := fun e => hp e.2
  apply ext_fields
  · show setAt2 (setAt2 b.pieces_ c p1 _) c p2 (setAt2 b.pieces_ c p1 _ c p2 ^^^ _) =
      setAt2 (setAt2 b.pieces_ c p2 _) c p1 (setAt2 b.pieces_ c p2 _ c p1 ^^^ _)
    rw [setAt2_other _ _ hp2, setAt2_other _ _ hp1]
    funext a x
    unfold setAt2
    by_cases e1 : a = c ∧ x = p2
    · rw [if_pos e1, if_neg (fun e => hp (e.2.symm.trans e1.2)), if_pos e1]
    · rw [if_neg e1, if_neg e1]
  · show setAt (setAt b.byColor_ c _) c (setAt b.byColor_ c _ c ^^^ _) =
      setAt (setAt b.byColor_ c _) c (setAt b.byColor_ c _ c ^^^ _)
    rw [setAt_same, setAt_same, setAt_setAt, setAt_setAt, xor_swap]
  · show (b.occupied_ ^^^ _) ^^^ _ = (b.occupied_ ^^^ _) ^^^ _
    exact xor_swap _ _ _
  · show setAt (setAt (setAt (setAt b.mailbox_ s1 0xFF) d1 _) s2 0xFF) d2 _ =
      setAt (setAt (setAt (setAt b.mailbox_ s2 0xFF) d2 _) s1 0xFF) d1 _
    funext j
    unfold setAt
    by_cases e1 : j = d2
    · rw [if_pos e1, if_neg (fun e => h4 (e1.symm.trans e)), if_neg (fun e => h3 (e1.symm.trans e)), if_pos e1]
    · rw [if_neg e1, if_neg e1]
      by_cases e2 : j = s2
      · rw [if_pos e2, if_neg (fun e => h2 (e2.symm.trans e)), if_neg (fun e => h1 (e2.symm.trans e)), if_pos e2]
      · rw [if_neg e2, if_neg e2]
  · rfl
  · rfl
  · rfl
  · rfl
  · rfl
  · show (if p2 = KING then _ else (if p1 = KING then setAt b.kingSquare_ c d1 else b.kingSquare_)) =
      (if p1 = KING then setAt (if p2 = KING then _ else b.kingSquare_) c d1
        else (if p2 = KING then _ else b.kingSquare_))
    rw [if_neg hk, if_neg hk]
  · rfl
  · rfl

theorem unPieces_castling {b : Board} {m : Move} (hi : b.Inv) {us : Nat} (hus : b.sideToMove_ = us)
    (hc : us < 2) (ht : m.type = MT_CASTLING) (hs : b.mailbox_ m.src = code us KING)
    (hd : b.mailbox_ m.dst = 0xFF) {rf rt : Nat}
    (hrf : rf = Tables.CASTLING_ROOK_FROM (us * 2 + (if fileOf m.dst = 6 then 0 else 1)))
    (hrt : rt = Tables.CASTLING_ROOK_TO (us * 2 + (if fileOf m.dst = 6 then 0 else 1)))
    (hrm : b.mailbox_ rf = code us ROOK) (hre : b.mailbox_ rt = 0xFF) (hne : rt ≠ m.dst) (cap : Nat) :
    (b.applyPieces m).unPieces m us cap = b := by
  have hck : us < 2 ∧ KING < 6 := ⟨hc, by decide⟩
  have hcr : us < 2 ∧ ROOK < 6 := ⟨hc, by decide⟩
  have ea : b.applyPieces m = (b.movePiece us KING m.src m.dst).movePiece us ROOK rf rt := by
    simp only [applyPieces, ht, if_true, hus, hrf, hrt]
  have hne1 : rf ≠ m.src := by
    intro e1; rw [e1, hs] at hrm
    exact absurd (code_inj hck hcr hrm).2 (by decide)
  have hne2 : rf ≠ m.dst := by
    intro e1; rw [e1, hd] at hrm
    exact code_ne_empty hcr hrm.symm
  have hne3 : rt ≠ m.src := by
    intro e1; rw [e1, hs] at hre
    exact code_ne_empty hck hre
  have hsd : m.src ≠ m.dst := by
    intro e; rw [e, hd] at hs; exact code_ne_empty hck hs.symm
  rw [ea]
  simp only [unPieces, ht, if_true, ← hrf, ← hrt]
  have hk : KING = KING → b.kingSquare_ us = m.src := fun _ =>
    ((hi.king us hc m.src m.src_lt).1 hs).symm
  have hcomm := @movePiece_comm (b.movePiece us KING m.src m.dst) us KING ROOK m.dst m.src rf rt
    (by decide) (by decide) hne2 hne1 hne hne3
  rw [← hcomm, movePiece_back hs hd hk]
  exact movePiece_back hrm hre (fun e => absurd e (by decide))

end Board

end chess

namespace chess

namespace Board

/-- The values of the scalar fields that the undo record and the counters can hold. -/
structure Ranges (b : Board) : Prop where
  side : b.sideToMove_ < 2
  castling : b.castling_ < 16
  halfmove : b.halfmove_ < 256
  fullmove : b.fullmove_ < 65536
  ep_ge : -1 ≤ b.epSquare_
  ep_lt : b.epSquare_ < 64

theorem Ranges.of_ok {b : Board} (h : b.okRanges = true) : b.Ranges := by
  unfold okRanges at h
  simp only [Bool.and_eq_true, decide_eq_true_eq] at h
  obtain ⟨⟨⟨⟨⟨h1, h2⟩, h3⟩, h4⟩, h5⟩, h6⟩ := h
  exact ⟨h1, h2, h3, h4, h5, h6⟩

theorem captured_lt (b : Board) (s : Nat) : (if b.isEmpty s then NO_PIECE else b.pieceAt s) < 8 := by
  split
  · decide
  · unfold pieceAt
    have := @Nat.and_le_right (b.mailbox_ s) 7
    exact Nat.lt_succ_of_le this

/-- Making a move of one of the four kinds and unmaking it restores the board, field by
field. -/
theorem unmake_make (Z : ZobristKeys) {b : Board} {m : Move} (hi : b.Inv) (hr : b.Ranges)
    (h : MoveOk b m) : (b.makeMove Z m).1.unmakeMove m (b.makeMove Z m).2 = b := by
  have hp := h.pieceAt_ne hr.side
  rw [makeMove_fst Z b m m.type_lt hp, makeMove_snd Z b m hp,
    unmakeMove_moved Z b m hr.side hr.castling hr.ep_ge hr.ep_lt hr.halfmove hr.fullmove _
      (captured_lt b m.dst)]
  cases h with
  | normal pt hpt ht hs hd => exact unPieces_normal hi rfl ⟨hr.side, hpt⟩ ht hs hd
  | promotion ht hs hd => exact unPieces_promotion hi rfl hr.side ht hs hd
  | enPassant ht hs hd hcap hcm => exact unPieces_en_passant hi rfl hr.side ht hs hd hcap hcm
  | castling ht hs hd hrf hrt hrm hre hne =>
    exact unPieces_castling hi rfl hr.side ht hs hd rfl rfl hrm hre hne _

end Board

end chess

/-!
# The incremental hash
-/

namespace chess

namespace Board

/-- The key that `computeHash` folds in for a square with mailbox entry `v`. -/
def pieceKey (Z : ZobristKeys) (v s : Nat) : Nat :=
  if v ≠ 0xFF then Z.PIECE ((v >>> 3) &&& 1) (v &&& 7) s else 0

/-- The piece part of `computeHash`: the keys of all squares of a mailbox. -/
def pieceHash (Z : ZobristKeys) (mb : Nat → Nat) (L : List Nat) : Nat :=
  L.foldl (fun h s => h ^^^ pieceKey Z (mb s) s) 0

theorem foldl_xor_acc (g : Nat → Nat) (L : List Nat) :
    ∀ acc, L.foldl (fun h s => h ^^^ g s) acc = acc ^^^ L.foldl (fun h s => h ^^^ g s) 0 := by
  induction L with
  | nil => intro acc; simp
  | cons a l ih =>
    intro acc
    rw [List.foldl_cons, List.foldl_cons, ih (acc ^^^ g a), ih (0 ^^^ g a), Nat.zero_xor, Nat.xor_assoc]

theorem pieceHash_cons (Z : ZobristKeys) (mb : Nat → Nat) (a : Nat) (l : List Nat) :
    pieceHash Z mb (a :: l) = pieceKey Z (mb a) a ^^^ pieceHash Z mb l := by
  unfold pieceHash
  rw [List.foldl_cons, foldl_xor_acc, Nat.zero_xor]

theorem pieceHash_setAt_of_not_mem (Z : ZobristKeys) (mb : Nat → Nat) (s v : Nat) :
    ∀ L : List Nat, s ∉ L → pieceHash Z (setAt mb s v) L = pieceHash Z mb L := by
  intro L
  induction L with
  | nil => intro _; rfl
  | cons a l ih =>
    intro h
    have hne : a ≠ s := by
      intro e; apply h; rw [e]; exact List.mem_cons_self _ _
    rw [pieceHash_cons, pieceHash_cons, ih (fun e => h (List.mem_cons_of_mem _ e)),
      setAt_other _ _ hne]

theorem pieceHash_setAt (Z : ZobristKeys) (mb : Nat → Nat) (s v : Nat) :
    ∀ L : List Nat, L.Nodup → s ∈ L →
      pieceHash Z (setAt mb s v) L = pieceHash Z mb L ^^^ pieceKey Z (mb s) s ^^^ pieceKey Z v s := by
  intro L
  induction L with
  | nil => intro _ h; exact absurd h (List.not_mem_nil _)
  | cons a l ih =>
    intro hn h
    rw [List.nodup_cons] at hn
    rw [pieceHash_cons, pieceHash_cons]
    rcases List.mem_cons.1 h with e | e
    · subst e
      rw [pieceHash_setAt_of_not_mem Z mb s v l hn.1, setAt_same]
      rw [Nat.xor_comm (pieceKey Z (mb s) s) (pieceHash Z mb l), Nat.xor_assoc (pieceHash Z mb l),
        Nat.xor_self, Nat.xor_zero, Nat.xor_comm]
    · have hne : a ≠ s := fun e2 => hn.1 (e2 ▸ e)
      rw [ih hn.2 e, setAt_other _ _ hne, Nat.xor_assoc, Nat.xor_assoc, Nat.xor_assoc]

theorem sq64_nodup : sq64.Nodup := by decide

theorem hashSquare_eq (Z : ZobristKeys) (b : Board) (h s : Nat) :
    hashSquare Z b h s = h ^^^ pieceKey Z (b.mailbox_ s) s := by
  unfold hashSquare pieceKey
  split
  · rfl
  · rw [Nat.xor_zero]

/-- The full recomputation, with the piece part named. -/
theorem computeHash_eq (Z : ZobristKeys) (b : Board) :
    b.computeHash Z =
      (let h := pieceHash Z b.mailbox_ sq64 ^^^ Z.CASTLING b.castling_
       let h := if b.epSquare_ ≥ 0 then h ^^^ Z.EP (b.epSquare_.toNat &&& 7) else h
       if b.sideToMove_ = BLACK then h ^^^ Z.SIDE else h) := by
  unfold computeHash pieceHash
  have : hashSquare Z b = (fun h s => h ^^^ pieceKey Z (b.mailbox_ s) s) := by
    funext h s; exact hashSquare_eq Z b h s
  rw [this]

theorem pieceKey_code (Z : ZobristKeys) {c pt : Nat} (h : c < 2 ∧ pt < 6) (s : Nat) :
    pieceKey Z (code c pt) s = Z.PIECE c pt s := by
  unfold pieceKey
  rw [if_pos (code_ne_empty h), code_color h, code_and7 h]

theorem pieceKey_empty (Z : ZobristKeys) (s : Nat) : pieceKey Z 0xFF s = 0 := by
  unfold pieceKey
  rw [if_neg (by simp)]

end Board

end chess

namespace chess

namespace Board

theorem xor_left_comm (a b c : Nat) : a ^^^ (b ^^^ c) = b ^^^ (a ^^^ c) := by
  rw [← Nat.xor_assoc, Nat.xor_comm a b, Nat.xor_assoc]

/-- The keys of a move are folded into the hash by exclusive or. -/
theorem moveKeys_linear (Z : ZobristKeys) (b : Board) (m : Move) (h : Nat) :
    moveKeys Z b m h = h ^^^ moveKeys Z b m 0 := by
  unfold moveKeys
  simp only []
  split_ifs <;>
    simp only [Nat.xor_assoc, Nat.xor_comm, xor_left_comm, Nat.xor_self, Nat.xor_zero, Nat.zero_xor,
      Nat.xor_cancel_left]

theorem pieceHash_sq64_setAt (Z : ZobristKeys) (mb : Nat → Nat) {s : Nat} (hs : s < 64) (v : Nat) :
    pieceHash Z (setAt mb s v) sq64 = pieceHash Z mb sq64 ^^^ pieceKey Z (mb s) s ^^^ pieceKey Z v s :=
  pieceHash_setAt Z mb s v sq64 sq64_nodup (mem_sq64.2 hs)

theorem pieceKey_target (Z : ZobristKeys) {b : Board} {them dst : Nat} (hthem : them < 2)
    (hd : TargetOk b them dst) :
    pieceKey Z (b.mailbox_ dst) dst =
      (if (if b.isEmpty dst then NO_PIECE else b.pieceAt dst) ≠ NO_PIECE
        then 0 ^^^ Z.PIECE them (if b.isEmpty dst then NO_PIECE else b.pieceAt dst) dst else 0) := by
  rcases hd with hd | ⟨cpt, hcpt, hd⟩
  · rw [(isEmpty_iff b dst).2 hd, hd, pieceKey_empty]
    simp
  · have hcq : them < 2 ∧ cpt < 6 := ⟨hthem, Nat.lt_succ_of_lt hcpt⟩
    rw [isEmpty_false hcq hd, pieceAt_code hcq hd, hd, pieceKey_code Z hcq]
    simp only [Bool.false_eq_true, if_false]
    rw [if_pos (pt_ne_no_piece hcq.2), Nat.zero_xor]

/-- The keys that `makeMove` folds in are the keys of the squares that change. -/
theorem pieceHash_applyPieces (Z : ZobristKeys) {b : Board} {m : Move} (hi : b.Inv)
    (hus : b.sideToMove_ < 2) (h : MoveOk b m) :
    pieceHash Z (b.applyPieces m).mailbox_ sq64 = pieceHash Z b.mailbox_ sq64 ^^^ moveKeys Z b m 0 := by
  have hthem := flip_lt hus
  cases h with
  | normal pt hpt ht hs hd =>
    have hcp : b.sideToMove_ < 2 ∧ pt < 6 := ⟨hus, hpt⟩
    have hne : m.dst ≠ m.src := by
      intro e
      rcases hd with hd | ⟨cpt, hcpt, hd⟩
      · rw [e, hs] at hd; exact code_ne_empty hcp hd
      · rw [e, hs] at hd
        exact flip_ne hus (code_inj hcp ⟨hthem, Nat.lt_succ_of_lt hcpt⟩ hd).1.symm
    rw [(after_normal hi rfl hcp ht hs hd).mailbox, pieceHash_sq64_setAt Z _ m.dst_lt,
      pieceHash_sq64_setAt Z _ m.src_lt, setAt_other _ _ hne, hs, pieceKey_code Z hcp,
      pieceKey_code Z hcp, pieceKey_empty, pieceKey_target Z hthem hd]
    have e0 : MT_NORMAL ≠ MT_CASTLING := by decide
    have e1 : MT_NORMAL ≠ MT_EN_PASSANT := by decide
    have e2 : MT_NORMAL ≠ MT_PROMOTION := by decide
    simp only [moveKeys, ht, e0, e1, e2, if_false, pieceAt_code hcp hs]
    simp only [Nat.xor_assoc, Nat.xor_comm, xor_left_comm, Nat.xor_self, Nat.xor_zero, Nat.zero_xor,
      Nat.xor_cancel_left]
  | promotion ht hs hd =>
    have hcp : b.sideToMove_ < 2 ∧ PAWN < 6 := ⟨hus, by decide⟩
    have hpr := m.promo_range
    have hcq : b.sideToMove_ < 2 ∧ m.promo < 6 := ⟨hus, Nat.lt_of_le_of_lt hpr.2 (by decide)⟩
    have hne : m.dst ≠ m.src := by
      intro e
      rcases hd with hd | ⟨cpt, hcpt, hd⟩
      · rw [e, hs] at hd; exact code_ne_empty hcp hd
      · rw [e, hs] at hd
        exact flip_ne hus (code_inj hcp ⟨hthem, Nat.lt_succ_of_lt hcpt⟩ hd).1.symm
    rw [(after_promotion hi rfl hus ht hs hd).mailbox, pieceHash_sq64_setAt Z _ m.dst_lt,
      pieceHash_sq64_setAt Z _ m.src_lt, setAt_other _ _ hne, hs, pieceKey_code Z hcp,
      pieceKey_code Z hcq, pieceKey_empty, pieceKey_target Z hthem hd]
    have e0 : MT_PROMOTION ≠ MT_CASTLING := by decide
    have e1 : MT_PROMOTION ≠ MT_EN_PASSANT := by decide
    simp only [moveKeys, ht, e0, e1, if_false, if_true]
    simp only [Nat.xor_assoc, Nat.xor_comm, xor_left_comm, Nat.xor_self, Nat.xor_zero, Nat.zero_xor,
      Nat.xor_cancel_left]
  | enPassant ht hs hd hcap hcm =>
    have hcp : b.sideToMove_ < 2 ∧ PAWN < 6 := ⟨hus, by decide⟩
    have hcq : Color.flip b.sideToMove_ < 2 ∧ PAWN < 6 := ⟨hthem, by decide⟩
    have hne1 : m.src ≠ capSqOf b.sideToMove_ m.dst := by
      intro e1; rw [← e1, hs] at hcm
      exact flip_ne hus (code_inj hcp hcq hcm).1.symm
    have hne2 : m.dst ≠ capSqOf b.sideToMove_ m.dst := by
      intro e1; rw [← e1, hd] at hcm
      exact code_ne_empty hcq hcm.symm
    have hne : m.dst ≠ m.src := by
      intro e; rw [e, hs] at hd; exact code_ne_empty hcp hd
    rw [(after_en_passant hi rfl hus ht hs hd hcap hcm).mailbox, pieceHash_sq64_setAt Z _ m.dst_lt,
      pieceHash_sq64_setAt Z _ m.src_lt, pieceHash_sq64_setAt Z _ hcap,
      setAt_other _ _ hne, setAt_other _ _ hne2, setAt_other _ _ hne1, hs, hd, hcm,
      pieceKey_code Z hcp, pieceKey_code Z hcq, pieceKey_empty]
    have e0 : MT_EN_PASSANT ≠ MT_CASTLING := by decide
    have e1 : MT_EN_PASSANT ≠ MT_PROMOTION := by decide
    have hcs : ((m.dst : Int) + (if b.sideToMove_ = WHITE then -8 else 8)).toNat = capSqOf b.sideToMove_ m.dst := rfl
    simp only [moveKeys, ht, e0, e1, if_false, if_true, pieceAt_code hcp hs, (isEmpty_iff b m.dst).2 hd,
      ne_eq, not_true_eq_false, hcs]
    simp only [pieceKey_code Z hcp, pieceKey_code Z hcq, pieceKey_empty, Nat.xor_assoc, Nat.xor_comm, xor_left_comm, Nat.xor_self, Nat.xor_zero, Nat.zero_xor,
      Nat.xor_cancel_left]
  | castling ht hs hd hrf hrt hrm hre hne =>
    have hck : b.sideToMove_ < 2 ∧ KING < 6 := ⟨hus, by decide⟩
    have hcr : b.sideToMove_ < 2 ∧ ROOK < 6 := ⟨hus, by decide⟩
    generalize hrfe : Tables.CASTLING_ROOK_FROM (b.sideToMove_ * 2 + (if fileOf m.dst = 6 then 0 else 1)) = rf
      at hrf hrm
    generalize hrte : Tables.CASTLING_ROOK_TO (b.sideToMove_ * 2 + (if fileOf m.dst = 6 then 0 else 1)) = rt
      at hrt hre hne
    have hne1 : rf ≠ m.src := by
      intro e1; rw [e1, hs] at hrm
      exact absurd (code_inj hck hcr hrm).2 (by decide)
    have hne2 : rf ≠ m.dst := by
      intro e1; rw [e1, hd] at hrm
      exact code_ne_empty hcr hrm.symm
    have hne3 : rt ≠ m.src := by
      intro e1; rw [e1, hs] at hre
      exact code_ne_empty hck hre
    have hne4 : rt ≠ rf := by
      intro e1; rw [e1, hrm] at hre
      exact code_ne_empty hcr hre
    have hsd : m.dst ≠ m.src := by
      intro e; rw [e, hs] at hd; exact code_ne_empty hck hd
    rw [(after_castling hi rfl hus ht hs hd hrfe.symm hrte.symm hrf hrt hrm hre hne).mailbox,
      pieceHash_sq64_setAt Z _ hrt, pieceHash_sq64_setAt Z _ hrf, pieceHash_sq64_setAt Z _ m.dst_lt,
      pieceHash_sq64_setAt Z _ m.src_lt,
      setAt_other _ _ hne4, setAt_other _ _ hne, setAt_other _ _ hne3,
      setAt_other _ _ hne2, setAt_other _ _ hne1, setAt_other _ _ hsd, hs, hd, hrm, hre,
      pieceKey_code Z hck, pieceKey_code Z hcr, pieceKey_empty]
    simp only [moveKeys, ht, if_true, hrfe, hrte]
    simp only [pieceKey_code Z hck, pieceKey_code Z hcr, pieceKey_empty, Nat.xor_assoc, Nat.xor_comm, xor_left_comm, Nat.xor_self, Nat.xor_zero, Nat.zero_xor,
      Nat.xor_cancel_left]

end Board

end chess

namespace chess

namespace Board

/-- After a move of one of the four kinds, the hash that `makeMove` maintained is the hash
that `computeHash` recomputes. -/
theorem hash_after (Z : ZobristKeys) {b : Board} {m : Move} (hi : b.Inv) (hus : b.sideToMove_ < 2)
    (h : MoveOk b m) (hh : b.hash_ = b.computeHash Z) :
    (b.makeMove Z m).1.hash_ = (b.makeMove Z m).1.computeHash Z := by
  rw [makeMove_fst Z b m m.type_lt (h.pieceAt_ne hus), computeHash_eq]
  have f1 : (b.moved Z m).mailbox_ = (b.applyPieces m).mailbox_ := rfl
  have f2 : (b.moved Z m).castling_ =
      (b.castling_ &&& Tables.CASTLING_RIGHTS_MASK m.src) &&& Tables.CASTLING_RIGHTS_MASK m.dst := rfl
  have f3 : (b.moved Z m).epSquare_ = epAfter b m := rfl
  have f4 : (b.moved Z m).sideToMove_ = Color.flip b.sideToMove_ := rfl
  have f5 : (b.moved Z m).hash_ =
      (let h := b.hash_ ^^^ Z.CASTLING b.castling_
       let h := if b.epSquare_ ≥ 0 then h ^^^ Z.EP (b.epSquare_.toNat &&& 7) else h
       let h := moveKeys Z b m h
       let h := h ^^^ Z.CASTLING ((b.castling_ &&& Tables.CASTLING_RIGHTS_MASK m.src) &&&
         Tables.CASTLING_RIGHTS_MASK m.dst)
       let h := if epAfter b m ≥ 0 then h ^^^ Z.EP ((epAfter b m).toNat &&& 7) else h
       h ^^^ Z.SIDE) := rfl
  rw [f1, f2, f3, f4, f5, pieceHash_applyPieces Z hi hus h, hh, computeHash_eq]
  simp only []
  rw [moveKeys_linear]
  have hs : b.sideToMove_ = 0 ∨ b.sideToMove_ = 1 := by
    have : ∀ n : Nat, n < 2 → n = 0 ∨ n = 1 := by omega
    exact this _ hus
  have hB : BLACK = 1 := rfl
  rcases hs with hs | hs <;> rw [hs] <;>
    by_cases h1 : b.epSquare_ ≥ 0 <;> by_cases h2 : epAfter b m ≥ 0 <;>
    simp only [h1, h2, if_true, if_false, hB, Color.flip, Nat.zero_xor, Nat.xor_self,
      OfNat.zero_ne_ofNat, OfNat.ofNat_ne_zero, one_ne_zero, zero_ne_one] <;>
    simp only [Nat.xor_assoc, Nat.xor_comm, xor_left_comm, Nat.xor_self, Nat.xor_zero, Nat.zero_xor,
      Nat.xor_cancel_left]

end Board

end chess

/-!
# The generated list, part by part
-/

namespace chess

namespace Board

/-- The moves of one pawn: a push is a promotion on the last-but-one rank. -/
def pawnStep (rank promoRank src dst : Nat) : List Move :=
  if rank = promoRank then
    [Move.make src dst MT_PROMOTION QUEEN, Move.make src dst MT_PROMOTION ROOK,
     Move.make src dst MT_PROMOTION BISHOP, Move.make src dst MT_PROMOTION KNIGHT]
  else [Move.normal src dst]

/-- The pushes that `generatePawnMoves` emits for one pawn. -/
def pawnPushes (T : Lookups) (b : Board) (src : Nat) (us : Color) (ksq : Nat) (isPinned : Bool)
    (targetMask : Bitboard) : List Move :=
  let forward : Int := if us = WHITE then 8 else -8
  let startRank := if us = WHITE then 1 else 6
  let promoRank := if us = WHITE then 6 else 1
  let pinRay := if isPinned then T.LINE_BB ksq src else ALL
  let dst := ((src : Int) + forward).toNat
  let to2 := ((dst : Int) + forward).toNat
  if b.isEmpty dst ∧ squareBB dst &&& pinRay ≠ 0 then
    (if squareBB dst &&& targetMask ≠ 0 then pawnStep (rankOf src) promoRank src dst else []) ++
    (if rankOf src = startRank ∧ (b.isEmpty to2 ∧ squareBB to2 &&& targetMask ≠ 0 ∧ squareBB to2 &&& pinRay ≠ 0)
      then [Move.normal src to2] else [])
  else []

/-- The squares that `generatePawnMoves` captures on for one pawn. -/
def pawnCaptureBB (T : Lookups) (b : Board) (src : Nat) (us them : Color) (ksq : Nat) (isPinned : Bool)
    (targetMask : Bitboard) : Bitboard :=
  T.PAWN_ATTACKS us src &&& b.byColor_ them &&& targetMask &&& (if isPinned then T.LINE_BB ksq src else ALL)

theorem and_lt_of_right {x y : Nat} (h : y < 2 ^ 64) : x &&& y < 2 ^ 64 :=
  Nat.lt_of_le_of_lt Nat.and_le_right h

theorem and_lt_of_left {x y : Nat} (h : x < 2 ^ 64) : x &&& y < 2 ^ 64 :=
  Nat.lt_of_le_of_lt Nat.and_le_left h

theorem pawn_list_shape {α : Type} (moves A B C : List α) (c1 c2 c3 c4 c5 : Prop) [Decidable c1]
    [Decidable c2] [Decidable c3] [Decidable c4] [Decidable c5] :
    (if c1 then
      if c4 then
        if c5 then (if c2 then (if c3 then moves ++ A else moves ++ B) else moves) ++ C
        else (if c2 then (if c3 then moves ++ A else moves ++ B) else moves)
      else (if c2 then (if c3 then moves ++ A else moves ++ B) else moves)
    else moves) =
    moves ++ (if c1 then (if c2 then (if c3 then A else B) else []) ++ (if c4 ∧ c5 then C else []) else []) := by
  by_cases h1 : c1 <;> by_cases h2 : c2 <;> by_cases h3 : c3 <;> by_cases h4 : c4 <;> by_cases h5 : c5 <;>
    simp [h1, h2, h3, h4, h5]

/-- The function `generatePawnMoves` appends the pushes and the captures of the pawn. -/
theorem generatePawnMoves_eq (T : Lookups) (b : Board) (moves : List Move) (src : Nat) (us them : Color)
    (ksq : Nat) (isPinned : Bool) (targetMask : Bitboard) (hb : b.byColor_ them < 2 ^ 64) :
    b.generatePawnMoves T moves src us them ksq isPinned targetMask =
      moves ++ (pawnPushes T b src us ksq isPinned targetMask ++
        (bitsOf (pawnCaptureBB T b src us them ksq isPinned targetMask)).flatMap
          (fun dst => pawnStep (rankOf src) (if us = WHITE then 6 else 1) src dst)) := by
  have hlt : pawnCaptureBB T b src us them ksq isPinned targetMask < 2 ^ 64 :=
    and_lt_of_left (and_lt_of_left (and_lt_of_right hb))
  have key := fun init => forBits_append (fun capSq moves =>
      if rankOf src = (if us = WHITE then 6 else 1) then pushPromotions moves src capSq
      else moves ++ [Move.normal src capSq])
    (fun dst => pawnStep (rankOf src) (if us = WHITE then 6 else 1) src dst) (by
      intro i acc
      unfold pawnStep pushPromotions
      simp only []
      by_cases e : rankOf src = (if us = WHITE then 6 else 1)
      · rw [if_pos e, if_pos e]
      · rw [if_neg e, if_neg e]) hlt init
  unfold generatePawnMoves
  simp only []
  unfold pawnCaptureBB at key
  rw [key, ← List.append_assoc]
  congr 1
  unfold pawnPushes pawnStep pushPromotions
  simp only []
  exact pawn_list_shape _ _ _ _ _ _ _ _ _

end Board

end chess

namespace chess

namespace Board

/-- The squares that `generatePieceMoves` emits for one knight, bishop, rook or queen. -/
def pieceTargets (T : Lookups) (b : Board) (PT : PieceType) (src : Nat) (us : Color) (ksq : Nat)
    (pinned targetMask : Bitboard) : Bitboard :=
  let isPinned : Bool := pinned &&& squareBB src != 0
  if PT = KNIGHT ∧ isPinned = true then 0
  else
    let attacks :=
      if PT = KNIGHT then T.KNIGHT_ATTACKS src
      else if PT = BISHOP then T.bishopAttacks src b.occupied_
      else if PT = ROOK then T.rookAttacks src b.occupied_
      else if PT = QUEEN then T.queenAttacks src b.occupied_
      else 0
    let attacks := attacks &&& (bnot (b.byColor_ us) &&& targetMask)
    if isPinned then attacks &&& T.LINE_BB ksq src else attacks

theorem pieceTargets_lt (T : Lookups) (b : Board) (PT : PieceType) (src : Nat) (us : Color) (ksq : Nat)
    (pinned targetMask : Bitboard) : pieceTargets T b PT src us ksq pinned targetMask < 2 ^ 64 := by
  unfold pieceTargets
  simp only []
  split
  · norm_num
  · split
    · exact and_lt_of_left (and_lt_of_right (and_lt_of_left (bnot_lt _)))
    · exact and_lt_of_right (and_lt_of_left (bnot_lt _))

theorem generatePieceMoves_eq (T : Lookups) (b : Board) (PT : PieceType) (hPT : PT ≠ PAWN)
    (moves : List Move) (us them : Color) (ksq : Nat) (pinned targetMask : Bitboard)
    (hb : b.pieces_ us PT < 2 ^ 64) :
    b.generatePieceMoves T PT moves us them ksq pinned targetMask =
      moves ++ (bitsOf (b.pieces_ us PT)).flatMap
        (fun src => (bitsOf (pieceTargets T b PT src us ksq pinned targetMask)).map (Move.normal src)) := by
  unfold generatePieceMoves
  apply forBits_append _ _ _ hb
  intro src acc
  simp only []
  rw [if_neg hPT]
  unfold pieceTargets
  simp only []
  by_cases hk : PT = KNIGHT ∧ (pinned &&& squareBB src != 0) = true
  · rw [if_pos hk, if_pos hk, bitsOf_zero, List.map_nil, List.append_nil]
  · rw [if_neg hk, if_neg hk]
    have hlt := pieceTargets_lt T b PT src us ksq pinned targetMask
    unfold pieceTargets at hlt
    simp only [] at hlt
    rw [if_neg hk] at hlt
    rw [forBits_append (fun dst moves => moves ++ [Move.normal src dst]) (fun dst => [Move.normal src dst])
      (fun _ _ => rfl) hlt]
    congr 1
    generalize bitsOf _ = L
    induction L with
    | nil => rfl
    | cons a l ih => rw [List.flatMap_cons, List.map_cons, ih]; rfl

theorem generatePieceMoves_pawn (T : Lookups) (b : Board) (moves : List Move) (us them : Color)
    (ksq : Nat) (pinned targetMask : Bitboard) (hb : b.pieces_ us PAWN < 2 ^ 64)
    (hc : b.byColor_ them < 2 ^ 64) :
    b.generatePieceMoves T PAWN moves us them ksq pinned targetMask =
      moves ++ (bitsOf (b.pieces_ us PAWN)).flatMap (fun src =>
        pawnPushes T b src us ksq (pinned &&& squareBB src != 0) targetMask ++
        (bitsOf (pawnCaptureBB T b src us them ksq (pinned &&& squareBB src != 0) targetMask)).flatMap
          (fun dst => pawnStep (rankOf src) (if us = WHITE then 6 else 1) src dst)) := by
  unfold generatePieceMoves
  apply forBits_append _ _ _ hb
  intro src acc
  simp only [if_true]
  exact generatePawnMoves_eq T b acc src us them ksq _ targetMask hc

/-- The king moves, as a list. -/
theorem generateKingMoves_eq (T : Lookups) (b : Board) (us them : Color) (ksq : Nat) :
    b.generateKingMoves T us them ksq =
      (bitsOf (T.KING_ATTACKS ksq &&& bnot (b.byColor_ us))).flatMap (fun dst =>
        if b.attackersTo T dst ((b.occupied_ ^^^ squareBB ksq) ||| squareBB dst) them = 0
        then [Move.normal ksq dst] else []) := by
  unfold generateKingMoves
  simp only []
  rw [forBits_append _ (fun dst =>
        if b.attackersTo T dst ((b.occupied_ ^^^ squareBB ksq) ||| squareBB dst) them = 0
        then [Move.normal ksq dst] else []) _ (and_lt_of_right (bnot_lt _)), List.nil_append]
  intro dst acc
  simp only []
  split
  · rfl
  · rw [List.append_nil]

/-- The castling moves, as a list. -/
theorem generateCastling_eq (T : Lookups) (b : Board) (moves : List Move) (us them : Color) :
    b.generateCastling T moves us them = moves ++ b.generateCastling T [] us them := by
  unfold generateCastling
  simp only []
  split_ifs <;> simp

end Board

end chess

/-!
# Consistent positions: what the generator reads from the bitboards
-/

namespace chess

open Tables

namespace Board

/-- What a consistent position provides, as statements about single squares. -/
structure Pos (T : Lookups) (b : Board) : Prop where
  good : T.Good
  inv : b.Inv
  rng : b.Ranges
  safe : ∀ q, q < 64 →
    ¬ Attacker b.mailbox_ b.occupied_ b.sideToMove_ (b.kingSquare_ (Color.flip b.sideToMove_)) q
  castle : b.okCastling = true
  ep : b.okEnPassant = true

theorem Pos.of_consistent {T : Lookups} (hT : T.Good) {b : Board} (h : b.consistent T = true) :
    Pos T b := by
  unfold consistent at h
  simp only [Bool.and_eq_true, Bool.not_eq_true_eq_eq_false] at h
  obtain ⟨⟨⟨⟨h1, h2⟩, h3⟩, h4⟩, h5⟩ := h
  have hi := Inv.of_structural h1
  have hr := Ranges.of_ok h2
  refine ⟨hT, hi, hr, ?_, h4, h5⟩
  intro q hq ha
  have := (isAttacked_iff hT hi hr.side (hi.kingLt _ (flip_lt hr.side))).2 ⟨q, hq, ha⟩
  unfold kingSq at h3
  rw [h3] at this
  exact Bool.noConfusion this

section
variable {T : Lookups} {b : Board}

theorem Pos.them_lt (P : Pos T b) : Color.flip b.sideToMove_ < 2 := flip_lt P.rng.side

theorem Pos.scene (P : Pos T b) :
    Scene b.mailbox_ b.occupied_ b.sideToMove_ (b.kingSquare_ b.sideToMove_) :=
  ⟨P.rng.side, P.inv.kingLt _ P.rng.side,
    (P.inv.king _ P.rng.side _ (P.inv.kingLt _ P.rng.side)).2 rfl,
    fun x => by rw [P.inv.occupied, decide_eq_true_eq]⟩

theorem Inv.own_iff (h : b.Inv) {c : Nat} (hc : c < 2) (x : Nat) :
    (b.byColor_ c).testBit x = true ↔ x < 64 ∧ ∃ pt : Nat, pt < 6 ∧ b.mailbox_ x = code c pt := by
  rw [h.byColor c hc, decide_eq_true_eq]

theorem Inv.piece_iff (h : b.Inv) {c pt : Nat} (hc : c < 2) (hpt : pt < 6) (x : Nat) :
    (b.pieces_ c pt).testBit x = true ↔ x < 64 ∧ b.mailbox_ x = code c pt := by
  rw [h.pieces c pt ⟨hc, hpt⟩, decide_eq_true_eq]

theorem Inv.occ_iff (h : b.Inv) (x : Nat) :
    b.occupied_.testBit x = true ↔ x < 64 ∧ b.mailbox_ x ≠ 0xFF := by
  rw [h.occupied, decide_eq_true_eq]

end

theorem pieceIs_iff (b : Board) (s c pt : Nat) :
    Spec.pieceIs b s c pt = true ↔ b.mailbox_ s = code c pt := by
  unfold Spec.pieceIs; rw [beq_iff_eq]

theorem emptyAt_iff (b : Board) (s : Nat) : Spec.emptyAt b s = true ↔ b.mailbox_ s = 0xFF := by
  unfold Spec.emptyAt; rw [beq_iff_eq]

theorem colorIs_iff (b : Board) (s c : Nat) :
    Spec.colorIs b s c = true ↔ ∃ pt : Nat, pt < 6 ∧ b.mailbox_ s = code c pt := by
  unfold Spec.colorIs
  simp only [List.any_cons, List.any_nil, Bool.or_false, Bool.or_eq_true, pieceIs_iff]
  constructor
  · rintro (h | h | h | h | h | h)
    · exact ⟨PAWN, by decide, h⟩
    · exact ⟨KNIGHT, by decide, h⟩
    · exact ⟨BISHOP, by decide, h⟩
    · exact ⟨ROOK, by decide, h⟩
    · exact ⟨QUEEN, by decide, h⟩
    · exact ⟨KING, by decide, h⟩
  · rintro ⟨pt, hpt, h⟩
    rcases pt_cases hpt with rfl | rfl | rfl | rfl | rfl | rfl <;> tauto

/-- A square strictly between two squares is a square of the board. -/
theorem between_lt {a b x : Nat} (ha : a < 64) (h : Between a b x) : x < 64 := by
  obtain ⟨d, hd, n, j, _, hjn, ho, _, hx⟩ := h
  rw [hx]
  exact stepSq_lt (stepOn_mono ha hd ho (Nat.le_of_lt hjn))

theorem between_ne_left {a b x : Nat} (ha : a < 64) (h : Between a b x) : x ≠ a := by
  obtain ⟨d, hd, n, j, hj, hjn, ho, _, hx⟩ := h
  rw [hx]
  exact stepSq_ne hd hj (stepOn_mono ha hd ho (Nat.le_of_lt hjn))

section
variable {T : Lookups} {b : Board}

/-- The bitboard `checkers` holds the enemy pieces that attack the king. -/
theorem Pos.checkers_iff (P : Pos T b) (q : Nat) :
    (b.checkers T).testBit q = true ↔
      q < 64 ∧ Attacker b.mailbox_ b.occupied_ (Color.flip b.sideToMove_) (b.kingSquare_ b.sideToMove_) q :=
  testBit_attackersTo P.good P.inv P.them_lt (P.inv.kingLt _ P.rng.side) _ q

theorem Pos.checkers_lt (P : Pos T b) : b.checkers T < 2 ^ 64 :=
  lt_two_pow_of_testBit_lt (fun s hs => ((P.checkers_iff s).1 hs).1)

/-- A piece that attacks stands on an occupied square. -/
theorem Attacker.occupied {mb : Nat → Nat} {occ : Bitboard} {c sq q : Nat} (hc : c < 2)
    (h : Attacker mb occ c sq q) : mb q ≠ 0xFF := by
  rcases h with ⟨h, _⟩ | ⟨h, _⟩ | ⟨h, _⟩ | ⟨h | h, _⟩ | ⟨h | h, _⟩ <;> rw [h] <;>
    exact code_ne_empty ⟨hc, by decide⟩

/-- The target mask of the generator: all squares when there is no check, the checking piece
and the squares between it and the king when there is one check. -/
theorem Pos.targetMask_iff (P : Pos T b) (hn : popCount (b.checkers T) ≤ 1) (t : Nat) :
    (if popCount (b.checkers T) = 1
      then T.BETWEEN_BB (b.kingSquare_ b.sideToMove_) (lsb (b.checkers T)) ||| b.checkers T
      else ALL).testBit t = true ↔
    t < 64 ∧ ∀ q, q < 64 →
      Attacker b.mailbox_ b.occupied_ (Color.flip b.sideToMove_) (b.kingSquare_ b.sideToMove_) q →
        t = q ∨ Between (b.kingSquare_ b.sideToMove_) q t := by
  have hk := P.inv.kingLt _ P.rng.side
  by_cases h1 : popCount (b.checkers T) = 1
  · rw [if_pos h1]
    obtain ⟨q0, hq0, hb0, hu⟩ := (popCount_eq_one_iff _).1 h1
    have hl := lsb_of_unique hq0 hb0 hu
    rw [hl, Nat.testBit_or, Bool.or_eq_true, P.good.between _ _ _ hk hq0]
    constructor
    · rintro (h | h)
      · refine ⟨between_lt hk h, fun q hq ha => ?_⟩
        have := hu q hq ((P.checkers_iff q).2 ⟨hq, ha⟩)
        rw [this]; exact Or.inr h
      · have ht := ((P.checkers_iff t).1 h).1
        refine ⟨ht, fun q hq ha => ?_⟩
        have e1 := hu q hq ((P.checkers_iff q).2 ⟨hq, ha⟩)
        have e2 := hu t ht h
        exact Or.inl (e2.trans e1.symm)
    · rintro ⟨_, h⟩
      rcases h q0 hq0 ((P.checkers_iff q0).1 hb0).2 with e | e
      · right; rw [e]; exact hb0
      · left; exact e
  · rw [if_neg h1, testBit_ALL, decide_eq_true_eq]
    have h0 : popCount (b.checkers T) = 0 := by omega
    rw [popCount_eq_zero_iff] at h0
    constructor
    · intro ht
      refine ⟨ht, fun q hq ha => ?_⟩
      have := h0 q hq
      rw [(P.checkers_iff q).2 ⟨hq, ha⟩] at this
      exact Bool.noConfusion this
    · exact fun h => h.1

/-- A move that answers every check exists only when there is at most one check. -/
theorem Pos.one_checker (P : Pos T b) {t : Nat}
    (h : ∀ q, q < 64 →
      Attacker b.mailbox_ b.occupied_ (Color.flip b.sideToMove_) (b.kingSquare_ b.sideToMove_) q →
        t = q ∨ Between (b.kingSquare_ b.sideToMove_) q t) :
    popCount (b.checkers T) ≤ 1 := by
  rw [popCount_le_one_iff]
  intro i j hi hj bi bj
  refine checkers_unique P.scene ?_ h hi ((P.checkers_iff i).1 bi).2 hj ((P.checkers_iff j).1 bj).2
  intro q hq ha
  exact (P.inv.occ_iff q).2 ⟨hq, ha.occupied P.them_lt⟩

end

end Board

end chess

/-!
# The pinned pieces
-/

namespace chess

open Tables

namespace Board

section
variable {T : Lookups} {b : Board}

/-- The occupied squares without the pieces of the side to move. -/
theorem Pos.occNoUs_iff (P : Pos T b) (x : Nat) :
    (b.occupied_ ^^^ b.byColor_ b.sideToMove_).testBit x = true ↔
      x < 64 ∧ b.mailbox_ x ≠ 0xFF ∧ ¬ ∃ pt : Nat, pt < 6 ∧ b.mailbox_ x = code b.sideToMove_ pt := by
  rw [Nat.testBit_xor]
  have h1 := P.inv.occ_iff x
  have h2 := P.inv.own_iff P.rng.side x
  cases ho : b.occupied_.testBit x <;> cases hb : (b.byColor_ b.sideToMove_).testBit x <;>
    rw [ho] at h1 <;> rw [hb] at h2 <;> simp only [Bool.xor_false, Bool.xor_true, Bool.not_false,
      Bool.not_true, Bool.false_eq_true, false_iff, true_iff, not_false_eq_true] at h1 h2 ⊢
  · tauto
  · obtain ⟨hx, pt, hpt, e⟩ := h2
    exact absurd ⟨hx, by rw [e]; exact code_ne_empty ⟨P.rng.side, hpt⟩⟩ h1
  · tauto
  · rintro ⟨_, _, h3⟩
    exact h3 h2.2

/-- The enemy sliders that see the king when the own pieces are taken off the board. -/
theorem Pos.pinner_iff (P : Pos T b) (p : Nat) :
    ((T.rookAttacks (b.kingSquare_ b.sideToMove_) (b.occupied_ ^^^ b.byColor_ b.sideToMove_) &&&
        (b.pieces_ (Color.flip b.sideToMove_) ROOK ||| b.pieces_ (Color.flip b.sideToMove_) QUEEN)) |||
      (T.bishopAttacks (b.kingSquare_ b.sideToMove_) (b.occupied_ ^^^ b.byColor_ b.sideToMove_) &&&
        (b.pieces_ (Color.flip b.sideToMove_) BISHOP ||| b.pieces_ (Color.flip b.sideToMove_) QUEEN))).testBit p
      = true ↔
    ∃ d n, SlideVia b.mailbox_ (Color.flip b.sideToMove_) (b.kingSquare_ b.sideToMove_) p d n ∧
      ClearTo (b.occupied_ ^^^ b.byColor_ b.sideToMove_) (b.kingSquare_ b.sideToMove_) d n := by
  have hk := P.inv.kingLt _ P.rng.side
  simp only [Nat.testBit_or, Nat.testBit_and, Bool.or_eq_true, Bool.and_eq_true]
  rw [P.good.rook _ _ _ hk, P.good.bishop _ _ _ hk,
    reach_iff (fun d hd => isDir_of_rook hd) hk, reach_iff (fun d hd => isDir_of_bishop hd) hk,
    P.inv.piece_iff P.them_lt (by decide), P.inv.piece_iff P.them_lt (by decide),
    P.inv.piece_iff P.them_lt (by decide)]
  unfold SlideVia DirOk ClearTo
  constructor
  · rintro (⟨⟨d, hd, n, h1, h2, h3, h4⟩, h5⟩ | ⟨⟨d, hd, n, h1, h2, h3, h4⟩, h5⟩)
    · exact ⟨d, n, ⟨Or.inl ⟨hd, by tauto⟩, h1, h2, h3⟩, h4⟩
    · exact ⟨d, n, ⟨Or.inr ⟨hd, by tauto⟩, h1, h2, h3⟩, h4⟩
  · rintro ⟨d, n, ⟨⟨hd, h5⟩ | ⟨hd, h5⟩, h1, h2, h3⟩, h4⟩
    · have hp : p < 64 := by rw [h3]; exact stepSq_lt h2
      exact Or.inl ⟨⟨d, hd, n, h1, h2, h3, h4⟩, by tauto⟩
    · have hp : p < 64 := by rw [h3]; exact stepSq_lt h2
      exact Or.inr ⟨⟨d, hd, n, h1, h2, h3, h4⟩, by tauto⟩

theorem Pos.pinners_lt (P : Pos T b) :
    ((T.rookAttacks (b.kingSquare_ b.sideToMove_) (b.occupied_ ^^^ b.byColor_ b.sideToMove_) &&&
        (b.pieces_ (Color.flip b.sideToMove_) ROOK ||| b.pieces_ (Color.flip b.sideToMove_) QUEEN)) |||
      (T.bishopAttacks (b.kingSquare_ b.sideToMove_) (b.occupied_ ^^^ b.byColor_ b.sideToMove_) &&&
        (b.pieces_ (Color.flip b.sideToMove_) BISHOP ||| b.pieces_ (Color.flip b.sideToMove_) QUEEN)))
      < 2 ^ 64 := by
  apply lt_two_pow_of_testBit_lt
  intro s hs
  obtain ⟨d, n, ⟨_, _, h2, h3⟩, _⟩ := (P.pinner_iff s).1 hs
  rw [h3]; exact stepSq_lt h2

/-- The bitboard `pinned` holds the pieces of the side to move that stand alone between their
king and an enemy slider on its line. -/
theorem Pos.pinned_iff (P : Pos T b) (f : Nat) :
    (b.pinnedPieces T b.sideToMove_ (Color.flip b.sideToMove_) (b.kingSquare_ b.sideToMove_)).testBit f
      = true ↔
    Pinned b.mailbox_ b.occupied_ b.sideToMove_ (b.kingSquare_ b.sideToMove_) f := by
  have hk := P.inv.kingLt _ P.rng.side
  unfold pinnedPieces
  simp only []
  rw [forBits_eq _ _ _ P.pinners_lt]
  rw [foldl_or_testBit (bitsOf _)
    (fun pinner => popCount (T.BETWEEN_BB (b.kingSquare_ b.sideToMove_) pinner &&& b.occupied_) = 1)
    (fun pinner => T.BETWEEN_BB (b.kingSquare_ b.sideToMove_) pinner &&& b.occupied_ &&&
      b.byColor_ b.sideToMove_) f 0]
  simp only [Nat.zero_testBit, Bool.false_eq_true, false_or]
  constructor
  · rintro ⟨p, hp, hc, hf⟩
    rw [mem_bitsOf] at hp
    obtain ⟨hp64, hp⟩ := hp
    obtain ⟨d, n, sv, cl⟩ := (P.pinner_iff p).1 hp
    obtain ⟨hd, hn, ho, hq⟩ := sv
    simp only [Nat.testBit_and, Bool.and_eq_true] at hf
    obtain ⟨⟨hbt, hocc⟩, hown⟩ := hf
    rw [P.good.between _ _ _ hk hp64] at hbt
    obtain ⟨d2, hd2, n2, i, hi, hin, ho2, hq2, hx2⟩ := hbt
    obtain ⟨e1, e2⟩ := step_unique hd.isDir hd2 hn (by omega) ho ho2 (hq.symm.trans hq2)
    subst e1 e2
    refine ⟨p, d, n, i, ⟨hd, hn, ho, hq⟩, hi, hin, hx2, ((P.inv.own_iff P.rng.side f).1 hown).2, ?_⟩
    intro j hj hjn hji
    by_contra hne
    rw [Bool.not_eq_false] at hne
    obtain ⟨u, hu, hub, huu⟩ := (popCount_eq_one_iff _).1 hc
    have hoj := stepOn_mono hk hd.isDir ho (Nat.le_of_lt hjn)
    have hoi := stepOn_mono hk hd.isDir ho (Nat.le_of_lt hin)
    have m1 := huu (stepSq (b.kingSquare_ b.sideToMove_) d j) (stepSq_lt hoj) (by
      rw [Nat.testBit_and, Bool.and_eq_true, P.good.between _ _ _ hk hp64]
      exact ⟨⟨d, hd.isDir, n, j, hj, hjn, ho, hq, rfl⟩, hne⟩)
    have m2 := huu f (by rw [hx2]; exact stepSq_lt hoi) (by
      rw [Nat.testBit_and, Bool.and_eq_true, P.good.between _ _ _ hk hp64]
      exact ⟨⟨d, hd.isDir, n, i, hi, hin, ho, hq, hx2⟩, hocc⟩)
    rw [hx2] at m2
    exact hji (step_unique hd.isDir hd.isDir hj hi hoj hoi (m1.trans m2.symm)).2
  · rintro ⟨q, d, n, i, ⟨hd, hn, ho, hq⟩, hi, hin, hf, hown, hcl⟩
    have hq64 : q < 64 := by rw [hq]; exact stepSq_lt ho
    have hoi := stepOn_mono hk hd.isDir ho (Nat.le_of_lt hin)
    have hf64 : f < 64 := by rw [hf]; exact stepSq_lt hoi
    have hfo : b.occupied_.testBit f = true := by
      obtain ⟨pt, hpt, e⟩ := hown
      exact (P.inv.occ_iff f).2 ⟨hf64, by rw [e]; exact code_ne_empty ⟨P.rng.side, hpt⟩⟩
    have hfb : Between (b.kingSquare_ b.sideToMove_) q f := ⟨d, hd.isDir, n, i, hi, hin, ho, hq, hf⟩
    refine ⟨q, ?_, ?_, ?_⟩
    · rw [mem_bitsOf]
      refine ⟨hq64, (P.pinner_iff q).2 ⟨d, n, ⟨hd, hn, ho, hq⟩, ?_⟩⟩
      intro j hj hjn
      by_cases hji : j = i
      · subst hji
        rw [← hf]
        cases hx : (b.occupied_ ^^^ b.byColor_ b.sideToMove_).testBit f
        · rfl
        · exact absurd hown ((P.occNoUs_iff f).1 hx).2.2
      · have := hcl j hj hjn hji
        cases hx : (b.occupied_ ^^^ b.byColor_ b.sideToMove_).testBit
            (stepSq (b.kingSquare_ b.sideToMove_) d j)
        · rfl
        · have h2 := (P.occNoUs_iff _).1 hx
          have h3 := (P.inv.occ_iff _).2 ⟨h2.1, h2.2.1⟩
          rw [this] at h3
          exact Bool.noConfusion h3
    · rw [popCount_eq_one_iff]
      refine ⟨f, hf64, ?_, ?_⟩
      · rw [Nat.testBit_and, Bool.and_eq_true, P.good.between _ _ _ hk hq64]
        exact ⟨hfb, hfo⟩
      · intro x _ hx
        rw [Nat.testBit_and, Bool.and_eq_true, P.good.between _ _ _ hk hq64] at hx
        obtain ⟨⟨d2, hd2, n2, j, hj, hjn, ho2, hq2, hx2⟩, hxo⟩ := hx
        obtain ⟨e1, e2⟩ := step_unique hd.isDir hd2 hn (by omega) ho ho2 (hq.symm.trans hq2)
        subst e1 e2
        by_cases hji : j = i
        · rw [hx2, hf, hji]
        · have := hcl j hj hjn hji
          rw [← hx2, hxo] at this
          exact Bool.noConfusion this
    · simp only [Nat.testBit_and, Bool.and_eq_true]
      rw [P.good.between _ _ _ hk hq64]
      exact ⟨⟨hfb, hfo⟩, (P.inv.own_iff P.rng.side f).2 ⟨hf64, hown⟩⟩

end

end Board

end chess

/-!
# The king's safety after a move, in terms of the position before it
-/

namespace chess

open Tables

namespace Board

section
variable {T : Lookups} {b : Board} {m : Move}

theorem After.moved_inv (Z : ZobristKeys) {mb ks : Nat → Nat} (A : After b m mb ks) :
    (b.moved Z m).Inv :=
  A.inv.congr rfl rfl rfl rfl rfl

/-- The test `kingSafeAfter` reads the mailbox that the move leaves behind. -/
theorem safeAfter_iff (P : Pos T b) (Z : ZobristKeys) (h : MoveOk b m) {mb ks : Nat → Nat}
    (A : After b m mb ks) :
    Spec.kingSafeAfter T Z b m = true ↔
      ¬ ∃ q, q < 64 ∧ Attacker mb (b.applyPieces m).occupied_ (Color.flip b.sideToMove_)
        (ks b.sideToMove_) q := by
  unfold Spec.kingSafeAfter
  simp only []
  rw [makeMove_fst Z b m m.type_lt (h.pieceAt_ne P.rng.side), Bool.not_eq_true', ← Bool.not_eq_true]
  have hi := A.moved_inv Z
  have hk : (b.moved Z m).kingSq b.sideToMove_ = ks b.sideToMove_ := by
    unfold kingSq
    rw [← A.king]
    rfl
  have hm : (b.moved Z m).mailbox_ = mb := by rw [← A.mailbox]; rfl
  have ho : (b.moved Z m).occupied_ = (b.applyPieces m).occupied_ := rfl
  rw [hk]
  have hkl : ks b.sideToMove_ < 64 := by rw [← A.king]; exact A.inv.kingLt _ P.rng.side
  rw [isAttacked_iff P.good hi P.them_lt hkl, hm, ho]

/-- The occupied squares after a move are the squares where its mailbox holds a piece. -/
theorem After.newOcc_iff {mb ks : Nat → Nat} (A : After b m mb ks) (x : Nat) :
    (b.applyPieces m).occupied_.testBit x = true ↔ x < 64 ∧ mb x ≠ 0xFF := by
  rw [A.inv.occ_iff, A.mailbox]

/-- A move of a piece other than the king, normal or promoting, is safe for the king exactly
when it answers every check and respects the pin. -/
theorem step_safe (P : Pos T b) (Z : ZobristKeys) (h : MoveOk b m) {pt pt2 : Nat} (hpt : pt < 6)
    (hk : pt ≠ KING) (hpt2 : pt2 < 6) (hs : b.mailbox_ m.src = code b.sideToMove_ pt)
    (hd : TargetOk b (Color.flip b.sideToMove_) m.dst)
    (hclear : ∀ x, Between m.src m.dst x → b.mailbox_ x = 0xFF)
    (A : After b m (setAt (setAt b.mailbox_ m.src 0xFF) m.dst (code b.sideToMove_ pt2)) b.kingSquare_) :
    Spec.kingSafeAfter T Z b m = true ↔
      ((∀ q, q < 64 →
          Attacker b.mailbox_ b.occupied_ (Color.flip b.sideToMove_) (b.kingSquare_ b.sideToMove_) q →
            m.dst = q ∨ Between (b.kingSquare_ b.sideToMove_) q m.dst) ∧
       (Pinned b.mailbox_ b.occupied_ b.sideToMove_ (b.kingSquare_ b.sideToMove_) m.src →
          OnLineOf (b.kingSquare_ b.sideToMove_) m.src m.dst)) := by
  rw [safeAfter_iff P Z h A]
  refine safe_iff P.scene ⟨m.src_lt, m.dst_lt, ⟨pt, hpt, hk, hs⟩, ?_, hclear, ⟨pt2, hpt2, rfl⟩, A.newOcc_iff⟩
  rcases hd with hd | ⟨cpt, hc, hd⟩
  · exact Or.inl hd
  · exact Or.inr ⟨cpt, by omega, hd⟩

/-- The filters of the generator on the target square of a piece that is not the king. -/
theorem Pos.filters_iff (P : Pos T b) (hn : popCount (b.checkers T) ≤ 1) (f t : Nat) (hf : f < 64) :
    ((if popCount (b.checkers T) = 1
        then T.BETWEEN_BB (b.kingSquare_ b.sideToMove_) (lsb (b.checkers T)) ||| b.checkers T
        else ALL).testBit t = true ∧
      ((b.pinnedPieces T b.sideToMove_ (Color.flip b.sideToMove_) (b.kingSquare_ b.sideToMove_)).testBit f
        = true → (T.LINE_BB (b.kingSquare_ b.sideToMove_) f).testBit t = true)) ↔
    (t < 64 ∧
      (∀ q, q < 64 →
          Attacker b.mailbox_ b.occupied_ (Color.flip b.sideToMove_) (b.kingSquare_ b.sideToMove_) q →
            t = q ∨ Between (b.kingSquare_ b.sideToMove_) q t) ∧
      (Pinned b.mailbox_ b.occupied_ b.sideToMove_ (b.kingSquare_ b.sideToMove_) f →
          OnLineOf (b.kingSquare_ b.sideToMove_) f t)) := by
  rw [P.targetMask_iff hn, P.pinned_iff, P.good.line _ _ _ (P.inv.kingLt _ P.rng.side) hf]
  tauto

end

end Board

end chess

/-!
# Geometry of the move patterns
-/

namespace chess

open Tables

theorem knightJump_symm (s t : Nat) : Spec.knightJump s t = Spec.knightJump t s := by
  unfold Spec.knightJump
  rw [Board.dRank_swap s t, Board.dFile_swap s t, Int.natAbs_neg, Int.natAbs_neg]

theorem kingStep_symm (s t : Nat) : Spec.kingStep s t = Spec.kingStep t s := by
  unfold Spec.kingStep
  rw [Board.dRank_swap s t, Board.dFile_swap s t, Int.natAbs_neg, Int.natAbs_neg]
  congr 2
  rw [Bool.eq_iff_iff, bne_iff_ne, bne_iff_ne]
  exact ⟨fun h e => h e.symm, fun h e => h e.symm⟩

theorem negDir_mem_rook {d : Int × Int} (h : d ∈ rookDirs) : negDir d ∈ rookDirs := by
  simp only [rookDirs, List.mem_cons, List.mem_singleton, List.not_mem_nil, or_false] at h ⊢
  rcases h with rfl | rfl | rfl | rfl <;> decide

theorem negDir_mem_bishop {d : Int × Int} (h : d ∈ bishopDirs) : negDir d ∈ bishopDirs := by
  simp only [bishopDirs, List.mem_cons, List.mem_singleton, List.not_mem_nil, or_false] at h ⊢
  rcases h with rfl | rfl | rfl | rfl <;> decide

/-- A slide can be walked backwards. -/
theorem reach_symm {dirs : List (Int × Int)} (hdirs : ∀ d ∈ dirs, IsDir d)
    (hneg : ∀ d ∈ dirs, negDir d ∈ dirs) {s t : Nat} (hs : s < 64) (occ : Bitboard)
    (h : Reach dirs s occ t) : Reach dirs t occ s := by
  rw [reach_iff hdirs hs] at h
  obtain ⟨d, hd, n, hn, ho, ht, hc⟩ := h
  have ht64 : t < 64 := by rw [ht]; exact stepSq_lt ho
  rw [reach_iff hdirs ht64]
  have hb := step_back hs (hdirs d hd) ho (le_refl n)
  rw [Nat.sub_self, stepSq_zero d hs, ← ht] at hb
  refine ⟨negDir d, hneg d hd, n, hn, hb.1, hb.2.symm, ?_⟩
  intro j hj hjn
  have hb2 := step_back hs (hdirs d hd) ho (Nat.le_of_lt hjn)
  rw [← ht] at hb2
  rw [hb2.2]
  exact hc (n - j) (by omega) (by omega)

/-- The squares strictly between the two ends of a slide are not occupied. -/
theorem reach_clear {dirs : List (Int × Int)} (hdirs : ∀ d ∈ dirs, IsDir d) {s t x : Nat}
    (hs : s < 64) {occ : Bitboard} (h : Reach dirs s occ t) (hb : Between s t x) :
    occ.testBit x = false := by
  rw [reach_iff hdirs hs] at h
  obtain ⟨d, hd, n, hn, ho, ht, hc⟩ := h
  obtain ⟨d2, hd2, n2, j, hj, hjn, ho2, ht2, hx⟩ := hb
  obtain ⟨e1, e2⟩ := step_unique (hdirs d hd) hd2 hn (by omega) ho ho2 (ht.symm.trans ht2)
  subst e1 e2
  rw [hx]
  exact hc j hj hjn

theorem kingStep_not_between {s t x : Nat} (h : Spec.kingStep s t = true) (hb : Between s t x) :
    False :=
  @Board.nonSlide_not_between (fun _ => Board.code 0 KING) 0 s t x
    (Or.inr (Or.inr ⟨rfl, h⟩)) hb

theorem knightJump_not_between {s t x : Nat} (h : Spec.knightJump s t = true) (hb : Between s t x) :
    False :=
  @Board.nonSlide_not_between (fun _ => Board.code 0 KNIGHT) 0 s t x
    (Or.inr (Or.inl ⟨rfl, h⟩)) hb

theorem pawnTakes_kingStep {c s t : Nat} (h : Spec.pawnTakes c s t = true) :
    Spec.kingStep s t = true := by
  unfold Spec.pawnTakes Spec.forward at h
  unfold Spec.kingStep
  unfold Spec.dRank Spec.dFile at h ⊢
  rw [rankOf_eq, rankOf_eq, fileOf_eq, fileOf_eq] at h ⊢
  simp only [Bool.and_eq_true, beq_iff_eq, decide_eq_true_eq, bne_iff_ne] at h ⊢
  obtain ⟨h1, h2⟩ := h
  have h3 : ((t / 8 : Nat) : Int) - ((s / 8 : Nat) : Int) = 1 ∨
      ((t / 8 : Nat) : Int) - ((s / 8 : Nat) : Int) = -1 := by
    split at h2
    · exact Or.inl h2
    · exact Or.inr h2
  clear h2
  refine ⟨⟨?_, ?_⟩, ?_⟩
  · intro e; subst e; omega
  · omega
  · omega

/-- A knight that stands on a line through the king leaves that line with every jump. -/
theorem knight_leaves_line {k f t : Nat} (hk : k < 64) (hj : Spec.knightJump f t = true)
    (hl : OnLineOf k f t) : False := by
  obtain ⟨d, hd, n, hn, ho, hf, hx⟩ := hl
  have cf := stepSq_coords ho
  rw [← hf] at cf
  unfold Spec.knightJump Spec.dFile Spec.dRank at hj
  rw [rankOf_eq, rankOf_eq, fileOf_eq, fileOf_eq] at hj
  simp only [Bool.or_eq_true, Bool.and_eq_true, beq_iff_eq] at hj
  rcases hx with hx | ⟨j, hj1, hoj, hx⟩ | ⟨j, hj1, hoj, hx⟩
  · subst hx
    unfold IsDir at hd
    rcases hd with rfl | rfl | rfl | rfl | rfl | rfl | rfl | rfl <;> simp only at cf <;> omega
  · have ct := stepSq_coords hoj
    rw [← hx] at ct
    unfold IsDir at hd
    rcases hd with rfl | rfl | rfl | rfl | rfl | rfl | rfl | rfl <;> simp only at cf ct <;> omega
  · have ct := stepSq_coords hoj
    rw [← hx] at ct
    unfold IsDir at hd
    rcases hd with rfl | rfl | rfl | rfl | rfl | rfl | rfl | rfl <;>
      simp only [negDir, Int.neg_neg, Int.neg_zero] at cf ct <;> omega

end chess

/-!
# Knights, bishops, rooks and queens: the patterns
-/

namespace chess

open Tables

namespace Board

section
variable {T : Lookups} {b : Board}

theorem mem_one_to_seven {n : Nat} : n ∈ [1, 2, 3, 4, 5, 6, 7] ↔ 1 ≤ n ∧ n < 8 := by
  simp only [List.mem_cons, List.mem_singleton, List.not_mem_nil, or_false]
  omega

theorem mem_one_to_six {n : Nat} : n ∈ [1, 2, 3, 4, 5, 6] ↔ 1 ≤ n ∧ n < 7 := by
  simp only [List.mem_cons, List.mem_singleton, List.not_mem_nil, or_false]
  omega

/-- The slides of the reference description are the ray walks over the occupied squares. -/
theorem slides_iff (hi : b.Inv) {dirs : List (Int × Int)} (hdirs : ∀ d ∈ dirs, IsDir d) {s : Nat}
    (hs : s < 64) (t : Nat) : Spec.slides b dirs s t = true ↔ Reach dirs s b.occupied_ t := by
  rw [reach_iff hdirs hs]
  unfold Spec.slides
  simp only [List.any_eq_true, List.all_eq_true, Bool.and_eq_true, Bool.or_eq_true, decide_eq_true_eq,
    beq_iff_eq, emptyAt_iff]
  constructor
  · rintro ⟨d, hd, n, hn, ⟨ho, ht⟩, hc⟩
    rw [mem_one_to_seven] at hn
    refine ⟨d, hd, n, hn.1, ho, ht.symm, fun j hj hjn => ?_⟩
    rcases hc j (mem_one_to_six.2 ⟨hj, by omega⟩) with h | h
    · omega
    · cases hx : b.occupied_.testBit (stepSq s d j)
      · rfl
      · exact absurd h ((hi.occ_iff _).1 hx).2
  · rintro ⟨d, hd, n, hn, ho, ht, hc⟩
    refine ⟨d, hd, n, mem_one_to_seven.2 ⟨hn, stepOn_lt8 hs (hdirs d hd) ho⟩, ⟨ho, ht.symm⟩, fun j hj => ?_⟩
    rw [mem_one_to_six] at hj
    by_cases hjn : n ≤ j
    · exact Or.inl hjn
    · right
      have h1 := hc j hj.1 (by omega)
      have h2 := stepSq_lt (stepOn_mono hs (hdirs d hd) ho (by omega : j ≤ n))
      by_contra hne
      rw [(hi.occ_iff _).2 ⟨h2, hne⟩] at h1
      exact Bool.noConfusion h1

theorem reach_queen (s : Nat) (occ : Bitboard) (t : Nat) :
    Reach Spec.queenDirs s occ t ↔ Reach rookDirs s occ t ∨ Reach bishopDirs s occ t := by
  unfold Reach Spec.queenDirs
  constructor
  · rintro ⟨d, hd, h⟩
    rcases List.mem_append.1 hd with h1 | h1
    · exact Or.inl ⟨d, h1, h⟩
    · exact Or.inr ⟨d, h1, h⟩
  · rintro (⟨d, hd, h⟩ | ⟨d, hd, h⟩)
    · exact ⟨d, List.mem_append.2 (Or.inl hd), h⟩
    · exact ⟨d, List.mem_append.2 (Or.inr hd), h⟩

theorem isDir_of_queen {d : Int × Int} (h : d ∈ Spec.queenDirs) : IsDir d := by
  rcases List.mem_append.1 h with h1 | h1
  · exact isDir_of_rook h1
  · exact isDir_of_bishop h1

theorem reach_lt {dirs : List (Int × Int)} {s t : Nat} {occ : Bitboard} (h : Reach dirs s occ t) :
    t < 64 := by
  obtain ⟨d, _, n, hn, _, ho, _, ht⟩ := h
  rw [ht]; exact stepSq_lt (ho n hn (le_refl n))

/-- The other colour. -/
theorem eq_flip_of_ne {c us : Nat} (hc : c < 2) (hus : us < 2) (h : c ≠ us) : c = Color.flip us := by
  have hc2 : c = 0 ∨ c = 1 := by omega
  have hu2 : us = 0 ∨ us = 1 := by omega
  rcases hc2 with rfl | rfl <;> rcases hu2 with rfl | rfl
  · exact absurd rfl h
  · rfl
  · rfl
  · exact absurd rfl h

/-- A square is empty, holds a piece of the side to move, or holds a piece of the other side. -/
theorem Pos.square_cases (P : Pos T b) {t : Nat} (ht : t < 64) :
    b.mailbox_ t = 0xFF ∨ (∃ pt : Nat, pt < 6 ∧ b.mailbox_ t = code b.sideToMove_ pt) ∨
      ∃ pt : Nat, pt < 6 ∧ b.mailbox_ t = code (Color.flip b.sideToMove_) pt := by
  rcases P.inv.mailbox t ht with h | ⟨c, pt, ⟨hc, hpt⟩, h⟩
  · exact Or.inl h
  · by_cases e : c = b.sideToMove_
    · rw [e] at h; exact Or.inr (Or.inl ⟨pt, hpt, h⟩)
    · rw [eq_flip_of_ne hc P.rng.side e] at h; exact Or.inr (Or.inr ⟨pt, hpt, h⟩)

/-- A square that a piece of the side to move attacks does not hold the enemy king: the side
not to move is not in check. -/
theorem Pos.target_ok (P : Pos T b) {f t : Nat} (hf : f < 64) (ht : t < 64)
    (ha : Attacker b.mailbox_ b.occupied_ b.sideToMove_ t f)
    (hown : ¬ ∃ pt : Nat, pt < 6 ∧ b.mailbox_ t = code b.sideToMove_ pt) :
    TargetOk b (Color.flip b.sideToMove_) t := by
  rcases P.square_cases ht with h | h | ⟨pt, hpt, h⟩
  · exact Or.inl h
  · exact absurd h hown
  · by_cases hk : pt = KING
    · rw [hk] at h
      have := (P.inv.king _ P.them_lt t ht).1 h
      rw [this] at ha
      exact absurd ha (P.safe f hf)
    · refine Or.inr ⟨pt, ?_, h⟩
      have h5 : pt ≠ 5 := hk
      omega

/-- The patterns of the knight, the bishop, the rook and the queen. -/
def Patt (occ : Bitboard) (PT : Nat) (s t : Nat) : Prop :=
  (PT = KNIGHT ∧ Spec.knightJump s t = true) ∨ (PT = BISHOP ∧ Reach bishopDirs s occ t) ∨
  (PT = ROOK ∧ Reach rookDirs s occ t) ∨ (PT = QUEEN ∧ (Reach rookDirs s occ t ∨ Reach bishopDirs s occ t))

/-- The pattern of the reference description. -/
theorem patt_spec (hi : b.Inv) {PT s : Nat} (hs : s < 64) (t : Nat) :
    Patt b.occupied_ PT s t ↔
      ((PT = KNIGHT ∧ Spec.knightJump s t = true) ∨
       (PT = BISHOP ∧ Spec.slides b bishopDirs s t = true) ∨
       (PT = ROOK ∧ Spec.slides b rookDirs s t = true) ∨
       (PT = QUEEN ∧ Spec.slides b Spec.queenDirs s t = true)) := by
  unfold Patt
  rw [slides_iff hi (fun d hd => isDir_of_bishop hd) hs, slides_iff hi (fun d hd => isDir_of_rook hd) hs,
    slides_iff hi (fun d hd => isDir_of_queen hd) hs, reach_queen]

/-- The attack bitboard that `generatePieceMoves` looks up. -/
theorem Pos.attacks_iff (P : Pos T b) {PT : Nat}
    (hPT : PT = KNIGHT ∨ PT = BISHOP ∨ PT = ROOK ∨ PT = QUEEN) {s : Nat} (hs : s < 64) (t : Nat) :
    (if PT = KNIGHT then T.KNIGHT_ATTACKS s
      else if PT = BISHOP then T.bishopAttacks s b.occupied_
      else if PT = ROOK then T.rookAttacks s b.occupied_
      else if PT = QUEEN then T.queenAttacks s b.occupied_
      else 0).testBit t = true ↔ t < 64 ∧ Patt b.occupied_ PT s t := by
  unfold Patt
  have e1 : KNIGHT ≠ BISHOP := by decide
  have e2 : KNIGHT ≠ ROOK := by decide
  have e3 : KNIGHT ≠ QUEEN := by decide
  have e4 : BISHOP ≠ ROOK := by decide
  have e5 : BISHOP ≠ QUEEN := by decide
  have e6 : ROOK ≠ QUEEN := by decide
  rcases hPT with rfl | rfl | rfl | rfl
  · simp only [if_true, true_and, e1, e2, e3, false_and, or_false]
    exact P.good.knight _ _ hs
  · simp only [if_true, true_and, e1.symm, e4, e5, false_and, or_false, false_or, if_false]
    rw [P.good.bishop _ _ _ hs]
    exact ⟨fun h => ⟨reach_lt h, h⟩, fun h => h.2⟩
  · simp only [if_true, true_and, e2.symm, e4.symm, e6, false_and, or_false, false_or, if_false]
    rw [P.good.rook _ _ _ hs]
    exact ⟨fun h => ⟨reach_lt h, h⟩, fun h => h.2⟩
  · simp only [if_true, true_and, e3.symm, e5.symm, e6.symm, false_and, false_or, if_false]
    unfold Lookups.queenAttacks
    rw [Nat.testBit_or, Bool.or_eq_true, P.good.bishop _ _ _ hs, P.good.rook _ _ _ hs]
    constructor
    · rintro (h | h)
      · exact ⟨reach_lt h, Or.inl h⟩
      · exact ⟨reach_lt h, Or.inr h⟩
    · rintro ⟨_, h | h⟩
      · exact Or.inl h
      · exact Or.inr h

/-- A piece that can move to a square by its pattern attacks that square. -/
theorem patt_attacker {mb : Nat → Nat} {occ : Bitboard} {c PT s t : Nat} (hs : s < 64)
    (hm : mb s = code c PT) (h : Patt occ PT s t) : Attacker mb occ c t s := by
  rcases h with ⟨rfl, h⟩ | ⟨rfl, h⟩ | ⟨rfl, h⟩ | ⟨rfl, h | h⟩
  · exact Or.inr (Or.inl ⟨hm, by rw [knightJump_symm]; exact h⟩)
  · exact Or.inr (Or.inr (Or.inr (Or.inr ⟨Or.inl hm,
      reach_symm (fun d hd => isDir_of_bishop hd) (fun d hd => negDir_mem_bishop hd) hs occ h⟩)))
  · exact Or.inr (Or.inr (Or.inr (Or.inl ⟨Or.inl hm,
      reach_symm (fun d hd => isDir_of_rook hd) (fun d hd => negDir_mem_rook hd) hs occ h⟩)))
  · exact Or.inr (Or.inr (Or.inr (Or.inl ⟨Or.inr hm,
      reach_symm (fun d hd => isDir_of_rook hd) (fun d hd => negDir_mem_rook hd) hs occ h⟩)))
  · exact Or.inr (Or.inr (Or.inr (Or.inr ⟨Or.inr hm,
      reach_symm (fun d hd => isDir_of_bishop hd) (fun d hd => negDir_mem_bishop hd) hs occ h⟩)))

/-- The squares that a piece passes on its way are empty. -/
theorem patt_clear (hi : b.Inv) {PT s t : Nat} (hs : s < 64) (h : Patt b.occupied_ PT s t) (x : Nat)
    (hb : Between s t x) : b.mailbox_ x = 0xFF := by
  have key : ∀ dirs : List (Int × Int), (∀ d ∈ dirs, IsDir d) → Reach dirs s b.occupied_ t →
      b.mailbox_ x = 0xFF := by
    intro dirs hd hr
    have h1 := reach_clear hd hs hr hb
    by_contra hne
    rw [(hi.occ_iff x).2 ⟨between_lt hs hb, hne⟩] at h1
    exact Bool.noConfusion h1
  rcases h with ⟨_, h⟩ | ⟨_, h⟩ | ⟨_, h⟩ | ⟨_, h | h⟩
  · exact (knightJump_not_between h hb).elim
  · exact key _ (fun d hd => isDir_of_bishop hd) h
  · exact key _ (fun d hd => isDir_of_rook hd) h
  · exact key _ (fun d hd => isDir_of_rook hd) h
  · exact key _ (fun d hd => isDir_of_bishop hd) h

end

end Board

end chess

/-!
# Knights, bishops, rooks and queens: the generated moves are the legal ones
-/

namespace chess

open Tables

namespace Board

theorem bne_zero_iff {x s : Nat} : ((x &&& squareBB s != 0) = true) ↔ x.testBit s = true := by
  rw [bne_iff_ne]; exact and_squareBB_ne_zero

/-- The target squares of one piece, bit by bit. -/
theorem pieceTargets_iff (T : Lookups) (b : Board) (PT src us ksq : Nat) (pinned tm : Bitboard)
    (t : Nat) :
    (pieceTargets T b PT src us ksq pinned tm).testBit t = true ↔
      (¬ (PT = KNIGHT ∧ pinned.testBit src = true) ∧
        (if PT = KNIGHT then T.KNIGHT_ATTACKS src
          else if PT = BISHOP then T.bishopAttacks src b.occupied_
          else if PT = ROOK then T.rookAttacks src b.occupied_
          else if PT = QUEEN then T.queenAttacks src b.occupied_
          else 0).testBit t = true ∧
        (t < 64 ∧ (b.byColor_ us).testBit t = false) ∧ tm.testBit t = true ∧
        (pinned.testBit src = true → (T.LINE_BB ksq src).testBit t = true)) := by
  unfold pieceTargets
  simp only [bne_zero_iff]
  by_cases h1 : PT = KNIGHT ∧ pinned.testBit src = true
  · rw [if_pos h1]
    simp only [Nat.zero_testBit, Bool.false_eq_true, false_iff]
    exact fun h => h.1 h1
  · rw [if_neg h1]
    by_cases h2 : pinned.testBit src = true
    · rw [if_pos h2]
      simp only [Nat.testBit_and, Bool.and_eq_true, testBit_bnot, decide_eq_true_eq,
        Bool.not_eq_true_eq_eq_false]
      tauto
    · rw [if_neg h2]
      simp only [Nat.testBit_and, Bool.and_eq_true, testBit_bnot, decide_eq_true_eq,
        Bool.not_eq_true_eq_eq_false]
      tauto

section
variable {T : Lookups} {b : Board}

theorem Pos.not_own_iff (P : Pos T b) (t : Nat) (ht : t < 64) :
    (b.byColor_ b.sideToMove_).testBit t = false ↔
      ¬ ∃ pt : Nat, pt < 6 ∧ b.mailbox_ t = code b.sideToMove_ pt := by
  rw [← Bool.not_eq_true, P.inv.own_iff P.rng.side]
  exact ⟨fun h h2 => h ⟨ht, h2⟩, fun h h2 => h h2.2⟩

/-- A normal move of a knight, bishop, rook or queen along its pattern is safe for the king
exactly when it answers every check and respects the pin. -/
theorem Pos.piece_safe (P : Pos T b) (Z : ZobristKeys) {m : Move} {PT : Nat}
    (hPT : PT = KNIGHT ∨ PT = BISHOP ∨ PT = ROOK ∨ PT = QUEEN) (ht : m.type = MT_NORMAL)
    (hs : b.mailbox_ m.src = code b.sideToMove_ PT) (hp : Patt b.occupied_ PT m.src m.dst)
    (hown : ¬ ∃ pt : Nat, pt < 6 ∧ b.mailbox_ m.dst = code b.sideToMove_ pt) :
    MoveOk b m ∧ (Spec.kingSafeAfter T Z b m = true ↔
      ((∀ q, q < 64 →
          Attacker b.mailbox_ b.occupied_ (Color.flip b.sideToMove_) (b.kingSquare_ b.sideToMove_) q →
            m.dst = q ∨ Between (b.kingSquare_ b.sideToMove_) q m.dst) ∧
       (Pinned b.mailbox_ b.occupied_ b.sideToMove_ (b.kingSquare_ b.sideToMove_) m.src →
          OnLineOf (b.kingSquare_ b.sideToMove_) m.src m.dst))) := by
  have hpt : PT < 6 := by rcases hPT with rfl | rfl | rfl | rfl <;> decide
  have hk : PT ≠ KING := by rcases hPT with rfl | rfl | rfl | rfl <;> decide
  have hd := P.target_ok m.src_lt m.dst_lt (patt_attacker m.src_lt hs hp) hown
  have hok : MoveOk b m := MoveOk.normal PT hpt ht hs hd
  have A := after_normal P.inv rfl ⟨P.rng.side, hpt⟩ ht hs hd
  rw [if_neg hk] at A
  exact ⟨hok, step_safe P Z hok hpt hk hpt hs hd (patt_clear P.inv m.src_lt hp) A⟩

/-- The moves that `generatePieceMoves` emits for knights, bishops, rooks or queens. -/
theorem Pos.piece_part_iff (P : Pos T b) (Z : ZobristKeys) (hn : popCount (b.checkers T) ≤ 1)
    {PT : Nat} (hPT : PT = KNIGHT ∨ PT = BISHOP ∨ PT = ROOK ∨ PT = QUEEN) (m : Move) :
    m ∈ (bitsOf (b.pieces_ b.sideToMove_ PT)).flatMap (fun src =>
        (bitsOf (pieceTargets T b PT src b.sideToMove_ (b.kingSquare_ b.sideToMove_)
          (b.pinnedPieces T b.sideToMove_ (Color.flip b.sideToMove_) (b.kingSquare_ b.sideToMove_))
          (if popCount (b.checkers T) = 1
            then T.BETWEEN_BB (b.kingSquare_ b.sideToMove_) (lsb (b.checkers T)) ||| b.checkers T
            else ALL))).map (Move.normal src)) ↔
      (m.type = MT_NORMAL ∧ m = Move.normal m.src m.dst ∧
        b.mailbox_ m.src = code b.sideToMove_ PT ∧ Patt b.occupied_ PT m.src m.dst ∧
        (¬ ∃ pt : Nat, pt < 6 ∧ b.mailbox_ m.dst = code b.sideToMove_ pt) ∧
        Spec.kingSafeAfter T Z b m = true) := by
  have hpt : PT < 6 := by rcases hPT with rfl | rfl | rfl | rfl <;> decide
  have hk := P.inv.kingLt _ P.rng.side
  rw [List.mem_flatMap]
  constructor
  · rintro ⟨src, hsrc, hm⟩
    rw [mem_bitsOf, P.inv.piece_iff P.rng.side hpt] at hsrc
    obtain ⟨hs64, _, hs⟩ := hsrc
    rw [List.mem_map] at hm
    obtain ⟨dst, hdst, rfl⟩ := hm
    rw [mem_bitsOf, pieceTargets_iff] at hdst
    obtain ⟨hd64, hkn, hatt, ⟨_, hown⟩, htm, hpin⟩ := hdst
    obtain ⟨f1, f2, f3⟩ := Move.normal_fields hs64 hd64
    rw [f1, f2]
    rw [P.attacks_iff hPT hs64] at hatt
    rw [P.not_own_iff dst hd64] at hown
    have hm : (Move.normal src dst).src = src := f1
    have key := P.piece_safe Z hPT f3 (by rw [f1]; exact hs) (by rw [f1, f2]; exact hatt.2)
      (by rw [f2]; exact hown)
    rw [f1, f2] at key
    refine ⟨f3, rfl, hs, hatt.2, hown, key.2.2 ?_⟩
    exact ((P.filters_iff hn src dst hs64).1 ⟨htm, hpin⟩).2
  · rintro ⟨ht, hm, hs, hp, hown, hsafe⟩
    have key := P.piece_safe Z hPT ht hs hp hown
    have hC := key.2.1 hsafe
    refine ⟨m.src, ?_, ?_⟩
    · rw [mem_bitsOf, P.inv.piece_iff P.rng.side hpt]
      exact ⟨m.src_lt, m.src_lt, hs⟩
    · rw [List.mem_map]
      refine ⟨m.dst, ?_, hm.symm⟩
      rw [mem_bitsOf, pieceTargets_iff, P.attacks_iff hPT m.src_lt, P.not_own_iff _ m.dst_lt]
      have hf := (P.filters_iff hn m.src m.dst m.src_lt).2 ⟨m.dst_lt, hC⟩
      refine ⟨m.dst_lt, ?_, ⟨m.dst_lt, hp⟩, ⟨m.dst_lt, hown⟩, hf.1, hf.2⟩
      rintro ⟨rfl, hpinned⟩
      rcases hp with ⟨_, hj⟩ | ⟨e, _⟩ | ⟨e, _⟩ | ⟨e, _⟩
      · exact knight_leaves_line hk hj (hC.2 ((P.pinned_iff _).1 hpinned))
      · exact absurd e (by decide)
      · exact absurd e (by decide)
      · exact absurd e (by decide)

/-- A piece that is not the king has a safe move only when there is at most one check. -/
theorem Pos.piece_needs_one (P : Pos T b) (Z : ZobristKeys) {m : Move} {PT : Nat}
    (hPT : PT = KNIGHT ∨ PT = BISHOP ∨ PT = ROOK ∨ PT = QUEEN) (ht : m.type = MT_NORMAL)
    (hs : b.mailbox_ m.src = code b.sideToMove_ PT) (hp : Patt b.occupied_ PT m.src m.dst)
    (hown : ¬ ∃ pt : Nat, pt < 6 ∧ b.mailbox_ m.dst = code b.sideToMove_ pt)
    (hsafe : Spec.kingSafeAfter T Z b m = true) : popCount (b.checkers T) ≤ 1 :=
  P.one_checker (((P.piece_safe Z hPT ht hs hp hown).2.1 hsafe).1)

end

end Board

end chess

/-!
# The king: the generated moves are the legal ones
-/

namespace chess

open Tables

namespace Board

/-- No piece attacks the square it stands on. -/
theorem attacker_self {mb : Nat → Nat} {occ : Bitboard} {c t : Nat} (ht : t < 64)
    (h : Attacker mb occ c t t) : False := by
  have h1 : Spec.pawnTakes c t t = false := by
    unfold Spec.pawnTakes Spec.dFile
    simp
  have h2 : Spec.knightJump t t = false := by
    unfold Spec.knightJump Spec.dFile Spec.dRank
    simp
  have h3 : Spec.kingStep t t = false := by
    unfold Spec.kingStep
    simp
  have h4 : ∀ dirs : List (Int × Int), (∀ d ∈ dirs, IsDir d) → ¬ Reach dirs t occ t := by
    intro dirs hd hr
    rw [reach_iff hd ht] at hr
    obtain ⟨d, hdd, n, hn, ho, e, _⟩ := hr
    exact stepSq_ne (hd d hdd) hn ho e.symm
  rcases h with ⟨_, h⟩ | ⟨_, h⟩ | ⟨_, h⟩ | ⟨_, h⟩ | ⟨_, h⟩
  · rw [h1] at h; exact Bool.noConfusion h
  · rw [h2] at h; exact Bool.noConfusion h
  · rw [h3] at h; exact Bool.noConfusion h
  · exact h4 _ (fun d hd => isDir_of_rook hd) h
  · exact h4 _ (fun d hd => isDir_of_bishop hd) h

/-- Whether a piece attacks depends on the mailbox only at the square of the piece. -/
theorem attacker_congr {mb mb2 : Nat → Nat} {occ : Bitboard} {c sq q : Nat}
    (h : ∀ X : Nat, X < 6 → (mb2 q = code c X ↔ mb q = code c X)) :
    Attacker mb2 occ c sq q ↔ Attacker mb occ c sq q := by
  unfold Attacker
  rw [h PAWN (by decide), h KNIGHT (by decide), h KING (by decide), h ROOK (by decide),
    h QUEEN (by decide), h BISHOP (by decide)]

section
variable {T : Lookups} {b : Board}

/-- The occupied squares that the generator passes to `attackersTo` for a king move are the
occupied squares after the move. -/
theorem Pos.king_newOcc (P : Pos T b) {t : Nat} (ht : t < 64)
    (hne : t ≠ b.kingSquare_ b.sideToMove_) (x : Nat) :
    ((b.occupied_ ^^^ squareBB (b.kingSquare_ b.sideToMove_)) ||| squareBB t).testBit x = true ↔
      x < 64 ∧ setAt (setAt b.mailbox_ (b.kingSquare_ b.sideToMove_) 0xFF) t
        (code b.sideToMove_ KING) x ≠ 0xFF := by
  have hk := P.scene.king
  have hk64 := P.scene.k_lt
  rw [Nat.testBit_or, Nat.testBit_xor, testBit_squareBB, testBit_squareBB]
  by_cases e1 : x = t
  · subst e1
    rw [setAt_same]
    simp only [decide_True, Bool.or_true, true_iff]
    exact ⟨ht, code_ne_empty ⟨P.rng.side, by decide⟩⟩
  · rw [setAt_other _ _ e1]
    have e1b : ¬ t = x := fun e => e1 e.symm
    by_cases e2 : x = b.kingSquare_ b.sideToMove_
    · subst e2
      rw [setAt_same, (P.inv.occ_iff _).2 ⟨hk64, by rw [hk]; exact code_ne_empty ⟨P.rng.side, by decide⟩⟩]
      simp [e1b]
    · rw [setAt_other _ _ e2]
      have e2b : ¬ b.kingSquare_ b.sideToMove_ = x := fun e => e2 e.symm
      simp only [e1b, e2b, decide_False, Bool.xor_false, Bool.or_false]
      exact P.inv.occ_iff x

/-- A step of the king onto a square not held by an own piece is safe exactly when no enemy
piece attacks the target square once the king has left its square. -/
theorem Pos.king_safe (P : Pos T b) (Z : ZobristKeys) {m : Move} (ht : m.type = MT_NORMAL)
    (hs : m.src = b.kingSquare_ b.sideToMove_) (hp : Spec.kingStep m.src m.dst = true)
    (hown : ¬ ∃ pt : Nat, pt < 6 ∧ b.mailbox_ m.dst = code b.sideToMove_ pt) :
    MoveOk b m ∧ (Spec.kingSafeAfter T Z b m = true ↔
      b.attackersTo T m.dst ((b.occupied_ ^^^ squareBB m.src) ||| squareBB m.dst)
        (Color.flip b.sideToMove_) = 0) := by
  have hk := P.scene.king
  have hus := P.rng.side
  have hsm : b.mailbox_ m.src = code b.sideToMove_ KING := by rw [hs]; exact hk
  have hd := P.target_ok m.src_lt m.dst_lt
    (Or.inr (Or.inr (Or.inl ⟨hsm, by rw [kingStep_symm]; exact hp⟩))) hown
  have hok : MoveOk b m := MoveOk.normal KING (by decide) ht hsm hd
  have A := after_normal P.inv rfl ⟨hus, by decide⟩ ht hsm hd
  rw [if_pos rfl] at A
  refine ⟨hok, ?_⟩
  rw [safeAfter_iff P Z hok A, setAt_same]
  have hne : m.dst ≠ m.src := by
    intro e
    rw [e] at hp
    unfold Spec.kingStep at hp
    simp at hp
  have hocc : (b.applyPieces m).occupied_ = (b.occupied_ ^^^ squareBB m.src) ||| squareBB m.dst := by
    apply Nat.eq_of_testBit_eq
    intro x
    rw [Bool.eq_iff_iff, A.newOcc_iff, hs, P.king_newOcc m.dst_lt (by rw [← hs]; exact hne), ← hs]
  rw [hocc]
  have hz : b.attackersTo T m.dst ((b.occupied_ ^^^ squareBB m.src) ||| squareBB m.dst)
      (Color.flip b.sideToMove_) = 0 ↔
      ¬ ∃ q, q < 64 ∧ Attacker b.mailbox_ ((b.occupied_ ^^^ squareBB m.src) ||| squareBB m.dst)
        (Color.flip b.sideToMove_) m.dst q := by
    rw [← not_iff_not, not_not, ← ne_eq, ne_zero_iff_exists]
    constructor
    · rintro ⟨q, hq⟩; exact ⟨q, (testBit_attackersTo P.good P.inv P.them_lt m.dst_lt _ q).1 hq⟩
    · rintro ⟨q, hq⟩; exact ⟨q, (testBit_attackersTo P.good P.inv P.them_lt m.dst_lt _ q).2 hq⟩
  rw [hz, not_iff_not]
  have key : ∀ q, Attacker (setAt (setAt b.mailbox_ m.src 0xFF) m.dst (code b.sideToMove_ KING))
      ((b.occupied_ ^^^ squareBB m.src) ||| squareBB m.dst) (Color.flip b.sideToMove_) m.dst q ↔
      Attacker b.mailbox_ ((b.occupied_ ^^^ squareBB m.src) ||| squareBB m.dst)
        (Color.flip b.sideToMove_) m.dst q := by
    intro q
    by_cases e1 : q = m.dst
    · subst e1
      exact ⟨fun h => (attacker_self m.dst_lt h).elim, fun h => (attacker_self m.dst_lt h).elim⟩
    · apply attacker_congr
      intro X hX
      rw [setAt_other _ _ e1]
      by_cases e2 : q = m.src
      · subst e2
        rw [setAt_same, hsm]
        constructor
        · intro h; exact absurd h.symm (code_ne_empty ⟨P.them_lt, hX⟩)
        · intro h
          exact absurd (code_inj ⟨hus, by decide⟩ ⟨P.them_lt, hX⟩ h).1.symm (flip_ne hus)
      · rw [setAt_other _ _ e2]
  constructor
  · rintro ⟨q, hq, h⟩; exact ⟨q, hq, (key q).1 h⟩
  · rintro ⟨q, hq, h⟩; exact ⟨q, hq, (key q).2 h⟩

/-- The moves that `generateKingMoves` emits. -/
theorem Pos.king_part_iff (P : Pos T b) (Z : ZobristKeys) (m : Move) :
    m ∈ b.generateKingMoves T b.sideToMove_ (Color.flip b.sideToMove_) (b.kingSquare_ b.sideToMove_) ↔
      (m.type = MT_NORMAL ∧ m = Move.normal m.src m.dst ∧
        b.mailbox_ m.src = code b.sideToMove_ KING ∧ Spec.kingStep m.src m.dst = true ∧
        (¬ ∃ pt : Nat, pt < 6 ∧ b.mailbox_ m.dst = code b.sideToMove_ pt) ∧
        Spec.kingSafeAfter T Z b m = true) := by
  have hk64 := P.scene.k_lt
  rw [generateKingMoves_eq, List.mem_flatMap]
  constructor
  · rintro ⟨dst, hdst, hm⟩
    rw [mem_bitsOf, Nat.testBit_and, Bool.and_eq_true, P.good.king _ _ hk64, testBit_bnot,
      Bool.and_eq_true, decide_eq_true_eq, Bool.not_eq_true_eq_eq_false, P.not_own_iff _ hdst.1] at hdst
    obtain ⟨hd64, ⟨_, hstep⟩, _, hown⟩ := hdst
    obtain ⟨f1, f2, f3⟩ := Move.normal_fields hk64 hd64
    by_cases hz : b.attackersTo T dst ((b.occupied_ ^^^ squareBB (b.kingSquare_ b.sideToMove_)) |||
        squareBB dst) (Color.flip b.sideToMove_) = 0
    · rw [if_pos hz, List.mem_singleton] at hm
      subst hm
      have key := P.king_safe Z f3 f1 (by rw [f1, f2]; exact hstep) (by rw [f2]; exact hown)
      rw [f1, f2] at key ⊢
      exact ⟨f3, rfl, P.scene.king, hstep, hown, key.2.2 hz⟩
    · rw [if_neg hz] at hm
      exact absurd hm (List.not_mem_nil _)
  · rintro ⟨ht, hm, hs, hp, hown, hsafe⟩
    have hsk : m.src = b.kingSquare_ b.sideToMove_ := (P.inv.king _ P.rng.side _ m.src_lt).1 hs
    have key := P.king_safe Z ht hsk hp hown
    have hz := key.2.1 hsafe
    rw [hsk] at hz hp
    refine ⟨m.dst, ?_, ?_⟩
    · rw [mem_bitsOf, Nat.testBit_and, Bool.and_eq_true, P.good.king _ _ hk64, testBit_bnot,
        Bool.and_eq_true, decide_eq_true_eq, Bool.not_eq_true_eq_eq_false, P.not_own_iff _ m.dst_lt]
      exact ⟨m.dst_lt, ⟨m.dst_lt, hp⟩, m.dst_lt, hown⟩
    · rw [if_pos hz, List.mem_singleton, ← hsk]
      exact hm

end

end Board

end chess

/-!
# Geometry of the pawn moves
-/

namespace chess

open Tables

/-- The step of a pawn in squares, as in `generatePawnMoves`. -/
def fwd8 (us : Color) : Int := if us = WHITE then 8 else -8

/-- The square in front of a pawn that is not on its last rank. -/
theorem push_square {us s : Nat} (hus : us < 2) (hs : s < 64) (hr : rankOf s ≠ Spec.lastRank us) :
    ((s : Int) + fwd8 us).toNat < 64 ∧ ((((s : Int) + fwd8 us).toNat : Nat) : Int) = (s : Int) + fwd8 us ∧
    (rankOf ((s : Int) + fwd8 us).toNat = Spec.lastRank us ↔ rankOf s = (if us = WHITE then 6 else 1)) ∧
    ∀ t, t < 64 → ((Spec.dFile s t = 0 ∧ Spec.dRank s t = Spec.forward us) ↔
      t = ((s : Int) + fwd8 us).toNat) := by
  have h2 : us = 0 ∨ us = 1 := by omega
  unfold Spec.dFile Spec.dRank
  simp only [rankOf_eq, fileOf_eq] at hr ⊢
  rcases h2 with rfl | rfl
  · have e1 : fwd8 0 = 8 := rfl
    have e2 : Spec.forward 0 = 1 := rfl
    have e3 : Spec.lastRank 0 = 7 := rfl
    have e4 : (if (0 : Nat) = WHITE then 6 else 1) = 6 := rfl
    rw [e3] at hr
    rw [e1, e2, e3, e4]
    refine ⟨by omega, by omega, by omega, fun t ht => by omega⟩
  · have e1 : fwd8 1 = -8 := rfl
    have e2 : Spec.forward 1 = -1 := rfl
    have e3 : Spec.lastRank 1 = 0 := rfl
    have e4 : (if (1 : Nat) = WHITE then 6 else 1) = 1 := rfl
    rw [e3] at hr
    rw [e1, e2, e3, e4]
    refine ⟨by omega, by omega, by omega, fun t ht => by omega⟩

/-- The square two steps in front of a pawn on its starting rank. -/
theorem double_square {us s : Nat} (hus : us < 2) (hs : s < 64)
    (hr : rankOf s = (if us = WHITE then 1 else 6)) :
    (((((s : Int) + fwd8 us).toNat : Nat) : Int) + fwd8 us).toNat < 64 ∧
    (s + (((((s : Int) + fwd8 us).toNat : Nat) : Int) + fwd8 us).toNat) / 2 = ((s : Int) + fwd8 us).toNat ∧
    rankOf (((((s : Int) + fwd8 us).toNat : Nat) : Int) + fwd8 us).toNat ≠ Spec.lastRank us ∧
    ∀ t, t < 64 → ((Spec.dFile s t = 0 ∧ Spec.dRank s t = 2 * Spec.forward us) ↔
      t = (((((s : Int) + fwd8 us).toNat : Nat) : Int) + fwd8 us).toNat) := by
  have h2 : us = 0 ∨ us = 1 := by omega
  unfold Spec.dFile Spec.dRank
  simp only [rankOf_eq, fileOf_eq] at hr ⊢
  rcases h2 with rfl | rfl
  · have e1 : fwd8 0 = 8 := rfl
    have e2 : Spec.forward 0 = 1 := rfl
    have e3 : Spec.lastRank 0 = 7 := rfl
    have e4 : (if (0 : Nat) = WHITE then 1 else 6) = 1 := rfl
    rw [e4] at hr
    rw [e1, e2, e3]
    refine ⟨by omega, by omega, by omega, fun t ht => by omega⟩
  · have e1 : fwd8 1 = -8 := rfl
    have e2 : Spec.forward 1 = -1 := rfl
    have e3 : Spec.lastRank 1 = 0 := rfl
    have e4 : (if (1 : Nat) = WHITE then 1 else 6) = 6 := rfl
    rw [e4] at hr
    rw [e1, e2, e3]
    refine ⟨by omega, by omega, by omega, fun t ht => by omega⟩

/-- A double push starts on the starting rank only: the rank condition of the reference
description, for use with `double_square`. -/
theorem startRank_eq (us : Nat) : Spec.startRank us = (if us = WHITE then 1 else 6) := rfl

/-- A single push is a king step. -/
theorem push_kingStep {us s t : Nat} (hus : us < 2) (h1 : Spec.dFile s t = 0)
    (h2 : Spec.dRank s t = Spec.forward us) : Spec.kingStep s t = true := by
  have hc : us = 0 ∨ us = 1 := by omega
  unfold Spec.kingStep
  unfold Spec.dFile at h1 ⊢
  unfold Spec.dRank at h2 ⊢
  simp only [rankOf_eq, fileOf_eq, Bool.and_eq_true, decide_eq_true_eq, bne_iff_ne] at h1 h2 ⊢
  have h3 : ((t / 8 : Nat) : Int) - ((s / 8 : Nat) : Int) = 1 ∨
      ((t / 8 : Nat) : Int) - ((s / 8 : Nat) : Int) = -1 := by
    rcases hc with rfl | rfl
    · exact Or.inl h2
    · exact Or.inr h2
  clear h2
  refine ⟨⟨?_, ?_⟩, ?_⟩
  · intro e; subst e; omega
  · omega
  · omega

/-- The only square between the two ends of a double push is the square in the middle. -/
theorem double_between {us s t x : Nat} (hus : us < 2) (hs : s < 64) (h1 : Spec.dFile s t = 0)
    (h2 : Spec.dRank s t = 2 * Spec.forward us) (hb : Between s t x) : x = (s + t) / 2 := by
  have hc : us = 0 ∨ us = 1 := by omega
  obtain ⟨d, hd, n, j, hj, hjn, ho, ht, hx⟩ := hb
  have ct := stepSq_coords ho
  rw [← ht] at ct
  have cx := stepSq_cast (stepOn_mono hs hd ho (Nat.le_of_lt hjn))
  rw [← hx] at cx
  unfold Spec.dFile at h1
  unfold Spec.dRank at h2
  simp only [rankOf_eq, fileOf_eq] at h1 h2
  have h3 : ((t / 8 : Nat) : Int) - ((s / 8 : Nat) : Int) = 2 ∨
      ((t / 8 : Nat) : Int) - ((s / 8 : Nat) : Int) = -2 := by
    rcases hc with rfl | rfl
    · exact Or.inl h2
    · exact Or.inr h2
  clear h2
  rw [stepOn_iff] at ho
  unfold IsDir at hd
  rcases hd with rfl | rfl | rfl | rfl | rfl | rfl | rfl | rfl <;> simp only at ct cx ho <;> omega

/-- The squares of a line in coordinates: the line through `a` and `b` consists of the squares
`a + j * d` for the direction `d` from `a` to `b` and whole numbers `j`. -/
theorem onLineOf_iff {a b x : Nat} (ha : a < 64) (hx : x < 64) :
    OnLineOf a b x ↔ ∃ d, IsDir d ∧ ∃ n, 1 ≤ n ∧ stepOn a d n = true ∧ b = stepSq a d n ∧
      ∃ j : Int, ((x / 8 : Nat) : Int) = ((a / 8 : Nat) : Int) + d.1 * j ∧
        ((x % 8 : Nat) : Int) = ((a % 8 : Nat) : Int) + d.2 * j := by
  unfold OnLineOf
  constructor
  · rintro ⟨d, hd, n, hn, ho, hb, h⟩
    refine ⟨d, hd, n, hn, ho, hb, ?_⟩
    rcases h with rfl | ⟨j, _, hoj, rfl⟩ | ⟨j, _, hoj, rfl⟩
    · exact ⟨0, by omega, by omega⟩
    · exact ⟨(j : Int), (stepSq_coords hoj).1, (stepSq_coords hoj).2⟩
    · refine ⟨-(j : Int), ?_, ?_⟩
      · rw [(stepSq_coords hoj).1]; simp only [negDir]; ring
      · rw [(stepSq_coords hoj).2]; simp only [negDir]; ring
  · rintro ⟨d, hd, n, hn, ho, hb, j, h1, h2⟩
    refine ⟨d, hd, n, hn, ho, hb, ?_⟩
    rcases lt_trichotomy j 0 with hj | hj | hj
    · right; right
      obtain ⟨J, hJ⟩ : ∃ J : Nat, (J : Int) = -j := ⟨(-j).toNat, Int.toNat_of_nonneg (by omega)⟩
      have n1 : (negDir d).1 * (J : Int) = d.1 * j := by simp only [negDir]; rw [hJ]; ring
      have n2 : (negDir d).2 * (J : Int) = d.2 * j := by simp only [negDir]; rw [hJ]; ring
      have hoj : stepOn a (negDir d) J = true := by
        rw [stepOn_iff, n1, n2]
        omega
      refine ⟨J, by omega, hoj, ?_⟩
      have c := stepSq_cast hoj
      rw [n1, n2] at c
      omega
    · left
      subst hj
      omega
    · right; left
      obtain ⟨J, hJ⟩ : ∃ J : Nat, (J : Int) = j := ⟨j.toNat, Int.toNat_of_nonneg (by omega)⟩
      subst hJ
      have hoj : stepOn a d J = true := by
        rw [stepOn_iff]
        omega
      refine ⟨J, by omega, hoj, ?_⟩
      have c := stepSq_cast hoj
      omega

/-- A pawn that may advance two squares along a pin line may advance one square along it. -/
theorem line_double {us k f t : Nat} (hus : us < 2) (hk : k < 64) (hf : f < 64) (ht : t < 64)
    (h1 : Spec.dFile f t = 0) (h2 : Spec.dRank f t = 2 * Spec.forward us) (hl : OnLineOf k f t) :
    OnLineOf k f ((f + t) / 2) := by
  have hc : us = 0 ∨ us = 1 := by omega
  have hm : (f + t) / 2 < 64 := by omega
  rw [onLineOf_iff hk ht] at hl
  rw [onLineOf_iff hk hm]
  obtain ⟨d, hd, n, hn, ho, hb, j, c1, c2⟩ := hl
  have cf := stepSq_coords ho
  rw [← hb] at cf
  unfold Spec.dFile at h1
  unfold Spec.dRank at h2
  simp only [rankOf_eq, fileOf_eq] at h1 h2
  have h3 : (((t / 8 : Nat) : Int) - ((f / 8 : Nat) : Int) = 2 ∧ (t : Int) = f + 16) ∨
      (((t / 8 : Nat) : Int) - ((f / 8 : Nat) : Int) = -2 ∧ (t : Int) = f - 16) := by
    rcases hc with rfl | rfl
    · left
      have e2 : Spec.forward 0 = 1 := rfl
      rw [e2] at h2
      omega
    · right
      have e2 : Spec.forward 1 = -1 := rfl
      rw [e2] at h2
      omega
  clear h2
  refine ⟨d, hd, n, hn, ho, hb, ?_⟩
  unfold IsDir at hd
  rcases hd with rfl | rfl | rfl | rfl | rfl | rfl | rfl | rfl <;> simp only at cf c1 c2 ⊢
  · rcases h3 with h3 | h3
    · exact ⟨(n : Int) + 1, by omega, by omega⟩
    · exact ⟨(n : Int) - 1, by omega, by omega⟩
  · rcases h3 with h3 | h3
    · exact ⟨(n : Int) - 1, by omega, by omega⟩
    · exact ⟨(n : Int) + 1, by omega, by omega⟩
  all_goals exfalso; omega

end chess

/-!
# Pawns: pushes, captures and promotions
-/

namespace chess

open Tables

namespace Board

/-- The pattern of a pawn move in the reference description. -/
def PawnPat (b : Board) (us s t : Nat) : Prop :=
  Spec.pawnPush b us s t = true ∨ Spec.pawnDoublePush b us s t = true ∨
  (Spec.pawnTakes us s t = true ∧ Spec.colorIs b t (Color.flip us) = true)

/-- The form of a pawn move: a normal move that does not reach the last rank, or one of the
four promotions on the last rank. -/
def PawnForm (us : Nat) (m : Move) : Prop :=
  (m.type = MT_NORMAL ∧ m = Move.normal m.src m.dst ∧ rankOf m.dst ≠ Spec.lastRank us) ∨
  (m.type = MT_PROMOTION ∧
    (m = Move.make m.src m.dst MT_PROMOTION QUEEN ∨ m = Move.make m.src m.dst MT_PROMOTION ROOK ∨
     m = Move.make m.src m.dst MT_PROMOTION BISHOP ∨ m = Move.make m.src m.dst MT_PROMOTION KNIGHT) ∧
    rankOf m.dst = Spec.lastRank us)

theorem lastRank_table : [0, 1].all (fun c => sq64.all (fun s =>
    (lastRankBB c).testBit s == decide (rankOf s = Spec.lastRank c))) = true := by decide!

theorem testBit_lastRankBB {us s : Nat} (hus : us < 2) (hs : s < 64) :
    (lastRankBB us).testBit s = true ↔ rankOf s = Spec.lastRank us := by
  have h := lastRank_table
  rw [List.all_eq_true] at h
  have h1 := h us (by
    have : us = 0 ∨ us = 1 := by omega
    rcases this with rfl | rfl <;> simp)
  rw [List.all_eq_true] at h1
  have h2 := h1 s (mem_sq64.2 hs)
  rw [beq_iff_eq] at h2
  rw [h2, decide_eq_true_eq]

theorem pushPat_iff (b : Board) (us s t : Nat) :
    Spec.pawnPush b us s t = true ↔
      (Spec.dFile s t = 0 ∧ Spec.dRank s t = Spec.forward us) ∧ b.mailbox_ t = 0xFF := by
  unfold Spec.pawnPush
  simp only [Bool.and_eq_true, beq_iff_eq, emptyAt_iff]

theorem doublePat_iff (b : Board) (us s t : Nat) :
    Spec.pawnDoublePush b us s t = true ↔
      rankOf s = Spec.startRank us ∧ (Spec.dFile s t = 0 ∧ Spec.dRank s t = 2 * Spec.forward us) ∧
        b.mailbox_ ((s + t) / 2) = 0xFF ∧ b.mailbox_ t = 0xFF := by
  unfold Spec.pawnDoublePush
  simp only [Bool.and_eq_true, beq_iff_eq, emptyAt_iff]
  tauto

/-- A pawn reaches the last rank from the rank before it. -/
theorem rank_of_forward {us s t : Nat} (hus : us < 2) (h : Spec.dRank s t = Spec.forward us) :
    rankOf t = Spec.lastRank us ↔ rankOf s = (if us = WHITE then 6 else 1) := by
  have hc : us = 0 ∨ us = 1 := by omega
  unfold Spec.dRank at h
  have h7 : rankOf t < 8 ∨ 8 ≤ rankOf t := by omega
  rcases hc with rfl | rfl
  · have e2 : Spec.forward 0 = 1 := rfl
    have e3 : Spec.lastRank 0 = 7 := rfl
    have e4 : (if (0 : Nat) = WHITE then 6 else 1) = 6 := rfl
    rw [e2] at h
    rw [e3, e4]
    omega
  · have e2 : Spec.forward 1 = -1 := rfl
    have e3 : Spec.lastRank 1 = 0 := rfl
    have e4 : (if (1 : Nat) = WHITE then 6 else 1) = 1 := rfl
    rw [e2] at h
    rw [e3, e4]
    omega

theorem takes_rank {us s t : Nat} (h : Spec.pawnTakes us s t = true) :
    Spec.dRank s t = Spec.forward us := by
  unfold Spec.pawnTakes at h
  rw [Bool.and_eq_true, beq_iff_eq, beq_iff_eq] at h
  exact h.2

section
variable {T : Lookups} {b : Board}

/-- No pawn of the side to move stands on its last rank. -/
theorem Pos.pawn_rank (P : Pos T b) (hp : b.okPawns = true) {s : Nat} (hs : s < 64)
    (hm : b.mailbox_ s = code b.sideToMove_ PAWN) : rankOf s ≠ Spec.lastRank b.sideToMove_ := by
  unfold okPawns at hp
  rw [beq_iff_eq, and_eq_zero_iff] at hp
  intro hr
  exact hp s ⟨(P.inv.piece_iff P.rng.side (by decide) s).2 ⟨hs, hm⟩,
    (testBit_lastRankBB P.rng.side hs).2 hr⟩

theorem enemy_not_own {us t : Nat} (hus : us < 2) {mb : Nat → Nat}
    (h : ∃ pt : Nat, pt < 6 ∧ mb t = code (Color.flip us) pt) :
    ¬ ∃ pt : Nat, pt < 6 ∧ mb t = code us pt := by
  obtain ⟨pt, hpt, e⟩ := h
  rintro ⟨pt2, hpt2, e2⟩
  rw [e] at e2
  exact flip_ne hus (code_inj ⟨flip_lt hus, hpt⟩ ⟨hus, hpt2⟩ e2).1

/-- A pawn move along its pattern, normal or promoting, is safe for the king exactly when it
answers every check and respects the pin. -/
theorem Pos.pawn_safe (P : Pos T b) (Z : ZobristKeys) {m : Move}
    (hty : m.type = MT_NORMAL ∨ m.type = MT_PROMOTION)
    (hs : b.mailbox_ m.src = code b.sideToMove_ PAWN) (hp : PawnPat b b.sideToMove_ m.src m.dst) :
    MoveOk b m ∧ (Spec.kingSafeAfter T Z b m = true ↔
      ((∀ q, q < 64 →
          Attacker b.mailbox_ b.occupied_ (Color.flip b.sideToMove_) (b.kingSquare_ b.sideToMove_) q →
            m.dst = q ∨ Between (b.kingSquare_ b.sideToMove_) q m.dst) ∧
       (Pinned b.mailbox_ b.occupied_ b.sideToMove_ (b.kingSquare_ b.sideToMove_) m.src →
          OnLineOf (b.kingSquare_ b.sideToMove_) m.src m.dst))) := by
  have hus := P.rng.side
  have hd : TargetOk b (Color.flip b.sideToMove_) m.dst := by
    rcases hp with h | h | ⟨h1, h2⟩
    · exact Or.inl ((pushPat_iff _ _ _ _).1 h).2
    · exact Or.inl ((doublePat_iff _ _ _ _).1 h).2.2.2
    · exact P.target_ok m.src_lt m.dst_lt (Or.inl ⟨hs, h1⟩)
        (enemy_not_own hus ((colorIs_iff _ _ _).1 h2))
  have hclear : ∀ x, Between m.src m.dst x → b.mailbox_ x = 0xFF := by
    intro x hb
    rcases hp with h | h | ⟨h1, _⟩
    · have h2 := ((pushPat_iff _ _ _ _).1 h).1
      exact (kingStep_not_between (push_kingStep hus h2.1 h2.2) hb).elim
    · have h2 := (doublePat_iff _ _ _ _).1 h
      rw [double_between hus m.src_lt h2.2.1.1 h2.2.1.2 hb]
      exact h2.2.2.1
    · exact (kingStep_not_between (pawnTakes_kingStep h1) hb).elim
  rcases hty with ht | ht
  · have hok : MoveOk b m := MoveOk.normal PAWN (by decide) ht hs hd
    have A := after_normal P.inv rfl ⟨hus, by decide⟩ ht hs hd
    rw [if_neg (by decide)] at A
    exact ⟨hok, step_safe P Z hok (by decide) (by decide) (by decide) hs hd hclear A⟩
  · have hok : MoveOk b m := MoveOk.promotion ht hs hd
    have A := after_promotion P.inv rfl hus ht hs hd
    have hpr : m.promo < 6 := Nat.lt_of_le_of_lt m.promo_range.2 (by decide)
    exact ⟨hok, step_safe P Z hok (by decide) (by decide) hpr hs hd hclear A⟩

end

theorem mem_pawnStep {rank promoRank src t : Nat} {m : Move} :
    m ∈ pawnStep rank promoRank src t ↔
      (rank = promoRank ∧
        (m = Move.make src t MT_PROMOTION QUEEN ∨ m = Move.make src t MT_PROMOTION ROOK ∨
         m = Move.make src t MT_PROMOTION BISHOP ∨ m = Move.make src t MT_PROMOTION KNIGHT)) ∨
      (rank ≠ promoRank ∧ m = Move.normal src t) := by
  unfold pawnStep
  by_cases h : rank = promoRank
  · rw [if_pos h]
    simp only [List.mem_cons, List.mem_singleton, List.not_mem_nil, or_false, h, true_and,
      ne_eq, not_true_eq_false, false_and]
  · rw [if_neg h]
    simp only [List.mem_singleton, h, false_and, false_or, ne_eq, not_false_eq_true, true_and]

/-- The pin ray of the generator for one square. -/
theorem pinRay_iff (isPinned : Bool) (L : Bitboard) {t : Nat} (ht : t < 64) :
    (if isPinned = true then L else ALL).testBit t = true ↔ (isPinned = true → L.testBit t = true) := by
  cases isPinned
  · simp only [Bool.false_eq_true, if_false, testBit_ALL, decide_eq_true_eq, false_implies, iff_true]
    exact ht
  · simp only [if_true, true_implies]

end Board

end chess

/-!
# Pawns: the generated moves are the legal ones
-/

namespace chess

open Tables

namespace Board

/-- The pushes of one pawn, as conditions on the two squares in front of it. -/
theorem mem_pawnPushes (T : Lookups) (b : Board) (src us ksq : Nat) (isPinned : Bool)
    (tm : Bitboard) (m : Move) :
    m ∈ pawnPushes T b src us ksq isPinned tm ↔
      ((b.mailbox_ ((src : Int) + fwd8 us).toNat = 0xFF ∧
        (if isPinned = true then T.LINE_BB ksq src else ALL).testBit ((src : Int) + fwd8 us).toNat = true) ∧
       ((tm.testBit ((src : Int) + fwd8 us).toNat = true ∧
          m ∈ pawnStep (rankOf src) (if us = WHITE then 6 else 1) src ((src : Int) + fwd8 us).toNat) ∨
        (rankOf src = (if us = WHITE then 1 else 6) ∧
          b.mailbox_ (((((src : Int) + fwd8 us).toNat : Nat) : Int) + fwd8 us).toNat = 0xFF ∧
          tm.testBit (((((src : Int) + fwd8 us).toNat : Nat) : Int) + fwd8 us).toNat = true ∧
          (if isPinned = true then T.LINE_BB ksq src else ALL).testBit
            (((((src : Int) + fwd8 us).toNat : Nat) : Int) + fwd8 us).toNat = true ∧
          m = Move.normal src (((((src : Int) + fwd8 us).toNat : Nat) : Int) + fwd8 us).toNat))) := by
  unfold pawnPushes fwd8
  simp only [squareBB_and_ne_zero, isEmpty_iff]
  by_cases h1 : b.mailbox_ ((src : Int) + (if us = WHITE then 8 else -8)).toNat = 0xFF ∧
      (if isPinned = true then T.LINE_BB ksq src else ALL).testBit
        ((src : Int) + (if us = WHITE then 8 else -8)).toNat = true
  · rw [if_pos h1, List.mem_append]
    constructor
    · rintro (h | h)
      · by_cases h2 : tm.testBit ((src : Int) + (if us = WHITE then 8 else -8)).toNat = true
        · rw [if_pos h2] at h; exact ⟨h1, Or.inl ⟨h2, h⟩⟩
        · rw [if_neg h2] at h; exact absurd h (List.not_mem_nil _)
      · by_cases h3 : rankOf src = (if us = WHITE then 1 else 6) ∧
            b.mailbox_ (((((src : Int) + (if us = WHITE then 8 else -8)).toNat : Nat) : Int) +
              (if us = WHITE then 8 else -8)).toNat = 0xFF ∧
            tm.testBit (((((src : Int) + (if us = WHITE then 8 else -8)).toNat : Nat) : Int) +
              (if us = WHITE then 8 else -8)).toNat = true ∧
            (if isPinned = true then T.LINE_BB ksq src else ALL).testBit
              (((((src : Int) + (if us = WHITE then 8 else -8)).toNat : Nat) : Int) +
                (if us = WHITE then 8 else -8)).toNat = true
        · rw [if_pos h3] at h
          exact ⟨h1, Or.inr ⟨h3.1, h3.2.1, h3.2.2.1, h3.2.2.2, List.mem_singleton.1 h⟩⟩
        · rw [if_neg h3] at h
          exact absurd h (List.not_mem_nil _)
    · rintro ⟨_, ⟨h2, h⟩ | ⟨a1, a2, a3, a4, a5⟩⟩
      · left; rw [if_pos h2]; exact h
      · right; rw [if_pos ⟨a1, a2, a3, a4⟩]; exact List.mem_singleton.2 a5
  · rw [if_neg h1]
    simp only [List.not_mem_nil, false_iff]
    exact fun h => h1 h.1

/-- The fields of the moves that one pawn step contributes. -/
theorem step_form {us src t : Nat} {m : Move} (hs : src < 64) (ht : t < 64)
    (hrk : rankOf t = Spec.lastRank us ↔ rankOf src = (if us = WHITE then 6 else 1))
    (hm : m ∈ pawnStep (rankOf src) (if us = WHITE then 6 else 1) src t) :
    m.src = src ∧ m.dst = t ∧ PawnForm us m ∧ (m.type = MT_NORMAL ∨ m.type = MT_PROMOTION) := by
  rw [mem_pawnStep] at hm
  unfold PawnForm
  rcases hm with ⟨hr, hm⟩ | ⟨hr, hm⟩
  · have key : ∀ p : Nat, 1 ≤ p ∧ p ≤ 4 → m = Move.make src t MT_PROMOTION p →
        m.src = src ∧ m.dst = t ∧ m.type = MT_PROMOTION := by
      intro p hp e
      obtain ⟨f1, f2, f3, _⟩ := Move.make_fields hs ht (by decide : MT_PROMOTION < 4) hp
      rw [e]
      exact ⟨f1, f2, f3⟩
    have h3 : m.src = src ∧ m.dst = t ∧ m.type = MT_PROMOTION := by
      rcases hm with e | e | e | e
      · exact key QUEEN (by decide) e
      · exact key ROOK (by decide) e
      · exact key BISHOP (by decide) e
      · exact key KNIGHT (by decide) e
    obtain ⟨f1, f2, f3⟩ := h3
    refine ⟨f1, f2, Or.inr ⟨f3, ?_, ?_⟩, Or.inr f3⟩
    · rw [f1, f2]; exact hm
    · rw [f2]; exact hrk.2 hr
  · obtain ⟨f1, f2, f3⟩ := Move.normal_fields hs ht
    rw [← hm] at f1 f2 f3
    refine ⟨f1, f2, Or.inl ⟨f3, ?_, ?_⟩, Or.inl f3⟩
    · rw [f1, f2]; exact hm
    · rw [f2]; exact fun e => hr (hrk.1 e)

/-- A pawn move of the right form is one of the moves that its step contributes. -/
theorem form_step {us : Nat} {m : Move}
    (hrk : rankOf m.dst = Spec.lastRank us ↔ rankOf m.src = (if us = WHITE then 6 else 1))
    (hf : PawnForm us m) :
    m ∈ pawnStep (rankOf m.src) (if us = WHITE then 6 else 1) m.src m.dst := by
  rw [mem_pawnStep]
  rcases hf with ⟨_, hm, hr⟩ | ⟨_, hm, hr⟩
  · exact Or.inr ⟨fun e => hr (hrk.2 e), hm⟩
  · exact Or.inl ⟨hrk.1 hr, hm⟩

section
variable {T : Lookups} {b : Board}

/-- The moves that `generatePawnMoves` emits for one pawn. -/
theorem Pos.pawn_one_iff (P : Pos T b) (Z : ZobristKeys) (hn : popCount (b.checkers T) ≤ 1)
    (hp : b.okPawns = true) {src : Nat} (hs64 : src < 64)
    (hsm : b.mailbox_ src = code b.sideToMove_ PAWN) (m : Move) :
    m ∈ pawnPushes T b src b.sideToMove_ (b.kingSquare_ b.sideToMove_)
          ((b.pinnedPieces T b.sideToMove_ (Color.flip b.sideToMove_) (b.kingSquare_ b.sideToMove_))
            &&& squareBB src != 0)
          (if popCount (b.checkers T) = 1
            then T.BETWEEN_BB (b.kingSquare_ b.sideToMove_) (lsb (b.checkers T)) ||| b.checkers T
            else ALL) ++
        (bitsOf (pawnCaptureBB T b src b.sideToMove_ (Color.flip b.sideToMove_)
          (b.kingSquare_ b.sideToMove_)
          ((b.pinnedPieces T b.sideToMove_ (Color.flip b.sideToMove_) (b.kingSquare_ b.sideToMove_))
            &&& squareBB src != 0)
          (if popCount (b.checkers T) = 1
            then T.BETWEEN_BB (b.kingSquare_ b.sideToMove_) (lsb (b.checkers T)) ||| b.checkers T
            else ALL))).flatMap
          (fun dst => pawnStep (rankOf src) (if b.sideToMove_ = WHITE then 6 else 1) src dst) ↔
      (m.src = src ∧ PawnPat b b.sideToMove_ src m.dst ∧ PawnForm b.sideToMove_ m ∧
        Spec.kingSafeAfter T Z b m = true) := by
  have hus := P.rng.side
  have hk := P.inv.kingLt _ hus
  have hr := P.pawn_rank hp hs64 hsm
  obtain ⟨p1, p2, p3, p4⟩ := push_square hus hs64 hr
  have fin : ∀ t, t < 64 → m.src = src → m.dst = t → (m.type = MT_NORMAL ∨ m.type = MT_PROMOTION) →
      PawnPat b b.sideToMove_ src t →
      ((if popCount (b.checkers T) = 1
        then T.BETWEEN_BB (b.kingSquare_ b.sideToMove_) (lsb (b.checkers T)) ||| b.checkers T
        else ALL).testBit t = true ∧
        ((b.pinnedPieces T b.sideToMove_ (Color.flip b.sideToMove_)
          (b.kingSquare_ b.sideToMove_)).testBit src = true →
          (T.LINE_BB (b.kingSquare_ b.sideToMove_) src).testBit t = true) ↔
        Spec.kingSafeAfter T Z b m = true) := by
    intro t ht e1 e2 hty hpat
    have key := (P.pawn_safe Z hty (by rw [e1]; exact hsm) (by rw [e1, e2]; exact hpat)).2
    rw [e1, e2] at key
    rw [key, P.filters_iff hn src t hs64]
    exact ⟨fun h => h.2, fun h => ⟨ht, h⟩⟩
  rw [List.mem_append, mem_pawnPushes, List.mem_flatMap]
  constructor
  · rintro (⟨⟨he, hpin⟩, ⟨htm, hmem⟩ | ⟨hrk, he2, htm, hpin2, hm⟩⟩ | ⟨t, ht, hmem⟩)
    · obtain ⟨f1, f2, f3, f4⟩ := step_form hs64 p1 p3 hmem
      have hpat : PawnPat b b.sideToMove_ src ((src : Int) + fwd8 b.sideToMove_).toNat :=
        Or.inl ((pushPat_iff _ _ _ _).2 ⟨(p4 _ p1).2 rfl, he⟩)
      rw [pinRay_iff _ _ p1, bne_zero_iff] at hpin
      rw [f2]
      exact ⟨f1, hpat, f3, (fin _ p1 f1 f2 f4 hpat).1 ⟨htm, hpin⟩⟩
    · obtain ⟨d1, d2, d3, d4⟩ := double_square hus hs64 hrk
      obtain ⟨f1, f2, f3⟩ := Move.normal_fields hs64 d1
      rw [← hm] at f1 f2 f3
      have hpat : PawnPat b b.sideToMove_ src
          (((((src : Int) + fwd8 b.sideToMove_).toNat : Nat) : Int) + fwd8 b.sideToMove_).toNat :=
        Or.inr (Or.inl ((doublePat_iff _ _ _ _).2 ⟨hrk, (d4 _ d1).2 rfl, by rw [d2]; exact he, he2⟩))
      rw [pinRay_iff _ _ d1, bne_zero_iff] at hpin2
      rw [f2]
      refine ⟨f1, hpat, Or.inl ⟨f3, ?_, ?_⟩, (fin _ d1 f1 f2 (Or.inl f3) hpat).1 ⟨htm, hpin2⟩⟩
      · rw [f1, f2]; exact hm
      · rw [f2]; exact d3
    · rw [mem_bitsOf] at ht
      obtain ⟨ht64, ht⟩ := ht
      unfold pawnCaptureBB at ht
      simp only [Nat.testBit_and, Bool.and_eq_true] at ht
      obtain ⟨⟨⟨ha, hc⟩, htm⟩, hpin⟩ := ht
      rw [P.good.pawn _ _ _ hus hs64] at ha
      rw [P.inv.own_iff P.them_lt] at hc
      rw [pinRay_iff _ _ ht64, bne_zero_iff] at hpin
      obtain ⟨f1, f2, f3, f4⟩ := step_form hs64 ht64 (rank_of_forward hus (takes_rank ha.2)) hmem
      have hpat : PawnPat b b.sideToMove_ src t := Or.inr (Or.inr ⟨ha.2, (colorIs_iff _ _ _).2 hc.2⟩)
      rw [f2]
      exact ⟨f1, hpat, f3, (fin _ ht64 f1 f2 f4 hpat).1 ⟨htm, hpin⟩⟩
  · rintro ⟨hsrc, hpat, hform, hsafe⟩
    have hty : m.type = MT_NORMAL ∨ m.type = MT_PROMOTION := by
      rcases hform with ⟨h, _⟩ | ⟨h, _⟩
      · exact Or.inl h
      · exact Or.inr h
    obtain ⟨htm, hpin⟩ := (fin m.dst m.dst_lt hsrc rfl hty hpat).2 hsafe
    rcases hpat with h | h | ⟨h1, h2⟩
    · obtain ⟨hg, he⟩ := (pushPat_iff _ _ _ _).1 h
      have e := (p4 _ m.dst_lt).1 hg
      have hrk := rank_of_forward hus hg.2
      have hmem := form_step (by rw [hsrc]; exact hrk) hform
      rw [hsrc, e] at hmem
      rw [e] at he htm hpin
      left
      refine ⟨⟨he, ?_⟩, Or.inl ⟨htm, hmem⟩⟩
      rw [pinRay_iff _ _ p1, bne_zero_iff]
      exact hpin
    · obtain ⟨hrk, hg, he1, he2⟩ := (doublePat_iff _ _ _ _).1 h
      rw [startRank_eq] at hrk
      obtain ⟨d1, d2, d3, d4⟩ := double_square hus hs64 hrk
      have e := (d4 _ m.dst_lt).1 hg
      have hl : (b.pinnedPieces T b.sideToMove_ (Color.flip b.sideToMove_)
          (b.kingSquare_ b.sideToMove_)).testBit src = true →
          (T.LINE_BB (b.kingSquare_ b.sideToMove_) src).testBit
            ((src : Int) + fwd8 b.sideToMove_).toNat = true := by
        intro hpp
        have h3 := hpin hpp
        rw [P.good.line _ _ _ hk hs64] at h3 ⊢
        have h4 := line_double hus hk hs64 m.dst_lt hg.1 hg.2 h3
        rw [e, d2] at h4
        exact h4
      rw [e] at he1 he2 htm hpin
      rw [d2] at he1
      left
      refine ⟨⟨he1, ?_⟩, Or.inr ⟨hrk, he2, htm, ?_, ?_⟩⟩
      · rw [pinRay_iff _ _ p1, bne_zero_iff]; exact hl
      · rw [pinRay_iff _ _ d1, bne_zero_iff]; exact hpin
      · rcases hform with ⟨_, hm, _⟩ | ⟨_, _, hr2⟩
        · rw [hsrc, e] at hm; exact hm
        · rw [e] at hr2; exact absurd hr2 d3
    · right
      have hrk := rank_of_forward hus (takes_rank h1)
      have hmem := form_step (by rw [hsrc]; exact hrk) hform
      rw [hsrc] at hmem
      refine ⟨m.dst, ?_, hmem⟩
      rw [mem_bitsOf]
      refine ⟨m.dst_lt, ?_⟩
      unfold pawnCaptureBB
      simp only [Nat.testBit_and, Bool.and_eq_true]
      rw [P.good.pawn _ _ _ hus hs64, P.inv.own_iff P.them_lt, pinRay_iff _ _ m.dst_lt, bne_zero_iff]
      exact ⟨⟨⟨⟨m.dst_lt, h1⟩, m.dst_lt, (colorIs_iff _ _ _).1 h2⟩, htm⟩, hpin⟩

/-- The moves that `generatePieceMoves` emits for the pawns. -/
theorem Pos.pawn_part_iff (P : Pos T b) (Z : ZobristKeys) (hn : popCount (b.checkers T) ≤ 1)
    (hp : b.okPawns = true) (m : Move) :
    m ∈ (bitsOf (b.pieces_ b.sideToMove_ PAWN)).flatMap (fun src =>
        pawnPushes T b src b.sideToMove_ (b.kingSquare_ b.sideToMove_)
          ((b.pinnedPieces T b.sideToMove_ (Color.flip b.sideToMove_) (b.kingSquare_ b.sideToMove_))
            &&& squareBB src != 0)
          (if popCount (b.checkers T) = 1
            then T.BETWEEN_BB (b.kingSquare_ b.sideToMove_) (lsb (b.checkers T)) ||| b.checkers T
            else ALL) ++
        (bitsOf (pawnCaptureBB T b src b.sideToMove_ (Color.flip b.sideToMove_)
          (b.kingSquare_ b.sideToMove_)
          ((b.pinnedPieces T b.sideToMove_ (Color.flip b.sideToMove_) (b.kingSquare_ b.sideToMove_))
            &&& squareBB src != 0)
          (if popCount (b.checkers T) = 1
            then T.BETWEEN_BB (b.kingSquare_ b.sideToMove_) (lsb (b.checkers T)) ||| b.checkers T
            else ALL))).flatMap
          (fun dst => pawnStep (rankOf src) (if b.sideToMove_ = WHITE then 6 else 1) src dst)) ↔
      (b.mailbox_ m.src = code b.sideToMove_ PAWN ∧ PawnPat b b.sideToMove_ m.src m.dst ∧
        PawnForm b.sideToMove_ m ∧ Spec.kingSafeAfter T Z b m = true) := by
  rw [List.mem_flatMap]
  constructor
  · rintro ⟨src, hsrc, hm⟩
    rw [mem_bitsOf, P.inv.piece_iff P.rng.side (by decide)] at hsrc
    obtain ⟨h1, h2, h3, h4⟩ := (P.pawn_one_iff Z hn hp hsrc.1 hsrc.2.2 m).1 hm
    rw [h1]
    exact ⟨hsrc.2.2, h2, h3, h4⟩
  · rintro ⟨h1, h2, h3, h4⟩
    refine ⟨m.src, ?_, (P.pawn_one_iff Z hn hp m.src_lt h1 m).2 ⟨rfl, h2, h3, h4⟩⟩
    rw [mem_bitsOf, P.inv.piece_iff P.rng.side (by decide)]
    exact ⟨m.src_lt, m.src_lt, h1⟩

/-- A pawn has a safe move only when there is at most one check. -/
theorem Pos.pawn_needs_one (P : Pos T b) (Z : ZobristKeys) {m : Move}
    (hs : b.mailbox_ m.src = code b.sideToMove_ PAWN) (hp : PawnPat b b.sideToMove_ m.src m.dst)
    (hf : PawnForm b.sideToMove_ m) (hsafe : Spec.kingSafeAfter T Z b m = true) :
    popCount (b.checkers T) ≤ 1 := by
  have hty : m.type = MT_NORMAL ∨ m.type = MT_PROMOTION := by
    rcases hf with ⟨h, _⟩ | ⟨h, _⟩
    · exact Or.inl h
    · exact Or.inr h
  exact P.one_checker (((P.pawn_safe Z hty hs hp).2.1 hsafe).1)

end

end Board

end chess

/-!
# Castling: the king is safe on its new square
-/

namespace chess

open Tables

namespace Board

/-- The four castling moves: the colour, the squares of the king and the squares of the
rook. -/
def CastleCfg (us src dst rf rt : Nat) : Prop :=
  (us = 0 ∧ src = 4 ∧ dst = 6 ∧ rf = 7 ∧ rt = 5) ∨ (us = 0 ∧ src = 4 ∧ dst = 2 ∧ rf = 0 ∧ rt = 3) ∨
  (us = 1 ∧ src = 60 ∧ dst = 62 ∧ rf = 63 ∧ rt = 61) ∨ (us = 1 ∧ src = 60 ∧ dst = 58 ∧ rf = 56 ∧ rt = 59)

/-- A line from the new square of the king that passes the old square of the king or of the
rook passes the new square of the rook first. -/
theorem castle_path {us src dst rf rt : Nat} (h : CastleCfg us src dst rf rt) {d : Int × Int}
    (hd : IsDir d) {n j : Nat} (hj : 1 ≤ j) (hjn : j < n) (ho : stepOn dst d n = true)
    (hx : stepSq dst d j = src ∨ stepSq dst d j = rf) : 1 < j ∧ stepSq dst d 1 = rt := by
  have hdst : dst < 64 := by
    rcases h with ⟨_, _, h, _⟩ | ⟨_, _, h, _⟩ | ⟨_, _, h, _⟩ | ⟨_, _, h, _⟩ <;> omega
  have cj := stepSq_cast (stepOn_mono hdst hd ho (Nat.le_of_lt hjn))
  have c1 := stepSq_cast (stepOn_mono hdst hd ho (by omega : 1 ≤ n))
  rw [stepOn_iff] at ho
  generalize stepSq dst d j = x at cj hx
  generalize stepSq dst d 1 = y at c1 ⊢
  unfold IsDir at hd
  rcases h with ⟨_, rfl, rfl, rfl, rfl⟩ | ⟨_, rfl, rfl, rfl, rfl⟩ | ⟨_, rfl, rfl, rfl, rfl⟩ |
    ⟨_, rfl, rfl, rfl, rfl⟩ <;>
  rcases hd with rfl | rfl | rfl | rfl | rfl | rfl | rfl | rfl <;>
  simp only [Nat.cast_one, mul_one] at cj c1 ho <;> omega

section
variable {T : Lookups} {b : Board}

/-- A castling move over empty squares onto a square that no enemy piece attacks leaves the
king unattacked. -/
theorem Pos.castle_safe (P : Pos T b) (Z : ZobristKeys) {m : Move} {rf rt : Nat}
    (hcfg : CastleCfg b.sideToMove_ m.src m.dst rf rt) (ht : m.type = MT_CASTLING)
    (hs : b.mailbox_ m.src = code b.sideToMove_ KING) (hd : b.mailbox_ m.dst = 0xFF)
    (hrm : b.mailbox_ rf = code b.sideToMove_ ROOK) (hre : b.mailbox_ rt = 0xFF)
    (hatt : ¬ ∃ q, q < 64 ∧ Attacker b.mailbox_ b.occupied_ (Color.flip b.sideToMove_) m.dst q) :
    MoveOk b m ∧ Spec.kingSafeAfter T Z b m = true := by
  have hus := P.rng.side
  have hrf : rf = CASTLING_ROOK_FROM (b.sideToMove_ * 2 + (if fileOf m.dst = 6 then 0 else 1)) := by
    rcases hcfg with ⟨e1, _, e2, rfl, _⟩ | ⟨e1, _, e2, rfl, _⟩ | ⟨e1, _, e2, rfl, _⟩ | ⟨e1, _, e2, rfl, _⟩ <;>
      rw [e1, e2] <;> rfl
  have hrt : rt = CASTLING_ROOK_TO (b.sideToMove_ * 2 + (if fileOf m.dst = 6 then 0 else 1)) := by
    rcases hcfg with ⟨e1, _, e2, _, rfl⟩ | ⟨e1, _, e2, _, rfl⟩ | ⟨e1, _, e2, _, rfl⟩ | ⟨e1, _, e2, _, rfl⟩ <;>
      rw [e1, e2] <;> rfl
  have hrfl : rf < 64 := by
    rcases hcfg with ⟨_, _, _, h, _⟩ | ⟨_, _, _, h, _⟩ | ⟨_, _, _, h, _⟩ | ⟨_, _, _, h, _⟩ <;> omega
  have hrtl : rt < 64 := by
    rcases hcfg with ⟨_, _, _, _, h⟩ | ⟨_, _, _, _, h⟩ | ⟨_, _, _, _, h⟩ | ⟨_, _, _, _, h⟩ <;> omega
  have hne : rt ≠ m.dst := by
    rcases hcfg with ⟨_, _, h1, _, h⟩ | ⟨_, _, h1, _, h⟩ | ⟨_, _, h1, _, h⟩ | ⟨_, _, h1, _, h⟩ <;> omega
  have hok : MoveOk b m := by
    refine MoveOk.castling ht hs hd ?_ ?_ ?_ ?_ ?_
    · rw [← hrf]; exact hrfl
    · rw [← hrt]; exact hrtl
    · rw [← hrf]; exact hrm
    · rw [← hrt]; exact hre
    · rw [← hrt]; exact hne
  have A := after_castling P.inv rfl hus ht hs hd hrf hrt hrfl hrtl hrm hre hne
  refine ⟨hok, ?_⟩
  rw [safeAfter_iff P Z hok A, setAt_same]
  rintro ⟨q, hq, a2⟩
  apply hatt
  refine ⟨q, hq, ?_⟩
  have hval : ∀ x, setAt (setAt (setAt (setAt b.mailbox_ m.src 0xFF) m.dst (code b.sideToMove_ KING))
      rf 0xFF) rt (code b.sideToMove_ ROOK) x =
      if x = rt then code b.sideToMove_ ROOK else if x = rf then 0xFF
        else if x = m.dst then code b.sideToMove_ KING else if x = m.src then 0xFF
        else b.mailbox_ x := fun x => rfl
  have hown : ∀ (pt X : Nat), pt < 6 → X < 6 → code b.sideToMove_ pt ≠ code (Color.flip b.sideToMove_) X :=
    fun pt X hpt hX e => flip_ne hus (code_inj ⟨hus, hpt⟩ ⟨P.them_lt, hX⟩ e).1.symm
  have hemp : ∀ X : Nat, X < 6 → (255 : Nat) ≠ code (Color.flip b.sideToMove_) X :=
    fun X hX e => code_ne_empty ⟨P.them_lt, hX⟩ e.symm
  have a3 : Attacker b.mailbox_ (b.applyPieces m).occupied_ (Color.flip b.sideToMove_) m.dst q := by
    refine (attacker_congr ?_).1 a2
    intro X hX
    rw [hval]
    by_cases e1 : q = rt
    · rw [if_pos e1, e1, hre]
      exact ⟨fun h => absurd h (hown _ _ (by decide) hX), fun h => absurd h (hemp X hX)⟩
    rw [if_neg e1]
    by_cases e2 : q = rf
    · rw [if_pos e2, e2, hrm]
      exact ⟨fun h => absurd h (hemp X hX), fun h => absurd h (hown _ _ (by decide) hX)⟩
    rw [if_neg e2]
    by_cases e3 : q = m.dst
    · rw [if_pos e3, e3, hd]
      exact ⟨fun h => absurd h (hown _ _ (by decide) hX), fun h => absurd h (hemp X hX)⟩
    rw [if_neg e3]
    by_cases e4 : q = m.src
    · rw [if_pos e4, e4, hs]
      exact ⟨fun h => absurd h (hemp X hX), fun h => absurd h (hown _ _ (by decide) hX)⟩
    rw [if_neg e4]
  rw [attacker_iff m.dst_lt] at a3 ⊢
  rcases a3 with a3 | ⟨d, n, sv, hc⟩
  · exact Or.inl a3
  · refine Or.inr ⟨d, n, sv, ?_⟩
    intro j hj hjn
    by_contra hocc
    rw [Bool.not_eq_false] at hocc
    obtain ⟨hx64, hxm⟩ := (P.inv.occ_iff _).1 hocc
    have h2 := hc j hj hjn
    have h3 : setAt (setAt (setAt (setAt b.mailbox_ m.src 0xFF) m.dst (code b.sideToMove_ KING))
        rf 0xFF) rt (code b.sideToMove_ ROOK) (stepSq m.dst d j) = 0xFF := by
      by_contra hne2
      rw [(A.newOcc_iff _).2 ⟨hx64, hne2⟩] at h2
      exact Bool.noConfusion h2
    have h4 : stepSq m.dst d j = m.src ∨ stepSq m.dst d j = rf := by
      rw [hval] at h3
      by_cases e1 : stepSq m.dst d j = rt
      · rw [if_pos e1] at h3; exact absurd h3 (code_ne_empty ⟨hus, by decide⟩)
      rw [if_neg e1] at h3
      by_cases e2 : stepSq m.dst d j = rf
      · exact Or.inr e2
      rw [if_neg e2] at h3
      by_cases e3 : stepSq m.dst d j = m.dst
      · rw [if_pos e3] at h3; exact absurd h3 (code_ne_empty ⟨hus, by decide⟩)
      rw [if_neg e3] at h3
      by_cases e4 : stepSq m.dst d j = m.src
      · exact Or.inl e4
      rw [if_neg e4] at h3
      exact absurd h3 hxm
    obtain ⟨h5, h6⟩ := castle_path hcfg sv.1.isDir hj hjn sv.2.2.1 h4
    have h7 := hc 1 (le_refl 1) (by omega)
    rw [h6, (A.newOcc_iff _).2 ⟨hrtl, by rw [setAt_same]; exact code_ne_empty ⟨hus, by decide⟩⟩] at h7
    exact Bool.noConfusion h7

end

end Board

end chess

/-!
# Castling: the generated moves are the legal ones
-/

namespace chess

open Tables

namespace Board

/-- The home square of the king of a colour. -/
def homeSq (us : Color) : Nat := if us = WHITE then 4 else 60

theorem canCastle_oo_iff (T : Lookups) (b : Board) :
    Spec.canCastle T b 0 = true ↔
      (b.castling_ &&& (if b.sideToMove_ = WHITE then WHITE_OO else BLACK_OO) ≠ 0 ∧
        b.mailbox_ (homeSq b.sideToMove_ + 1) = 0xFF ∧ b.mailbox_ (homeSq b.sideToMove_ + 2) = 0xFF ∧
        b.isAttacked T (homeSq b.sideToMove_) (Color.flip b.sideToMove_) = false ∧
        b.isAttacked T (homeSq b.sideToMove_ + 1) (Color.flip b.sideToMove_) = false ∧
        b.isAttacked T (homeSq b.sideToMove_ + 2) (Color.flip b.sideToMove_) = false) := by
  unfold Spec.canCastle homeSq
  simp only [if_true, Bool.and_eq_true, bne_iff_ne, emptyAt_iff, Bool.not_eq_true_eq_eq_false]
  tauto

theorem canCastle_ooo_iff (T : Lookups) (b : Board) :
    Spec.canCastle T b 1 = true ↔
      (b.castling_ &&& (if b.sideToMove_ = WHITE then WHITE_OOO else BLACK_OOO) ≠ 0 ∧
        b.mailbox_ (homeSq b.sideToMove_ - 1) = 0xFF ∧ b.mailbox_ (homeSq b.sideToMove_ - 2) = 0xFF ∧
        b.mailbox_ (homeSq b.sideToMove_ - 3) = 0xFF ∧
        b.isAttacked T (homeSq b.sideToMove_) (Color.flip b.sideToMove_) = false ∧
        b.isAttacked T (homeSq b.sideToMove_ - 1) (Color.flip b.sideToMove_) = false ∧
        b.isAttacked T (homeSq b.sideToMove_ - 2) (Color.flip b.sideToMove_) = false) := by
  unfold Spec.canCastle homeSq
  have h10 : ¬ (1 : Nat) = 0 := by decide
  simp only [h10, if_false, Bool.and_eq_true, bne_iff_ne, emptyAt_iff, Bool.not_eq_true_eq_eq_false]
  tauto

theorem castle_list_shape {α : Type} (x y m : α) (r1 c1 r2 c2 : Prop) [Decidable r1] [Decidable c1]
    [Decidable r2] [Decidable c2] :
    m ∈ (if r2 then
          (if c2 then (if r1 then (if c1 then [] ++ [x] else []) else []) ++ [y]
            else (if r1 then (if c1 then [] ++ [x] else []) else []))
        else (if r1 then (if c1 then [] ++ [x] else []) else [])) ↔
      ((r1 ∧ c1) ∧ m = x) ∨ ((r2 ∧ c2) ∧ m = y) := by
  by_cases h1 : r1 <;> by_cases h2 : c1 <;> by_cases h3 : r2 <;> by_cases h4 : c2 <;>
    simp [h1, h2, h3, h4]

/-- The castling moves that `generateCastling` emits. -/
theorem mem_generateCastling (T : Lookups) (b : Board) (us them : Nat) (m : Move) :
    m ∈ b.generateCastling T [] us them ↔
      ((b.castling_ &&& (if us = WHITE then WHITE_OO else BLACK_OO) ≠ 0 ∧
          b.mailbox_ (homeSq us + 1) = 0xFF ∧ b.mailbox_ (homeSq us + 2) = 0xFF ∧
          b.isAttacked T (homeSq us + 1) them = false ∧ b.isAttacked T (homeSq us + 2) them = false) ∧
        m = Move.make (homeSq us) (homeSq us + 2) MT_CASTLING KNIGHT) ∨
      ((b.castling_ &&& (if us = WHITE then WHITE_OOO else BLACK_OOO) ≠ 0 ∧
          b.mailbox_ (homeSq us - 1) = 0xFF ∧ b.mailbox_ (homeSq us - 2) = 0xFF ∧
          b.mailbox_ (homeSq us - 3) = 0xFF ∧
          b.isAttacked T (homeSq us - 1) them = false ∧ b.isAttacked T (homeSq us - 2) them = false) ∧
        m = Move.make (homeSq us) (homeSq us - 2) MT_CASTLING KNIGHT) := by
  unfold generateCastling homeSq
  simp only [isEmpty_iff, Bool.not_eq_true]
  rw [castle_list_shape]

section
variable {T : Lookups} {b : Board}

/-- There is no check exactly when `isAttacked` finds no attacker of the king. -/
theorem Pos.no_check_iff (P : Pos T b) :
    popCount (b.checkers T) = 0 ↔
      b.isAttacked T (b.kingSquare_ b.sideToMove_) (Color.flip b.sideToMove_) = false := by
  rw [popCount_eq_zero_iff, ← Bool.not_eq_true,
    isAttacked_iff P.good P.inv P.them_lt (P.inv.kingLt _ P.rng.side)]
  constructor
  · rintro h ⟨q, hq, ha⟩
    have := h q hq
    rw [(P.checkers_iff q).2 ⟨hq, ha⟩] at this
    exact Bool.noConfusion this
  · intro h q hq
    cases hx : (b.checkers T).testBit q
    · rfl
    · exact absurd ⟨q, (P.checkers_iff q).1 hx⟩ h

/-- A held castling right has the king and the rook on their home squares. -/
theorem Pos.home (P : Pos T b) :
    (b.castling_ &&& (if b.sideToMove_ = WHITE then WHITE_OO else BLACK_OO) ≠ 0 →
      ∃ rf, CastleCfg b.sideToMove_ (homeSq b.sideToMove_) (homeSq b.sideToMove_ + 2) rf
          (homeSq b.sideToMove_ + 1) ∧
        b.mailbox_ (homeSq b.sideToMove_) = code b.sideToMove_ KING ∧
        b.mailbox_ rf = code b.sideToMove_ ROOK) ∧
    (b.castling_ &&& (if b.sideToMove_ = WHITE then WHITE_OOO else BLACK_OOO) ≠ 0 →
      ∃ rf, CastleCfg b.sideToMove_ (homeSq b.sideToMove_) (homeSq b.sideToMove_ - 2) rf
          (homeSq b.sideToMove_ - 1) ∧
        b.mailbox_ (homeSq b.sideToMove_) = code b.sideToMove_ KING ∧
        b.mailbox_ rf = code b.sideToMove_ ROOK) := by
  have hc := P.castle
  unfold okCastling at hc
  simp only [Bool.and_eq_true, Bool.or_eq_true, beq_iff_eq] at hc
  obtain ⟨⟨⟨c1, c2⟩, c3⟩, c4⟩ := hc
  have h2 : ∀ n : Nat, n < 2 → n = 0 ∨ n = 1 := fun n hn => by omega
  have hus : b.sideToMove_ = 0 ∨ b.sideToMove_ = 1 := h2 _ P.rng.side
  rcases hus with hw | hw
  · rw [hw]
    constructor
    · intro h
      rcases c1 with c | c
      · exact absurd c h
      · exact ⟨7, Or.inl ⟨rfl, rfl, rfl, rfl, rfl⟩, c.1, c.2⟩
    · intro h
      rcases c2 with c | c
      · exact absurd c h
      · exact ⟨0, Or.inr (Or.inl ⟨rfl, rfl, rfl, rfl, rfl⟩), c.1, c.2⟩
  · rw [hw]
    constructor
    · intro h
      rcases c3 with c | c
      · exact absurd c h
      · exact ⟨63, Or.inr (Or.inr (Or.inl ⟨rfl, rfl, rfl, rfl, rfl⟩)), c.1, c.2⟩
    · intro h
      rcases c4 with c | c
      · exact absurd c h
      · exact ⟨56, Or.inr (Or.inr (Or.inr ⟨rfl, rfl, rfl, rfl, rfl⟩)), c.1, c.2⟩

theorem CastleCfg.lt {us src dst rf rt : Nat} (h : CastleCfg us src dst rf rt) :
    src < 64 ∧ dst < 64 := by
  rcases h with ⟨_, h1, h2, _⟩ | ⟨_, h1, h2, _⟩ | ⟨_, h1, h2, _⟩ | ⟨_, h1, h2, _⟩ <;> omega

/-- One castling move with its conditions is safe. -/
theorem Pos.castle_one (P : Pos T b) (Z : ZobristKeys) {dst rf rt : Nat}
    (hcfg : CastleCfg b.sideToMove_ (homeSq b.sideToMove_) dst rf rt)
    (hk : b.mailbox_ (homeSq b.sideToMove_) = code b.sideToMove_ KING)
    (hr : b.mailbox_ rf = code b.sideToMove_ ROOK) (he1 : b.mailbox_ rt = 0xFF)
    (he2 : b.mailbox_ dst = 0xFF) (ha : b.isAttacked T dst (Color.flip b.sideToMove_) = false) :
    (Move.make (homeSq b.sideToMove_) dst MT_CASTLING KNIGHT).type = MT_CASTLING ∧
    MoveOk b (Move.make (homeSq b.sideToMove_) dst MT_CASTLING KNIGHT) ∧
    Spec.kingSafeAfter T Z b (Move.make (homeSq b.sideToMove_) dst MT_CASTLING KNIGHT) = true := by
  obtain ⟨f1, f2, f3, _⟩ := Move.make_fields hcfg.lt.1 hcfg.lt.2 (by decide : MT_CASTLING < 4)
    (by decide : 1 ≤ KNIGHT ∧ KNIGHT ≤ 4)
  refine ⟨f3, ?_⟩
  apply @Pos.castle_safe T b P Z _ rf rt (by rw [f1, f2]; exact hcfg) f3 (by rw [f1]; exact hk)
    (by rw [f2]; exact he2) hr he1
  rw [f2, ← isAttacked_iff P.good P.inv P.them_lt hcfg.lt.2, ha]
  exact Bool.noConfusion

/-- The castling moves that the generator emits when there is no check are the castling moves
of the reference description, and they are safe. -/
theorem Pos.castle_part_iff (P : Pos T b) (Z : ZobristKeys) (m : Move) :
    (popCount (b.checkers T) = 0 ∧
        m ∈ b.generateCastling T [] b.sideToMove_ (Color.flip b.sideToMove_)) ↔
      (((m = Move.make (homeSq b.sideToMove_) (homeSq b.sideToMove_ + 2) MT_CASTLING KNIGHT ∧
          Spec.canCastle T b 0 = true) ∨
        (m = Move.make (homeSq b.sideToMove_) (homeSq b.sideToMove_ - 2) MT_CASTLING KNIGHT ∧
          Spec.canCastle T b 1 = true)) ∧
        Spec.kingSafeAfter T Z b m = true) := by
  have hus := P.rng.side
  rw [mem_generateCastling, canCastle_oo_iff, canCastle_ooo_iff]
  constructor
  · rintro ⟨h0, ⟨⟨r, e1, e2, a1, a2⟩, rfl⟩ | ⟨⟨r, e1, e2, e3, a1, a2⟩, rfl⟩⟩
    · obtain ⟨rf, hcfg, hk, hr⟩ := P.home.1 r
      have hkeq := (P.inv.king _ hus _ hcfg.lt.1).1 hk
      have a0 := P.no_check_iff.1 h0
      rw [← hkeq] at a0
      exact ⟨Or.inl ⟨rfl, r, e1, e2, a0, a1, a2⟩, (P.castle_one Z hcfg hk hr e1 e2 a2).2.2⟩
    · obtain ⟨rf, hcfg, hk, hr⟩ := P.home.2 r
      have hkeq := (P.inv.king _ hus _ hcfg.lt.1).1 hk
      have a0 := P.no_check_iff.1 h0
      rw [← hkeq] at a0
      exact ⟨Or.inr ⟨rfl, r, e1, e2, e3, a0, a1, a2⟩, (P.castle_one Z hcfg hk hr e1 e2 a2).2.2⟩
  · rintro ⟨⟨rfl, r, e1, e2, a0, a1, a2⟩ | ⟨rfl, r, e1, e2, e3, a0, a1, a2⟩, _⟩
    · obtain ⟨rf, hcfg, hk, hr⟩ := P.home.1 r
      have hkeq := (P.inv.king _ hus _ hcfg.lt.1).1 hk
      rw [hkeq] at a0
      exact ⟨P.no_check_iff.2 a0, Or.inl ⟨⟨r, e1, e2, a1, a2⟩, rfl⟩⟩
    · obtain ⟨rf, hcfg, hk, hr⟩ := P.home.2 r
      have hkeq := (P.inv.king _ hus _ hcfg.lt.1).1 hk
      rw [hkeq] at a0
      exact ⟨P.no_check_iff.2 a0, Or.inr ⟨⟨r, e1, e2, e3, a1, a2⟩, rfl⟩⟩

end

end Board

end chess

/-!
# En passant: the generated moves are the legal ones
-/

namespace chess

open Tables

namespace Board

/-- The en-passant captures that `generateEnPassant` emits. -/
def epList (T : Lookups) (Z : ZobristKeys) (b : Board) : List Move :=
  (bitsOf (b.pieces_ b.sideToMove_ PAWN &&&
      T.PAWN_ATTACKS (Color.flip b.sideToMove_) b.epSquare_.toNat)).flatMap (fun src =>
    if Spec.kingSafeAfter T Z b (Move.make src b.epSquare_.toNat MT_EN_PASSANT KNIGHT) = true
    then [Move.make src b.epSquare_.toNat MT_EN_PASSANT KNIGHT] else [])

/-- The loop of `generateEnPassant` when every candidate, made and unmade, gives the board
back. -/
theorem ep_foldl (T : Lookups) (Z : ZobristKeys) (b : Board) (L : List Nat)
    (h : ∀ src ∈ L,
      (b.makeMove Z (Move.make src b.epSquare_.toNat MT_EN_PASSANT KNIGHT)).1.unmakeMove
        (Move.make src b.epSquare_.toNat MT_EN_PASSANT KNIGHT)
        (b.makeMove Z (Move.make src b.epSquare_.toNat MT_EN_PASSANT KNIGHT)).2 = b) :
    ∀ init : List Move,
      L.foldl (fun (s : List Move × Board) src =>
        if (!((s.2.makeMove Z (Move.make src s.2.epSquare_.toNat MT_EN_PASSANT KNIGHT)).1.isAttacked T
            ((s.2.makeMove Z (Move.make src s.2.epSquare_.toNat MT_EN_PASSANT KNIGHT)).1.kingSq
              b.sideToMove_) (Color.flip b.sideToMove_))) = true
        then (s.1 ++ [Move.make src s.2.epSquare_.toNat MT_EN_PASSANT KNIGHT],
          (s.2.makeMove Z (Move.make src s.2.epSquare_.toNat MT_EN_PASSANT KNIGHT)).1.unmakeMove
            (Move.make src s.2.epSquare_.toNat MT_EN_PASSANT KNIGHT)
            (s.2.makeMove Z (Move.make src s.2.epSquare_.toNat MT_EN_PASSANT KNIGHT)).2)
        else (s.1,
          (s.2.makeMove Z (Move.make src s.2.epSquare_.toNat MT_EN_PASSANT KNIGHT)).1.unmakeMove
            (Move.make src s.2.epSquare_.toNat MT_EN_PASSANT KNIGHT)
            (s.2.makeMove Z (Move.make src s.2.epSquare_.toNat MT_EN_PASSANT KNIGHT)).2)) (init, b) =
      (init ++ L.flatMap (fun src =>
        if Spec.kingSafeAfter T Z b (Move.make src b.epSquare_.toNat MT_EN_PASSANT KNIGHT) = true
        then [Move.make src b.epSquare_.toNat MT_EN_PASSANT KNIGHT] else []), b) := by
  induction L with
  | nil => intro init; simp
  | cons a l ih =>
    intro init
    have ha := h a (List.mem_cons_self a l)
    have hl : ∀ src ∈ l, _ := fun src hs => h src (List.mem_cons_of_mem a hs)
    rw [List.foldl_cons, List.flatMap_cons]
    simp only []
    rw [ha]
    have e : Spec.kingSafeAfter T Z b (Move.make a b.epSquare_.toNat MT_EN_PASSANT KNIGHT) =
        !((b.makeMove Z (Move.make a b.epSquare_.toNat MT_EN_PASSANT KNIGHT)).1.isAttacked T
          ((b.makeMove Z (Move.make a b.epSquare_.toNat MT_EN_PASSANT KNIGHT)).1.kingSq b.sideToMove_)
          (Color.flip b.sideToMove_)) := rfl
    rw [← e]
    by_cases hs : Spec.kingSafeAfter T Z b (Move.make a b.epSquare_.toNat MT_EN_PASSANT KNIGHT) = true
    · rw [if_pos hs, if_pos hs, ih hl, List.append_assoc]
    · rw [if_neg hs, if_neg hs, ih hl, List.nil_append]

section
variable {T : Lookups} {b : Board}

/-- What the en-passant square of a consistent position says about the mailbox. -/
theorem Pos.ep_facts (P : Pos T b) (hep : 0 ≤ b.epSquare_) :
    b.epSquare_.toNat < 64 ∧ ((b.epSquare_.toNat : Nat) : Int) = b.epSquare_ ∧
    b.mailbox_ b.epSquare_.toNat = 0xFF ∧ capSqOf b.sideToMove_ b.epSquare_.toNat < 64 ∧
    b.mailbox_ (capSqOf b.sideToMove_ b.epSquare_.toNat) = code (Color.flip b.sideToMove_) PAWN ∧
    Spec.dFile (capSqOf b.sideToMove_ b.epSquare_.toNat) b.epSquare_.toNat = 0 ∧
    Spec.dRank (capSqOf b.sideToMove_ b.epSquare_.toNat) b.epSquare_.toNat = Spec.forward b.sideToMove_ := by
  have h := P.ep
  unfold okEnPassant at h
  have hne : ¬ b.epSquare_ = -1 := by omega
  simp only [Bool.or_eq_true, beq_iff_eq, hne, false_or] at h
  have h2 : ∀ n : Nat, n < 2 → n = 0 ∨ n = 1 := fun n hn => by omega
  have e : ((b.epSquare_.toNat : Nat) : Int) = b.epSquare_ := Int.toNat_of_nonneg hep
  unfold capSqOf Spec.dFile Spec.dRank
  simp only [rankOf_eq, fileOf_eq]
  rcases h2 _ P.rng.side with hw | hw
  · rw [hw] at h ⊢
    rw [if_pos (show (0 : Color) = WHITE from rfl)] at h
    simp only [Bool.and_eq_true, decide_eq_true_eq, beq_iff_eq] at h
    obtain ⟨⟨⟨h3, h4⟩, h5⟩, h6⟩ := h
    have e2 : (((b.epSquare_.toNat : Nat) : Int) + -8).toNat = b.epSquare_.toNat - 8 := by omega
    have e3 : Spec.forward 0 = 1 := rfl
    have e4 : (if (0 : Nat) = WHITE then (-8 : Int) else 8) = -8 := rfl
    rw [e4, e2, e3]
    refine ⟨by omega, e, h5, by omega, h6, by omega, by omega⟩
  · rw [hw] at h ⊢
    rw [if_neg (show ¬ (1 : Color) = WHITE by decide)] at h
    simp only [Bool.and_eq_true, decide_eq_true_eq, beq_iff_eq] at h
    obtain ⟨⟨⟨h3, h4⟩, h5⟩, h6⟩ := h
    have e2 : (((b.epSquare_.toNat : Nat) : Int) + 8).toNat = b.epSquare_.toNat + 8 := by omega
    have e3 : Spec.forward 1 = -1 := rfl
    have e4 : (if (1 : Nat) = WHITE then (-8 : Int) else 8) = 8 := rfl
    rw [e4, e2, e3]
    refine ⟨by omega, e, h5, by omega, h6, by omega, by omega⟩

/-- An en-passant capture by a pawn of the side to move onto the en-passant square is one of
the kinds of moves that can be made and unmade. -/
theorem Pos.ep_ok (P : Pos T b) (hep : 0 ≤ b.epSquare_) {src : Nat} (hs : src < 64)
    (hm : b.mailbox_ src = code b.sideToMove_ PAWN) :
    (Move.make src b.epSquare_.toNat MT_EN_PASSANT KNIGHT).src = src ∧
    (Move.make src b.epSquare_.toNat MT_EN_PASSANT KNIGHT).dst = b.epSquare_.toNat ∧
    (Move.make src b.epSquare_.toNat MT_EN_PASSANT KNIGHT).type = MT_EN_PASSANT ∧
    MoveOk b (Move.make src b.epSquare_.toNat MT_EN_PASSANT KNIGHT) := by
  obtain ⟨h1, _, h3, h4, h5, _⟩ := P.ep_facts hep
  obtain ⟨f1, f2, f3, _⟩ := Move.make_fields hs h1 (by decide : MT_EN_PASSANT < 4)
    (by decide : 1 ≤ KNIGHT ∧ KNIGHT ≤ 4)
  refine ⟨f1, f2, f3, MoveOk.enPassant f3 (by rw [f1]; exact hm) (by rw [f2]; exact h3)
    (by rw [f2]; exact h4) (by rw [f2]; exact h5)⟩

/-- The function `generateEnPassant` appends the safe en-passant captures and leaves the
board as it was. -/
theorem Pos.ep_list (P : Pos T b) (Z : ZobristKeys) (moves : List Move) (hep : 0 ≤ b.epSquare_) :
    b.generateEnPassant T Z moves b.sideToMove_ (Color.flip b.sideToMove_) =
      (moves ++ epList T Z b, b) := by
  unfold generateEnPassant epList
  rw [if_neg (by omega)]
  simp only []
  rw [forBits_eq _ _ _ (and_lt_of_left (P.inv.pieces_lt ⟨P.rng.side, by decide⟩))]
  have key := ep_foldl T Z b (bitsOf (b.pieces_ b.sideToMove_ PAWN &&&
      T.PAWN_ATTACKS (Color.flip b.sideToMove_) b.epSquare_.toNat)) (by
    intro src hsrc
    rw [mem_bitsOf, Nat.testBit_and, Bool.and_eq_true, P.inv.piece_iff P.rng.side (by decide)] at hsrc
    exact unmake_make Z P.inv P.rng (P.ep_ok hep hsrc.1 hsrc.2.1.2).2.2.2) moves
  rw [← key]

/-- The en-passant captures that the generator emits are those of the reference description
that leave the king unattacked. -/
theorem Pos.ep_part_iff (P : Pos T b) (Z : ZobristKeys) (hep : 0 ≤ b.epSquare_) (m : Move) :
    m ∈ epList T Z b ↔
      (m.type = MT_EN_PASSANT ∧ m = Move.make m.src m.dst MT_EN_PASSANT KNIGHT ∧
        b.mailbox_ m.src = code b.sideToMove_ PAWN ∧ b.epSquare_ = (m.dst : Int) ∧
        Spec.pawnTakes b.sideToMove_ m.src m.dst = true ∧ Spec.kingSafeAfter T Z b m = true) := by
  obtain ⟨h1, h2, _⟩ := P.ep_facts hep
  unfold epList
  rw [List.mem_flatMap]
  constructor
  · rintro ⟨src, hsrc, hm⟩
    rw [mem_bitsOf, Nat.testBit_and, Bool.and_eq_true, P.inv.piece_iff P.rng.side (by decide),
      P.good.pawn _ _ _ P.them_lt h1, pawnTakes_flip P.rng.side] at hsrc
    obtain ⟨hs64, ⟨_, hpm⟩, _, htk⟩ := hsrc
    obtain ⟨f1, f2, f3, _⟩ := P.ep_ok hep hs64 hpm
    by_cases hs : Spec.kingSafeAfter T Z b (Move.make src b.epSquare_.toNat MT_EN_PASSANT KNIGHT) = true
    · rw [if_pos hs, List.mem_singleton] at hm
      subst hm
      rw [f1, f2]
      exact ⟨f3, rfl, hpm, h2.symm, htk, hs⟩
    · rw [if_neg hs] at hm
      exact absurd hm (List.not_mem_nil _)
  · rintro ⟨_, hm, hpm, he, htk, hs⟩
    have e : m.dst = b.epSquare_.toNat := by omega
    refine ⟨m.src, ?_, ?_⟩
    · rw [mem_bitsOf, Nat.testBit_and, Bool.and_eq_true, P.inv.piece_iff P.rng.side (by decide),
        P.good.pawn _ _ _ P.them_lt h1, pawnTakes_flip P.rng.side, ← e]
      exact ⟨m.src_lt, ⟨m.src_lt, hpm⟩, m.src_lt, htk⟩
    · rw [← e, ← hm, if_pos hs]
      exact List.mem_singleton.2 rfl

end

end Board

end chess

/-!
# En passant never answers a double check
-/

namespace chess

open Tables

namespace Board

/-- Taking pieces off the board keeps every attack by a piece that stays. -/
theorem attacker_mono {mb : Nat → Nat} {occ occ2 : Bitboard} {c sq q : Nat} (hsq : sq < 64)
    (h : ∀ x, occ2.testBit x = true → occ.testBit x = true) (a : Attacker mb occ c sq q) :
    Attacker mb occ2 c sq q := by
  rw [attacker_iff hsq] at a ⊢
  rcases a with a | ⟨d, n, sv, hc⟩
  · exact Or.inl a
  · refine Or.inr ⟨d, n, sv, fun j hj hjn => ?_⟩
    cases hx : occ2.testBit (stepSq sq d j)
    · rfl
    · have := h _ hx
      rw [hc j hj hjn] at this
      exact Bool.noConfusion this

/-- The en-passant square is a knight's jump away from a king that the captured pawn attacks,
so it lies on no line through that king. -/
theorem ep_geometry {us cap dst k j : Nat} (hus : us < 2) (hk : k < 64)
    (h1 : Spec.dFile cap dst = 0) (h2 : Spec.dRank cap dst = Spec.forward us)
    (h3 : Spec.pawnTakes (Color.flip us) cap k = true) (hb : Between k j dst) : False := by
  have hc : us = 0 ∨ us = 1 := by omega
  obtain ⟨d, hd, n, jj, hj, hjn, ho, _, hx⟩ := hb
  have c := stepSq_coords (stepOn_mono hk hd ho (Nat.le_of_lt hjn))
  rw [← hx] at c
  unfold Spec.pawnTakes at h3
  unfold Spec.dFile at h1 h3
  unfold Spec.dRank at h2 h3
  simp only [rankOf_eq, fileOf_eq, Bool.and_eq_true, beq_iff_eq] at h1 h2 h3
  have h4 : (((dst / 8 : Nat) : Int) - ((cap / 8 : Nat) : Int) = 1 ∧
      ((k / 8 : Nat) : Int) - ((cap / 8 : Nat) : Int) = -1) ∨
      (((dst / 8 : Nat) : Int) - ((cap / 8 : Nat) : Int) = -1 ∧
      ((k / 8 : Nat) : Int) - ((cap / 8 : Nat) : Int) = 1) := by
    rcases hc with rfl | rfl
    · exact Or.inl ⟨h2, h3.2⟩
    · exact Or.inr ⟨h2, h3.2⟩
  have h5 := h3.1
  clear h2 h3
  unfold IsDir at hd
  rcases hd with rfl | rfl | rfl | rfl | rfl | rfl | rfl | rfl <;> simp only at c <;> omega

section
variable {T : Lookups} {b : Board}

/-- An en-passant capture that leaves the king unattacked exists only when there is at most
one check. -/
theorem Pos.ep_needs_one (P : Pos T b) (Z : ZobristKeys) {m : Move} (ht : m.type = MT_EN_PASSANT)
    (hs : b.mailbox_ m.src = code b.sideToMove_ PAWN) (he : b.epSquare_ = (m.dst : Int))
    (htk : Spec.pawnTakes b.sideToMove_ m.src m.dst = true)
    (hsafe : Spec.kingSafeAfter T Z b m = true) : popCount (b.checkers T) ≤ 1 := by
  have hus := P.rng.side
  have hk := P.inv.kingLt _ hus
  have hep : 0 ≤ b.epSquare_ := by omega
  have e : b.epSquare_.toNat = m.dst := by omega
  obtain ⟨_, _, hd, hcap, hcm, g1, g2⟩ := P.ep_facts hep
  rw [e] at hd hcap hcm g1 g2
  have hok : MoveOk b m := MoveOk.enPassant ht hs hd hcap hcm
  have A := after_en_passant P.inv rfl hus ht hs hd hcap hcm
  have hno := (safeAfter_iff P Z hok A).1 hsafe
  have hcs : capSqOf b.sideToMove_ m.dst ≠ m.src := by
    intro e2
    rw [e2, hs] at hcm
    exact flip_ne hus (code_inj ⟨hus, by decide⟩ ⟨P.them_lt, by decide⟩ hcm).1.symm
  have hck : capSqOf b.sideToMove_ m.dst ≠ b.kingSquare_ b.sideToMove_ := by
    intro e2
    rw [e2, P.scene.king] at hcm
    exact flip_ne hus (code_inj ⟨hus, by decide⟩ ⟨P.them_lt, by decide⟩ hcm).1.symm
  have hcd : capSqOf b.sideToMove_ m.dst ≠ m.dst := by
    intro e2
    rw [e2, hd] at hcm
    exact code_ne_empty ⟨P.them_lt, by decide⟩ hcm.symm
  have S2 : Scene (setAt b.mailbox_ (capSqOf b.sideToMove_ m.dst) 0xFF)
      (b.occupied_ ^^^ squareBB (capSqOf b.sideToMove_ m.dst)) b.sideToMove_
      (b.kingSquare_ b.sideToMove_) := by
    refine ⟨hus, hk, ?_, ?_⟩
    · rw [setAt_other _ _ (fun e2 => hck e2.symm)]; exact P.scene.king
    · intro x
      rw [Nat.testBit_xor, testBit_squareBB]
      by_cases e2 : x = capSqOf b.sideToMove_ m.dst
      · subst e2
        rw [setAt_same, (P.inv.occ_iff _).2 ⟨hcap, by rw [hcm]; exact code_ne_empty ⟨P.them_lt, by decide⟩⟩]
        simp
      · rw [setAt_other _ _ e2]
        have e3 : ¬ capSqOf b.sideToMove_ m.dst = x := fun e4 => e2 e4.symm
        simp only [e3, decide_False, Bool.xor_false]
        exact P.inv.occ_iff x
  have M2 : Step (setAt b.mailbox_ (capSqOf b.sideToMove_ m.dst) 0xFF)
      (setAt (setAt (setAt b.mailbox_ (capSqOf b.sideToMove_ m.dst) 0xFF) m.src 0xFF) m.dst
        (code b.sideToMove_ PAWN)) (b.applyPieces m).occupied_ b.sideToMove_ m.src m.dst := by
    refine ⟨m.src_lt, m.dst_lt, ⟨PAWN, by decide, by decide, ?_⟩, Or.inl ?_, ?_, ⟨PAWN, by decide, rfl⟩,
      A.newOcc_iff⟩
    · rw [setAt_other _ _ (fun e2 => hcs e2.symm)]; exact hs
    · rw [setAt_other _ _ (fun e2 => hcd e2.symm)]; exact hd
    · intro x hb
      exact (kingStep_not_between (pawnTakes_kingStep htk) hb).elim
  obtain ⟨hC2, _⟩ := (safe_iff S2 M2).1 hno
  have lift : ∀ q, q < 64 → q ≠ capSqOf b.sideToMove_ m.dst →
      Attacker b.mailbox_ b.occupied_ (Color.flip b.sideToMove_) (b.kingSquare_ b.sideToMove_) q →
      Attacker (setAt b.mailbox_ (capSqOf b.sideToMove_ m.dst) 0xFF)
        (b.occupied_ ^^^ squareBB (capSqOf b.sideToMove_ m.dst)) (Color.flip b.sideToMove_)
        (b.kingSquare_ b.sideToMove_) q := by
    intro q hq hqc a
    refine (attacker_congr (fun X _ => by rw [setAt_other _ _ hqc])).2 (attacker_mono hk ?_ a)
    intro x hx
    have := (S2.occ_iff x).1 hx
    by_cases e2 : x = capSqOf b.sideToMove_ m.dst
    · rw [e2, setAt_same] at this; exact absurd rfl this.2
    · rw [setAt_other _ _ e2] at this; exact (P.inv.occ_iff x).2 this
  have hocc2 : ∀ q, q < 64 →
      Attacker (setAt b.mailbox_ (capSqOf b.sideToMove_ m.dst) 0xFF)
        (b.occupied_ ^^^ squareBB (capSqOf b.sideToMove_ m.dst)) (Color.flip b.sideToMove_)
        (b.kingSquare_ b.sideToMove_) q →
      (b.occupied_ ^^^ squareBB (capSqOf b.sideToMove_ m.dst)).testBit q = true :=
    fun q hq a => (S2.occ_iff q).2 ⟨hq, a.occupied P.them_lt⟩
  have one : ∀ q, q < 64 → q ≠ capSqOf b.sideToMove_ m.dst →
      Attacker b.mailbox_ b.occupied_ (Color.flip b.sideToMove_) (b.kingSquare_ b.sideToMove_) q →
      Attacker b.mailbox_ b.occupied_ (Color.flip b.sideToMove_) (b.kingSquare_ b.sideToMove_)
        (capSqOf b.sideToMove_ m.dst) → False := by
    intro q hq hqc a ac
    have hp : Spec.pawnTakes (Color.flip b.sideToMove_) (capSqOf b.sideToMove_ m.dst)
        (b.kingSquare_ b.sideToMove_) = true := by
      have hx : ∀ X : Nat, X < 6 → X ≠ PAWN →
          ¬ b.mailbox_ (capSqOf b.sideToMove_ m.dst) = code (Color.flip b.sideToMove_) X := by
        intro X hX hXp e2
        rw [hcm] at e2
        exact hXp (code_inj ⟨P.them_lt, by decide⟩ ⟨P.them_lt, hX⟩ e2).2.symm
      rcases ac with ⟨_, h⟩ | ⟨h, _⟩ | ⟨h, _⟩ | ⟨h | h, _⟩ | ⟨h | h, _⟩
      · exact h
      · exact absurd h (hx KNIGHT (by decide) (by decide))
      · exact absurd h (hx KING (by decide) (by decide))
      · exact absurd h (hx ROOK (by decide) (by decide))
      · exact absurd h (hx QUEEN (by decide) (by decide))
      · exact absurd h (hx BISHOP (by decide) (by decide))
      · exact absurd h (hx QUEEN (by decide) (by decide))
    rcases hC2 q hq (lift q hq hqc a) with e2 | hb
    · exact a.occupied P.them_lt (by rw [← e2]; exact hd)
    · exact ep_geometry hus hk g1 g2 hp hb
  rw [popCount_le_one_iff]
  intro i j hi hj bi bj
  have ai := ((P.checkers_iff i).1 bi).2
  have aj := ((P.checkers_iff j).1 bj).2
  by_contra hne
  by_cases ei : i = capSqOf b.sideToMove_ m.dst
  · by_cases ej : j = capSqOf b.sideToMove_ m.dst
    · exact hne (ei.trans ej.symm)
    · rw [ei] at ai
      exact one j hj ej aj ai
  · by_cases ej : j = capSqOf b.sideToMove_ m.dst
    · rw [ej] at aj
      exact one i hi ei ai aj
    · exact hne (checkers_unique S2 hocc2 hC2 hi (lift i hi ei ai) hj (lift j hj ej aj))

end

end Board

end chess

/-!
# The reference description, by the type of the move
-/

namespace chess

open Tables

namespace Board

theorem pseudo_normal (T : Lookups) (b : Board) (m : Move) (ht : m.type = MT_NORMAL) :
    Spec.pseudoLegal T b m = true ↔
      (m = Move.normal m.src m.dst ∧ Spec.colorIs b m.dst b.sideToMove_ = false ∧
        ((b.mailbox_ m.src = code b.sideToMove_ KNIGHT ∧ Spec.knightJump m.src m.dst = true) ∨
         (b.mailbox_ m.src = code b.sideToMove_ KING ∧ Spec.kingStep m.src m.dst = true) ∨
         (b.mailbox_ m.src = code b.sideToMove_ BISHOP ∧ Spec.slides b bishopDirs m.src m.dst = true) ∨
         (b.mailbox_ m.src = code b.sideToMove_ ROOK ∧ Spec.slides b rookDirs m.src m.dst = true) ∨
         (b.mailbox_ m.src = code b.sideToMove_ QUEEN ∧ Spec.slides b Spec.queenDirs m.src m.dst = true) ∨
         (b.mailbox_ m.src = code b.sideToMove_ PAWN ∧ rankOf m.dst ≠ Spec.lastRank b.sideToMove_ ∧
           PawnPat b b.sideToMove_ m.src m.dst))) := by
  unfold Spec.pseudoLegal PawnPat
  simp only []
  rw [if_pos ht]
  simp only [Bool.and_eq_true, Bool.or_eq_true, beq_iff_eq, pieceIs_iff, Bool.not_eq_true_eq_eq_false,
    bne_iff_ne, ne_eq, and_assoc, or_assoc]

theorem pseudo_promo (T : Lookups) (b : Board) (m : Move) (ht : m.type = MT_PROMOTION) :
    Spec.pseudoLegal T b m = true ↔
      ((m = Move.make m.src m.dst MT_PROMOTION QUEEN ∨ m = Move.make m.src m.dst MT_PROMOTION ROOK ∨
        m = Move.make m.src m.dst MT_PROMOTION BISHOP ∨ m = Move.make m.src m.dst MT_PROMOTION KNIGHT) ∧
        b.mailbox_ m.src = code b.sideToMove_ PAWN ∧ rankOf m.dst = Spec.lastRank b.sideToMove_ ∧
        (Spec.pawnPush b b.sideToMove_ m.src m.dst = true ∨
          (Spec.pawnTakes b.sideToMove_ m.src m.dst = true ∧
            Spec.colorIs b m.dst (Color.flip b.sideToMove_) = true))) := by
  unfold Spec.pseudoLegal
  simp only []
  rw [if_neg (by rw [ht]; decide), if_pos ht]
  simp only [Bool.and_eq_true, Bool.or_eq_true, beq_iff_eq, pieceIs_iff, List.any_cons, List.any_nil,
    Bool.or_false]
  tauto

theorem pseudo_ep (T : Lookups) (b : Board) (m : Move) (ht : m.type = MT_EN_PASSANT) :
    Spec.pseudoLegal T b m = true ↔
      (m = Move.make m.src m.dst MT_EN_PASSANT KNIGHT ∧ b.mailbox_ m.src = code b.sideToMove_ PAWN ∧
        b.epSquare_ = (m.dst : Int) ∧ Spec.pawnTakes b.sideToMove_ m.src m.dst = true) := by
  unfold Spec.pseudoLegal
  simp only []
  rw [if_neg (by rw [ht]; decide), if_neg (by rw [ht]; decide), if_pos ht]
  simp only [Bool.and_eq_true, beq_iff_eq, pieceIs_iff, decide_eq_true_eq]
  tauto

theorem pseudo_castle (T : Lookups) (b : Board) (m : Move) (ht : m.type = MT_CASTLING) :
    Spec.pseudoLegal T b m = true ↔
      ((m = Move.make (homeSq b.sideToMove_) (homeSq b.sideToMove_ + 2) MT_CASTLING KNIGHT ∧
          Spec.canCastle T b 0 = true) ∨
        (m = Move.make (homeSq b.sideToMove_) (homeSq b.sideToMove_ - 2) MT_CASTLING KNIGHT ∧
          Spec.canCastle T b 1 = true)) := by
  unfold Spec.pseudoLegal homeSq
  simp only []
  rw [if_neg (by rw [ht]; decide), if_neg (by rw [ht]; decide), if_neg (by rw [ht]; decide)]
  simp only [Bool.and_eq_true, Bool.or_eq_true, beq_iff_eq]

theorem type_cases (m : Move) :
    m.type = MT_NORMAL ∨ m.type = MT_PROMOTION ∨ m.type = MT_EN_PASSANT ∨ m.type = MT_CASTLING := by
  have h := m.type_lt
  have h4 : ∀ t : Nat, t < 4 → t = 0 ∨ t = 1 ∨ t = 2 ∨ t = 3 := fun t ht => by omega
  exact h4 _ h

theorem homeSq_lt (us : Nat) : homeSq us < 64 ∧ homeSq us + 2 < 64 ∧ homeSq us - 2 < 64 := by
  unfold homeSq
  split <;> omega

/-- A castling move of the reference description has the type of a castling move. -/
theorem castle_type {us : Nat} {m : Move}
    (h : m = Move.make (homeSq us) (homeSq us + 2) MT_CASTLING KNIGHT ∨
      m = Move.make (homeSq us) (homeSq us - 2) MT_CASTLING KNIGHT) : m.type = MT_CASTLING := by
  obtain ⟨h1, h2, h3⟩ := homeSq_lt us
  rcases h with rfl | rfl
  · exact (Move.make_fields h1 h2 (by decide : MT_CASTLING < 4) (by decide : 1 ≤ KNIGHT ∧ KNIGHT ≤ 4)).2.2.1
  · exact (Move.make_fields h1 h3 (by decide : MT_CASTLING < 4) (by decide : 1 ≤ KNIGHT ∧ KNIGHT ≤ 4)).2.2.1

end Board

end chess

/-!
# The legal moves of the reference description, kind by kind
-/

namespace chess

open Tables

namespace Board

/-- A legal king move. -/
def LegalK (T : Lookups) (Z : ZobristKeys) (b : Board) (m : Move) : Prop :=
  m.type = MT_NORMAL ∧ m = Move.normal m.src m.dst ∧
    b.mailbox_ m.src = code b.sideToMove_ KING ∧ Spec.kingStep m.src m.dst = true ∧
    (¬ ∃ pt : Nat, pt < 6 ∧ b.mailbox_ m.dst = code b.sideToMove_ pt) ∧
    Spec.kingSafeAfter T Z b m = true

/-- A legal move of a knight, bishop, rook or queen. -/
def LegalX (T : Lookups) (Z : ZobristKeys) (b : Board) (PT : Nat) (m : Move) : Prop :=
  m.type = MT_NORMAL ∧ m = Move.normal m.src m.dst ∧
    b.mailbox_ m.src = code b.sideToMove_ PT ∧ Patt b.occupied_ PT m.src m.dst ∧
    (¬ ∃ pt : Nat, pt < 6 ∧ b.mailbox_ m.dst = code b.sideToMove_ pt) ∧
    Spec.kingSafeAfter T Z b m = true

/-- A legal push, capture or promotion of a pawn. -/
def LegalP (T : Lookups) (Z : ZobristKeys) (b : Board) (m : Move) : Prop :=
  b.mailbox_ m.src = code b.sideToMove_ PAWN ∧ PawnPat b b.sideToMove_ m.src m.dst ∧
    PawnForm b.sideToMove_ m ∧ Spec.kingSafeAfter T Z b m = true

/-- A legal castling move. -/
def LegalC (T : Lookups) (Z : ZobristKeys) (b : Board) (m : Move) : Prop :=
  ((m = Move.make (homeSq b.sideToMove_) (homeSq b.sideToMove_ + 2) MT_CASTLING KNIGHT ∧
      Spec.canCastle T b 0 = true) ∨
    (m = Move.make (homeSq b.sideToMove_) (homeSq b.sideToMove_ - 2) MT_CASTLING KNIGHT ∧
      Spec.canCastle T b 1 = true)) ∧
    Spec.kingSafeAfter T Z b m = true

/-- A legal en-passant capture. -/
def LegalE (T : Lookups) (Z : ZobristKeys) (b : Board) (m : Move) : Prop :=
  m.type = MT_EN_PASSANT ∧ m = Move.make m.src m.dst MT_EN_PASSANT KNIGHT ∧
    b.mailbox_ m.src = code b.sideToMove_ PAWN ∧ b.epSquare_ = (m.dst : Int) ∧
    Spec.pawnTakes b.sideToMove_ m.src m.dst = true ∧ Spec.kingSafeAfter T Z b m = true

theorem colorIs_false_iff (b : Board) (s c : Nat) :
    Spec.colorIs b s c = false ↔ ¬ ∃ pt : Nat, pt < 6 ∧ b.mailbox_ s = code c pt := by
  rw [← Bool.not_eq_true, colorIs_iff]

theorem LegalC.isCastling {T : Lookups} {Z : ZobristKeys} {b : Board} {m : Move} (h : LegalC T Z b m) :
    m.type = MT_CASTLING := by
  rcases h.1 with h1 | h1
  · exact castle_type (Or.inl h1.1)
  · exact castle_type (Or.inr h1.1)

theorem LegalP.normalOrPromo {T : Lookups} {Z : ZobristKeys} {b : Board} {m : Move} (h : LegalP T Z b m) :
    m.type = MT_NORMAL ∨ m.type = MT_PROMOTION := by
  rcases h.2.2.1 with h1 | h1
  · exact Or.inl h1.1
  · exact Or.inr h1.1

section
variable {T : Lookups} {b : Board}

theorem Pos.pawnPat_not_own (P : Pos T b) {s t : Nat} (h : PawnPat b b.sideToMove_ s t) :
    ¬ ∃ pt : Nat, pt < 6 ∧ b.mailbox_ t = code b.sideToMove_ pt := by
  rcases h with h | h | ⟨_, h⟩
  · rintro ⟨pt, hpt, e⟩
    rw [((pushPat_iff _ _ _ _).1 h).2] at e
    exact code_ne_empty ⟨P.rng.side, hpt⟩ e.symm
  · rintro ⟨pt, hpt, e⟩
    rw [((doublePat_iff _ _ _ _).1 h).2.2.2] at e
    exact code_ne_empty ⟨P.rng.side, hpt⟩ e.symm
  · exact enemy_not_own P.rng.side ((colorIs_iff _ _ _).1 h)

/-- A double push does not reach the last rank. -/
theorem Pos.double_not_last (P : Pos T b) {s t : Nat} (hs : s < 64) (ht : t < 64)
    (h : Spec.pawnDoublePush b b.sideToMove_ s t = true) : rankOf t ≠ Spec.lastRank b.sideToMove_ := by
  obtain ⟨h1, h2, _⟩ := (doublePat_iff _ _ _ _).1 h
  rw [startRank_eq] at h1
  obtain ⟨_, _, d3, d4⟩ := double_square P.rng.side hs h1
  rw [(d4 t ht).1 h2]
  exact d3

/-- The legal moves of the reference description are of one of eight kinds. -/
theorem Pos.legal_iff (P : Pos T b) (Z : ZobristKeys) (m : Move) :
    Spec.legal T Z b m = true ↔
      (LegalK T Z b m ∨ LegalP T Z b m ∨ LegalX T Z b KNIGHT m ∨ LegalX T Z b BISHOP m ∨
        LegalX T Z b ROOK m ∨ LegalX T Z b QUEEN m ∨ LegalC T Z b m ∨ LegalE T Z b m) := by
  have hne : ∀ {t1 t2 : Nat}, m.type = t1 → m.type = t2 → t1 ≠ t2 → False :=
    fun h1 h2 h3 => h3 (h1.symm.trans h2)
  unfold Spec.legal
  rw [Bool.and_eq_true]
  rcases type_cases m with ht | ht | ht | ht
  · rw [pseudo_normal T b m ht, colorIs_false_iff]
    constructor
    · rintro ⟨⟨hm, hown, hpat⟩, hs⟩
      rcases hpat with h | h | h | h | h | h
      · exact Or.inr (Or.inr (Or.inl ⟨ht, hm, h.1,
          (patt_spec P.inv m.src_lt _).2 (Or.inl ⟨rfl, h.2⟩), hown, hs⟩))
      · exact Or.inl ⟨ht, hm, h.1, h.2, hown, hs⟩
      · exact Or.inr (Or.inr (Or.inr (Or.inl ⟨ht, hm, h.1,
          (patt_spec P.inv m.src_lt _).2 (Or.inr (Or.inl ⟨rfl, h.2⟩)), hown, hs⟩)))
      · exact Or.inr (Or.inr (Or.inr (Or.inr (Or.inl ⟨ht, hm, h.1,
          (patt_spec P.inv m.src_lt _).2 (Or.inr (Or.inr (Or.inl ⟨rfl, h.2⟩))), hown, hs⟩))))
      · exact Or.inr (Or.inr (Or.inr (Or.inr (Or.inr (Or.inl ⟨ht, hm, h.1,
          (patt_spec P.inv m.src_lt _).2 (Or.inr (Or.inr (Or.inr ⟨rfl, h.2⟩))), hown, hs⟩)))))
      · exact Or.inr (Or.inl ⟨h.1, h.2.2, Or.inl ⟨ht, hm, h.2.1⟩, hs⟩)
    · rintro (h | h | h | h | h | h | h | h)
      · exact ⟨⟨h.2.1, h.2.2.2.2.1, Or.inr (Or.inl ⟨h.2.2.1, h.2.2.2.1⟩)⟩, h.2.2.2.2.2⟩
      · obtain ⟨hp, hpat, hform, hs⟩ := h
        rcases hform with ⟨_, hm, hr⟩ | ⟨h1, _⟩
        · exact ⟨⟨hm, P.pawnPat_not_own hpat,
            Or.inr (Or.inr (Or.inr (Or.inr (Or.inr ⟨hp, hr, hpat⟩))))⟩, hs⟩
        · exact (hne ht h1 (by decide)).elim
      · obtain ⟨_, hm, hp, hpat, hown, hs⟩ := h
        rcases (patt_spec P.inv m.src_lt _).1 hpat with h1 | h1 | h1 | h1
        · exact ⟨⟨hm, hown, Or.inl ⟨hp, h1.2⟩⟩, hs⟩
        · exact absurd h1.1 (by decide)
        · exact absurd h1.1 (by decide)
        · exact absurd h1.1 (by decide)
      · obtain ⟨_, hm, hp, hpat, hown, hs⟩ := h
        rcases (patt_spec P.inv m.src_lt _).1 hpat with h1 | h1 | h1 | h1
        · exact absurd h1.1 (by decide)
        · exact ⟨⟨hm, hown, Or.inr (Or.inr (Or.inl ⟨hp, h1.2⟩))⟩, hs⟩
        · exact absurd h1.1 (by decide)
        · exact absurd h1.1 (by decide)
      · obtain ⟨_, hm, hp, hpat, hown, hs⟩ := h
        rcases (patt_spec P.inv m.src_lt _).1 hpat with h1 | h1 | h1 | h1
        · exact absurd h1.1 (by decide)
        · exact absurd h1.1 (by decide)
        · exact ⟨⟨hm, hown, Or.inr (Or.inr (Or.inr (Or.inl ⟨hp, h1.2⟩)))⟩, hs⟩
        · exact absurd h1.1 (by decide)
      · obtain ⟨_, hm, hp, hpat, hown, hs⟩ := h
        rcases (patt_spec P.inv m.src_lt _).1 hpat with h1 | h1 | h1 | h1
        · exact absurd h1.1 (by decide)
        · exact absurd h1.1 (by decide)
        · exact absurd h1.1 (by decide)
        · exact ⟨⟨hm, hown, Or.inr (Or.inr (Or.inr (Or.inr (Or.inl ⟨hp, h1.2⟩))))⟩, hs⟩
      · exact (hne ht h.isCastling (by decide)).elim
      · exact (hne ht h.1 (by decide)).elim
  · rw [pseudo_promo T b m ht]
    constructor
    · rintro ⟨⟨hm, hp, hr, hpat⟩, hs⟩
      refine Or.inr (Or.inl ⟨hp, ?_, Or.inr ⟨ht, hm, hr⟩, hs⟩)
      rcases hpat with h | h
      · exact Or.inl h
      · exact Or.inr (Or.inr h)
    · rintro (h | h | h | h | h | h | h | h)
      · exact (hne ht h.1 (by decide)).elim
      · obtain ⟨hp, hpat, hform, hs⟩ := h
        rcases hform with ⟨h1, _⟩ | ⟨_, hm, hr⟩
        · exact (hne ht h1 (by decide)).elim
        · refine ⟨⟨hm, hp, hr, ?_⟩, hs⟩
          rcases hpat with h | h | h
          · exact Or.inl h
          · exact absurd hr (P.double_not_last m.src_lt m.dst_lt h)
          · exact Or.inr h
      · exact (hne ht h.1 (by decide)).elim
      · exact (hne ht h.1 (by decide)).elim
      · exact (hne ht h.1 (by decide)).elim
      · exact (hne ht h.1 (by decide)).elim
      · exact (hne ht h.isCastling (by decide)).elim
      · exact (hne ht h.1 (by decide)).elim
  · rw [pseudo_ep T b m ht]
    constructor
    · rintro ⟨⟨hm, hp, he, htk⟩, hs⟩
      exact Or.inr (Or.inr (Or.inr (Or.inr (Or.inr (Or.inr (Or.inr ⟨ht, hm, hp, he, htk, hs⟩))))))
    · rintro (h | h | h | h | h | h | h | h)
      · exact (hne ht h.1 (by decide)).elim
      · rcases h.normalOrPromo with h1 | h1
        · exact (hne ht h1 (by decide)).elim
        · exact (hne ht h1 (by decide)).elim
      · exact (hne ht h.1 (by decide)).elim
      · exact (hne ht h.1 (by decide)).elim
      · exact (hne ht h.1 (by decide)).elim
      · exact (hne ht h.1 (by decide)).elim
      · exact (hne ht h.isCastling (by decide)).elim
      · exact ⟨⟨h.2.1, h.2.2.1, h.2.2.2.1, h.2.2.2.2.1⟩, h.2.2.2.2.2⟩
  · rw [pseudo_castle T b m ht]
    constructor
    · rintro ⟨h, hs⟩
      exact Or.inr (Or.inr (Or.inr (Or.inr (Or.inr (Or.inr (Or.inl ⟨h, hs⟩))))))
    · rintro (h | h | h | h | h | h | h | h)
      · exact (hne ht h.1 (by decide)).elim
      · rcases h.normalOrPromo with h1 | h1
        · exact (hne ht h1 (by decide)).elim
        · exact (hne ht h1 (by decide)).elim
      · exact (hne ht h.1 (by decide)).elim
      · exact (hne ht h.1 (by decide)).elim
      · exact (hne ht h.1 (by decide)).elim
      · exact (hne ht h.1 (by decide)).elim
      · exact h
      · exact (hne ht h.1 (by decide)).elim

end

end Board

end chess

/-!
# The generated list is the list of the legal moves
-/

namespace chess

open Tables

namespace Board

/-- The target mask of `generateLegalMoves`. -/
def targetMaskOf (T : Lookups) (b : Board) : Bitboard :=
  if popCount (b.checkers T) = 1
  then T.BETWEEN_BB (b.kingSquare_ b.sideToMove_) (lsb (b.checkers T)) ||| b.checkers T
  else ALL

/-- The pawn moves that `generateLegalMoves` emits. -/
def pawnPart (T : Lookups) (b : Board) : List Move :=
  (bitsOf (b.pieces_ b.sideToMove_ PAWN)).flatMap (fun src =>
    pawnPushes T b src b.sideToMove_ (b.kingSquare_ b.sideToMove_)
      ((b.pinnedPieces T b.sideToMove_ (Color.flip b.sideToMove_) (b.kingSquare_ b.sideToMove_))
        &&& squareBB src != 0) (targetMaskOf T b) ++
    (bitsOf (pawnCaptureBB T b src b.sideToMove_ (Color.flip b.sideToMove_)
      (b.kingSquare_ b.sideToMove_)
      ((b.pinnedPieces T b.sideToMove_ (Color.flip b.sideToMove_) (b.kingSquare_ b.sideToMove_))
        &&& squareBB src != 0) (targetMaskOf T b))).flatMap
      (fun dst => pawnStep (rankOf src) (if b.sideToMove_ = WHITE then 6 else 1) src dst))

/-- The moves that `generateLegalMoves` emits for the knights, bishops, rooks or queens. -/
def piecePart (T : Lookups) (b : Board) (PT : Nat) : List Move :=
  (bitsOf (b.pieces_ b.sideToMove_ PT)).flatMap (fun src =>
    (bitsOf (pieceTargets T b PT src b.sideToMove_ (b.kingSquare_ b.sideToMove_)
      (b.pinnedPieces T b.sideToMove_ (Color.flip b.sideToMove_) (b.kingSquare_ b.sideToMove_))
      (targetMaskOf T b))).map (Move.normal src))

/-- The list that `generateLegalMoves` builds when there is at most one check. -/
def fullList (T : Lookups) (Z : ZobristKeys) (b : Board) : List Move :=
  b.generateKingMoves T b.sideToMove_ (Color.flip b.sideToMove_) (b.kingSquare_ b.sideToMove_) ++
    pawnPart T b ++ piecePart T b KNIGHT ++ piecePart T b BISHOP ++ piecePart T b ROOK ++
    piecePart T b QUEEN ++
    (if popCount (b.checkers T) = 0
      then b.generateCastling T [] b.sideToMove_ (Color.flip b.sideToMove_) else []) ++
    (if 0 ≤ b.epSquare_ then epList T Z b else [])

section
variable {T : Lookups} {b : Board}

/-- The body of `generateLegalMoves` on a consistent position. -/
theorem Pos.generateMoves_eq (P : Pos T b) (Z : ZobristKeys) :
    b.generateMoves T Z =
      if popCount (b.checkers T) > 1 then
        some (b.generateKingMoves T b.sideToMove_ (Color.flip b.sideToMove_)
          (b.kingSquare_ b.sideToMove_), b)
      else if b.pieces_ b.sideToMove_ PAWN &&& lastRankBB b.sideToMove_ ≠ 0 then none
      else some (fullList T Z b, b) := by
  have hus := P.rng.side
  have hk := P.inv.kingLt _ hus
  have hlt : ∀ pt : Nat, pt < 6 → b.pieces_ b.sideToMove_ pt < 2 ^ 64 :=
    fun pt hpt => P.inv.pieces_lt ⟨hus, hpt⟩
  unfold generateMoves kingSq
  simp only []
  rw [if_neg (by omega)]
  by_cases h1 : popCount (b.checkers T) > 1
  · rw [if_pos h1, if_pos h1]
  rw [if_neg h1, if_neg h1]
  by_cases h2 : b.pieces_ b.sideToMove_ PAWN &&& lastRankBB b.sideToMove_ ≠ 0
  · rw [if_pos h2, if_pos h2]
  rw [if_neg h2, if_neg h2]
  rw [generatePieceMoves_pawn T b _ _ _ _ _ _ (hlt PAWN (by decide)) (P.inv.byColor_lt P.them_lt),
    generatePieceMoves_eq T b KNIGHT (by decide) _ _ _ _ _ _ (hlt KNIGHT (by decide)),
    generatePieceMoves_eq T b BISHOP (by decide) _ _ _ _ _ _ (hlt BISHOP (by decide)),
    generatePieceMoves_eq T b ROOK (by decide) _ _ _ _ _ _ (hlt ROOK (by decide)),
    generatePieceMoves_eq T b QUEEN (by decide) _ _ _ _ _ _ (hlt QUEEN (by decide))]
  unfold fullList pawnPart piecePart targetMaskOf
  by_cases h3 : popCount (b.checkers T) = 0
  · rw [if_pos h3, if_pos h3, generateCastling_eq]
    by_cases h4 : 0 ≤ b.epSquare_
    · rw [if_pos (ge_iff_le.2 h4), if_pos h4, P.ep_list Z _ h4]
    · rw [if_neg (fun h => h4 (ge_iff_le.1 h)), if_neg h4, List.append_nil]
  · rw [if_neg h3, if_neg h3, List.append_nil]
    by_cases h4 : 0 ≤ b.epSquare_
    · rw [if_pos (ge_iff_le.2 h4), if_pos h4, P.ep_list Z _ h4]
    · rw [if_neg (fun h => h4 (ge_iff_le.1 h)), if_neg h4, List.append_nil]

/-- With at most one check and no pawn on its last rank, the generated list holds exactly the
legal moves of the reference description. -/
theorem Pos.mem_fullList (P : Pos T b) (Z : ZobristKeys) (hn : popCount (b.checkers T) ≤ 1)
    (hp : b.okPawns = true) (m : Move) : m ∈ fullList T Z b ↔ Spec.legal T Z b m = true := by
  have hK : m ∈ b.generateKingMoves T b.sideToMove_ (Color.flip b.sideToMove_)
      (b.kingSquare_ b.sideToMove_) ↔ LegalK T Z b m := P.king_part_iff Z m
  have hP : m ∈ pawnPart T b ↔ LegalP T Z b m := P.pawn_part_iff Z hn hp m
  have hN : m ∈ piecePart T b KNIGHT ↔ LegalX T Z b KNIGHT m := P.piece_part_iff Z hn (Or.inl rfl) m
  have hB : m ∈ piecePart T b BISHOP ↔ LegalX T Z b BISHOP m :=
    P.piece_part_iff Z hn (Or.inr (Or.inl rfl)) m
  have hR : m ∈ piecePart T b ROOK ↔ LegalX T Z b ROOK m :=
    P.piece_part_iff Z hn (Or.inr (Or.inr (Or.inl rfl))) m
  have hQ : m ∈ piecePart T b QUEEN ↔ LegalX T Z b QUEEN m :=
    P.piece_part_iff Z hn (Or.inr (Or.inr (Or.inr rfl))) m
  have hC : m ∈ (if popCount (b.checkers T) = 0
      then b.generateCastling T [] b.sideToMove_ (Color.flip b.sideToMove_) else []) ↔
      LegalC T Z b m := by
    rw [LegalC, ← P.castle_part_iff Z m]
    by_cases h0 : popCount (b.checkers T) = 0
    · rw [if_pos h0]; exact ⟨fun h => ⟨h0, h⟩, fun h => h.2⟩
    · rw [if_neg h0]; exact ⟨fun h => absurd h (List.not_mem_nil _), fun h => absurd h.1 h0⟩
  have hE : m ∈ (if 0 ≤ b.epSquare_ then epList T Z b else []) ↔ LegalE T Z b m := by
    by_cases h0 : 0 ≤ b.epSquare_
    · rw [if_pos h0]; exact P.ep_part_iff Z h0 m
    · rw [if_neg h0]
      constructor
      · exact fun h => absurd h (List.not_mem_nil _)
      · intro h
        have := h.2.2.2.1
        omega
  rw [P.legal_iff Z m]
  unfold fullList
  simp only [List.mem_append, or_assoc]
  rw [hK, hP, hN, hB, hR, hQ, hC, hE]

/-- In a double check the king moves are the only legal moves. -/
theorem Pos.mem_kingOnly (P : Pos T b) (Z : ZobristKeys) (hn : popCount (b.checkers T) > 1)
    (m : Move) :
    m ∈ b.generateKingMoves T b.sideToMove_ (Color.flip b.sideToMove_) (b.kingSquare_ b.sideToMove_) ↔
      Spec.legal T Z b m = true := by
  rw [P.legal_iff Z m, P.king_part_iff Z m]
  have hX : ∀ PT : Nat, PT = KNIGHT ∨ PT = BISHOP ∨ PT = ROOK ∨ PT = QUEEN → ¬ LegalX T Z b PT m :=
    fun PT hPT h => absurd (P.piece_needs_one Z hPT h.1 h.2.2.1 h.2.2.2.1 h.2.2.2.2.1 h.2.2.2.2.2)
      (by omega)
  constructor
  · exact fun h => Or.inl h
  · rintro (h | h | h | h | h | h | h | h)
    · exact h
    · exact absurd (P.pawn_needs_one Z h.1 h.2.1 h.2.2.1 h.2.2.2) (by omega)
    · exact absurd h (hX _ (Or.inl rfl))
    · exact absurd h (hX _ (Or.inr (Or.inl rfl)))
    · exact absurd h (hX _ (Or.inr (Or.inr (Or.inl rfl))))
    · exact absurd h (hX _ (Or.inr (Or.inr (Or.inr rfl))))
    · have := ((P.castle_part_iff Z m).2 h).1
      omega
    · exact absurd (P.ep_needs_one Z h.1 h.2.2.1 h.2.2.2.1 h.2.2.2.2.1 h.2.2.2.2.2) (by omega)

end

end Board

end chess

/-!
# No move is generated twice: the parts of the list
-/

namespace chess

open Tables

/-- A list built from the lists of distinct sources has no duplicates when every entry names
its source. -/
theorem nodup_flatMap_key {α β : Type} (key : β → α) (g : α → List β) :
    ∀ L : List α, L.Nodup → (∀ a ∈ L, (g a).Nodup) → (∀ a ∈ L, ∀ x ∈ g a, key x = a) →
      (L.flatMap g).Nodup := by
  intro L
  induction L with
  | nil => intro _ _ _; simp
  | cons a l ih =>
    intro hL hg hk
    rw [List.flatMap_cons, List.nodup_append]
    rw [List.nodup_cons] at hL
    refine ⟨hg a (List.mem_cons_self a l), ih hL.2 (fun a2 h2 => hg a2 (List.mem_cons_of_mem a h2))
      (fun a2 h2 => hk a2 (List.mem_cons_of_mem a h2)), ?_⟩
    intro x hx1 hx2
    rw [List.mem_flatMap] at hx2
    obtain ⟨a2, ha2, hx3⟩ := hx2
    have e1 := hk a (List.mem_cons_self a l) x hx1
    have e2 := hk a2 (List.mem_cons_of_mem a ha2) x hx3
    rw [← e1, e2] at hL
    exact hL.1 ha2

/-- Appending a list whose entries are of a kind that the first list does not hold. -/
theorem nodup_append_kind {β : Type} (κ : β → Nat) {l1 l2 : List β} {S : List Nat} {c : Nat}
    (h1 : l1.Nodup ∧ ∀ x ∈ l1, κ x ∈ S) (h2 : l2.Nodup) (k2 : ∀ x ∈ l2, κ x = c) (hc : c ∉ S) :
    (l1 ++ l2).Nodup ∧ ∀ x ∈ l1 ++ l2, κ x ∈ c :: S := by
  refine ⟨List.nodup_append.2 ⟨h1.1, h2, ?_⟩, ?_⟩
  · intro x hx1 hx2
    have := h1.2 x hx1
    rw [k2 x hx2] at this
    exact hc this
  · intro x hx
    rcases List.mem_append.1 hx with h | h
    · exact List.mem_cons_of_mem _ (h1.2 x h)
    · rw [k2 x h]; exact List.mem_cons_self _ _

namespace Board

theorem normal_inj {s d1 d2 : Nat} (hs : s < 64) (h1 : d1 < 64) (h2 : d2 < 64)
    (h : Move.normal s d1 = Move.normal s d2) : d1 = d2 := by
  have e1 := (Move.normal_fields hs h1).2.1
  have e2 := (Move.normal_fields hs h2).2.1
  rw [h] at e1
  exact e1.symm.trans e2

theorem pawnStep_nodup {r pr src t : Nat} (hs : src < 64) (ht : t < 64) :
    (pawnStep r pr src t).Nodup := by
  unfold pawnStep
  have key : ∀ p1 p2 : Nat, 1 ≤ p1 ∧ p1 ≤ 4 → 1 ≤ p2 ∧ p2 ≤ 4 → p1 ≠ p2 →
      Move.make src t MT_PROMOTION p1 ≠ Move.make src t MT_PROMOTION p2 := by
    intro p1 p2 h1 h2 hne e
    have e1 := (Move.make_fields hs ht (by decide : MT_PROMOTION < 4) h1).2.2.2
    have e2 := (Move.make_fields hs ht (by decide : MT_PROMOTION < 4) h2).2.2.2
    rw [e] at e1
    exact hne (e1.symm.trans e2)
  split
  · simp only [List.nodup_cons, List.mem_cons, List.mem_singleton, List.not_mem_nil, or_false,
      not_or, List.nodup_nil, and_true, not_false_eq_true]
    exact ⟨⟨key _ _ (by decide) (by decide) (by decide), key _ _ (by decide) (by decide) (by decide),
      key _ _ (by decide) (by decide) (by decide)⟩,
      ⟨key _ _ (by decide) (by decide) (by decide), key _ _ (by decide) (by decide) (by decide)⟩,
      key _ _ (by decide) (by decide) (by decide)⟩
  · exact List.nodup_singleton _

theorem pawnStep_fields {r pr src t : Nat} {m : Move} (hs : src < 64) (ht : t < 64)
    (hm : m ∈ pawnStep r pr src t) :
    m.src = src ∧ m.dst = t ∧ (m.type = MT_NORMAL ∨ m.type = MT_PROMOTION) := by
  rw [mem_pawnStep] at hm
  rcases hm with ⟨_, hm⟩ | ⟨_, hm⟩
  · have key : ∀ p : Nat, 1 ≤ p ∧ p ≤ 4 → m = Move.make src t MT_PROMOTION p →
        m.src = src ∧ m.dst = t ∧ (m.type = MT_NORMAL ∨ m.type = MT_PROMOTION) := by
      intro p hp e
      obtain ⟨f1, f2, f3, _⟩ := Move.make_fields hs ht (by decide : MT_PROMOTION < 4) hp
      rw [e]
      exact ⟨f1, f2, Or.inr f3⟩
    rcases hm with e | e | e | e
    · exact key QUEEN (by decide) e
    · exact key ROOK (by decide) e
    · exact key BISHOP (by decide) e
    · exact key KNIGHT (by decide) e
  · obtain ⟨f1, f2, f3⟩ := Move.normal_fields hs ht
    rw [hm]
    exact ⟨f1, f2, Or.inl f3⟩

/-- The kind of a move: castling, en passant, or the type of the piece that moves. -/
def kindOf (b : Board) (m : Move) : Nat :=
  if m.type = MT_CASTLING then 6 else if m.type = MT_EN_PASSANT then 7 else b.mailbox_ m.src &&& 7

theorem kindOf_piece {b : Board} {m : Move} {pt : Nat} (hus : b.sideToMove_ < 2) (hpt : pt < 6)
    (ht : m.type = MT_NORMAL ∨ m.type = MT_PROMOTION) (hs : b.mailbox_ m.src = code b.sideToMove_ pt) :
    kindOf b m = pt := by
  unfold kindOf
  have h1 : ¬ m.type = MT_CASTLING := by rcases ht with h | h <;> rw [h] <;> decide
  have h2 : ¬ m.type = MT_EN_PASSANT := by rcases ht with h | h <;> rw [h] <;> decide
  rw [if_neg h1, if_neg h2, hs, code_and7 ⟨hus, hpt⟩]

section
variable {T : Lookups} {b : Board}

theorem Pos.king_nodup (P : Pos T b) :
    (b.generateKingMoves T b.sideToMove_ (Color.flip b.sideToMove_)
      (b.kingSquare_ b.sideToMove_)).Nodup := by
  have hk := P.scene.k_lt
  rw [generateKingMoves_eq]
  apply nodup_flatMap_key Move.dst _ _ (bitsOf_nodup _)
  · intro a _
    split
    · exact List.nodup_singleton _
    · exact List.nodup_nil
  · intro a ha x hx
    rw [mem_bitsOf] at ha
    split at hx
    · rw [List.mem_singleton] at hx
      rw [hx]
      exact (Move.normal_fields hk ha.1).2.1
    · exact absurd hx (List.not_mem_nil _)

theorem piece_nodup (T : Lookups) (b : Board) (PT : Nat) : (piecePart T b PT).Nodup := by
  unfold piecePart
  apply nodup_flatMap_key Move.src _ _ (bitsOf_nodup _)
  · intro a ha
    rw [mem_bitsOf] at ha
    apply List.Nodup.map_on _ (bitsOf_nodup _)
    intro x hx y hy e
    rw [mem_bitsOf] at hx hy
    exact normal_inj ha.1 hx.1 hy.1 e
  · intro a ha x hx
    rw [mem_bitsOf] at ha
    rw [List.mem_map] at hx
    obtain ⟨d, hd, rfl⟩ := hx
    rw [mem_bitsOf] at hd
    exact (Move.normal_fields ha.1 hd.1).1

theorem castle_nodup (T : Lookups) (b : Board) (us them : Nat) :
    (b.generateCastling T [] us them).Nodup := by
  unfold generateCastling
  simp only []
  split_ifs <;> simp <;> decide

theorem Pos.ep_nodup (P : Pos T b) (Z : ZobristKeys) (hep : 0 ≤ b.epSquare_) :
    (epList T Z b).Nodup := by
  obtain ⟨h1, _⟩ := P.ep_facts hep
  unfold epList
  apply nodup_flatMap_key Move.src _ _ (bitsOf_nodup _)
  · intro a _
    split
    · exact List.nodup_singleton _
    · exact List.nodup_nil
  · intro a ha x hx
    rw [mem_bitsOf] at ha
    split at hx
    · rw [List.mem_singleton] at hx
      rw [hx]
      exact (Move.make_fields ha.1 h1 (by decide : MT_EN_PASSANT < 4)
        (by decide : 1 ≤ KNIGHT ∧ KNIGHT ≤ 4)).1
    · exact absurd hx (List.not_mem_nil _)

end

end Board

end chess

/-!
# No move is generated twice: the pawns and the whole list
-/

namespace chess

open Tables

namespace Board

theorem pushes_shape_nodup {α : Type} (A : List α) (y : α) (c1 c2 c3 : Prop) [Decidable c1]
    [Decidable c2] [Decidable c3] (hA : A.Nodup) (hy : c3 → y ∉ A) :
    (if c1 then (if c2 then A else []) ++ (if c3 then [y] else []) else []).Nodup := by
  by_cases h1 : c1 <;> by_cases h2 : c2 <;> by_cases h3 : c3 <;>
    simp only [h1, h2, h3, if_true, if_false, List.nodup_nil, List.append_nil, List.nil_append,
      List.nodup_singleton, hA]
  rw [List.nodup_append]
  refine ⟨hA, List.nodup_singleton _, ?_⟩
  intro x hx1 hx2
  rw [List.mem_singleton] at hx2
  rw [hx2] at hx1
  exact hy h3 hx1

section
variable {T : Lookups} {b : Board}

/-- The two squares in front of a pawn on its starting rank are different squares. -/
theorem double_ne {us s : Nat} (hus : us < 2) (hs : s < 64)
    (hr : rankOf s = (if us = WHITE then 1 else 6)) :
    (((((s : Int) + fwd8 us).toNat : Nat) : Int) + fwd8 us).toNat ≠ ((s : Int) + fwd8 us).toNat := by
  have h2 : us = 0 ∨ us = 1 := by omega
  rw [rankOf_eq] at hr
  rcases h2 with rfl | rfl
  · have e1 : fwd8 0 = 8 := rfl
    have e4 : (if (0 : Nat) = WHITE then 1 else 6) = 1 := rfl
    rw [e4] at hr
    rw [e1]
    omega
  · have e1 : fwd8 1 = -8 := rfl
    have e4 : (if (1 : Nat) = WHITE then 1 else 6) = 6 := rfl
    rw [e4] at hr
    rw [e1]
    omega

/-- The pushes of one pawn: no move twice, and every move names the pawn and advances on its
file. -/
theorem Pos.pushes_nodup (P : Pos T b) (hp : b.okPawns = true) {src : Nat} (hs64 : src < 64)
    (hsm : b.mailbox_ src = code b.sideToMove_ PAWN) (isPinned : Bool) (tm : Bitboard) :
    (pawnPushes T b src b.sideToMove_ (b.kingSquare_ b.sideToMove_) isPinned tm).Nodup ∧
    ∀ x ∈ pawnPushes T b src b.sideToMove_ (b.kingSquare_ b.sideToMove_) isPinned tm,
      x.src = src ∧ Spec.dFile src x.dst = 0 ∧ (x.type = MT_NORMAL ∨ x.type = MT_PROMOTION) := by
  have hus := P.rng.side
  have hr := P.pawn_rank hp hs64 hsm
  obtain ⟨p1, _, _, p4⟩ := push_square hus hs64 hr
  have hmem : ∀ x ∈ pawnPushes T b src b.sideToMove_ (b.kingSquare_ b.sideToMove_) isPinned tm,
      (x ∈ pawnStep (rankOf src) (if b.sideToMove_ = WHITE then 6 else 1) src
          ((src : Int) + fwd8 b.sideToMove_).toNat) ∨
      (rankOf src = (if b.sideToMove_ = WHITE then 1 else 6) ∧
        x = Move.normal src (((((src : Int) + fwd8 b.sideToMove_).toNat : Nat) : Int) +
          fwd8 b.sideToMove_).toNat) := by
    intro x hx
    rcases ((mem_pawnPushes _ _ _ _ _ _ _ _).1 hx).2 with h | h
    · exact Or.inl h.2
    · exact Or.inr ⟨h.1, h.2.2.2.2⟩
  constructor
  · unfold pawnPushes
    simp only []
    refine pushes_shape_nodup _ _ _ _ _ (pawnStep_nodup hs64 p1) ?_
    intro h3 hy
    obtain ⟨d1, _⟩ := double_square hus hs64 h3.1
    have f1 := (pawnStep_fields hs64 p1 hy).2.1
    have f2 := (Move.normal_fields hs64 d1).2.1
    exact double_ne hus hs64 h3.1 (f2.symm.trans f1)
  · intro x hx
    rcases hmem x hx with h | ⟨h1, h2⟩
    · obtain ⟨f1, f2, f3⟩ := pawnStep_fields hs64 p1 h
      rw [f2]
      exact ⟨f1, ((p4 _ p1).2 rfl).1, f3⟩
    · obtain ⟨d1, _, _, d4⟩ := double_square hus hs64 h1
      obtain ⟨f1, f2, f3⟩ := Move.normal_fields hs64 d1
      rw [h2, f2]
      exact ⟨f1, ((d4 _ d1).2 rfl).1, Or.inl f3⟩

/-- The moves of one pawn: no move twice, and every move names the pawn. -/
theorem Pos.pawn_one_nodup (P : Pos T b) (hp : b.okPawns = true) {src : Nat} (hs64 : src < 64)
    (hsm : b.mailbox_ src = code b.sideToMove_ PAWN) (isPinned : Bool) (tm : Bitboard) :
    (pawnPushes T b src b.sideToMove_ (b.kingSquare_ b.sideToMove_) isPinned tm ++
      (bitsOf (pawnCaptureBB T b src b.sideToMove_ (Color.flip b.sideToMove_)
        (b.kingSquare_ b.sideToMove_) isPinned tm)).flatMap
        (fun dst => pawnStep (rankOf src) (if b.sideToMove_ = WHITE then 6 else 1) src dst)).Nodup ∧
    ∀ x ∈ pawnPushes T b src b.sideToMove_ (b.kingSquare_ b.sideToMove_) isPinned tm ++
      (bitsOf (pawnCaptureBB T b src b.sideToMove_ (Color.flip b.sideToMove_)
        (b.kingSquare_ b.sideToMove_) isPinned tm)).flatMap
        (fun dst => pawnStep (rankOf src) (if b.sideToMove_ = WHITE then 6 else 1) src dst),
      x.src = src ∧ (x.type = MT_NORMAL ∨ x.type = MT_PROMOTION) := by
  obtain ⟨n1, n2⟩ := P.pushes_nodup hp hs64 hsm isPinned tm
  have hcap : ∀ x ∈ (bitsOf (pawnCaptureBB T b src b.sideToMove_ (Color.flip b.sideToMove_)
        (b.kingSquare_ b.sideToMove_) isPinned tm)).flatMap
        (fun dst => pawnStep (rankOf src) (if b.sideToMove_ = WHITE then 6 else 1) src dst),
      x.src = src ∧ Spec.pawnTakes b.sideToMove_ src x.dst = true ∧
        (x.type = MT_NORMAL ∨ x.type = MT_PROMOTION) := by
    intro x hx
    rw [List.mem_flatMap] at hx
    obtain ⟨t, ht, hx⟩ := hx
    rw [mem_bitsOf] at ht
    obtain ⟨ht64, ht⟩ := ht
    unfold pawnCaptureBB at ht
    simp only [Nat.testBit_and, Bool.and_eq_true] at ht
    have ha := ((P.good.pawn _ _ _ P.rng.side hs64).1 ht.1.1.1).2
    obtain ⟨f1, f2, f3⟩ := pawnStep_fields hs64 ht64 hx
    rw [f2]
    exact ⟨f1, ha, f3⟩
  constructor
  · rw [List.nodup_append]
    refine ⟨n1, ?_, ?_⟩
    · apply nodup_flatMap_key Move.dst _ _ (bitsOf_nodup _)
      · intro a ha
        rw [mem_bitsOf] at ha
        exact pawnStep_nodup hs64 ha.1
      · intro a ha x hx
        rw [mem_bitsOf] at ha
        exact (pawnStep_fields hs64 ha.1 hx).2.1
    · intro x hx1 hx2
      have h1 := (n2 x hx1).2.1
      have h2 := (hcap x hx2).2.1
      unfold Spec.pawnTakes at h2
      rw [Bool.and_eq_true, beq_iff_eq, h1] at h2
      exact absurd h2.1 (by decide)
  · intro x hx
    rcases List.mem_append.1 hx with h | h
    · exact ⟨(n2 x h).1, (n2 x h).2.2⟩
    · exact ⟨(hcap x h).1, (hcap x h).2.2⟩

theorem Pos.pawn_nodup (P : Pos T b) (hp : b.okPawns = true) : (pawnPart T b).Nodup := by
  unfold pawnPart
  apply nodup_flatMap_key Move.src _ _ (bitsOf_nodup _)
  · intro a ha
    rw [mem_bitsOf, P.inv.piece_iff P.rng.side (by decide)] at ha
    exact (P.pawn_one_nodup hp ha.1 ha.2.2 _ _).1
  · intro a ha x hx
    rw [mem_bitsOf, P.inv.piece_iff P.rng.side (by decide)] at ha
    exact ((P.pawn_one_nodup hp ha.1 ha.2.2 _ _).2 x hx).1

/-- The kind of the moves of each part of the list. -/
theorem Pos.kinds (P : Pos T b) (Z : ZobristKeys) (m : Move) :
    (LegalK T Z b m → kindOf b m = 5) ∧ (LegalP T Z b m → kindOf b m = 0) ∧
    (LegalX T Z b KNIGHT m → kindOf b m = 1) ∧ (LegalX T Z b BISHOP m → kindOf b m = 2) ∧
    (LegalX T Z b ROOK m → kindOf b m = 3) ∧ (LegalX T Z b QUEEN m → kindOf b m = 4) ∧
    (LegalC T Z b m → kindOf b m = 6) ∧ (LegalE T Z b m → kindOf b m = 7) := by
  have hus := P.rng.side
  refine ⟨fun h => kindOf_piece hus (by decide) (Or.inl h.1) h.2.2.1,
    fun h => kindOf_piece hus (by decide) h.normalOrPromo h.1,
    fun h => kindOf_piece hus (by decide) (Or.inl h.1) h.2.2.1,
    fun h => kindOf_piece hus (by decide) (Or.inl h.1) h.2.2.1,
    fun h => kindOf_piece hus (by decide) (Or.inl h.1) h.2.2.1,
    fun h => kindOf_piece hus (by decide) (Or.inl h.1) h.2.2.1, ?_, ?_⟩
  · intro h
    unfold kindOf
    rw [if_pos h.isCastling]
  · intro h
    unfold kindOf
    rw [if_neg (by rw [h.1]; decide), if_pos h.1]

/-- With at most one check and no pawn on its last rank, the generated list holds no move
twice. -/
theorem Pos.fullList_nodup (P : Pos T b) (Z : ZobristKeys) (hn : popCount (b.checkers T) ≤ 1)
    (hp : b.okPawns = true) : (fullList T Z b).Nodup := by
  have hK : ∀ m ∈ b.generateKingMoves T b.sideToMove_ (Color.flip b.sideToMove_)
      (b.kingSquare_ b.sideToMove_), kindOf b m ∈ [5] := fun m hm => by
    rw [(P.kinds Z m).1 ((P.king_part_iff Z m).1 hm)]; exact List.mem_singleton.2 rfl
  have hP : ∀ m ∈ pawnPart T b, kindOf b m = 0 := fun m hm =>
    (P.kinds Z m).2.1 ((P.pawn_part_iff Z hn hp m).1 hm)
  have hN : ∀ m ∈ piecePart T b KNIGHT, kindOf b m = 1 := fun m hm =>
    (P.kinds Z m).2.2.1 ((P.piece_part_iff Z hn (Or.inl rfl) m).1 hm)
  have hB : ∀ m ∈ piecePart T b BISHOP, kindOf b m = 2 := fun m hm =>
    (P.kinds Z m).2.2.2.1 ((P.piece_part_iff Z hn (Or.inr (Or.inl rfl)) m).1 hm)
  have hR : ∀ m ∈ piecePart T b ROOK, kindOf b m = 3 := fun m hm =>
    (P.kinds Z m).2.2.2.2.1 ((P.piece_part_iff Z hn (Or.inr (Or.inr (Or.inl rfl))) m).1 hm)
  have hQ : ∀ m ∈ piecePart T b QUEEN, kindOf b m = 4 := fun m hm =>
    (P.kinds Z m).2.2.2.2.2.1 ((P.piece_part_iff Z hn (Or.inr (Or.inr (Or.inr rfl))) m).1 hm)
  have hC : (if popCount (b.checkers T) = 0
      then b.generateCastling T [] b.sideToMove_ (Color.flip b.sideToMove_) else []).Nodup ∧
      ∀ m ∈ (if popCount (b.checkers T) = 0
        then b.generateCastling T [] b.sideToMove_ (Color.flip b.sideToMove_) else []),
        kindOf b m = 6 := by
    by_cases h0 : popCount (b.checkers T) = 0
    · rw [if_pos h0]
      exact ⟨castle_nodup T b _ _, fun m hm =>
        (P.kinds Z m).2.2.2.2.2.2.1 ((P.castle_part_iff Z m).1 ⟨h0, hm⟩)⟩
    · rw [if_neg h0]
      exact ⟨List.nodup_nil, fun m hm => absurd hm (List.not_mem_nil _)⟩
  have hE : (if 0 ≤ b.epSquare_ then epList T Z b else []).Nodup ∧
      ∀ m ∈ (if 0 ≤ b.epSquare_ then epList T Z b else []), kindOf b m = 7 := by
    by_cases h0 : 0 ≤ b.epSquare_
    · rw [if_pos h0]
      exact ⟨P.ep_nodup Z h0, fun m hm => (P.kinds Z m).2.2.2.2.2.2.2 ((P.ep_part_iff Z h0 m).1 hm)⟩
    · rw [if_neg h0]
      exact ⟨List.nodup_nil, fun m hm => absurd hm (List.not_mem_nil _)⟩
  have s1 := nodup_append_kind (kindOf b) ⟨P.king_nodup, hK⟩ (P.pawn_nodup hp) hP (by decide)
  have s2 := nodup_append_kind (kindOf b) s1 (piece_nodup T b KNIGHT) hN (by decide)
  have s3 := nodup_append_kind (kindOf b) s2 (piece_nodup T b BISHOP) hB (by decide)
  have s4 := nodup_append_kind (kindOf b) s3 (piece_nodup T b ROOK) hR (by decide)
  have s5 := nodup_append_kind (kindOf b) s4 (piece_nodup T b QUEEN) hQ (by decide)
  have s6 := nodup_append_kind (kindOf b) s5 hC.1 hC.2 (by decide)
  have s7 := nodup_append_kind (kindOf b) s6 hE.1 hE.2 (by decide)
  exact s7.1

end

end Board

end chess

/-!
# The generator on a consistent position
-/

namespace chess

open Tables

namespace Board

/-- The list that `generateLegalMoves` builds: the king moves in a double check, the full
list otherwise. -/
def legalList (T : Lookups) (Z : ZobristKeys) (b : Board) : List Move :=
  if popCount (b.checkers T) > 1 then
    b.generateKingMoves T b.sideToMove_ (Color.flip b.sideToMove_) (b.kingSquare_ b.sideToMove_)
  else fullList T Z b

section
variable {T : Lookups} {b : Board}

/-- Every legal move of the reference description is of one of the kinds that `makeMove` and
`unmakeMove` handle. -/
theorem Pos.legal_ok (P : Pos T b) (Z : ZobristKeys) {m : Move} (h : Spec.legal T Z b m = true) :
    MoveOk b m := by
  have hus := P.rng.side
  rcases (P.legal_iff Z m).1 h with h | h | h | h | h | h | h | h
  · exact (P.king_safe Z h.1 ((P.inv.king _ hus _ m.src_lt).1 h.2.2.1) h.2.2.2.1 h.2.2.2.2.1).1
  · exact (P.pawn_safe Z h.normalOrPromo h.1 h.2.1).1
  · exact (P.piece_safe Z (Or.inl rfl) h.1 h.2.2.1 h.2.2.2.1 h.2.2.2.2.1).1
  · exact (P.piece_safe Z (Or.inr (Or.inl rfl)) h.1 h.2.2.1 h.2.2.2.1 h.2.2.2.2.1).1
  · exact (P.piece_safe Z (Or.inr (Or.inr (Or.inl rfl))) h.1 h.2.2.1 h.2.2.2.1 h.2.2.2.2.1).1
  · exact (P.piece_safe Z (Or.inr (Or.inr (Or.inr rfl))) h.1 h.2.2.1 h.2.2.2.1 h.2.2.2.2.1).1
  · rcases h.1 with ⟨hm, hc⟩ | ⟨hm, hc⟩
    · obtain ⟨r, e1, e2, _, _, a2⟩ := (canCastle_oo_iff T b).1 hc
      obtain ⟨rf, hcfg, hk, hr⟩ := P.home.1 r
      rw [hm]
      exact (P.castle_one Z hcfg hk hr e1 e2 a2).2.1
    · obtain ⟨r, e1, e2, _, _, _, a2⟩ := (canCastle_ooo_iff T b).1 hc
      obtain ⟨rf, hcfg, hk, hr⟩ := P.home.2 r
      rw [hm]
      exact (P.castle_one Z hcfg hk hr e1 e2 a2).2.1
  · obtain ⟨ht, _, hs, he, _, _⟩ := h
    have hep : 0 ≤ b.epSquare_ := by omega
    have e : b.epSquare_.toNat = m.dst := by omega
    obtain ⟨_, _, hd, hcap, hcm, _⟩ := P.ep_facts hep
    rw [e] at hd hcap hcm
    exact MoveOk.enPassant ht hs hd hcap hcm

theorem okPawns_iff (b : Board) :
    b.okPawns = true ↔ ¬ (b.pieces_ b.sideToMove_ PAWN &&& lastRankBB b.sideToMove_ ≠ 0) := by
  unfold okPawns
  rw [beq_iff_eq, ne_eq, not_not]

/-- The body of `generateLegalMoves` on a consistent position: it returns the list of the
legal moves and the board as it was, unless there is at most one check and a pawn of the side
to move stands on its last rank. -/
theorem Pos.gen_cases (P : Pos T b) (Z : ZobristKeys) :
    (b.generateMoves T Z = some (legalList T Z b, b) ∧
        (popCount (b.checkers T) > 1 ∨ b.okPawns = true)) ∨
      (b.generateMoves T Z = none ∧ popCount (b.checkers T) ≤ 1 ∧ b.okPawns = false) := by
  rw [P.generateMoves_eq Z]
  unfold legalList
  by_cases h1 : popCount (b.checkers T) > 1
  · rw [if_pos h1, if_pos h1]
    exact Or.inl ⟨rfl, Or.inl h1⟩
  · rw [if_neg h1, if_neg h1]
    by_cases h2 : b.pieces_ b.sideToMove_ PAWN &&& lastRankBB b.sideToMove_ ≠ 0
    · rw [if_pos h2]
      refine Or.inr ⟨rfl, by omega, ?_⟩
      cases hp : b.okPawns
      · rfl
      · exact absurd h2 ((okPawns_iff b).1 hp)
    · rw [if_neg h2]
      exact Or.inl ⟨rfl, Or.inr ((okPawns_iff b).2 h2)⟩

/-- The list of the generator holds exactly the legal moves, each once. -/
theorem Pos.legalList_spec (P : Pos T b) (Z : ZobristKeys)
    (h : popCount (b.checkers T) > 1 ∨ b.okPawns = true) :
    (legalList T Z b).Nodup ∧ ∀ m, m ∈ legalList T Z b ↔ Spec.legal T Z b m = true := by
  unfold legalList
  by_cases h1 : popCount (b.checkers T) > 1
  · rw [if_pos h1]
    exact ⟨P.king_nodup, P.mem_kingOnly Z h1⟩
  · rw [if_neg h1]
    have hp : b.okPawns = true := h.resolve_left h1
    exact ⟨P.fullList_nodup Z (by omega) hp, P.mem_fullList Z (by omega) hp⟩

/-- What `generateLegalMoves` returns on a consistent position, when it returns. -/
theorem Pos.gen_some (P : Pos T b) (Z : ZobristKeys) {l : List Move} {b2 : Board}
    (h : b.generateLegalMoves T Z = some (l, b2)) :
    b2 = b ∧ l.Nodup ∧ l.length ≤ MOVELIST_CAPACITY ∧ ∀ m, m ∈ l ↔ Spec.legal T Z b m = true := by
  unfold generateLegalMoves at h
  rcases P.gen_cases Z with ⟨hg, hc⟩ | ⟨hg, _⟩
  · rw [hg] at h
    simp only [] at h
    by_cases hl : (legalList T Z b).length ≤ MOVELIST_CAPACITY
    · rw [if_pos hl] at h
      have e := Option.some.inj h
      have e1 : legalList T Z b = l := congrArg Prod.fst e
      have e2 : b = b2 := congrArg Prod.snd e
      rw [← e1, ← e2]
      exact ⟨rfl, (P.legalList_spec Z hc).1, hl, (P.legalList_spec Z hc).2⟩
    · rw [if_neg hl] at h
      exact Option.noConfusion h
  · rw [hg] at h
    exact Option.noConfusion h

/-- When `generateLegalMoves` returns on a consistent position without a pawn of the side to
move on its last rank. -/
theorem Pos.gen_total (P : Pos T b) (Z : ZobristKeys) (hp : b.okPawns = true) :
    b.generateLegalMoves T Z =
      if (legalList T Z b).length ≤ MOVELIST_CAPACITY then some (legalList T Z b, b) else none := by
  unfold generateLegalMoves
  rcases P.gen_cases Z with ⟨hg, _⟩ | ⟨_, _, hc⟩
  · rw [hg]
  · rw [hp] at hc
    exact Bool.noConfusion hc

end

end Board

end chess

/-!
# Concrete positions
-/

namespace chess

/-- A position with thirty white queens: the side to move has 258 legal moves. -/
def manyQueens : Board :=
  (Board.setFEN Zobrist.init (Board.codes "QQQQQQQ1/Q6Q/Q6Q/Q6Q/3Q3Q/QQ5Q/pp2Q2Q/kBQ1QKQQ w - - 0 1")).2

/-- A position in which the side not to move is in check: the rook on a1 attacks the king
on a8. -/
def kingCapture : Board := (Board.setFEN Zobrist.init (Board.codes "k7/8/8/8/8/8/8/R3K3 w - - 0 1")).2

/-- A position with a white pawn on the seventh rank that can advance and capture. -/
def promoReady : Board := (Board.setFEN Zobrist.init (Board.codes "1n5k/P7/8/8/8/8/8/K7 w - - 0 1")).2

/-- A generator that builds more moves than `MoveList` holds has no defined result. -/
theorem Board.legal_none_of_count {T : Lookups} {Z : ZobristKeys} {b : Board} {n : Nat}
    (h : (b.generateMoves T Z).map (fun r => r.1.length) = some n) (hn : MOVELIST_CAPACITY < n) :
    (b.generateLegalMoves T Z).isNone = true := by
  unfold Board.generateLegalMoves
  cases hg : b.generateMoves T Z with
  | none => rfl
  | some r =>
    rw [hg] at h
    have e : r.1.length = n := Option.some.inj h
    show (if r.1.length ≤ MOVELIST_CAPACITY then some r else none).isNone = true
    rw [if_neg (by omega)]
    rfl

theorem manyQueens_count :
    (manyQueens.generateMoves Tables.walk Zobrist.init).map (fun r => r.1.length) = some 258 := by
  decide!

theorem manyQueens_walk :
    manyQueens.consistent Tables.walk = true ∧ manyQueens.okPawns = true ∧
      (manyQueens.generateLegalMoves Tables.walk Zobrist.init).isNone = true ∧
      (manyQueens.generateMoves Tables.walk Zobrist.init).map (fun r => r.1.length) = some 258 :=
  ⟨by decide!, by decide!, Board.legal_none_of_count manyQueens_count (by decide), manyQueens_count⟩

theorem kingCapture_walk :
    kingCapture.structural = true ∧
      (kingCapture.generateLegalMoves Tables.walk Zobrist.init).map
          (fun r => decide (Move.normal 0 56 ∈ r.1)) = some true ∧
      (kingCapture.makeMove Zobrist.init (Move.normal 0 56)).1.structural = false := by
  decide!

theorem promoScenario_walk :
    (promoScenario.generateLegalMoves Tables.walk Zobrist.init).isNone = true ∧
      promoScenario.sideToMove_ = WHITE ∧ promoScenario.mailbox_ 48 = Board.code WHITE PAWN ∧
      promoScenario.isEmpty 56 = true ∧ promoScenario.kingSquare_ WHITE = 255 := by
  decide!

theorem epScenario_consistent_walk : epScenario.consistent Tables.walk = true := by
  decide!

theorem drawnRoot_consistent_walk :
    drawnRoot.consistent Tables.walk = true ∧ drawnRoot.okPawns = true ∧
      drawnRoot.hash_ = drawnRoot.computeHash Zobrist.init := by
  decide!

theorem promoReady_walk :
    promoReady.consistent Tables.walk = true ∧
      Spec.kingSafeAfter Tables.walk Zobrist.init promoReady (Move.make 48 56 MT_PROMOTION QUEEN) = true ∧
      (promoReady.generateLegalMoves Tables.walk Zobrist.init).map (fun r => r.1) =
        some [Move.normal 0 1, Move.normal 0 8, Move.normal 0 9,
          Move.make 48 56 MT_PROMOTION QUEEN, Move.make 48 56 MT_PROMOTION ROOK,
          Move.make 48 56 MT_PROMOTION BISHOP, Move.make 48 56 MT_PROMOTION KNIGHT,
          Move.make 48 57 MT_PROMOTION QUEEN, Move.make 48 57 MT_PROMOTION ROOK,
          Move.make 48 57 MT_PROMOTION BISHOP, Move.make 48 57 MT_PROMOTION KNIGHT] := by
  decide!

end chess

/-!
# The move generator, make and unmake: the properties
-/

namespace chess

open Tables

/-- The generated list of a concrete consistent position, from its evaluation on the ray-walk
tables. -/
theorem gen_of_walk {b : Board} {L : List Move} (hc : b.consistent Tables.walk = true)
    (h : (b.generateLegalMoves Tables.walk Zobrist.init).map (fun r => r.1) = some L) :
    b.consistent Tables.init = true ∧
      b.generateLegalMoves Tables.init Zobrist.init = some (L, b) := by
  rw [Tables.init_eq_walk]
  refine ⟨hc, ?_⟩
  have hg : Tables.walk.Good := by rw [← Tables.init_eq_walk]; exact Tables.init_good
  have P : Board.Pos Tables.walk b := Board.Pos.of_consistent hg hc
  cases hg : b.generateLegalMoves Tables.walk Zobrist.init with
  | none => rw [hg] at h; exact Option.noConfusion h
  | some r =>
    obtain ⟨l, b2⟩ := r
    rw [hg] at h
    have e1 : l = L := Option.some.inj h
    have e2 := (P.gen_some Zobrist.init hg).1
    rw [e1, e2]

theorem drawnRoot_gen :
    drawnRoot.consistent Tables.init = true ∧
      drawnRoot.generateLegalMoves Tables.init Zobrist.init =
        some ([Move.normal 0 1, Move.normal 0 8, Move.normal 0 9], drawnRoot) := by
  apply gen_of_walk drawnRoot_consistent_walk.1
  have h := drawnRoot_moves_walk
  cases hg : drawnRoot.generateLegalMoves Tables.walk Zobrist.init with
  | none => rw [hg] at h; exact Option.noConfusion h
  | some r =>
    rw [hg] at h
    exact congrArg (Option.map Prod.fst) h

theorem promoReady_gen :
    promoReady.consistent Tables.init = true ∧
      promoReady.generateLegalMoves Tables.init Zobrist.init =
        some ([Move.normal 0 1, Move.normal 0 8, Move.normal 0 9,
          Move.make 48 56 MT_PROMOTION QUEEN, Move.make 48 56 MT_PROMOTION ROOK,
          Move.make 48 56 MT_PROMOTION BISHOP, Move.make 48 56 MT_PROMOTION KNIGHT,
          Move.make 48 57 MT_PROMOTION QUEEN, Move.make 48 57 MT_PROMOTION ROOK,
          Move.make 48 57 MT_PROMOTION BISHOP, Move.make 48 57 MT_PROMOTION KNIGHT], promoReady) :=
  gen_of_walk promoReady_walk.1 promoReady_walk.2.2

namespace Board

section
variable {b : Board}

/-- A move of the generated list of a consistent position is legal in the reference
description and of one of the kinds that `makeMove` handles. -/
theorem emitted_ok (Z : ZobristKeys) (hc : b.consistent Tables.init = true) {l : List Move}
    {b2 : Board} (hg : b.generateLegalMoves Tables.init Z = some (l, b2)) {m : Move} (hm : m ∈ l) :
    Pos Tables.init b ∧ Spec.legal Tables.init Z b m = true ∧ MoveOk b m := by
  have P : Pos Tables.init b := Pos.of_consistent Tables.init_good hc
  have hl := ((P.gen_some Z hg).2.2.2 m).1 hm
  exact ⟨P, hl, P.legal_ok Z hl⟩

end

end Board

end chess

/-!
# The generator is exact and sound; make and unmake; the hash; the structural invariant
-/

namespace chess

open Tables

/-- C1, the claim as stated is false: the position
`QQQQQQQ1/Q6Q/Q6Q/Q6Q/3Q3Q/QQ5Q/pp2Q2Q/kBQ1QKQQ w - - 0 1` is consistent, but the side to
move has 258 legal moves, more than the 256 entries of `MoveList`: the body of the generator
builds 258 moves and `generateLegalMoves` has no defined result. -/
theorem C1_counterexample :
    manyQueens.consistent Tables.init = true ∧
      (manyQueens.generateMoves Tables.init Zobrist.init).map (fun r => r.1.length) = some 258 ∧
      manyQueens.generateLegalMoves Tables.init Zobrist.init = none := by
  rw [Tables.init_eq_walk]
  exact ⟨manyQueens_walk.1, manyQueens_walk.2.2.2, Option.isNone_iff_eq_none.1 manyQueens_walk.2.2.1⟩

/-- C1, amended: on a consistent position in which no pawn of the side to move stands on its
last rank, the legal moves of the reference description (the pseudo-legal moves whose
execution leaves the own king unattacked) form a list without repetition, and
`generateLegalMoves` returns that list, with the board unchanged, when it has at most 256
entries; it has no defined result when there are more. -/
theorem C1_generator_exact (Z : ZobristKeys) (b : Board) (hc : b.consistent Tables.init = true)
    (hp : b.okPawns = true) :
    ∃ l : List Move, l.Nodup ∧ (∀ m, m ∈ l ↔ Spec.legal Tables.init Z b m = true) ∧
      b.generateLegalMoves Tables.init Z =
        if l.length ≤ Board.MOVELIST_CAPACITY then some (l, b) else none :=
  ⟨Board.legalList Tables.init Z b,
    ((Board.Pos.of_consistent Tables.init_good hc).legalList_spec Z (Or.inr hp)).1,
    ((Board.Pos.of_consistent Tables.init_good hc).legalList_spec Z (Or.inr hp)).2,
    (Board.Pos.of_consistent Tables.init_good hc).gen_total Z hp⟩

theorem C1_generator_exact_witness :
    drawnRoot.consistent Tables.init = true ∧ drawnRoot.okPawns = true ∧
      ∃ l : List Move, l.Nodup ∧
        (∀ m, m ∈ l ↔ Spec.legal Tables.init Zobrist.init drawnRoot m = true) ∧
        drawnRoot.generateLegalMoves Tables.init Zobrist.init =
          if l.length ≤ Board.MOVELIST_CAPACITY then some (l, drawnRoot) else none :=
  ⟨drawnRoot_gen.1, drawnRoot_consistent_walk.2.1,
    C1_generator_exact Zobrist.init drawnRoot drawnRoot_gen.1 drawnRoot_consistent_walk.2.1⟩

/-- C2: on a consistent position, after `makeMove(m)` for a move `m` of the list that
`generateLegalMoves` returns, the king of the side that moved is not attacked by the
opponent. -/
theorem C2_generator_sound (Z : ZobristKeys) (b b2 : Board) (l : List Move) (m : Move)
    (hc : b.consistent Tables.init = true)
    (hg : b.generateLegalMoves Tables.init Z = some (l, b2)) (hm : m ∈ l) :
    (b.makeMove Z m).1.isAttacked Tables.init ((b.makeMove Z m).1.kingSq b.sideToMove_)
      (Color.flip b.sideToMove_) = false := by
  have h := (Board.emitted_ok Z hc hg hm).2.1
  unfold Spec.legal Spec.kingSafeAfter at h
  simp only [Bool.and_eq_true, Bool.not_eq_true_eq_eq_false] at h
  exact h.2

theorem C2_generator_sound_witness :
    Move.normal 0 8 ∈ [Move.normal 0 1, Move.normal 0 8, Move.normal 0 9] ∧
      (drawnRoot.makeMove Zobrist.init (Move.normal 0 8)).1.isAttacked Tables.init
        ((drawnRoot.makeMove Zobrist.init (Move.normal 0 8)).1.kingSq drawnRoot.sideToMove_)
        (Color.flip drawnRoot.sideToMove_) = false :=
  ⟨by decide, C2_generator_sound Zobrist.init drawnRoot drawnRoot _ (Move.normal 0 8)
    drawnRoot_gen.1 drawnRoot_gen.2 (by decide)⟩

/-- C3: for a consistent board `b` and a move `m` of the list that `generateLegalMoves`
returns, `unmakeMove(m, makeMove(m))` leaves the board equal to `b` in every field. -/
theorem C3_make_unmake (Z : ZobristKeys) (b b2 : Board) (l : List Move) (m : Move)
    (hc : b.consistent Tables.init = true)
    (hg : b.generateLegalMoves Tables.init Z = some (l, b2)) (hm : m ∈ l) :
    (b.makeMove Z m).1.unmakeMove m (b.makeMove Z m).2 = b :=
  Board.unmake_make Z (Board.emitted_ok Z hc hg hm).1.inv (Board.emitted_ok Z hc hg hm).1.rng
    (Board.emitted_ok Z hc hg hm).2.2

theorem C3_make_unmake_witness :
    (promoReady.makeMove Zobrist.init (Move.make 48 57 MT_PROMOTION QUEEN)).1.unmakeMove
      (Move.make 48 57 MT_PROMOTION QUEEN)
      (promoReady.makeMove Zobrist.init (Move.make 48 57 MT_PROMOTION QUEEN)).2 = promoReady :=
  C3_make_unmake Zobrist.init promoReady promoReady _ (Move.make 48 57 MT_PROMOTION QUEEN)
    promoReady_gen.1 promoReady_gen.2 (by decide)

/-- C4: for a consistent board whose hash equals `computeHash()` and a move `m` of the list
that `generateLegalMoves` returns, the hash that `makeMove(m)` maintains equals
`computeHash()` of the resulting position. -/
theorem C4_incremental_hash (Z : ZobristKeys) (b b2 : Board) (l : List Move) (m : Move)
    (hc : b.consistent Tables.init = true) (hh : b.hash_ = b.computeHash Z)
    (hg : b.generateLegalMoves Tables.init Z = some (l, b2)) (hm : m ∈ l) :
    (b.makeMove Z m).1.hash_ = (b.makeMove Z m).1.computeHash Z :=
  Board.hash_after Z (Board.emitted_ok Z hc hg hm).1.inv (Board.emitted_ok Z hc hg hm).1.rng.side
    (Board.emitted_ok Z hc hg hm).2.2 hh

theorem C4_incremental_hash_witness :
    drawnRoot.hash_ = drawnRoot.computeHash Zobrist.init ∧
      (drawnRoot.makeMove Zobrist.init (Move.normal 0 9)).1.hash_ =
        (drawnRoot.makeMove Zobrist.init (Move.normal 0 9)).1.computeHash Zobrist.init :=
  ⟨drawnRoot_consistent_walk.2.2,
    C4_incremental_hash Zobrist.init drawnRoot drawnRoot _ (Move.normal 0 9) drawnRoot_gen.1
      drawnRoot_consistent_walk.2.2 drawnRoot_gen.2 (by decide)⟩

/-- C5, the claim as stated is false: the board `k7/8/8/8/8/8/8/R3K3 w - - 0 1` satisfies
the five conditions, the generated list contains the rook move a1a8 that captures the black
king, and after `makeMove` of that move the conditions fail (no black king is left). -/
theorem C5_counterexample :
    kingCapture.structural = true ∧
      (∃ l b2, kingCapture.generateLegalMoves Tables.init Zobrist.init = some (l, b2) ∧
        Move.normal 0 56 ∈ l) ∧
      (kingCapture.makeMove Zobrist.init (Move.normal 0 56)).1.structural = false := by
  refine ⟨kingCapture_walk.1, ?_, kingCapture_walk.2.2⟩
  have h := kingCapture_walk.2.1
  rw [Tables.init_eq_walk]
  cases hg : kingCapture.generateLegalMoves Tables.walk Zobrist.init with
  | none => rw [hg] at h; exact Option.noConfusion h
  | some r =>
    rw [hg] at h
    exact ⟨r.1, r.2, rfl, of_decide_eq_true (Option.some.inj h)⟩

/-- C5, amended: if the board is a consistent position (the five conditions, and in addition
the side not to move is not in check, the castling rights and the en-passant square are
genuine), then the five conditions hold after `makeMove(m)` for every move `m` of the list
that `generateLegalMoves` returns. -/
theorem C5_structural_invariant (Z : ZobristKeys) (b b2 : Board) (l : List Move) (m : Move)
    (hc : b.consistent Tables.init = true)
    (hg : b.generateLegalMoves Tables.init Z = some (l, b2)) (hm : m ∈ l) :
    (b.makeMove Z m).1.structural = true := by
  obtain ⟨P, _, hok⟩ := Board.emitted_ok Z hc hg hm
  obtain ⟨mb, ks, A⟩ := hok.after P.inv P.rng.side
  rw [Board.makeMove_fst Z b m m.type_lt (hok.pieceAt_ne P.rng.side)]
  exact (A.moved_inv Z).structural

theorem C5_structural_invariant_witness :
    (promoReady.makeMove Zobrist.init (Move.make 48 57 MT_PROMOTION KNIGHT)).1.structural = true :=
  C5_structural_invariant Zobrist.init promoReady promoReady _ (Move.make 48 57 MT_PROMOTION KNIGHT)
    promoReady_gen.1 promoReady_gen.2 (by decide)

/-- C6, the failing run: on a root drawn by the fifty-move rule
(`7k/8/8/8/8/8/8/K7 w - - 100 80`), with an engine whose `prevRoot_` still holds the move
e2e4 from an earlier `think` on another position, `think` returns e2e4 for every depth and
time limit, every evaluation, every clock and every continuation of the search, although the
legal moves of the root are a1b1, a1a2 and a1b2. -/
theorem C6_think_returns_stale_move {σ : Type} (E : SearchEnv σ) (e : ThisBot σ)
    (softMs hardMs maxDepth : Int) (maxNodes : Nat) :
    ∃ r, ThisBot.think Tables.init Zobrist.init E { e with prevRoot_ := Move.normal 12 28 }
        drawnRoot softMs hardMs maxDepth maxNodes = some r ∧
      r.1 = Move.normal 12 28 ∧
      ∃ l b2, Board.generateLegalMoves Tables.init Zobrist.init drawnRoot = some (l, b2) ∧
        l = [Move.normal 0 1, Move.normal 0 8, Move.normal 0 9] ∧ r.1 ∉ l :=
  stale_root_move E { e with prevRoot_ := Move.normal 12 28 } rfl softMs hardMs maxDepth maxNodes

end chess

/-!
# Castling in the generated list
-/

namespace chess

open Tables

namespace Board

section
variable {T : Lookups} {b : Board}

end

end Board

end chess

/-!
# Promotions in the generated list
-/

namespace chess

open Tables

namespace Board

section
variable {T : Lookups} {b : Board}

/-- The en-passant square of a consistent position is not on the last rank. -/
theorem Pos.ep_rank (P : Pos T b) (hep : 0 ≤ b.epSquare_) :
    rankOf b.epSquare_.toNat ≠ Spec.lastRank b.sideToMove_ := by
  have h := P.ep
  unfold okEnPassant at h
  have hne : ¬ b.epSquare_ = -1 := by omega
  simp only [Bool.or_eq_true, beq_iff_eq, hne, false_or] at h
  have h2 : ∀ n : Nat, n < 2 → n = 0 ∨ n = 1 := fun n hn => by omega
  rw [rankOf_eq]
  unfold Spec.lastRank
  rcases h2 _ P.rng.side with hw | hw
  · rw [hw] at h ⊢
    rw [if_pos (show (0 : Color) = WHITE from rfl)] at h ⊢
    simp only [Bool.and_eq_true, decide_eq_true_eq] at h
    omega
  · rw [hw] at h ⊢
    rw [if_neg (show ¬ (1 : Color) = WHITE by decide)] at h ⊢
    simp only [Bool.and_eq_true, decide_eq_true_eq] at h
    omega

/-- The four promotion moves from `s` to `t`. -/
def promotionsOf (s t : Nat) : List Move :=
  [Move.make s t MT_PROMOTION QUEEN, Move.make s t MT_PROMOTION ROOK,
    Move.make s t MT_PROMOTION BISHOP, Move.make s t MT_PROMOTION KNIGHT]

theorem promo_piece_range {p : Nat} (hp : p ∈ [QUEEN, ROOK, BISHOP, KNIGHT]) : 1 ≤ p ∧ p ≤ 4 := by
  simp only [List.mem_cons, List.mem_singleton, List.not_mem_nil, or_false] at hp
  rcases hp with rfl | rfl | rfl | rfl <;> decide

/-- A legal move of a pawn that stands on its pre-promotion rank is one of the four
promotions. -/
theorem Pos.legal_from_seventh (P : Pos T b) (Z : ZobristKeys) {m : Move}
    (hs : b.mailbox_ m.src = code b.sideToMove_ PAWN)
    (hr : rankOf m.src = (if b.sideToMove_ = WHITE then 6 else 1))
    (hl : Spec.legal T Z b m = true) : m ∈ promotionsOf m.src m.dst := by
  have hus := P.rng.side
  have hX : ∀ pt : Nat, pt < 6 → pt ≠ PAWN → b.mailbox_ m.src ≠ code b.sideToMove_ pt := by
    intro pt hpt hne e
    rw [hs] at e
    exact hne (code_inj ⟨hus, by decide⟩ ⟨hus, hpt⟩ e).2.symm
  rcases (P.legal_iff Z m).1 hl with h | h | h | h | h | h | h | h
  · exact absurd h.2.2.1 (hX KING (by decide) (by decide))
  · rcases h.2.2.1 with ⟨_, _, h3⟩ | ⟨_, h2, _⟩
    · exfalso
      apply h3
      have hd : Spec.dRank m.src m.dst = Spec.forward b.sideToMove_ := by
        rcases h.2.1 with h4 | h4 | h4
        · exact ((pushPat_iff _ _ _ _).1 h4).1.2
        · have h5 := ((doublePat_iff _ _ _ _).1 h4).1
          rw [startRank_eq, hr] at h5
          have h2 : ∀ n : Nat, n < 2 → n = 0 ∨ n = 1 := fun n hn => by omega
          rcases h2 _ hus with hw | hw
          · rw [hw, if_pos (show (0 : Color) = WHITE from rfl),
              if_pos (show (0 : Color) = WHITE from rfl)] at h5
            exact absurd h5 (by decide)
          · rw [hw, if_neg (show ¬ (1 : Color) = WHITE by decide),
              if_neg (show ¬ (1 : Color) = WHITE by decide)] at h5
            exact absurd h5 (by decide)
        · exact takes_rank h4.1
      exact (rank_of_forward hus hd).2 hr
    · unfold promotionsOf
      simp only [List.mem_cons, List.mem_singleton, List.not_mem_nil, or_false]
      exact h2
  · exact absurd h.2.2.1 (hX KNIGHT (by decide) (by decide))
  · exact absurd h.2.2.1 (hX BISHOP (by decide) (by decide))
  · exact absurd h.2.2.1 (hX ROOK (by decide) (by decide))
  · exact absurd h.2.2.1 (hX QUEEN (by decide) (by decide))
  · exfalso
    obtain ⟨h1, h2, h3⟩ := homeSq_lt b.sideToMove_
    have hk : b.mailbox_ (homeSq b.sideToMove_) = code b.sideToMove_ KING := by
      rcases h.1 with ⟨_, hc⟩ | ⟨_, hc⟩
      · obtain ⟨_, _, hk, _⟩ := P.home.1 ((canCastle_oo_iff T b).1 hc).1
        exact hk
      · obtain ⟨_, _, hk, _⟩ := P.home.2 ((canCastle_ooo_iff T b).1 hc).1
        exact hk
    have hsrc : m.src = homeSq b.sideToMove_ := by
      rcases h.1 with ⟨e, _⟩ | ⟨e, _⟩
      · rw [e]
        exact (Move.make_fields h1 h2 (by decide : MT_CASTLING < 4)
          (by decide : 1 ≤ KNIGHT ∧ KNIGHT ≤ 4)).1
      · rw [e]
        exact (Move.make_fields h1 h3 (by decide : MT_CASTLING < 4)
          (by decide : 1 ≤ KNIGHT ∧ KNIGHT ≤ 4)).1
    rw [← hsrc] at hk
    exact hX KING (by decide) (by decide) hk
  · exfalso
    have he := h.2.2.2.1
    have hep : 0 ≤ b.epSquare_ := by omega
    have e : b.epSquare_.toNat = m.dst := by omega
    have h1 := P.ep_rank hep
    rw [e] at h1
    exact h1 ((rank_of_forward hus (takes_rank h.2.2.2.2.1)).2 hr)

/-- The promotions of a pawn along its pattern are legal together: the king's safety does not
depend on the piece chosen. -/
theorem Pos.promotions_legal (P : Pos T b) (Z : ZobristKeys) {s t p0 : Nat} (hs64 : s < 64)
    (ht64 : t < 64) (hs : b.mailbox_ s = code b.sideToMove_ PAWN)
    (hr : rankOf s = (if b.sideToMove_ = WHITE then 6 else 1))
    (hpat : Spec.pawnPush b b.sideToMove_ s t = true ∨
      (Spec.pawnTakes b.sideToMove_ s t = true ∧
        Spec.colorIs b t (Color.flip b.sideToMove_) = true))
    (hp0 : p0 ∈ [QUEEN, ROOK, BISHOP, KNIGHT])
    (hsafe : Spec.kingSafeAfter T Z b (Move.make s t MT_PROMOTION p0) = true) :
    ∀ p ∈ [QUEEN, ROOK, BISHOP, KNIGHT], Spec.legal T Z b (Move.make s t MT_PROMOTION p) = true := by
  have hus := P.rng.side
  have hpp : PawnPat b b.sideToMove_ s t := by
    rcases hpat with h | h
    · exact Or.inl h
    · exact Or.inr (Or.inr h)
  have hd : Spec.dRank s t = Spec.forward b.sideToMove_ := by
    rcases hpat with h | h
    · exact ((pushPat_iff _ _ _ _).1 h).1.2
    · exact takes_rank h.1
  have hlast : rankOf t = Spec.lastRank b.sideToMove_ := (rank_of_forward hus hd).2 hr
  have key : ∀ p : Nat, 1 ≤ p ∧ p ≤ 4 →
      (Spec.kingSafeAfter T Z b (Move.make s t MT_PROMOTION p) = true ↔
        ((∀ q, q < 64 →
          Attacker b.mailbox_ b.occupied_ (Color.flip b.sideToMove_) (b.kingSquare_ b.sideToMove_) q →
            t = q ∨ Between (b.kingSquare_ b.sideToMove_) q t) ∧
         (Pinned b.mailbox_ b.occupied_ b.sideToMove_ (b.kingSquare_ b.sideToMove_) s →
            OnLineOf (b.kingSquare_ b.sideToMove_) s t))) := by
    intro p hp
    obtain ⟨f1, f2, f3, _⟩ := Move.make_fields hs64 ht64 (by decide : MT_PROMOTION < 4) hp
    have h := (P.pawn_safe Z (Or.inr f3) (by rw [f1]; exact hs) (by rw [f1, f2]; exact hpp)).2
    rw [f1, f2] at h
    exact h
  have hcond := (key p0 (promo_piece_range hp0)).1 hsafe
  intro p hp
  obtain ⟨f1, f2, f3, _⟩ := Move.make_fields hs64 ht64 (by decide : MT_PROMOTION < 4)
    (promo_piece_range hp)
  unfold Spec.legal
  rw [Bool.and_eq_true, pseudo_promo T b _ f3, f1, f2]
  refine ⟨⟨?_, hs, hlast, hpat⟩, (key p (promo_piece_range hp)).2 hcond⟩
  simp only [List.mem_cons, List.mem_singleton, List.not_mem_nil, or_false] at hp
  rcases hp with rfl | rfl | rfl | rfl
  · exact Or.inl rfl
  · exact Or.inr (Or.inl rfl)
  · exact Or.inr (Or.inr (Or.inl rfl))
  · exact Or.inr (Or.inr (Or.inr rfl))

end

end Board

/-- C9, the claim as stated is false: in the example position of the specification,
`8/P7/8/8/8/8/8/7k w - - 0 1`, the white pawn on a7 can advance to the empty square a8, but
there is no white king: the cached king square is 255, `generateLegalMoves` reads its tables
outside their bounds and has no defined result, so no list with a7a8q is produced. -/
theorem C9_counterexample :
    promoScenario.sideToMove_ = WHITE ∧ promoScenario.mailbox_ 48 = Board.code WHITE PAWN ∧
      promoScenario.isEmpty 56 = true ∧ promoScenario.kingSquare_ WHITE = 255 ∧
      promoScenario.generateLegalMoves Tables.init Zobrist.init = none := by
  rw [Tables.init_eq_walk]
  obtain ⟨h1, h2, h3, h4, h5⟩ := promoScenario_walk
  exact ⟨h2, h3, h4, h5, Option.isNone_iff_eq_none.1 h1⟩

/-- C9, amended: on a consistent position on which `generateLegalMoves` returns a list, for a
pawn of the side to move on its pre-promotion rank (square `s`) and an advance or capture of
it to `t` that leaves the own king unattacked, each of the four promotions from `s` to `t`
(queen, rook, bishop, knight) occurs exactly once in the list, and every move of the list
from `s` to `t` is one of these four moves of type Promotion, never a Normal move. -/
theorem C9_promotions (Z : ZobristKeys) (b b2 : Board) (l : List Move) (s t p0 : Nat)
    (hc : b.consistent Tables.init = true)
    (hg : b.generateLegalMoves Tables.init Z = some (l, b2))
    (hs64 : s < 64) (ht64 : t < 64) (hs : b.mailbox_ s = Board.code b.sideToMove_ PAWN)
    (hr : rankOf s = (if b.sideToMove_ = WHITE then 6 else 1))
    (hpat : Spec.pawnPush b b.sideToMove_ s t = true ∨
      (Spec.pawnTakes b.sideToMove_ s t = true ∧
        Spec.colorIs b t (Color.flip b.sideToMove_) = true))
    (hp0 : p0 ∈ [QUEEN, ROOK, BISHOP, KNIGHT])
    (hsafe : Spec.kingSafeAfter Tables.init Z b (Move.make s t MT_PROMOTION p0) = true) :
    (∀ p ∈ [QUEEN, ROOK, BISHOP, KNIGHT], l.count (Move.make s t MT_PROMOTION p) = 1) ∧
    (∀ m ∈ l, m.src = s → m.dst = t →
      m.type = MT_PROMOTION ∧ m ∈ Board.promotionsOf s t) := by
  have P : Board.Pos Tables.init b := Board.Pos.of_consistent Tables.init_good hc
  obtain ⟨_, hnd, _, hl⟩ := P.gen_some Z hg
  constructor
  · intro p hp
    exact List.count_eq_one_of_mem hnd
      ((hl _).2 (P.promotions_legal Z hs64 ht64 hs hr hpat hp0 hsafe p hp))
  · intro m hm e1 e2
    have h := P.legal_from_seventh Z (by rw [e1]; exact hs) (by rw [e1]; exact hr) ((hl m).1 hm)
    rw [e1, e2] at h
    refine ⟨?_, h⟩
    unfold Board.promotionsOf at h
    simp only [List.mem_cons, List.mem_singleton, List.not_mem_nil, or_false] at h
    have f : ∀ p : Nat, 1 ≤ p ∧ p ≤ 4 → (Move.make s t MT_PROMOTION p).type = MT_PROMOTION :=
      fun p hp => (Move.make_fields hs64 ht64 (by decide : MT_PROMOTION < 4) hp).2.2.1
    rcases h with rfl | rfl | rfl | rfl
    · exact f _ (by decide)
    · exact f _ (by decide)
    · exact f _ (by decide)
    · exact f _ (by decide)

theorem C9_promotions_witness :
    (∀ p ∈ [QUEEN, ROOK, BISHOP, KNIGHT],
        [Move.normal 0 1, Move.normal 0 8, Move.normal 0 9,
          Move.make 48 56 MT_PROMOTION QUEEN, Move.make 48 56 MT_PROMOTION ROOK,
          Move.make 48 56 MT_PROMOTION BISHOP, Move.make 48 56 MT_PROMOTION KNIGHT,
          Move.make 48 57 MT_PROMOTION QUEEN, Move.make 48 57 MT_PROMOTION ROOK,
          Move.make 48 57 MT_PROMOTION BISHOP, Move.make 48 57 MT_PROMOTION KNIGHT].count
          (Move.make 48 56 MT_PROMOTION p) = 1) ∧
    (∀ m ∈ [Move.normal 0 1, Move.normal 0 8, Move.normal 0 9,
          Move.make 48 56 MT_PROMOTION QUEEN, Move.make 48 56 MT_PROMOTION ROOK,
          Move.make 48 56 MT_PROMOTION BISHOP, Move.make 48 56 MT_PROMOTION KNIGHT,
          Move.make 48 57 MT_PROMOTION QUEEN, Move.make 48 57 MT_PROMOTION ROOK,
          Move.make 48 57 MT_PROMOTION BISHOP, Move.make 48 57 MT_PROMOTION KNIGHT],
      m.src = 48 → m.dst = 56 → m.type = MT_PROMOTION ∧ m ∈ Board.promotionsOf 48 56) :=
  C9_promotions Zobrist.init promoReady promoReady _ 48 56 QUEEN promoReady_gen.1 promoReady_gen.2
    (by decide) (by decide) (by decide!) (by decide!) (by decide!) (by decide)
    (by rw [Tables.init_eq_walk]; exact promoReady_walk.2.1)

end chess

/-!
# The move encoding, the magic lookups, the attacker set and the squares between
-/

namespace chess

open Tables

/-- The comparison `operator==` of two moves: their encodings are equal. -/
def Move.eq (a b : Move) : Bool := a.data_ == b.data_

/-- The attack set of a piece of type `pt` and colour `c` on the square `p` when the occupied
squares are `occ`: the pawn, knight and king tables, and the rook, bishop or queen rays. -/
def attackSet (T : Lookups) (c : Color) (pt : PieceType) (p : Nat) (occ : Bitboard) : Bitboard :=
  if pt = PAWN then T.PAWN_ATTACKS c p
  else if pt = KNIGHT then T.KNIGHT_ATTACKS p
  else if pt = KING then T.KING_ATTACKS p
  else if pt = ROOK then T.rookAttacks p occ
  else if pt = BISHOP then T.bishopAttacks p occ
  else if pt = QUEEN then T.queenAttacks p occ
  else 0

theorem Move.data_lt {s d t p : Nat} (hs : s < 64) (hd : d < 64) (ht : t < 4)
    (hp : 1 ≤ p ∧ p ≤ 4) : (Move.make s d t p).data_ < 2 ^ 16 := by
  have hk : KNIGHT = 1 := rfl
  have hd2 : (Move.make s d t p).data_ = s + 64 * d + 4096 * t + 16384 * (p - 1) := by
    show s ||| (d <<< 6) ||| (t <<< 12) ||| ((p - KNIGHT) <<< 14) = _
    rw [hk]
    exact Move.make_data hs hd ht
  rw [hd2]
  omega

/-- The squares between `a` and `b` are the squares between `b` and `a`. -/
theorem between_swap {a b x : Nat} (ha : a < 64) (h : Between a b x) : Between b a x := by
  obtain ⟨d, hd, n, j, hj, hjn, ho, hb, hx⟩ := h
  have hback := step_back ha hd ho (Nat.le_refl n)
  have hj2 := step_back ha hd ho (show n - j ≤ n by omega)
  rw [← hb] at hback hj2
  refine ⟨negDir d, isDir_neg hd, n, n - j, by omega, by omega, hback.1, ?_, ?_⟩
  · rw [hback.2, Nat.sub_self, stepSq_zero d ha]
  · rw [hj2.2, hx]; congr 1; omega

theorem between_table : sq64.all (fun a => sq64.all (fun b =>
    betweenInit a b == betweenInit b a && !(betweenInit a b).testBit a &&
      !(betweenInit a b).testBit b)) = true := by
  rw [List.all_eq_true]; intro a ha
  rw [List.all_eq_true]; intro b hb
  have ha := mem_sq64.1 ha
  have hb := mem_sq64.1 hb
  rw [Bool.and_eq_true, Bool.and_eq_true, beq_iff_eq, Bool.not_eq_true', Bool.not_eq_true']
  refine ⟨⟨?_, ?_⟩, ?_⟩
  · apply Nat.eq_of_testBit_eq; intro x
    rw [Bool.eq_iff_iff, testBit_betweenInit ha hb, testBit_betweenInit hb ha]
    exact ⟨between_swap ha, between_swap hb⟩
  · rw [← Bool.not_eq_true, testBit_betweenInit ha hb]
    rintro ⟨d, hd, n, j, hj, hjn, ho, _, hx⟩
    exact stepSq_ne hd hj (stepOn_mono ha hd ho (by omega)) hx.symm
  · rw [← Bool.not_eq_true, testBit_betweenInit ha hb]
    rintro ⟨d, hd, n, j, hj, hjn, ho, hb2, hx⟩
    have := step_unique hd hd (by omega) hj ho (stepOn_mono ha hd ho (by omega)) (hb2.symm.trans hx)
    omega
theorem between_off_line {s1 s2 : Nat} (h : s1 = s2 ∨ onLine s1 s2 = false) :
    betweenInit s1 s2 = 0 := by
  unfold betweenInit
  rcases h with h | h
  · rw [if_pos h]
  · by_cases e : s1 = s2
    · rw [if_pos e]
    · rw [if_neg e]
      simp only [h, Bool.false_eq_true, if_false]

/-- A square attacked along a ray attacks back along the same ray. -/
theorem reach_comm {dirs : List (Int × Int)} (hdirs : ∀ d ∈ dirs, IsDir d)
    (hneg : ∀ d ∈ dirs, negDir d ∈ dirs) {s t : Nat} (hs : s < 64) (ht : t < 64) (occ : Bitboard) :
    Reach dirs s occ t ↔ Reach dirs t occ s :=
  ⟨reach_symm hdirs hneg hs occ, reach_symm hdirs hneg ht occ⟩

/-- C20: for `from`, `to` in `0..63`, a move type in `0..3` and a promotion piece from Knight
to Queen, the move built by `Move(from, to, type, promo)` returns these four values from its
accessors, its encoding is below `2^16`, two such moves compare equal iff all four fields
are equal, and `isNull()` holds iff `from = to = 0`, the type is Normal and the piece is
Knight. -/
theorem C20_move_encoding (s d t p s2 d2 t2 p2 : Nat) (hs : s < 64) (hd : d < 64) (ht : t < 4)
    (hp : KNIGHT ≤ p ∧ p ≤ QUEEN) (hs2 : s2 < 64) (hd2 : d2 < 64) (ht2 : t2 < 4)
    (hp2 : KNIGHT ≤ p2 ∧ p2 ≤ QUEEN) :
    (Move.make s d t p).src = s ∧ (Move.make s d t p).dst = d ∧ (Move.make s d t p).type = t ∧
      (Move.make s d t p).promo = p ∧ (Move.make s d t p).data_ < 2 ^ 16 ∧
      ((Move.make s d t p).eq (Move.make s2 d2 t2 p2) = true ↔
        s = s2 ∧ d = d2 ∧ t = t2 ∧ p = p2) ∧
      ((Move.make s d t p).isNull = true ↔ s = 0 ∧ d = 0 ∧ t = MT_NORMAL ∧ p = KNIGHT) := by
  obtain ⟨f1, f2, f3, f4⟩ := Move.make_fields hs hd ht hp
  obtain ⟨g1, g2, g3, g4⟩ := Move.make_fields hs2 hd2 ht2 hp2
  have hk : KNIGHT = 1 := rfl
  have e1 : (Move.make s d t p).data_ = s + 64 * d + 4096 * t + 16384 * (p - 1) := by
    show s ||| (d <<< 6) ||| (t <<< 12) ||| ((p - KNIGHT) <<< 14) = _
    rw [hk]
    exact Move.make_data hs hd ht
  have e2 : (Move.make s2 d2 t2 p2).data_ = s2 + 64 * d2 + 4096 * t2 + 16384 * (p2 - 1) := by
    show s2 ||| (d2 <<< 6) ||| (t2 <<< 12) ||| ((p2 - KNIGHT) <<< 14) = _
    rw [hk]
    exact Move.make_data hs2 hd2 ht2
  have hp1 : 1 ≤ p ∧ p ≤ 4 := hp
  have hp21 : 1 ≤ p2 ∧ p2 ≤ 4 := hp2
  refine ⟨f1, f2, f3, f4, Move.data_lt hs hd ht hp, ?_, ?_⟩
  · unfold Move.eq
    rw [beq_iff_eq, e1, e2]
    omega
  · unfold Move.isNull
    rw [beq_iff_eq, e1]
    have h0 : MT_NORMAL = 0 := rfl
    rw [h0, hk]
    omega

theorem C20_move_encoding_witness :
    (Move.make 12 28 MT_PROMOTION QUEEN).src = 12 ∧ (Move.make 12 28 MT_PROMOTION QUEEN).dst = 28 ∧
      (Move.make 12 28 MT_PROMOTION QUEEN).type = MT_PROMOTION ∧
      (Move.make 12 28 MT_PROMOTION QUEEN).promo = QUEEN ∧
      (Move.make 12 28 MT_PROMOTION QUEEN).data_ < 2 ^ 16 ∧
      ((Move.make 12 28 MT_PROMOTION QUEEN).eq (Move.make 0 0 MT_NORMAL KNIGHT) = true ↔
        12 = 0 ∧ 28 = 0 ∧ MT_PROMOTION = MT_NORMAL ∧ QUEEN = KNIGHT) ∧
      ((Move.make 12 28 MT_PROMOTION QUEEN).isNull = true ↔
        12 = 0 ∧ 28 = 0 ∧ MT_PROMOTION = MT_NORMAL ∧ QUEEN = KNIGHT) :=
  C20_move_encoding 12 28 MT_PROMOTION QUEEN 0 0 MT_NORMAL KNIGHT (by decide) (by decide)
    (by decide) (by decide) (by decide) (by decide) (by decide) (by decide)

/-- C12: after `Tables::init()`, for every square `sq` in `0..63` and every occupancy `occ`,
`rookAttacks(sq, occ)` equals `slowRookAttacks(sq, occ)`, and that is the set of squares
reached by walking each of the four orthogonal rays up to and including the first blocker. -/
theorem C12_rook_magic_exact (sq : Nat) (occ : Bitboard) (hsq : sq < 64) :
    rookAttacks sq occ = slowRookAttacks sq occ ∧
      Tables.init.rookAttacks sq occ = slowRookAttacks sq occ ∧
      ∀ t, (rookAttacks sq occ).testBit t = true ↔ Reach rookDirs sq occ t := by
  refine ⟨rookAttacks_eq_slow hsq occ, ?_, ?_⟩
  · show (if sq < 64 then rookAttacks sq occ else 0) = _
    rw [if_pos hsq, rookAttacks_eq_slow hsq]
  · intro t
    rw [rookAttacks_eq_slow hsq]
    exact testBit_slowAttacks _ _ _ _

theorem C12_rook_magic_exact_witness :
    rookAttacks 27 0x0000000008000400 = slowRookAttacks 27 0x0000000008000400 ∧
      Tables.init.rookAttacks 27 0x0000000008000400 = slowRookAttacks 27 0x0000000008000400 ∧
      ∀ t, (rookAttacks 27 0x0000000008000400).testBit t = true ↔
        Reach rookDirs 27 0x0000000008000400 t :=
  C12_rook_magic_exact 27 0x0000000008000400 (by decide)

/-- C13: after `Tables::init()`, for every square `sq` in `0..63` and every occupancy `occ`,
`bishopAttacks(sq, occ)` equals `slowBishopAttacks(sq, occ)`, and that is the set of squares
reached by walking each of the four diagonal rays up to and including the first blocker. -/
theorem C13_bishop_magic_exact (sq : Nat) (occ : Bitboard) (hsq : sq < 64) :
    bishopAttacks sq occ = slowBishopAttacks sq occ ∧
      Tables.init.bishopAttacks sq occ = slowBishopAttacks sq occ ∧
      ∀ t, (bishopAttacks sq occ).testBit t = true ↔ Reach bishopDirs sq occ t := by
  refine ⟨bishopAttacks_eq_slow hsq occ, ?_, ?_⟩
  · show (if sq < 64 then bishopAttacks sq occ else 0) = _
    rw [if_pos hsq, bishopAttacks_eq_slow hsq]
  · intro t
    rw [bishopAttacks_eq_slow hsq]
    exact testBit_slowAttacks _ _ _ _

theorem C13_bishop_magic_exact_witness :
    bishopAttacks 36 0x0000020000040000 = slowBishopAttacks 36 0x0000020000040000 ∧
      Tables.init.bishopAttacks 36 0x0000020000040000 =
        slowBishopAttacks 36 0x0000020000040000 ∧
      ∀ t, (bishopAttacks 36 0x0000020000040000).testBit t = true ↔
        Reach bishopDirs 36 0x0000020000040000 t :=
  C13_bishop_magic_exact 36 0x0000020000040000 (by decide)

end chess

/-!
# The attacker set and the squares between two squares
-/

namespace chess

open Tables

namespace Board

/-- The attackers of `sq` in terms of the geometry of the board. -/
def AttacksFrom (b : Board) (occ : Bitboard) (c : Nat) (sq p : Nat) : Prop :=
  ((b.pieces_ c PAWN).testBit p = true ∧ Spec.pawnTakes c p sq = true) ∨
  ((b.pieces_ c KNIGHT).testBit p = true ∧ Spec.knightJump p sq = true) ∨
  ((b.pieces_ c KING).testBit p = true ∧ Spec.kingStep p sq = true) ∨
  (((b.pieces_ c ROOK).testBit p = true ∨ (b.pieces_ c QUEEN).testBit p = true) ∧
    Reach rookDirs p occ sq) ∨
  (((b.pieces_ c BISHOP).testBit p = true ∨ (b.pieces_ c QUEEN).testBit p = true) ∧
    Reach bishopDirs p occ sq)

theorem attackersTo_geometry {T : Lookups} (hT : T.Good) (b : Board) {c : Nat} (hc : c < 2)
    {sq : Nat} (hsq : sq < 64) (occ : Bitboard) (p : Nat) :
    (b.attackersTo T sq occ c).testBit p = true ↔ p < 64 ∧ AttacksFrom b occ c sq p := by
  unfold attackersTo AttacksFrom
  simp only [Nat.testBit_or, Nat.testBit_and, Bool.or_eq_true, Bool.and_eq_true]
  rw [hT.pawn _ _ _ (flip_lt hc) hsq, hT.knight _ _ hsq, hT.king _ _ hsq, hT.rook _ _ _ hsq,
    hT.bishop _ _ _ hsq, pawnTakes_flip hc, knightJump_symm sq p, kingStep_symm sq p]
  constructor
  · rintro ((((⟨⟨h1, h2⟩, h3⟩ | ⟨⟨h1, h2⟩, h3⟩) | ⟨⟨h1, h2⟩, h3⟩) | ⟨h1, h2⟩) | ⟨h1, h2⟩)
    · exact ⟨h1, Or.inl ⟨h3, h2⟩⟩
    · exact ⟨h1, Or.inr (Or.inl ⟨h3, h2⟩)⟩
    · exact ⟨h1, Or.inr (Or.inr (Or.inl ⟨h3, h2⟩))⟩
    · exact ⟨reach_lt h1, Or.inr (Or.inr (Or.inr (Or.inl
        ⟨h2, reach_symm (fun d => isDir_of_rook) (fun d => negDir_mem_rook) hsq occ h1⟩)))⟩
    · exact ⟨reach_lt h1, Or.inr (Or.inr (Or.inr (Or.inr
        ⟨h2, reach_symm (fun d => isDir_of_bishop) (fun d => negDir_mem_bishop) hsq occ h1⟩)))⟩
  · rintro ⟨hp, ⟨h1, h2⟩ | ⟨h1, h2⟩ | ⟨h1, h2⟩ | ⟨h1, h2⟩ | ⟨h1, h2⟩⟩
    · exact Or.inl (Or.inl (Or.inl (Or.inl ⟨⟨hp, h2⟩, h1⟩)))
    · exact Or.inl (Or.inl (Or.inl (Or.inr ⟨⟨hp, h2⟩, h1⟩)))
    · exact Or.inl (Or.inl (Or.inr ⟨⟨hp, h2⟩, h1⟩))
    · exact Or.inl (Or.inr
        ⟨reach_symm (fun d => isDir_of_rook) (fun d => negDir_mem_rook) hp occ h2, h1⟩)
    · exact Or.inr
        ⟨reach_symm (fun d => isDir_of_bishop) (fun d => negDir_mem_bishop) hp occ h2, h1⟩

theorem attackSet_geometry {T : Lookups} (hT : T.Good) (b : Board) {c : Nat} (hc : c < 2)
    {sq : Nat} (hsq : sq < 64) (occ : Bitboard) {p : Nat} (hp : p < 64) :
    (∃ pt : Nat, pt < 6 ∧ (b.pieces_ c pt).testBit p = true ∧
        (attackSet T c pt p occ).testBit sq = true) ↔ AttacksFrom b occ c sq p := by
  have a0 : attackSet T c PAWN p occ = T.PAWN_ATTACKS c p := rfl
  have a1 : attackSet T c KNIGHT p occ = T.KNIGHT_ATTACKS p := rfl
  have a2 : attackSet T c BISHOP p occ = T.bishopAttacks p occ := rfl
  have a3 : attackSet T c ROOK p occ = T.rookAttacks p occ := rfl
  have a4 : attackSet T c QUEEN p occ = T.rookAttacks p occ ||| T.bishopAttacks p occ := rfl
  have a5 : attackSet T c KING p occ = T.KING_ATTACKS p := rfl
  have e0 := hT.pawn c p sq hc hp
  have e1 := hT.knight p sq hp
  have e2 := hT.bishop p occ sq hp
  have e3 := hT.rook p occ sq hp
  have e5 := hT.king p sq hp
  unfold AttacksFrom
  constructor
  · rintro ⟨pt, hpt, h1, h2⟩
    rcases pt_cases hpt with rfl | rfl | rfl | rfl | rfl | rfl
    · rw [a0, e0] at h2
      exact Or.inl ⟨h1, h2.2⟩
    · rw [a1, e1] at h2
      exact Or.inr (Or.inl ⟨h1, h2.2⟩)
    · rw [a2, e2] at h2
      exact Or.inr (Or.inr (Or.inr (Or.inr ⟨Or.inl h1, h2⟩)))
    · rw [a3, e3] at h2
      exact Or.inr (Or.inr (Or.inr (Or.inl ⟨Or.inl h1, h2⟩)))
    · rw [a4, Nat.testBit_or, Bool.or_eq_true, e2, e3] at h2
      rcases h2 with h2 | h2
      · exact Or.inr (Or.inr (Or.inr (Or.inl ⟨Or.inr h1, h2⟩)))
      · exact Or.inr (Or.inr (Or.inr (Or.inr ⟨Or.inr h1, h2⟩)))
    · rw [a5, e5] at h2
      exact Or.inr (Or.inr (Or.inl ⟨h1, h2.2⟩))
  · rintro (⟨h1, h2⟩ | ⟨h1, h2⟩ | ⟨h1, h2⟩ | ⟨h1 | h1, h2⟩ | ⟨h1 | h1, h2⟩)
    · exact ⟨PAWN, by decide, h1, by rw [a0, e0]; exact ⟨hsq, h2⟩⟩
    · exact ⟨KNIGHT, by decide, h1, by rw [a1, e1]; exact ⟨hsq, h2⟩⟩
    · exact ⟨KING, by decide, h1, by rw [a5, e5]; exact ⟨hsq, h2⟩⟩
    · exact ⟨ROOK, by decide, h1, by rw [a3, e3]; exact h2⟩
    · exact ⟨QUEEN, by decide, h1, by
        rw [a4, Nat.testBit_or, Bool.or_eq_true, e3]; exact Or.inl h2⟩
    · exact ⟨BISHOP, by decide, h1, by rw [a2, e2]; exact h2⟩
    · exact ⟨QUEEN, by decide, h1, by
        rw [a4, Nat.testBit_or, Bool.or_eq_true, e2]; exact Or.inr h2⟩

end Board

/-- C14: for every board, square `sq`, occupancy `occ` and colour `c`, the bitboard
`attackersTo(sq, occ, c)` holds exactly the squares `p` that some piece bitboard of colour
`c` contains and from which that piece attacks `sq`: its attack set (the pawn table of its
colour, the knight or king table, the rook, bishop or queen rays from `p` blocked by `occ`)
contains `sq`. -/
theorem C14_attackersTo (b : Board) (sq : Nat) (occ : Bitboard) (c : Color) (p : Nat)
    (hsq : sq < 64) (hc : c < 2) :
    (b.attackersTo Tables.init sq occ c).testBit p = true ↔
      p < 64 ∧ ∃ pt : PieceType, pt < 6 ∧ (b.pieces_ c pt).testBit p = true ∧
        (attackSet Tables.init c pt p occ).testBit sq = true := by
  rw [Board.attackersTo_geometry Tables.init_good b hc hsq occ p]
  constructor
  · rintro ⟨hp, h⟩
    exact ⟨hp, (Board.attackSet_geometry Tables.init_good b hc hsq occ hp).2 h⟩
  · rintro ⟨hp, h⟩
    exact ⟨hp, (Board.attackSet_geometry Tables.init_good b hc hsq occ hp).1 h⟩

theorem C14_attackersTo_witness :
    (kingCapture.attackersTo Tables.init 56 kingCapture.occupied_ WHITE).testBit 0 = true ↔
      0 < 64 ∧ ∃ pt : PieceType, pt < 6 ∧ (kingCapture.pieces_ WHITE pt).testBit 0 = true ∧
        (attackSet Tables.init WHITE pt 0 kingCapture.occupied_).testBit 56 = true :=
  C14_attackersTo kingCapture 56 kingCapture.occupied_ WHITE 0 (by decide) (by decide)

/-- C15: for every ordered pair of squares `(s1, s2)`, `BETWEEN_BB[s1][s2]` is the set of
squares strictly between `s1` and `s2` on a common rank, file or diagonal; it is 0 when
the squares are equal or share no line; it contains neither `s1` nor `s2`; and
`BETWEEN_BB[s1][s2] = BETWEEN_BB[s2][s1]`. -/
theorem C15_between (s1 s2 : Nat) (h1 : s1 < 64) (h2 : s2 < 64) :
    (∀ x, (Tables.init.BETWEEN_BB s1 s2).testBit x = true ↔ Between s1 s2 x) ∧
      (s1 = s2 ∨ onLine s1 s2 = false → Tables.init.BETWEEN_BB s1 s2 = 0) ∧
      (Tables.init.BETWEEN_BB s1 s2).testBit s1 = false ∧
      (Tables.init.BETWEEN_BB s1 s2).testBit s2 = false ∧
      Tables.init.BETWEEN_BB s1 s2 = Tables.init.BETWEEN_BB s2 s1 := by
  have e12 : Tables.init.BETWEEN_BB s1 s2 = betweenInit s1 s2 := by
    show (if s1 < 64 ∧ s2 < 64 then betweenInit s1 s2 else 0) = _
    rw [if_pos ⟨h1, h2⟩]
  have e21 : Tables.init.BETWEEN_BB s2 s1 = betweenInit s2 s1 := by
    show (if s2 < 64 ∧ s1 < 64 then betweenInit s2 s1 else 0) = _
    rw [if_pos ⟨h2, h1⟩]
  have ht := List.all_eq_true.1 (List.all_eq_true.1 between_table s1 (mem_sq64.2 h1)) s2
    (mem_sq64.2 h2)
  simp only [Bool.and_eq_true, beq_iff_eq, Bool.not_eq_true_eq_eq_false] at ht
  rw [e12, e21]
  exact ⟨fun x => testBit_betweenInit h1 h2 x, between_off_line, ht.1.2, ht.2, ht.1.1⟩

theorem C15_between_witness :
    (∀ x, (Tables.init.BETWEEN_BB 0 27).testBit x = true ↔ Between 0 27 x) ∧
      (0 = 27 ∨ onLine 0 27 = false → Tables.init.BETWEEN_BB 0 27 = 0) ∧
      (Tables.init.BETWEEN_BB 0 27).testBit 0 = false ∧
      (Tables.init.BETWEEN_BB 0 27).testBit 27 = false ∧
      Tables.init.BETWEEN_BB 0 27 = Tables.init.BETWEEN_BB 27 0 :=
  C15_between 0 27 (by decide) (by decide)

end chess

/-!
# Perft (`src/generate.cpp`)
-/

namespace chess

open Tables

namespace Board

/-- The function `reset()`. -/
def reset (Z : ZobristKeys) : Board :=
  (setFEN Z (codes "rnbqkbnr/pppppppp/8/8/8/8/PPPPPPPP/RNBQKBNR w KQkq - 0 1")).2

end Board

/-- The function `perft(board, depth)` for a depth that is not negative: the number of leaves
(a `std::uint64_t`) and the board it leaves behind; `none` where the move generation has no
defined result. -/
def perft (T : Lookups) (Z : ZobristKeys) : Nat → Board → Option (Nat × Board)
  | 0, board => some (1, board)
  | depth + 1, board =>
    match board.generateLegalMoves T Z with
    | none => none
    | some (moves, board) =>
      if depth + 1 = 1 then some (moves.length % U64, board)
      else
        moves.foldl (fun acc m =>
          match acc with
          | none => none
          | some (nodes, board) =>
            match perft T Z depth (board.makeMove Z m).1 with
            | none => none
            | some (k, b1) => some ((nodes + k) % U64, b1.unmakeMove m (board.makeMove Z m).2))
          (some (0, board))

theorem reset_walk :
    (Board.reset Zobrist.init).consistent Tables.walk = true ∧
      ((Board.reset Zobrist.init).generateLegalMoves Tables.walk Zobrist.init).map
        (fun r => r.1.length) = some 20 := by
  decide!

/-- The length of the generated list of a concrete consistent position, from its evaluation
on the ray-walk tables. -/
theorem gen_length_of_walk {b : Board} {n : Nat} (hc : b.consistent Tables.walk = true)
    (h : (b.generateLegalMoves Tables.walk Zobrist.init).map (fun r => r.1.length) = some n) :
    ∃ l, b.generateLegalMoves Tables.init Zobrist.init = some (l, b) ∧ l.length = n := by
  rw [Tables.init_eq_walk]
  have hg : Tables.walk.Good := by rw [← Tables.init_eq_walk]; exact Tables.init_good
  have P : Board.Pos Tables.walk b := Board.Pos.of_consistent hg hc
  cases hg : b.generateLegalMoves Tables.walk Zobrist.init with
  | none => rw [hg] at h; exact Option.noConfusion h
  | some r =>
    obtain ⟨l, b2⟩ := r
    rw [hg] at h
    have e2 := (P.gen_some Zobrist.init hg).1
    rw [e2]
    exact ⟨l, rfl, Option.some.inj h⟩

theorem perft_zero (T : Lookups) (Z : ZobristKeys) (b : Board) : perft T Z 0 b = some (1, b) := by
  rw [perft]

theorem perft_one (T : Lookups) (Z : ZobristKeys) {b b2 : Board} {l : List Move}
    (h : b.generateLegalMoves T Z = some (l, b2)) : perft T Z 1 b = some (l.length % U64, b2) := by
  rw [perft, h]
  simp only [if_true]

/-- C11: after `reset()` to the standard starting position, `perft(board, 1)` returns 20 and
`perft(board, 0)` returns 1, and the board is unchanged afterwards. -/
theorem C11_perft_start :
    perft Tables.init Zobrist.init 1 (Board.reset Zobrist.init) =
        some (20, Board.reset Zobrist.init) ∧
      perft Tables.init Zobrist.init 0 (Board.reset Zobrist.init) =
        some (1, Board.reset Zobrist.init) := by
  refine ⟨?_, perft_zero _ _ _⟩
  obtain ⟨l, hl, hn⟩ := gen_length_of_walk reset_walk.1 reset_walk.2
  rw [perft_one _ _ hl, hn]
  exact congrArg (fun n => some (n, Board.reset Zobrist.init)) (by decide : 20 % U64 = 20)

end chess

/-!
# FEN output and the parsing of moves (`toFEN`, `parseUCI`, `src/board.cpp`)
-/

namespace chess

namespace Board

/-- The function `sqStr`. -/
def sqStr (sq : Int) : List Nat :=
  if 0 ≤ sq ∧ sq < 64 then [97 + fileOf sq.toNat, 49 + rankOf sq.toNat] else [45]

/-- The function `ptToChar`: the table `"PNBRQK?"` (with its terminating zero), lower case
for Black. -/
def ptToChar (pt : PieceType) (c : Color) : Nat :=
  let r := [80, 78, 66, 82, 81, 75, 63].getD pt 0
  if c = BLACK then (if 65 ≤ r ∧ r ≤ 90 then r + 32 else r) else r

/-- The digits of `std::to_string`, last digit first into `acc`, with `fuel` digits left. -/
def toStringAux : Nat → Nat → List Nat → List Nat
  | 0, _, acc => acc
  | fuel + 1, n, acc =>
    if n < 10 then (48 + n) :: acc else toStringAux fuel (n / 10) ((48 + n % 10) :: acc)

/-- The function `std::to_string` on a value that is not negative. -/
def to_string (n : Nat) : List Nat := toStringAux (n + 1) n []

/-- The inner loop of `toFEN` over the files of rank `r`, from file `f` with `n` files left
and `empty` empty squares counted: the characters appended to the string, including the
count written after the loop. -/
def rankFEN (b : Board) (r : Nat) : Nat → Nat → Nat → List Nat
  | 0, _, empty => if empty ≠ 0 then [48 + empty] else []
  | n + 1, f, empty =>
    if b.isEmpty (r * 8 + f) = true then rankFEN b r n (f + 1) (empty + 1)
    else
      (if empty ≠ 0 then [48 + empty] else []) ++
        ptToChar (b.pieceAt (r * 8 + f)) (b.colorAt (r * 8 + f)) :: rankFEN b r n (f + 1) 0

/-- The outer loop of `toFEN` over the ranks `n - 1` down to `0`. -/
def piecesFEN (b : Board) : Nat → List Nat
  | 0 => []
  | r + 1 => rankFEN b r 8 0 0 ++ (if r > 0 then [47] else []) ++ piecesFEN b r

/-- The castling field of `toFEN`. -/
def castlingFEN (cr : CastlingRights) : List Nat :=
  if cr = NO_CASTLING then [45]
  else
    (if cr &&& WHITE_OO ≠ 0 then [75] else []) ++ (if cr &&& WHITE_OOO ≠ 0 then [81] else []) ++
    (if cr &&& BLACK_OO ≠ 0 then [107] else []) ++ (if cr &&& BLACK_OOO ≠ 0 then [113] else [])

/-- The function `toFEN`: the string by its character codes. -/
def toFEN (b : Board) : List Nat :=
  piecesFEN b 8 ++ (if b.sideToMove_ = WHITE then [32, 119, 32] else [32, 98, 32]) ++
    castlingFEN b.castling_ ++ [32] ++ (if b.epSquare_ ≥ 0 then sqStr b.epSquare_ else [45]) ++
    ([32] ++ to_string b.halfmove_ ++ [32] ++ to_string b.fullmove_)

/-- The test of the loop of `parseUCI`: the move goes from `src` to `dst`, and a promotion
promotes to `promo`. -/
def matchesUCI (src dst : Int) (promo : PieceType) (m : Move) : Bool :=
  decide ((m.src : Int) = src) && decide ((m.dst : Int) = dst) &&
    (if m.type = MT_PROMOTION then decide (m.promo = promo) else true)

/-- The function `parseUCI` on a string given by its character codes: the move found, if
any, and the board left behind; `none` where the move generation has no defined result. -/
def parseUCI (T : Lookups) (Z : ZobristKeys) (b : Board) (s : List Nat) :
    Option (Option Move × Board) :=
  if s.length < 4 then some (none, b)
  else
    let src := strToSq (s.take 2)
    let dst := strToSq ((s.drop 2).take 2)
    if src < 0 ∨ dst < 0 then some (none, b)
    else
      match b.generateLegalMoves T Z with
      | none => none
      | some (moves, b) =>
        let promo := if s.length ≥ 5 then charToPT (s.getD 4 0) else NO_PIECE
        some (moves.find? (matchesUCI src dst promo), b)

/-- The square that two characters name: a file letter `a..h` and a rank digit `1..8`. -/
def squareNamed (c0 c1 : Nat) : Option Nat :=
  if 97 ≤ c0 ∧ c0 ≤ 104 ∧ 49 ≤ c1 ∧ c1 ≤ 56 then some ((c1 - 49) * 8 + (c0 - 97)) else none

/-- The move `m` matches the string `s` of a move in UCI notation: its squares are the squares
named by the first four characters, and a promotion promotes to the piece named by the
fifth. -/
def MatchesString (s : List Nat) (m : Move) : Prop :=
  squareNamed (s.getD 0 0) (s.getD 1 0) = some m.src ∧
    squareNamed (s.getD 2 0) (s.getD 3 0) = some m.dst ∧
    (m.type = MT_PROMOTION → 5 ≤ s.length ∧ m.promo = charToPT (s.getD 4 0))

end Board

end chess

/-!
# `setFEN` on malformed input and `parseUCI`
-/

namespace chess

open Tables

namespace Board

theorem strToSq_named (c0 c1 : Nat) :
    (squareNamed c0 c1 = none → strToSq [c0, c1] = -1) ∧
      (∀ q, squareNamed c0 c1 = some q → strToSq [c0, c1] = (q : Int)) := by
  unfold squareNamed strToSq
  simp only []
  by_cases h : 97 ≤ c0 ∧ c0 ≤ 104 ∧ 49 ≤ c1 ∧ c1 ≤ 56
  · rw [if_pos h, if_pos (by omega)]
    refine ⟨fun e => Option.noConfusion e, ?_⟩
    intro q e
    have e2 := Option.some.inj e
    omega
  · rw [if_neg h, if_neg (by omega)]
    exact ⟨fun _ => rfl, fun q e => Option.noConfusion e⟩

theorem strToSq_range (l : List Nat) : -1 ≤ strToSq l ∧ strToSq l < 64 := by
  unfold strToSq
  split
  · simp only []
    split <;> omega
  · omega

/-- The squares read from a string of at least four characters. -/
theorem uci_squares {s : List Nat} (h : 4 ≤ s.length) :
    s.take 2 = [s.getD 0 0, s.getD 1 0] ∧ (s.drop 2).take 2 = [s.getD 2 0, s.getD 3 0] := by
  match s, h with
  | c0 :: c1 :: c2 :: c3 :: rest, _ => exact ⟨rfl, rfl⟩

/-- The test of the loop, in terms of the string. -/
theorem matchesUCI_iff {s : List Nat} (h : 4 ≤ s.length) (m : Move)
    (h1 : 0 ≤ strToSq (s.take 2)) (h2 : 0 ≤ strToSq ((s.drop 2).take 2)) :
    matchesUCI (strToSq (s.take 2)) (strToSq ((s.drop 2).take 2))
        (if s.length ≥ 5 then charToPT (s.getD 4 0) else NO_PIECE) m = true ↔
      MatchesString s m := by
  obtain ⟨e1, e2⟩ := uci_squares h
  rw [e1] at h1 ⊢
  rw [e2] at h2 ⊢
  unfold matchesUCI MatchesString
  simp only [Bool.and_eq_true, decide_eq_true_eq]
  have n1 := strToSq_named (s.getD 0 0) (s.getD 1 0)
  have n2 := strToSq_named (s.getD 2 0) (s.getD 3 0)
  have k1 : ((m.src : Int) = strToSq [s.getD 0 0, s.getD 1 0]) ↔
      squareNamed (s.getD 0 0) (s.getD 1 0) = some m.src := by
    cases hq : squareNamed (s.getD 0 0) (s.getD 1 0) with
    | none => rw [n1.1 hq] at h1; omega
    | some q =>
      rw [n1.2 q hq]
      constructor
      · intro e; rw [Int.ofNat_inj.1 e]
      · intro e; rw [Option.some.inj e]
  have k2 : ((m.dst : Int) = strToSq [s.getD 2 0, s.getD 3 0]) ↔
      squareNamed (s.getD 2 0) (s.getD 3 0) = some m.dst := by
    cases hq : squareNamed (s.getD 2 0) (s.getD 3 0) with
    | none => rw [n2.1 hq] at h2; omega
    | some q =>
      rw [n2.2 q hq]
      constructor
      · intro e; rw [Int.ofNat_inj.1 e]
      · intro e; rw [Option.some.inj e]
  rw [k1, k2, and_assoc]
  have hp := m.promo_range
  have h7 : NO_PIECE = 7 := rfl
  by_cases ht : m.type = MT_PROMOTION
  · rw [if_pos ht, decide_eq_true_eq]
    by_cases h5 : s.length ≥ 5
    · rw [if_pos h5]
      exact ⟨fun ⟨a, b, c⟩ => ⟨a, b, fun _ => ⟨h5, c⟩⟩, fun ⟨a, b, c⟩ => ⟨a, b, (c ht).2⟩⟩
    · rw [if_neg h5]
      constructor
      · rintro ⟨_, _, c⟩
        have h4 := hp.2
        rw [c, h7] at h4
        exact absurd h4 (by decide)
      · rintro ⟨_, _, c⟩
        exact absurd (c ht).1 h5
  · rw [if_neg ht]
    exact ⟨fun ⟨a, b, _⟩ => ⟨a, b, fun e => absurd e ht⟩, fun ⟨a, b, _⟩ => ⟨a, b, rfl⟩⟩

/-- The function `parseUCI` once the string has four characters that name two squares. -/
theorem parseUCI_eq (T : Lookups) (Z : ZobristKeys) (b : Board) {s : List Nat}
    (h : 4 ≤ s.length) (h1 : 0 ≤ strToSq (s.take 2)) (h2 : 0 ≤ strToSq ((s.drop 2).take 2)) :
    b.parseUCI T Z s =
      match b.generateLegalMoves T Z with
      | none => none
      | some (moves, b) =>
        some (moves.find? (matchesUCI (strToSq (s.take 2)) (strToSq ((s.drop 2).take 2))
          (if s.length ≥ 5 then charToPT (s.getD 4 0) else NO_PIECE)), b) := by
  unfold parseUCI
  rw [if_neg (by omega)]
  simp only []
  rw [if_neg (by omega)]
  try rfl

/-- The function `parseUCI` on a string that is too short or names no two squares. -/
theorem parseUCI_reject (T : Lookups) (Z : ZobristKeys) (b : Board) {s : List Nat}
    (h : s.length < 4 ∨ strToSq (s.take 2) < 0 ∨ strToSq ((s.drop 2).take 2) < 0) :
    b.parseUCI T Z s = some (none, b) := by
  unfold parseUCI
  by_cases h4 : s.length < 4
  · rw [if_pos h4]
  · rw [if_neg h4]
    simp only []
    rw [if_pos (h.resolve_left h4)]

end Board

/-- C19: for every board and string `s`, `parseUCI(s)` returns a move `m` only if `m` is in the
list of `generateLegalMoves`, `s` has at least four characters, `m.from` and `m.to` are the
squares named by `s[0..1]` and `s[2..3]`, a promotion promotes to the piece named by `s[4]`,
and no move before `m` in the list matches; it returns no move when `s` has fewer than four
characters, when either square is not `a1..h8`, and when no move of the list matches. -/
theorem C19_parseUCI (Z : ZobristKeys) (b : Board) (s : List Nat) :
    (∀ m b2, b.parseUCI Tables.init Z s = some (some m, b2) →
      ∃ l, b.generateLegalMoves Tables.init Z = some (l, b2) ∧ m ∈ l ∧ 4 ≤ s.length ∧
        Board.MatchesString s m ∧
        ∃ pre post, l = pre ++ m :: post ∧ ∀ x ∈ pre, ¬ Board.MatchesString s x) ∧
    (s.length < 4 → b.parseUCI Tables.init Z s = some (none, b)) ∧
    (Board.squareNamed (s.getD 0 0) (s.getD 1 0) = none ∨
        Board.squareNamed (s.getD 2 0) (s.getD 3 0) = none →
      b.parseUCI Tables.init Z s = some (none, b)) ∧
    (∀ l b2, 4 ≤ s.length → b.generateLegalMoves Tables.init Z = some (l, b2) →
      (∀ x ∈ l, ¬ Board.MatchesString s x) →
      ∃ b3, b.parseUCI Tables.init Z s = some (none, b3)) := by
  refine ⟨?_, fun h => Board.parseUCI_reject _ Z b (Or.inl h), ?_, ?_⟩
  · intro m b2 h
    by_cases hr : s.length < 4 ∨ Board.strToSq (s.take 2) < 0 ∨
        Board.strToSq ((s.drop 2).take 2) < 0
    · rw [Board.parseUCI_reject _ Z b hr] at h
      exact Option.noConfusion (congrArg Prod.fst (Option.some.inj h))
    · have h4 : 4 ≤ s.length := by omega
      have h1 : 0 ≤ Board.strToSq (s.take 2) := by omega
      have h2 : 0 ≤ Board.strToSq ((s.drop 2).take 2) := by omega
      rw [Board.parseUCI_eq _ Z b h4 h1 h2] at h
      cases hg : b.generateLegalMoves Tables.init Z with
      | none => rw [hg] at h; exact Option.noConfusion h
      | some r =>
        obtain ⟨l, b3⟩ := r
        rw [hg] at h
        have e := Option.some.inj h
        have e1 : l.find? _ = some m := congrArg Prod.fst e
        have e2 : b3 = b2 := congrArg Prod.snd e
        rw [List.find?_eq_some] at e1
        obtain ⟨p1, pre, post, p2, p3⟩ := e1
        rw [e2]
        refine ⟨l, rfl, by rw [p2]; simp, h4, (Board.matchesUCI_iff h4 m h1 h2).1 p1, pre, post,
          p2, ?_⟩
        intro x hx hm
        have := p3 x hx
        rw [(Board.matchesUCI_iff h4 x h1 h2).2 hm] at this
        exact Bool.noConfusion this
  · intro h
    by_cases h4 : s.length < 4
    · exact Board.parseUCI_reject _ Z b (Or.inl h4)
    · obtain ⟨e1, e2⟩ := Board.uci_squares (s := s) (by omega)
      apply Board.parseUCI_reject
      rw [e1, e2]
      rcases h with h | h
      · exact Or.inr (Or.inl (by rw [(Board.strToSq_named _ _).1 h]; decide))
      · exact Or.inr (Or.inr (by rw [(Board.strToSq_named _ _).1 h]; decide))
  · intro l b2 h4 hg hno
    by_cases hr : s.length < 4 ∨ Board.strToSq (s.take 2) < 0 ∨
        Board.strToSq ((s.drop 2).take 2) < 0
    · exact ⟨b, Board.parseUCI_reject Tables.init Z b hr⟩
    · have h1 : 0 ≤ Board.strToSq (s.take 2) := by omega
      have h2 : 0 ≤ Board.strToSq ((s.drop 2).take 2) := by omega
      rw [Board.parseUCI_eq _ Z b h4 h1 h2, hg]
      simp only []
      have : l.find? (Board.matchesUCI (Board.strToSq (s.take 2))
          (Board.strToSq ((s.drop 2).take 2))
          (if s.length ≥ 5 then Board.charToPT (s.getD 4 0) else NO_PIECE)) = none := by
        rw [List.find?_eq_none]
        intro x hx hm
        exact hno x hx ((Board.matchesUCI_iff h4 x h1 h2).1 hm)
      rw [this]
      exact ⟨b2, rfl⟩

theorem parseUCI_example :
    promoReady.parseUCI Tables.init Zobrist.init (Board.codes "a7a8q") =
      some (some (Move.make 48 56 MT_PROMOTION QUEEN), promoReady) := by
  rw [Board.parseUCI_eq _ _ _ (by decide) (by decide) (by decide), promoReady_gen.2]
  refine congrArg (fun x => some (x, promoReady)) (?_ : List.find? _ _ = some _)
  decide

theorem C19_parseUCI_witness :
    ∃ l, promoReady.generateLegalMoves Tables.init Zobrist.init = some (l, promoReady) ∧
      Move.make 48 56 MT_PROMOTION QUEEN ∈ l ∧ 4 ≤ (Board.codes "a7a8q").length ∧
      Board.MatchesString (Board.codes "a7a8q") (Move.make 48 56 MT_PROMOTION QUEEN) ∧
      ∃ pre post, l = pre ++ Move.make 48 56 MT_PROMOTION QUEEN :: post ∧
        ∀ x ∈ pre, ¬ Board.MatchesString (Board.codes "a7a8q") x :=
  (C19_parseUCI Zobrist.init promoReady (Board.codes "a7a8q")).1 _ _ parseUCI_example

theorem setFEN_malformed_walk :
    (Board.setFEN Zobrist.init (Board.codes "")).2.occupied_ = 0 ∧
      (Board.setFEN Zobrist.init (Board.codes "")).2.fullmove_ = 1 ∧
      (Board.reset Zobrist.init).occupied_ = 0xFFFF00000000FFFF ∧
      (Board.reset Zobrist.init).fullmove_ = 1 ∧
      (Board.setFEN Zobrist.init (Board.codes "8/8/8/8/8/8/8/7x w - - 0 9")).2.fullmove_ = 9 ∧
      (Board.setFEN Zobrist.init (Board.codes "8/8/8/8/8/8/8/7 w - - 0 9")).2.fullmove_ = 9 := by
  decide!

/-- C18, the claim as stated is false: `setFEN` returns `true` on the empty string, on a
piece field with an unknown letter and on a rank that does not sum to eight squares, and it
changes the board: called with the empty string on the board of the starting position it
leaves a board without pieces, and called with a malformed string it stores the fullmove
number 9 that the string gives. -/
theorem C18_counterexample :
    (Board.setFEN Zobrist.init (Board.codes "")).1 = true ∧
      (Board.setFEN Zobrist.init (Board.codes "8/8/8/8/8/8/8/7x w - - 0 9")).1 = true ∧
      (Board.setFEN Zobrist.init (Board.codes "8/8/8/8/8/8/8/7 w - - 0 9")).1 = true ∧
      (Board.reset Zobrist.init).occupied_ ≠
        (Board.setFEN Zobrist.init (Board.codes "")).2.occupied_ ∧
      (Board.reset Zobrist.init).fullmove_ ≠
        (Board.setFEN Zobrist.init (Board.codes "8/8/8/8/8/8/8/7x w - - 0 9")).2.fullmove_ ∧
      (Board.reset Zobrist.init).fullmove_ ≠
        (Board.setFEN Zobrist.init (Board.codes "8/8/8/8/8/8/8/7 w - - 0 9")).2.fullmove_ := by
  obtain ⟨h1, _, h3, h4, h5, h6⟩ := setFEN_malformed_walk
  refine ⟨rfl, rfl, rfl, ?_, ?_, ?_⟩
  · rw [h1, h3]; decide
  · rw [h4, h5]; decide
  · rw [h4, h6]; decide

/-- C18, amended: `setFEN` does not validate its input. For every string it returns `true`
and replaces the board: it clears the board, stores what the six reads of the string yield,
sets the hash to `computeHash()` and empties the history; for the empty string the result is
the cleared board with its hash. -/
theorem C18_setFEN_accepts (Z : ZobristKeys) (fen : List Nat) :
    (Board.setFEN Z fen).1 = true ∧ (Board.setFEN Z fen).2.history_ = [] ∧
      (Board.setFEN Z fen).2.hash_ = (Board.setFEN Z fen).2.computeHash Z ∧
      (Board.setFEN Z []).2 = { Board.clear with hash_ := Board.clear.computeHash Z } :=
  ⟨rfl, rfl, rfl, rfl⟩

end chess

/-!
# Reading the fields of a FEN string
-/

namespace chess

namespace Board

/-- No character of the list is white space. -/
def NoSpace (l : List Nat) : Prop := ∀ c ∈ l, isSpace c = false

/-- Every character of the list is a decimal digit. -/
def Digits (l : List Nat) : Prop := ∀ c ∈ l, 48 ≤ c ∧ c ≤ 57

/-- The value of a list of decimal digits read from the left, starting from `acc`. -/
def digitsValue (l : List Nat) (acc : Nat) : Nat := l.foldl (fun a c => a * 10 + (c - 48)) acc

theorem noSpace_nil : NoSpace [] := fun _ h => absurd h (List.not_mem_nil _)

theorem noSpace_cons {c : Nat} {l : List Nat} : NoSpace (c :: l) ↔ isSpace c = false ∧ NoSpace l := by
  unfold NoSpace
  simp only [List.mem_cons, forall_eq_or_imp]

theorem noSpace_append {l1 l2 : List Nat} : NoSpace (l1 ++ l2) ↔ NoSpace l1 ∧ NoSpace l2 := by
  unfold NoSpace
  simp only [List.mem_append]
  exact ⟨fun h => ⟨fun c hc => h c (Or.inl hc), fun c hc => h c (Or.inr hc)⟩,
    fun h c hc => hc.elim (h.1 c) (h.2 c)⟩

theorem isSpace_space : isSpace 32 = true := by decide

theorem takeToken_append {t : List Nat} (h : NoSpace t) (rest : List Nat) :
    takeToken (t ++ 32 :: rest) = (t, 32 :: rest) := by
  induction t with
  | nil =>
    show takeToken (32 :: rest) = _
    unfold takeToken
    rw [if_pos isSpace_space]
  | cons c t ih =>
    rw [noSpace_cons] at h
    show takeToken (c :: (t ++ 32 :: rest)) = _
    unfold takeToken
    rw [if_neg (by rw [h.1]; exact Bool.noConfusion), ih h.2]

theorem takeToken_all {t : List Nat} (h : NoSpace t) : takeToken t = (t, []) := by
  induction t with
  | nil => rfl
  | cons c t ih =>
    rw [noSpace_cons] at h
    unfold takeToken
    rw [if_neg (by rw [h.1]; exact Bool.noConfusion), ih h.2]

theorem skipSpace_cons_space (l : List Nat) : skipSpace (32 :: l) = skipSpace l := by
  show (if isSpace 32 = true then skipSpace l else 32 :: l) = _
  rw [if_pos isSpace_space]

theorem skipSpace_of_head {c : Nat} (h : isSpace c = false) (l : List Nat) :
    skipSpace (c :: l) = c :: l := by
  show (if isSpace c = true then skipSpace l else c :: l) = _
  rw [if_neg (by rw [h]; exact Bool.noConfusion)]

/-- Reading a field that is followed by a blank. -/
theorem readString_field {t : List Nat} (h : NoSpace t) (ht : t ≠ []) (rest : List Nat) :
    readString (t ++ 32 :: rest) = (t, 32 :: rest, true) ∧
      readString (32 :: (t ++ 32 :: rest)) = (t, 32 :: rest, true) := by
  have key : skipSpace (t ++ 32 :: rest) = t ++ 32 :: rest := by
    match t, ht, h with
    | c :: t2, _, h => exact skipSpace_of_head (noSpace_cons.1 h).1 _
  have e : (!t.isEmpty) = true := by
    match t, ht with
    | c :: t2, _ => rfl
  constructor
  · unfold readString
    simp only []
    rw [key, takeToken_append h, e]
  · unfold readString
    simp only []
    rw [skipSpace_cons_space, key, takeToken_append h, e]

theorem takeDigits_append {ds : List Nat} (hd : Digits ds) (rest : List Nat)
    (hr : ∀ c cs, rest = c :: cs → ¬ (48 ≤ c ∧ c ≤ 57)) (acc : Nat) :
    takeDigits (ds ++ rest) acc = (digitsValue ds acc, rest, ds.length) := by
  induction ds generalizing acc with
  | nil =>
    show takeDigits rest acc = (acc, rest, 0)
    match rest, hr with
    | [], _ => rfl
    | c :: cs, hr =>
      unfold takeDigits
      rw [if_neg (hr c cs rfl)]
  | cons d ds ih =>
    have h1 : 48 ≤ d ∧ d ≤ 57 := hd d (List.mem_cons_self d ds)
    have h2 : Digits ds := fun c hc => hd c (List.mem_cons_of_mem d hc)
    show takeDigits (d :: (ds ++ rest)) acc = _
    unfold takeDigits
    rw [if_pos h1]
    simp only []
    rw [ih h2]
    rfl

theorem digitsValue_acc (l : List Nat) (acc : Nat) :
    digitsValue l acc = acc * 10 ^ l.length + digitsValue l 0 := by
  induction l generalizing acc with
  | nil => simp [digitsValue]
  | cons c l ih =>
    show digitsValue l (acc * 10 + (c - 48)) = _
    have e : digitsValue (c :: l) 0 = digitsValue l (0 * 10 + (c - 48)) := rfl
    rw [ih, e, ih (0 * 10 + (c - 48)), List.length_cons, pow_succ]
    ring

/-- The characters that `toStringAux` writes are digits, and read back they give the number. -/
theorem toStringAux_spec : ∀ (fuel n : Nat) (acc : List Nat), n < fuel → Digits acc →
    Digits (toStringAux fuel n acc) ∧ toStringAux fuel n acc ≠ [] ∧
      digitsValue (toStringAux fuel n acc) 0 = n * 10 ^ acc.length + digitsValue acc 0 := by
  intro fuel
  induction fuel with
  | zero => intro n acc h; omega
  | succ k ih =>
    intro n acc hn hacc
    unfold toStringAux
    by_cases h10 : n < 10
    · rw [if_pos h10]
      refine ⟨?_, List.cons_ne_nil _ _, ?_⟩
      · intro c hc
        rcases List.mem_cons.1 hc with rfl | hc
        · omega
        · exact hacc c hc
      · show digitsValue acc (0 * 10 + (48 + n - 48)) = _
        rw [digitsValue_acc]
        have : 0 * 10 + (48 + n - 48) = n := by omega
        rw [this]
    · rw [if_neg h10]
      have hacc2 : Digits ((48 + n % 10) :: acc) := by
        intro c hc
        rcases List.mem_cons.1 hc with rfl | hc
        · omega
        · exact hacc c hc
      obtain ⟨i1, i2, i3⟩ := ih (n / 10) ((48 + n % 10) :: acc) (by omega) hacc2
      refine ⟨i1, i2, ?_⟩
      rw [i3]
      have e : digitsValue ((48 + n % 10) :: acc) 0 = digitsValue acc (0 * 10 + (48 + n % 10 - 48)) :=
        rfl
      rw [e, digitsValue_acc acc, List.length_cons, pow_succ]
      have : 0 * 10 + (48 + n % 10 - 48) = n % 10 := by omega
      rw [this]
      have h3 : n = 10 * (n / 10) + n % 10 := (Nat.div_add_mod n 10).symm
      generalize 10 ^ acc.length = P
      generalize digitsValue acc 0 = V
      nth_rewrite 3 [h3]
      ring

theorem to_string_spec (n : Nat) :
    Digits (to_string n) ∧ to_string n ≠ [] ∧ digitsValue (to_string n) 0 = n := by
  obtain ⟨h1, h2, h3⟩ := toStringAux_spec (n + 1) n [] (by omega)
    (fun _ h => absurd h (List.not_mem_nil _))
  refine ⟨h1, h2, ?_⟩
  unfold to_string
  rw [h3]
  simp [digitsValue]

theorem digits_noSpace {l : List Nat} (h : Digits l) : NoSpace l := by
  intro c hc
  have := h c hc
  unfold isSpace
  simp only [Bool.or_eq_false_iff, beq_eq_false_iff_ne, Bool.and_eq_false_iff,
    decide_eq_false_iff_not]
  omega

/-- Reading a number written in decimal digits after a blank. -/
theorem readInt_digits (dflt : Int) {ds : List Nat} (hds : Digits ds) (hne : ds ≠ [])
    (hv : digitsValue ds 0 ≤ 2147483647) (rest : List Nat)
    (hr : ∀ c cs, rest = c :: cs → ¬ (48 ≤ c ∧ c ≤ 57)) :
    readInt dflt (32 :: (ds ++ rest)) = (((digitsValue ds 0 : Nat) : Int), rest, true) := by
  match ds, hne, hds, hv with
  | d :: ds2, _, hds, hv =>
    have hd : 48 ≤ d ∧ d ≤ 57 := hds d (List.mem_cons_self d ds2)
    have hsp : isSpace d = false := digits_noSpace hds d (List.mem_cons_self d ds2)
    have hskip : skipSpace (32 :: (d :: ds2 ++ rest)) = d :: (ds2 ++ rest) := by
      rw [skipSpace_cons_space]
      exact skipSpace_of_head hsp _
    have htd : takeDigits (d :: (ds2 ++ rest)) 0 = (digitsValue (d :: ds2) 0, rest, (d :: ds2).length) :=
      takeDigits_append hds rest hr 0
    have e1 : ¬ ((d :: (ds2 ++ rest)).isEmpty = true) := by simp
    have e2 : (d :: (ds2 ++ rest)).head? = some d := rfl
    have n1 : ¬ ((some d == some 45) = true ∨ (some d == some 43) = true) := by
      simp only [beq_iff_eq, Option.some.injEq]
      omega
    have n2 : ¬ ((some d == some 45) = true) := fun h => n1 (Or.inl h)
    unfold readInt
    simp only []
    rw [hskip, if_neg e1, e2, if_neg n1, htd]
    simp only [if_neg n2, List.length_cons]
    rw [if_neg (by omega), if_neg (by omega), if_neg (by omega)]

/-- Reading a number written by `to_string` after a blank. -/
theorem readInt_to_string (dflt : Int) (n : Nat) (hn : n ≤ 2147483647) (rest : List Nat)
    (hr : ∀ c cs, rest = c :: cs → ¬ (48 ≤ c ∧ c ≤ 57)) :
    readInt dflt (32 :: (to_string n ++ rest)) = ((n : Int), rest, true) := by
  obtain ⟨h1, h2, h3⟩ := to_string_spec n
  rw [readInt_digits dflt h1 h2 (by rw [h3]; exact hn) rest hr, h3]

end Board

end chess

/-!
# Reading the piece field that `toFEN` writes
-/

namespace chess

namespace Board

/-- Every square of the mailbox is empty or names a piece. -/
def ValidMailbox (b : Board) : Prop :=
  ∀ s, s < 64 → b.mailbox_ s = 0xFF ∨ ∃ c pt : Nat, (c < 2 ∧ pt < 6) ∧ b.mailbox_ s = code c pt

/-- The board `B` after the piece that `b` has on the square `s`, if any, is put on it. -/
def loadSquare (b B : Board) (s : Nat) : Board :=
  if b.mailbox_ s = 0xFF then B else B.putPiece (b.colorAt s) (b.pieceAt s) s

/-- The board `B` after the pieces that `b` has on the files `f, .., f + n - 1` of rank `r`
are put on it. -/
def loadFiles (b : Board) (r : Nat) : Nat → Nat → Board → Board
  | 0, _, B => B
  | n + 1, f, B => loadFiles b r n (f + 1) (loadSquare b B (r * 8 + f))

/-- The board `B` after the pieces that `b` has on the ranks `R - 1, .., 0` are put on it. -/
def loadRanks (b : Board) : Nat → Board → Board
  | 0, B => B
  | r + 1, B => loadRanks b r (loadFiles b r 8 0 B)

theorem piece_chars : allPieces.all (fun p =>
    charToPT (ptToChar p.2 p.1) == p.2 && ptToChar p.2 p.1 != 47 &&
      !(decide (49 ≤ ptToChar p.2 p.1) && decide (ptToChar p.2 p.1 ≤ 56)) &&
      (if 65 ≤ ptToChar p.2 p.1 ∧ ptToChar p.2 p.1 ≤ 90 then WHITE else BLACK) == p.1 &&
      !isSpace (ptToChar p.2 p.1)) = true := by
  decide

theorem piece_char {c pt : Nat} (h : c < 2 ∧ pt < 6) :
    charToPT (ptToChar pt c) = pt ∧ ptToChar pt c ≠ 47 ∧
      ¬ (49 ≤ ptToChar pt c ∧ ptToChar pt c ≤ 56) ∧
      (if 65 ≤ ptToChar pt c ∧ ptToChar pt c ≤ 90 then WHITE else BLACK) = c ∧
      isSpace (ptToChar pt c) = false := by
  have hm := List.all_eq_true.1 piece_chars (c, pt) (mem_allPieces.2 h)
  simp only [Bool.and_eq_true, beq_iff_eq, bne_iff_ne, Bool.not_eq_true_eq_eq_false,
    Bool.and_eq_false_iff, decide_eq_false_iff_not, decide_eq_true_eq, ne_eq] at hm
  obtain ⟨⟨⟨⟨h1, h2⟩, h3⟩, h4⟩, h5⟩ := hm
  exact ⟨h1, h2, fun h => h3.elim (fun a => a h.1) (fun a => a h.2), h4, h5⟩

/-- A digit from 1 to 8 in the piece field moves the square forward. -/
theorem setFENPieces_digit {e : Nat} (h1 : 1 ≤ e) (h8 : e ≤ 8) (rest : List Nat) (B : Board)
    (sq : Int) : setFENPieces ((48 + e) :: rest) B sq = setFENPieces rest B (sq + (e : Int)) := by
  rw [setFENPieces, if_neg (by omega), if_pos (by omega)]
  congr 1
  push_cast
  ring

/-- A slash in the piece field moves the square back by two ranks. -/
theorem setFENPieces_slash (rest : List Nat) (B : Board) (sq : Int) :
    setFENPieces (47 :: rest) B sq = setFENPieces rest B (sq - 16) := by
  rw [setFENPieces, if_pos rfl]

/-- A piece letter in the piece field puts the piece on the square. -/
theorem setFENPieces_piece {c pt : Nat} (h : c < 2 ∧ pt < 6) (rest : List Nat) (B : Board)
    {s : Nat} (hs : s < 64) :
    setFENPieces (ptToChar pt c :: rest) B (s : Int) =
      setFENPieces rest (B.putPiece c pt s) ((s + 1 : Nat) : Int) := by
  obtain ⟨p1, p2, p3, p4, _⟩ := piece_char h
  rw [setFENPieces, if_neg p2, if_neg p3]
  simp only []
  rw [p1, p4, if_pos ⟨pt_ne_no_piece h.2, by omega, by omega⟩, Int.toNat_ofNat]
  rfl

theorem loadSquare_empty {b : Board} (B : Board) {s : Nat} (h : b.mailbox_ s = 0xFF) :
    loadSquare b B s = B := by
  unfold loadSquare
  rw [if_pos h]

theorem loadSquare_piece {b : Board} (B : Board) {s c pt : Nat} (hcp : c < 2 ∧ pt < 6)
    (h : b.mailbox_ s = code c pt) : loadSquare b B s = B.putPiece c pt s := by
  unfold loadSquare
  rw [if_neg (by rw [h]; exact code_ne_empty hcp)]
  unfold colorAt pieceAt
  rw [h, code_and7 hcp, code_color hcp]

/-- Reading what `toFEN` writes for the files `f, .., 7` of a rank puts the pieces of these
files on the board and leaves the square counter at the end of the rank. -/
theorem setFENPieces_rank {b : Board} (hv : b.ValidMailbox) {r : Nat} (hr : r < 8)
    (rest : List Nat) :
    ∀ (n f e : Nat) (B : Board), f + n = 8 → e ≤ f →
      setFENPieces (rankFEN b r n f e ++ rest) B ((r * 8 + f - e : Nat) : Int) =
        setFENPieces rest (loadFiles b r n f B) ((r * 8 + 8 : Nat) : Int) := by
  intro n
  induction n with
  | zero =>
    intro f e B hf he
    have hf8 : f = 8 := by omega
    subst hf8
    show setFENPieces ((if e ≠ 0 then [48 + e] else []) ++ rest) B _ = setFENPieces rest B _
    by_cases h0 : e = 0
    · subst h0
      rfl
    · rw [if_pos h0]
      show setFENPieces ((48 + e) :: rest) B _ = _
      rw [setFENPieces_digit (by omega) he]
      congr 1
      omega
  | succ n ih =>
    intro f e B hf he
    have hs : r * 8 + f < 64 := by omega
    rcases hv (r * 8 + f) hs with hm | ⟨c, pt, hcp, hm⟩
    · have he1 : b.isEmpty (r * 8 + f) = true := (isEmpty_iff _ _).2 hm
      show setFENPieces ((if b.isEmpty (r * 8 + f) = true then rankFEN b r n (f + 1) (e + 1)
        else _) ++ rest) B _ = setFENPieces rest (loadFiles b r n (f + 1) (loadSquare b B (r * 8 + f))) _
      rw [if_pos he1, loadSquare_empty B hm]
      have := ih (f + 1) (e + 1) B (by omega) (by omega)
      have e2 : r * 8 + (f + 1) - (e + 1) = r * 8 + f - e := by omega
      rw [e2] at this
      exact this
    · have he1 : ¬ b.isEmpty (r * 8 + f) = true := by
        rw [isEmpty_iff, hm]
        exact code_ne_empty hcp
      have hch : ptToChar (b.pieceAt (r * 8 + f)) (b.colorAt (r * 8 + f)) = ptToChar pt c := by
        unfold pieceAt colorAt
        rw [hm, code_and7 hcp, code_color hcp]
      show setFENPieces ((if b.isEmpty (r * 8 + f) = true then _
        else (if e ≠ 0 then [48 + e] else []) ++
          ptToChar (b.pieceAt (r * 8 + f)) (b.colorAt (r * 8 + f)) :: rankFEN b r n (f + 1) 0) ++
          rest) B _ = setFENPieces rest (loadFiles b r n (f + 1) (loadSquare b B (r * 8 + f))) _
      rw [if_neg he1, hch, loadSquare_piece B hcp hm]
      have key : setFENPieces (ptToChar pt c :: (rankFEN b r n (f + 1) 0 ++ rest)) B
          ((r * 8 + f : Nat) : Int) =
          setFENPieces rest (loadFiles b r n (f + 1) (B.putPiece c pt (r * 8 + f)))
            ((r * 8 + 8 : Nat) : Int) := by
        rw [setFENPieces_piece hcp _ B hs]
        have := ih (f + 1) 0 (B.putPiece c pt (r * 8 + f)) (by omega) (by omega)
        have e2 : r * 8 + (f + 1) - 0 = r * 8 + f + 1 := by omega
        rw [e2] at this
        exact this
      by_cases h0 : e = 0
      · subst h0
        rw [if_neg (by decide)]
        exact key
      · rw [if_pos h0]
        show setFENPieces ((48 + e) :: (ptToChar pt c :: (rankFEN b r n (f + 1) 0 ++ rest))) B _ = _
        rw [setFENPieces_digit (by omega) (by omega)]
        have e3 : ((r * 8 + f - e : Nat) : Int) + (e : Int) = ((r * 8 + f : Nat) : Int) := by omega
        rw [e3]
        exact key

/-- Reading what `toFEN` writes for the ranks `R - 1, .., 0` puts the pieces of these ranks
on the board. -/
theorem setFENPieces_ranks {b : Board} (hv : b.ValidMailbox) :
    ∀ (R : Nat) (B : Board), R ≤ 8 →
      setFENPieces (piecesFEN b R) B (((R * 8 : Nat) : Int) - 8) = loadRanks b R B := by
  intro R
  induction R with
  | zero => intro B _; rfl
  | succ r ih =>
    intro B hR
    show setFENPieces (rankFEN b r 8 0 0 ++ (if r > 0 then [47] else []) ++ piecesFEN b r) B _ =
      loadRanks b r (loadFiles b r 8 0 B)
    have e1 : (((r + 1) * 8 : Nat) : Int) - 8 = ((r * 8 + 0 - 0 : Nat) : Int) := by omega
    rw [List.append_assoc, e1, setFENPieces_rank hv (by omega) _ 8 0 0 B (by omega) (by omega)]
    by_cases h0 : r > 0
    · rw [if_pos h0]
      show setFENPieces (47 :: piecesFEN b r) _ _ = _
      rw [setFENPieces_slash]
      have e2 : ((r * 8 + 8 : Nat) : Int) - 16 = ((r * 8 : Nat) : Int) - 8 := by omega
      rw [e2]
      exact ih _ (by omega)
    · have hr0 : r = 0 := by omega
      subst hr0
      rfl

/-- Reading the piece field that `toFEN` writes, on the cleared board. -/
theorem setFENPieces_toFEN {b : Board} (hv : b.ValidMailbox) :
    setFENPieces (piecesFEN b 8) Board.clear 56 = loadRanks b 8 Board.clear :=
  setFENPieces_ranks hv 8 Board.clear (by omega)

end Board

end chess

/-!
# The board that reading a piece field builds
-/

namespace chess

namespace Board

/-- The bitboards say what the mailbox says. -/
structure Half (B : Board) : Prop where
  pieces : ∀ c pt : Nat, c < 2 ∧ pt < 6 → ∀ s,
    (B.pieces_ c pt).testBit s = decide (s < 64 ∧ B.mailbox_ s = code c pt)
  byColor : ∀ c : Nat, c < 2 → ∀ s,
    (B.byColor_ c).testBit s = decide (s < 64 ∧ ∃ pt : Nat, pt < 6 ∧ B.mailbox_ s = code c pt)
  occupied : ∀ s, B.occupied_.testBit s = decide (s < 64 ∧ B.mailbox_ s ≠ 0xFF)

theorem Half.ofClear : Half Board.clear := by
  refine ⟨?_, ?_, ?_⟩
  · intro c pt hcp s
    show (0 : Nat).testBit s = decide (s < 64 ∧ 0xFF = code c pt)
    rw [Nat.zero_testBit]
    exact (decide_eq_false (fun h => code_ne_empty hcp h.2.symm)).symm
  · intro c hc s
    show (0 : Nat).testBit s = decide (s < 64 ∧ ∃ pt : Nat, pt < 6 ∧ 0xFF = code c pt)
    rw [Nat.zero_testBit]
    exact (decide_eq_false (fun ⟨_, pt, hpt, h⟩ => code_ne_empty ⟨hc, hpt⟩ h.symm)).symm
  · intro s
    show (0 : Nat).testBit s = decide (s < 64 ∧ (0xFF : Nat) ≠ 0xFF)
    rw [Nat.zero_testBit]
    exact (decide_eq_false (fun h => h.2 rfl)).symm

theorem putPiece_mailbox (B : Board) (c pt sq : Nat) :
    (B.putPiece c pt sq).mailbox_ = setAt B.mailbox_ sq (code c pt) := rfl

theorem Half.afterPut {B : Board} (h : Half B) {c pt sq : Nat} (hcp : c < 2 ∧ pt < 6)
    (hsq : sq < 64) (hm : B.mailbox_ sq = 0xFF) : Half (B.putPiece c pt sq) := by
  refine ⟨?_, ?_, ?_⟩
  · intro c2 pt2 hcp2 s
    rw [putPiece_mailbox]
    show (setAt2 B.pieces_ c pt (B.pieces_ c pt ||| squareBB sq) c2 pt2).testBit s = _
    by_cases es : s = sq
    · subst es
      rw [setAt_same]
      by_cases e : c2 = c ∧ pt2 = pt
      · obtain ⟨e1, e2⟩ := e
        subst e1 e2
        rw [setAt2_same, Nat.testBit_or, testBit_squareBB]
        simp [hsq]
      · rw [setAt2_other _ _ e, h.pieces _ _ hcp2, hm, decide_eq_decide]
        constructor
        · rintro ⟨_, h2⟩
          exact absurd h2.symm (code_ne_empty hcp2)
        · rintro ⟨_, h2⟩
          exact absurd (code_inj hcp hcp2 h2) (fun h3 => e ⟨h3.1.symm, h3.2.symm⟩)
    · rw [setAt_other _ _ es]
      have hne : ¬ sq = s := fun e => es e.symm
      by_cases e : c2 = c ∧ pt2 = pt
      · obtain ⟨e1, e2⟩ := e
        subst e1 e2
        rw [setAt2_same, Nat.testBit_or, testBit_squareBB, h.pieces _ _ hcp2]
        simp [hne]
      · rw [setAt2_other _ _ e, h.pieces _ _ hcp2]
  · intro c2 hc2 s
    rw [putPiece_mailbox]
    show (setAt B.byColor_ c (B.byColor_ c ||| squareBB sq) c2).testBit s = _
    by_cases es : s = sq
    · subst es
      rw [setAt_same]
      by_cases e : c2 = c
      · subst e
        rw [setAt_same, Nat.testBit_or, testBit_squareBB]
        have : ∃ p : Nat, p < 6 ∧ code c2 pt = code c2 p := ⟨pt, hcp.2, rfl⟩
        simp [hsq, this]
      · rw [setAt_other _ _ e, h.byColor _ hc2, hm, decide_eq_decide]
        constructor
        · rintro ⟨_, p, hp, h2⟩
          exact absurd h2.symm (code_ne_empty ⟨hc2, hp⟩)
        · rintro ⟨_, p, hp, h2⟩
          exact absurd (code_inj hcp ⟨hc2, hp⟩ h2).1.symm e
    · rw [setAt_other _ _ es]
      have hne : ¬ sq = s := fun e => es e.symm
      by_cases e : c2 = c
      · subst e
        rw [setAt_same, Nat.testBit_or, testBit_squareBB, h.byColor _ hc2]
        simp [hne]
      · rw [setAt_other _ _ e, h.byColor _ hc2]
  · intro s
    rw [putPiece_mailbox]
    show (B.occupied_ ||| squareBB sq).testBit s = _
    rw [Nat.testBit_or, testBit_squareBB, h.occupied]
    by_cases es : s = sq
    · subst es
      rw [setAt_same]
      have := code_ne_empty hcp
      simp [hsq, this]
    · rw [setAt_other _ _ es]
      have hne : ¬ sq = s := fun e => es e.symm
      simp [hne]

/-- The pieces of `b` on the squares of `S` have been put on the cleared board, which gave
`B`. -/
structure Loaded (b B : Board) (S : Nat → Prop) : Prop where
  half : Half B
  inside : ∀ s, S s → B.mailbox_ s = b.mailbox_ s
  outside : ∀ s, ¬ S s → B.mailbox_ s = 0xFF
  king : ∀ c : Nat, c < 2 → (∀ s, S s → b.mailbox_ s ≠ code c KING) ∨
    (S (B.kingSquare_ c) ∧ b.mailbox_ (B.kingSquare_ c) = code c KING)

theorem Loaded.initial (b : Board) : Loaded b Board.clear (fun _ => False) :=
  ⟨Half.ofClear, fun _ h => h.elim, fun _ _ => rfl, fun _ _ => Or.inl (fun _ h => h.elim)⟩

theorem Loaded.ofSet {b B : Board} {S S2 : Nat → Prop} (L : Loaded b B S)
    (h : ∀ s, S s ↔ S2 s) : Loaded b B S2 := by
  refine ⟨L.half, fun s hs => L.inside s ((h s).2 hs), fun s hs => L.outside s (fun a => hs ((h s).1 a)),
    ?_⟩
  intro c hc
  rcases L.king c hc with h1 | h1
  · exact Or.inl (fun s hs => h1 s ((h s).2 hs))
  · exact Or.inr ⟨(h _).1 h1.1, h1.2⟩

/-- Loading one more square. -/
theorem Loaded.step {b B : Board} {S : Nat → Prop} (L : Loaded b B S) {s : Nat} (hs : s < 64)
    (hn : ¬ S s)
    (hv : b.mailbox_ s = 0xFF ∨ ∃ c pt : Nat, (c < 2 ∧ pt < 6) ∧ b.mailbox_ s = code c pt) :
    Loaded b (loadSquare b B s) (fun x => S x ∨ x = s) := by
  rcases hv with hm | ⟨c, pt, hcp, hm⟩
  · rw [loadSquare_empty B hm]
    refine ⟨L.half, ?_, fun x hx => L.outside x (fun a => hx (Or.inl a)), ?_⟩
    · rintro x (hx | rfl)
      · exact L.inside x hx
      · rw [hm]; exact L.outside x hn
    · intro c hc
      rcases L.king c hc with h1 | h1
      · refine Or.inl ?_
        rintro x (hx | rfl)
        · exact h1 x hx
        · rw [hm]; exact (code_ne_empty ⟨hc, by decide⟩).symm
      · exact Or.inr ⟨Or.inl h1.1, h1.2⟩
  · rw [loadSquare_piece B hcp hm]
    refine ⟨L.half.afterPut hcp hs (L.outside s hn), ?_, ?_, ?_⟩
    · rintro x (hx | rfl)
      · have hne : x ≠ s := fun e => hn (e ▸ hx)
        rw [putPiece_mailbox, setAt_other _ _ hne]
        exact L.inside x hx
      · rw [putPiece_mailbox, setAt_same, hm]
    · intro x hx
      have hne : x ≠ s := fun e => hx (Or.inr e)
      rw [putPiece_mailbox, setAt_other _ _ hne]
      exact L.outside x (fun a => hx (Or.inl a))
    · intro c2 hc2
      have hks : (B.putPiece c pt s).kingSquare_ =
          if pt = KING then setAt B.kingSquare_ c s else B.kingSquare_ := rfl
      by_cases e : pt = KING ∧ c2 = c
      · obtain ⟨e1, e2⟩ := e
        subst e1 e2
        refine Or.inr ?_
        rw [hks, if_pos rfl, setAt_same]
        exact ⟨Or.inr rfl, hm⟩
      · have hk2 : (B.putPiece c pt s).kingSquare_ c2 = B.kingSquare_ c2 := by
          rw [hks]
          by_cases e1 : pt = KING
          · rw [if_pos e1, setAt_other _ _ (fun e2 => e ⟨e1, e2⟩)]
          · rw [if_neg e1]
        rw [hk2]
        rcases L.king c2 hc2 with h1 | h1
        · refine Or.inl ?_
          rintro x (hx | rfl)
          · exact h1 x hx
          · rw [hm]
            intro e3
            have := code_inj hcp ⟨hc2, by decide⟩ e3
            exact e ⟨this.2, this.1.symm⟩
        · exact Or.inr ⟨Or.inl h1.1, h1.2⟩

theorem Loaded.files {b : Board} (hv : b.ValidMailbox) {r : Nat} (hr : r < 8) :
    ∀ (n f : Nat) (B : Board) (S : Nat → Prop), f + n = 8 → Loaded b B S →
      (∀ x, S x → ¬ (r * 8 + f ≤ x ∧ x < r * 8 + 8)) →
      Loaded b (loadFiles b r n f B) (fun x => S x ∨ (r * 8 + f ≤ x ∧ x < r * 8 + 8)) := by
  intro n
  induction n with
  | zero =>
    intro f B S hf L _
    exact L.ofSet (fun x => ⟨fun h => Or.inl h, fun h => h.elim id (fun a => by omega)⟩)
  | succ n ih =>
    intro f B S hf L hd
    have hs : r * 8 + f < 64 := by omega
    have L1 := L.step hs (fun a => hd _ a ⟨le_refl _, by omega⟩) (hv _ hs)
    have L2 := ih (f + 1) _ _ (by omega) L1 (by
      rintro x (hx | rfl)
      · intro a
        exact hd x hx ⟨by omega, a.2⟩
      · omega)
    show Loaded b (loadFiles b r n (f + 1) (loadSquare b B (r * 8 + f))) _
    refine L2.ofSet (fun x => ?_)
    constructor
    · rintro ((h | rfl) | h)
      · exact Or.inl h
      · exact Or.inr ⟨le_refl _, by omega⟩
      · exact Or.inr ⟨by omega, h.2⟩
    · rintro (h | h)
      · exact Or.inl (Or.inl h)
      · by_cases e : x = r * 8 + f
        · exact Or.inl (Or.inr e)
        · exact Or.inr ⟨by omega, h.2⟩

theorem Loaded.ranks {b : Board} (hv : b.ValidMailbox) :
    ∀ (R : Nat) (B : Board), R ≤ 8 → Loaded b B (fun x => x < 64 ∧ R * 8 ≤ x) →
      Loaded b (loadRanks b R B) (fun x => x < 64) := by
  intro R
  induction R with
  | zero =>
    intro B _ L
    exact L.ofSet (fun x => ⟨fun h => h.1, fun h => ⟨h, by omega⟩⟩)
  | succ r ih =>
    intro B hR L
    have L1 := Loaded.files hv (show r < 8 by omega) 8 0 B _ (by omega) L (by
      intro x hx a
      omega)
    show Loaded b (loadRanks b r (loadFiles b r 8 0 B)) _
    apply ih _ (by omega)
    refine L1.ofSet (fun x => ?_)
    constructor
    · rintro (h | h)
      · exact ⟨h.1, by omega⟩
      · exact ⟨by omega, by omega⟩
    · intro h
      by_cases e : (r + 1) * 8 ≤ x
      · exact Or.inl ⟨h.1, e⟩
      · exact Or.inr ⟨by omega, by omega⟩

/-- The board that reading the piece field of `toFEN` builds. -/
theorem loaded_all {b : Board} (hv : b.ValidMailbox) :
    Loaded b (setFENPieces (piecesFEN b 8) Board.clear 56) (fun x => x < 64) := by
  rw [setFENPieces_toFEN hv]
  exact Loaded.ranks hv 8 _ (by omega)
    ((Loaded.initial b).ofSet (fun x => ⟨fun h => h.elim, fun h => by omega⟩))

end Board

end chess

/-!
# The string that `toFEN` writes, field by field
-/

namespace chess

namespace Board

/-- The loop over the castling field of `setFEN`. -/
def castlingOf (C : List Nat) : CastlingRights :=
  C.foldl (fun (cr : CastlingRights) c =>
    let cr := if c = 75 then cr ||| WHITE_OO else cr
    let cr := if c = 81 then cr ||| WHITE_OOO else cr
    let cr := if c = 107 then cr ||| BLACK_OO else cr
    if c = 113 then cr ||| BLACK_OOO else cr) NO_CASTLING

/-- The side field of `toFEN`. -/
def sideFEN (c : Color) : List Nat := if c = WHITE then [119] else [98]

/-- The en-passant field of `toFEN`. -/
def epFEN (ep : Int) : List Nat := if ep ≥ 0 then sqStr ep else [45]

theorem toFEN_shape (b : Board) :
    toFEN b = piecesFEN b 8 ++ 32 :: (sideFEN b.sideToMove_ ++ 32 :: (castlingFEN b.castling_ ++
      32 :: (epFEN b.epSquare_ ++ 32 :: (to_string b.halfmove_ ++ 32 :: to_string b.fullmove_)))) := by
  unfold toFEN sideFEN epFEN
  by_cases h : b.sideToMove_ = WHITE
  · rw [if_pos h, if_pos h]
    simp only [List.append_assoc, List.cons_append, List.nil_append]
  · rw [if_neg h, if_neg h]
    simp only [List.append_assoc, List.cons_append, List.nil_append]

theorem rankFEN_noSpace {b : Board} (hv : b.ValidMailbox) {r : Nat} (hr : r < 8) :
    ∀ n f e : Nat, f + n = 8 → NoSpace (rankFEN b r n f e) := by
  have hdig : ∀ e : Nat, NoSpace (if e ≠ 0 then [48 + e] else []) := by
    intro e
    split
    · intro c hc
      rw [List.mem_singleton] at hc
      subst hc
      unfold isSpace
      simp only [Bool.or_eq_false_iff, beq_eq_false_iff_ne, Bool.and_eq_false_iff,
        decide_eq_false_iff_not]
      omega
    · exact noSpace_nil
  intro n
  induction n with
  | zero => intro f e _; exact hdig e
  | succ n ih =>
    intro f e hf
    show NoSpace (if b.isEmpty (r * 8 + f) = true then rankFEN b r n (f + 1) (e + 1)
      else (if e ≠ 0 then [48 + e] else []) ++
        ptToChar (b.pieceAt (r * 8 + f)) (b.colorAt (r * 8 + f)) :: rankFEN b r n (f + 1) 0)
    split
    · exact ih _ _ (by omega)
    · rename_i he
      rw [noSpace_append, noSpace_cons]
      refine ⟨hdig e, ?_, ih _ _ (by omega)⟩
      rcases hv (r * 8 + f) (by omega) with hm | ⟨c, pt, hcp, hm⟩
      · exact absurd ((isEmpty_iff _ _).2 hm) he
      · unfold pieceAt colorAt
        rw [hm, code_and7 hcp, code_color hcp]
        exact (piece_char hcp).2.2.2.2

theorem piecesFEN_noSpace {b : Board} (hv : b.ValidMailbox) :
    ∀ R : Nat, R ≤ 8 → NoSpace (piecesFEN b R) := by
  intro R
  induction R with
  | zero => intro _; exact noSpace_nil
  | succ r ih =>
    intro hR
    show NoSpace (rankFEN b r 8 0 0 ++ (if r > 0 then [47] else []) ++ piecesFEN b r)
    rw [noSpace_append, noSpace_append]
    refine ⟨⟨rankFEN_noSpace hv (by omega) 8 0 0 (by omega), ?_⟩, ih (by omega)⟩
    split
    · intro c hc
      rw [List.mem_singleton] at hc
      subst hc
      decide
    · exact noSpace_nil

theorem piecesFEN_ne_nil (b : Board) : piecesFEN b 8 ≠ [] := by
  show rankFEN b 7 8 0 0 ++ (if 7 > 0 then [47] else []) ++ piecesFEN b 7 ≠ []
  rw [if_pos (by decide)]
  intro h
  have := congrArg List.length h
  simp only [List.length_append, List.length_singleton, List.length_nil] at this
  omega

theorem castling_table : (List.range 16).all (fun cr =>
    castlingOf (castlingFEN cr) == cr && !(castlingFEN cr).isEmpty &&
      (castlingFEN cr).all (fun c => !isSpace c)) = true := by
  decide

theorem castlingFEN_spec {cr : Nat} (h : cr < 16) :
    castlingOf (castlingFEN cr) = cr ∧ castlingFEN cr ≠ [] ∧ NoSpace (castlingFEN cr) := by
  have hm := List.all_eq_true.1 castling_table cr (List.mem_range.2 h)
  simp only [Bool.and_eq_true, beq_iff_eq, Bool.not_eq_true_eq_eq_false, List.all_eq_true] at hm
  refine ⟨hm.1.1, ?_, fun c hc => hm.2 c hc⟩
  intro e
  rw [e] at hm
  exact Bool.noConfusion hm.1.2

theorem noSpace_of_all {l : List Nat} (h : l.all (fun c => !isSpace c) = true) : NoSpace l := by
  intro c hc
  have := List.all_eq_true.1 h c hc
  rw [Bool.not_eq_true'] at this
  exact this

theorem sideFEN_spec {c : Nat} (h : c < 2) :
    (if sideFEN c = [98] then BLACK else WHITE) = c ∧ sideFEN c ≠ [] ∧ NoSpace (sideFEN c) := by
  have h2 : c = 0 ∨ c = 1 := by omega
  rcases h2 with rfl | rfl
  · exact ⟨by decide, by decide, noSpace_of_all (by decide)⟩
  · exact ⟨by decide, by decide, noSpace_of_all (by decide)⟩

theorem epFEN_spec {ep : Int} (h1 : -1 ≤ ep) (h2 : ep < 64) :
    (if epFEN ep = [45] then -1 else strToSq (epFEN ep)) = ep ∧ epFEN ep ≠ [] ∧
      NoSpace (epFEN ep) := by
  by_cases h : ep ≥ 0
  · have e : epFEN ep = [97 + ep.toNat % 8, 49 + ep.toNat / 8] := by
      unfold epFEN sqStr
      rw [if_pos h, if_pos ⟨h, h2⟩, rankOf_eq, fileOf_eq]
    rw [e]
    have hn : ep.toNat < 64 := by omega
    have he : ((ep.toNat : Nat) : Int) = ep := Int.toNat_of_nonneg h
    refine ⟨?_, List.cons_ne_nil _ _, ?_⟩
    · rw [if_neg (by simp)]
      unfold strToSq
      simp only []
      rw [if_pos (by omega)]
      omega
    · intro c hc
      simp only [List.mem_cons, List.mem_singleton, List.not_mem_nil, or_false] at hc
      unfold isSpace
      simp only [Bool.or_eq_false_iff, beq_eq_false_iff_ne, Bool.and_eq_false_iff,
        decide_eq_false_iff_not]
      omega
  · have e : epFEN ep = [45] := by
      unfold epFEN
      rw [if_neg h]
    rw [e]
    refine ⟨?_, List.cons_ne_nil _ _, noSpace_of_all (by decide)⟩
    rw [if_pos rfl]
    omega

end Board

end chess

/-!
# `setFEN` on a string of six well-formed fields
-/

namespace chess

namespace Board

/-- What `setFEN` stores for a string of six fields separated by single blanks, the last two
written by `to_string`. -/
theorem setFEN_fields (Z : ZobristKeys) {P S C E : List Nat} {hm fm : Nat}
    (hP : NoSpace P) (nP : P ≠ []) (hS : NoSpace S) (nS : S ≠ []) (hC : NoSpace C) (nC : C ≠ [])
    (hE : NoSpace E) (nE : E ≠ []) (hhm : hm ≤ 2147483647) (hfm : fm ≤ 2147483647) :
    (setFEN Z (P ++ 32 :: (S ++ 32 :: (C ++ 32 :: (E ++ 32 :: (to_string hm ++
        32 :: to_string fm)))))).2 =
      { setFENPieces P Board.clear 56 with
        sideToMove_ := if S = [98] then BLACK else WHITE
        castling_ := castlingOf C
        epSquare_ := if E = [45] then -1 else strToSq E
        halfmove_ := hm % 256
        fullmove_ := fm % 65536
        hash_ := (setFEN Z (P ++ 32 :: (S ++ 32 :: (C ++ 32 :: (E ++ 32 :: (to_string hm ++
          32 :: to_string fm)))))).2.hash_
        history_ := [] } := by
  have r1 := (readString_field hP nP (S ++ 32 :: (C ++ 32 :: (E ++ 32 :: (to_string hm ++
    32 :: to_string fm))))).1
  have r2 := (readString_field hS nS (C ++ 32 :: (E ++ 32 :: (to_string hm ++
    32 :: to_string fm)))).2
  have r3 := (readString_field hC nC (E ++ 32 :: (to_string hm ++ 32 :: to_string fm))).2
  have r4 := (readString_field hE nE (to_string hm ++ 32 :: to_string fm)).2
  have r5 := readInt_to_string 0 hm hhm (32 :: to_string fm)
    (fun c cs e => by rw [(List.cons.inj e).1.symm]; decide)
  have r6 := readInt_to_string 1 fm hfm [] (fun c cs e => List.noConfusion e)
  rw [List.append_nil] at r6
  unfold setFEN
  simp only []
  rw [r1]
  simp only [if_true, Bool.true_and]
  rw [r2]
  simp only [if_true, Bool.true_and]
  rw [r3]
  simp only [if_true, Bool.true_and]
  rw [r4]
  simp only [if_true, Bool.true_and]
  rw [r5]
  simp only [if_true, Bool.true_and]
  rw [r6]
  have e1 : (((hm : Nat) : Int) % 256).toNat = hm % 256 := by omega
  have e2 : (((fm : Nat) : Int) % 65536).toNat = fm % 65536 := by omega
  rw [e1, e2]
  rfl

end Board

end chess

/-!
# The FEN round trip on positions
-/

namespace chess

namespace Board

/-- The board `r` holds the position of `b`: the piece bitboards, `byColor`, `occupied`, the
mailbox, the king squares, the side to move, the castling rights, the en-passant square and
the two move counters are equal. -/
def SamePosition (r b : Board) : Prop :=
  (∀ c pt : Nat, c < 2 → pt < 6 → r.pieces_ c pt = b.pieces_ c pt) ∧
    (∀ c : Nat, c < 2 → r.byColor_ c = b.byColor_ c) ∧ r.occupied_ = b.occupied_ ∧
    (∀ s : Nat, s < 64 → r.mailbox_ s = b.mailbox_ s) ∧
    (∀ c : Nat, c < 2 → r.kingSquare_ c = b.kingSquare_ c) ∧
    r.sideToMove_ = b.sideToMove_ ∧ r.castling_ = b.castling_ ∧ r.epSquare_ = b.epSquare_ ∧
    r.halfmove_ = b.halfmove_ ∧ r.fullmove_ = b.fullmove_

theorem Loaded.of_fields {b X r : Board} {S : Nat → Prop} (L : Loaded b X S)
    (h1 : r.pieces_ = X.pieces_) (h2 : r.byColor_ = X.byColor_) (h3 : r.occupied_ = X.occupied_)
    (h4 : r.mailbox_ = X.mailbox_) (h5 : r.kingSquare_ = X.kingSquare_) : Loaded b r S := by
  refine ⟨⟨?_, ?_, ?_⟩, ?_, ?_, ?_⟩
  · rw [h1, h4]; exact L.half.pieces
  · rw [h2, h4]; exact L.half.byColor
  · rw [h3, h4]; exact L.half.occupied
  · rw [h4]; exact L.inside
  · rw [h4]; exact L.outside
  · rw [h5]; exact L.king

/-- What `setFEN` makes of the string that `toFEN` writes for a board with a valid mailbox
and scalar fields in range. -/
theorem setFEN_toFEN (Z : ZobristKeys) {b : Board} (hv : b.ValidMailbox) (hr : b.Ranges) :
    Loaded b (setFEN Z (toFEN b)).2 (fun x => x < 64) ∧
      (setFEN Z (toFEN b)).2.sideToMove_ = b.sideToMove_ ∧
      (setFEN Z (toFEN b)).2.castling_ = b.castling_ ∧
      (setFEN Z (toFEN b)).2.epSquare_ = b.epSquare_ ∧
      (setFEN Z (toFEN b)).2.halfmove_ = b.halfmove_ ∧
      (setFEN Z (toFEN b)).2.fullmove_ = b.fullmove_ ∧
      (setFEN Z (toFEN b)).2.history_ = [] := by
  obtain ⟨s1, s2, s3⟩ := sideFEN_spec hr.side
  obtain ⟨c1, c2, c3⟩ := castlingFEN_spec hr.castling
  obtain ⟨p1, p2, p3⟩ := epFEN_spec hr.ep_ge hr.ep_lt
  have hh := hr.halfmove
  have hf := hr.fullmove
  have key := setFEN_fields Z (piecesFEN_noSpace hv 8 (by omega)) (piecesFEN_ne_nil b) s3 s2 c3 c2
    p3 p2 (show b.halfmove_ ≤ 2147483647 by omega) (show b.fullmove_ ≤ 2147483647 by omega)
  rw [← toFEN_shape] at key
  rw [key]
  refine ⟨(loaded_all hv).of_fields rfl rfl rfl rfl rfl, s1, c1, p1, ?_, ?_, rfl⟩
  · show b.halfmove_ % 256 = b.halfmove_
    omega
  · show b.fullmove_ % 65536 = b.fullmove_
    omega

theorem Inv.validMailbox {b : Board} (h : b.Inv) : b.ValidMailbox := h.mailbox

/-- The hash that `setFEN` stores is the hash of the board it leaves. -/
theorem setFEN_hash (Z : ZobristKeys) (fen : List Nat) :
    (setFEN Z fen).2.hash_ = (setFEN Z fen).2.computeHash Z := rfl

/-- A board that holds all the pieces of `b` and satisfies its invariant has the bitboards and
the king squares of `b`. -/
theorem Loaded.eq_of_inv {b r : Board} (L : Loaded b r (fun x => x < 64)) (h : b.Inv) :
    (∀ c pt : Nat, c < 2 → pt < 6 → r.pieces_ c pt = b.pieces_ c pt) ∧
      (∀ c : Nat, c < 2 → r.byColor_ c = b.byColor_ c) ∧ r.occupied_ = b.occupied_ ∧
      (∀ s : Nat, s < 64 → r.mailbox_ s = b.mailbox_ s) ∧
      (∀ c : Nat, c < 2 → r.kingSquare_ c = b.kingSquare_ c) := by
  refine ⟨?_, ?_, ?_, L.inside, ?_⟩
  · intro c pt hc hpt
    apply Nat.eq_of_testBit_eq
    intro s
    rw [L.half.pieces c pt ⟨hc, hpt⟩, h.pieces c pt ⟨hc, hpt⟩, decide_eq_decide]
    exact ⟨fun a => ⟨a.1, by rw [← L.inside s a.1]; exact a.2⟩,
      fun a => ⟨a.1, by rw [L.inside s a.1]; exact a.2⟩⟩
  · intro c hc
    apply Nat.eq_of_testBit_eq
    intro s
    rw [L.half.byColor c hc, h.byColor c hc, decide_eq_decide]
    exact ⟨fun a => ⟨a.1, by rw [← L.inside s a.1]; exact a.2⟩,
      fun a => ⟨a.1, by rw [L.inside s a.1]; exact a.2⟩⟩
  · apply Nat.eq_of_testBit_eq
    intro s
    rw [L.half.occupied, h.occupied, decide_eq_decide]
    exact ⟨fun a => ⟨a.1, by rw [← L.inside s a.1]; exact a.2⟩,
      fun a => ⟨a.1, by rw [L.inside s a.1]; exact a.2⟩⟩
  · intro c hc
    rcases L.king c hc with h1 | h1
    · exact absurd ((h.king c hc _ (h.kingLt c hc)).2 rfl) (h1 _ (h.kingLt c hc))
    · exact (h.king c hc _ h1.1).1 h1.2

end Board

/-- C16: for every board `b` that satisfies the structural invariant (bitboards, mailbox and
king squares agree, one king per side) with scalar fields of their types and the
en-passant square in `-1..63`, so in particular for every consistent board,
`setFEN(toFEN(b))` produces a board whose piece bitboards, `byColor`, `occupied`, mailbox,
king squares, side to move, castling rights, en-passant square, halfmove clock and fullmove
number equal those of `b`, whose hash equals `computeHash()` and whose history is empty. -/
theorem C16_fen_round_trip (Z : ZobristKeys) (b : Board) (hs : b.structural = true)
    (hr : b.okRanges = true) :
    Board.SamePosition (Board.setFEN Z (Board.toFEN b)).2 b ∧
      (Board.setFEN Z (Board.toFEN b)).2.hash_ =
        (Board.setFEN Z (Board.toFEN b)).2.computeHash Z ∧
      (Board.setFEN Z (Board.toFEN b)).2.history_ = [] := by
  have hi : b.Inv := Board.Inv.of_structural hs
  obtain ⟨L, h1, h2, h3, h4, h5, h6⟩ := Board.setFEN_toFEN Z hi.validMailbox (Board.Ranges.of_ok hr)
  obtain ⟨e1, e2, e3, e4, e5⟩ := L.eq_of_inv hi
  exact ⟨⟨e1, e2, e3, e4, e5, h1, h2, h3, h4, h5⟩, Board.setFEN_hash Z _, h6⟩

theorem C16_fen_round_trip_witness :
    Board.SamePosition (Board.setFEN Zobrist.init (Board.toFEN epScenario)).2 epScenario ∧
      (Board.setFEN Zobrist.init (Board.toFEN epScenario)).2.hash_ =
        (Board.setFEN Zobrist.init (Board.toFEN epScenario)).2.computeHash Zobrist.init ∧
      (Board.setFEN Zobrist.init (Board.toFEN epScenario)).2.history_ = [] :=
  C16_fen_round_trip Zobrist.init epScenario (by decide!) (by decide!)

end chess

/-!
# Canonical FEN strings: the side, castling, en-passant and number fields
-/

namespace chess

namespace Board

/-- A piece letter of FEN: one of `PNBRQK` or `pnbrqk`. -/
def isPieceLetter (c : Nat) : Bool :=
  [80, 78, 66, 82, 81, 75, 112, 110, 98, 114, 113, 107].contains c

/-- A digit from 1 to 8, the length of a run of empty squares. -/
def isRunDigit (c : Nat) : Bool := decide (49 ≤ c ∧ c ≤ 56)

/-- The number of squares that the characters of a rank cover. -/
def rankWidth : List Nat → Nat
  | [] => 0
  | c :: cs => (if isRunDigit c = true then c - 48 else 1) + rankWidth cs

/-- No two digits stand side by side: every digit run is maximal. -/
def maximalRuns : List Nat → Bool
  | c :: d :: cs => !(isRunDigit c && isRunDigit d) && maximalRuns (d :: cs)
  | _ => true

/-- A canonical rank: piece letters and digits from 1 to 8, maximal digit runs, eight
squares. -/
def canonRank (ρ : List Nat) : Bool :=
  ρ.all (fun c => isPieceLetter c || isRunDigit c) && maximalRuns ρ && rankWidth ρ == 8

/-- A canonical piece field: eight canonical ranks separated by `/`. -/
def CanonPieces (P : List Nat) : Prop :=
  ∃ ranks : List (List Nat), ranks.length = 8 ∧ (∀ ρ ∈ ranks, canonRank ρ = true) ∧
    P = List.intercalate [47] ranks

/-- The side field is `w` or `b`. -/
def CanonSide (S : List Nat) : Prop := S = [119] ∨ S = [98]

/-- The castling field is `-` or letters of `KQkq` in that order. -/
def CanonCastling (C : List Nat) : Prop := C = [45] ∨ (C ≠ [] ∧ List.Sublist C [75, 81, 107, 113])

/-- The en-passant field is `-` or a square `a1..h8`. -/
def CanonEp (E : List Nat) : Prop :=
  E = [45] ∨ ∃ f r : Nat, (97 ≤ f ∧ f ≤ 104) ∧ (49 ≤ r ∧ r ≤ 56) ∧ E = [f, r]

/-- A number of at most `max` written in decimal digits without leading zeros. -/
def CanonNumber (H : List Nat) (max : Nat) : Prop :=
  Digits H ∧ H ≠ [] ∧ (H = [48] ∨ H.head? ≠ some 48) ∧ digitsValue H 0 ≤ max

/-- A canonical six-field FEN: the six fields separated by single blanks, a canonical piece
field, side `w` or `b`, castling letters in the order `KQkq` or `-`, an en-passant square or
`-`, a halfmove clock of at most 255 and a fullmove number of at most 65535 without leading
zeros. -/
def CanonicalFEN (F : List Nat) : Prop :=
  ∃ P S C E H M : List Nat,
    F = P ++ 32 :: (S ++ 32 :: (C ++ 32 :: (E ++ 32 :: (H ++ 32 :: M)))) ∧
    CanonPieces P ∧ CanonSide S ∧ CanonCastling C ∧ CanonEp E ∧ CanonNumber H 255 ∧
    CanonNumber M 65535

theorem canon_side {S : List Nat} (h : CanonSide S) : ∃ c : Nat, c < 2 ∧ sideFEN c = S := by
  rcases h with rfl | rfl
  · exact ⟨0, by decide, rfl⟩
  · exact ⟨1, by decide, rfl⟩

theorem castling_sublists : ([75, 81, 107, 113] : List Nat).sublists.all (fun C =>
    C.isEmpty || (List.range 16).any (fun cr => castlingFEN cr == C)) = true := by
  decide

theorem canon_castling {C : List Nat} (h : CanonCastling C) :
    ∃ cr : Nat, cr < 16 ∧ castlingFEN cr = C := by
  rcases h with rfl | ⟨hne, hs⟩
  · exact ⟨0, by decide, rfl⟩
  · have hm := List.all_eq_true.1 castling_sublists C (List.mem_sublists.2 hs)
    rw [Bool.or_eq_true] at hm
    rcases hm with hm | hm
    · exact absurd (List.isEmpty_iff.1 hm) hne
    · rw [List.any_eq_true] at hm
      obtain ⟨cr, h1, h2⟩ := hm
      exact ⟨cr, List.mem_range.1 h1, beq_iff_eq.1 h2⟩

theorem canon_ep {E : List Nat} (h : CanonEp E) :
    ∃ ep : Int, -1 ≤ ep ∧ ep < 64 ∧ epFEN ep = E := by
  rcases h with rfl | ⟨f, r, hf, hr, rfl⟩
  · exact ⟨-1, by decide, by decide, by decide⟩
  · refine ⟨(((r - 49) * 8 + (f - 97) : Nat) : Int), by omega, by omega, ?_⟩
    unfold epFEN sqStr
    rw [if_pos (by omega), if_pos ⟨by omega, by omega⟩, rankOf_eq, fileOf_eq, Int.toNat_ofNat]
    have e1 : ((r - 49) * 8 + (f - 97)) % 8 = f - 97 := by omega
    have e2 : ((r - 49) * 8 + (f - 97)) / 8 = r - 49 := by omega
    rw [e1, e2]
    have e3 : 97 + (f - 97) = f := by omega
    have e4 : 49 + (r - 49) = r := by omega
    rw [e3, e4]

theorem digitsValue_snoc (l : List Nat) (d acc : Nat) :
    digitsValue (l ++ [d]) acc = digitsValue l acc * 10 + (d - 48) := by
  unfold digitsValue
  rw [List.foldl_append]
  rfl

theorem digitsValue_pos {c : Nat} {l : List Nat} (hc : 49 ≤ c) : 1 ≤ digitsValue (c :: l) 0 := by
  have e : digitsValue (c :: l) 0 = digitsValue l (0 * 10 + (c - 48)) := rfl
  rw [e, digitsValue_acc]
  have : 1 ≤ (0 * 10 + (c - 48)) * 10 ^ l.length :=
    Nat.mul_pos (by omega) (Nat.pow_pos (by decide))
  omega

/-- Digits without a leading zero are what `toStringAux` writes for their value. -/
theorem toStringAux_digits (ds : List Nat) :
    Digits ds → ds ≠ [] → (ds = [48] ∨ ds.head? ≠ some 48) →
      ∀ (fuel : Nat) (acc : List Nat), digitsValue ds 0 < fuel →
        toStringAux fuel (digitsValue ds 0) acc = ds ++ acc := by
  induction ds using List.reverseRecOn with
  | nil => intro _ h; exact absurd rfl h
  | append_singleton init d ih =>
    intro hd _ hz fuel acc hf
    have hdd : 48 ≤ d ∧ d ≤ 57 := hd d (List.mem_append_right _ (List.mem_singleton.2 rfl))
    have hdi : Digits init := fun c hc => hd c (List.mem_append_left _ hc)
    rw [digitsValue_snoc] at hf ⊢
    match fuel, hf with
    | k + 1, hf =>
      unfold toStringAux
      by_cases hi : init = []
      · subst hi
        have e0 : digitsValue [] 0 = 0 := rfl
        rw [e0] at hf ⊢
        rw [if_pos (by omega)]
        have : 48 + (0 * 10 + (d - 48)) = d := by omega
        rw [this]
        rfl
      · obtain ⟨c, l, rfl⟩ := List.exists_cons_of_ne_nil hi
        have hz2 : c ≠ 48 := by
          rcases hz with h | h
          · have := congrArg List.length h
            simp only [List.length_append, List.length_cons, List.length_nil] at this
            omega
          · intro e
            apply h
            rw [e]
            rfl
        have hc : 48 ≤ c ∧ c ≤ 57 := hdi c (List.mem_cons_self c l)
        have hpos := digitsValue_pos (c := c) (l := l) (by omega)
        rw [if_neg (by omega)]
        have e1 : (digitsValue (c :: l) 0 * 10 + (d - 48)) / 10 = digitsValue (c :: l) 0 := by omega
        have e2 : 48 + (digitsValue (c :: l) 0 * 10 + (d - 48)) % 10 = d := by omega
        rw [e1, e2, ih hdi (List.cons_ne_nil _ _) (Or.inr (by
          intro e
          exact hz2 (Option.some.inj e))) k (d :: acc) (by omega)]
        simp only [List.append_assoc, List.singleton_append]

theorem canon_number {H : List Nat} {max : Nat} (h : CanonNumber H max) :
    to_string (digitsValue H 0) = H := by
  unfold to_string
  rw [toStringAux_digits H h.1 h.2.1 h.2.2.1 _ [] (by omega), List.append_nil]

end Board

end chess

/-!
# Canonical ranks are what `toFEN` writes
-/

namespace chess

namespace Board

/-- The mailbox code that a piece letter stands for. -/
def codeOfChar (c : Nat) : Nat := code (if 65 ≤ c ∧ c ≤ 90 then WHITE else BLACK) (charToPT c)

/-- The mailbox codes of the squares of a rank, from the a-file on, that the characters of
the rank stand for. -/
def decodeRank : List Nat → List Nat
  | [] => []
  | c :: cs =>
    if isRunDigit c = true then List.replicate (c - 48) 0xFF ++ decodeRank cs
    else codeOfChar c :: decodeRank cs

/-- The mailbox that the eight ranks of a piece field stand for. -/
def mailboxOf (ranks : List (List Nat)) (s : Nat) : Nat :=
  if s < 64 then (decodeRank (ranks.getD (7 - s / 8) [])).getD (s % 8) 0xFF else 0xFF

theorem letters_table : ([80, 78, 66, 82, 81, 75, 112, 110, 98, 114, 113, 107] : List Nat).all
    (fun c => !isRunDigit c && allPieces.any (fun p =>
      codeOfChar c == code p.1 p.2 && ptToChar p.2 p.1 == c)) = true := by
  decide

theorem letter_spec {c : Nat} (h : isPieceLetter c = true) :
    isRunDigit c = false ∧
      ∃ col pt : Nat, (col < 2 ∧ pt < 6) ∧ codeOfChar c = code col pt ∧ ptToChar pt col = c := by
  unfold isPieceLetter at h
  have hm := List.all_eq_true.1 letters_table c (List.mem_of_elem_eq_true h)
  simp only [Bool.and_eq_true, Bool.not_eq_true_eq_eq_false, List.any_eq_true, beq_iff_eq] at hm
  obtain ⟨h1, p, hp, h2, h3⟩ := hm
  exact ⟨h1, p.1, p.2, mem_allPieces.1 hp, h2, h3⟩

theorem decodeRank_length (ρ : List Nat) : (decodeRank ρ).length = rankWidth ρ := by
  induction ρ with
  | nil => rfl
  | cons c cs ih =>
    unfold decodeRank rankWidth
    split
    · rw [List.length_append, List.length_replicate, ih]
    · rw [List.length_cons, ih]
      omega

theorem getD_replicate_append (x dflt : Nat) (l : List Nat) :
    ∀ d i : Nat, (List.replicate d x ++ l).getD (d + i) dflt = l.getD i dflt ∧
      (i < d → (List.replicate d x ++ l).getD i dflt = x) := by
  intro d
  induction d with
  | zero =>
    intro i
    rw [Nat.zero_add]
    exact ⟨rfl, fun h => absurd h (Nat.not_lt_zero i)⟩
  | succ d ih =>
    intro i
    constructor
    · have e : d + 1 + i = (d + i) + 1 := by omega
      rw [e]
      exact (ih i).1
    · intro hi
      match i, hi with
      | 0, _ => rfl
      | j + 1, hj => exact (ih j).2 (by omega)

/-- The cells of a canonical rank are valid mailbox codes. -/
theorem decodeRank_valid {ρ : List Nat}
    (h : ∀ c ∈ ρ, isPieceLetter c = true ∨ isRunDigit c = true) :
    ∀ v ∈ decodeRank ρ, v = 0xFF ∨ ∃ c pt : Nat, (c < 2 ∧ pt < 6) ∧ v = code c pt := by
  induction ρ with
  | nil => intro v hv; exact absurd hv (List.not_mem_nil _)
  | cons c cs ih =>
    intro v hv
    have ih2 := ih (fun x hx => h x (List.mem_cons_of_mem c hx))
    unfold decodeRank at hv
    by_cases hd : isRunDigit c = true
    · rw [if_pos hd, List.mem_append] at hv
      rcases hv with hv | hv
      · exact Or.inl (List.eq_of_mem_replicate hv)
      · exact ih2 v hv
    · rw [if_neg hd, List.mem_cons] at hv
      rcases hv with rfl | hv
      · rcases h c (List.mem_cons_self c cs) with hl | hl
        · obtain ⟨_, col, pt, hcp, e, _⟩ := letter_spec hl
          exact Or.inr ⟨col, pt, hcp, e⟩
        · exact absurd hl hd
      · exact ih2 v hv

/-- Empty squares are counted, not written. -/
theorem rankFEN_skip (b : Board) (r : Nat) :
    ∀ d n f e : Nat, (∀ i, i < d → b.mailbox_ (r * 8 + f + i) = 0xFF) →
      rankFEN b r (d + n) f e = rankFEN b r n (f + d) (e + d) := by
  intro d
  induction d with
  | zero => intro n f e _; rw [Nat.zero_add]; rfl
  | succ d ih =>
    intro n f e h
    have e1 : d + 1 + n = (d + n) + 1 := by omega
    rw [e1]
    show (if b.isEmpty (r * 8 + f) = true then rankFEN b r (d + n) (f + 1) (e + 1) else _) = _
    have h0 := h 0 (by omega)
    rw [Nat.add_zero] at h0
    rw [if_pos ((isEmpty_iff _ _).2 h0), ih n (f + 1) (e + 1) (fun i hi => by
      have := h (i + 1) (by omega)
      have e2 : r * 8 + (f + 1) + i = r * 8 + f + (i + 1) := by omega
      rw [e2]
      exact this)]
    have e3 : f + 1 + d = f + (d + 1) := by omega
    have e4 : e + 1 + d = e + (d + 1) := by omega
    rw [e3, e4]

/-- On a board whose rank holds the cells of a canonical rank string, `toFEN` writes that
string. -/
theorem rankFEN_decode (b : Board) (r : Nat) :
    ∀ (ρ : List Nat) (n f e : Nat),
      (∀ c ∈ ρ, isPieceLetter c = true ∨ isRunDigit c = true) → maximalRuns ρ = true →
      (e = 0 ∨ ∀ c cs, ρ = c :: cs → isRunDigit c = false) →
      (decodeRank ρ).length = n →
      (∀ i, i < n → b.mailbox_ (r * 8 + f + i) = (decodeRank ρ).getD i 0xFF) →
      rankFEN b r n f e = (if e ≠ 0 then [48 + e] else []) ++ ρ := by
  intro ρ
  induction ρ with
  | nil =>
    intro n f e _ _ _ hn _
    have : n = 0 := hn.symm
    subst this
    rw [List.append_nil]
    rfl
  | cons c cs ih =>
    intro n f e hch hmax he hn hcell
    have hch2 : ∀ x ∈ cs, isPieceLetter x = true ∨ isRunDigit x = true :=
      fun x hx => hch x (List.mem_cons_of_mem c hx)
    have hmax2 : maximalRuns cs = true := by
      match cs, hmax with
      | [], _ => rfl
      | d :: ds, hmax =>
        unfold maximalRuns at hmax
        rw [Bool.and_eq_true] at hmax
        exact hmax.2
    by_cases hd : isRunDigit c = true
    · have he0 : e = 0 := by
        rcases he with h | h
        · exact h
        · have := h c cs rfl
          rw [hd] at this
          exact Bool.noConfusion this
      subst he0
      have hc : 49 ≤ c ∧ c ≤ 56 := of_decide_eq_true hd
      have hdec : decodeRank (c :: cs) = List.replicate (c - 48) 0xFF ++ decodeRank cs := by
        show (if isRunDigit c = true then _ else _) = _
        rw [if_pos hd]
      rw [hdec] at hn hcell
      rw [List.length_append, List.length_replicate] at hn
      have hnext : ∀ x xs, cs = x :: xs → isRunDigit x = false := by
        intro x xs e
        subst e
        unfold maximalRuns at hmax
        rw [Bool.and_eq_true, Bool.not_eq_true', Bool.and_eq_false_iff] at hmax
        rcases hmax.1 with h | h
        · rw [hd] at h; exact Bool.noConfusion h
        · exact h
      rw [← hn, rankFEN_skip b r (c - 48) _ f 0 (fun i hi => by
        rw [hcell i (by omega)]
        exact (getD_replicate_append 0xFF 0xFF _ (c - 48) i).2 hi)]
      rw [ih _ (f + (c - 48)) (0 + (c - 48)) hch2 hmax2 (Or.inr hnext) rfl (fun i hi => by
        have := hcell (c - 48 + i) (by omega)
        rw [(getD_replicate_append 0xFF 0xFF _ (c - 48) i).1] at this
        rw [← this]
        congr 1
        omega)]
      rw [if_neg (show ¬ ((0 : Nat) ≠ 0) from fun h => h rfl),
        if_pos (show 0 + (c - 48) ≠ 0 by omega)]
      have e1 : 48 + (0 + (c - 48)) = c := by omega
      rw [e1]
      rfl
    · have hd2 : isRunDigit c = false := by
        cases h : isRunDigit c
        · rfl
        · exact absurd h hd
      obtain ⟨col, pt, hcp, hcode, hchar⟩ :=
        ((hch c (List.mem_cons_self c cs)).elim (fun h => (letter_spec h).2)
          (fun h => absurd h hd))
      have hdec : decodeRank (c :: cs) = codeOfChar c :: decodeRank cs := by
        show (if isRunDigit c = true then _ else _) = _
        rw [if_neg hd]
      rw [hdec] at hn hcell
      rw [List.length_cons] at hn
      subst hn
      have h0 : b.mailbox_ (r * 8 + f) = code col pt := by
        have := hcell 0 (by omega)
        rw [Nat.add_zero] at this
        rw [this, ← hcode]
        rfl
      have hne : ¬ b.isEmpty (r * 8 + f) = true := by
        rw [isEmpty_iff, h0]
        exact code_ne_empty hcp
      have hpc : ptToChar (b.pieceAt (r * 8 + f)) (b.colorAt (r * 8 + f)) = c := by
        unfold pieceAt colorAt
        rw [h0, code_and7 hcp, code_color hcp, hchar]
      show (if b.isEmpty (r * 8 + f) = true then _
        else (if e ≠ 0 then [48 + e] else []) ++
          ptToChar (b.pieceAt (r * 8 + f)) (b.colorAt (r * 8 + f)) ::
            rankFEN b r (decodeRank cs).length (f + 1) 0) = _
      rw [if_neg hne, hpc, ih _ (f + 1) 0 hch2 hmax2 (Or.inl rfl) rfl (fun i hi => by
        have := hcell (i + 1) (by omega)
        rw [← (show (codeOfChar c :: decodeRank cs).getD (i + 1) 0xFF =
          (decodeRank cs).getD i 0xFF from rfl), ← this]
        congr 1
        omega)]
      rw [if_neg (show ¬ ((0 : Nat) ≠ 0) from fun h => h rfl)]
      rfl

end Board

end chess

/-!
# The FEN round trip on canonical strings
-/

namespace chess

namespace Board

theorem list_eight {α : Type} {l : List α} (h : l.length = 8) :
    ∃ a0 a1 a2 a3 a4 a5 a6 a7 : α, l = [a0, a1, a2, a3, a4, a5, a6, a7] := by
  match l, h with
  | [a0, a1, a2, a3, a4, a5, a6, a7], _ => exact ⟨a0, a1, a2, a3, a4, a5, a6, a7, rfl⟩

/-- The characters that `toFEN` writes for a rank depend on the mailbox only. -/
theorem rankFEN_congr {r b : Board} (h : ∀ s, s < 64 → r.mailbox_ s = b.mailbox_ s) {k : Nat}
    (hk : k < 8) : ∀ n f e : Nat, f + n = 8 → rankFEN r k n f e = rankFEN b k n f e := by
  intro n
  induction n with
  | zero => intro f e _; rfl
  | succ n ih =>
    intro f e hf
    have hm := h (k * 8 + f) (by omega)
    show (if r.isEmpty (k * 8 + f) = true then rankFEN r k n (f + 1) (e + 1)
      else (if e ≠ 0 then [48 + e] else []) ++
        ptToChar (r.pieceAt (k * 8 + f)) (r.colorAt (k * 8 + f)) :: rankFEN r k n (f + 1) 0) =
      (if b.isEmpty (k * 8 + f) = true then rankFEN b k n (f + 1) (e + 1)
      else (if e ≠ 0 then [48 + e] else []) ++
        ptToChar (b.pieceAt (k * 8 + f)) (b.colorAt (k * 8 + f)) :: rankFEN b k n (f + 1) 0)
    unfold isEmpty pieceAt colorAt
    rw [hm, ih (f + 1) (e + 1) (by omega), ih (f + 1) 0 (by omega)]

theorem piecesFEN_congr {r b : Board} (h : ∀ s, s < 64 → r.mailbox_ s = b.mailbox_ s) :
    ∀ R : Nat, R ≤ 8 → piecesFEN r R = piecesFEN b R := by
  intro R
  induction R with
  | zero => intro _; rfl
  | succ k ih =>
    intro hR
    show rankFEN r k 8 0 0 ++ (if k > 0 then [47] else []) ++ piecesFEN r k =
      rankFEN b k 8 0 0 ++ (if k > 0 then [47] else []) ++ piecesFEN b k
    rw [rankFEN_congr h (by omega) 8 0 0 (by omega), ih (by omega)]

/-- The string that `toFEN` writes depends on the mailbox and the scalar fields only. -/
theorem toFEN_congr {r b : Board} (h : ∀ s, s < 64 → r.mailbox_ s = b.mailbox_ s)
    (h1 : r.sideToMove_ = b.sideToMove_) (h2 : r.castling_ = b.castling_)
    (h3 : r.epSquare_ = b.epSquare_) (h4 : r.halfmove_ = b.halfmove_)
    (h5 : r.fullmove_ = b.fullmove_) : toFEN r = toFEN b := by
  unfold toFEN
  rw [piecesFEN_congr h 8 (by omega), h1, h2, h3, h4, h5]

/-- The ranks of a canonical piece field are what `toFEN` writes for the mailbox they stand
for. -/
theorem piecesFEN_mailboxOf {b : Board} {ranks : List (List Nat)} (hl : ranks.length = 8)
    (hc : ∀ ρ ∈ ranks, canonRank ρ = true) (hb : b.mailbox_ = mailboxOf ranks) :
    piecesFEN b 8 = List.intercalate [47] ranks ∧ b.ValidMailbox := by
  have hcanon : ∀ k : Nat, k < 8 →
      (∀ c ∈ ranks.getD (7 - k) [], isPieceLetter c = true ∨ isRunDigit c = true) ∧
      maximalRuns (ranks.getD (7 - k) []) = true ∧ rankWidth (ranks.getD (7 - k) []) = 8 := by
    intro k hk
    have hmem : ranks.getD (7 - k) [] ∈ ranks := by
      rw [List.getD_eq_getElem _ _ (show 7 - k < ranks.length by omega)]
      exact List.getElem_mem _
    have := hc _ hmem
    unfold canonRank at this
    simp only [Bool.and_eq_true, List.all_eq_true, Bool.or_eq_true, beq_iff_eq] at this
    exact ⟨this.1.1, this.1.2, this.2⟩
  have hcell : ∀ k i : Nat, k < 8 → i < 8 →
      b.mailbox_ (k * 8 + 0 + i) = (decodeRank (ranks.getD (7 - k) [])).getD i 0xFF := by
    intro k i hk hi
    rw [hb]
    unfold mailboxOf
    rw [if_pos (by omega)]
    have e1 : (k * 8 + 0 + i) / 8 = k := by omega
    have e2 : (k * 8 + 0 + i) % 8 = i := by omega
    rw [e1, e2]
  have hrank : ∀ k : Nat, k < 8 → rankFEN b k 8 0 0 = ranks.getD (7 - k) [] := by
    intro k hk
    obtain ⟨c1, c2, c3⟩ := hcanon k hk
    rw [rankFEN_decode b k _ 8 0 0 c1 c2 (Or.inl rfl) (by rw [decodeRank_length, c3])
      (fun i hi => hcell k i hk hi)]
    rfl
  constructor
  · obtain ⟨a0, a1, a2, a3, a4, a5, a6, a7, rfl⟩ := list_eight hl
    show rankFEN b 7 8 0 0 ++ (if 7 > 0 then [47] else []) ++
      (rankFEN b 6 8 0 0 ++ (if 6 > 0 then [47] else []) ++
      (rankFEN b 5 8 0 0 ++ (if 5 > 0 then [47] else []) ++
      (rankFEN b 4 8 0 0 ++ (if 4 > 0 then [47] else []) ++
      (rankFEN b 3 8 0 0 ++ (if 3 > 0 then [47] else []) ++
      (rankFEN b 2 8 0 0 ++ (if 2 > 0 then [47] else []) ++
      (rankFEN b 1 8 0 0 ++ (if 1 > 0 then [47] else []) ++
      (rankFEN b 0 8 0 0 ++ (if 0 > 0 then [47] else []) ++ []))))))) = _
    rw [hrank 7 (by decide), hrank 6 (by decide), hrank 5 (by decide), hrank 4 (by decide),
      hrank 3 (by decide), hrank 2 (by decide), hrank 1 (by decide), hrank 0 (by decide)]
    show a0 ++ [47] ++ (a1 ++ [47] ++ (a2 ++ [47] ++ (a3 ++ [47] ++ (a4 ++ [47] ++
      (a5 ++ [47] ++ (a6 ++ [47] ++ (a7 ++ [] ++ []))))))) =
      a0 ++ ([47] ++ (a1 ++ ([47] ++ (a2 ++ ([47] ++ (a3 ++ ([47] ++ (a4 ++ ([47] ++
        (a5 ++ ([47] ++ (a6 ++ ([47] ++ (a7 ++ []))))))))))))))
    simp only [List.append_assoc, List.append_nil]
  · intro s hs
    have e : s = (s / 8) * 8 + 0 + s % 8 := by omega
    rw [e, hcell (s / 8) (s % 8) (by omega) (by omega)]
    obtain ⟨c1, _, c3⟩ := hcanon (s / 8) (by omega)
    have hlen : s % 8 < (decodeRank (ranks.getD (7 - s / 8) [])).length := by
      rw [decodeRank_length, c3]
      omega
    apply decodeRank_valid c1
    rw [List.getD_eq_getElem _ _ hlen]
    exact List.getElem_mem _

end Board

end chess

/-!
# The FEN round trip on canonical strings: the property
-/

namespace chess

namespace Board

/-- Every canonical FEN is the string that `toFEN` writes for some board with a valid
mailbox and scalar fields in range. -/
theorem canonical_is_written {F : List Nat} (h : CanonicalFEN F) :
    ∃ b0 : Board, b0.ValidMailbox ∧ b0.Ranges ∧ toFEN b0 = F := by
  obtain ⟨P, S, C, E, H, M, rfl, ⟨ranks, hl, hc, rfl⟩, hS, hC, hE, hH, hM⟩ := h
  obtain ⟨c, hc2, rfl⟩ := canon_side hS
  obtain ⟨cr, hcr, rfl⟩ := canon_castling hC
  obtain ⟨ep, he1, he2, rfl⟩ := canon_ep hE
  have hp := piecesFEN_mailboxOf (b := { Board.clear with
    mailbox_ := mailboxOf ranks, sideToMove_ := c, castling_ := cr, epSquare_ := ep,
    halfmove_ := digitsValue H 0, fullmove_ := digitsValue M 0 }) hl hc rfl
  refine ⟨_, hp.2, ⟨hc2, hcr, ?_, ?_, he1, he2⟩, ?_⟩
  · show digitsValue H 0 < 256
    have := hH.2.2.2
    omega
  · show digitsValue M 0 < 65536
    have := hM.2.2.2
    omega
  · rw [toFEN_shape, hp.1]
    show List.intercalate [47] ranks ++ 32 :: (sideFEN c ++ 32 :: (castlingFEN cr ++
      32 :: (epFEN ep ++ 32 :: (to_string (digitsValue H 0) ++
        32 :: to_string (digitsValue M 0))))) = _
    rw [canon_number hH, canon_number hM]

/-- The FEN of the starting position. -/
def startFEN : List Nat := codes "rnbqkbnr/pppppppp/8/8/8/8/PPPPPPPP/RNBQKBNR w KQkq - 0 1"

theorem startFEN_canonical : CanonicalFEN startFEN := by
  refine ⟨codes "rnbqkbnr/pppppppp/8/8/8/8/PPPPPPPP/RNBQKBNR", codes "w", codes "KQkq",
    codes "-", codes "0", codes "1", by decide, ?_, Or.inl (by decide), ?_, Or.inl (by decide),
    ?_, ?_⟩
  · exact ⟨[codes "rnbqkbnr", codes "pppppppp", codes "8", codes "8", codes "8", codes "8",
      codes "PPPPPPPP", codes "RNBQKBNR"], rfl, by decide, by decide⟩
  · refine Or.inr ⟨by decide, ?_⟩
    have e : codes "KQkq" = [75, 81, 107, 113] := by decide
    rw [e]
  · exact ⟨by unfold Digits; decide, by decide, Or.inl (by decide), by decide⟩
  · exact ⟨by unfold Digits; decide, by decide, Or.inr (by decide), by decide⟩

end Board

/-- C17: for every canonical six-field FEN `F` (eight ranks separated by `/` with maximal
digit runs, side `w` or `b`, castling letters in the order `KQkq` or `-`, an en-passant
square or `-`, a halfmove clock of at most 255 and a fullmove number of at most 65535
without leading zeros, single blanks between the fields), `toFEN()` called after `setFEN(F)`
returns exactly `F`; and the FEN of the starting position is canonical. -/
theorem C17_fen_string_round_trip (Z : ZobristKeys) :
    (∀ F : List Nat, Board.CanonicalFEN F → Board.toFEN (Board.setFEN Z F).2 = F) ∧
      Board.CanonicalFEN Board.startFEN := by
  refine ⟨?_, Board.startFEN_canonical⟩
  intro F h
  obtain ⟨b0, hv, hr, rfl⟩ := Board.canonical_is_written h
  obtain ⟨L, h1, h2, h3, h4, h5, _⟩ := Board.setFEN_toFEN Z hv hr
  exact Board.toFEN_congr L.inside h1 h2 h3 h4 h5

theorem C17_fen_string_round_trip_witness :
    Board.toFEN (Board.setFEN Zobrist.init Board.startFEN).2 = Board.startFEN :=
  (C17_fen_string_round_trip Zobrist.init).1 Board.startFEN
    (C17_fen_string_round_trip Zobrist.init).2

end chess

/-!
# Mate scores in the transposition table (`scoreToTT`, `scoreFromTT`, `src/search.cpp`)

The scores are C++ `int`s; the functions are modelled on the integers, for arguments whose
sums and differences with `ply` are representable.
-/

namespace chess

/-- The function `scoreToTT`. -/
def scoreToTT (score ply : Int) : Int :=
  if score > MATE - 100 then score + ply
  else if score < -MATE + 100 then score - ply
  else score

/-- The function `scoreFromTT`. -/
def scoreFromTT (score ply : Int) : Int :=
  if score > MATE - 100 then score - ply
  else if score < -MATE + 100 then score + ply
  else score

/-- C25: for every score `s` and every `ply ≥ 0`, `scoreFromTT(scoreToTT(s, ply), ply) = s`;
a score with `|s| ≤ MATE - 100 = 19900` is stored unchanged; and a mate score
`MATE - (ply + k)` found at `ply` (so above `MATE - 100`) is stored as `MATE - k` and read back
at `ply2` as `MATE - k - ply2`. -/
theorem C25_tt_score_round_trip :
    (∀ s ply : Int, 0 ≤ ply → scoreFromTT (scoreToTT s ply) ply = s) ∧
    (MATE - 100 = 19900 ∧ ∀ s ply : Int, -19900 ≤ s → s ≤ 19900 → scoreToTT s ply = s) ∧
    (∀ ply k ply2 : Int, 0 ≤ ply → MATE - (ply + k) > MATE - 100 →
      scoreToTT (MATE - (ply + k)) ply = MATE - k ∧
      scoreFromTT (MATE - k) ply2 = MATE - k - ply2) := by
  have hM : MATE = 20000 := rfl
  refine ⟨?_, ⟨by rw [hM]; rfl, ?_⟩, ?_⟩
  · intro s ply hp
    unfold scoreFromTT scoreToTT
    rw [hM]
    split_ifs <;> omega
  · intro s ply h1 h2
    unfold scoreToTT
    rw [hM]
    split_ifs <;> omega
  · intro ply k ply2 hp hk
    unfold scoreFromTT scoreToTT
    rw [hM] at hk ⊢
    constructor
    · split_ifs; omega
    · split_ifs <;> omega

theorem C25_tt_score_round_trip_witness :
    scoreFromTT (scoreToTT 19997 5) 5 = 19997 ∧ scoreToTT 150 7 = 150 ∧
      scoreToTT (MATE - (5 + 3)) 5 = MATE - 3 ∧ scoreFromTT (MATE - 3) 9 = MATE - 3 - 9 :=
  ⟨C25_tt_score_round_trip.1 19997 5 (by decide),
    C25_tt_score_round_trip.2.1.2 150 7 (by decide) (by decide),
    C25_tt_score_round_trip.2.2 5 3 9 (by decide) (by decide)⟩

end chess

/-!
# Repetition detection (`Board::isRepetition`, `src/board.cpp`)
-/

namespace chess

namespace Board

/-- The history entry `2 * (j + 1)` plies back equals the current hash. -/
def matchesBack (b : Board) (j : Nat) : Bool :=
  decide (b.history_.getD (b.history_.length - 2 * (j + 1)) 0 = b.hash_)

/-- The number of history entries lying 2, 4, 6, ... plies back, no further back than
`min(history length, halfmove clock)` plies, that equal the current hash. -/
def repetitionCount (b : Board) : Nat :=
  ((List.range (min b.history_.length b.halfmove_ / 2)).filter b.matchesBack).length

/-- The matches among the entries `2 * (k + 1), ..., 2 * m` plies back. -/
def matchesFrom (b : Board) (k m : Nat) : Nat :=
  ((List.range' k (m - k)).filter b.matchesBack).length

theorem matchesFrom_ge (b : Board) {k m : Nat} (h : m ≤ k) : b.matchesFrom k m = 0 := by
  unfold matchesFrom
  rw [Nat.sub_eq_zero_of_le h]
  rfl

theorem matchesFrom_step (b : Board) {k m : Nat} (h : k < m) :
    b.matchesFrom k m = (if b.matchesBack k = true then 1 else 0) + b.matchesFrom (k + 1) m := by
  unfold matchesFrom
  have e : m - k = (m - (k + 1)) + 1 := by omega
  rw [e, List.range'_succ, List.filter_cons]
  by_cases hm : b.matchesBack k = true
  · rw [if_pos hm, if_pos hm, List.length_cons]
    omega
  · rw [if_neg hm, if_neg hm]
    omega

theorem repetitionCount_eq (b : Board) :
    b.repetitionCount = b.matchesFrom 0 (min b.history_.length b.halfmove_ / 2) := by
  unfold repetitionCount matchesFrom
  rw [List.range_eq_range', Nat.sub_zero]

/-- The loop of `isRepetition` from the entry `2 * (k + 1)` plies back on, with `count`
matches found so far: it returns true iff the matches reach the threshold, which is 1 inside
a search (`searchPly > 0`) and 2 otherwise. -/
theorem isRepetitionLoop_iff (b : Board) (searchPly : Int) (limit : Nat) :
    ∀ (fuel k count : Nat), limit / 2 - k < fuel → count < (if searchPly > 0 then 1 else 2) →
      (b.isRepetitionLoop searchPly limit fuel (2 * (k + 1)) count = true ↔
        (if searchPly > 0 then 1 else 2) ≤ count + b.matchesFrom k (limit / 2)) := by
  intro fuel
  induction fuel with
  | zero => intro k count h; omega
  | succ n ih =>
    intro k count hf hc
    rw [isRepetitionLoop]
    by_cases hi : 2 * (k + 1) ≤ limit
    · have hk : k < limit / 2 := by omega
      rw [if_pos hi, matchesFrom_step b hk]
      have hstep : 2 * (k + 1) + 2 = 2 * (k + 1 + 1) := by omega
      by_cases hm : b.history_.getD (b.history_.length - 2 * (k + 1)) 0 = b.hash_
      · have hm2 : b.matchesBack k = true := by unfold matchesBack; exact decide_eq_true hm
        rw [if_pos hm, if_pos hm2]
        by_cases h2 : count + 1 ≥ 2
        · rw [if_pos h2]
          constructor
          · intro _; split_ifs <;> omega
          · intro _; rfl
        · rw [if_neg h2]
          by_cases hp : searchPly > 0
          · rw [if_pos ⟨hp, by omega⟩, if_pos hp]
            constructor
            · intro _; omega
            · intro _; rfl
          · have hnp : ¬ (searchPly > 0 ∧ count + 1 ≥ 1) := fun h => hp h.1
            rw [if_neg hnp, hstep, ih (k + 1) (count + 1) (by omega) (by rw [if_neg hp]; omega)]
            omega
      · have hm2 : ¬ (b.matchesBack k = true) := by
          unfold matchesBack; rw [decide_eq_true_eq]; exact hm
        rw [if_neg hm, if_neg hm2, hstep, ih (k + 1) count (by omega) hc]
        omega
    · have hk : limit / 2 ≤ k := by omega
      rw [if_neg hi, matchesFrom_ge b hk]
      constructor
      · intro h; exact Bool.noConfusion h
      · intro h; omega

/-- The function `isRepetition`: true iff the history has at least four entries and the
matches reach the threshold. -/
theorem isRepetition_iff (b : Board) (searchPly : Int) :
    b.isRepetition searchPly = true ↔
      4 ≤ b.history_.length ∧ (if searchPly > 0 then 1 else 2) ≤ b.repetitionCount := by
  unfold isRepetition
  by_cases h4 : b.history_.length < 4
  · rw [if_pos h4]
    constructor
    · intro h; exact Bool.noConfusion h
    · intro h; omega
  · rw [if_neg h4]
    simp only []
    have h := isRepetitionLoop_iff b searchPly (min b.history_.length b.halfmove_)
      (min b.history_.length b.halfmove_ / 2 + 1) 0 0 (by omega) (by split_ifs <;> omega)
    rw [show 2 * (0 + 1) = 2 from rfl, Nat.zero_add, ← repetitionCount_eq] at h
    rw [h]
    constructor
    · intro h2; exact ⟨by omega, h2⟩
    · intro h2; exact h2.2

end Board

/-- The board after playing the moves of the list in order with `makeMove`. -/
def playMoves (Z : ZobristKeys) (b : Board) (ms : List Move) : Board :=
  ms.foldl (fun b m => (b.makeMove Z m).1) b

/-- The knight moves g1f3, g8f6, f3g1, f6g8. -/
def knightCycle : List Move :=
  [Move.normal 6 21, Move.normal 62 45, Move.normal 21 6, Move.normal 45 62]

end chess

namespace chess

/-- The squares, the side to move, the castling rights and the en-passant square of the two
boards agree. -/
def samePlacement (r b : Board) : Bool :=
  sq64.all (fun s => r.mailbox_ s == b.mailbox_ s) && r.sideToMove_ == b.sideToMove_ &&
    r.castling_ == b.castling_ && decide (r.epSquare_ = b.epSquare_)

theorem knightCycle_walk :
    (playMoves Zobrist.init (Board.reset Zobrist.init) knightCycle).isRepetition 0 = false ∧
    (playMoves Zobrist.init (Board.reset Zobrist.init)
      (knightCycle ++ knightCycle)).isRepetition 0 = true ∧
    samePlacement (playMoves Zobrist.init (Board.reset Zobrist.init) knightCycle)
      (Board.reset Zobrist.init) = true ∧
    samePlacement (playMoves Zobrist.init (Board.reset Zobrist.init)
      (knightCycle ++ knightCycle)) (Board.reset Zobrist.init) = true :=
  ⟨by decide!, by decide!, by decide!, by decide!⟩

/-- C21: `isRepetition()` with `searchPly = 0` returns true iff the history has at least 4
entries and the current hash equals at least two of the history entries lying 2, 4, 6, ...
plies back, no further back than `min(history length, halfmove clock)` plies; with
`searchPly > 0` one such match suffices. Playing g1f3 g8f6 f3g1 f6g8 from the starting
position gives false after the first cycle and true after the second cycle, and both times
the board holds the starting position again. -/
theorem C21_repetition :
    (∀ b : Board, b.isRepetition 0 = true ↔ 4 ≤ b.history_.length ∧ 2 ≤ b.repetitionCount) ∧
    (∀ (b : Board) (searchPly : Int), searchPly > 0 →
      (b.isRepetition searchPly = true ↔ 4 ≤ b.history_.length ∧ 1 ≤ b.repetitionCount)) ∧
    (playMoves Zobrist.init (Board.reset Zobrist.init) knightCycle).isRepetition 0 = false ∧
    (playMoves Zobrist.init (Board.reset Zobrist.init)
      (knightCycle ++ knightCycle)).isRepetition 0 = true ∧
    samePlacement (playMoves Zobrist.init (Board.reset Zobrist.init) knightCycle)
      (Board.reset Zobrist.init) = true ∧
    samePlacement (playMoves Zobrist.init (Board.reset Zobrist.init)
      (knightCycle ++ knightCycle)) (Board.reset Zobrist.init) = true := by
  refine ⟨?_, ?_, knightCycle_walk⟩
  · intro b
    have h := Board.isRepetition_iff b 0
    rw [if_neg (by decide)] at h
    exact h
  · intro b p hp
    have h := Board.isRepetition_iff b p
    rw [if_pos hp] at h
    exact h

theorem C21_repetition_witness :
    (playMoves Zobrist.init (Board.reset Zobrist.init) (knightCycle ++ knightCycle)).isRepetition 3
        = true ↔
      4 ≤ (playMoves Zobrist.init (Board.reset Zobrist.init)
          (knightCycle ++ knightCycle)).history_.length ∧
        1 ≤ (playMoves Zobrist.init (Board.reset Zobrist.init)
          (knightCycle ++ knightCycle)).repetitionCount :=
  C21_repetition.2.1 _ 3 (by decide)

end chess

/-!
# `rebuildMailboxAndHash` on a board that satisfies the structural invariant
-/

namespace chess

namespace Board

theorem or_squareBB_of_testBit {x s : Nat} (h : x.testBit s = true) : x ||| squareBB s = x := by
  apply Nat.eq_of_testBit_eq
  intro i
  rw [Nat.testBit_or, testBit_squareBB]
  by_cases e : s = i
  · subst e
    rw [h]
    rfl
  · rw [decide_eq_false e, Bool.or_false]

/-- The board `X` that the loops of `rebuildMailboxAndHash` have reached from `b`, next to a
board `Y` built by the same calls of `putPiece` from the cleared board: `X` keeps the piece
bitboards and the scalar fields of `b` and has the other fields of `Y`. -/
structure Rebuilding (b X Y : Board) : Prop where
  pieces : X.pieces_ = b.pieces_
  byColor : X.byColor_ = Y.byColor_
  occupied : X.occupied_ = Y.occupied_
  mailbox : X.mailbox_ = Y.mailbox_
  kingSquare : X.kingSquare_ = Y.kingSquare_
  side : X.sideToMove_ = b.sideToMove_
  castling : X.castling_ = b.castling_
  ep : X.epSquare_ = b.epSquare_
  halfmove : X.halfmove_ = b.halfmove_
  fullmove : X.fullmove_ = b.fullmove_
  history : X.history_ = b.history_

theorem Rebuilding.withPut {b X Y : Board} (R : Rebuilding b X Y) {c pt s : Nat}
    (h : (b.pieces_ c pt).testBit s = true) :
    Rebuilding b (X.putPiece c pt s) (Y.putPiece c pt s) := by
  refine ⟨?_, ?_, ?_, ?_, ?_, R.side, R.castling, R.ep, R.halfmove, R.fullmove, R.history⟩
  · show setAt2 X.pieces_ c pt (X.pieces_ c pt ||| squareBB s) = b.pieces_
    rw [R.pieces, or_squareBB_of_testBit h, setAt2_eq_self]
  · show setAt X.byColor_ c (X.byColor_ c ||| squareBB s) = setAt Y.byColor_ c (Y.byColor_ c ||| squareBB s)
    rw [R.byColor]
  · show X.occupied_ ||| squareBB s = Y.occupied_ ||| squareBB s
    rw [R.occupied]
  · show setAt X.mailbox_ s (pt ||| (c <<< 3)) = setAt Y.mailbox_ s (pt ||| (c <<< 3))
    rw [R.mailbox]
  · show (if pt = KING then setAt X.kingSquare_ c s else X.kingSquare_) =
      (if pt = KING then setAt Y.kingSquare_ c s else Y.kingSquare_)
    rw [R.kingSquare]

section
variable {b : Board}

/-- The loop over the squares of one piece bitboard. -/
theorem Rebuilding.squares (hb : b.Inv) {c pt : Nat} (hcp : c < 2 ∧ pt < 6) :
    ∀ (l : List Nat) (X Y : Board) (S : Nat → Prop), Rebuilding b X Y → Loaded b Y S →
      (∀ s ∈ l, s < 64 ∧ b.mailbox_ s = code c pt) → l.Nodup → (∀ s ∈ l, ¬ S s) →
      ∃ Y2, Rebuilding b (l.foldl (fun X s => X.putPiece c pt s) X) Y2 ∧
        Loaded b Y2 (fun x => S x ∨ x ∈ l) := by
  intro l
  induction l with
  | nil =>
    intro X Y S R L _ _ _
    exact ⟨Y, R, L.ofSet (fun x => ⟨fun h => Or.inl h, fun h => h.elim id (fun a => by simp at a)⟩)⟩
  | cons s l ih =>
    intro X Y S R L hl hn hd
    obtain ⟨hs, hm⟩ := hl s (List.mem_cons_self s l)
    have hbit : (b.pieces_ c pt).testBit s = true := by
      rw [hb.pieces c pt hcp]
      exact decide_eq_true ⟨hs, hm⟩
    have L1 := L.step hs (hd s (List.mem_cons_self s l)) (Or.inr ⟨c, pt, hcp, hm⟩)
    rw [loadSquare_piece Y hcp hm] at L1
    rw [List.nodup_cons] at hn
    obtain ⟨Y2, R2, L2⟩ := ih (X.putPiece c pt s) (Y.putPiece c pt s) _ (R.withPut hbit) L1
      (fun x hx => hl x (List.mem_cons_of_mem s hx)) hn.2 (by
        rintro x hx (h | rfl)
        · exact hd x (List.mem_cons_of_mem s hx) h
        · exact hn.1 hx)
    refine ⟨Y2, R2, L2.ofSet (fun x => ?_)⟩
    rw [List.mem_cons]
    constructor
    · rintro ((h | h) | h)
      · exact Or.inl h
      · exact Or.inr (Or.inl h)
      · exact Or.inr (Or.inr h)
    · rintro (h | h | h)
      · exact Or.inl (Or.inl h)
      · exact Or.inl (Or.inr h)
      · exact Or.inr h

/-- The loops over the piece bitboards of a list of `(colour, piece type)` pairs. -/
theorem Rebuilding.pairs (hb : b.Inv) :
    ∀ (ps : List (Nat × Nat)) (X Y : Board) (S : Nat → Prop), Rebuilding b X Y → Loaded b Y S →
      (∀ p ∈ ps, p.1 < 2 ∧ p.2 < 6) → ps.Nodup →
      (∀ x, S x → ∀ p ∈ ps, b.mailbox_ x ≠ code p.1 p.2) →
      ∃ Y2, Rebuilding b (ps.foldl (fun X p =>
          forBits 64 (X.pieces_ p.1 p.2) (fun sq X => X.putPiece p.1 p.2 sq) X) X) Y2 ∧
        Loaded b Y2 (fun x => S x ∨ (x < 64 ∧ ∃ p ∈ ps, b.mailbox_ x = code p.1 p.2)) := by
  intro ps
  induction ps with
  | nil =>
    intro X Y S R L _ _ _
    refine ⟨Y, R, L.ofSet (fun x => ⟨fun h => Or.inl h, fun h => h.elim id ?_⟩)⟩
    rintro ⟨_, p, hp, _⟩
    simp at hp
  | cons p ps ih =>
    intro X Y S R L hv hn hd
    have hp := hv p (List.mem_cons_self p ps)
    rw [List.nodup_cons] at hn
    have hmem : ∀ s, s ∈ bitsOf (b.pieces_ p.1 p.2) ↔ s < 64 ∧ b.mailbox_ s = code p.1 p.2 := by
      intro s
      rw [mem_bitsOf, hb.pieces p.1 p.2 hp, decide_eq_true_eq]
      exact ⟨fun h => h.2, fun h => ⟨h.1, h⟩⟩
    obtain ⟨Y1, R1, L1⟩ := Rebuilding.squares hb hp (bitsOf (b.pieces_ p.1 p.2)) X Y S R L
      (fun s hs => (hmem s).1 hs) (bitsOf_nodup _)
      (fun s hs h => hd s h p (List.mem_cons_self p ps) ((hmem s).1 hs).2)
    obtain ⟨Y2, R2, L2⟩ := ih _ Y1 _ R1 L1 (fun q hq => hv q (List.mem_cons_of_mem p hq)) hn.2 (by
      rintro x (h | h) q hq e
      · exact hd x h q (List.mem_cons_of_mem p hq) e
      · rw [((hmem x).1 h).2] at e
        have := code_inj hp (hv q (List.mem_cons_of_mem p hq)) e
        exact hn.1 ((Prod.ext this.1 this.2 : p = q) ▸ hq))
    rw [List.foldl_cons]
    have e : forBits 64 (X.pieces_ p.1 p.2) (fun sq X => X.putPiece p.1 p.2 sq) X =
        (bitsOf (b.pieces_ p.1 p.2)).foldl (fun X s => X.putPiece p.1 p.2 s) X := by
      rw [R.pieces, forBits_eq _ _ _ (hb.pieces_lt hp)]
    rw [e]
    refine ⟨Y2, R2, L2.ofSet (fun x => ?_)⟩
    constructor
    · rintro ((h | h) | ⟨h1, q, hq, h2⟩)
      · exact Or.inl h
      · exact Or.inr ⟨((hmem x).1 h).1, p, List.mem_cons_self p ps, ((hmem x).1 h).2⟩
      · exact Or.inr ⟨h1, q, List.mem_cons_of_mem p hq, h2⟩
    · rintro (h | ⟨h1, q, hq, h2⟩)
      · exact Or.inl (Or.inl h)
      · rcases List.mem_cons.1 hq with rfl | hq
        · exact Or.inl (Or.inr ((hmem x).2 ⟨h1, h2⟩))
        · exact Or.inr ⟨h1, q, hq, h2⟩

end

/-- A board that holds the pieces of all occupied squares of `b` holds all of `b`. -/
theorem Loaded.fill {b Y : Board} {S : Nat → Prop} (L : Loaded b Y S)
    (h1 : ∀ s, S s → s < 64) (h2 : ∀ s, s < 64 → ¬ S s → b.mailbox_ s = 0xFF) :
    Loaded b Y (fun x => x < 64) := by
  refine ⟨L.half, ?_, fun s hs => L.outside s (fun a => hs (h1 s a)), ?_⟩
  · intro s hs
    by_cases e : S s
    · exact L.inside s e
    · rw [L.outside s e, h2 s hs e]
  · intro c hc
    rcases L.king c hc with h | h
    · refine Or.inl (fun s hs => ?_)
      by_cases e : S s
      · exact h s e
      · rw [h2 s hs e]
        exact (code_ne_empty ⟨hc, by decide⟩).symm
    · exact Or.inr ⟨h1 _ h.1, h.2⟩

theorem pieceHash_congr (Z : ZobristKeys) {m1 m2 : Nat → Nat} :
    ∀ (l : List Nat), (∀ s ∈ l, m1 s = m2 s) → pieceHash Z m1 l = pieceHash Z m2 l := by
  intro l h
  unfold pieceHash
  have key : ∀ (l : List Nat) (acc : Nat), (∀ s ∈ l, m1 s = m2 s) →
      l.foldl (fun h s => h ^^^ pieceKey Z (m1 s) s) acc =
        l.foldl (fun h s => h ^^^ pieceKey Z (m2 s) s) acc := by
    intro l
    induction l with
    | nil => intro acc _; rfl
    | cons a l ih =>
      intro acc h
      rw [List.foldl_cons, List.foldl_cons, h a (List.mem_cons_self a l)]
      exact ih _ (fun s hs => h s (List.mem_cons_of_mem a hs))
  exact key l 0 h

/-- The value of `computeHash` depends on the 64 squares of the mailbox and on the castling
rights, the en-passant square and the side to move only. -/
theorem computeHash_congr (Z : ZobristKeys) {r b : Board}
    (h : ∀ s, s < 64 → r.mailbox_ s = b.mailbox_ s) (h1 : r.sideToMove_ = b.sideToMove_)
    (h2 : r.castling_ = b.castling_) (h3 : r.epSquare_ = b.epSquare_) :
    r.computeHash Z = b.computeHash Z := by
  rw [computeHash_eq, computeHash_eq, h1, h2, h3,
    pieceHash_congr Z sq64 (fun s hs => h s (mem_sq64.1 hs))]

/-- The board before the loops of `rebuildMailboxAndHash`. -/
def rebuildStart (b : Board) : Board :=
  { b with mailbox_ := fun _ => 0xFF, byColor_ := fun _ => 0, occupied_ := 0,
           kingSquare_ := fun _ => 255 }

/-- The board after the loops of `rebuildMailboxAndHash`. -/
def rebuildLoops (b : Board) : Board :=
  allPieces.foldl (fun X p =>
    forBits 64 (X.pieces_ p.1 p.2) (fun sq X => X.putPiece p.1 p.2 sq) X) (rebuildStart b)

theorem rebuildMailboxAndHash_eq (Z : ZobristKeys) (b : Board) :
    b.rebuildMailboxAndHash Z =
      { rebuildLoops b with hash_ := (rebuildLoops b).computeHash Z } := by
  unfold rebuildMailboxAndHash rebuildLoops rebuildStart allPieces
  simp only [List.foldl_cons, List.foldl_nil]

/-- On a board that satisfies the structural invariant, `rebuildMailboxAndHash` rebuilds the
fields that were there, and stores the hash of the position. -/
theorem rebuild_fields (Z : ZobristKeys) {b : Board} (hb : b.Inv) :
    SamePosition (b.rebuildMailboxAndHash Z) b ∧
      (b.rebuildMailboxAndHash Z).history_ = b.history_ ∧
      (b.rebuildMailboxAndHash Z).hash_ = b.computeHash Z := by
  have R0 : Rebuilding b (rebuildStart b) Board.clear :=
    ⟨rfl, rfl, rfl, rfl, rfl, rfl, rfl, rfl, rfl, rfl, rfl⟩
  have hnd : allPieces.Nodup := by unfold allPieces; decide
  obtain ⟨Y, R, L⟩ := Rebuilding.pairs hb allPieces _ _ _ R0 (Loaded.initial b)
    (fun p hp => mem_allPieces.1 hp) hnd (fun x h => h.elim)
  have L2 : Loaded b Y (fun x => x < 64) := by
    refine L.fill ?_ ?_
    · rintro s (h | h)
      · exact h.elim
      · exact h.1
    · intro s hs hn
      rcases hb.mailbox s hs with h | ⟨c, pt, hcp, h⟩
      · exact h
      · exact absurd (Or.inr ⟨hs, (c, pt), mem_allPieces.2 hcp, h⟩) hn
  obtain ⟨e1, e2, e3, e4, e5⟩ := L2.eq_of_inv hb
  have R2 : Rebuilding b (rebuildLoops b) Y := R
  rw [rebuildMailboxAndHash_eq]
  generalize rebuildLoops b = r at R2 ⊢
  have m : ∀ s, s < 64 → r.mailbox_ s = b.mailbox_ s := by
    intro s hs
    rw [R2.mailbox]
    exact e4 s hs
  refine ⟨⟨?_, ?_, ?_, m, ?_, R2.side, R2.castling, R2.ep, R2.halfmove, R2.fullmove⟩, R2.history, ?_⟩
  · intro c pt _ _
    show r.pieces_ c pt = _
    rw [R2.pieces]
  · intro c hc
    show r.byColor_ c = _
    rw [R2.byColor]
    exact e2 c hc
  · show r.occupied_ = _
    rw [R2.occupied]
    exact e3
  · intro c hc
    show r.kingSquare_ c = _
    rw [R2.kingSquare]
    exact e5 c hc
  · exact computeHash_congr Z m R2.side R2.castling R2.ep

end Board

end chess

/-!
# `makeMove` from an empty square
-/

namespace chess

namespace Board

theorem forBits_put_history (c pt : Nat) : ∀ (n : Nat) (bb : Nat) (X : Board),
    (forBits n bb (fun sq X => X.putPiece c pt sq) X).history_ = X.history_ := by
  intro n
  induction n with
  | zero => intro bb X; rfl
  | succ n ih =>
    intro bb X
    rw [forBits]
    split
    · rfl
    · rw [ih]; rfl

theorem rebuildLoops_history (b : Board) : (rebuildLoops b).history_ = b.history_ := by
  have key : ∀ (ps : List (Nat × Nat)) (X : Board), (ps.foldl (fun X p =>
      forBits 64 (X.pieces_ p.1 p.2) (fun sq X => X.putPiece p.1 p.2 sq) X) X).history_ =
        X.history_ := by
    intro ps
    induction ps with
    | nil => intro X; rfl
    | cons p ps ih =>
      intro X
      rw [List.foldl_cons, ih]
      exact forBits_put_history _ _ _ _ _
  exact key allPieces (rebuildStart b)

theorem rebuild_history (Z : ZobristKeys) (b : Board) :
    (b.rebuildMailboxAndHash Z).history_ = b.history_ := by
  rewrite [rebuildMailboxAndHash_eq]
  have h := rebuildLoops_history b
  generalize rebuildLoops b = r at h ⊢
  exact h

/-- The result of `makeMove` when the from-square is empty in the mailbox and stays empty
after the repair: the history entry is pushed, the mailbox and the hash are rebuilt (which
gives the board `R`), and the entry is overwritten with the rebuilt hash. -/
theorem makeMove_invalid (Z : ZobristKeys) (b : Board) (m : Move) (R : Board)
    (hR : ({ b with history_ := b.history_ ++ [b.hash_] } : Board).rebuildMailboxAndHash Z = R)
    (h1 : b.mailbox_ m.src &&& 7 = NO_PIECE) (h2 : R.mailbox_ m.src &&& 7 = NO_PIECE) :
    b.makeMove Z m =
      ({ R with history_ := R.history_.dropLast ++ [R.hash_] }, UndoInfo.makeInvalid) := by
  have e := rebuild_history Z ({ b with history_ := b.history_ ++ [b.hash_] } : Board)
  rewrite [hR] at e
  have hne : R.history_ ≠ [] := by
    rewrite [e]
    show b.history_ ++ [b.hash_] ≠ []
    simp
  unfold makeMove
  lift_lets
  intro b1 us them src dst mt x7 x8 x9
  intros
  have hx7 : x7 = R := hR
  have c1 : b1.pieceAt src = NO_PIECE := h1
  have hx8 : x8 = ({ R with history_ := R.history_.dropLast ++ [R.hash_] } : Board) := by
    show (if b1.pieceAt src = NO_PIECE then (if x7.history_ ≠ [] then _ else x7) else b1) = _
    rewrite [if_pos c1, hx7, if_pos hne]
    rfl
  have hx9 : x9 = NO_PIECE := by
    show x8.pieceAt src = NO_PIECE
    rewrite [hx8]
    exact h2
  rewrite [if_pos hx9, hx8]
  rfl

theorem unmakeMove_invalid (b : Board) (m : Move) (h : b.history_ ≠ []) :
    b.unmakeMove m UndoInfo.makeInvalid = { b with history_ := b.history_.dropLast } := by
  unfold unmakeMove
  have hi : UndoInfo.makeInvalid.isInvalid = true := by decide
  rewrite [if_pos hi, if_pos h]
  rfl

end Board

end chess

namespace chess

/-- C30: for every board on which the mailbox agrees with the bitboards and the king
squares (the structural invariant) and `hash = computeHash()`, and every move `m` whose
from-square is empty, `makeMove(m)` returns an undo value with `isInvalid()` true, appends
exactly one entry (the hash) to the history and changes no other field;
`unmakeMove(m, that undo)` then removes that entry and changes nothing else, so every field
equals that of the original board. -/
theorem C30_reject_empty_source (Z : ZobristKeys) (b : Board) (m : Move)
    (hs : b.structural = true) (hh : b.hash_ = b.computeHash Z)
    (he : b.isEmpty m.src = true) :
    (b.makeMove Z m).2.isInvalid = true ∧
      (b.makeMove Z m).1.history_ = b.history_ ++ [b.hash_] ∧
      Board.SamePosition (b.makeMove Z m).1 b ∧ (b.makeMove Z m).1.hash_ = b.hash_ ∧
      ((b.makeMove Z m).1.unmakeMove m (b.makeMove Z m).2).history_ = b.history_ ∧
      Board.SamePosition ((b.makeMove Z m).1.unmakeMove m (b.makeMove Z m).2) b ∧
      ((b.makeMove Z m).1.unmakeMove m (b.makeMove Z m).2).hash_ = b.hash_ := by
  have hb : b.Inv := Board.Inv.of_structural hs
  have hm : b.mailbox_ m.src = 0xFF := by
    unfold Board.isEmpty at he
    exact beq_iff_eq.1 he
  have hb1 : Board.Inv ({ b with history_ := b.history_ ++ [b.hash_] } : Board) :=
    hb.congr rfl rfl rfl rfl rfl
  obtain ⟨hp, hhist, hhash⟩ := Board.rebuild_fields Z hb1
  generalize hR : Board.rebuildMailboxAndHash Z
    ({ b with history_ := b.history_ ++ [b.hash_] } : Board) = R at hp hhist hhash
  have hp2 : Board.SamePosition R b := hp
  have hhist2 : R.history_ = b.history_ ++ [b.hash_] := hhist
  have hhash2 : R.hash_ = b.hash_ := by
    rw [hhash, hh]
    exact Board.computeHash_congr Z (fun _ _ => rfl) rfl rfl rfl
  obtain ⟨p1, p2, p3, p4, p5, p6, p7, p8, p9, p10⟩ := hp2
  have h1 : b.mailbox_ m.src &&& 7 = NO_PIECE := by rw [hm]; decide
  have h2 : R.mailbox_ m.src &&& 7 = NO_PIECE := by rw [p4 _ m.src_lt, hm]; decide
  rw [Board.makeMove_invalid Z b m R hR h1 h2]
  have hne : ({ R with history_ := R.history_.dropLast ++ [R.hash_] } : Board).history_ ≠ [] := by
    show R.history_.dropLast ++ [R.hash_] ≠ []
    simp
  have hlast : R.history_.dropLast ++ [R.hash_] = b.history_ ++ [b.hash_] := by
    rw [hhist2, hhash2, List.dropLast_concat]
  simp only []
  rw [Board.unmakeMove_invalid _ m hne]
  refine ⟨by decide, hlast, ⟨p1, p2, p3, p4, p5, p6, p7, p8, p9, p10⟩, hhash2, ?_,
    ⟨p1, p2, p3, p4, p5, p6, p7, p8, p9, p10⟩, hhash2⟩
  show (R.history_.dropLast ++ [R.hash_]).dropLast = b.history_
  rw [hlast, List.dropLast_concat]

theorem C30_reject_empty_source_witness :
    (drawnRoot.makeMove Zobrist.init (Move.normal 12 28)).2.isInvalid = true ∧
      (drawnRoot.makeMove Zobrist.init (Move.normal 12 28)).1.history_ =
        drawnRoot.history_ ++ [drawnRoot.hash_] ∧
      Board.SamePosition (drawnRoot.makeMove Zobrist.init (Move.normal 12 28)).1 drawnRoot ∧
      (drawnRoot.makeMove Zobrist.init (Move.normal 12 28)).1.hash_ = drawnRoot.hash_ ∧
      ((drawnRoot.makeMove Zobrist.init (Move.normal 12 28)).1.unmakeMove (Move.normal 12 28)
        (drawnRoot.makeMove Zobrist.init (Move.normal 12 28)).2).history_ = drawnRoot.history_ ∧
      Board.SamePosition
        ((drawnRoot.makeMove Zobrist.init (Move.normal 12 28)).1.unmakeMove (Move.normal 12 28)
          (drawnRoot.makeMove Zobrist.init (Move.normal 12 28)).2) drawnRoot ∧
      ((drawnRoot.makeMove Zobrist.init (Move.normal 12 28)).1.unmakeMove (Move.normal 12 28)
        (drawnRoot.makeMove Zobrist.init (Move.normal 12 28)).2).hash_ = drawnRoot.hash_ :=
  C30_reject_empty_source Zobrist.init drawnRoot (Move.normal 12 28) (by decide!)
    drawnRoot_consistent_walk.2.2 (by decide!)

end chess

/-!
# The evaluation (`src/evaluate.cpp`)

Conventions of this part of the model.

* The parameters of `EvalParams` are `double`s. Every place where the source converts a
  double, or an expression computed in double precision, to `int` is a field of `EvalEnv`: a
  function of the integers that the expression reads. The evaluation is a function of such
  an environment, and what is proved about it holds for every environment.
* The scores are C++ `int`s; they are modelled on the integers (signed overflow is undefined
  behaviour in the source), and `/` on `int` is the truncating division `Int.tdiv`.
* The tables of `struct Precomputed` have 64 entries; `evaluate` reads them at the two king
  squares, so the model of `evaluate` returns `none` when a king square is not below 64.
-/

namespace chess

/-- The integers that the evaluation gets from the double-precision parameters. -/
structure EvalEnv where
  /-- The value `static_cast<int>(p.pieceValues[pt])`. -/
  pieceValue : Nat → Int
  /-- The value `static_cast<int>(p.pst[pt][sq])`. -/
  pst : Nat → Nat → Int
  /-- The value `static_cast<int>(p.kingEndgame[sq])`. -/
  kingEndgame : Nat → Int
  /-- The value `static_cast<int>(p.passedPawnBonus[rank])`. -/
  passedPawnBonus : Nat → Int
  /-- The value `static_cast<int>(sign * (safeMoves + unsafeMoves * 0.25) * p.mobilityBonus[pt])`,
  as a function of `sign`, `safeMoves`, `unsafeMoves` and `pt`. -/
  mobScore : Int → Nat → Nat → Nat → Int
  /-- The value `static_cast<int>(p.pieceAttackValue[pt] * hits)`. -/
  attackValue : Nat → Nat → Int
  /-- The value `static_cast<int>(sign * p.knightOutpostBonus[i])`. -/
  outpostBonus : Int → Nat → Int
  /-- The value `static_cast<int>(p.rookFileBonus[i])`. -/
  rookFileBonus : Nat → Int
  /-- The value `static_cast<int>(p.rookSeventhBonus[i])`. -/
  rookSeventhBonus : Nat → Int
  /-- The value of `egScore` after `egScore -= sign * (badBishopPenalty / 1.5)`, as a function
  of `egScore`, `sign` and `badBishopPenalty`. -/
  egBadBishop : Int → Int → Int → Int
  /-- The value `static_cast<int>(p.developmentWeights[i])`. -/
  developmentWeight : Nat → Int
  /-- The value `static_cast<int>(p.kingShieldValues[i])`. -/
  kingShieldValue : Nat → Int
  /-- The value `static_cast<int>((attackUnits * p.attackWeight[attackers]) / 100)`. -/
  attackPenalty : Int → Nat → Int

/-! ## The tables of `struct Precomputed` -/

namespace Precomputed

/-- The loop `for (int r = lo; r < hi; ++r) acc |= f(r);` from `acc = 0`. -/
def orFor (lo hi : Nat) (f : Nat → Bitboard) : Bitboard :=
  ((List.range hi).filter (fun r => decide (lo ≤ r))).foldl (fun acc r => acc ||| f r) 0

def fileMasks (sq : Nat) : Bitboard := (0x0101010101010101 <<< fileOf sq) % U64

def neighborMasks (sq : Nat) : Bitboard :=
  let file := fileOf sq
  let adj : Bitboard := 0
  let adj := if file > 0 then adj ||| (0x0101010101010101 <<< (file - 1)) % U64 else adj
  let adj := if file < 7 then adj ||| (0x0101010101010101 <<< (file + 1)) % U64 else adj
  adj

def whitePassedMasks (sq : Nat) : Bitboard :=
  let frontWhite := orFor (rankOf sq + 1) 8 (fun r => (0xFF <<< (r * 8)) % U64)
  (fileMasks sq ||| neighborMasks sq) &&& frontWhite

def blackPassedMasks (sq : Nat) : Bitboard :=
  let frontBlack := orFor 0 (rankOf sq) (fun r => (0xFF <<< (r * 8)) % U64)
  (fileMasks sq ||| neighborMasks sq) &&& frontBlack

/-- The squares on the files `max(0, file - 1) .. min(7, file + 1)` and the ranks
`max(0, rank - 1) .. min(7, rank + 2)`. -/
def kingZoneMasks (sq : Nat) : Bitboard :=
  let file := fileOf sq
  let rank := rankOf sq
  ((List.range (min 7 (file + 1) + 1)).filter (fun f => decide (file - 1 ≤ f))).foldl
    (fun kMask f =>
      ((List.range (min 7 (rank + 2) + 1)).filter (fun r => decide (rank - 1 ≤ r))).foldl
        (fun kMask r => kMask ||| (1 <<< (r * 8 + f)) % U64) kMask) 0

end Precomputed

namespace ThisBot

open Precomputed

/-- The table `PIECE_PHASE`. -/
def PIECE_PHASE (pt : Nat) : Int := [0, 1, 1, 2, 4, 0, 0].getD pt 0

/-- The function `hasNonPawnMaterial`. -/
def hasNonPawnMaterial (board : Board) : Bool :=
  let npw := board.pieces_ WHITE KNIGHT ||| board.pieces_ WHITE BISHOP |||
    board.pieces_ WHITE ROOK ||| board.pieces_ WHITE QUEEN
  let npb := board.pieces_ BLACK KNIGHT ||| board.pieces_ BLACK BISHOP |||
    board.pieces_ BLACK ROOK ||| board.pieces_ BLACK QUEEN
  if board.sideToMove_ = WHITE then decide (npw ≠ 0) else decide (npb ≠ 0)

/-- The function `isLowMaterialEnding`. -/
def isLowMaterialEnding (board : Board) : Bool :=
  let nonPawn := board.pieces_ WHITE KNIGHT ||| board.pieces_ WHITE BISHOP |||
    board.pieces_ WHITE ROOK ||| board.pieces_ WHITE QUEEN |||
    board.pieces_ BLACK KNIGHT ||| board.pieces_ BLACK BISHOP |||
    board.pieces_ BLACK ROOK ||| board.pieces_ BLACK QUEEN
  let nonPawnCount := popCount nonPawn
  let pawnCount := popCount (board.pieces_ WHITE PAWN ||| board.pieces_ BLACK PAWN)
  decide (nonPawnCount ≤ 2 ∧ pawnCount ≤ 6)

/-- The function `evaluateDevelopment`. -/
def evaluateDevelopment (E : EvalEnv) (board : Board) (phase : Int) : Int :=
  if phase < 16 then 0
  else
    let score : Int := 0
    let undevelopedPenalty := E.developmentWeight 0
    let castleKingBonus := E.developmentWeight 1
    let castleQueenBonus := E.developmentWeight 2
    let castledBonus := E.developmentWeight 3
    let whiteBack : Bitboard := 0x00000000000000FF
    let blackBack : Bitboard := 0xFF00000000000000
    let whiteMinor := board.pieces_ WHITE KNIGHT ||| board.pieces_ WHITE BISHOP
    let blackMinor := board.pieces_ BLACK KNIGHT ||| board.pieces_ BLACK BISHOP
    let whiteUndev : Int := popCount (whiteMinor &&& whiteBack)
    let blackUndev : Int := popCount (blackMinor &&& blackBack)
    let score := score - whiteUndev * undevelopedPenalty
    let score := score + blackUndev * undevelopedPenalty
    let score := if board.castling_ &&& WHITE_OO ≠ 0 then score + castleKingBonus else score
    let score := if board.castling_ &&& WHITE_OOO ≠ 0 then score + castleQueenBonus else score
    let score := if board.castling_ &&& BLACK_OO ≠ 0 then score - castleKingBonus else score
    let score := if board.castling_ &&& BLACK_OOO ≠ 0 then score - castleQueenBonus else score
    let whiteKingFile := fileOf (board.kingSq WHITE)
    let blackKingFile := fileOf (board.kingSq BLACK)
    let score := if whiteKingFile ≤ 1 ∨ whiteKingFile ≥ 6 then score + castledBonus else score
    let score := if blackKingFile ≤ 1 ∨ blackKingFile ≥ 6 then score - castledBonus else score
    score

/-- The function `evaluateKingSafety`. -/
def evaluateKingSafety (E : EvalEnv) (board : Board) (white : Bool)
    (friendlyPawns enemyPawns : Bitboard) (phase attackers attackUnits : Int) : Int :=
  if phase < 10 ∨ attackers = 0 then 0
  else
    let attackers := min attackers 8
    let safety : Int := 0
    let shieldValue := E.kingShieldValue 0
    let semiOpenPenalty := E.kingShieldValue 1
    let openExtraPenalty := E.kingShieldValue 2
    let safety := safety - E.attackPenalty attackUnits attackers.toNat
    let kingSq := board.kingSq (if white then WHITE else BLACK)
    let kingZone := kingZoneMasks kingSq
    let shieldZone :=
      if white then kingZone &&& 0x0000000000FFFF00 else kingZone &&& 0x00FFFF0000000000
    let shield : Int := popCount (friendlyPawns &&& shieldZone)
    let safety := safety + shield * shieldValue
    let kFile := fileOf kingSq
    ((List.range (min 7 (kFile + 1) + 1)).filter (fun f => decide (kFile - 1 ≤ f))).foldl
      (fun safety f =>
        let fileMask : Bitboard := (0x0101010101010101 <<< f) % U64
        if fileMask &&& friendlyPawns = 0 then
          let safety := safety - semiOpenPenalty
          if fileMask &&& enemyPawns = 0 then safety - openExtraPenalty else safety
        else safety) safety

/-- The local variables of `evaluate` that its loops update. -/
structure EvalAcc where
  mgScore : Int
  egScore : Int
  phase : Int
  whiteBishops : Int
  blackBishops : Int
  whiteLightBishop : Bool
  whiteDarkBishop : Bool
  blackLightBishop : Bool
  blackDarkBishop : Bool
  whitePassed : Bool
  blackPassed : Bool
  whiteKingAttacksCount : Int
  whiteKingAttacksWeight : Int
  blackKingAttacksCount : Int
  blackKingAttacksWeight : Int

/-- The values of the local variables of `evaluate` before its loops. -/
def EvalAcc.start : EvalAcc where
  mgScore := 0
  egScore := 0
  phase := 0
  whiteBishops := 0
  blackBishops := 0
  whiteLightBishop := false
  whiteDarkBishop := false
  blackLightBishop := false
  blackDarkBishop := false
  whitePassed := false
  blackPassed := false
  whiteKingAttacksCount := 0
  whiteKingAttacksWeight := 0
  blackKingAttacksCount := 0
  blackKingAttacksWeight := 0

def FILE_A : Bitboard := 0x0101010101010101
def FILE_H : Bitboard := 0x8080808080808080

/-- The local `whitePawnAttacks` of `evaluate`. -/
def whitePawnAttacks (whitePawns : Bitboard) : Bitboard :=
  (((whitePawns &&& bnot FILE_A) <<< 7) % U64) ||| (((whitePawns &&& bnot FILE_H) <<< 9) % U64)

/-- The local `blackPawnAttacks` of `evaluate`. -/
def blackPawnAttacks (blackPawns : Bitboard) : Bitboard :=
  ((blackPawns &&& bnot FILE_H) >>> 7) ||| ((blackPawns &&& bnot FILE_A) >>> 9)

/-- The sum `std::abs(f1 - f2) + std::abs(r1 - r2)` of the file and rank distances of two
squares. -/
def manhattan (s t : Nat) : Int :=
  (((fileOf s : Int) - (fileOf t : Int)).natAbs : Int) +
    (((rankOf s : Int) - (rankOf t : Int)).natAbs : Int)

/-- The body of the loop over the white pawns. -/
def whitePawnStep (E : EvalEnv) (board : Board) (sq : Nat) (a : EvalAcc) : EvalAcc :=
  let whitePawns := board.pieces_ WHITE PAWN
  let blackPawns := board.pieces_ BLACK PAWN
  let allPieces := board.occupied_
  let whiteKingSq := board.kingSq WHITE
  let blackKingSq := board.kingSq BLACK
  let rank := rankOf sq
  let pstValue := E.pst PAWN sq
  let a : EvalAcc := { a with mgScore := a.mgScore + (E.pieceValue PAWN + pstValue),
                              egScore := a.egScore + (E.pieceValue PAWN + pstValue) }
  let a : EvalAcc := if fileMasks sq &&& whitePawns ≠ squareBB sq
    then { a with mgScore := a.mgScore - 10, egScore := a.egScore - 25 } else a
  let a : EvalAcc := if neighborMasks sq &&& whitePawns = 0
    then { a with mgScore := a.mgScore - 15, egScore := a.egScore - 15 }
    else { a with mgScore := a.mgScore + 10, egScore := a.egScore + 15 }
  if whitePassedMasks sq &&& blackPawns = 0 then
    let bonus := E.passedPawnBonus rank
    let distOwn := manhattan sq whiteKingSq
    let distEnemy := manhattan sq blackKingSq
    let bonus := bonus + ((distEnemy * 5) - (distOwn * 2))
    let bonus := if rank < 7 ∧ allPieces &&& squareBB (sq + 8) ≠ 0 then bonus.tdiv 2 else bonus
    { a with mgScore := a.mgScore + bonus, egScore := a.egScore + bonus * 2, whitePassed := true }
  else a

/-- The body of the loop over the black pawns. -/
def blackPawnStep (E : EvalEnv) (board : Board) (sq : Nat) (a : EvalAcc) : EvalAcc :=
  let whitePawns := board.pieces_ WHITE PAWN
  let blackPawns := board.pieces_ BLACK PAWN
  let allPieces := board.occupied_
  let whiteKingSq := board.kingSq WHITE
  let blackKingSq := board.kingSq BLACK
  let rank := rankOf sq
  let pstSq := sq ^^^ 56
  let pstValue := E.pst PAWN pstSq
  let a : EvalAcc := { a with mgScore := a.mgScore - (E.pieceValue PAWN + pstValue),
                              egScore := a.egScore - (E.pieceValue PAWN + pstValue) }
  let a : EvalAcc := if fileMasks sq &&& blackPawns ≠ squareBB sq
    then { a with mgScore := a.mgScore + 10, egScore := a.egScore + 25 } else a
  let a : EvalAcc := if neighborMasks sq &&& blackPawns = 0
    then { a with mgScore := a.mgScore + 15, egScore := a.egScore + 15 }
    else { a with mgScore := a.mgScore - 10, egScore := a.egScore - 15 }
  if blackPassedMasks sq &&& whitePawns = 0 then
    let bonus := E.passedPawnBonus (7 - rank)
    let distOwn := manhattan sq blackKingSq
    let distEnemy := manhattan sq whiteKingSq
    let bonus := bonus + ((distEnemy * 5) - (distOwn * 2))
    let bonus := if rank > 0 ∧ allPieces &&& squareBB (sq - 8) ≠ 0 then bonus.tdiv 2 else bonus
    { a with mgScore := a.mgScore - bonus, egScore := a.egScore - bonus * 2, blackPassed := true }
  else a

/-- The local `light` of the bishop block: `((fileOf(sq) + rankOf(sq)) & 1) == 0`. -/
def light (sq : Nat) : Bool := (fileOf sq + rankOf sq) &&& 1 == 0

/-- The local `sameColorSquares` of the bishop block. -/
def sameColorSquares (sq : Nat) : Bitboard :=
  if light sq = true then 0x55AA55AA55AA55AA else 0xAA55AA55AA55AA55

/-- The local `centralSquares` of the bishop block. -/
def centralSquares : Bitboard := 0x00003C3C3C3C0000

/-- The local `badBishopPenalty` of the bishop block, for a bishop on `sq` and the pawns of
its side. -/
def badBishopPenalty (friendlyPawns : Bitboard) (sq : Nat) : Int :=
  let blockedCentralPawns : Int :=
    popCount (friendlyPawns &&& sameColorSquares sq &&& centralSquares)
  let blockedOtherPawns : Int :=
    popCount (friendlyPawns &&& sameColorSquares sq &&& bnot centralSquares)
  blockedCentralPawns * 12 + blockedOtherPawns * 4

/-- The body of the loop over the pieces of type `pt` (knight to king) and colour `color`. -/
def pieceStep (E : EvalEnv) (T : Lookups) (board : Board) (color pt : Nat) (sq : Nat)
    (a : EvalAcc) : EvalAcc :=
  let whitePawns := board.pieces_ WHITE PAWN
  let blackPawns := board.pieces_ BLACK PAWN
  let allPieces := board.occupied_
  let whiteKingSq := board.kingSq WHITE
  let blackKingSq := board.kingSq BLACK
  let whiteKingZone := kingZoneMasks whiteKingSq
  let blackKingZone := kingZoneMasks blackKingSq
  let isWhite : Bool := color == 0
  let friendlyPawns := if isWhite then whitePawns else blackPawns
  let enemyPawns := if isWhite then blackPawns else whitePawns
  let enemyPawnAttacks :=
    if isWhite then blackPawnAttacks blackPawns else whitePawnAttacks whitePawns
  let enemyKingSq := if isWhite then blackKingSq else whiteKingSq
  let pstSq := if isWhite then sq else sq ^^^ 56
  let pstValue := if pt = KING then E.pst 5 pstSq else E.pst pt pstSq
  let baseVal := E.pieceValue pt + pstValue
  let sign : Int := if isWhite then 1 else -1
  let a : EvalAcc := { a with mgScore := a.mgScore + sign * baseVal }
  let a : EvalAcc :=
    if pt = KING then
      { a with egScore := a.egScore + sign * (E.pieceValue pt + E.kingEndgame pstSq) }
    else { a with egScore := a.egScore + sign * baseVal }
  let a : EvalAcc := { a with phase := a.phase + PIECE_PHASE pt }
  let a : EvalAcc :=
    if pt ≠ KING then
      let attacks :=
        if pt = KNIGHT then T.KNIGHT_ATTACKS sq
        else if pt = BISHOP then T.bishopAttacks sq allPieces
        else if pt = ROOK then T.rookAttacks sq allPieces
        else if pt = QUEEN then T.queenAttacks sq allPieces
        else 0
      let safeSquares := bnot enemyPawnAttacks
      let safeMoves := popCount (attacks &&& safeSquares)
      let unsafeMoves := popCount (attacks &&& enemyPawnAttacks)
      let mobScore := E.mobScore sign safeMoves unsafeMoves pt
      let a : EvalAcc := { a with mgScore := a.mgScore + mobScore, egScore := a.egScore + mobScore }
      let zoneHits := if isWhite then attacks &&& blackKingZone else attacks &&& whiteKingZone
      if zoneHits ≠ 0 then
        let hits := popCount zoneHits
        if isWhite then
          { a with blackKingAttacksCount := a.blackKingAttacksCount + 1,
                   blackKingAttacksWeight := a.blackKingAttacksWeight + E.attackValue pt hits }
        else
          { a with whiteKingAttacksCount := a.whiteKingAttacksCount + 1,
                   whiteKingAttacksWeight := a.whiteKingAttacksWeight + E.attackValue pt hits }
      else a
    else a
  let a : EvalAcc :=
    if pt = KNIGHT then
      let r := rankOf sq
      let outpostRank := if isWhite then decide (r ≥ 3 ∧ r ≤ 5) else decide (r ≥ 2 ∧ r ≤ 4)
      if outpostRank then
        let supportive := T.PAWN_ATTACKS (if isWhite then BLACK else WHITE) sq &&& friendlyPawns
        let enemy := T.PAWN_ATTACKS (if isWhite then WHITE else BLACK) sq &&& enemyPawns
        if supportive ≠ 0 ∧ enemy = 0 then
          { a with mgScore := a.mgScore + E.outpostBonus sign 0,
                   egScore := a.egScore + E.outpostBonus sign 1 }
        else a
      else a
    else if pt = ROOK then
      let a : EvalAcc :=
        if fileMasks sq &&& friendlyPawns = 0 then
          let bonus := E.rookFileBonus 0
          let bonus := if fileMasks sq &&& enemyPawns = 0 then bonus + E.rookFileBonus 1 else bonus
          let fileScore := sign * bonus
          { a with mgScore := a.mgScore + fileScore, egScore := a.egScore + fileScore }
        else a
      let relativeRank := if isWhite then rankOf sq else 7 - rankOf sq
      if relativeRank = 6 then
        let a : EvalAcc := { a with mgScore := a.mgScore + sign * E.rookSeventhBonus 0,
                                    egScore := a.egScore + sign * E.rookSeventhBonus 1 }
        let enemyKingRelRank := if isWhite then rankOf blackKingSq else 7 - rankOf whiteKingSq
        if enemyKingRelRank = 7 then
          { a with mgScore := a.mgScore + sign * 10, egScore := a.egScore + sign * 15 }
        else a
      else a
    else if pt ≠ KING ∧ a.phase > 8 then
      let dist := manhattan sq enemyKingSq
      if dist ≤ 3 then { a with mgScore := a.mgScore + sign * 6 } else a
    else a
  if pt = BISHOP then
    let a : EvalAcc :=
      if isWhite then
        if light sq = true then { a with whiteLightBishop := true }
        else { a with whiteDarkBishop := true }
      else
        if light sq = true then { a with blackLightBishop := true }
        else { a with blackDarkBishop := true }
    let a : EvalAcc :=
      if isWhite then { a with whiteBishops := a.whiteBishops + 1 }
      else { a with blackBishops := a.blackBishops + 1 }
    let penalty := badBishopPenalty friendlyPawns sq
    { a with mgScore := a.mgScore - sign * penalty,
             egScore := E.egBadBishop a.egScore sign penalty }
  else a

/-- The local variables of `evaluate` after its three loops: the white pawns, the black
pawns, and the other pieces by colour and type. -/
def evalLoops (E : EvalEnv) (T : Lookups) (board : Board) : EvalAcc :=
  let a : EvalAcc := forBits 64 (board.pieces_ WHITE PAWN) (whitePawnStep E board) EvalAcc.start
  let a : EvalAcc := forBits 64 (board.pieces_ BLACK PAWN) (blackPawnStep E board) a
  [0, 1].foldl (fun a color =>
    [KNIGHT, BISHOP, ROOK, QUEEN, KING].foldl (fun a pt =>
      forBits 64 (board.pieces_ color pt) (pieceStep E T board color pt) a) a) a

/-- The value of `mgScore` at the end of `evaluate`: development, king safety, the exposed
king and the bishop pair are added to the result of the loops. -/
def mgFinal (E : EvalEnv) (T : Lookups) (board : Board) (a : EvalAcc) : Int :=
  let whitePawns := board.pieces_ WHITE PAWN
  let blackPawns := board.pieces_ BLACK PAWN
  let whiteKingSq := board.kingSq WHITE
  let blackKingSq := board.kingSq BLACK
  let phase := a.phase
  let devScore := evaluateDevelopment E board phase
  let mgScore := a.mgScore + devScore
  let mgScore :=
    if phase > 0 then
      let mgScore := mgScore + evaluateKingSafety E board true whitePawns blackPawns phase
        a.whiteKingAttacksCount a.whiteKingAttacksWeight
      mgScore - evaluateKingSafety E board false blackPawns whitePawns phase
        a.blackKingAttacksCount a.blackKingAttacksWeight
    else mgScore
  let mgScore :=
    if phase > 12 then
      let wRank := rankOf whiteKingSq
      let bRank := rankOf blackKingSq
      let mgScore :=
        if wRank < 2 then
          let mgScore :=
            if fileMasks whiteKingSq &&& whitePawns = 0 then mgScore - 25
            else if T.PAWN_ATTACKS BLACK whiteKingSq &&& whitePawns = 0 then mgScore - 10
            else mgScore
          if neighborMasks whiteKingSq &&& whitePawns = 0 then mgScore - 10 else mgScore
        else mgScore
      if bRank > 5 then
        let mgScore :=
          if fileMasks blackKingSq &&& blackPawns = 0 then mgScore + 25
          else if T.PAWN_ATTACKS WHITE blackKingSq &&& blackPawns = 0 then mgScore + 10
          else mgScore
        if neighborMasks blackKingSq &&& blackPawns = 0 then mgScore + 10 else mgScore
      else mgScore
    else mgScore
  let mgScore := if a.whiteBishops ≥ 2 then mgScore + 20 else mgScore
  if a.blackBishops ≥ 2 then mgScore - 20 else mgScore

/-- The value of `egScore` at the end of `evaluate`. -/
def egFinal (a : EvalAcc) : Int :=
  let egScore := a.egScore
  let egScore := if a.whiteBishops ≥ 2 then egScore + 40 else egScore
  if a.blackBishops ≥ 2 then egScore - 40 else egScore

/-- The local `totalNonPawn` of `evaluate`. -/
def totalNonPawn (board : Board) : Nat :=
  popCount (board.pieces_ WHITE KNIGHT) + popCount (board.pieces_ WHITE BISHOP) +
    popCount (board.pieces_ WHITE ROOK) + popCount (board.pieces_ WHITE QUEEN) +
    popCount (board.pieces_ BLACK KNIGHT) + popCount (board.pieces_ BLACK BISHOP) +
    popCount (board.pieces_ BLACK ROOK) + popCount (board.pieces_ BLACK QUEEN)

/-- The local `totalPawns` of `evaluate`. -/
def totalPawns (board : Board) : Nat :=
  popCount (board.pieces_ WHITE PAWN) + popCount (board.pieces_ BLACK PAWN)

/-- The condition of the three `return 0` statements for insufficient material. -/
def insufficientMaterial (board : Board) : Bool :=
  let whiteKnightCount := popCount (board.pieces_ WHITE KNIGHT)
  let blackKnightCount := popCount (board.pieces_ BLACK KNIGHT)
  let whiteBishopCount := popCount (board.pieces_ WHITE BISHOP)
  let blackBishopCount := popCount (board.pieces_ BLACK BISHOP)
  if totalPawns board = 0 then
    if totalNonPawn board = 0 then true
    else if totalNonPawn board = 1 ∧
        (whiteBishopCount + blackBishopCount + whiteKnightCount + blackKnightCount) = 1 then true
    else if totalNonPawn board = 2 ∧ whiteBishopCount = 1 ∧ blackBishopCount = 1 then true
    else false
  else false

/-- The local `score` of `evaluate` after the interpolation between the two phases and the
dampening for bishops of opposite colours. -/
def taperedScore (E : EvalEnv) (T : Lookups) (board : Board) : Int :=
  let a : EvalAcc := evalLoops E T board
  let mgScore := mgFinal E T board a
  let egScore := egFinal a
  let whiteKnightCount := popCount (board.pieces_ WHITE KNIGHT)
  let blackKnightCount := popCount (board.pieces_ BLACK KNIGHT)
  let whiteBishopCount := popCount (board.pieces_ WHITE BISHOP)
  let blackBishopCount := popCount (board.pieces_ BLACK BISHOP)
  let whiteRookCount := popCount (board.pieces_ WHITE ROOK)
  let blackRookCount := popCount (board.pieces_ BLACK ROOK)
  let whiteQueenCount := popCount (board.pieces_ WHITE QUEEN)
  let blackQueenCount := popCount (board.pieces_ BLACK QUEEN)
  let finalPhase := min a.phase 24
  let score := (mgScore * finalPhase + egScore * (24 - finalPhase)).tdiv 24
  let whiteOnlyLight := a.whiteLightBishop && !a.whiteDarkBishop && decide (whiteBishopCount > 0)
  let whiteOnlyDark := a.whiteDarkBishop && !a.whiteLightBishop && decide (whiteBishopCount > 0)
  let blackOnlyLight := a.blackLightBishop && !a.blackDarkBishop && decide (blackBishopCount > 0)
  let blackOnlyDark := a.blackDarkBishop && !a.blackLightBishop && decide (blackBishopCount > 0)
  let ocb := (whiteOnlyLight && blackOnlyDark) || (whiteOnlyDark && blackOnlyLight)
  let noMajorsNoKnights := decide (whiteRookCount + blackRookCount + whiteQueenCount +
    blackQueenCount + whiteKnightCount + blackKnightCount = 0)
  if ocb && noMajorsNoKnights then
    let scale : Int := 4
    let scale := if !a.whitePassed && !a.blackPassed && decide (totalPawns board ≤ 4) then 8
      else scale
    score.tdiv scale
  else score

/-- The scaling of the score near the fifty-move rule. -/
def fiftyScaled (halfmove : Nat) (score : Int) : Int :=
  let fiftyRemaining : Int := max 0 (100 - (halfmove : Int))
  if fiftyRemaining < 20 then (score * fiftyRemaining).tdiv 20 else score

/-- The local `mopUp` of `evaluate`, for the sign of the score given. -/
def mopUp (board : Board) (winningWhite : Bool) : Int :=
  let whiteKingSq := board.kingSq WHITE
  let blackKingSq := board.kingSq BLACK
  let winningKing := if winningWhite then whiteKingSq else blackKingSq
  let losingKing := if winningWhite then blackKingSq else whiteKingSq
  let lkRank : Int := rankOf losingKing
  let lkFile : Int := fileOf losingKing
  let lkDistCenter := max (3 - lkFile) (lkFile - 4) + max (3 - lkRank) (lkRank - 4)
  let distKings := manhattan losingKing winningKing
  lkDistCenter * 10 + (14 - distKings) * 4

/-- The block `if (phase < 6) { ... }` of `evaluate`. -/
def withMopUp (board : Board) (phase : Int) (score : Int) : Int :=
  if phase < 6 then
    let winningWhite := decide (score > 0)
    if winningWhite then score + mopUp board winningWhite else score - mopUp board winningWhite
  else score

/-- The value of the local `score` at the last statement of `evaluate`, the score from the
side of White; `0` where `evaluate` returns early for insufficient material. -/
def whiteScore (E : EvalEnv) (T : Lookups) (board : Board) : Int :=
  if insufficientMaterial board then 0
  else
    withMopUp board (evalLoops E T board).phase
      (fiftyScaled board.halfmove_ (taperedScore E T board))

/-- The function `ThisBot::evaluate`; `none` where a king square is not on the board. -/
def evaluate (E : EvalEnv) (T : Lookups) (board : Board) : Option Int :=
  if board.kingSq WHITE < 64 ∧ board.kingSq BLACK < 64 then
    if insufficientMaterial board then some 0
    else
      let score := withMopUp board (evalLoops E T board).phase
        (fiftyScaled board.halfmove_ (taperedScore E T board))
      some (if board.sideToMove_ = WHITE then score else -score)
  else none

end ThisBot

end chess

/-!
# The evaluation reads the pieces, the king squares, the castling rights and the clock
-/

namespace chess

namespace ThisBot

/-- The two boards agree in the fields that the evaluation reads before it scales the score
near the fifty-move rule. -/
structure SameMaterial (b1 b2 : Board) : Prop where
  pieces : b1.pieces_ = b2.pieces_
  occupied : b1.occupied_ = b2.occupied_
  kingSquare : b1.kingSquare_ = b2.kingSquare_
  castling : b1.castling_ = b2.castling_

section
variable {b1 b2 : Board}

theorem whitePawnStep_congr (E : EvalEnv) (h : SameMaterial b1 b2) :
    whitePawnStep E b1 = whitePawnStep E b2 := by
  funext sq a
  unfold whitePawnStep Board.kingSq
  rw [h.pieces, h.occupied, h.kingSquare]

theorem blackPawnStep_congr (E : EvalEnv) (h : SameMaterial b1 b2) :
    blackPawnStep E b1 = blackPawnStep E b2 := by
  funext sq a
  unfold blackPawnStep Board.kingSq
  rw [h.pieces, h.occupied, h.kingSquare]

theorem pieceStep_congr (E : EvalEnv) (T : Lookups) (h : SameMaterial b1 b2) :
    pieceStep E T b1 = pieceStep E T b2 := by
  funext color pt sq a
  unfold pieceStep Board.kingSq
  rw [h.pieces, h.occupied, h.kingSquare]

theorem evaluateDevelopment_congr (E : EvalEnv) (h : SameMaterial b1 b2) :
    evaluateDevelopment E b1 = evaluateDevelopment E b2 := by
  funext phase
  unfold evaluateDevelopment Board.kingSq
  rw [h.pieces, h.castling, h.kingSquare]

theorem evaluateKingSafety_congr (E : EvalEnv) (h : SameMaterial b1 b2) :
    evaluateKingSafety E b1 = evaluateKingSafety E b2 := by
  funext white fp ep phase attackers units
  unfold evaluateKingSafety Board.kingSq
  rw [h.kingSquare]

theorem evalLoops_congr (E : EvalEnv) (T : Lookups) (h : SameMaterial b1 b2) :
    evalLoops E T b1 = evalLoops E T b2 := by
  unfold evalLoops
  rw [whitePawnStep_congr E h, blackPawnStep_congr E h, pieceStep_congr E T h, h.pieces]

theorem mgFinal_congr (E : EvalEnv) (T : Lookups) (h : SameMaterial b1 b2) :
    mgFinal E T b1 = mgFinal E T b2 := by
  funext a
  unfold mgFinal Board.kingSq
  rw [evaluateDevelopment_congr E h, evaluateKingSafety_congr E h, h.pieces, h.kingSquare]

theorem totalNonPawn_congr (h : SameMaterial b1 b2) : totalNonPawn b1 = totalNonPawn b2 := by
  unfold totalNonPawn
  rw [h.pieces]

theorem totalPawns_congr (h : SameMaterial b1 b2) : totalPawns b1 = totalPawns b2 := by
  unfold totalPawns
  rw [h.pieces]

theorem insufficientMaterial_congr (h : SameMaterial b1 b2) :
    insufficientMaterial b1 = insufficientMaterial b2 := by
  unfold insufficientMaterial
  rw [totalNonPawn_congr h, totalPawns_congr h, h.pieces]

theorem taperedScore_congr (E : EvalEnv) (T : Lookups) (h : SameMaterial b1 b2) :
    taperedScore E T b1 = taperedScore E T b2 := by
  unfold taperedScore
  rw [evalLoops_congr E T h, mgFinal_congr E T h, totalPawns_congr h, h.pieces]

theorem mopUp_congr (h : SameMaterial b1 b2) : mopUp b1 = mopUp b2 := by
  funext w
  unfold mopUp Board.kingSq
  rw [h.kingSquare]

theorem withMopUp_congr (h : SameMaterial b1 b2) : withMopUp b1 = withMopUp b2 := by
  funext phase score
  unfold withMopUp
  rw [mopUp_congr h]

theorem whiteScore_congr (E : EvalEnv) (T : Lookups) (h : SameMaterial b1 b2)
    (hh : b1.halfmove_ = b2.halfmove_) : whiteScore E T b1 = whiteScore E T b2 := by
  unfold whiteScore
  rw [insufficientMaterial_congr h, withMopUp_congr h, evalLoops_congr E T h,
    taperedScore_congr E T h, hh]

end

/-- The function `evaluate` in terms of the score from the side of White. -/
theorem evaluate_eq (E : EvalEnv) (T : Lookups) (b : Board) :
    evaluate E T b =
      if b.kingSq WHITE < 64 ∧ b.kingSq BLACK < 64 then
        some (if b.sideToMove_ = WHITE then whiteScore E T b else -whiteScore E T b)
      else none := by
  unfold evaluate whiteScore
  by_cases hk : b.kingSq WHITE < 64 ∧ b.kingSq BLACK < 64
  · rw [if_pos hk, if_pos hk]
    by_cases hi : insufficientMaterial b = true
    · rw [if_pos hi, if_pos hi]
      split_ifs <;> rfl
    · rw [if_neg hi, if_neg hi]
  · rw [if_neg hk, if_neg hk]

end ThisBot

end chess

/-!
# The evaluation: side to move, insufficient material, bad bishops
-/

namespace chess

namespace Spec

/-- The material of the position is one of: no pawns and no piece besides the kings; no
pawns and exactly one piece besides the kings, a bishop or a knight; no pawns and exactly one
white bishop and one black bishop besides the kings. -/
def drawnMaterial (b : Board) : Prop :=
  popCount (b.pieces_ WHITE PAWN) = 0 ∧ popCount (b.pieces_ BLACK PAWN) = 0 ∧
  popCount (b.pieces_ WHITE ROOK) = 0 ∧ popCount (b.pieces_ BLACK ROOK) = 0 ∧
  popCount (b.pieces_ WHITE QUEEN) = 0 ∧ popCount (b.pieces_ BLACK QUEEN) = 0 ∧
  ((popCount (b.pieces_ WHITE KNIGHT) = 0 ∧ popCount (b.pieces_ BLACK KNIGHT) = 0 ∧
      popCount (b.pieces_ WHITE BISHOP) = 0 ∧ popCount (b.pieces_ BLACK BISHOP) = 0) ∨
    (popCount (b.pieces_ WHITE KNIGHT) + popCount (b.pieces_ BLACK KNIGHT) +
      popCount (b.pieces_ WHITE BISHOP) + popCount (b.pieces_ BLACK BISHOP) = 1) ∨
    (popCount (b.pieces_ WHITE KNIGHT) = 0 ∧ popCount (b.pieces_ BLACK KNIGHT) = 0 ∧
      popCount (b.pieces_ WHITE BISHOP) = 1 ∧ popCount (b.pieces_ BLACK BISHOP) = 1))

end Spec

namespace ThisBot

theorem insufficient_of_drawn {b : Board} (h : Spec.drawnMaterial b) :
    insufficientMaterial b = true := by
  obtain ⟨h1, h2, h3, h4, h5, h6, h7⟩ := h
  unfold insufficientMaterial totalPawns totalNonPawn
  simp only []
  rw [h1, h2, h3, h4, h5, h6]
  rcases h7 with ⟨a1, a2, a3, a4⟩ | a | ⟨a1, a2, a3, a4⟩
  · rw [a1, a2, a3, a4]
    rfl
  · rw [if_pos rfl]
    have e : popCount (b.pieces_ WHITE KNIGHT) + popCount (b.pieces_ WHITE BISHOP) + 0 + 0 +
        popCount (b.pieces_ BLACK KNIGHT) + popCount (b.pieces_ BLACK BISHOP) + 0 + 0 = 1 := by
      omega
    have e2 : popCount (b.pieces_ WHITE BISHOP) + popCount (b.pieces_ BLACK BISHOP) +
        popCount (b.pieces_ WHITE KNIGHT) + popCount (b.pieces_ BLACK KNIGHT) = 1 := by omega
    rw [e, e2]
    rfl
  · rw [a1, a2, a3, a4]
    rfl

end ThisBot

/-- C27: for every board `b`, `evaluate` on `b` with Black to move is the negation of
`evaluate` on the board that differs from `b` only in having White to move, and the score
from the side of White does not depend on the side to move. -/
theorem C27_side_to_move (E : EvalEnv) (T : Lookups) (b : Board) :
    ThisBot.evaluate E T { b with sideToMove_ := BLACK } =
        (ThisBot.evaluate E T { b with sideToMove_ := WHITE }).map (fun s => -s) ∧
      (∀ c : Color, ThisBot.whiteScore E T { b with sideToMove_ := c } =
        ThisBot.whiteScore E T b) ∧
      ThisBot.evaluate E T { b with sideToMove_ := WHITE } =
        if b.kingSq WHITE < 64 ∧ b.kingSq BLACK < 64 then some (ThisBot.whiteScore E T b)
        else none := by
  have hw : ∀ c : Color, ThisBot.whiteScore E T { b with sideToMove_ := c } =
      ThisBot.whiteScore E T b := fun c =>
    ThisBot.whiteScore_congr E T ⟨rfl, rfl, rfl, rfl⟩ rfl
  have hB := ThisBot.evaluate_eq E T { b with sideToMove_ := BLACK }
  have hW := ThisBot.evaluate_eq E T { b with sideToMove_ := WHITE }
  rw [hw] at hB hW
  have kB : ∀ c k : Color, Board.kingSq ({ b with sideToMove_ := c } : Board) k = b.kingSq k :=
    fun _ _ => rfl
  simp only [kB] at hB hW
  have e1 : (if BLACK = WHITE then ThisBot.whiteScore E T b else -ThisBot.whiteScore E T b) =
      -ThisBot.whiteScore E T b := if_neg (by decide)
  have e2 : (if True then ThisBot.whiteScore E T b else -ThisBot.whiteScore E T b) =
      ThisBot.whiteScore E T b := if_pos trivial
  rw [e1] at hB
  rw [e2] at hW
  refine ⟨?_, hw, hW⟩
  rw [hB, hW]
  by_cases hk : b.kingSq WHITE < 64 ∧ b.kingSq BLACK < 64
  · rw [if_pos hk, if_pos hk]
    rfl
  · rw [if_neg hk, if_neg hk]
    rfl

/-- C26: for every board with both kings on it (king squares in `0..63`: the board keeps
one king of each colour at all times) and no pawns, on which the pieces besides the kings
are (a) none, or (b) exactly one piece, a bishop or a knight, or (c) exactly one white bishop
and one black bishop, `evaluate` returns 0, whatever the side to move, the squares of the
pieces, the castling rights and the halfmove clock. -/
theorem C26_insufficient_material (E : EvalEnv) (T : Lookups) (b : Board)
    (hk : b.kingSq WHITE < 64 ∧ b.kingSq BLACK < 64) (hm : Spec.drawnMaterial b) :
    ThisBot.evaluate E T b = some 0 := by
  unfold ThisBot.evaluate
  rw [if_pos hk, if_pos (ThisBot.insufficient_of_drawn hm)]

end chess

/-!
# The evaluation: game phase, fifty-move scaling, bad bishops
-/

namespace chess

namespace ThisBot

end ThisBot

end chess

/-!
# The evaluation: claims on the fifty-move scaling and the bad-bishop penalty
-/

namespace chess

namespace ThisBot

theorem light_eq (sq : Nat) : light sq = decide ((fileOf sq + rankOf sq) % 2 = 0) := by
  unfold light
  rw [Nat.and_one_is_mod]
  by_cases h : (fileOf sq + rankOf sq) % 2 = 0
  · rw [h]; rfl
  · rw [decide_eq_false h]
    have : (fileOf sq + rankOf sq) % 2 = 1 := by omega
    rw [this]; rfl

theorem oddSquares_testBit : ∀ x, x < 64 →
    (0x55AA55AA55AA55AA : Nat).testBit x = decide ((fileOf x + rankOf x) % 2 = 1) := by
  decide

theorem evenSquares_testBit : ∀ x, x < 64 →
    (0xAA55AA55AA55AA55 : Nat).testBit x = decide ((fileOf x + rankOf x) % 2 = 0) := by
  decide

theorem centralSquares_testBit : ∀ x, x < 64 →
    centralSquares.testBit x =
      decide (2 ≤ fileOf x ∧ fileOf x ≤ 5 ∧ 2 ≤ rankOf x ∧ rankOf x ≤ 5) := by
  decide

/-- The mask `sameColorSquares` of a bishop on `sq` holds the squares whose parity of
file + rank differs from that of `sq`. -/
theorem sameColorSquares_testBit (sq x : Nat) (hx : x < 64) :
    (sameColorSquares sq).testBit x =
      decide ((fileOf x + rankOf x) % 2 ≠ (fileOf sq + rankOf sq) % 2) := by
  unfold sameColorSquares
  rw [light_eq]
  by_cases h : (fileOf sq + rankOf sq) % 2 = 0
  · rw [if_pos (decide_eq_true h), oddSquares_testBit x hx, h]
    apply decide_eq_decide.2
    omega
  · rw [if_neg (by rw [decide_eq_true_eq]; exact h), evenSquares_testBit x hx]
    apply decide_eq_decide.2
    omega

theorem fiftyScaled_early (h0 : Nat) (s : Int) (h : h0 ≤ 80) : fiftyScaled h0 s = s := by
  unfold fiftyScaled
  simp only []
  rw [if_neg (by omega)]

theorem withMopUp_zero (b : Board) (phase : Int) :
    withMopUp b phase 0 = if phase < 6 then -mopUp b false else 0 := by
  unfold withMopUp
  by_cases h : phase < 6
  · rw [if_pos h, if_pos h]
    have d : decide ((0 : Int) > 0) = false := by decide
    show (if decide ((0 : Int) > 0) = true then 0 + mopUp b (decide ((0 : Int) > 0))
      else 0 - mopUp b (decide ((0 : Int) > 0))) = -mopUp b false
    rw [d, if_neg Bool.false_ne_true, Int.zero_sub]
  · rw [if_neg h, if_neg h]

end ThisBot

/-- C26, an instance: king against king, both kings on the board. -/
theorem C26_insufficient_material_witness :
    (drawnRoot.kingSq WHITE < 64 ∧ drawnRoot.kingSq BLACK < 64) ∧ Spec.drawnMaterial drawnRoot ∧
      ∀ (E : EvalEnv) (T : Lookups), ThisBot.evaluate E T drawnRoot = some 0 :=
  ⟨by decide!, by unfold Spec.drawnMaterial; decide!,
    fun E T => C26_insufficient_material E T drawnRoot (by decide!)
      (by unfold Spec.drawnMaterial; decide!)⟩

/-- C29: the pawns counted toward the bad-bishop penalty of a bishop on `sq` are the pawns
of its side on squares whose parity of file + rank DIFFERS from that of `sq` (the squares of
the other colour), weighted 12 in the region c3..f6 and 4 elsewhere. A bishop on c1 is charged
nothing for a pawn on d2, a square of its own colour, and 4 for a pawn on e2. -/
theorem C29_bad_bishop_other_colour (friendlyPawns : Bitboard) (sq : Nat) :
    (∀ x, x < 64 →
      ((friendlyPawns &&& ThisBot.sameColorSquares sq &&& ThisBot.centralSquares).testBit x = true ↔
        friendlyPawns.testBit x = true ∧
          (fileOf x + rankOf x) % 2 ≠ (fileOf sq + rankOf sq) % 2 ∧
          (2 ≤ fileOf x ∧ fileOf x ≤ 5 ∧ 2 ≤ rankOf x ∧ rankOf x ≤ 5))) ∧
    (∀ x, x < 64 →
      ((friendlyPawns &&& ThisBot.sameColorSquares sq &&&
          bnot ThisBot.centralSquares).testBit x = true ↔
        friendlyPawns.testBit x = true ∧
          (fileOf x + rankOf x) % 2 ≠ (fileOf sq + rankOf sq) % 2 ∧
          ¬ (2 ≤ fileOf x ∧ fileOf x ≤ 5 ∧ 2 ≤ rankOf x ∧ rankOf x ≤ 5))) ∧
    ThisBot.badBishopPenalty friendlyPawns sq =
      (popCount (friendlyPawns &&& ThisBot.sameColorSquares sq &&& ThisBot.centralSquares) : Int)
          * 12 +
        (popCount (friendlyPawns &&& ThisBot.sameColorSquares sq &&&
          bnot ThisBot.centralSquares) : Int) * 4 ∧
    ThisBot.badBishopPenalty (squareBB 11) 2 = 0 ∧
    ThisBot.badBishopPenalty (squareBB 12) 2 = 4 := by
  refine ⟨?_, ?_, rfl, by decide, by decide⟩
  · intro x hx
    rw [Nat.testBit_and, Nat.testBit_and, ThisBot.sameColorSquares_testBit sq x hx,
      ThisBot.centralSquares_testBit x hx]
    simp only [Bool.and_eq_true, decide_eq_true_eq, and_assoc]
  · intro x hx
    rw [Nat.testBit_and, Nat.testBit_and, ThisBot.sameColorSquares_testBit sq x hx,
      testBit_bnot, ThisBot.centralSquares_testBit x hx]
    simp only [Bool.and_eq_true, decide_eq_true_eq, and_assoc, Bool.not_eq_true',
      decide_eq_false_iff_not, hx, true_and]

end chess

/-!
# The search below the draw check (`ThisBot::search`, `ThisBot::quiescence`, `src/search.cpp`)

The transposition table, the probe, the prunings, the warm-up search at PV nodes, the
nodes without a legal move, the nodes with a single legal move and the store are spelled
out. The move loops of `search` and of `quiescence` are parameters.
-/

namespace chess

/-- The struct `TTEntry`. -/
structure TTEntry where
  key : Nat
  depth : Int
  score : Int
  move : Move
  flag : Nat
deriving DecidableEq

/-- The default member values of `TTEntry`: an empty slot. -/
def TTEntry.empty : TTEntry := ⟨0, -1, 0, Move.null, 0⟩

/-- The members `tt_` (with `tt_.size()`), `killers_` and `counterMoves_` of `class ThisBot`. -/
structure SearchTables where
  tt_ : Nat → TTEntry
  ttSize : Nat
  killers_ : Nat → Nat → Move
  counterMoves_ : Nat → Nat → Move

/-- The engine with its tables. -/
abbrev Engine := ThisBot SearchTables

/-- What the move loop of `search` leaves behind: whether it left through
`if (timeUp_) return 0;`, and otherwise `bestScore` and `bestMove`. -/
structure LoopResult where
  aborted : Bool
  bestScore : Int
  bestMove : Move
  engine : Engine
  board : Board

/-- What the model of the search leaves open: the conversions of the evaluation parameters,
the readings of the clock, the loop of `quiescence` over the captures and promotions, and the
loop of `search` over two or more moves (with the scoring and the ordering of the moves). -/
structure NodeEnv where
  eval : EvalEnv
  elapsed : Int → Int
  captureLoop : Engine → Board → Int → Int → Int → Int → Bool → List Move →
    Option (Int × Engine × Board)
  moveLoop : Engine → Board → Int → Int → Int → Int → Move → Move → Bool → Bool → Int →
    List Move → Option LoopResult

namespace ThisBot

/-- The function `ThisBot::hash`, over the key tables `ZP`, `ZCastle`, `ZEp`, `ZSide` of the
engine. -/
def hash (K : ZobristKeys) (board : Board) : Nat :=
  let h := sq64.foldl (fun h sq =>
    if board.mailbox_ sq ≠ 0xFF then
      h ^^^ K.PIECE ((board.mailbox_ sq >>> 3) &&& 1) (board.mailbox_ sq &&& 7) sq
    else h) 0
  let h := h ^^^ K.CASTLING board.castling_
  let h := if board.epSquare_ ≥ 0 then h ^^^ K.EP (board.epSquare_.toNat &&& 7) else h
  if board.sideToMove_ = BLACK then h ^^^ K.SIDE else h

/-- The slot of the transposition table for `key`: `key & (tt_.size() - 1)`. -/
def slotOf (t : SearchTables) (key : Nat) : Nat := key &&& (t.ttSize - 1)

/-- The store into the transposition table at the end of `search`:
`if (tt.key != key || depth >= tt.depth) { ... }`. -/
def ttStore (t : SearchTables) (key : Nat) (depth bestScore ply : Int) (bestMove : Move)
    (origAlpha beta : Int) : SearchTables :=
  let tt := t.tt_ (slotOf t key)
  if tt.key ≠ key ∨ depth ≥ tt.depth then
    let entry : TTEntry :=
      ⟨key, depth, scoreToTT bestScore ply, bestMove,
        if bestScore ≤ origAlpha then 3 else if bestScore ≥ beta then 2 else 1⟩
    { t with tt_ := setAt t.tt_ (slotOf t key) entry }
  else t

/-- The test `(++nodes_ & 2047) == 0` with the three conditions under it, on the engine
after the increment: whether `search` sets `timeUp_` and returns 0. -/
def aborts (X : NodeEnv) (e : Engine) : Bool :=
  decide (e.nodes_.toNat &&& 2047 = 0) &&
    (e.stopFlag_ || decide (e.timeHardMs_ > 0 ∧ X.elapsed e.nodes_ ≥ e.timeHardMs_) ||
      decide (e.maxNodes_ > 0 ∧ e.nodes_.toNat ≥ e.maxNodes_))

/-- The engine after `if (ply > selDepth_) selDepth_ = ply;` and `++nodes_`. -/
def enter (e : Engine) (ply : Int) : Engine :=
  let e : Engine := if ply > e.selDepth_ then { e with selDepth_ := ply } else e
  { e with nodes_ := e.nodes_ + 1 }

/-- The test of `quiescence` and of the move loops for a capture or a promotion. -/
def isNoisy (board : Board) (m : Move) : Bool :=
  let isCapture := !board.isEmpty m.dst || m.type == MT_EN_PASSANT
  let isPromo := m.type == MT_PROMOTION
  isCapture || isPromo

/-- The function `ThisBot::quiescence`; its loop over the captures and promotions is
`X.captureLoop`. -/
def quiescence (X : NodeEnv) (T : Lookups) (Z : ZobristKeys) (e : Engine) (board : Board)
    (alpha beta qDepth : Int) : Option (Int × Engine × Board) :=
  if e.stopFlag_ = true then some (0, { e with timeUp_ := true }, board)
  else if e.timeUp_ = true ∨ qDepth > 10 then
    (evaluate X.eval T board).map (fun v => (v, e, board))
  else
    let lowMaterial := isLowMaterialEnding board
    match evaluate X.eval T board with
    | none => none
    | some standPat =>
      if standPat ≥ beta then some (beta, e, board)
      else
        let alpha := if alpha < standPat then standPat else alpha
        match board.generateLegalMoves T Z with
        | none => none
        | some (moves, board) =>
          let scoredMoves := moves.filter (isNoisy board)
          if scoredMoves.isEmpty = true then some (alpha, e, board)
          else X.captureLoop e board alpha beta qDepth standPat lowMaterial scoredMoves

/-- The updates of `history_`, `killers_` and `counterMoves_` after a quiet move `m` failed
high at a node with a single legal move. -/
def quietCutoff (e : Engine) (m prevMove : Move) (depth ply : Int) : Engine :=
  let e : Engine :=
    { e with history_ := setAt2 e.history_ m.src m.dst (e.history_ m.src m.dst + depth * depth) }
  let e : Engine :=
    if ply < 128 ∧ ¬ (m = e.rest_.killers_ ply.toNat 0) then
      let k := setAt2 e.rest_.killers_ ply.toNat 1 (e.rest_.killers_ ply.toNat 0)
      { e with rest_ := { e.rest_ with killers_ := setAt2 k ply.toNat 0 m } }
    else e
  if prevMove.isNull = false then
    { e with rest_ := { e.rest_ with
        counterMoves_ := setAt2 e.rest_.counterMoves_ prevMove.src prevMove.dst m } }
  else e

/-- The part of `search` for a node with exactly one legal move `m`; `rec` is `search`. -/
def singleMove (Z : ZobristKeys)
    (rec : Engine → Board → Int → Int → Int → Int → Move → Option (Int × Engine × Board))
    (e : Engine) (board : Board) (depth alpha beta ply : Int) (prevMove : Move) (key : Nat)
    (m : Move) : Option (Int × Engine × Board) :=
  let isRoot := decide (ply = 0)
  let origAlpha := alpha
  let isQuiet := board.isEmpty m.dst && m.type != MT_PROMOTION && m.type != MT_EN_PASSANT
  let u := board.makeMove Z m
  match rec e u.1 (depth - 1) (-beta) (-alpha) (ply + 1) m with
  | none => none
  | some (s, e, board) =>
    let score := -s
    let board := board.unmakeMove m u.2
    if e.timeUp_ = true then some (0, e, board)
    else
      let bestScore := score
      let bestMove := m
      let e : Engine :=
        if score > alpha then
          let e : Engine := if isRoot = true then { e with bestRoot_ := m } else e
          if score ≥ beta ∧ isQuiet = true then quietCutoff e m prevMove depth ply else e
        else e
      some (bestScore,
        { e with rest_ := ttStore e.rest_ key depth bestScore ply bestMove origAlpha beta },
        board)

/-- The part of `search` from the move generation on; `ttMove` is the move of the probe,
after the warm-up search. -/
def searchMoves (X : NodeEnv) (T : Lookups) (Z : ZobristKeys)
    (rec : Engine → Board → Int → Int → Int → Int → Move → Option (Int × Engine × Board))
    (e : Engine) (board : Board) (depth alpha beta ply : Int) (prevMove : Move) (key : Nat)
    (inCheck lateEg : Bool) (staticEval : Int) (ttMove : Move) :
    Option (Int × Engine × Board) :=
  match board.generateLegalMoves T Z with
  | none => none
  | some (moves, board) =>
    if moves.length = 0 then
      if inCheck = false then some (0, e, board) else some (-MATE + ply, e, board)
    else
      let ttMove := if ttMove.isNull = false ∧ ¬ (ttMove ∈ moves) then Move.null else ttMove
      if moves.length = 1 then
        singleMove Z rec e board depth alpha beta ply prevMove key (moves.getD 0 Move.null)
      else
        match X.moveLoop e board depth alpha beta ply prevMove ttMove inCheck lateEg staticEval
            moves with
        | none => none
        | some r =>
          if r.aborted = true then some (0, r.engine, r.board)
          else
            some (r.bestScore,
              { r.engine with
                rest_ := ttStore r.engine.rest_ key depth r.bestScore ply r.bestMove alpha beta },
              r.board)

/-- The part of `search` from the warm-up search at a PV node on. -/
def searchWarm (X : NodeEnv) (T : Lookups) (Z : ZobristKeys)
    (rec : Engine → Board → Int → Int → Int → Int → Move → Option (Int × Engine × Board))
    (e : Engine) (board : Board) (depth alpha beta ply : Int) (prevMove : Move) (key : Nat)
    (inCheck lateEg : Bool) (staticEval : Int) (ttMove : Move) :
    Option (Int × Engine × Board) :=
  let pvNode := decide (beta - alpha > 1)
  if depth ≥ 6 ∧ pvNode = true ∧ ttMove.isNull = true then
    match rec e board (depth - 3) alpha beta ply prevMove with
    | none => none
    | some (_, e, board) =>
      let tt := e.rest_.tt_ (slotOf e.rest_ key)
      let ttMove := if tt.key = key then tt.move else ttMove
      searchMoves X T Z rec e board depth alpha beta ply prevMove key inCheck lateEg staticEval
        ttMove
  else
    searchMoves X T Z rec e board depth alpha beta ply prevMove key inCheck lateEg staticEval
      ttMove

/-- The part of `search` from the static evaluation on: the static pruning, the null-move
pruning, and the rest. -/
def searchPrune (X : NodeEnv) (T : Lookups) (Z : ZobristKeys)
    (rec : Engine → Board → Int → Int → Int → Int → Move → Option (Int × Engine × Board))
    (e : Engine) (board : Board) (depth alpha beta ply : Int) (prevMove : Move) (key : Nat)
    (inCheck : Bool) (ttMove : Move) : Option (Int × Engine × Board) :=
  let pvNode := decide (beta - alpha > 1)
  match (if inCheck = true then some (-MATE) else evaluate X.eval T board) with
  | none => none
  | some staticEval =>
    let lateEg := isLowMaterialEnding board
    if pvNode = false ∧ inCheck = false ∧ depth ≤ 6 ∧ staticEval - 90 * depth ≥ beta then
      some (staticEval, e, board)
    else if inCheck = false ∧ pvNode = false ∧ depth ≥ 3 ∧ staticEval ≥ beta ∧
        hasNonPawnMaterial board = true then
      let nu := board.makeNullMove Z
      let R := 3 + depth.tdiv 4
      match rec e nu.1 (depth - R) (-beta) (-beta + 1) (ply + 1) Move.null with
      | none => none
      | some (s, e, board) =>
        let score := -s
        let board := board.unmakeNullMove Z nu.2
        if e.timeUp_ = true then some (0, e, board)
        else if score ≥ beta then some (score, e, board)
        else
          searchWarm X T Z rec e board depth alpha beta ply prevMove key inCheck lateEg
            staticEval ttMove
    else
      searchWarm X T Z rec e board depth alpha beta ply prevMove key inCheck lateEg staticEval
        ttMove

/-- The part of `search` after the draw check: the check extension, the hand-over to
`quiescence`, the probe of the transposition table, and the rest. -/
def searchProbe (X : NodeEnv) (T : Lookups) (Z K : ZobristKeys)
    (rec : Engine → Board → Int → Int → Int → Int → Move → Option (Int × Engine × Board))
    (e : Engine) (board : Board) (depth alpha beta ply : Int) (prevMove : Move) :
    Option (Int × Engine × Board) :=
  let isRoot := decide (ply = 0)
  let pvNode := decide (beta - alpha > 1)
  let inCheck := board.inCheck T
  let depth := if inCheck = true then depth + 1 else depth
  if depth ≤ 0 then quiescence X T Z e board alpha beta 0
  else
    let key := hash K board
    let tt := e.rest_.tt_ (slotOf e.rest_ key)
    let ttMove := if tt.key = key then tt.move else Move.null
    let ttScore := scoreFromTT tt.score ply
    if tt.key = key ∧ isRoot = false ∧ tt.depth ≥ depth ∧ tt.flag = 1 then
      some (ttScore, e, board)
    else if tt.key = key ∧ isRoot = false ∧ tt.depth ≥ depth ∧ pvNode = false ∧
        tt.flag = 2 ∧ ttScore ≥ beta then
      some (ttScore, e, board)
    else if tt.key = key ∧ isRoot = false ∧ tt.depth ≥ depth ∧ pvNode = false ∧
        tt.flag = 3 ∧ ttScore ≤ alpha then
      some (ttScore, e, board)
    else searchPrune X T Z rec e board depth alpha beta ply prevMove key inCheck ttMove

/-- The function `ThisBot::search`, with `fuel` bounding the nesting of its calls; `none`
where the fuel runs out, or the move generation or the evaluation is undefined. -/
def searchNode (X : NodeEnv) (T : Lookups) (Z K : ZobristKeys) :
    Nat → Engine → Board → Int → Int → Int → Int → Move → Option (Int × Engine × Board)
  | 0, _, _, _, _, _, _, _ => none
  | fuel + 1, e, board, depth, alpha, beta, ply, prevMove =>
    if ply ≥ 100 then (evaluate X.eval T board).map (fun v => (v, e, board))
    else if aborts X (enter e ply) = true then
      some (0, { enter e ply with timeUp_ := true }, board)
    else if board.isDraw 0 = true then some (0, enter e ply, board)
    else
      searchProbe X T Z K (searchNode X T Z K fuel) (enter e ply) board depth alpha beta ply
        prevMove

end ThisBot

end chess

/-!
# Nodes without a legal move
-/

namespace chess

namespace ThisBot

/-- No entry is stored under `key`: its slot holds another key, or is empty. -/
def noEntry (t : SearchTables) (key : Nat) : Prop :=
  (t.tt_ (slotOf t key)).key ≠ key ∨ t.tt_ (slotOf t key) = TTEntry.empty

/-- The value of a node without a legal move. -/
def deadScore (inCheck : Bool) (ply : Int) : Int := if inCheck = false then 0 else -MATE + ply

theorem enter_rest (e : Engine) (ply : Int) : (enter e ply).rest_ = e.rest_ := by
  unfold enter
  by_cases h : ply > e.selDepth_
  · simp only [if_pos h]
  · simp only [if_neg h]

section

variable (X : NodeEnv) (T : Lookups) (Z K : ZobristKeys)
variable (rec : Engine → Board → Int → Int → Int → Int → Move → Option (Int × Engine × Board))

theorem searchMoves_dead (e : Engine) (b : Board) (depth alpha beta ply : Int)
    (prevMove : Move) (key : Nat) (inCheck lateEg : Bool) (staticEval : Int) (ttMove : Move)
    (hg : b.generateLegalMoves T Z = some ([], b)) :
    searchMoves X T Z rec e b depth alpha beta ply prevMove key inCheck lateEg staticEval
      ttMove = some (deadScore inCheck ply, e, b) := by
  unfold searchMoves deadScore
  rw [hg]
  simp only [List.length_nil, if_true]
  by_cases h : inCheck = false
  · rw [if_pos h, if_pos h]
  · rw [if_neg h, if_neg h]

theorem searchWarm_dead (e : Engine) (b : Board) (depth alpha beta ply : Int)
    (prevMove : Move) (key : Nat) (inCheck lateEg : Bool) (staticEval : Int) (ttMove : Move)
    (hg : b.generateLegalMoves T Z = some ([], b))
    (hrec : depth ≥ 6 → beta - alpha > 1 →
      ∃ r e2, rec e b (depth - 3) alpha beta ply prevMove = some (r, e2, b) ∧
        e2.rest_ = e.rest_) :
    ∃ e2, searchWarm X T Z rec e b depth alpha beta ply prevMove key inCheck lateEg staticEval
      ttMove = some (deadScore inCheck ply, e2, b) ∧ e2.rest_ = e.rest_ := by
  unfold searchWarm
  simp only []
  by_cases hw : depth ≥ 6 ∧ decide (beta - alpha > 1) = true ∧ ttMove.isNull = true
  · rw [if_pos hw]
    obtain ⟨r, e2, h1, h2⟩ := hrec hw.1 (of_decide_eq_true hw.2.1)
    rw [h1]
    simp only []
    rw [searchMoves_dead X T Z rec e2 b depth alpha beta ply prevMove key inCheck lateEg
      staticEval _ hg]
    exact ⟨e2, rfl, h2⟩
  · rw [if_neg hw, searchMoves_dead X T Z rec e b depth alpha beta ply prevMove key inCheck
      lateEg staticEval _ hg]
    exact ⟨e, rfl, rfl⟩

/-- From the check extension on, at a node in check without a legal move. -/
theorem searchProbe_mated (e : Engine) (b : Board) (depth alpha beta ply : Int)
    (prevMove : Move) (hchk : b.inCheck T = true) (hd : 0 ≤ depth)
    (hg : b.generateLegalMoves T Z = some ([], b)) (ht : noEntry e.rest_ (hash K b))
    (hrec : depth + 1 ≥ 6 → beta - alpha > 1 →
      ∃ r e2, rec e b (depth + 1 - 3) alpha beta ply prevMove = some (r, e2, b) ∧
        e2.rest_ = e.rest_) :
    ∃ e2, searchProbe X T Z K rec e b depth alpha beta ply prevMove =
      some (-MATE + ply, e2, b) ∧ e2.rest_ = e.rest_ := by
  unfold searchProbe
  simp only [hchk, if_true]
  rw [if_neg (by omega)]
  have hcut : ¬ ((e.rest_.tt_ (slotOf e.rest_ (hash K b))).key = hash K b ∧
      (e.rest_.tt_ (slotOf e.rest_ (hash K b))).depth ≥ depth + 1) := by
    rintro ⟨h1, h2⟩
    rcases ht with h | h
    · exact h h1
    · rw [h] at h2
      have : TTEntry.empty.depth = -1 := rfl
      omega
  rw [if_neg (fun h => hcut ⟨h.1, h.2.2.1⟩), if_neg (fun h => hcut ⟨h.1, h.2.2.1⟩),
    if_neg (fun h => hcut ⟨h.1, h.2.2.1⟩)]
  unfold searchPrune
  simp only [if_true]
  rw [if_neg (fun h => Bool.noConfusion h.2.1), if_neg (fun h => Bool.noConfusion h.1)]
  have h := searchWarm_dead X T Z rec e b (depth + 1) alpha beta ply prevMove (hash K b) true
    (isLowMaterialEnding b) (-MATE)
    (if (e.rest_.tt_ (slotOf e.rest_ (hash K b))).key = hash K b then
      (e.rest_.tt_ (slotOf e.rest_ (hash K b))).move else Move.null) hg hrec
  exact h

/-- From the check extension on, at a node not in check without a legal move, when the
depth is positive and the window is a PV window or the static evaluation is below `beta`. -/
theorem searchProbe_stalemated (e : Engine) (b : Board) (depth alpha beta ply v : Int)
    (prevMove : Move) (hchk : b.inCheck T = false) (hd : 1 ≤ depth)
    (hv : evaluate X.eval T b = some v) (hw : beta - alpha > 1 ∨ v < beta)
    (hg : b.generateLegalMoves T Z = some ([], b)) (ht : noEntry e.rest_ (hash K b))
    (hrec : depth ≥ 6 → beta - alpha > 1 →
      ∃ r e2, rec e b (depth - 3) alpha beta ply prevMove = some (r, e2, b) ∧
        e2.rest_ = e.rest_) :
    ∃ e2, searchProbe X T Z K rec e b depth alpha beta ply prevMove = some (0, e2, b) ∧
      e2.rest_ = e.rest_ := by
  unfold searchProbe
  simp only [hchk, Bool.false_eq_true, if_false]
  rw [if_neg (by omega)]
  have hcut : ¬ ((e.rest_.tt_ (slotOf e.rest_ (hash K b))).key = hash K b ∧
      (e.rest_.tt_ (slotOf e.rest_ (hash K b))).depth ≥ depth) := by
    rintro ⟨h1, h2⟩
    rcases ht with h | h
    · exact h h1
    · rw [h] at h2
      have : TTEntry.empty.depth = -1 := rfl
      omega
  rw [if_neg (fun h => hcut ⟨h.1, h.2.2.1⟩), if_neg (fun h => hcut ⟨h.1, h.2.2.1⟩),
    if_neg (fun h => hcut ⟨h.1, h.2.2.1⟩)]
  unfold searchPrune
  simp only [Bool.false_eq_true, if_false, hv]
  have hnb : ¬ (beta - alpha > 1) → ¬ (v ≥ beta) := fun h1 h2 => by
    rcases hw with h | h
    · exact h1 h
    · omega
  have hp1 : ¬ (decide (beta - alpha > 1) = false ∧ True ∧ depth ≤ 6 ∧ v - 90 * depth ≥ beta) := by
    rintro ⟨h1, _, _, h4⟩
    exact hnb (of_decide_eq_false h1) (by omega)
  have hp2 : ¬ (True ∧ decide (beta - alpha > 1) = false ∧ depth ≥ 3 ∧ v ≥ beta ∧
      hasNonPawnMaterial b = true) := by
    rintro ⟨_, h1, _, h4, _⟩
    exact hnb (of_decide_eq_false h1) h4
  rw [if_neg hp1, if_neg hp2]
  have h := searchWarm_dead X T Z rec e b depth alpha beta ply prevMove (hash K b) false
    (isLowMaterialEnding b) v
    (if (e.rest_.tt_ (slotOf e.rest_ (hash K b))).key = hash K b then
      (e.rest_.tt_ (slotOf e.rest_ (hash K b))).move else Move.null) hg hrec
  exact h

end

end ThisBot

end chess

/-!
# Checkmate and stalemate nodes; the replacement policy of the transposition table
-/

namespace chess

/-- The engine as the constructor `ThisBot::ThisBot` leaves it. -/
def Engine.init : Engine where
  history_ := fun _ _ => 0
  bestRoot_ := Move.null
  prevRoot_ := Move.null
  prevScore_ := 0
  nodes_ := 0
  selDepth_ := 0
  timeUp_ := false
  stopFlag_ := false
  timeSoftMs_ := 200
  timeHardMs_ := 200
  maxNodes_ := 0
  rest_ :=
    { tt_ := fun _ => TTEntry.empty
      ttSize := 0x800000
      killers_ := fun _ _ => Move.null
      counterMoves_ := fun _ _ => Move.null }

/-- Black is mated on the back rank. -/
def backRankMate : Board :=
  (Board.setFEN Zobrist.init (Board.codes "R5k1/5ppp/8/8/8/8/8/K7 b - - 0 1")).2

/-- Black is stalemated. -/
def queenStalemate : Board :=
  (Board.setFEN Zobrist.init (Board.codes "7k/5Q2/6K1/8/8/8/8/8 b - - 0 1")).2

namespace ThisBot

theorem enter_stopFlag (e : Engine) (ply : Int) : (enter e ply).stopFlag_ = e.stopFlag_ := by
  unfold enter
  by_cases h : ply > e.selDepth_
  · simp only [if_pos h]
  · simp only [if_neg h]

theorem enter_timeUp (e : Engine) (ply : Int) : (enter e ply).timeUp_ = e.timeUp_ := by
  unfold enter
  by_cases h : ply > e.selDepth_
  · simp only [if_pos h]
  · simp only [if_neg h]

section

variable (X : NodeEnv) (T : Lookups) (Z K : ZobristKeys)

/-- A node in check without a legal move: `search` returns, leaves the tables as they
were, and returns `-MATE + ply` unless it aborts at its entry. -/
theorem searchNode_mated (b : Board) (ply : Int) (hply : ply < 100)
    (hchk : b.inCheck T = true) (hdraw : b.isDraw 0 = false)
    (hg : b.generateLegalMoves T Z = some ([], b)) :
    ∀ (fuel : Nat) (e : Engine) (depth alpha beta : Int) (prevMove : Move),
      0 ≤ depth → depth.toNat < fuel → noEntry e.rest_ (hash K b) →
      ∃ r e2, searchNode X T Z K fuel e b depth alpha beta ply prevMove = some (r, e2, b) ∧
        e2.rest_ = e.rest_ ∧ (aborts X (enter e ply) = false → r = -MATE + ply) := by
  intro fuel
  induction fuel with
  | zero => intro e depth alpha beta prevMove _ h; omega
  | succ n ih =>
    intro e depth alpha beta prevMove hd hf ht
    rw [searchNode, if_neg (by omega)]
    by_cases ha : aborts X (enter e ply) = true
    · rw [if_pos ha]
      refine ⟨_, _, rfl, enter_rest e ply, fun h => ?_⟩
      rw [ha] at h
      exact Bool.noConfusion h
    · rw [if_neg ha, hdraw, if_neg (by decide)]
      have ht2 : noEntry (enter e ply).rest_ (hash K b) := by rw [enter_rest]; exact ht
      obtain ⟨e2, h1, h2⟩ := searchProbe_mated X T Z K (searchNode X T Z K n) (enter e ply) b
        depth alpha beta ply prevMove hchk hd hg ht2
        (fun h6 _ => by
          obtain ⟨r, e3, h3, h4, _⟩ := ih (enter e ply) (depth + 1 - 3) alpha beta prevMove
            (by omega) (by omega) ht2
          exact ⟨r, e3, h3, h4⟩)
      exact ⟨_, e2, h1, by rw [h2, enter_rest], fun _ => rfl⟩

/-- A node not in check without a legal move, at positive depth, with a PV window or a
static evaluation below `beta`: `search` returns 0 and leaves the tables as they were. -/
theorem searchNode_stalemated (b : Board) (ply v : Int) (hply : ply < 100)
    (hchk : b.inCheck T = false) (hv : evaluate X.eval T b = some v)
    (hg : b.generateLegalMoves T Z = some ([], b)) :
    ∀ (fuel : Nat) (e : Engine) (depth alpha beta : Int) (prevMove : Move),
      1 ≤ depth → depth.toNat < fuel → (beta - alpha > 1 ∨ v < beta) →
      noEntry e.rest_ (hash K b) →
      ∃ e2, searchNode X T Z K fuel e b depth alpha beta ply prevMove = some (0, e2, b) ∧
        e2.rest_ = e.rest_ := by
  intro fuel
  induction fuel with
  | zero => intro e depth alpha beta prevMove _ h; omega
  | succ n ih =>
    intro e depth alpha beta prevMove hd hf hw ht
    rw [searchNode, if_neg (by omega)]
    by_cases ha : aborts X (enter e ply) = true
    · rw [if_pos ha]
      exact ⟨_, rfl, enter_rest e ply⟩
    · rw [if_neg ha]
      by_cases hdraw : b.isDraw 0 = true
      · rw [if_pos hdraw]
        exact ⟨_, rfl, enter_rest e ply⟩
      · rw [if_neg hdraw]
        have ht2 : noEntry (enter e ply).rest_ (hash K b) := by rw [enter_rest]; exact ht
        obtain ⟨e2, h1, h2⟩ := searchProbe_stalemated X T Z K (searchNode X T Z K n)
          (enter e ply) b depth alpha beta ply v prevMove hchk hd hv hw hg ht2
          (fun h6 _ => by
            obtain ⟨e3, h3, h4⟩ := ih (enter e ply) (depth - 3) alpha beta prevMove
              (by omega) (by omega) hw ht2
            exact ⟨0, e3, h3, h4⟩)
        exact ⟨e2, h1, by rw [h2, enter_rest]⟩

/-- A node not in check without a legal move, at depth 0 or below: `search` returns what
`quiescence` returns, `beta` or the larger of `alpha` and the evaluation. -/
theorem searchNode_stalemated_leaf (b : Board) (ply v : Int) (hply : ply < 100)
    (hchk : b.inCheck T = false) (hv : evaluate X.eval T b = some v)
    (hg : b.generateLegalMoves T Z = some ([], b)) (fuel : Nat) (e : Engine)
    (depth alpha beta : Int) (prevMove : Move) (hd : depth ≤ 0)
    (ha : aborts X (enter e ply) = false) (hdraw : b.isDraw 0 = false)
    (hs : e.stopFlag_ = false) (hu : e.timeUp_ = false) :
    searchNode X T Z K (fuel + 1) e b depth alpha beta ply prevMove =
      some (if v ≥ beta then beta else max alpha v, enter e ply, b) := by
  rw [searchNode, if_neg (by omega), ha, if_neg (by decide), hdraw, if_neg (by decide)]
  unfold searchProbe
  simp only [hchk, Bool.false_eq_true, if_false]
  rw [if_pos hd]
  unfold quiescence
  rw [enter_stopFlag, enter_timeUp, hs, hu, if_neg (by decide), if_neg (by decide), hv]
  simp only []
  by_cases hb : v ≥ beta
  · rw [if_pos hb, if_pos hb]
  · rw [if_neg hb, if_neg hb, hg]
    simp only [List.filter_nil, List.isEmpty_nil, if_true]
    by_cases h2 : alpha < v
    · rw [if_pos h2, max_eq_right (le_of_lt h2)]
    · rw [if_neg h2, max_eq_left (by omega)]

end

theorem evaluate_some (E : EvalEnv) (T : Lookups) (b : Board)
    (hk : b.kingSq WHITE < 64 ∧ b.kingSq BLACK < 64) : ∃ v, evaluate E T b = some v := by
  rw [evaluate_eq, if_pos hk]
  exact ⟨_, rfl⟩

theorem aborts_init (X : NodeEnv) (ply : Int) : aborts X (enter Engine.init ply) = false := by
  unfold aborts enter
  by_cases h : ply > Engine.init.selDepth_
  · simp only [if_pos h]
    rfl
  · simp only [if_neg h]
    rfl

theorem backRankMate_walk :
    backRankMate.consistent Tables.walk = true ∧
      backRankMate.inCheck Tables.walk = true ∧
      (backRankMate.generateLegalMoves Tables.walk Zobrist.init).map (fun r => r.1) = some [] ∧
      backRankMate.halfmove_ < 100 ∧ backRankMate.isRepetition 0 = false :=
  ⟨by decide!, by decide!, by decide!, by decide!, by decide!⟩

theorem queenStalemate_walk :
    queenStalemate.consistent Tables.walk = true ∧
      queenStalemate.inCheck Tables.walk = false ∧
      (queenStalemate.generateLegalMoves Tables.walk Zobrist.init).map (fun r => r.1)
        = some [] ∧
      queenStalemate.isDraw 0 = false :=
  ⟨by decide!, by decide!, by decide!, by decide!⟩

end ThisBot

end chess

/-!
# Claims on the search: checkmate, stalemate, the replacement policy
-/

namespace chess

/-- A table of 8 slots whose slot 5 holds an entry for the key 5 at depth 10. -/
def crowdedTable : SearchTables where
  tt_ := fun i => if i = 5 then ⟨5, 10, 0, Move.null, 1⟩ else TTEntry.empty
  ttSize := 8
  killers_ := fun _ _ => Move.null
  counterMoves_ := fun _ _ => Move.null

namespace ThisBot

theorem isDraw_false {b : Board} (hh : b.halfmove_ < 100) (hrep : b.isRepetition 0 = false) :
    b.isDraw 0 = false := by
  unfold Board.isDraw
  rw [hrep, Bool.or_false, decide_eq_false (by omega)]

theorem kings_of_consistent {b : Board} (hc : b.consistent Tables.init = true) :
    b.kingSq WHITE < 64 ∧ b.kingSq BLACK < 64 :=
  ⟨(Board.Pos.of_consistent Tables.init_good hc).inv.kingLt 0 (by decide),
    (Board.Pos.of_consistent Tables.init_good hc).inv.kingLt 1 (by decide)⟩

theorem ttStore_slot (t : SearchTables) (key : Nat) (depth bestScore ply : Int)
    (bestMove : Move) (origAlpha beta : Int)
    (h : (t.tt_ (slotOf t key)).key ≠ key ∨ depth ≥ (t.tt_ (slotOf t key)).depth) :
    (ttStore t key depth bestScore ply bestMove origAlpha beta).tt_ (slotOf t key) =
      ⟨key, depth, scoreToTT bestScore ply, bestMove,
        if bestScore ≤ origAlpha then 3 else if bestScore ≥ beta then 2 else 1⟩ := by
  unfold ttStore
  simp only []
  rw [if_pos h]
  unfold setAt
  simp only [if_true]

theorem ttStore_keep (t : SearchTables) (key : Nat) (depth bestScore ply : Int)
    (bestMove : Move) (origAlpha beta : Int)
    (h : (t.tt_ (slotOf t key)).key = key ∧ depth < (t.tt_ (slotOf t key)).depth) :
    ttStore t key depth bestScore ply bestMove origAlpha beta = t := by
  unfold ttStore
  simp only []
  rw [if_neg (by rintro (h1 | h1); exact h1 h.1; omega)]

theorem ttStore_other (t : SearchTables) (key : Nat) (depth bestScore ply : Int)
    (bestMove : Move) (origAlpha beta : Int) (i : Nat) (hi : i ≠ slotOf t key) :
    (ttStore t key depth bestScore ply bestMove origAlpha beta).tt_ i = t.tt_ i := by
  unfold ttStore
  simp only []
  by_cases h : (t.tt_ (slotOf t key)).key ≠ key ∨ depth ≥ (t.tt_ (slotOf t key)).depth
  · rw [if_pos h]
    show setAt t.tt_ (slotOf t key) _ i = t.tt_ i
    unfold setAt
    rw [if_neg hi]
  · rw [if_neg h]

end ThisBot

/-- C22: for every consistent position in which the side to move is in check and has no
legal move, with `ply < 100`, `depth ≥ 0`, halfmove clock below 100, no repetition, no entry
stored under the key of the position and no abort at the entry of the call, `search` returns
`-MATE + ply = ply - 20000` for every window, whenever the fuel exceeds the depth; the
tables are left as they were. -/
theorem C22_checkmate_score (X : NodeEnv) (Z K : ZobristKeys) (e : Engine) (b b2 : Board)
    (depth alpha beta ply : Int) (prevMove : Move) (fuel : Nat)
    (hc : b.consistent Tables.init = true) (hchk : b.inCheck Tables.init = true)
    (hg : b.generateLegalMoves Tables.init Z = some ([], b2))
    (hply : 0 ≤ ply ∧ ply < 100) (hd : 0 ≤ depth) (hh : b.halfmove_ < 100)
    (hrep : b.isRepetition 0 = false) (ht : ThisBot.noEntry e.rest_ (ThisBot.hash K b))
    (ha : ThisBot.aborts X (ThisBot.enter e ply) = false) (hf : depth.toNat < fuel) :
    -MATE + ply = ply - 20000 ∧
      ∃ e2, ThisBot.searchNode X Tables.init Z K fuel e b depth alpha beta ply prevMove =
        some (-MATE + ply, e2, b) ∧ e2.rest_ = e.rest_ := by
  have hb : b2 = b := ((Board.Pos.of_consistent Tables.init_good hc).gen_some Z hg).1
  rw [hb] at hg
  obtain ⟨r, e2, h1, h2, h3⟩ := ThisBot.searchNode_mated X Tables.init Z K b ply hply.2 hchk
    (ThisBot.isDraw_false hh hrep) hg fuel e depth alpha beta prevMove hd hf ht
  rw [h3 ha] at h1
  refine ⟨?_, e2, h1, h2⟩
  unfold MATE
  omega

/-- C23, amended: for every consistent position in which the side to move is not in check
and has no legal move and every `ply < 100`, the evaluation is defined, and (1) for every
depth ≥ 1, when the window is a PV window (`beta - alpha > 1`) or the evaluation is below
`beta`, and no entry is stored under the key of the position, `search` returns 0, whenever
the fuel exceeds the depth, and leaves the tables as they were; (2) for depth ≤ 0, without
abort, draw, stop or time-up flag, `search` returns what `quiescence` returns: `beta` when
the evaluation is at least `beta`, otherwise the larger of `alpha` and the evaluation. -/
theorem C23_stalemate_score (X : NodeEnv) (Z K : ZobristKeys) (e : Engine) (b b2 : Board)
    (depth alpha beta ply : Int) (prevMove : Move) (fuel : Nat)
    (hc : b.consistent Tables.init = true) (hchk : b.inCheck Tables.init = false)
    (hg : b.generateLegalMoves Tables.init Z = some ([], b2))
    (hply : 0 ≤ ply ∧ ply < 100) (hf : depth.toNat < fuel) :
    ∃ v, ThisBot.evaluate X.eval Tables.init b = some v ∧
      (1 ≤ depth → (beta - alpha > 1 ∨ v < beta) →
        ThisBot.noEntry e.rest_ (ThisBot.hash K b) →
        ∃ e2, ThisBot.searchNode X Tables.init Z K fuel e b depth alpha beta ply prevMove =
          some (0, e2, b) ∧ e2.rest_ = e.rest_) ∧
      (depth ≤ 0 → ThisBot.aborts X (ThisBot.enter e ply) = false → b.isDraw 0 = false →
        e.stopFlag_ = false → e.timeUp_ = false →
        ThisBot.searchNode X Tables.init Z K fuel e b depth alpha beta ply prevMove =
          some (if v ≥ beta then beta else max alpha v, ThisBot.enter e ply, b)) := by
  have hb : b2 = b := ((Board.Pos.of_consistent Tables.init_good hc).gen_some Z hg).1
  rw [hb] at hg
  obtain ⟨v, hv⟩ := ThisBot.evaluate_some X.eval Tables.init b (ThisBot.kings_of_consistent hc)
  refine ⟨v, hv, ?_, ?_⟩
  · intro hd hw ht
    exact ThisBot.searchNode_stalemated X Tables.init Z K b ply v hply.2 hchk hv hg fuel e depth
      alpha beta prevMove hd hf hw ht
  · intro hd ha hdraw hs hu
    obtain ⟨n, hn⟩ : ∃ n, fuel = n + 1 := ⟨fuel - 1, by omega⟩
    rw [hn]
    exact ThisBot.searchNode_stalemated_leaf X Tables.init Z K b ply v hply.2 hchk hv hg n e
      depth alpha beta prevMove hd ha hdraw hs hu

/-- C24, the claim as stated is false: the slot 5 of a table of 8 slots holds an entry for
the key 5 at depth 10; the store of a node with key 13 (the same slot) and depth 1 replaces
it. -/
theorem C24_counterexample :
    ThisBot.slotOf crowdedTable 13 = 5 ∧
      crowdedTable.tt_ 5 = ⟨5, 10, 0, Move.null, 1⟩ ∧
      (ThisBot.ttStore crowdedTable 13 1 25 0 (Move.normal 12 28) 0 50).tt_ 5 =
        ⟨13, 1, 25, Move.normal 12 28, 1⟩ := by
  decide

/-- C24, amended: the store at the end of `search` overwrites the slot of the key of the
node if and only if the slot holds another key (an empty slot holds the key 0) or the depth
of the node is at least the depth stored in the slot; a slot holding an entry of greater
depth for the same key is left unchanged, one holding an entry for a different key is
overwritten whatever its depth. No other slot changes. Both stores of `search`, at a node
with a single legal move and after the move loop, are this store. -/
theorem C24_tt_replacement (t : SearchTables) (key : Nat) (depth bestScore ply : Int)
    (bestMove : Move) (origAlpha beta : Int) :
    ((t.tt_ (ThisBot.slotOf t key)).key ≠ key ∨ depth ≥ (t.tt_ (ThisBot.slotOf t key)).depth →
      (ThisBot.ttStore t key depth bestScore ply bestMove origAlpha beta).tt_
          (ThisBot.slotOf t key) =
        ⟨key, depth, scoreToTT bestScore ply, bestMove,
          if bestScore ≤ origAlpha then 3 else if bestScore ≥ beta then 2 else 1⟩) ∧
    ((t.tt_ (ThisBot.slotOf t key)).key = key ∧ depth < (t.tt_ (ThisBot.slotOf t key)).depth →
      ThisBot.ttStore t key depth bestScore ply bestMove origAlpha beta = t) ∧
    (∀ i, i ≠ ThisBot.slotOf t key →
      (ThisBot.ttStore t key depth bestScore ply bestMove origAlpha beta).tt_ i = t.tt_ i) ∧
    (∀ (X : NodeEnv) (T : Lookups) (Z : ZobristKeys)
      (rec : Engine → Board → Int → Int → Int → Int → Move → Option (Int × Engine × Board))
      (e : Engine) (board b2 : Board) (alpha : Int) (prevMove ttMove : Move)
      (inCheck lateEg : Bool) (staticEval : Int) (moves : List Move) (r : LoopResult),
      board.generateLegalMoves T Z = some (moves, b2) → 2 ≤ moves.length →
      X.moveLoop e b2 depth alpha beta ply prevMove
        (if ttMove.isNull = false ∧ ¬ (ttMove ∈ moves) then Move.null else ttMove)
        inCheck lateEg staticEval moves = some r →
      r.aborted = false →
      ThisBot.searchMoves X T Z rec e board depth alpha beta ply prevMove key inCheck lateEg
          staticEval ttMove =
        some (r.bestScore,
          { r.engine with
            rest_ := ThisBot.ttStore r.engine.rest_ key depth r.bestScore ply r.bestMove
              alpha beta },
          r.board)) ∧
    (∀ (Z : ZobristKeys)
      (rec : Engine → Board → Int → Int → Int → Int → Move → Option (Int × Engine × Board))
      (e e1 : Engine) (board b1 : Board) (alpha s : Int) (prevMove m : Move),
      rec e (board.makeMove Z m).1 (depth - 1) (-beta) (-alpha) (ply + 1) m = some (s, e1, b1) →
      e1.timeUp_ = false →
      ∃ e2 : Engine, e2.rest_.tt_ = e1.rest_.tt_ ∧ e2.rest_.ttSize = e1.rest_.ttSize ∧
        ThisBot.singleMove Z rec e board depth alpha beta ply prevMove key m =
          some (-s,
            { e2 with rest_ := ThisBot.ttStore e2.rest_ key depth (-s) ply m alpha beta },
            b1.unmakeMove m (board.makeMove Z m).2)) := by
  refine ⟨ThisBot.ttStore_slot t key depth bestScore ply bestMove origAlpha beta,
    ThisBot.ttStore_keep t key depth bestScore ply bestMove origAlpha beta,
    ThisBot.ttStore_other t key depth bestScore ply bestMove origAlpha beta, ?_, ?_⟩
  · intro X T Z rec e board b2 alpha prevMove ttMove inCheck lateEg staticEval moves r hg hl
      hr ha
    unfold ThisBot.searchMoves
    rw [hg]
    simp only []
    rw [if_neg (by omega), if_neg (by omega), hr]
    simp only []
    rw [if_neg (by rw [ha]; decide)]
  · intro Z rec e e1 board b1 alpha s prevMove m hr ht
    unfold ThisBot.singleMove
    simp only []
    rw [hr]
    simp only []
    rw [if_neg (by rw [ht]; decide)]
    refine ⟨_, ?_, ?_, rfl⟩
    · split_ifs <;> first | rfl | (unfold ThisBot.quietCutoff; simp only []; split_ifs <;> rfl)
    · split_ifs <;> first | rfl | (unfold ThisBot.quietCutoff; simp only []; split_ifs <;> rfl)

end chess

/-!
# Instances of the claims on the search
-/

namespace chess

namespace ThisBot

theorem backRankMate_gen :
    backRankMate.consistent Tables.init = true ∧
      backRankMate.inCheck Tables.init = true ∧
      backRankMate.generateLegalMoves Tables.init Zobrist.init = some ([], backRankMate) := by
  obtain ⟨h1, h2, h3, _, _⟩ := backRankMate_walk
  have h := gen_of_walk h1 h3
  refine ⟨h.1, ?_, h.2⟩
  rw [Tables.init_eq_walk]
  exact h2

theorem queenStalemate_gen :
    queenStalemate.consistent Tables.init = true ∧
      queenStalemate.inCheck Tables.init = false ∧
      queenStalemate.generateLegalMoves Tables.init Zobrist.init =
        some ([], queenStalemate) := by
  obtain ⟨h1, h2, h3, _⟩ := queenStalemate_walk
  have h := gen_of_walk h1 h3
  refine ⟨h.1, ?_, h.2⟩
  rw [Tables.init_eq_walk]
  exact h2

theorem noEntry_init (key : Nat) : noEntry Engine.init.rest_ key := Or.inr rfl

theorem stalemate_leaf (X : NodeEnv) (K : ZobristKeys) :
    ∃ v, evaluate X.eval Tables.init queenStalemate = some v ∧
      searchNode X Tables.init Zobrist.init K 1 Engine.init queenStalemate 0 5 10 0 Move.null =
        some (if v ≥ 10 then 10 else max 5 v, enter Engine.init 0, queenStalemate) ∧
      (if v ≥ 10 then 10 else max 5 v) ≠ 0 := by
  obtain ⟨hc, hchk, hg⟩ := queenStalemate_gen
  obtain ⟨v, hv⟩ := evaluate_some X.eval Tables.init queenStalemate (kings_of_consistent hc)
  refine ⟨v, hv, ?_, ?_⟩
  · exact searchNode_stalemated_leaf X Tables.init Zobrist.init K queenStalemate 0 v (by decide)
      hchk hv hg 0 Engine.init 0 5 10 Move.null (Int.le_refl 0) (aborts_init X 0)
      queenStalemate_walk.2.2.2 rfl rfl
  · have h5 : (5 : Int) ≤ max 5 v := le_max_left 5 v
    split_ifs <;> omega

end ThisBot

/-- C22, an instance: the back-rank mate `R5k1/5ppp/8/8/8/8/8/K7 b - - 0 1` at depth 7 and
ply 2 with the full window, on a new engine. -/
theorem C22_checkmate_score_witness :
    backRankMate.inCheck Tables.init = true ∧
      ∀ (X : NodeEnv) (K : ZobristKeys),
        -MATE + 2 = 2 - 20000 ∧
          ∃ e2, ThisBot.searchNode X Tables.init Zobrist.init K 8 Engine.init backRankMate 7
              (-INF) INF 2 Move.null = some (-MATE + 2, e2, backRankMate) ∧
            e2.rest_ = Engine.init.rest_ :=
  ⟨ThisBot.backRankMate_gen.2.1, fun X K =>
    C22_checkmate_score X Zobrist.init K Engine.init backRankMate backRankMate 7 (-INF) INF 2
      Move.null 8 ThisBot.backRankMate_gen.1 ThisBot.backRankMate_gen.2.1
      ThisBot.backRankMate_gen.2.2 (by decide) (by decide) ThisBot.backRankMate_walk.2.2.2.1
      ThisBot.backRankMate_walk.2.2.2.2 (ThisBot.noEntry_init _) (ThisBot.aborts_init X 2)
      (by decide)⟩

/-- C23, the claim as stated is false: in the stalemate `7k/5Q2/6K1/8/8/8/8/8 b - - 0 1`,
at depth 0 with the window (5, 10) on a new engine, `search` hands the node to `quiescence`
and returns 10 or the larger of 5 and the evaluation: a value that is not 0 and that depends
on the evaluation. -/
theorem C23_counterexample :
    queenStalemate.inCheck Tables.init = false ∧
      queenStalemate.generateLegalMoves Tables.init Zobrist.init = some ([], queenStalemate) ∧
      ∀ (X : NodeEnv) (K : ZobristKeys),
        ∃ v, ThisBot.evaluate X.eval Tables.init queenStalemate = some v ∧
          ThisBot.searchNode X Tables.init Zobrist.init K 1 Engine.init queenStalemate 0 5 10 0
              Move.null =
            some (if v ≥ 10 then 10 else max 5 v, ThisBot.enter Engine.init 0, queenStalemate) ∧
          (if v ≥ 10 then 10 else max 5 v) ≠ 0 :=
  ⟨ThisBot.queenStalemate_gen.2.1, ThisBot.queenStalemate_gen.2.2, ThisBot.stalemate_leaf⟩

/-- C23, an instance: the stalemate `7k/5Q2/6K1/8/8/8/8/8 b - - 0 1` at depth 7 and ply 2
with the full window, on a new engine. -/
theorem C23_stalemate_score_witness :
    queenStalemate.inCheck Tables.init = false ∧
      ∀ (X : NodeEnv) (K : ZobristKeys),
        ∃ e2, ThisBot.searchNode X Tables.init Zobrist.init K 8 Engine.init queenStalemate 7
            (-INF) INF 2 Move.null = some (0, e2, queenStalemate) ∧
          e2.rest_ = Engine.init.rest_ :=
  ⟨ThisBot.queenStalemate_gen.2.1, fun X K =>
    (C23_stalemate_score X Zobrist.init K Engine.init queenStalemate queenStalemate 7 (-INF)
      INF 2 Move.null 8 ThisBot.queenStalemate_gen.1 ThisBot.queenStalemate_gen.2.1
      ThisBot.queenStalemate_gen.2.2 (by decide) (by decide)).elim
      (fun _ h => h.2.1 (by decide) (Or.inl (by decide)) (ThisBot.noEntry_init _))⟩

/-- C24, an instance: the store of a node with key 5 and depth 3 leaves the entry for the
key 5 at depth 10 as it is. -/
theorem C24_tt_replacement_witness :
    ThisBot.ttStore crowdedTable 5 3 25 0 (Move.normal 12 28) 0 50 = crowdedTable :=
  (C24_tt_replacement crowdedTable 5 3 25 0 (Move.normal 12 28) 0 50).2.1 (by decide)

/-- C29, an instance: for a bishop on c1, a pawn on e2 is counted (outside the central
region) although e2 is not a square of the colour of c1. -/
theorem C29_bad_bishop_other_colour_witness :
    (squareBB 12 &&& ThisBot.sameColorSquares 2 &&& bnot ThisBot.centralSquares).testBit 12
        = true ↔
      (squareBB 12).testBit 12 = true ∧
        (fileOf 12 + rankOf 12) % 2 ≠ (fileOf 2 + rankOf 2) % 2 ∧
        ¬ (2 ≤ fileOf 12 ∧ fileOf 12 ≤ 5 ∧ 2 ≤ rankOf 12 ∧ rankOf 12 ≤ 5) :=
  (C29_bad_bishop_other_colour (squareBB 12) 2).2.1 12 (by decide)

end chess

/-!
# Null moves, the frame of the move generation, the key of the search
-/

namespace chess

namespace Board

theorem xor_pair_cancel (h a s : Nat) : h ^^^ a ^^^ s ^^^ a ^^^ s = h := by
  have e : h ^^^ a ^^^ s = h ^^^ s ^^^ a := by
    rw [Nat.xor_assoc, Nat.xor_comm a s, ← Nat.xor_assoc]
  rw [e, xor_cancel, xor_cancel]

theorem makeNullMove_hash (Z : ZobristKeys) (b : Board) (hs : b.sideToMove_ < 2)
    (hh : b.hash_ = b.computeHash Z) :
    (b.makeNullMove Z).1.hash_ = (b.makeNullMove Z).1.computeHash Z := by
  have e1 : (b.makeNullMove Z).1.hash_ =
      (if b.epSquare_ ≥ 0 then b.hash_ ^^^ Z.EP (b.epSquare_.toNat &&& 7) else b.hash_)
        ^^^ Z.SIDE := rfl
  have e2 : (b.makeNullMove Z).1.computeHash Z =
      (let h := pieceHash Z b.mailbox_ sq64 ^^^ Z.CASTLING b.castling_
       if Color.flip b.sideToMove_ = BLACK then h ^^^ Z.SIDE else h) := by
    rw [computeHash_eq]
    rfl
  rw [e1, e2, hh, computeHash_eq]
  simp only []
  have hside : b.sideToMove_ = 0 ∨ b.sideToMove_ = 1 :=
    (show ∀ c : Nat, c < 2 → c = 0 ∨ c = 1 by omega) _ hs
  generalize pieceHash Z b.mailbox_ sq64 ^^^ Z.CASTLING b.castling_ = h
  rcases hside with h0 | h1
  · rw [h0]
    have f1 : ¬ ((0 : Nat) = BLACK) := by decide
    have f2 : Color.flip 0 = BLACK := by decide
    rw [if_neg f1, if_pos f2]
    by_cases he : b.epSquare_ ≥ 0
    · rw [if_pos he, if_pos he, xor_cancel]
    · rw [if_neg he, if_neg he]
  · rw [h1]
    have f1 : (1 : Nat) = BLACK := by decide
    have f2 : ¬ (Color.flip 1 = BLACK) := by decide
    rw [if_pos f1, if_neg f2]
    by_cases he : b.epSquare_ ≥ 0
    · rw [if_pos he, if_pos he, xor_pair_cancel]
    · rw [if_neg he, if_neg he, xor_cancel]

theorem flip_twice (c : Nat) : Color.flip (Color.flip c) = c := by
  unfold Color.flip
  exact xor_cancel c 1

theorem unmake_makeNullMove (Z : ZobristKeys) (b : Board) :
    (b.makeNullMove Z).1.unmakeNullMove Z (b.makeNullMove Z).2 = b := by
  have hhash : (if b.epSquare_ ≥ 0 then
      ((if b.epSquare_ ≥ 0 then b.hash_ ^^^ Z.EP (b.epSquare_.toNat &&& 7) else b.hash_)
        ^^^ Z.SIDE ^^^ Z.SIDE) ^^^ Z.EP (b.epSquare_.toNat &&& 7)
      else (if b.epSquare_ ≥ 0 then b.hash_ ^^^ Z.EP (b.epSquare_.toNat &&& 7) else b.hash_)
        ^^^ Z.SIDE ^^^ Z.SIDE) = b.hash_ := by
    by_cases he : b.epSquare_ ≥ 0
    · rw [if_pos he, if_pos he, xor_cancel, xor_cancel]
    · rw [if_neg he, if_neg he, xor_cancel]
  unfold unmakeNullMove makeNullMove
  simp only []
  rw [hhash, flip_twice]

end Board

/-- The key tables `ZP`, `ZCastle`, `ZEp`, `ZSide` after `ThisBot::initZobrist()`: the seed
`0x123456789abcdef`, and the draws of `splitmix64` in the order `ZP[c][pt][sq]` (768 keys),
`ZCastle[i]` (16), `ZEp[i]` (8), `ZSide`. -/
def ThisBot.initZobrist : ZobristKeys where
  PIECE := fun c pt sq =>
    if c < 2 ∧ pt < 6 ∧ sq < 64 then Zobrist.draw ((c * 6 + pt) * 64 + sq) else 0
  CASTLING := fun i => if i < 16 then Zobrist.draw (768 + i) else 0
  EP := fun i => if i < 8 then Zobrist.draw (784 + i) else 0
  SIDE := Zobrist.draw 792

theorem ThisBot.hash_eq_computeHash (K : ZobristKeys) (b : Board) :
    ThisBot.hash K b = b.computeHash K := rfl

/-- C31: for every board with `hash = computeHash()`, `makeNullMove` flips the side to move,
sets the en-passant square to -1 and the halfmove clock to 0, leaves the pieces (bitboards,
mailbox, king squares), the castling rights, the fullmove number and the history unchanged
and keeps `hash = computeHash()`; `unmakeNullMove` applied to the value it returned restores
the board in every field. -/
theorem C31_null_move_round_trip (Z : ZobristKeys) (b : Board) (hs : b.sideToMove_ < 2)
    (hh : b.hash_ = b.computeHash Z) :
    (b.makeNullMove Z).1.sideToMove_ = Color.flip b.sideToMove_ ∧
    Color.flip b.sideToMove_ ≠ b.sideToMove_ ∧
    (b.makeNullMove Z).1.epSquare_ = -1 ∧
    (b.makeNullMove Z).1.halfmove_ = 0 ∧
    (b.makeNullMove Z).1.pieces_ = b.pieces_ ∧
    (b.makeNullMove Z).1.byColor_ = b.byColor_ ∧
    (b.makeNullMove Z).1.occupied_ = b.occupied_ ∧
    (b.makeNullMove Z).1.mailbox_ = b.mailbox_ ∧
    (b.makeNullMove Z).1.kingSquare_ = b.kingSquare_ ∧
    (b.makeNullMove Z).1.castling_ = b.castling_ ∧
    (b.makeNullMove Z).1.fullmove_ = b.fullmove_ ∧
    (b.makeNullMove Z).1.history_ = b.history_ ∧
    (b.makeNullMove Z).1.hash_ = (b.makeNullMove Z).1.computeHash Z ∧
    (b.makeNullMove Z).1.unmakeNullMove Z (b.makeNullMove Z).2 = b :=
  ⟨rfl, flip_ne hs, rfl, rfl, rfl, rfl, rfl, rfl, rfl, rfl, rfl, rfl,
    Board.makeNullMove_hash Z b hs hh, Board.unmake_makeNullMove Z b⟩

/-- C31, an instance: the position `8/8/8/2k5/3Pp3/8/8/4K1R1 b - d3 0 1`, which has an
en-passant square. -/
theorem C31_null_move_round_trip_witness :
    (epScenario.makeNullMove Zobrist.init).1.hash_ =
        (epScenario.makeNullMove Zobrist.init).1.computeHash Zobrist.init ∧
      (epScenario.makeNullMove Zobrist.init).1.unmakeNullMove Zobrist.init
        (epScenario.makeNullMove Zobrist.init).2 = epScenario :=
  ⟨(C31_null_move_round_trip Zobrist.init epScenario (by decide!)
      (Board.setFEN_hash Zobrist.init _)).2.2.2.2.2.2.2.2.2.2.2.2.1,
    (C31_null_move_round_trip Zobrist.init epScenario (by decide!)
      (Board.setFEN_hash Zobrist.init _)).2.2.2.2.2.2.2.2.2.2.2.2.2⟩

/-- C37: for every consistent board, when `generateLegalMoves` returns, the board it leaves
equals the board before the call in every field, although en-passant candidates are made and
unmade on it; and it returns, with the legal moves, whenever no pawn of the side to move
stands on its last rank and there are at most 256 legal moves. -/
theorem C37_generation_frame (Z : ZobristKeys) (b : Board)
    (hc : b.consistent Tables.init = true) :
    (∀ l b2, b.generateLegalMoves Tables.init Z = some (l, b2) → b2 = b) ∧
      (b.okPawns = true →
        (Board.legalList Tables.init Z b).length ≤ Board.MOVELIST_CAPACITY →
        b.generateLegalMoves Tables.init Z = some (Board.legalList Tables.init Z b, b)) := by
  have P := Board.Pos.of_consistent Tables.init_good hc
  refine ⟨fun l b2 h => (P.gen_some Z h).1, fun hp hl => ?_⟩
  rw [P.gen_total Z hp, if_pos hl]

/-- C37, an instance: the position `8/8/8/2k5/3Pp3/8/8/4K1R1 b - d3 0 1`, in which the
en-passant capture e4d3 is made, found illegal and unmade. -/
theorem C37_generation_frame_witness :
    epScenario.consistent Tables.walk = true ∧
      ∀ l b2, epScenario.generateLegalMoves Tables.init Zobrist.init = some (l, b2) →
        b2 = epScenario :=
  ⟨epScenario_consistent_walk,
    (C37_generation_frame Zobrist.init epScenario
      (by rw [Tables.init_eq_walk]; exact epScenario_consistent_walk)).1⟩

/-- C38: the key tables of the engine are entry for entry the key tables of the board, and
for every board `ThisBot::hash(board)` equals `Board::computeHash()`; on a board with
`hash = computeHash()` the key of the transposition table is the maintained hash. -/
theorem C38_search_key (b : Board) :
    ThisBot.initZobrist.PIECE = Zobrist.init.PIECE ∧
      ThisBot.initZobrist.CASTLING = Zobrist.init.CASTLING ∧
      ThisBot.initZobrist.EP = Zobrist.init.EP ∧
      ThisBot.initZobrist.SIDE = Zobrist.init.SIDE ∧
      ThisBot.hash ThisBot.initZobrist b = b.computeHash Zobrist.init ∧
      (b.hash_ = b.computeHash Zobrist.init → ThisBot.hash ThisBot.initZobrist b = b.hash_) := by
  refine ⟨rfl, rfl, rfl, rfl, ThisBot.hash_eq_computeHash _ b, fun h => ?_⟩
  rw [h]
  exact ThisBot.hash_eq_computeHash _ b

end chess

/-!
# The size of the transposition table (`setHashSize`, `getHashSize`, `src/evaluate.cpp`)
-/

namespace chess

/-- The value `sizeof(TTEntry)`: 8 + 4 + 4 + 4 + 1 bytes, padded to a multiple of 8. -/
def TTENTRY_SIZE : Nat := 24

namespace ThisBot

/-- The loop `while (power * 2 <= numEntries) power *= 2;` on `size_t`, from `power` on, with
`fuel` iterations left; `none` when the fuel runs out. -/
def roundLoop (numEntries : Nat) : Nat → Nat → Option Nat
  | 0, _ => none
  | fuel + 1, power =>
    if (power * 2) % U64 ≤ numEntries then roundLoop numEntries fuel ((power * 2) % U64)
    else some power

/-- The function `ThisBot::setHashSize`, with `size_t` of 64 bits; the loop gets 64
iterations. -/
def setHashSize (e : Engine) (mbSize : Nat) : Option Engine :=
  let bytes := (mbSize * 1024 * 1024) % U64
  let numEntries := bytes / TTENTRY_SIZE
  match roundLoop numEntries 64 1 with
  | none => none
  | some power =>
    some { e with rest_ := { e.rest_ with tt_ := fun _ => TTEntry.empty, ttSize := power } }

/-- The function `ThisBot::getHashSize`. -/
def getHashSize (e : Engine) : Nat :=
  (e.rest_.ttSize * TTENTRY_SIZE) % U64 / (1024 * 1024)

/-- The number of entries that `setHashSize(mbSize)` computes. -/
def entriesFor (mbSize : Nat) : Nat := (mbSize * 1024 * 1024) % U64 / TTENTRY_SIZE

theorem entriesFor_lt (mbSize : Nat) : entriesFor mbSize < 2 ^ 60 := by
  unfold entriesFor TTENTRY_SIZE U64
  omega

/-- The loop started at a power of two below the number of entries stops at the largest
power of two that does not exceed it. -/
theorem roundLoop_spec (n : Nat) (hn : n < 2 ^ 63) :
    ∀ (fuel j : Nat), 64 ≤ fuel + j → (2 ^ j ≤ n ∨ j = 0) →
      ∃ k, roundLoop n fuel (2 ^ j) = some (2 ^ k) ∧ j ≤ k ∧ (2 ^ k ≤ n ∨ (k = 0 ∧ n = 0)) ∧
        n < 2 ^ (k + 1) := by
  intro fuel
  induction fuel with
  | zero =>
    intro j hf hj
    exfalso
    have h64 : 2 ^ 63 ≤ 2 ^ j := Nat.pow_le_pow_right (by decide) (by omega)
    rcases hj with hj | hj
    · omega
    · omega
  | succ f ih =>
    intro j hf hj
    have hj63 : j < 63 ∨ n < 2 ^ (j + 1) := by
      by_cases h : j < 63
      · exact Or.inl h
      · right
        have : 2 ^ 63 ≤ 2 ^ (j + 1) := Nat.pow_le_pow_right (by decide) (by omega)
        omega
    have hpow : 2 ^ j * 2 = 2 ^ (j + 1) := (Nat.pow_succ 2 j).symm
    rw [roundLoop, hpow]
    by_cases hc : 2 ^ (j + 1) % U64 ≤ n
    · have hlt : 2 ^ (j + 1) < U64 ∨ n < 2 ^ (j + 1) := by
        rcases hj63 with h | h
        · left
          have : 2 ^ (j + 1) ≤ 2 ^ 63 := Nat.pow_le_pow_right (by decide) (by omega)
          unfold U64
          omega
        · exact Or.inr h
      have hsmall : 2 ^ (j + 1) < U64 := by
        rcases hlt with h | h
        · exact h
        · exfalso
          have h0 : n = 0 ∨ 2 ^ j ≤ n := by
            rcases hj with h1 | h1
            · exact Or.inr h1
            · by_cases h2 : n = 0
              · exact Or.inl h2
              · right; rw [h1, Nat.pow_zero]; omega
          have hj2 : 2 ^ (j + 1) ≤ 2 ^ 63 ∨ 2 ^ 64 ≤ 2 ^ (j + 1) := by
            by_cases h3 : j + 1 ≤ 63
            · exact Or.inl (Nat.pow_le_pow_right (by decide) h3)
            · exact Or.inr (Nat.pow_le_pow_right (by decide) (by omega))
          rcases hj2 with h3 | h3
          · have : 2 ^ (j + 1) % U64 = 2 ^ (j + 1) := Nat.mod_eq_of_lt (by unfold U64; omega)
            omega
          · have h4 : 2 ^ 63 ≤ 2 ^ j := by
              have : 2 ^ (j + 1) = 2 * 2 ^ j := by rw [Nat.pow_succ]; omega
              omega
            rcases h0 with h5 | h5
            · rcases hj with h6 | h6
              · omega
              · rw [h6, Nat.pow_zero] at h4; exact absurd h4 (by decide)
            · omega
      rw [Nat.mod_eq_of_lt hsmall] at hc ⊢
      rw [if_pos hc]
      obtain ⟨k, h1, h2, h3, h4⟩ := ih (j + 1) (by omega) (Or.inl hc)
      exact ⟨k, h1, by omega, h3, h4⟩
    · rw [if_neg hc]
      have hsmall : 2 ^ (j + 1) % U64 ≤ 2 ^ (j + 1) := Nat.mod_le _ _
      have hn2 : n < 2 ^ (j + 1) := by
        rcases hj63 with h | h
        · have : 2 ^ (j + 1) ≤ 2 ^ 63 := Nat.pow_le_pow_right (by decide) (by omega)
          have e : 2 ^ (j + 1) % U64 = 2 ^ (j + 1) := Nat.mod_eq_of_lt (by unfold U64; omega)
          omega
        · exact h
      refine ⟨j, rfl, le_refl j, ?_, hn2⟩
      rcases hj with h | h
      · exact Or.inl h
      · by_cases h0 : n = 0
        · exact Or.inr ⟨h, h0⟩
        · left; rw [h, Nat.pow_zero]; omega

/-- The function `setHashSize` returns, for every argument: the table gets `2 ^ k` empty
slots, where `2 ^ k` is the largest power of two that does not exceed the number of entries
computed, and one slot when that number is 0. -/
theorem setHashSize_spec (e : Engine) (mbSize : Nat) :
    ∃ k, setHashSize e mbSize = some { e with rest_ := { e.rest_ with
          tt_ := fun _ => TTEntry.empty, ttSize := 2 ^ k } } ∧
      (2 ^ k ≤ entriesFor mbSize ∨ (k = 0 ∧ entriesFor mbSize = 0)) ∧
      entriesFor mbSize < 2 ^ (k + 1) := by
  have hn : entriesFor mbSize < 2 ^ 63 := by have := entriesFor_lt mbSize; omega
  obtain ⟨k, h1, _, h3, h4⟩ := roundLoop_spec (entriesFor mbSize) hn 64 0 (by omega) (Or.inr rfl)
  refine ⟨k, ?_, h3, h4⟩
  unfold setHashSize
  simp only []
  have e1 : (mbSize * 1024 * 1024) % U64 / TTENTRY_SIZE = entriesFor mbSize := rfl
  have e2 : (1 : Nat) = 2 ^ 0 := rfl
  rw [e1, e2, h1]

theorem pow_unique {k j n : Nat} (h1 : 2 ^ k ≤ n) (h2 : n < 2 ^ (k + 1)) (h3 : 2 ^ j ≤ n)
    (h4 : n < 2 ^ (j + 1)) : k = j := by
  have a : k < j + 1 := (Nat.pow_lt_pow_iff_right (by decide)).1 (lt_of_le_of_lt h1 h4)
  have b : j < k + 1 := (Nat.pow_lt_pow_iff_right (by decide)).1 (lt_of_le_of_lt h3 h2)
  omega

end ThisBot

end chess

/-!
# Claims on the size of the transposition table
-/

namespace chess

namespace ThisBot

theorem entriesFor_small {mb : Nat} (h : mb < 2 ^ 44) :
    entriesFor mb = mb * 2 ^ 20 / TTENTRY_SIZE := by
  unfold entriesFor TTENTRY_SIZE U64
  omega

theorem slot_lt_pow (key k : Nat) : key &&& (2 ^ k - 1) < 2 ^ k :=
  Nat.and_lt_two_pow key (Nat.sub_lt (Nat.pos_pow_of_pos k (by decide)) (by decide))

/-- Clearing a table of `2 ^ k` slots with `k ≥ 17` by `setHashSize(getHashSize())` gives a
table of `2 ^ k` slots again. -/
theorem clear_keeps_size (e : Engine) (k : Nat) (h17 : 17 ≤ k) (h59 : k ≤ 59)
    (hs : e.rest_.ttSize = 2 ^ k) :
    setHashSize e (getHashSize e) = some { e with rest_ := { e.rest_ with
      tt_ := fun _ => TTEntry.empty, ttSize := 2 ^ k } } := by
  have hq : 2 ^ k = 131072 * 2 ^ (k - 17) := by
    have : k = 17 + (k - 17) := by omega
    conv_lhs => rw [this, Nat.pow_add]
  have hq2 : 2 ^ (k - 17) ≤ 2 ^ 42 := Nat.pow_le_pow_right (by decide) (by omega)
  have hg : getHashSize e = 3 * 2 ^ (k - 17) := by
    unfold getHashSize TTENTRY_SIZE U64
    rw [hs, hq]
    generalize 2 ^ (k - 17) = q at hq2
    omega
  have he : entriesFor (3 * 2 ^ (k - 17)) = 2 ^ k := by
    unfold entriesFor TTENTRY_SIZE U64
    rw [hq]
    generalize 2 ^ (k - 17) = q at hq2
    omega
  obtain ⟨j, h1, h2, h3⟩ := setHashSize_spec e (getHashSize e)
  rw [hg, he] at h2 h3
  rw [hg] at h1
  have hj : j = k := by
    rcases h2 with h2 | ⟨_, h2⟩
    · exact pow_unique h2 h3 (le_refl _) (Nat.pow_lt_pow_right (by decide) (by omega))
    · exfalso
      have : 0 < 2 ^ k := Nat.pos_pow_of_pos k (by decide)
      omega
  rw [hg, h1, hj]

end ThisBot

/-- C32, the claim as stated is false: for `mb = 2 ^ 44` the product `mb * 1024 * 1024`
wraps to 0 in `size_t`, and `setHashSize` leaves a table of one slot, although
`2 ^ 59 ≤ mb * 2 ^ 20 / sizeof(TTEntry)`. -/
theorem C32_counterexample :
    (ThisBot.setHashSize Engine.init (2 ^ 44)).map (fun e => e.rest_.ttSize) = some 1 ∧
      2 ^ 59 ≤ 2 ^ 44 * 2 ^ 20 / TTENTRY_SIZE := by
  decide

/-- C32, amended: for every `mb` with `1 ≤ mb < 2 ^ 44` (so that `mb * 2 ^ 20` fits in
`size_t`), after `setHashSize(mb)` the table has exactly `2 ^ k` empty slots, where `2 ^ k`
is the largest power of two not exceeding `mb * 2 ^ 20 / sizeof(TTEntry)`; and for every
`mb` whatever the slot count is a power of two and the index `key & (size - 1)` is within
the table. -/
theorem C32_hash_size (e : Engine) (mb : Nat) :
    (1 ≤ mb → mb < 2 ^ 44 →
      ∃ k, ThisBot.setHashSize e mb = some { e with rest_ := { e.rest_ with
            tt_ := fun _ => TTEntry.empty, ttSize := 2 ^ k } } ∧
        2 ^ k ≤ mb * 2 ^ 20 / TTENTRY_SIZE ∧ mb * 2 ^ 20 / TTENTRY_SIZE < 2 ^ (k + 1)) ∧
    (∃ k e2, ThisBot.setHashSize e mb = some e2 ∧ e2.rest_.ttSize = 2 ^ k ∧
      ∀ key, ThisBot.slotOf e2.rest_ key < e2.rest_.ttSize) := by
  obtain ⟨k, h1, h2, h3⟩ := ThisBot.setHashSize_spec e mb
  refine ⟨fun hm1 hm2 => ⟨k, h1, ?_, ?_⟩, k, _, h1, rfl, fun key => ThisBot.slot_lt_pow key k⟩
  · rw [ThisBot.entriesFor_small hm2] at h2
    rcases h2 with h2 | ⟨_, h2⟩
    · exact h2
    · exfalso
      unfold TTENTRY_SIZE at h2
      omega
  · rw [ThisBot.entriesFor_small hm2] at h3
    exact h3

/-- C32, an instance: 128 megabytes give `2 ^ 22` slots. -/
theorem C32_hash_size_witness :
    ∃ k, ThisBot.setHashSize Engine.init 128 = some { Engine.init with rest_ :=
          { Engine.init.rest_ with tt_ := fun _ => TTEntry.empty, ttSize := 2 ^ k } } ∧
      2 ^ k ≤ 128 * 2 ^ 20 / TTENTRY_SIZE ∧ 128 * 2 ^ 20 / TTENTRY_SIZE < 2 ^ (k + 1) :=
  (C32_hash_size Engine.init 128).1 (by decide) (by decide)

/-- C33: for every `mb` in `3..16384`, `setHashSize(getHashSize())` after `setHashSize(mb)`
leaves the number of slots unchanged and empties the entries; but after `setHashSize(1)`
the table has `2 ^ 15` slots, `getHashSize()` is 0 and the call leaves one slot, and after
`setHashSize(2)` the table has `2 ^ 16` slots, `getHashSize()` is 1 and the call leaves
`2 ^ 15` slots. -/
theorem C33_clear_hash (e : Engine) :
    (∀ mb, 3 ≤ mb → mb ≤ 16384 →
      ∃ k e2, ThisBot.setHashSize e mb = some e2 ∧ e2.rest_.ttSize = 2 ^ k ∧
        ThisBot.setHashSize e2 (ThisBot.getHashSize e2) = some { e2 with rest_ :=
          { e2.rest_ with tt_ := fun _ => TTEntry.empty, ttSize := 2 ^ k } }) ∧
    (∃ e2 e3, ThisBot.setHashSize e 1 = some e2 ∧ e2.rest_.ttSize = 2 ^ 15 ∧
      ThisBot.getHashSize e2 = 0 ∧
      ThisBot.setHashSize e2 (ThisBot.getHashSize e2) = some e3 ∧ e3.rest_.ttSize = 1) ∧
    (∃ e2 e3, ThisBot.setHashSize e 2 = some e2 ∧ e2.rest_.ttSize = 2 ^ 16 ∧
      ThisBot.getHashSize e2 = 1 ∧
      ThisBot.setHashSize e2 (ThisBot.getHashSize e2) = some e3 ∧ e3.rest_.ttSize = 2 ^ 15) := by
  refine ⟨fun mb h3 hm => ?_, ?_, ?_⟩
  · obtain ⟨k, h1, h2, h4⟩ := ThisBot.setHashSize_spec e mb
    have hsm : mb < 2 ^ 44 := by omega
    rw [ThisBot.entriesFor_small hsm] at h2 h4
    have hN : 2 ^ 17 ≤ mb * 2 ^ 20 / TTENTRY_SIZE := by unfold TTENTRY_SIZE; omega
    have hN2 : mb * 2 ^ 20 / TTENTRY_SIZE < 2 ^ 60 := by unfold TTENTRY_SIZE; omega
    have h2b : 2 ^ k ≤ mb * 2 ^ 20 / TTENTRY_SIZE := by
      rcases h2 with h2 | ⟨_, h2⟩
      · exact h2
      · omega
    have k17 : 17 < k + 1 := (Nat.pow_lt_pow_iff_right (by decide)).1 (lt_of_le_of_lt hN h4)
    have k59 : k < 60 := (Nat.pow_lt_pow_iff_right (by decide)).1 (lt_of_le_of_lt h2b hN2)
    exact ⟨k, _, h1, rfl, ThisBot.clear_keeps_size _ k (by omega) (by omega) rfl⟩
  · have r1 : ThisBot.roundLoop (ThisBot.entriesFor 1) 64 1 = some (2 ^ 15) := by decide
    have r0 : ThisBot.roundLoop (ThisBot.entriesFor 0) 64 1 = some 1 := by decide
    have s1 : ThisBot.setHashSize e 1 = some { e with rest_ := { e.rest_ with
        tt_ := fun _ => TTEntry.empty, ttSize := 2 ^ 15 } } := by
      unfold ThisBot.setHashSize
      simp only []
      rw [show (1 * 1024 * 1024) % U64 / TTENTRY_SIZE = ThisBot.entriesFor 1 from rfl, r1]
    have g : ThisBot.getHashSize ({ e with rest_ := { e.rest_ with
        tt_ := fun _ => TTEntry.empty, ttSize := 2 ^ 15 } } : Engine) = 0 := by
      show (2 ^ 15 * TTENTRY_SIZE) % U64 / (1024 * 1024) = 0
      decide
    refine ⟨_, ({ e with rest_ := { e.rest_ with
        tt_ := fun _ => TTEntry.empty, ttSize := 1 } } : Engine), s1, rfl, g, ?_, rfl⟩
    rw [g]
    unfold ThisBot.setHashSize
    simp only []
    rw [show (0 * 1024 * 1024) % U64 / TTENTRY_SIZE = ThisBot.entriesFor 0 from rfl, r0]
  · have r1 : ThisBot.roundLoop (ThisBot.entriesFor 1) 64 1 = some (2 ^ 15) := by decide
    have r2 : ThisBot.roundLoop (ThisBot.entriesFor 2) 64 1 = some (2 ^ 16) := by decide
    have s2 : ThisBot.setHashSize e 2 = some { e with rest_ := { e.rest_ with
        tt_ := fun _ => TTEntry.empty, ttSize := 2 ^ 16 } } := by
      unfold ThisBot.setHashSize
      simp only []
      rw [show (2 * 1024 * 1024) % U64 / TTENTRY_SIZE = ThisBot.entriesFor 2 from rfl, r2]
    have g : ThisBot.getHashSize ({ e with rest_ := { e.rest_ with
        tt_ := fun _ => TTEntry.empty, ttSize := 2 ^ 16 } } : Engine) = 1 := by
      show (2 ^ 16 * TTENTRY_SIZE) % U64 / (1024 * 1024) = 1
      decide
    refine ⟨_, ({ e with rest_ := { e.rest_ with
        tt_ := fun _ => TTEntry.empty, ttSize := 2 ^ 15 } } : Engine), s2, rfl, g, ?_, rfl⟩
    rw [g]
    unfold ThisBot.setHashSize
    simp only []
    rw [show (1 * 1024 * 1024) % U64 / TTENTRY_SIZE = ThisBot.entriesFor 1 from rfl, r1]

/-- C33, an instance: the default of 128 megabytes. -/
theorem C33_clear_hash_witness :
    ∃ k e2, ThisBot.setHashSize Engine.init 128 = some e2 ∧ e2.rest_.ttSize = 2 ^ k ∧
      ThisBot.setHashSize e2 (ThisBot.getHashSize e2) = some { e2 with rest_ :=
        { e2.rest_ with tt_ := fun _ => TTEntry.empty, ttSize := 2 ^ k } } :=
  (C33_clear_hash Engine.init).1 128 (by decide) (by decide)

end chess

/-!
# The ordering of the moves (the insertion sorts of `search` and `quiescence`)
-/

namespace chess

namespace ThisBot

/-- The loop `while (j >= 0 && scoredMoves[j].first < temp.first)` of `quiescence`, with the
key `s` of `temp`; at most `fuel` iterations. -/
def shiftScored (s : Int) : Nat → List (Int × Move) → Int → List (Int × Move) × Int
  | 0, scoredMoves, j => (scoredMoves, j)
  | fuel + 1, scoredMoves, j =>
    if j ≥ 0 ∧ (scoredMoves.getD j.toNat (0, Move.null)).1 < s then
      shiftScored s fuel
        (scoredMoves.set (j + 1).toNat (scoredMoves.getD j.toNat (0, Move.null))) (j - 1)
    else (scoredMoves, j)

/-- The insertion sort of `quiescence`: `for (size_t i = 1; i < scoredMoves.size(); ++i)`.
The inner loop runs at most `i` times. -/
def sortScored (scoredMoves : List (Int × Move)) : List (Int × Move) :=
  (List.range' 1 (scoredMoves.length - 1)).foldl (fun a i =>
    let temp := a.getD i (0, Move.null)
    let r := shiftScored temp.1 i a ((i : Int) - 1)
    r.1.set (r.2 + 1).toNat temp) scoredMoves

/-- The loop `while (j >= 0 && scores[j] < s)` of `search`, on the two arrays. -/
def shiftMoves (s : Int) : Nat → List Int → List Move → Int → List Int × List Move × Int
  | 0, scores, moves, j => (scores, moves, j)
  | fuel + 1, scores, moves, j =>
    if j ≥ 0 ∧ scores.getD j.toNat 0 < s then
      shiftMoves s fuel (scores.set (j + 1).toNat (scores.getD j.toNat 0))
        (moves.set (j + 1).toNat (moves.getD j.toNat Move.null)) (j - 1)
    else (scores, moves, j)

/-- The insertion sort of `search`: `for (int i = 1; i < moveCount; ++i)`, on the arrays
`scores` and `moves`. -/
def sortMoves (scores : List Int) (moves : List Move) : List Int × List Move :=
  (List.range' 1 (moves.length - 1)).foldl (fun (a : List Int × List Move) i =>
    let s := a.1.getD i 0
    let m := a.2.getD i Move.null
    let r := shiftMoves s i a.1 a.2 ((i : Int) - 1)
    (r.1.set (r.2.2 + 1).toNat s, r.2.1.set (r.2.2 + 1).toNat m)) (scores, moves)

/-- The place of an entry with key `x.1` in a list sorted by descending key: behind the
entries it does not beat. -/
def insertKey (x : Int × Move) (l : List (Int × Move)) : List (Int × Move) :=
  l.rdropWhile (fun y => decide (y.1 < x.1)) ++ x :: l.rtakeWhile (fun y => decide (y.1 < x.1))

/-- The stable sort by descending key, entry by entry. -/
def orderByKey (l : List (Int × Move)) : List (Int × Move) :=
  l.foldl (fun a x => insertKey x a) []

theorem rdrop_append_rtake {α : Type} (p : α → Bool) (l : List α) :
    l.rdropWhile p ++ l.rtakeWhile p = l := by
  unfold List.rdropWhile List.rtakeWhile
  rw [← List.reverse_append, List.takeWhile_append_dropWhile, List.reverse_reverse]

theorem getD_middle {α : Type} (P R : List α) (y d : α) : (P ++ y :: R).getD P.length d = y := by
  rw [List.getD_eq_getElem?_getD, List.getElem?_append_right (Nat.le_refl _), Nat.sub_self,
    List.getElem?_cons_zero]
  rfl

theorem set_middle {α : Type} (P R : List α) (y z : α) :
    (P ++ y :: R).set P.length z = P ++ z :: R := by
  induction P with
  | nil => rfl
  | cons a P ih => simp only [List.cons_append, List.length_cons, List.set_cons_succ, ih]

/-- The inner loop, started behind a prefix `P` with its hole at `P.length`: it moves the
entries at the end of `P` that `s` beats one place up. -/
theorem shiftScored_spec (s : Int) (P : List (Int × Move)) :
    ∀ (R : List (Int × Move)) (h : Int × Move) (fuel : Nat), P.length ≤ fuel →
      ∃ h2, shiftScored s fuel (P ++ h :: R) ((P.length : Int) - 1) =
        (P.rdropWhile (fun y => decide (y.1 < s)) ++
            h2 :: (P.rtakeWhile (fun y => decide (y.1 < s)) ++ R),
          ((P.rdropWhile (fun y => decide (y.1 < s))).length : Int) - 1) := by
  induction P using List.reverseRecOn with
  | nil =>
    intro R h fuel _
    refine ⟨h, ?_⟩
    cases fuel with
    | zero => rfl
    | succ f =>
      rw [shiftScored, if_neg (fun hh => absurd hh.1 (by decide))]
      rfl
  | append_singleton Q y ih =>
    intro R h fuel hf
    rw [List.length_append, List.length_singleton] at hf
    obtain ⟨f, rfl⟩ : ∃ f, fuel = f + 1 := ⟨fuel - 1, by omega⟩
    have hj : (((Q ++ [y]).length : Int) - 1) = (Q.length : Int) := by
      rw [List.length_append, List.length_singleton]; push_cast; omega
    have hl : (Q ++ [y]) ++ h :: R = Q ++ y :: (h :: R) := by simp
    have hg : (Q ++ y :: (h :: R)).getD Q.length (0, Move.null) = y := getD_middle Q _ y _
    rw [shiftScored, hj, hl, Int.toNat_ofNat, hg]
    by_cases hy : y.1 < s
    · rw [if_pos ⟨by omega, hy⟩]
      have hs : (Q ++ y :: (h :: R)).set ((Q.length : Int) + 1).toNat y = (Q ++ [y]) ++ y :: R := by
        have e : ((Q.length : Int) + 1).toNat = (Q ++ [y]).length := by
          rw [List.length_append, List.length_singleton]; omega
        have e2 : Q ++ y :: (h :: R) = (Q ++ [y]) ++ h :: R := by simp
        rw [e, e2, set_middle]
      have hs2 : (Q ++ [y]) ++ y :: R = Q ++ y :: (y :: R) := by simp
      rw [hs, hs2]
      obtain ⟨h2, ih2⟩ := ih (y :: R) y f (by omega)
      refine ⟨h2, ?_⟩
      rw [ih2, List.rdropWhile_concat_pos _ _ _ (by simpa using hy),
        List.rtakeWhile_concat_pos _ _ _ (by simpa using hy)]
      simp
    · rw [if_neg (fun hc => hy hc.2)]
      refine ⟨h, ?_⟩
      rw [List.rdropWhile_concat_neg _ _ _ (by simpa using hy),
        List.rtakeWhile_concat_neg _ _ _ (by simpa using hy), hj]
      simp

/-- One round of the outer loop puts the entry behind the prefix in its place. -/
theorem sortScored_step (P R : List (Int × Move)) (x : Int × Move) :
    (let temp := (P ++ x :: R).getD P.length (0, Move.null)
     let r := shiftScored temp.1 P.length (P ++ x :: R) ((P.length : Int) - 1)
     r.1.set (r.2 + 1).toNat temp) = insertKey x P ++ R := by
  simp only []
  rw [getD_middle]
  obtain ⟨h2, hs⟩ := shiftScored_spec x.1 P R x P.length (le_refl _)
  rw [hs]
  simp only []
  have e : ((((P.rdropWhile (fun y => decide (y.1 < x.1))).length : Int) - 1) + 1).toNat =
      (P.rdropWhile (fun y => decide (y.1 < x.1))).length := by omega
  rw [e, set_middle]
  unfold insertKey
  simp

theorem sortScored_loop :
    ∀ (R P : List (Int × Move)),
      (List.range' P.length R.length).foldl (fun a i =>
        let temp := a.getD i (0, Move.null)
        let r := shiftScored temp.1 i a ((i : Int) - 1)
        r.1.set (r.2 + 1).toNat temp) (P ++ R) =
      R.foldl (fun a x => insertKey x a) P := by
  intro R
  induction R with
  | nil => intro P; simp
  | cons x R ih =>
    intro P
    rw [List.length_cons, List.range'_succ, List.foldl_cons, List.foldl_cons]
    have hstep := sortScored_step P R x
    simp only [] at hstep
    simp only []
    rw [hstep]
    have hlen : (insertKey x P).length = P.length + 1 := by
      unfold insertKey
      have := congrArg List.length (rdrop_append_rtake (fun y => decide (y.1 < x.1)) P)
      simp only [List.length_append, List.length_cons] at this ⊢
      omega
    have := ih (insertKey x P)
    rw [hlen] at this
    exact this

/-- The insertion sort of `quiescence` is the stable sort by descending key. -/
theorem sortScored_eq (l : List (Int × Move)) : sortScored l = orderByKey l := by
  unfold sortScored orderByKey
  cases l with
  | nil => rfl
  | cons a l =>
    have h := sortScored_loop l [a]
    simp only [List.length_singleton, List.singleton_append] at h
    rw [List.length_cons, Nat.add_sub_cancel, h, List.foldl_cons]
    rfl

end ThisBot

end chess

/-!
# The insertion sorts are stable sorts by descending key
-/

namespace chess

namespace ThisBot

/-- Keys non-increasing along the list. -/
def Descending (l : List (Int × Move)) : Prop := l.Pairwise (fun a b => a.1 ≥ b.1)

theorem insertKey_perm (x : Int × Move) (l : List (Int × Move)) :
    (insertKey x l).Perm (l ++ [x]) := by
  unfold insertKey
  have h := rdrop_append_rtake (fun y => decide (y.1 < x.1)) l
  conv_rhs => rw [← h]
  rw [List.append_assoc]
  apply List.Perm.append_left
  exact (List.perm_append_singleton x _).symm

theorem insertKey_filter (x : Int × Move) (l : List (Int × Move)) (k : Int) :
    (insertKey x l).filter (fun y => decide (y.1 = k)) =
      (l ++ [x]).filter (fun y => decide (y.1 = k)) := by
  unfold insertKey
  have h := rdrop_append_rtake (fun y => decide (y.1 < x.1)) l
  conv_rhs => rw [← h]
  simp only [List.filter_append, List.append_assoc]
  congr 1
  by_cases hk : x.1 = k
  · have hnone : (l.rtakeWhile (fun y => decide (y.1 < x.1))).filter (fun y => decide (y.1 = k))
        = [] := by
      rw [List.filter_eq_nil_iff]
      intro y hy
      have := List.mem_rtakeWhile_imp hy
      simp only [decide_eq_true_eq] at this ⊢
      omega
    rw [List.filter_cons, hnone]
    simp [hk]
  · rw [List.filter_cons, if_neg (by simpa using hk)]
    simp [hk]

theorem insertKey_descending (x : Int × Move) (l : List (Int × Move)) (h : Descending l) :
    Descending (insertKey x l) := by
  unfold Descending insertKey at *
  have hl := rdrop_append_rtake (fun y => decide (y.1 < x.1)) l
  have h2 : (l.rdropWhile (fun y => decide (y.1 < x.1)) ++
      l.rtakeWhile (fun y => decide (y.1 < x.1))).Pairwise (fun a b => a.1 ≥ b.1) := by
    rw [hl]; exact h
  rw [List.pairwise_append] at h2
  obtain ⟨hA, hB, hAB⟩ := h2
  have hBx : ∀ b ∈ l.rtakeWhile (fun y => decide (y.1 < x.1)), b.1 < x.1 := by
    intro b hb
    have := List.mem_rtakeWhile_imp hb
    simpa using this
  have hAx : ∀ a ∈ l.rdropWhile (fun y => decide (y.1 < x.1)), a.1 ≥ x.1 := by
    intro a ha
    have hne : l.rdropWhile (fun y => decide (y.1 < x.1)) ≠ [] := List.ne_nil_of_mem ha
    have hlast := List.rdropWhile_last_not (fun y => decide (y.1 < x.1)) l hne
    simp only [decide_eq_true_eq, not_lt] at hlast
    have hmem :
        a = (l.rdropWhile (fun y => decide (y.1 < x.1))).getLast hne ∨
          a ∈ (l.rdropWhile (fun y => decide (y.1 < x.1))).dropLast := by
      have e := List.dropLast_append_getLast hne
      rw [← e] at ha
      rcases List.mem_append.1 ha with h1 | h1
      · exact Or.inr h1
      · exact Or.inl (List.mem_singleton.1 h1)
    rcases hmem with h1 | h1
    · rw [h1]; exact hlast
    · have e := List.dropLast_append_getLast hne
      rw [← e, List.pairwise_append] at hA
      have := hA.2.2 a h1 _ (List.mem_singleton_self _)
      omega
  rw [List.pairwise_append]
  refine ⟨hA, ?_, ?_⟩
  · rw [List.pairwise_cons]
    exact ⟨fun b hb => Int.le_of_lt (hBx b hb), hB⟩
  · intro a ha b hb
    rcases List.mem_cons.1 hb with h1 | h1
    · rw [h1]; exact hAx a ha
    · exact hAB a ha b h1

theorem foldl_insertKey (l : List (Int × Move)) :
    ∀ P : List (Int × Move), Descending P →
      Descending (l.foldl (fun a x => insertKey x a) P) ∧
      (l.foldl (fun a x => insertKey x a) P).Perm (P ++ l) ∧
      ∀ k : Int, (l.foldl (fun a x => insertKey x a) P).filter (fun y => decide (y.1 = k)) =
        (P ++ l).filter (fun y => decide (y.1 = k)) := by
  induction l with
  | nil => intro P hP; simp [hP]
  | cons x l ih =>
    intro P hP
    rw [List.foldl_cons]
    obtain ⟨h1, h2, h3⟩ := ih (insertKey x P) (insertKey_descending x P hP)
    refine ⟨h1, ?_, fun k => ?_⟩
    · refine h2.trans ?_
      have := (insertKey_perm x P).append_right l
      simpa using this
    · rw [h3 k, List.filter_append, insertKey_filter, ← List.filter_append]
      simp

/-- The stable sort by descending key: a permutation, keys non-increasing, entries with
equal keys in their original order. -/
theorem orderByKey_spec (l : List (Int × Move)) :
    (orderByKey l).Perm l ∧ Descending (orderByKey l) ∧
      ∀ k : Int, (orderByKey l).filter (fun y => decide (y.1 = k)) =
        l.filter (fun y => decide (y.1 = k)) := by
  obtain ⟨h1, h2, h3⟩ := foldl_insertKey l [] List.Pairwise.nil
  exact ⟨by simpa using h2, h1, fun k => by simpa using h3 k⟩

theorem zip_set (scores : List Int) :
    ∀ (moves : List Move) (i : Nat) (s : Int) (m : Move),
      (scores.set i s).zip (moves.set i m) = (scores.zip moves).set i (s, m) := by
  induction scores with
  | nil => intro moves i s m; simp
  | cons a scores ih =>
    intro moves i s m
    cases moves with
    | nil => simp
    | cons b moves =>
      cases i with
      | zero => simp
      | succ i => simp [ih]

theorem zip_getD (scores : List Int) :
    ∀ (moves : List Move) (i : Nat), scores.length = moves.length →
      (scores.zip moves).getD i (0, Move.null) = (scores.getD i 0, moves.getD i Move.null) := by
  induction scores with
  | nil =>
    intro moves i h
    have : moves = [] := List.length_eq_zero.1 h.symm
    rw [this]; rfl
  | cons a scores ih =>
    intro moves i h
    cases moves with
    | nil => simp at h
    | cons b moves =>
      cases i with
      | zero => rfl
      | succ i =>
        simp only [List.zip_cons_cons, List.getD_cons_succ]
        exact ih moves i (by simpa using h)

/-- The inner loop on the two arrays is the inner loop on the array of the pairs. -/
theorem shiftMoves_zip (s : Int) :
    ∀ (fuel : Nat) (scores : List Int) (moves : List Move) (j : Int),
      scores.length = moves.length →
      (shiftMoves s fuel scores moves j).1.length = (shiftMoves s fuel scores moves j).2.1.length ∧
      ((shiftMoves s fuel scores moves j).1.zip (shiftMoves s fuel scores moves j).2.1,
          (shiftMoves s fuel scores moves j).2.2) =
        shiftScored s fuel (scores.zip moves) j := by
  intro fuel
  induction fuel with
  | zero => intro scores moves j h; exact ⟨h, rfl⟩
  | succ f ih =>
    intro scores moves j h
    rw [shiftMoves, shiftScored, zip_getD scores moves _ h]
    by_cases hc : j ≥ 0 ∧ scores.getD j.toNat 0 < s
    · rw [if_pos hc, if_pos hc]
      have hlen : (scores.set (j + 1).toNat (scores.getD j.toNat 0)).length =
          (moves.set (j + 1).toNat (moves.getD j.toNat Move.null)).length := by
        rw [List.length_set, List.length_set]; exact h
      have := ih _ _ (j - 1) hlen
      rw [zip_set] at this
      exact this
    · rw [if_neg hc, if_neg hc]
      exact ⟨h, rfl⟩

theorem sortMoves_loop (l : List Nat) :
    ∀ (scores : List Int) (moves : List Move), scores.length = moves.length →
      (l.foldl (fun (a : List Int × List Move) i =>
          let s := a.1.getD i 0
          let m := a.2.getD i Move.null
          let r := shiftMoves s i a.1 a.2 ((i : Int) - 1)
          (r.1.set (r.2.2 + 1).toNat s, r.2.1.set (r.2.2 + 1).toNat m)) (scores, moves)).1.length =
        (l.foldl (fun (a : List Int × List Move) i =>
          let s := a.1.getD i 0
          let m := a.2.getD i Move.null
          let r := shiftMoves s i a.1 a.2 ((i : Int) - 1)
          (r.1.set (r.2.2 + 1).toNat s, r.2.1.set (r.2.2 + 1).toNat m)) (scores, moves)).2.length ∧
      (l.foldl (fun (a : List Int × List Move) i =>
          let s := a.1.getD i 0
          let m := a.2.getD i Move.null
          let r := shiftMoves s i a.1 a.2 ((i : Int) - 1)
          (r.1.set (r.2.2 + 1).toNat s, r.2.1.set (r.2.2 + 1).toNat m)) (scores, moves)).1.zip
        (l.foldl (fun (a : List Int × List Move) i =>
          let s := a.1.getD i 0
          let m := a.2.getD i Move.null
          let r := shiftMoves s i a.1 a.2 ((i : Int) - 1)
          (r.1.set (r.2.2 + 1).toNat s, r.2.1.set (r.2.2 + 1).toNat m)) (scores, moves)).2 =
      l.foldl (fun a i =>
        let temp := a.getD i (0, Move.null)
        let r := shiftScored temp.1 i a ((i : Int) - 1)
        r.1.set (r.2 + 1).toNat temp) (scores.zip moves) := by
  induction l with
  | nil => intro scores moves h; exact ⟨h, rfl⟩
  | cons i l ih =>
    intro scores moves h
    rw [List.foldl_cons, List.foldl_cons]
    simp only []
    obtain ⟨h1, h2⟩ := shiftMoves_zip (scores.getD i 0) i scores moves ((i : Int) - 1) h
    have hlen : ((shiftMoves (scores.getD i 0) i scores moves ((i : Int) - 1)).1.set
          ((shiftMoves (scores.getD i 0) i scores moves ((i : Int) - 1)).2.2 + 1).toNat
          (scores.getD i 0)).length =
        ((shiftMoves (scores.getD i 0) i scores moves ((i : Int) - 1)).2.1.set
          ((shiftMoves (scores.getD i 0) i scores moves ((i : Int) - 1)).2.2 + 1).toNat
          (moves.getD i Move.null)).length := by
      rw [List.length_set, List.length_set]; exact h1
    have := ih _ _ hlen
    rw [zip_set] at this
    rw [zip_getD scores moves i h]
    simp only []
    rw [← h2]
    exact this

/-- The insertion sort of `search` on arrays of equal length: the pairs it leaves are the
pairs that the insertion sort of `quiescence` leaves. -/
theorem sortMoves_zip (scores : List Int) (moves : List Move)
    (h : scores.length = moves.length) :
    (sortMoves scores moves).1.length = (sortMoves scores moves).2.length ∧
      (sortMoves scores moves).1.zip (sortMoves scores moves).2 =
        sortScored (scores.zip moves) := by
  have := sortMoves_loop (List.range' 1 (moves.length - 1)) scores moves h
  unfold sortMoves sortScored
  rw [List.length_zip, h, Nat.min_self]
  exact this

end ThisBot

/-- C34: the insertion sort of `quiescence` and the insertion sort of `search` yield a
permutation of the input pairs in which the keys are non-increasing and the entries of every
key keep their order; the sort of `search`, which moves `scores` and `moves` side by side,
keeps every move with its key. -/
theorem C34_stable_descending_sort :
    (∀ l : List (Int × Move),
      (ThisBot.sortScored l).Perm l ∧
        (ThisBot.sortScored l).Pairwise (fun a b => a.1 ≥ b.1) ∧
        ∀ k : Int, (ThisBot.sortScored l).filter (fun y => decide (y.1 = k)) =
          l.filter (fun y => decide (y.1 = k))) ∧
    (∀ (scores : List Int) (moves : List Move), scores.length = moves.length →
      (ThisBot.sortMoves scores moves).1.length = moves.length ∧
        (ThisBot.sortMoves scores moves).2.length = moves.length ∧
        ((ThisBot.sortMoves scores moves).1.zip (ThisBot.sortMoves scores moves).2).Perm
          (scores.zip moves) ∧
        (ThisBot.sortMoves scores moves).1.Pairwise (fun a b => a ≥ b) ∧
        ∀ k : Int,
          ((ThisBot.sortMoves scores moves).1.zip (ThisBot.sortMoves scores moves).2).filter
              (fun y => decide (y.1 = k)) =
            (scores.zip moves).filter (fun y => decide (y.1 = k))) := by
  refine ⟨fun l => ?_, fun scores moves h => ?_⟩
  · rw [ThisBot.sortScored_eq]
    exact ThisBot.orderByKey_spec l
  · obtain ⟨h1, h2⟩ := ThisBot.sortMoves_zip scores moves h
    obtain ⟨p1, p2, p3⟩ := ThisBot.orderByKey_spec (scores.zip moves)
    rw [← ThisBot.sortScored_eq, ← h2] at p1 p2 p3
    have hl := p1.length_eq
    rw [List.length_zip, List.length_zip, h1, h, Nat.min_self, Nat.min_self] at hl
    refine ⟨by rw [h1, hl], hl, p1, ?_, p3⟩
    have hm : ((ThisBot.sortMoves scores moves).1.zip (ThisBot.sortMoves scores moves).2).map
        Prod.fst = (ThisBot.sortMoves scores moves).1 :=
      List.map_fst_zip _ _ (le_of_eq h1)
    rw [← hm, List.pairwise_map]
    exact p2

/-- C34, an instance: the keys 5, 9, 5, 9 of the moves a1b1, a1a2, a1b2, b1c1. -/
theorem C34_stable_descending_sort_witness :
    ThisBot.sortMoves [5, 9, 5, 9]
        [Move.normal 0 1, Move.normal 0 8, Move.normal 0 9, Move.normal 1 2] =
      ([9, 9, 5, 5], [Move.normal 0 8, Move.normal 1 2, Move.normal 0 1, Move.normal 0 9]) ∧
    ((ThisBot.sortMoves [5, 9, 5, 9]
        [Move.normal 0 1, Move.normal 0 8, Move.normal 0 9, Move.normal 1 2]).1.zip
      (ThisBot.sortMoves [5, 9, 5, 9]
        [Move.normal 0 1, Move.normal 0 8, Move.normal 0 9, Move.normal 1 2]).2).Perm
      ([5, 9, 5, 9].zip
        [Move.normal 0 1, Move.normal 0 8, Move.normal 0 9, Move.normal 1 2]) :=
  ⟨by decide, (C34_stable_descending_sort.2 [5, 9, 5, 9]
    [Move.normal 0 1, Move.normal 0 8, Move.normal 0 9, Move.normal 1 2] (by decide)).2.2.1⟩

end chess

/-!
# Moves in UCI notation (`moveToUCI`, `src/board.cpp`): the round trip through `parseUCI`
-/

namespace chess

namespace Board

/-- The function `std::tolower` on a character code (C locale). -/
def tolower (c : Nat) : Nat := if 65 ≤ c ∧ c ≤ 90 then c + 32 else c

/-- The function `moveToUCI`. -/
def moveToUCI (m : Move) : List Nat :=
  let s := sqStr (m.src : Int) ++ sqStr (m.dst : Int)
  if m.type = MT_PROMOTION then s ++ [tolower (ptToChar m.promo WHITE)] else s

section

variable {T : Lookups} {b : Board}

/-- What a pseudo-legal move looks like, by its type. -/
theorem Pos.move_shape (P : Pos T b) {m : Move} (h : Spec.pseudoLegal T b m = true) :
    (m.type = MT_NORMAL ∧ m = Move.normal m.src m.dst ∧
      ((b.mailbox_ m.src = code b.sideToMove_ PAWN ∧ rankOf m.dst ≠ Spec.lastRank b.sideToMove_ ∧
          PawnPat b b.sideToMove_ m.src m.dst) ∨
        (b.mailbox_ m.src = code b.sideToMove_ KING ∧ Spec.kingStep m.src m.dst = true) ∨
        (∃ pt : Nat, pt < 6 ∧ pt ≠ PAWN ∧ pt ≠ KING ∧
          b.mailbox_ m.src = code b.sideToMove_ pt))) ∨
    (m.type = MT_PROMOTION ∧ b.mailbox_ m.src = code b.sideToMove_ PAWN ∧
      rankOf m.dst = Spec.lastRank b.sideToMove_ ∧ m.data_ < 65536) ∨
    (m.type = MT_EN_PASSANT ∧ m = Move.make m.src m.dst MT_EN_PASSANT KNIGHT ∧
      b.mailbox_ m.src = code b.sideToMove_ PAWN ∧ b.epSquare_ = (m.dst : Int) ∧
      Spec.pawnTakes b.sideToMove_ m.src m.dst = true) ∨
    (m.type = MT_CASTLING ∧ m = Move.make m.src m.dst MT_CASTLING KNIGHT ∧
      m.src = homeSq b.sideToMove_ ∧
      (m.dst = homeSq b.sideToMove_ + 2 ∨ m.dst = homeSq b.sideToMove_ - 2) ∧
      b.mailbox_ m.src = code b.sideToMove_ KING) := by
  rcases type_cases m with ht | ht | ht | ht
  · left
    obtain ⟨h1, _, h3⟩ := (pseudo_normal T b m ht).1 h
    refine ⟨ht, h1, ?_⟩
    rcases h3 with h3 | h3 | h3 | h3 | h3 | h3
    · exact Or.inr (Or.inr ⟨KNIGHT, by decide, by decide, by decide, h3.1⟩)
    · exact Or.inr (Or.inl h3)
    · exact Or.inr (Or.inr ⟨BISHOP, by decide, by decide, by decide, h3.1⟩)
    · exact Or.inr (Or.inr ⟨ROOK, by decide, by decide, by decide, h3.1⟩)
    · exact Or.inr (Or.inr ⟨QUEEN, by decide, by decide, by decide, h3.1⟩)
    · exact Or.inl h3
  · right; left
    obtain ⟨h1, h2, h3, _⟩ := (pseudo_promo T b m ht).1 h
    refine ⟨ht, h2, h3, ?_⟩
    have hd : ∀ p : Nat, 1 ≤ p ∧ p ≤ 4 → (Move.make m.src m.dst MT_PROMOTION p).data_ < 65536 :=
      fun p hp => Move.data_lt m.src_lt m.dst_lt (by decide : MT_PROMOTION < 4) hp
    rcases h1 with e | e | e | e
    · rw [e]; exact hd QUEEN (by decide)
    · rw [e]; exact hd ROOK (by decide)
    · rw [e]; exact hd BISHOP (by decide)
    · rw [e]; exact hd KNIGHT (by decide)
  · right; right; left
    obtain ⟨h1, h2, h3, h4⟩ := (pseudo_ep T b m ht).1 h
    exact ⟨ht, h1, h2, h3, h4⟩
  · right; right; right
    obtain ⟨hh1, hh2, hh3⟩ := homeSq_lt b.sideToMove_
    rcases (pseudo_castle T b m ht).1 h with ⟨h1, h2⟩ | ⟨h1, h2⟩
    · have f := Move.make_fields hh1 hh2 (by decide : MT_CASTLING < 4)
        (by decide : 1 ≤ KNIGHT ∧ KNIGHT ≤ 4)
      have es : m.src = homeSq b.sideToMove_ := by rw [h1]; exact f.1
      have ed : m.dst = homeSq b.sideToMove_ + 2 := by rw [h1]; exact f.2.1
      obtain ⟨r, _⟩ := (canCastle_oo_iff T b).1 h2
      obtain ⟨_, _, hk, _⟩ := P.home.1 r
      refine ⟨ht, ?_, es, Or.inl ed, by rw [es]; exact hk⟩
      rw [es, ed]; exact h1
    · have f := Move.make_fields hh1 hh3 (by decide : MT_CASTLING < 4)
        (by decide : 1 ≤ KNIGHT ∧ KNIGHT ≤ 4)
      have es : m.src = homeSq b.sideToMove_ := by rw [h1]; exact f.1
      have ed : m.dst = homeSq b.sideToMove_ - 2 := by rw [h1]; exact f.2.1
      obtain ⟨r, _⟩ := (canCastle_ooo_iff T b).1 h2
      obtain ⟨_, _, hk, _⟩ := P.home.2 r
      refine ⟨ht, ?_, es, Or.inr ed, by rw [es]; exact hk⟩
      rw [es, ed]; exact h1

end

end Board

end chess

/-!
# A legal move is determined by its squares and its promotion piece
-/

namespace chess

namespace Board

section

variable {T : Lookups} {b : Board}

theorem Pos.not_normal_promo (P : Pos T b) {s t : Nat}
    (hn : (b.mailbox_ s = code b.sideToMove_ PAWN ∧ rankOf t ≠ Spec.lastRank b.sideToMove_ ∧
          PawnPat b b.sideToMove_ s t) ∨
        (b.mailbox_ s = code b.sideToMove_ KING ∧ Spec.kingStep s t = true) ∨
        (∃ pt : Nat, pt < 6 ∧ pt ≠ PAWN ∧ pt ≠ KING ∧ b.mailbox_ s = code b.sideToMove_ pt))
    (hp : b.mailbox_ s = code b.sideToMove_ PAWN ∧ rankOf t = Spec.lastRank b.sideToMove_) :
    False := by
  have hus := P.rng.side
  rcases hn with ⟨_, h, _⟩ | ⟨h, _⟩ | ⟨pt, hpt, h1, _, h⟩
  · exact h hp.2
  · rw [hp.1] at h
    exact absurd (code_inj ⟨hus, by decide⟩ ⟨hus, by decide⟩ h).2 (by decide)
  · rw [hp.1] at h
    exact h1 (code_inj ⟨hus, by decide⟩ ⟨hus, hpt⟩ h).2.symm

theorem Pos.not_normal_ep (P : Pos T b) {s t : Nat}
    (hn : (b.mailbox_ s = code b.sideToMove_ PAWN ∧ rankOf t ≠ Spec.lastRank b.sideToMove_ ∧
          PawnPat b b.sideToMove_ s t) ∨
        (b.mailbox_ s = code b.sideToMove_ KING ∧ Spec.kingStep s t = true) ∨
        (∃ pt : Nat, pt < 6 ∧ pt ≠ PAWN ∧ pt ≠ KING ∧ b.mailbox_ s = code b.sideToMove_ pt))
    (he : b.mailbox_ s = code b.sideToMove_ PAWN ∧ b.epSquare_ = (t : Int) ∧
      Spec.pawnTakes b.sideToMove_ s t = true) : False := by
  have hus := P.rng.side
  have hthem := flip_lt hus
  rcases hn with ⟨_, _, h⟩ | ⟨h, _⟩ | ⟨pt, hpt, h1, _, h⟩
  · have ht := he.2.2
    unfold Spec.pawnTakes at ht
    simp only [Bool.and_eq_true, beq_iff_eq] at ht
    rcases h with h | h | ⟨_, h⟩
    · have := ((pushPat_iff _ _ _ _).1 h).1.1
      rw [this] at ht
      exact absurd ht.1 (by decide)
    · have := ((doublePat_iff _ _ _ _).1 h).2.1.1
      rw [this] at ht
      exact absurd ht.1 (by decide)
    · obtain ⟨pt, hpt, hm⟩ := (colorIs_iff _ _ _).1 h
      have hep : 0 ≤ b.epSquare_ := by rw [he.2.1]; omega
      have hf := (P.ep_facts hep).2.2.1
      have e : b.epSquare_.toNat = t := by rw [he.2.1]; rfl
      rw [e, hm] at hf
      exact code_ne_empty ⟨hthem, hpt⟩ hf
  · rw [he.1] at h
    exact absurd (code_inj ⟨hus, by decide⟩ ⟨hus, by decide⟩ h).2 (by decide)
  · rw [he.1] at h
    exact h1 (code_inj ⟨hus, by decide⟩ ⟨hus, hpt⟩ h).2.symm

theorem kingStep_home (us : Nat) (hus : us < 2) :
    Spec.kingStep (homeSq us) (homeSq us + 2) = false ∧
      Spec.kingStep (homeSq us) (homeSq us - 2) = false := by
  have h : us = 0 ∨ us = 1 := by omega
  rcases h with rfl | rfl <;> decide

theorem Pos.not_normal_castle (P : Pos T b) {s t : Nat}
    (hn : (b.mailbox_ s = code b.sideToMove_ PAWN ∧ rankOf t ≠ Spec.lastRank b.sideToMove_ ∧
          PawnPat b b.sideToMove_ s t) ∨
        (b.mailbox_ s = code b.sideToMove_ KING ∧ Spec.kingStep s t = true) ∨
        (∃ pt : Nat, pt < 6 ∧ pt ≠ PAWN ∧ pt ≠ KING ∧ b.mailbox_ s = code b.sideToMove_ pt))
    (hc : s = homeSq b.sideToMove_ ∧
      (t = homeSq b.sideToMove_ + 2 ∨ t = homeSq b.sideToMove_ - 2) ∧
      b.mailbox_ s = code b.sideToMove_ KING) : False := by
  have hus := P.rng.side
  rcases hn with ⟨h, _⟩ | ⟨_, h⟩ | ⟨pt, hpt, _, h1, h⟩
  · rw [hc.2.2] at h
    exact absurd (code_inj ⟨hus, by decide⟩ ⟨hus, by decide⟩ h).2 (by decide)
  · have hk := kingStep_home b.sideToMove_ hus
    rw [hc.1] at h
    rcases hc.2.1 with e | e
    · rw [e, hk.1] at h; exact Bool.noConfusion h
    · rw [e, hk.2] at h; exact Bool.noConfusion h
  · rw [hc.2.2] at h
    exact h1 (code_inj ⟨hus, by decide⟩ ⟨hus, hpt⟩ h).2.symm

theorem Pos.not_promo_ep (P : Pos T b) {s t : Nat}
    (hp : b.mailbox_ s = code b.sideToMove_ PAWN ∧ rankOf t = Spec.lastRank b.sideToMove_)
    (he : b.mailbox_ s = code b.sideToMove_ PAWN ∧ b.epSquare_ = (t : Int) ∧
      Spec.pawnTakes b.sideToMove_ s t = true) : False := by
  have hep : 0 ≤ b.epSquare_ := by rw [he.2.1]; omega
  have e : b.epSquare_.toNat = t := by rw [he.2.1]; rfl
  have := P.ep_rank hep
  rw [e] at this
  exact this hp.2

theorem Pos.not_pawn_king (P : Pos T b) {s : Nat}
    (hp : b.mailbox_ s = code b.sideToMove_ PAWN) (hk : b.mailbox_ s = code b.sideToMove_ KING) :
    False := by
  rw [hp] at hk
  exact absurd (code_inj ⟨P.rng.side, by decide⟩ ⟨P.rng.side, by decide⟩ hk).2 (by decide)

/-- Two pseudo-legal moves of a position with the same squares have the same type. -/
theorem Pos.same_type (P : Pos T b) {m m2 : Move} (h : Spec.pseudoLegal T b m = true)
    (h2 : Spec.pseudoLegal T b m2 = true) (hs : m2.src = m.src) (hd : m2.dst = m.dst) :
    m2.type = m.type := by
  have S := P.move_shape h
  have S2 := P.move_shape h2
  rw [hs, hd] at S2
  rcases S with ⟨t1, _, n1⟩ | ⟨t1, p1, p2, _⟩ | ⟨t1, _, e1⟩ | ⟨t1, _, c1, c2, c3⟩ <;>
  rcases S2 with ⟨t2, _, n2⟩ | ⟨t2, q1, q2, _⟩ | ⟨t2, _, e2⟩ | ⟨t2, _, d1, d2, d3⟩
  · rw [t1, t2]
  · exact (P.not_normal_promo n1 ⟨q1, q2⟩).elim
  · exact (P.not_normal_ep n1 e2).elim
  · exact (P.not_normal_castle n1 ⟨d1, d2, d3⟩).elim
  · exact (P.not_normal_promo n2 ⟨p1, p2⟩).elim
  · rw [t1, t2]
  · exact (P.not_promo_ep ⟨p1, p2⟩ e2).elim
  · exact (P.not_pawn_king p1 d3).elim
  · exact (P.not_normal_ep n2 e1).elim
  · exact (P.not_promo_ep ⟨q1, q2⟩ e1).elim
  · rw [t1, t2]
  · exact (P.not_pawn_king e1.1 d3).elim
  · exact (P.not_normal_castle n2 ⟨c1, c2, c3⟩).elim
  · exact (P.not_pawn_king q1 c3).elim
  · exact (P.not_pawn_king e2.1 c3).elim
  · rw [t1, t2]

/-- Two pseudo-legal moves of a position with the same squares and, where they are
promotions, the same promotion piece, are the same move. -/
theorem Pos.same_move (P : Pos T b) {m m2 : Move} (h : Spec.pseudoLegal T b m = true)
    (h2 : Spec.pseudoLegal T b m2 = true) (hs : m2.src = m.src) (hd : m2.dst = m.dst)
    (hp : m.type = MT_PROMOTION → m2.promo = m.promo) : m2 = m := by
  have ht := P.same_type h h2 hs hd
  have S := P.move_shape h
  have S2 := P.move_shape h2
  rcases S with ⟨t1, f1, _⟩ | ⟨t1, _, _, f1⟩ | ⟨t1, f1, _⟩ | ⟨t1, f1, _⟩
  · rcases S2 with ⟨_, g1, _⟩ | ⟨t2, _⟩ | ⟨t2, _⟩ | ⟨t2, _⟩
    · rw [g1, f1, hs, hd]
    · rw [t1, t2] at ht; exact absurd ht (by decide)
    · rw [t1, t2] at ht; exact absurd ht (by decide)
    · rw [t1, t2] at ht; exact absurd ht (by decide)
  · rcases S2 with ⟨t2, _⟩ | ⟨_, _, _, g1⟩ | ⟨t2, _⟩ | ⟨t2, _⟩
    · rw [t1, t2] at ht; exact absurd ht (by decide)
    · rw [Move.eq_make m f1, Move.eq_make m2 g1, hs, hd, ht, hp t1]
    · rw [t1, t2] at ht; exact absurd ht (by decide)
    · rw [t1, t2] at ht; exact absurd ht (by decide)
  · rcases S2 with ⟨t2, _⟩ | ⟨t2, _⟩ | ⟨_, g1, _⟩ | ⟨t2, _⟩
    · rw [t1, t2] at ht; exact absurd ht (by decide)
    · rw [t1, t2] at ht; exact absurd ht (by decide)
    · rw [g1, f1, hs, hd]
    · rw [t1, t2] at ht; exact absurd ht (by decide)
  · rcases S2 with ⟨t2, _⟩ | ⟨t2, _⟩ | ⟨t2, _⟩ | ⟨_, g1, _⟩
    · rw [t1, t2] at ht; exact absurd ht (by decide)
    · rw [t1, t2] at ht; exact absurd ht (by decide)
    · rw [t1, t2] at ht; exact absurd ht (by decide)
    · rw [g1, f1, hs, hd]

end

/-- The name of a square read back. -/
theorem strToSq_sqStr {s : Nat} (hs : s < 64) : strToSq (sqStr (s : Int)) = (s : Int) := by
  unfold sqStr
  rw [if_pos ⟨by omega, by omega⟩, Int.toNat_ofNat, fileOf_eq, rankOf_eq]
  unfold strToSq
  simp only []
  rw [if_pos (by omega)]
  omega

theorem sqStr_length {s : Nat} (hs : s < 64) : (sqStr (s : Int)).length = 2 := by
  unfold sqStr
  rw [if_pos ⟨by omega, by omega⟩]
  rfl

/-- The letter of a promotion piece read back. -/
theorem charToPT_promo {p : Nat} (hp : 1 ≤ p ∧ p ≤ 4) :
    charToPT (tolower (ptToChar p WHITE)) = p := by
  have h : p = 1 ∨ p = 2 ∨ p = 3 ∨ p = 4 := by omega
  rcases h with rfl | rfl | rfl | rfl <;> decide

/-- The string of a move: two squares, and the letter of the promotion piece. -/
theorem moveToUCI_shape (m : Move) :
    4 ≤ (moveToUCI m).length ∧
      strToSq ((moveToUCI m).take 2) = (m.src : Int) ∧
      strToSq (((moveToUCI m).drop 2).take 2) = (m.dst : Int) ∧
      (m.type = MT_PROMOTION →
        (if (moveToUCI m).length ≥ 5 then charToPT ((moveToUCI m).getD 4 0) else NO_PIECE) =
          m.promo) := by
  have e1 : sqStr (m.src : Int) = [97 + fileOf m.src, 49 + rankOf m.src] := by
    unfold sqStr
    rw [if_pos ⟨by omega, by have := m.src_lt; omega⟩]
    rfl
  have e2 : sqStr (m.dst : Int) = [97 + fileOf m.dst, 49 + rankOf m.dst] := by
    unfold sqStr
    rw [if_pos ⟨by omega, by have := m.dst_lt; omega⟩]
    rfl
  have r1 := strToSq_sqStr m.src_lt
  have r2 := strToSq_sqStr m.dst_lt
  rw [e1] at r1
  rw [e2] at r2
  unfold moveToUCI
  simp only []
  rw [e1, e2]
  by_cases ht : m.type = MT_PROMOTION
  · rw [if_pos ht]
    refine ⟨by simp, r1, r2, fun _ => ?_⟩
    have : ([97 + fileOf m.src, 49 + rankOf m.src] ++ [97 + fileOf m.dst, 49 + rankOf m.dst] ++
        [tolower (ptToChar m.promo WHITE)]).length ≥ 5 := by simp
    rw [if_pos this]
    exact charToPT_promo m.promo_range
  · rw [if_neg ht]
    exact ⟨by simp, r1, r2, fun h => absurd h ht⟩

theorem find_unique {α : Type} (p : α → Bool) (l : List α) (x : α) (hx : x ∈ l)
    (hp : p x = true) (hu : ∀ y ∈ l, p y = true → y = x) : l.find? p = some x := by
  cases hf : l.find? p with
  | none =>
    have := List.find?_eq_none.1 hf x hx
    rw [hp] at this
    exact absurd rfl this
  | some y =>
    have h1 := List.mem_of_find?_eq_some hf
    have h2 := List.find?_some hf
    rw [hu y h1 h2]

end Board

/-- C36: for every consistent position and every move `m` of the list that
`generateLegalMoves` returns, `parseUCI(moveToUCI(m))` returns `m`; so two moves of the list
with the same string are the same move. -/
theorem C36_uci_round_trip (Z : ZobristKeys) (b b2 : Board) (l : List Move) (m : Move)
    (hc : b.consistent Tables.init = true)
    (hg : b.generateLegalMoves Tables.init Z = some (l, b2)) (hm : m ∈ l) :
    b.parseUCI Tables.init Z (Board.moveToUCI m) = some (some m, b) ∧
      ∀ m2, m2 ∈ l → Board.moveToUCI m2 = Board.moveToUCI m → m2 = m := by
  have P := Board.Pos.of_consistent Tables.init_good hc
  obtain ⟨hb, _, _, hl⟩ := P.gen_some Z hg
  have key : ∀ x, x ∈ l →
      b.parseUCI Tables.init Z (Board.moveToUCI x) = some (some x, b) := by
    intro x hx
    obtain ⟨s4, s1, s2, s3⟩ := Board.moveToUCI_shape x
    rw [Board.parseUCI_eq _ Z b s4 (by rw [s1]; omega) (by rw [s2]; omega), hg, hb]
    simp only []
    rw [s1, s2]
    have hlx := (hl x).1 hx
    unfold Spec.legal at hlx
    rw [Bool.and_eq_true] at hlx
    have hfind : l.find? (Board.matchesUCI (x.src : Int) (x.dst : Int)
        (if (Board.moveToUCI x).length ≥ 5 then Board.charToPT ((Board.moveToUCI x).getD 4 0)
          else NO_PIECE)) = some x := by
      apply Board.find_unique _ l x hx
      · unfold Board.matchesUCI
        simp only [decide_True, Bool.true_and]
        by_cases ht : x.type = MT_PROMOTION
        · rw [if_pos ht, s3 ht]; simp
        · rw [if_neg ht]
      · intro y hy hmatch
        unfold Board.matchesUCI at hmatch
        simp only [Bool.and_eq_true, decide_eq_true_eq] at hmatch
        obtain ⟨⟨m1, m2⟩, m3⟩ := hmatch
        have hly := (hl y).1 hy
        unfold Spec.legal at hly
        rw [Bool.and_eq_true] at hly
        have es : y.src = x.src := Int.ofNat_inj.1 m1
        have ed : y.dst = x.dst := Int.ofNat_inj.1 m2
        have hty := P.same_type hlx.1 hly.1 es ed
        apply P.same_move hlx.1 hly.1 es ed
        intro ht
        rw [if_pos (hty.trans ht), decide_eq_true_eq, s3 ht] at m3
        exact m3
    rw [hfind]
  refine ⟨key m hm, fun m2 hm2 he => ?_⟩
  have k1 := key m hm
  have k2 := key m2 hm2
  rw [he, k1] at k2
  exact (Option.some.inj (congrArg Prod.fst (Option.some.inj k2))).symm

/-- C36, an instance: the promotion a7b8 to a rook in `1n5k/P7/8/8/8/8/8/K7 w - - 0 1`. -/
theorem C36_uci_round_trip_witness :
    Board.moveToUCI (Move.make 48 57 MT_PROMOTION ROOK) = Board.codes "a7b8r" ∧
      promoReady.parseUCI Tables.init Zobrist.init
          (Board.moveToUCI (Move.make 48 57 MT_PROMOTION ROOK)) =
        some (some (Move.make 48 57 MT_PROMOTION ROOK), promoReady) :=
  ⟨by decide, (C36_uci_round_trip Zobrist.init promoReady promoReady _
    (Move.make 48 57 MT_PROMOTION ROOK) promoReady_gen.1 promoReady_gen.2 (by decide)).1⟩

end chess

/-!
# The evaluation of a position that is its own mirror image
-/

namespace chess

/-- The position `4k3/4p3/8/8/8/8/4P3/4K3` with White to move. -/
def pawnFaceWhite : Board :=
  (Board.setFEN Zobrist.init (Board.codes "4k3/4p3/8/8/8/8/4P3/4K3 w - - 0 1")).2

/-- The position `4k3/4p3/8/8/8/8/4P3/4K3` with Black to move. -/
def pawnFaceBlack : Board :=
  (Board.setFEN Zobrist.init (Board.codes "4k3/4p3/8/8/8/8/4P3/4K3 b - - 0 1")).2

namespace ThisBot

open Precomputed

/-- The fields that the evaluation reads, for the placement `4k3/4p3/8/8/8/8/4P3/4K3`. -/
def PawnFace (b : Board) : Prop :=
  b.pieces_ WHITE PAWN = 4096 ∧ b.pieces_ BLACK PAWN = 4503599627370496 ∧
    b.pieces_ WHITE KING = 16 ∧ b.pieces_ BLACK KING = 1152921504606846976 ∧
    (∀ c < 2, ∀ pt < 5, 1 ≤ pt → b.pieces_ c pt = 0) ∧
    b.kingSquare_ WHITE = 4 ∧ b.kingSquare_ BLACK = 60 ∧ b.halfmove_ = 0

theorem pawnFace_bits :
    bitsOf 4096 = [12] ∧ bitsOf 4503599627370496 = [52] ∧ bitsOf 16 = [4] ∧
      bitsOf 1152921504606846976 = [60] :=
  ⟨by decide!, by decide!, by decide!, by decide!⟩

theorem pawnFace_white_pawn (E : EvalEnv) (b : Board) (h : PawnFace b) (a : EvalAcc) :
    whitePawnStep E b 12 a =
      { a with mgScore := a.mgScore + (E.pieceValue PAWN + E.pst PAWN 12) - 15,
               egScore := a.egScore + (E.pieceValue PAWN + E.pst PAWN 12) - 15 } := by
  obtain ⟨h1, h2, _⟩ := h
  have c1 : ¬ (fileMasks 12 &&& 4096 ≠ squareBB 12) := by decide!
  have c2 : neighborMasks 12 &&& 4096 = 0 := by decide!
  have c3 : ¬ (whitePassedMasks 12 &&& 4503599627370496 = 0) := by decide!
  unfold whitePawnStep
  simp only [h1, h2]
  rw [if_neg c1, if_pos c2, if_neg c3]

theorem pawnFace_black_pawn (E : EvalEnv) (b : Board) (h : PawnFace b) (a : EvalAcc) :
    blackPawnStep E b 52 a =
      { a with mgScore := a.mgScore - (E.pieceValue PAWN + E.pst PAWN 12) + 15,
               egScore := a.egScore - (E.pieceValue PAWN + E.pst PAWN 12) + 15 } := by
  obtain ⟨h1, h2, _⟩ := h
  have c1 : ¬ (fileMasks 52 &&& 4503599627370496 ≠ squareBB 52) := by decide!
  have c2 : neighborMasks 52 &&& 4503599627370496 = 0 := by decide!
  have c3 : ¬ (blackPassedMasks 52 &&& 4096 = 0) := by decide!
  have c4 : 52 ^^^ 56 = 12 := by decide
  unfold blackPawnStep
  simp only [h1, h2, c4]
  rw [if_neg c1, if_pos c2, if_neg c3]

theorem king_step (E : EvalEnv) (T : Lookups) (b : Board) (color sq : Nat) (a : EvalAcc) :
    pieceStep E T b color KING sq a =
      { a with
        mgScore := a.mgScore + (if (color == 0) = true then 1 else -1) *
          (E.pieceValue KING + E.pst 5 (if (color == 0) = true then sq else sq ^^^ 56)),
        egScore := a.egScore + (if (color == 0) = true then 1 else -1) *
          (E.pieceValue KING + E.kingEndgame (if (color == 0) = true then sq else sq ^^^ 56)),
        phase := a.phase + PIECE_PHASE KING } := by
  have k1 : KING ≠ KNIGHT := by decide
  have k2 : KING ≠ ROOK := by decide
  have k3 : KING ≠ BISHOP := by decide
  unfold pieceStep
  simp only [if_true, ne_eq, not_true_eq_false, if_false, false_and, if_neg k1, if_neg k2,
    if_neg k3]

end ThisBot

end chess

/-!
# The score of the pawn face-off
-/

namespace chess

namespace ThisBot

open Precomputed

theorem forBits_none {σ : Type} (f : Nat → σ → σ) (s : σ) : forBits 64 0 f s = s := by
  show (if (0 : Nat) = 0 then s else _) = s
  exact if_pos rfl

theorem forBits_one {σ : Type} (f : Nat → σ → σ) (s : σ) (bb i : Nat) (hbb : bb < 2 ^ 64)
    (h : bitsOf bb = [i]) : forBits 64 bb f s = f i s := by
  rw [forBits_eq f bb s hbb, h]
  rfl

/-- The loops of `evaluate` on the pawn face-off: one step for each pawn and each king. -/
theorem pawnFace_loops (E : EvalEnv) (T : Lookups) (b : Board) (h : PawnFace b) :
    evalLoops E T b =
      pieceStep E T b 1 KING 60 (pieceStep E T b 0 KING 4
        (blackPawnStep E b 52 (whitePawnStep E b 12 EvalAcc.start))) := by
  obtain ⟨h1, h2, h3, h4, hz, _⟩ := h
  obtain ⟨b1, b2, b3, b4⟩ := pawnFace_bits
  have z01 : b.pieces_ 0 KNIGHT = 0 := hz 0 (by decide) KNIGHT (by decide) (by decide)
  have z02 : b.pieces_ 0 BISHOP = 0 := hz 0 (by decide) BISHOP (by decide) (by decide)
  have z03 : b.pieces_ 0 ROOK = 0 := hz 0 (by decide) ROOK (by decide) (by decide)
  have z04 : b.pieces_ 0 QUEEN = 0 := hz 0 (by decide) QUEEN (by decide) (by decide)
  have z11 : b.pieces_ 1 KNIGHT = 0 := hz 1 (by decide) KNIGHT (by decide) (by decide)
  have z12 : b.pieces_ 1 BISHOP = 0 := hz 1 (by decide) BISHOP (by decide) (by decide)
  have z13 : b.pieces_ 1 ROOK = 0 := hz 1 (by decide) ROOK (by decide) (by decide)
  have z14 : b.pieces_ 1 QUEEN = 0 := hz 1 (by decide) QUEEN (by decide) (by decide)
  have k0 : b.pieces_ 0 KING = 16 := h3
  have k1 : b.pieces_ 1 KING = 1152921504606846976 := h4
  unfold evalLoops
  simp only [List.foldl_cons, List.foldl_nil, h1, h2, z01, z02, z03, z04, z11, z12, z13, z14,
    k0, k1, forBits_none]
  rw [forBits_one _ _ 4096 12 (by norm_num) b1,
    forBits_one _ _ 4503599627370496 52 (by norm_num) b2,
    forBits_one _ _ 16 4 (by norm_num) b3,
    forBits_one _ _ 1152921504606846976 60 (by norm_num) b4]

/-- The local variables of `evaluate` after its loops on the pawn face-off. -/
theorem pawnFace_acc (E : EvalEnv) (T : Lookups) (b : Board) (h : PawnFace b) :
    (evalLoops E T b).egScore = 0 ∧ (evalLoops E T b).phase = 0 ∧
      (evalLoops E T b).whiteBishops = 0 ∧ (evalLoops E T b).blackBishops = 0 := by
  have c4 : 60 ^^^ 56 = 4 := by decide
  rw [pawnFace_loops E T b h, king_step, king_step, pawnFace_black_pawn E b h,
    pawnFace_white_pawn E b h]
  simp only [c4]
  refine ⟨?_, by decide, rfl, rfl⟩
  show (0 : Int) + (E.pieceValue PAWN + E.pst PAWN 12) - 15 -
      (E.pieceValue PAWN + E.pst PAWN 12) + 15 + 1 * (E.pieceValue KING + E.kingEndgame 4) +
      -1 * (E.pieceValue KING + E.kingEndgame 4) = 0
  omega

theorem pawnFace_tapered (E : EvalEnv) (T : Lookups) (b : Board) (h : PawnFace b) :
    taperedScore E T b = 0 := by
  obtain ⟨e1, e2, e3, e4⟩ := pawnFace_acc E T b h
  obtain ⟨_, _, _, _, hz, _⟩ := h
  have z2 : b.pieces_ WHITE BISHOP = 0 := hz 0 (by decide) BISHOP (by decide) (by decide)
  have z3 : b.pieces_ BLACK BISHOP = 0 := hz 1 (by decide) BISHOP (by decide) (by decide)
  have p0 : popCount 0 = 0 := by decide
  unfold taperedScore egFinal
  simp only [e1, e2, e3, e4, z2, z3, p0]
  have d0 : decide ((0 : Nat) > 0) = false := by decide
  have m0 : min (0 : Int) 24 = 0 := by decide
  simp only [d0, m0, Bool.and_false, Bool.false_and, Bool.or_false, Bool.false_eq_true,
    if_false, Int.mul_zero]
  decide

/-- The value of `evaluate` on the pawn face-off: 58 against the side to move. -/
theorem pawnFace_score (E : EvalEnv) (T : Lookups) (b : Board) (h : PawnFace b) :
    evaluate E T b = some (if b.sideToMove_ = WHITE then -58 else 58) := by
  have ht := pawnFace_tapered E T b h
  obtain ⟨_, e2, _, _⟩ := pawnFace_acc E T b h
  obtain ⟨h1, h2, _, _, _, k1, k2, hm⟩ := h
  have kw : b.kingSq WHITE = 4 := k1
  have kb : b.kingSq BLACK = 60 := k2
  have hi : insufficientMaterial b = false := by
    unfold insufficientMaterial totalPawns
    simp only [h1, h2]
    rfl
  have hmop : mopUp b false = 58 := by
    unfold mopUp
    simp only [kw, kb]
    decide
  have hw : whiteScore E T b = -58 := by
    unfold whiteScore
    rw [hi, hm, ht, fiftyScaled_early 0 0 (by decide), withMopUp_zero, e2, hmop]
    rfl
  rw [evaluate_eq, if_pos ⟨by rw [kw]; decide, by rw [kb]; decide⟩, hw]
  by_cases hs : b.sideToMove_ = WHITE
  · rw [if_pos hs, if_pos hs]
  · rw [if_neg hs, if_neg hs]
    rfl

theorem pawnFace_walk :
    (PawnFace pawnFaceWhite ∧ pawnFaceWhite.sideToMove_ = WHITE) ∧
      (PawnFace pawnFaceBlack ∧ pawnFaceBlack.sideToMove_ = BLACK) := by
  unfold PawnFace
  exact ⟨⟨⟨by decide!, by decide!, by decide!, by decide!,
      by decide!, by decide!, by decide!, by decide!⟩, by decide!⟩,
    ⟨⟨by decide!, by decide!, by decide!, by decide!,
      by decide!, by decide!, by decide!, by decide!⟩, by decide!⟩⟩

end ThisBot

end chess

/-!
# The mirror image of a position, and the evaluation of a position that is its own mirror
-/

namespace chess

namespace Spec

/-- The bitboard with every square flipped vertically (`sq XOR 56`): the eight ranks in the
opposite order. -/
def flipRanks (bb : Bitboard) : Bitboard :=
  (List.range 8).foldl (fun acc r => acc ||| (((bb >>> (8 * r)) &&& 0xFF) <<< (8 * (7 - r)))) 0

/-- The mirror image of a position, in the words of the specification: every square is
flipped vertically, the colours of all pieces are swapped, the side to move is swapped and the
white and black castling rights are swapped. The move counters, the history and the hash,
which the evaluation does not read, are kept. -/
def mirror (b : Board) : Board :=
  { b with
    pieces_ := fun c pt => flipRanks (b.pieces_ (c ^^^ 1) pt)
    byColor_ := fun c => flipRanks (b.byColor_ (c ^^^ 1))
    occupied_ := flipRanks b.occupied_
    mailbox_ := fun sq => if b.mailbox_ (sq ^^^ 56) = 0xFF then 0xFF else b.mailbox_ (sq ^^^ 56) ^^^ 8
    sideToMove_ := b.sideToMove_ ^^^ 1
    castling_ := ((b.castling_ &&& 3) <<< 2) ||| ((b.castling_ >>> 2) &&& 3)
    epSquare_ := if 0 ≤ b.epSquare_ then ((b.epSquare_.toNat ^^^ 56 : Nat) : Int) else b.epSquare_
    kingSquare_ := fun c => b.kingSquare_ (c ^^^ 1) ^^^ 56 }

end Spec

namespace ThisBot

theorem pawnFace_mirror :
    PawnFace (Spec.mirror pawnFaceWhite) ∧ (Spec.mirror pawnFaceWhite).sideToMove_ = BLACK ∧
      (Spec.mirror pawnFaceWhite).mailbox_ 52 = pawnFaceBlack.mailbox_ 52 := by
  unfold PawnFace
  exact ⟨⟨by decide!, by decide!, by decide!, by decide!,
      by decide!, by decide!, by decide!, by decide!⟩, by decide!, by decide!⟩

end ThisBot

/-- C40 does not hold of the code: for the position `4k3/4p3/8/8/8/8/4P3/4K3`, which is its
own mirror image up to the side to move, `evaluate` returns -58 with White to move and 58 with
Black to move, and 58 for the mirror image of the position with White to move, whatever the
parameters of the evaluation are: with the score 0 the mop-up block takes Black for the
winning side. -/
theorem C40_mirror_changes_score (E : EvalEnv) (T : Lookups) :
    ThisBot.evaluate E T pawnFaceWhite = some (-58) ∧
      ThisBot.evaluate E T pawnFaceBlack = some 58 ∧
      ThisBot.evaluate E T (Spec.mirror pawnFaceWhite) = some 58 ∧
      ThisBot.evaluate E T (Spec.mirror pawnFaceWhite) ≠ ThisBot.evaluate E T pawnFaceWhite := by
  obtain ⟨⟨w1, w2⟩, ⟨b1, b2⟩⟩ := ThisBot.pawnFace_walk
  obtain ⟨m1, m2, _⟩ := ThisBot.pawnFace_mirror
  have hw := ThisBot.pawnFace_score E T pawnFaceWhite w1
  have hb := ThisBot.pawnFace_score E T pawnFaceBlack b1
  have hm := ThisBot.pawnFace_score E T (Spec.mirror pawnFaceWhite) m1
  rw [if_pos w2] at hw
  rw [if_neg (by rw [b2]; decide)] at hb
  rw [if_neg (by rw [m2]; decide)] at hm
  refine ⟨hw, hb, hm, ?_⟩
  rw [hw, hm]
  decide

end chess

/-!
# What a move leaves on the squares: castling rights, the piece that landed, the piece count
-/

namespace chess

namespace Board

/-- The number of occupied squares among the first `n` squares of a mailbox. -/
def countTo (f : Nat → Nat) (n : Nat) : Nat := (List.range n).countP (fun s => f s != 0xFF)

theorem countTo_setAt (f : Nat → Nat) (s v : Nat) : ∀ n,
    countTo (setAt f s v) n + (if s < n ∧ f s ≠ 0xFF then 1 else 0) =
      countTo f n + (if s < n ∧ v ≠ 0xFF then 1 else 0) := by
  intro n
  induction n with
  | zero => simp [countTo]
  | succ n ih =>
    unfold countTo at ih ⊢
    rw [List.range_succ, List.countP_append, List.countP_append]
    simp only [List.countP_cons, List.countP_nil, zero_add, bne_iff_ne, ne_eq]
    by_cases hsn : n = s
    · subst hsn
      rw [setAt_same]
      have h1 : ¬ (n < n ∧ f n ≠ 0xFF) := fun h => absurd h.1 (Nat.lt_irrefl _)
      have h2 : ¬ (n < n ∧ v ≠ 0xFF) := fun h => absurd h.1 (Nat.lt_irrefl _)
      rw [if_neg h1, if_neg h2] at ih
      have h3 : n < n + 1 := Nat.lt_succ_self _
      simp only [h3, true_and]
      split_ifs <;> omega
    · rw [setAt_other f v hsn]
      have h3 : s < n + 1 ↔ s < n := by omega
      simp only [h3]
      simp only [ne_eq] at ih
      omega

/-- The number of squares of the board that hold a piece. -/
def pieceCount (b : Board) : Nat := countTo b.mailbox_ 64

theorem count_clear {f : Nat → Nat} {s : Nat} (hs : s < 64) (h : f s ≠ 0xFF) :
    countTo (setAt f s 0xFF) 64 + 1 = countTo f 64 := by
  have k := countTo_setAt f s 0xFF 64
  rw [if_pos ⟨hs, h⟩, if_neg (fun c => c.2 rfl)] at k
  omega

theorem count_put_empty {f : Nat → Nat} {s v : Nat} (hs : s < 64) (h : f s = 0xFF)
    (hv : v ≠ 0xFF) : countTo (setAt f s v) 64 = countTo f 64 + 1 := by
  have k := countTo_setAt f s v 64
  rw [if_neg (fun c => c.2 h), if_pos ⟨hs, hv⟩] at k
  omega

theorem count_put_full {f : Nat → Nat} {s v : Nat} (hs : s < 64) (h : f s ≠ 0xFF)
    (hv : v ≠ 0xFF) : countTo (setAt f s v) 64 = countTo f 64 := by
  have k := countTo_setAt f s v 64
  rw [if_pos ⟨hs, h⟩, if_pos ⟨hs, hv⟩] at k
  omega

/-- What a move changes on the squares: a piece of the side that moved stands on the target
square; a square other than the two squares of the move changes only if it held a pawn of the
other side (en passant), was empty, or held the rook of a castling king; no piece is added,
and a move onto an occupied square removes one. -/
structure Effect (b : Board) (m : Move) (mb : Nat → Nat) : Prop where
  landed : ∃ pt : Nat, pt < 6 ∧ mb m.dst = code b.sideToMove_ pt
  frame : ∀ s, mb s ≠ b.mailbox_ s → s = m.src ∨ s = m.dst ∨
    b.mailbox_ s = code (Color.flip b.sideToMove_) PAWN ∨ b.mailbox_ s = 0xFF ∨
    (b.mailbox_ s = code b.sideToMove_ ROOK ∧ b.mailbox_ m.src = code b.sideToMove_ KING)
  count_le : countTo mb 64 ≤ countTo b.mailbox_ 64
  capture : b.mailbox_ m.dst ≠ 0xFF → countTo mb 64 + 1 = countTo b.mailbox_ 64

theorem effect_simple {b : Board} {m : Move} {us pt q : Nat} (hus : b.sideToMove_ = us)
    (hcp : us < 2 ∧ pt < 6) (hq : q < 6) (hs : b.mailbox_ m.src = code us pt)
    (hd : TargetOk b (Color.flip us) m.dst) :
    Effect b m (setAt (setAt b.mailbox_ m.src 0xFF) m.dst (code us q)) := by
  have hthem := flip_lt hcp.1
  have hne : m.src ≠ m.dst := by
    intro e
    rcases hd with hd | ⟨cpt, hcpt, hd⟩
    · rw [← e, hs] at hd; exact code_ne_empty hcp hd
    · rw [← e, hs] at hd
      exact flip_ne hcp.1 (code_inj hcp ⟨hthem, by omega⟩ hd).1.symm
  have hsf : b.mailbox_ m.src ≠ 0xFF := by rw [hs]; exact code_ne_empty hcp
  have c1 := count_clear m.src_lt hsf
  have e1 : setAt b.mailbox_ m.src 0xFF m.dst = b.mailbox_ m.dst := setAt_other _ _ (Ne.symm hne)
  have hv : code us q ≠ 0xFF := code_ne_empty ⟨hcp.1, hq⟩
  have key : (b.mailbox_ m.dst = 0xFF →
        countTo (setAt (setAt b.mailbox_ m.src 0xFF) m.dst (code us q)) 64 = countTo b.mailbox_ 64) ∧
      (b.mailbox_ m.dst ≠ 0xFF →
        countTo (setAt (setAt b.mailbox_ m.src 0xFF) m.dst (code us q)) 64 + 1 =
          countTo b.mailbox_ 64) := by
    constructor
    · intro h
      rw [count_put_empty m.dst_lt (by rw [e1]; exact h) hv]
      exact c1
    · intro h
      rw [count_put_full m.dst_lt (by rw [e1]; exact h) hv]
      exact c1
  refine ⟨⟨q, hq, by rw [setAt_same, hus]⟩, ?_, ?_, key.2⟩
  · intro s hsne
    by_cases h1 : s = m.dst
    · exact Or.inr (Or.inl h1)
    · by_cases h2 : s = m.src
      · exact Or.inl h2
      · rw [setAt_other _ _ h1, setAt_other _ _ h2] at hsne
        exact absurd rfl hsne
  · by_cases h : b.mailbox_ m.dst = 0xFF
    · exact le_of_eq (key.1 h)
    · have := key.2 h
      omega

theorem effect_en_passant {b : Board} {m : Move} {us : Nat} (hus : b.sideToMove_ = us)
    (hc : us < 2) (hs : b.mailbox_ m.src = code us PAWN)
    (hd : b.mailbox_ m.dst = 0xFF) (hcap : capSqOf us m.dst < 64)
    (hcm : b.mailbox_ (capSqOf us m.dst) = code (Color.flip us) PAWN) :
    Effect b m
      (setAt (setAt (setAt b.mailbox_ (capSqOf us m.dst) 0xFF) m.src 0xFF) m.dst (code us PAWN)) := by
  have hcp : us < 2 ∧ PAWN < 6 := ⟨hc, by decide⟩
  have hthem := flip_lt hc
  have hcq : (Color.flip us) < 2 ∧ PAWN < 6 := ⟨hthem, by decide⟩
  have n1 : m.src ≠ capSqOf us m.dst := by
    intro e
    rw [← e, hs] at hcm
    exact flip_ne hc (code_inj hcp hcq hcm).1.symm
  have c1 := count_clear (f := b.mailbox_) hcap (by rw [hcm]; exact code_ne_empty hcq)
  have c2 := count_clear (f := setAt b.mailbox_ (capSqOf us m.dst) 0xFF) m.src_lt
    (by rw [setAt_other _ _ n1, hs]; exact code_ne_empty hcp)
  have e3 : setAt (setAt b.mailbox_ (capSqOf us m.dst) 0xFF) m.src 0xFF m.dst = 0xFF := by
    by_cases h1 : m.dst = m.src
    · rw [h1, setAt_same]
    · rw [setAt_other _ _ h1]
      by_cases h2 : m.dst = capSqOf us m.dst
      · rw [← h2, setAt_same]
      · rw [setAt_other _ _ h2, hd]
  have c3 := count_put_empty (v := code us PAWN) m.dst_lt e3 (code_ne_empty hcp)
  refine ⟨⟨PAWN, by decide, by rw [setAt_same, hus]⟩, ?_, by omega, fun h => absurd hd h⟩
  intro s hsne
  by_cases h1 : s = m.dst
  · exact Or.inr (Or.inl h1)
  · by_cases h2 : s = m.src
    · exact Or.inl h2
    · by_cases h3 : s = capSqOf us m.dst
      · rw [h3, hus]
        exact Or.inr (Or.inr (Or.inl hcm))
      · rw [setAt_other _ _ h1, setAt_other _ _ h2, setAt_other _ _ h3] at hsne
        exact absurd rfl hsne

theorem effect_castling {b : Board} {m : Move} {us : Nat} (hus : b.sideToMove_ = us)
    (hc : us < 2) (hs : b.mailbox_ m.src = code us KING)
    (hd : b.mailbox_ m.dst = 0xFF) {rf rt : Nat} (hrfl : rf < 64) (hrtl : rt < 64)
    (hrm : b.mailbox_ rf = code us ROOK) (hre : b.mailbox_ rt = 0xFF) (hne : rt ≠ m.dst) :
    Effect b m
      (setAt (setAt (setAt (setAt b.mailbox_ m.src 0xFF) m.dst (code us KING)) rf 0xFF) rt
        (code us ROOK)) := by
  have hck : us < 2 ∧ KING < 6 := ⟨hc, by decide⟩
  have hcr : us < 2 ∧ ROOK < 6 := ⟨hc, by decide⟩
  have n1 : rf ≠ m.src := by
    intro e1; rw [e1, hs] at hrm
    exact absurd (code_inj hck hcr hrm).2 (by decide)
  have n2 : rf ≠ m.dst := by
    intro e1; rw [e1, hd] at hrm
    exact code_ne_empty hcr hrm.symm
  have n3 : rt ≠ rf := by
    intro e1; rw [e1, hrm] at hre
    exact code_ne_empty hcr hre
  have n4 : rt ≠ m.src := by
    intro e1; rw [e1, hs] at hre
    exact code_ne_empty hck hre
  have n5 : m.dst ≠ m.src := by
    intro e1; rw [e1, hs] at hd
    exact code_ne_empty hck hd
  have c1 := count_clear (f := b.mailbox_) m.src_lt (by rw [hs]; exact code_ne_empty hck)
  have c2 := count_put_empty (f := setAt b.mailbox_ m.src 0xFF) (v := code us KING) m.dst_lt
    (by rw [setAt_other _ _ n5, hd]) (code_ne_empty hck)
  have c3 := count_clear (f := setAt (setAt b.mailbox_ m.src 0xFF) m.dst (code us KING)) hrfl
    (by rw [setAt_other _ _ n2, setAt_other _ _ n1, hrm]; exact code_ne_empty hcr)
  have c4 := count_put_empty
    (f := setAt (setAt (setAt b.mailbox_ m.src 0xFF) m.dst (code us KING)) rf 0xFF)
    (v := code us ROOK) hrtl
    (by rw [setAt_other _ _ n3, setAt_other _ _ hne, setAt_other _ _ n4, hre])
    (code_ne_empty hcr)
  refine ⟨⟨KING, by decide, ?_⟩, ?_, by omega, fun h => absurd hd h⟩
  · rw [setAt_other _ _ (Ne.symm hne), setAt_other _ _ (Ne.symm n2), setAt_same, hus]
  · intro s hsne
    by_cases h1 : s = m.dst
    · exact Or.inr (Or.inl h1)
    · by_cases h2 : s = m.src
      · exact Or.inl h2
      · by_cases h3 : s = rf
        · rw [h3, hus]
          exact Or.inr (Or.inr (Or.inr (Or.inr ⟨hrm, hs⟩)))
        · by_cases h4 : s = rt
          · rw [h4]
            exact Or.inr (Or.inr (Or.inr (Or.inl hre)))
          · rw [setAt_other _ _ h4, setAt_other _ _ h3, setAt_other _ _ h1,
              setAt_other _ _ h2] at hsne
            exact absurd rfl hsne

/-- The squares after a move of one of the kinds that the generator emits. -/
theorem MoveOk.effect {b : Board} {m : Move} (hi : b.Inv) (hus : b.sideToMove_ < 2)
    (h : MoveOk b m) : ∃ mb ks, After b m mb ks ∧ Effect b m mb := by
  cases h with
  | normal pt hpt ht hs hd =>
    exact ⟨_, _, after_normal hi rfl ⟨hus, hpt⟩ ht hs hd, effect_simple rfl ⟨hus, hpt⟩ hpt hs hd⟩
  | promotion ht hs hd =>
    exact ⟨_, _, after_promotion hi rfl hus ht hs hd,
      effect_simple rfl ⟨hus, by decide⟩ (Nat.lt_of_le_of_lt m.promo_range.2 (by decide)) hs hd⟩
  | enPassant ht hs hd hcap hcm =>
    exact ⟨_, _, after_en_passant hi rfl hus ht hs hd hcap hcm,
      effect_en_passant rfl hus hs hd hcap hcm⟩
  | castling ht hs hd hrf hrt hrm hre hne =>
    exact ⟨_, _, after_castling hi rfl hus ht hs hd rfl rfl hrf hrt hrm hre hne,
      effect_castling rfl hus hs hd hrf hrt hrm hre hne⟩

end Board

end chess

/-!
# Castling rights after a move
-/

namespace chess

namespace Board

/-- The table `CASTLING_RIGHTS_MASK` against each of the four rights: the right goes with a
move from or to the home square of its king or of its rook, and stays otherwise. -/
theorem mask_table : ∀ s, s < 64 →
    (Tables.CASTLING_RIGHTS_MASK s &&& WHITE_OO = if s = 4 ∨ s = 7 then 0 else WHITE_OO) ∧
    (Tables.CASTLING_RIGHTS_MASK s &&& WHITE_OOO = if s = 4 ∨ s = 0 then 0 else WHITE_OOO) ∧
    (Tables.CASTLING_RIGHTS_MASK s &&& BLACK_OO = if s = 60 ∨ s = 63 then 0 else BLACK_OO) ∧
    (Tables.CASTLING_RIGHTS_MASK s &&& BLACK_OOO = if s = 60 ∨ s = 56 then 0 else BLACK_OOO) := by
  decide!

theorem mask_keeps {x s R k r : Nat}
    (ht : Tables.CASTLING_RIGHTS_MASK s &&& R = if s = k ∨ s = r then 0 else R)
    (h : (x &&& Tables.CASTLING_RIGHTS_MASK s) &&& R ≠ 0) : x &&& R ≠ 0 ∧ s ≠ k ∧ s ≠ r := by
  rw [Nat.land_assoc, ht] at h
  by_cases c : s = k ∨ s = r
  · rw [if_pos c, Nat.and_zero] at h
    exact absurd rfl h
  · rw [if_neg c] at h
    exact ⟨h, fun e => c (Or.inl e), fun e => c (Or.inr e)⟩

/-- A right that is held after the move was held before it, and its king and its rook stand
where they stood. -/
theorem right_kept {b : Board} {m : Move} {mb : Nat → Nat} (hi : b.Inv) (hus : b.sideToMove_ < 2)
    (E : Effect b m mb) {R c k r : Nat} (hc : c < 2) (hk : k < 64)
    (ht : ∀ s, s < 64 → Tables.CASTLING_RIGHTS_MASK s &&& R = if s = k ∨ s = r then 0 else R)
    (hold : b.castling_ &&& R ≠ 0 → b.mailbox_ k = code c KING ∧ b.mailbox_ r = code c ROOK)
    (h : ((b.castling_ &&& Tables.CASTLING_RIGHTS_MASK m.src) &&&
      Tables.CASTLING_RIGHTS_MASK m.dst) &&& R ≠ 0) :
    mb k = code c KING ∧ mb r = code c ROOK := by
  obtain ⟨h1, d1, d2⟩ := mask_keeps (ht _ m.dst_lt) h
  obtain ⟨h2, s1, s2⟩ := mask_keeps (ht _ m.src_lt) h1
  obtain ⟨ok, orr⟩ := hold h2
  have hthem := flip_lt hus
  have hcK : c < 2 ∧ KING < 6 := ⟨hc, by decide⟩
  have hcR : c < 2 ∧ ROOK < 6 := ⟨hc, by decide⟩
  have hP : Color.flip b.sideToMove_ < 2 ∧ PAWN < 6 := ⟨hthem, by decide⟩
  have hR : b.sideToMove_ < 2 ∧ ROOK < 6 := ⟨hus, by decide⟩
  constructor
  · by_contra hne
    have hne2 : mb k ≠ b.mailbox_ k := by rw [ok]; exact hne
    rcases E.frame k hne2 with e | e | e | e | ⟨e, _⟩
    · exact s1 e.symm
    · exact d1 e.symm
    · rw [ok] at e
      exact absurd (code_inj hcK hP e).2 (by decide)
    · rw [ok] at e
      exact code_ne_empty hcK e
    · rw [ok] at e
      exact absurd (code_inj hcK hR e).2 (by decide)
  · by_contra hne
    have hne2 : mb r ≠ b.mailbox_ r := by rw [orr]; exact hne
    rcases E.frame r hne2 with e | e | e | e | ⟨e, e2⟩
    · exact s2 e.symm
    · exact d2 e.symm
    · rw [orr] at e
      exact absurd (code_inj hcR hP e).2 (by decide)
    · rw [orr] at e
      exact code_ne_empty hcR e
    · rw [orr] at e
      have hcu := (code_inj hcR hR e).1
      rw [hcu] at ok
      have k1 := (hi.king _ hus _ hk).1 ok
      have k2 := (hi.king _ hus _ m.src_lt).1 e2
      exact s1 (k2.trans k1.symm)

/-- The predicate `okCastling` in single statements. -/
theorem okCastling_iff (b : Board) :
    b.okCastling = true ↔
      (b.castling_ &&& WHITE_OO ≠ 0 →
        b.mailbox_ 4 = code WHITE KING ∧ b.mailbox_ 7 = code WHITE ROOK) ∧
      (b.castling_ &&& WHITE_OOO ≠ 0 →
        b.mailbox_ 4 = code WHITE KING ∧ b.mailbox_ 0 = code WHITE ROOK) ∧
      (b.castling_ &&& BLACK_OO ≠ 0 →
        b.mailbox_ 60 = code BLACK KING ∧ b.mailbox_ 63 = code BLACK ROOK) ∧
      (b.castling_ &&& BLACK_OOO ≠ 0 →
        b.mailbox_ 60 = code BLACK KING ∧ b.mailbox_ 56 = code BLACK ROOK) := by
  unfold okCastling
  simp only [Bool.and_eq_true, Bool.or_eq_true, beq_iff_eq, ne_eq]
  constructor
  · rintro ⟨⟨⟨c1, c2⟩, c3⟩, c4⟩
    exact ⟨fun h => c1.resolve_left h, fun h => c2.resolve_left h, fun h => c3.resolve_left h,
      fun h => c4.resolve_left h⟩
  · rintro ⟨c1, c2, c3, c4⟩
    exact ⟨⟨⟨Decidable.or_iff_not_imp_left.2 c1, Decidable.or_iff_not_imp_left.2 c2⟩,
      Decidable.or_iff_not_imp_left.2 c3⟩, Decidable.or_iff_not_imp_left.2 c4⟩

/-- The castling rights stay genuine under a move of one of the kinds that the generator
emits. -/
theorem castling_kept {b : Board} {m : Move} (Z : ZobristKeys) (hi : b.Inv)
    (hus : b.sideToMove_ < 2) (hc : b.okCastling = true) {mb ks : Nat → Nat}
    (A : After b m mb ks) (E : Effect b m mb) : (b.moved Z m).okCastling = true := by
  obtain ⟨o1, o2, o3, o4⟩ := (okCastling_iff b).1 hc
  have hm : (b.moved Z m).mailbox_ = mb := by rw [← A.mailbox]; rfl
  have hcs : (b.moved Z m).castling_ = (b.castling_ &&& Tables.CASTLING_RIGHTS_MASK m.src) &&&
      Tables.CASTLING_RIGHTS_MASK m.dst := rfl
  rw [okCastling_iff, hm, hcs]
  exact ⟨right_kept hi hus E (by decide) (by decide) (fun s hs => (mask_table s hs).1) o1,
    right_kept hi hus E (by decide) (by decide) (fun s hs => (mask_table s hs).2.1) o2,
    right_kept hi hus E (by decide) (by decide) (fun s hs => (mask_table s hs).2.2.1) o3,
    right_kept hi hus E (by decide) (by decide) (fun s hs => (mask_table s hs).2.2.2) o4⟩

end Board

end chess

/-!
# A legal move leads from a consistent position to a consistent position
-/

namespace chess

namespace Board

theorem ranges_moved (Z : ZobristKeys) {b : Board} (R : b.Ranges) (m : Move) :
    (b.moved Z m).Ranges := by
  refine ⟨flip_lt R.side, ?_, ?_, Nat.mod_lt _ (by omega), ?_, ?_⟩
  · show (b.castling_ &&& Tables.CASTLING_RIGHTS_MASK m.src) &&&
      Tables.CASTLING_RIGHTS_MASK m.dst < 16
    exact Nat.lt_of_le_of_lt (Nat.le_trans Nat.and_le_left Nat.and_le_left) R.castling
  · show (if b.pieceAt m.src = PAWN ∨
        (if b.isEmpty m.dst then NO_PIECE else b.pieceAt m.dst) ≠ NO_PIECE
      then 0 else (b.halfmove_ + 1) % 256) < 256
    have k : ∀ (p : Prop) [Decidable p], (if p then 0 else (b.halfmove_ + 1) % 256) < 256 := by
      intro p _
      split <;> omega
    exact k _
  · show -1 ≤ epAfter b m
    unfold epAfter
    split
    · omega
    · exact Int.le_refl _
  · show epAfter b m < 64
    unfold epAfter
    have h1 := m.src_lt
    have h2 := m.dst_lt
    split
    · omega
    · decide

theorem not_sixteen_of_push {s t : Nat} (hf : Spec.dFile s t = 0)
    (hr : Spec.dRank s t = 1 ∨ Spec.dRank s t = -1) : ((t : Int) - (s : Int)).natAbs ≠ 16 := by
  unfold Spec.dFile Spec.dRank at *
  simp only [rankOf_eq, fileOf_eq] at *
  omega

theorem not_sixteen_of_takes {us s t : Nat} (hus : us < 2) (h : Spec.pawnTakes us s t = true) :
    ((t : Int) - (s : Int)).natAbs ≠ 16 := by
  unfold Spec.pawnTakes at h
  simp only [Bool.and_eq_true, beq_iff_eq] at h
  obtain ⟨h1, h2⟩ := h
  have hf : Spec.forward us = 1 ∨ Spec.forward us = -1 := by
    have : us = 0 ∨ us = 1 := by omega
    rcases this with rfl | rfl
    · exact Or.inl rfl
    · exact Or.inr rfl
  rw [← h2] at hf
  unfold Spec.dFile at h1
  unfold Spec.dRank at h2 hf
  simp only [rankOf_eq, fileOf_eq] at *
  omega

section

variable {T : Lookups} {b : Board}

/-- The en-passant square after a move is `-1` or genuine. -/
theorem Pos.ep_after (P : Pos T b) (Z : ZobristKeys) {m : Move}
    (h : Spec.pseudoLegal T b m = true) {mb ks : Nat → Nat} (A : After b m mb ks) :
    (b.moved Z m).okEnPassant = true := by
  have hus := P.rng.side
  have hm : (b.moved Z m).mailbox_ = mb := by rw [← A.mailbox]; rfl
  have he : (b.moved Z m).epSquare_ = epAfter b m := rfl
  have hsd : (b.moved Z m).sideToMove_ = Color.flip b.sideToMove_ := rfl
  unfold okEnPassant
  rw [he, hsd, hm]
  unfold epAfter
  by_cases hc : (m.type ≠ MT_CASTLING ∧ m.type ≠ MT_PROMOTION) ∧ b.pieceAt m.src = PAWN ∧
      ((m.dst : Int) - (m.src : Int)).natAbs = 16
  swap
  · rw [if_neg hc]
    rfl
  rw [if_pos hc]
  obtain ⟨⟨t1, t2⟩, hp, h16⟩ := hc
  have hfw : Spec.forward b.sideToMove_ = 1 ∨ Spec.forward b.sideToMove_ = -1 := by
    have : b.sideToMove_ = 0 ∨ b.sideToMove_ = 1 :=
      (show ∀ c : Nat, c < 2 → c = 0 ∨ c = 1 by omega) _ hus
    rcases this with e | e
    · rw [e]; exact Or.inl rfl
    · rw [e]; exact Or.inr rfl
  have hpt : ∀ pt : Nat, pt < 6 → b.mailbox_ m.src = code b.sideToMove_ pt → pt = PAWN := by
    intro pt hpt hs
    unfold pieceAt at hp
    rw [hs, code_and7 ⟨hus, hpt⟩] at hp
    exact hp
  rcases P.move_shape h with ⟨t, _, n⟩ | ⟨t, _⟩ | ⟨t, _, _, _, tk⟩ | ⟨t, _⟩
  · rcases n with ⟨hs, _, pat⟩ | ⟨hs, _⟩ | ⟨pt, hpt6, hne, _, hs⟩
    · rcases pat with pat | pat | ⟨pat, _⟩
      · obtain ⟨⟨f0, r0⟩, _⟩ := (pushPat_iff _ _ _ _).1 pat
        rw [← r0] at hfw
        exact absurd h16 (not_sixteen_of_push f0 hfw)
      · obtain ⟨r1, ⟨f0, r0⟩, hmid, hd⟩ := (doublePat_iff _ _ _ _).1 pat
        have A2 := after_normal P.inv rfl ⟨hus, (by decide : PAWN < 6)⟩ t hs (Or.inl hd)
        have emb : mb = setAt (setAt b.mailbox_ m.src 0xFF) m.dst (code b.sideToMove_ PAWN) :=
          A.mailbox.symm.trans A2.mailbox
        have hs64 := m.src_lt
        have hd64 := m.dst_lt
        unfold Spec.dFile at f0
        unfold Spec.dRank at r0
        unfold Spec.startRank at r1
        unfold Spec.forward at r0
        simp only [rankOf_eq, fileOf_eq] at f0 r0 r1
        have hcs : b.sideToMove_ = 0 ∨ b.sideToMove_ = 1 :=
          (show ∀ c : Nat, c < 2 → c = 0 ∨ c = 1 by omega) _ hus
        rcases hcs with e | e
        · rw [e] at r0 r1 emb ⊢
          rw [if_pos (show (0 : Color) = WHITE from rfl)] at r0 r1
          have ed : m.dst = m.src + 16 := by omega
          have emid : (m.src + m.dst) / 2 = m.src + 8 := by omega
          rw [emid] at hmid ⊢
          have e1 : mb (m.src + 8) = 0xFF := by
            rw [emb, setAt_other _ _ (by omega), setAt_other _ _ (by omega)]
            exact hmid
          have e2 : mb (m.src + 8 + 8) = code WHITE PAWN := by
            rw [emb, show m.src + 8 + 8 = m.dst by omega, setAt_same]
            rfl
          have e3 : (((m.src + 8 : Nat) : Int)).toNat = m.src + 8 := Int.toNat_ofNat _
          rw [if_neg (show ¬ Color.flip 0 = WHITE by decide), e3, e1, e2]
          simp only [Bool.or_eq_true, Bool.and_eq_true, decide_eq_true_eq, beq_iff_eq, beq_self_eq_true,
            and_true]
          right
          omega
        · rw [e] at r0 r1 emb ⊢
          rw [if_neg (show ¬ (1 : Color) = WHITE by decide)] at r0 r1
          have ed : m.src = m.dst + 16 := by omega
          have emid : (m.src + m.dst) / 2 = m.dst + 8 := by omega
          rw [emid] at hmid ⊢
          have e1 : mb (m.dst + 8) = 0xFF := by
            rw [emb, setAt_other _ _ (by omega), setAt_other _ _ (by omega)]
            exact hmid
          have e2 : mb (m.dst + 8 - 8) = code BLACK PAWN := by
            rw [emb, show m.dst + 8 - 8 = m.dst by omega, setAt_same]
            rfl
          have e3 : (((m.dst + 8 : Nat) : Int)).toNat = m.dst + 8 := Int.toNat_ofNat _
          rw [if_pos (show Color.flip 1 = WHITE by decide), e3, e1, e2]
          simp only [Bool.or_eq_true, Bool.and_eq_true, decide_eq_true_eq, beq_iff_eq, beq_self_eq_true,
            and_true]
          right
          omega
      · exact absurd h16 (not_sixteen_of_takes hus pat)
    · exact absurd (hpt KING (by decide) hs) (by decide)
    · exact absurd (hpt pt hpt6 hs) hne
  · exact absurd t t2
  · exact absurd h16 (not_sixteen_of_takes hus tk)
  · exact absurd t t1

/-- A legal move leads from a consistent position to a consistent position. -/
theorem Pos.advance (P : Pos T b) (Z : ZobristKeys) {m : Move}
    (h : Spec.legal T Z b m = true) : Pos T (b.moved Z m) := by
  have hok := P.legal_ok Z h
  unfold Spec.legal at h
  rw [Bool.and_eq_true] at h
  obtain ⟨mb, ks, A, E⟩ := hok.effect P.inv P.rng.side
  refine ⟨P.good, A.moved_inv Z, ranges_moved Z P.rng m, ?_,
    castling_kept Z P.inv P.rng.side P.castle A E, P.ep_after Z h.1 A⟩
  intro q hq hatt
  have hs := (safeAfter_iff P Z hok A).1 h.2
  apply hs
  refine ⟨q, hq, ?_⟩
  have hm : (b.moved Z m).mailbox_ = mb := by rw [← A.mailbox]; rfl
  have hk : (b.moved Z m).kingSquare_ = ks := by rw [← A.king]; rfl
  have ho : (b.moved Z m).occupied_ = (b.applyPieces m).occupied_ := rfl
  have hsd : (b.moved Z m).sideToMove_ = Color.flip b.sideToMove_ := rfl
  rw [hm, hk, ho, hsd, flip_flip P.rng.side] at hatt
  exact hatt

end

end Board

end chess

/-!
# Static exchange evaluation (`ThisBot::seeRecapture`, `ThisBot::see`)

The recursion of `seeRecapture` is modelled with fuel: one unit for each activation of the
function. The outcome tells running out of fuel apart from undefined behaviour (the move
list of `generateLegalMoves` overflows or an index of `pieceValues` is 7) and from a returned
value with the board as the call leaves it.
-/

namespace chess

/-- The outcome of a call of `seeRecapture` or `see`. -/
inductive SeeOutcome where
  | outOfFuel : SeeOutcome
  | undefined : SeeOutcome
  | done (value : Int) (board : Board) : SeeOutcome

/-- The value that the call returned, if it returned. -/
def SeeOutcome.value? : SeeOutcome → Option Int
  | SeeOutcome.done v _ => some v
  | _ => none

namespace ThisBot

/-- The loop of `seeRecapture` over the legal moves: the first move onto `square` whose
moving piece has the least value below `minValue`. The array `pieceValues` has 7 entries. -/
def seePick (E : EvalEnv) (board : Board) (square : Int) :
    List Move → Int × Move → Option (Int × Move)
  | [], acc => some acc
  | m :: ms, acc =>
    if (m.dst : Int) ≠ square then seePick E board square ms acc
    else
      let attacker := board.pieceAt m.src
      if attacker < 7 then
        let v := E.pieceValue attacker
        if v < acc.1 then seePick E board square ms (v, m) else seePick E board square ms acc
      else none

/-- The function `seeRecapture`, with one unit of fuel for each activation. -/
def seeRecapture (E : EvalEnv) (T : Lookups) (Z : ZobristKeys) :
    Nat → Board → Int → PieceType → SeeOutcome
  | 0, _, _, _ => SeeOutcome.outOfFuel
  | fuel + 1, board, square, lastVictim =>
    match board.generateLegalMoves T Z with
    | none => SeeOutcome.undefined
    | some (moves, board) =>
      match seePick E board square moves (INF, Move.null) with
      | none => SeeOutcome.undefined
      | some (_, best) =>
        if best.isNull then SeeOutcome.done 0 board
        else
          let undo := (board.makeMove Z best).2
          let board := (board.makeMove Z best).1
          let nextVictim := board.pieceAt best.dst
          if lastVictim < 7 then
            let value := E.pieceValue lastVictim
            match seeRecapture E T Z fuel board square nextVictim with
            | SeeOutcome.done next board =>
              SeeOutcome.done (max 0 (value - next)) (board.unmakeMove best undo)
            | r => r
          else SeeOutcome.undefined

/-- The function `see`; `promoGain pt` is the value
`static_cast<int>(params_->pieceValues[pt] - 100)`, and `fuel` is the fuel of the call of
`seeRecapture`. -/
def see (E : EvalEnv) (promoGain : Nat → Int) (T : Lookups) (Z : ZobristKeys) (fuel : Nat)
    (board : Board) (move : Move) : SeeOutcome :=
  let isCapture := !board.isEmpty move.dst || move.type == MT_EN_PASSANT
  if !isCapture then SeeOutcome.done 0 board
  else
    let captured := if move.type = MT_EN_PASSANT then PAWN else board.pieceAt move.dst
    if captured < 7 then
      let value := E.pieceValue captured
      let mover := board.pieceAt move.src
      let value := if move.type = MT_PROMOTION then value + promoGain move.promo else value
      let undo := (board.makeMove Z move).2
      let board := (board.makeMove Z move).1
      let nextVictim := if move.type = MT_PROMOTION then move.promo else mover
      match seeRecapture E T Z fuel board (move.dst : Int) nextVictim with
      | SeeOutcome.done recapture board =>
        SeeOutcome.done (value - recapture) (board.unmakeMove move undo)
      | r => r
    else SeeOutcome.undefined

/-- The move that the loop of `seeRecapture` picks is the initial one or a move of the list
onto the square. -/
theorem seePick_mem (E : EvalEnv) (board : Board) (square : Int) :
    ∀ (l : List Move) (acc r : Int × Move), seePick E board square l acc = some r →
      r.2 = acc.2 ∨ (r.2 ∈ l ∧ (r.2.dst : Int) = square) := by
  intro l
  induction l with
  | nil =>
    intro acc r h
    exact Or.inl (congrArg Prod.snd (Option.some.inj h)).symm
  | cons m ms ih =>
    intro acc r h
    unfold seePick at h
    by_cases c1 : (m.dst : Int) ≠ square
    · rw [if_pos c1] at h
      rcases ih acc r h with e | ⟨e1, e2⟩
      · exact Or.inl e
      · exact Or.inr ⟨List.mem_cons_of_mem _ e1, e2⟩
    · rw [if_neg c1] at h
      simp only [] at h
      by_cases c2 : board.pieceAt m.src < 7
      · rw [if_pos c2] at h
        by_cases c3 : E.pieceValue (board.pieceAt m.src) < acc.1
        · rw [if_pos c3] at h
          rcases ih _ r h with e | ⟨e1, e2⟩
          · refine Or.inr ⟨?_, ?_⟩
            · rw [e]; exact List.mem_cons_self _ _
            · rw [e]; exact not_not.1 c1
          · exact Or.inr ⟨List.mem_cons_of_mem _ e1, e2⟩
        · rw [if_neg c3] at h
          rcases ih acc r h with e | ⟨e1, e2⟩
          · exact Or.inl e
          · exact Or.inr ⟨List.mem_cons_of_mem _ e1, e2⟩
      · rw [if_neg c2] at h
        exact Option.noConfusion h

end ThisBot

end chess

/-!
# The recursion of `seeRecapture` ends
-/

namespace chess

namespace Board

theorem count_two {f : Nat → Nat} {s t : Nat} (hs : s < 64) (ht : t < 64) (hne : t ≠ s)
    (h1 : f s ≠ 0xFF) (h2 : f t ≠ 0xFF) : 2 ≤ countTo f 64 := by
  have c1 := count_clear hs h1
  have c2 := count_clear (f := setAt f s 0xFF) ht (by rw [setAt_other _ _ hne]; exact h2)
  omega

/-- A consistent position has two kings. -/
theorem Pos.two_pieces {T : Lookups} {b : Board} (P : Pos T b) : 2 ≤ b.pieceCount := by
  have k0 := (P.inv.king 0 (by decide) _ (P.inv.kingLt 0 (by decide))).2 rfl
  have k1 := (P.inv.king 1 (by decide) _ (P.inv.kingLt 1 (by decide))).2 rfl
  refine count_two (P.inv.kingLt 0 (by decide)) (P.inv.kingLt 1 (by decide)) ?_ ?_ ?_
  · intro e
    rw [e, k0] at k1
    exact absurd (code_inj ⟨by decide, by decide⟩ ⟨by decide, by decide⟩ k1).1 (by decide)
  · rw [k0]; exact code_ne_empty ⟨by decide, by decide⟩
  · rw [k1]; exact code_ne_empty ⟨by decide, by decide⟩

end Board

namespace ThisBot

open Board

/-- The square, if it is a square of the board, holds a piece. -/
def Hot (b : Board) (square : Int) : Prop := ∀ s : Nat, (s : Int) = square → b.mailbox_ s ≠ 0xFF

section

variable {T : Lookups} {b : Board}

/-- What `seeRecapture` plays: a legal move onto the square, which leaves a consistent
position with a piece on the square, with no more pieces than before, and with one piece
less if the square held a piece. -/
theorem Pos.see_move (P : Pos T b) (E : EvalEnv) (Z : ZobristKeys) {square : Int}
    {l : List Move} {b2 : Board} (hg : b.generateLegalMoves T Z = some (l, b2))
    {r : Int × Move} (hp : seePick E b2 square l (INF, Move.null) = some r)
    (hn : r.2.isNull = false) :
    b2 = b ∧ MoveOk b r.2 ∧ (b.makeMove Z r.2).1 = b.moved Z r.2 ∧ Pos T (b.moved Z r.2) ∧
      Hot (b.moved Z r.2) square ∧ (b.moved Z r.2).pieceCount ≤ b.pieceCount ∧
      (Hot b square → (b.moved Z r.2).pieceCount + 1 = b.pieceCount) := by
  obtain ⟨hb, _, _, hl⟩ := P.gen_some Z hg
  rcases seePick_mem E b2 square l _ r hp with e | ⟨e1, e2⟩
  · rw [e] at hn
    exact Bool.noConfusion hn
  have hleg := (hl _).1 e1
  have hok := P.legal_ok Z hleg
  obtain ⟨mb, ks, A, F⟩ := hok.effect P.inv P.rng.side
  have hm : (b.moved Z r.2).mailbox_ = mb := by rw [← A.mailbox]; rfl
  have hpc : (b.moved Z r.2).pieceCount = countTo mb 64 := by
    unfold pieceCount
    rw [hm]
  refine ⟨hb, hok, makeMove_fst Z b r.2 r.2.type_lt (hok.pieceAt_ne P.rng.side),
    P.advance Z hleg, ?_, ?_, ?_⟩
  · intro s hs
    have es : s = r.2.dst := Int.ofNat_inj.1 (hs.trans e2.symm)
    obtain ⟨pt, hpt, hd⟩ := F.landed
    rw [hm, es, hd]
    exact code_ne_empty ⟨P.rng.side, hpt⟩
  · rw [hpc]
    exact F.count_le
  · intro hot
    rw [hpc]
    exact F.capture (hot _ e2)

/-- On a square that holds a piece, as many activations as there are pieces but one are
enough. -/
theorem see_hot (E : EvalEnv) (Z : ZobristKeys) (square : Int) :
    ∀ (fuel : Nat) (b : Board) (lastVictim : Nat), Pos T b → Hot b square →
      b.pieceCount ≤ fuel + 1 → seeRecapture E T Z fuel b square lastVictim ≠ SeeOutcome.outOfFuel := by
  intro fuel
  induction fuel with
  | zero =>
    intro b lv P _ hf
    have := P.two_pieces
    omega
  | succ f ih =>
    intro b lv P hot hf
    unfold seeRecapture
    cases hg : b.generateLegalMoves T Z with
    | none => exact fun h => SeeOutcome.noConfusion h
    | some r0 =>
      obtain ⟨l, b2⟩ := r0
      simp only []
      cases hp : seePick E b2 square l (INF, Move.null) with
      | none => exact fun h => SeeOutcome.noConfusion h
      | some r =>
        obtain ⟨v, best⟩ := r
        simp only []
        by_cases hn : best.isNull = true
        · rw [if_pos hn]
          exact fun h => SeeOutcome.noConfusion h
        · rw [if_neg hn]
          obtain ⟨hb, _, hmk, P2, hot2, _, hcap⟩ :=
            Pos.see_move P E Z hg hp (Bool.eq_false_iff.2 hn)
          by_cases hv : lv < 7
          · rw [if_pos hv, hb, hmk]
            have hc : (b.moved Z best).pieceCount + 1 = b.pieceCount := hcap hot
            have key := ih (b.moved Z best) ((b.moved Z best).pieceAt best.dst) P2 hot2
              (by show (b.moved Z best).pieceCount ≤ f + 1; omega)
            cases hr : seeRecapture E T Z f (b.moved Z best) square
                ((b.moved Z best).pieceAt best.dst) with
            | outOfFuel => exact absurd hr key
            | undefined => exact fun h => SeeOutcome.noConfusion h
            | done next b3 => exact fun h => SeeOutcome.noConfusion h
          · rw [if_neg hv]
            exact fun h => SeeOutcome.noConfusion h

/-- As many activations as there are pieces are enough. -/
theorem see_bounded (E : EvalEnv) (Z : ZobristKeys) (square : Int) (fuel : Nat) (b : Board)
    (lastVictim : Nat) (P : Pos T b) (hf : b.pieceCount ≤ fuel) :
    seeRecapture E T Z fuel b square lastVictim ≠ SeeOutcome.outOfFuel := by
  cases fuel with
  | zero =>
    have := P.two_pieces
    omega
  | succ f =>
    unfold seeRecapture
    cases hg : b.generateLegalMoves T Z with
    | none => exact fun h => SeeOutcome.noConfusion h
    | some r0 =>
      obtain ⟨l, b2⟩ := r0
      simp only []
      cases hp : seePick E b2 square l (INF, Move.null) with
      | none => exact fun h => SeeOutcome.noConfusion h
      | some r =>
        obtain ⟨v, best⟩ := r
        simp only []
        by_cases hn : best.isNull = true
        · rw [if_pos hn]
          exact fun h => SeeOutcome.noConfusion h
        · rw [if_neg hn]
          obtain ⟨hb, _, hmk, P2, hot2, hle0, _⟩ :=
            Pos.see_move P E Z hg hp (Bool.eq_false_iff.2 hn)
          have hle : (b.moved Z best).pieceCount ≤ b.pieceCount := hle0
          by_cases hv : lastVictim < 7
          · rw [if_pos hv, hb, hmk]
            have key := see_hot E Z square f (b.moved Z best)
              ((b.moved Z best).pieceAt best.dst) P2 hot2 (by omega)
            cases hr : seeRecapture E T Z f (b.moved Z best) square
                ((b.moved Z best).pieceAt best.dst) with
            | outOfFuel => exact absurd hr key
            | undefined => exact fun h => SeeOutcome.noConfusion h
            | done next b3 => exact fun h => SeeOutcome.noConfusion h
          · rw [if_neg hv]
            exact fun h => SeeOutcome.noConfusion h

end

/-- More fuel does not change the outcome of a call that did not run out of fuel. -/
theorem see_fuel_succ (E : EvalEnv) (T : Lookups) (Z : ZobristKeys) (square : Int) :
    ∀ (fuel : Nat) (b : Board) (lastVictim : Nat),
      seeRecapture E T Z fuel b square lastVictim ≠ SeeOutcome.outOfFuel →
      seeRecapture E T Z (fuel + 1) b square lastVictim =
        seeRecapture E T Z fuel b square lastVictim := by
  intro fuel
  induction fuel with
  | zero =>
    intro b lv h
    exact absurd rfl h
  | succ f ih =>
    intro b lv h
    unfold seeRecapture at h ⊢
    cases hg : b.generateLegalMoves T Z with
    | none => rfl
    | some r0 =>
      obtain ⟨l, b2⟩ := r0
      rw [hg] at h
      simp only [] at h ⊢
      cases hp : seePick E b2 square l (INF, Move.null) with
      | none => rfl
      | some r =>
        obtain ⟨v, best⟩ := r
        rw [hp] at h
        simp only [] at h ⊢
        by_cases hn : best.isNull = true
        · simp only [if_pos hn]
        · simp only [if_neg hn] at h ⊢
          by_cases hv : lv < 7
          · simp only [if_pos hv] at h ⊢
            have key := ih (b2.makeMove Z best).1 ((b2.makeMove Z best).1.pieceAt best.dst)
            cases hr : seeRecapture E T Z f (b2.makeMove Z best).1 square
                ((b2.makeMove Z best).1.pieceAt best.dst) with
            | outOfFuel =>
              rw [hr] at h
              exact absurd rfl h
            | undefined =>
              rw [hr] at key
              rw [key (fun h => SeeOutcome.noConfusion h)]
            | done next b3 =>
              rw [hr] at key
              rw [key (fun h => SeeOutcome.noConfusion h)]
          · simp only [if_neg hv]

theorem see_fuel_le (E : EvalEnv) (T : Lookups) (Z : ZobristKeys) (square : Int) (b : Board)
    (lastVictim : Nat) (fuel : Nat)
    (h : seeRecapture E T Z fuel b square lastVictim ≠ SeeOutcome.outOfFuel) :
    ∀ k, seeRecapture E T Z (fuel + k) b square lastVictim =
      seeRecapture E T Z fuel b square lastVictim := by
  intro k
  induction k with
  | zero => rfl
  | succ k ih =>
    rw [← Nat.add_assoc, see_fuel_succ E T Z square (fuel + k) b lastVictim (by rw [ih]; exact h), ih]

end ThisBot

end chess

/-!
# `seeRecapture` and `see`: the board comes back, and `see` ends
-/

namespace chess

namespace ThisBot

open Board

section

variable {T : Lookups}

/-- A call of `seeRecapture` that returns leaves the board as it found it. -/
theorem see_board (E : EvalEnv) (Z : ZobristKeys) (square : Int) :
    ∀ (fuel : Nat) (b : Board) (lastVictim : Nat) (v : Int) (b2 : Board), Pos T b →
      seeRecapture E T Z fuel b square lastVictim = SeeOutcome.done v b2 → b2 = b := by
  intro fuel
  induction fuel with
  | zero =>
    intro b lv v b2 _ h
    exact SeeOutcome.noConfusion h
  | succ f ih =>
    intro b lv v b2 P h
    unfold seeRecapture at h
    cases hg : b.generateLegalMoves T Z with
    | none =>
      rw [hg] at h
      exact SeeOutcome.noConfusion h
    | some r0 =>
      obtain ⟨l, b1⟩ := r0
      rw [hg] at h
      simp only [] at h
      cases hp : seePick E b1 square l (INF, Move.null) with
      | none =>
        rw [hp] at h
        exact SeeOutcome.noConfusion h
      | some r =>
        obtain ⟨w, best⟩ := r
        rw [hp] at h
        simp only [] at h
        have hb := (P.gen_some Z hg).1
        by_cases hn : best.isNull = true
        · rw [if_pos hn] at h
          injection h with _ h2
          rw [← h2, hb]
        · rw [if_neg hn] at h
          obtain ⟨_, hok, hmk, P2, _, _, _⟩ :=
            Pos.see_move P E Z hg hp (Bool.eq_false_iff.2 hn)
          have hok2 : MoveOk b best := hok
          have hmk2 : (b.makeMove Z best).1 = b.moved Z best := hmk
          have P3 : Pos T (b.moved Z best) := P2
          by_cases hv : lv < 7
          · rw [if_pos hv, hb, hmk2] at h
            cases hr : seeRecapture E T Z f (b.moved Z best) square
                ((b.moved Z best).pieceAt best.dst) with
            | outOfFuel =>
              rw [hr] at h
              exact SeeOutcome.noConfusion h
            | undefined =>
              rw [hr] at h
              exact SeeOutcome.noConfusion h
            | done next b3 =>
              rw [hr] at h
              simp only [] at h
              injection h with _ h2
              have e3 := ih _ _ _ _ P3 hr
              rw [← h2, e3, ← hmk2]
              exact unmake_make Z P.inv P.rng hok2
          · rw [if_neg hv] at h
            exact SeeOutcome.noConfusion h

/-- The function `see` on a legal move of a consistent position: one activation of
`seeRecapture` less than there are pieces is enough. -/
theorem see_ends (E : EvalEnv) (promoGain : Nat → Int) (Z : ZobristKeys) {b : Board}
    (P : Pos T b) {m : Move} (hl : Spec.legal T Z b m = true) (fuel : Nat)
    (hf : b.pieceCount ≤ fuel + 1) :
    see E promoGain T Z fuel b m ≠ SeeOutcome.outOfFuel := by
  have hok := P.legal_ok Z hl
  obtain ⟨mb, ks, A, F⟩ := hok.effect P.inv P.rng.side
  have hm : (b.moved Z m).mailbox_ = mb := by rw [← A.mailbox]; rfl
  have hpc : (b.moved Z m).pieceCount ≤ b.pieceCount := by
    unfold pieceCount
    rw [hm]
    exact F.count_le
  have hot : Hot (b.moved Z m) (m.dst : Int) := by
    intro s hs
    obtain ⟨pt, hpt, hd⟩ := F.landed
    rw [hm, Int.ofNat_inj.1 hs, hd]
    exact code_ne_empty ⟨P.rng.side, hpt⟩
  have hmk := makeMove_fst Z b m m.type_lt (hok.pieceAt_ne P.rng.side)
  unfold see
  simp only []
  by_cases c1 : (!(!b.isEmpty m.dst || m.type == MT_EN_PASSANT)) = true
  · rw [if_pos c1]
    exact fun h => SeeOutcome.noConfusion h
  · rw [if_neg c1]
    generalize (if m.type = MT_EN_PASSANT then PAWN else b.pieceAt m.dst) = cap
    by_cases c2 : cap < 7
    · rw [if_pos c2, hmk]
      have key := see_hot E Z (m.dst : Int) fuel (b.moved Z m)
        (if m.type = MT_PROMOTION then m.promo else b.pieceAt m.src) (P.advance Z hl) hot
        (by omega)
      cases hr : seeRecapture E T Z fuel (b.moved Z m) (m.dst : Int)
          (if m.type = MT_PROMOTION then m.promo else b.pieceAt m.src) with
      | outOfFuel => exact absurd hr key
      | undefined => exact fun h => SeeOutcome.noConfusion h
      | done next b3 => exact fun h => SeeOutcome.noConfusion h
    · rw [if_neg c2]
      exact fun h => SeeOutcome.noConfusion h

end

end ThisBot

/-- C39: for every consistent position, every target square and every victim, a call of
`seeRecapture` nests at most as many activations as there are pieces on the board: with
that much fuel the model does not run out of fuel, its outcome (a returned value, or the
undefined behaviour of an overflowing move list) is the outcome for every larger amount of
fuel, and a call that returns leaves the board as it found it. The same bound holds for
`see` on every move of the list that `generateLegalMoves` returns. -/
theorem C39_see_terminates (E : EvalEnv) (Z : ZobristKeys) (b : Board) (square : Int)
    (lastVictim : Nat) (fuel : Nat) (hc : b.consistent Tables.init = true)
    (hf : b.pieceCount ≤ fuel) :
    ThisBot.seeRecapture E Tables.init Z fuel b square lastVictim ≠ SeeOutcome.outOfFuel ∧
      ThisBot.seeRecapture E Tables.init Z fuel b square lastVictim =
        ThisBot.seeRecapture E Tables.init Z b.pieceCount b square lastVictim ∧
      (∀ v b2, ThisBot.seeRecapture E Tables.init Z fuel b square lastVictim =
        SeeOutcome.done v b2 → b2 = b) ∧
      (∀ (promoGain : Nat → Int) (l : List Move) (b2 : Board) (m : Move),
        b.generateLegalMoves Tables.init Z = some (l, b2) → m ∈ l →
        ThisBot.see E promoGain Tables.init Z fuel b m ≠ SeeOutcome.outOfFuel) := by
  have P := Board.Pos.of_consistent Tables.init_good hc
  have h0 := ThisBot.see_bounded E Z square b.pieceCount b lastVictim P (le_refl _)
  have h1 := ThisBot.see_fuel_le E Tables.init Z square b lastVictim b.pieceCount h0
    (fuel - b.pieceCount)
  rw [Nat.add_sub_cancel' hf] at h1
  refine ⟨ThisBot.see_bounded E Z square fuel b lastVictim P hf, h1,
    fun v b2 h => ThisBot.see_board E Z square fuel b lastVictim v b2 P h, ?_⟩
  intro promoGain l b2 m hg hm
  exact ThisBot.see_ends E promoGain Z P (((P.gen_some Z hg).2.2.2 m).1 hm) fuel (by omega)

end chess

/-!
# An exchange on b8
-/

namespace chess

/-- The position after a7xb8=Q in `1n5k/P7/8/8/8/8/8/K7 w - - 0 1`. -/
def promoTaken : Board :=
  (promoReady.makeMove Zobrist.init (Move.make 48 57 MT_PROMOTION QUEEN)).1

theorem promoTaken_walk :
    promoTaken.consistent Tables.walk = true ∧
      (promoTaken.generateLegalMoves Tables.walk Zobrist.init).map (fun r => r.1) =
        some [Move.normal 63 54, Move.normal 63 55] := by
  decide!

theorem promoTaken_gen :
    promoTaken.consistent Tables.init = true ∧
      promoTaken.generateLegalMoves Tables.init Zobrist.init =
        some ([Move.normal 63 54, Move.normal 63 55], promoTaken) :=
  gen_of_walk promoTaken_walk.1 promoTaken_walk.2

namespace ThisBot

theorem seePick_skip (E : EvalEnv) (b : Board) (square : Int) (m : Move) (ms : List Move)
    (acc : Int × Move) (h : (m.dst : Int) ≠ square) :
    seePick E b square (m :: ms) acc = seePick E b square ms acc := by
  rw [seePick, if_pos h]

theorem seePick_take (E : EvalEnv) (b : Board) (square : Int) (m : Move) (ms : List Move)
    (acc : Int × Move) (h : (m.dst : Int) = square) (ha : b.pieceAt m.src < 7)
    (hv : E.pieceValue (b.pieceAt m.src) < acc.1) :
    seePick E b square (m :: ms) acc = seePick E b square ms (E.pieceValue (b.pieceAt m.src), m) := by
  rw [seePick, if_neg (not_not.2 h)]
  simp only []
  rw [if_pos ha, if_pos hv]

theorem seePick_keep (E : EvalEnv) (b : Board) (square : Int) (m : Move) (ms : List Move)
    (acc : Int × Move) (h : (m.dst : Int) = square) (ha : b.pieceAt m.src < 7)
    (hv : ¬ E.pieceValue (b.pieceAt m.src) < acc.1) :
    seePick E b square (m :: ms) acc = seePick E b square ms acc := by
  rw [seePick, if_neg (not_not.2 h)]
  simp only []
  rw [if_pos ha, if_neg hv]

theorem promoReady_attackers :
    promoReady.pieceAt (Move.make 48 57 MT_PROMOTION QUEEN).src = PAWN ∧
      promoReady.pieceAt (Move.make 48 57 MT_PROMOTION ROOK).src = PAWN ∧
      promoReady.pieceAt (Move.make 48 57 MT_PROMOTION BISHOP).src = PAWN ∧
      promoReady.pieceAt (Move.make 48 57 MT_PROMOTION KNIGHT).src = PAWN :=
  ⟨by decide!, by decide!, by decide!, by decide!⟩

/-- The loop of `seeRecapture` on b8 in `1n5k/P7/8/8/8/8/8/K7 w - - 0 1`: the first of the
four promotions with capture. -/
theorem promoReady_pick (E : EvalEnv) (h : E.pieceValue PAWN < INF) :
    seePick E promoReady 57
        [Move.normal 0 1, Move.normal 0 8, Move.normal 0 9,
          Move.make 48 56 MT_PROMOTION QUEEN, Move.make 48 56 MT_PROMOTION ROOK,
          Move.make 48 56 MT_PROMOTION BISHOP, Move.make 48 56 MT_PROMOTION KNIGHT,
          Move.make 48 57 MT_PROMOTION QUEEN, Move.make 48 57 MT_PROMOTION ROOK,
          Move.make 48 57 MT_PROMOTION BISHOP, Move.make 48 57 MT_PROMOTION KNIGHT]
        (INF, Move.null) =
      some (E.pieceValue PAWN, Move.make 48 57 MT_PROMOTION QUEEN) := by
  obtain ⟨a1, a2, a3, a4⟩ := promoReady_attackers
  rw [seePick_skip _ _ _ _ _ _ (by decide), seePick_skip _ _ _ _ _ _ (by decide),
    seePick_skip _ _ _ _ _ _ (by decide), seePick_skip _ _ _ _ _ _ (by decide),
    seePick_skip _ _ _ _ _ _ (by decide), seePick_skip _ _ _ _ _ _ (by decide),
    seePick_skip _ _ _ _ _ _ (by decide),
    seePick_take _ _ _ _ _ _ (by decide) (by rw [a1]; decide) (by rw [a1]; exact h),
    seePick_keep _ _ _ _ _ _ (by decide) (by rw [a2]; decide)
      (by rw [a1, a2]; exact Int.lt_irrefl _),
    seePick_keep _ _ _ _ _ _ (by decide) (by rw [a3]; decide)
      (by rw [a1, a3]; exact Int.lt_irrefl _),
    seePick_keep _ _ _ _ _ _ (by decide) (by rw [a4]; decide)
      (by rw [a1, a4]; exact Int.lt_irrefl _), a1]
  rfl

/-- One activation of `seeRecapture`, given the list of legal moves and the move picked. -/
theorem seeRecapture_succ (E : EvalEnv) (T : Lookups) (Z : ZobristKeys) (fuel : Nat) (b : Board)
    (square : Int) (lv : Nat) {l : List Move} {b2 : Board}
    (hg : b.generateLegalMoves T Z = some (l, b2)) {v : Int} {best : Move}
    (hp : seePick E b2 square l (INF, Move.null) = some (v, best)) :
    seeRecapture E T Z (fuel + 1) b square lv =
      if best.isNull then SeeOutcome.done 0 b2
      else if lv < 7 then
        match seeRecapture E T Z fuel (b2.makeMove Z best).1 square
            ((b2.makeMove Z best).1.pieceAt best.dst) with
        | SeeOutcome.done next board =>
          SeeOutcome.done (max 0 (E.pieceValue lv - next))
            (board.unmakeMove best (b2.makeMove Z best).2)
        | r => r
      else SeeOutcome.undefined := by
  conv_lhs => unfold seeRecapture
  rw [hg]
  simp only []
  rw [hp]
  try exact Eq.refl _

/-- The exchange on b8 in `1n5k/P7/8/8/8/8/8/K7 w - - 0 1`: the pawn takes and promotes,
nothing takes back, and `seeRecapture` returns the value of the victim, or 0 if that value is
negative, with the board as it was. -/
theorem promoReady_see (E : EvalEnv) (lastVictim : Nat) (hv : lastVictim < 7)
    (h : E.pieceValue PAWN < INF) :
    seeRecapture E Tables.init Zobrist.init 4 promoReady 57 lastVictim =
      SeeOutcome.done (max 0 (E.pieceValue lastVictim - 0)) promoReady := by
  have hp2 : seePick E promoTaken 57 [Move.normal 63 54, Move.normal 63 55] (INF, Move.null) =
      some (INF, Move.null) := by
    rw [seePick_skip _ _ _ _ _ _ (by decide), seePick_skip _ _ _ _ _ _ (by decide), seePick]
  have inner : ∀ nv, seeRecapture E Tables.init Zobrist.init 3 promoTaken 57 nv =
      SeeOutcome.done 0 promoTaken := fun nv =>
    (seeRecapture_succ E Tables.init Zobrist.init 2 promoTaken 57 nv promoTaken_gen.2 hp2).trans
      (if_pos (by decide))
  have e : (promoReady.makeMove Zobrist.init (Move.make 48 57 MT_PROMOTION QUEEN)).1 =
      promoTaken := by
    unfold promoTaken
    exact Eq.refl _
  have outer : ∃ b2, seeRecapture E Tables.init Zobrist.init (3 + 1) promoReady 57 lastVictim =
      SeeOutcome.done (max 0 (E.pieceValue lastVictim - 0)) b2 := by
    rw [seeRecapture_succ E Tables.init Zobrist.init 3 promoReady 57 lastVictim promoReady_gen.2
      (promoReady_pick E h)]
    rewrite [if_neg (by decide), if_pos hv, e, inner]
    exact ⟨_, Eq.refl _⟩
  obtain ⟨b2, hb⟩ := outer
  have P := Board.Pos.of_consistent Tables.init_good promoReady_gen.1
  have hb4 : seeRecapture E Tables.init Zobrist.init 4 promoReady 57 lastVictim =
      SeeOutcome.done (max 0 (E.pieceValue lastVictim - 0)) b2 := hb
  rw [hb4, see_board E Zobrist.init 57 4 promoReady lastVictim _ b2 P hb4]

end ThisBot

/-- C39, an instance: `1n5k/P7/8/8/8/8/8/K7 w - - 0 1` has four pieces, and four activations
are enough for `seeRecapture` on b8. -/
theorem C39_see_terminates_witness :
    promoReady.consistent Tables.init = true ∧ promoReady.pieceCount ≤ 4 ∧
      ∀ (E : EvalEnv) (lastVictim : Nat),
        ThisBot.seeRecapture E Tables.init Zobrist.init 4 promoReady 57 lastVictim ≠
          SeeOutcome.outOfFuel :=
  ⟨promoReady_gen.1, by decide!, fun E lastVictim =>
    (C39_see_terminates E Zobrist.init promoReady 57 lastVictim 4 promoReady_gen.1
      (by decide!)).1⟩

end chess
